import Mathlib

/-! JOS kernel: environments, physical pages and system calls.

A shallow embedding of `kern/env.c`, `kern/syscall.c` and `kern/sched.c`
together with the parts of the memory manager they call.

Conventions of the embedding.

* A C pointer into `envs[]` or `pages[]` is the index of the element, `none`
  being `NULL`; a pointer to a page-table page is the number of the physical
  frame that holds it.
* An `envid_t` (a signed 32-bit integer) is kept as its 32-bit pattern, a
  natural number below `2^32`; `int32` reads the pattern as a signed value.
* Physical memory is a map from a frame number and a slot (0..511) to the
  64-bit word stored there.
* `int` results are integers: `0`, or `-E_x`.
* A function that can panic, or dereference a null pointer, returns an
  `Option`, and `none` is that outcome.
* `LOG2NENV` is not fixed by the sources at hand; every function that needs
  it takes it as its first argument `lg`, and `NENV lg = 1 << lg`.
-/

namespace JOS

/-! ## Constants -/

/-- Modelled from the spec: `inc/mmu.h` is absent; a frame is a 4 KiB block. -/
def PGSIZE : Nat := 4096

/-- Modelled from the spec: `inc/mmu.h` is absent; log2 of `PGSIZE`. -/
def PGSHIFT : Nat := 12

/-- Modelled from the spec: `inc/mmu.h` is absent; a page table maps 2 MiB. -/
def PTSIZE : Nat := 512 * PGSIZE

/-- Modelled from the spec: `inc/mmu.h` is absent; each table level has 512
entries (four 9-bit indices). -/
def NPDENTRIES : Nat := 512

/-- Modelled from the spec: `inc/mmu.h` is absent; the Present flag. -/
def PTE_P : Nat := 0x001

/-- Modelled from the spec: `inc/mmu.h` is absent; the Writable flag. -/
def PTE_W : Nat := 0x002

/-- Modelled from the spec: `inc/mmu.h` is absent; the User flag. -/
def PTE_U : Nat := 0x004

/-- Modelled from the spec: `inc/mmu.h` is absent; the three bits available
to software. -/
def PTE_AVAIL : Nat := 0xE00

/-- Modelled from the spec: `inc/mmu.h` is absent; the flags a system call
may set. -/
def PTE_SYSCALL : Nat := PTE_AVAIL ||| PTE_P ||| PTE_W ||| PTE_U

/-- Modelled from the spec: `inc/mmu.h` is absent; the interrupt-enable bit
of the flags register. -/
def FL_IF : Nat := 0x200

def GD_KT : Nat := 0x08
def GD_KD : Nat := 0x10
def GD_UT : Nat := 0x18
def GD_UD : Nat := 0x20

def KERNBASE : Nat := 0xC0000000
def KSTACKTOP : Nat := KERNBASE
def MMIOLIM : Nat := KSTACKTOP - PTSIZE
def MMIOBASE : Nat := MMIOLIM - PTSIZE
def ULIM : Nat := MMIOBASE
def UVPT : Nat := 0x10000000000
def UPAGES : Nat := ULIM - 25 * PTSIZE
def UENVS : Nat := UPAGES - PTSIZE
def UTOP : Nat := UENVS
def UXSTACKTOP : Nat := UTOP
def USTACKTOP : Nat := UTOP - 2 * PGSIZE

def ENVGENSHIFT : Nat := 12

/-- Modelled from the spec: `inc/env.h` is absent; the table has
`1 << LOG2NENV` slots. -/
def NENV (lg : Nat) : Nat := 1 <<< lg

/-- Modelled from the spec: `inc/env.h` is absent; the low bits of an id are
the table index. -/
def ENVX (lg : Nat) (envid : Nat) : Nat := envid &&& (NENV lg - 1)

/-- Modelled from the spec: `inc/env.h` is absent; the five statuses, as a C
enumeration starting at `ENV_FREE = 0`. -/
def ENV_FREE : Nat := 0

/-- Modelled from the spec: `inc/env.h` is absent; see `ENV_FREE`. -/
def ENV_DYING : Nat := 1

/-- Modelled from the spec: `inc/env.h` is absent; see `ENV_FREE`. -/
def ENV_RUNNABLE : Nat := 2

/-- Modelled from the spec: `inc/env.h` is absent; see `ENV_FREE`. -/
def ENV_RUNNING : Nat := 3

/-- Modelled from the spec: `inc/env.h` is absent; see `ENV_FREE`. -/
def ENV_NOT_RUNNABLE : Nat := 4

/-- Modelled from the spec: `inc/env.h` is absent; the type of a user
environment. -/
def ENV_TYPE_USER : Nat := 0

/-- Modelled from the spec: `inc/error.h` is absent; the error kinds are
distinct positive codes, returned negated. -/
def E_BAD_ENV : Int := 2

/-- Modelled from the spec: `inc/error.h` is absent; see `E_BAD_ENV`. -/
def E_INVAL : Int := 3

/-- Modelled from the spec: `inc/error.h` is absent; see `E_BAD_ENV`. -/
def E_NO_MEM : Int := 4

/-- Modelled from the spec: `inc/error.h` is absent; see `E_BAD_ENV`. -/
def E_NO_FREE_ENV : Int := 5

/-- Modelled from the spec: `inc/error.h` is absent; see `E_BAD_ENV`. -/
def E_IPC_NOT_RECV : Int := 7

def ALLOC_ZERO : Nat := 1

/-- The signed value of a 32-bit pattern. -/
def int32 (x : Nat) : Int :=
  if x % 2 ^ 32 < 2 ^ 31 then ((x % 2 ^ 32 : Nat) : Int) else ((x % 2 ^ 32 : Nat) : Int) - 2 ^ 32

/-! ## Data -/

/-- The general registers, in the order `env_pop_tf` restores them. -/
structure PushRegs where
  reg_r15 : Nat
  reg_r14 : Nat
  reg_r13 : Nat
  reg_r12 : Nat
  reg_r11 : Nat
  reg_r10 : Nat
  reg_r9 : Nat
  reg_r8 : Nat
  reg_rsi : Nat
  reg_rdi : Nat
  reg_rbp : Nat
  reg_rdx : Nat
  reg_rcx : Nat
  reg_rbx : Nat
  reg_rax : Nat
deriving DecidableEq

/-- The saved register frame: the registers, the trap number and error code
`env_pop_tf` skips, and the frame `iretq` consumes. -/
structure Trapframe where
  tf_regs : PushRegs
  tf_trapno : Nat
  tf_err : Nat
  tf_rip : Nat
  tf_cs : Nat
  tf_eflags : Nat
  tf_rsp : Nat
  tf_ss : Nat
deriving DecidableEq

/-- The result of `memset(&tf, 0, sizeof tf)`. -/
def Trapframe.zero : Trapframe :=
  { tf_regs := ⟨0, 0, 0, 0, 0, 0, 0, 0, 0, 0, 0, 0, 0, 0, 0⟩
    tf_trapno := 0, tf_err := 0, tf_rip := 0, tf_cs := 0, tf_eflags := 0, tf_rsp := 0, tf_ss := 0 }

/-- Modelled from the spec: `inc/env.h` is absent; the process record of
spec §3, with the field names the sources use. -/
structure Env where
  env_tf : Trapframe
  env_link : Option Nat
  env_id : Nat
  env_parent_id : Nat
  env_type : Nat
  env_status : Nat
  env_runs : Nat
  env_cpunum : Nat
  env_pml4e : Option Nat
  env_pgfault_upcall : Nat
  env_ipc_recving : Bool
  env_ipc_dstva : Nat
  env_ipc_value : Nat
  env_ipc_from : Nat
  env_ipc_perm : Nat
deriving DecidableEq

/-- One descriptor of `pages[]` (`inc/memlayout.h`); `pp_ref` is 16 bits wide. -/
structure PageInfo where
  pp_link : Option Nat
  pp_ref : Nat
deriving DecidableEq

/-- The kernel's global state. `cpu_env c` is `curenv` on CPU `c`. -/
structure Kernel where
  npages : Nat
  pages : Nat → PageInfo
  page_free_list : Option Nat
  mem : Nat → Nat → Nat
  kern_pml4 : Nat
  envs : Nat → Env
  env_free_list : Option Nat
  cpu_env : Nat → Option Nat

/-- The current environment of CPU `cpu` (`thiscpu->cpu_env`). -/
def curenv (st : Kernel) (cpu : Nat) : Option Nat := st.cpu_env cpu

/-- Overwrite `envs[i]`. -/
def Kernel.setEnv (st : Kernel) (i : Nat) (e : Env) : Kernel :=
  { st with envs := Function.update st.envs i e }

/-- Overwrite `pages[i]`. -/
def Kernel.setPage (st : Kernel) (i : Nat) (p : PageInfo) : Kernel :=
  { st with pages := Function.update st.pages i p }

/-- Store the word `v` in slot `i` of frame `f`. -/
def Kernel.write (st : Kernel) (f i v : Nat) : Kernel :=
  { st with mem := Function.update st.mem f (Function.update (st.mem f) i v) }

/-- Set `curenv` of CPU `cpu`. -/
def Kernel.setCurenv (st : Kernel) (cpu : Nat) (e : Option Nat) : Kernel :=
  { st with cpu_env := Function.update st.cpu_env cpu e }

/-! ## `kern/env.c`: id resolution -/

/-- `envid2env(envid, env_store, checkperm)`: the result and the pointer
stored in `*env_store`. `none` is the dereference of a null `curenv`. -/
def envid2env (lg : Nat) (st : Kernel) (cpu : Nat) (envid : Nat) (checkperm : Bool) :
    Option (Int × Option Nat) :=
  if envid = 0 then some (0, curenv st cpu)
  else
    let e := ENVX lg envid
    if (st.envs e).env_status = ENV_FREE ∨ (st.envs e).env_id ≠ envid then
      some (-E_BAD_ENV, none)
    else if checkperm = true ∧ some e ≠ curenv st cpu then
      match curenv st cpu with
      | none => none
      | some c =>
        if (st.envs e).env_parent_id ≠ (st.envs c).env_id then some (-E_BAD_ENV, none)
        else some (0, some e)
    else some (0, some e)

/-! ## Addresses and page-table entries -/

/-- Modelled from the spec: `inc/mmu.h` is absent; the frame number of a
physical address. -/
def PGNUM (pa : Nat) : Nat := pa >>> PGSHIFT

/-- Modelled from the spec: `inc/mmu.h` is absent; the physical address held
in the high bits of a 64-bit entry (`pte & ~0xFFF`). -/
def PTE_ADDR (pte : Nat) : Nat := pte &&& 0xFFFFFFFFFFFFF000

/-- Modelled from the spec: `inc/mmu.h` is absent; the PML4 index of a
virtual address. -/
def PML4X (va : Nat) : Nat := (va >>> 39) &&& 0x1FF

/-- Modelled from the spec: `inc/mmu.h` is absent; the PDPT index. -/
def PDPX (va : Nat) : Nat := (va >>> 30) &&& 0x1FF

/-- Modelled from the spec: `inc/mmu.h` is absent; the page-directory index. -/
def PDX (va : Nat) : Nat := (va >>> 21) &&& 0x1FF

/-- Modelled from the spec: `inc/mmu.h` is absent; the page-table index. -/
def PTX (va : Nat) : Nat := (va >>> 12) &&& 0x1FF

/-- Modelled from the spec: `inc/mmu.h` is absent; the virtual address built
from four indices and an offset. -/
def PGADDR (m p d t o : Nat) : Nat :=
  (m <<< 39) ||| (p <<< 30) ||| (d <<< 21) ||| (t <<< 12) ||| o

/-- `page2pa(pp)` of `kern/pmap.h`. -/
def page2pa (pp : Nat) : Nat := pp <<< PGSHIFT

/-- `pa2page(pa)` of `kern/pmap.h`; `none` is its panic. -/
def pa2page (st : Kernel) (pa : Nat) : Option Nat :=
  if PGNUM pa ≥ st.npages then none else some (PGNUM pa)

/-- `KADDR(pa)` of `kern/pmap.h` used as a pointer to a table: the frame the
pointer addresses; `none` is its panic. -/
def KADDR (st : Kernel) (pa : Nat) : Option Nat :=
  if PGNUM pa ≥ st.npages then none else some (PGNUM pa)

/-- The test `entry & PTE_P`. -/
def present (entry : Nat) : Bool := entry &&& PTE_P != 0

/-! ## The physical page allocator and the page-table walker

`kern/pmap.c` is absent; the functions below follow spec §4.1 and §4.2. -/

/-- Modelled from the spec: `kern/pmap.c` is absent; `alloc(flags)` pops the
head of the free list, clears its link, and zero-fills the frame when
`ALLOC_ZERO` is set. The reference count is not touched. -/
def page_alloc (st : Kernel) (alloc_flags : Nat) : Kernel × Option Nat :=
  match st.page_free_list with
  | none => (st, none)
  | some pp =>
    let st1 : Kernel :=
      { st with
        page_free_list := (st.pages pp).pp_link
        pages := Function.update st.pages pp { st.pages pp with pp_link := none } }
    let st2 : Kernel :=
      if alloc_flags &&& ALLOC_ZERO ≠ 0 then
        { st1 with mem := Function.update st1.mem pp (fun _ => 0) }
      else st1
    (st2, some pp)

/-- Modelled from the spec: `kern/pmap.c` is absent; `free(frame)` requires
a zero reference count and a null link and panics (`none`) otherwise; it
pushes the frame on the free list. -/
def page_free (st : Kernel) (pp : Nat) : Option Kernel :=
  if (st.pages pp).pp_ref ≠ 0 ∨ (st.pages pp).pp_link ≠ none then none
  else
    some { st with
      pages := Function.update st.pages pp { st.pages pp with pp_link := st.page_free_list }
      page_free_list := some pp }

/-- The 16-bit increment `pp->pp_ref++`. -/
def incref (st : Kernel) (pp : Nat) : Kernel :=
  st.setPage pp { st.pages pp with pp_ref := ((st.pages pp).pp_ref + 1) % 65536 }

/-- Modelled from the spec: `kern/pmap.c` is absent; decrement the 16-bit
reference count and free the frame when it hits zero. `check_page` of
`kern/pmaptests.h` calls it on a frame whose count is zero, so that is not a
panic: the count wraps. -/
def page_decref (st : Kernel) (pp : Nat) : Option Kernel :=
  let r := (65535 + (st.pages pp).pp_ref) % 65536
  let st1 := st.setPage pp { st.pages pp with pp_ref := r }
  if r = 0 then page_free st1 pp else some st1

/-- Modelled from the spec: `kern/pmap.c` is absent; one non-leaf level of
`walk`: the table the entry `tbl[idx]` points at. An absent entry gives
`NULL` when `create` is false; otherwise a zero-filled frame is allocated,
its count incremented, and its address stored with Present, Writable and
User. -/
def walk_level (st : Kernel) (tbl idx : Nat) (create : Bool) : Option (Kernel × Option Nat) :=
  if present (st.mem tbl idx) then
    (KADDR st (PTE_ADDR (st.mem tbl idx))).map (fun t => (st, some t))
  else if create = false then some (st, none)
  else
    match page_alloc st ALLOC_ZERO with
    | (st1, none) => some (st1, none)
    | (st1, some pp) =>
      let st2 := (incref st1 pp).write tbl idx (page2pa pp ||| PTE_P ||| PTE_W ||| PTE_U)
      (KADDR st2 (PTE_ADDR (st2.mem tbl idx))).map (fun t => (st2, some t))

/-- Modelled from the spec: `kern/pmap.c` is absent; `walk(root, va, create)`
descends PML4, PDPT and page directory and returns the address of the leaf
entry for `va` (the page-table frame and the slot), or `NULL`. -/
def pml4e_walk (st : Kernel) (pml4e : Nat) (va : Nat) (create : Bool) :
    Option (Kernel × Option (Nat × Nat)) :=
  match walk_level st pml4e (PML4X va) create with
  | none => none
  | some (st1, none) => some (st1, none)
  | some (st1, some pdpe) =>
    match walk_level st1 pdpe (PDPX va) create with
    | none => none
    | some (st2, none) => some (st2, none)
    | some (st2, some pgdir) =>
      match walk_level st2 pgdir (PDX va) create with
      | none => none
      | some (st3, none) => some (st3, none)
      | some (st3, some pt) => some (st3, some (pt, PTX va))

/-- Modelled from the spec: `kern/pmap.c` is absent; `lookup(root, va)`
returns the mapped frame and the address of its entry, changing nothing. -/
def page_lookup (st : Kernel) (pml4e : Nat) (va : Nat) : Option (Option (Nat × (Nat × Nat))) :=
  match pml4e_walk st pml4e va false with
  | none => none
  | some (_, none) => some none
  | some (_, some (pt, i)) =>
    if present (st.mem pt i) then
      (pa2page st (PTE_ADDR (st.mem pt i))).map (fun pp => some (pp, (pt, i)))
    else some none

/-- Modelled from the spec: `kern/pmap.c` is absent; `remove(root, va)`: a
no-op when nothing is mapped, else the frame's count is decremented (the frame
freed at zero) and the entry zeroed. The TLB is not modelled. -/
def page_remove (st : Kernel) (pml4e : Nat) (va : Nat) : Option Kernel :=
  match page_lookup st pml4e va with
  | none => none
  | some none => some st
  | some (some (pp, (pt, i))) =>
    match page_decref st pp with
    | none => none
    | some st1 => some (st1.write pt i 0)

/-- The 64-bit pattern of an `int` given by its 32-bit pattern (sign
extension), as when an `int` is or-ed into a 64-bit entry. -/
def sext64 (x : Nat) : Nat :=
  if x % 2 ^ 32 < 2 ^ 31 then x % 2 ^ 32 else x % 2 ^ 32 + (2 ^ 64 - 2 ^ 32)

/-- Modelled from the spec: `kern/pmap.c` is absent; `insert(root, frame, va,
perm)` in the five steps of spec §4.2: walk with `create`, count the frame,
remove a mapping already present, write the entry with `perm | PTE_P`.
`kern/pmap.h` declares `perm` an `int`. -/
def page_insert (st : Kernel) (pml4e : Nat) (pp : Nat) (va : Nat) (perm : Nat) :
    Option (Int × Kernel) :=
  match pml4e_walk st pml4e va true with
  | none => none
  | some (st1, none) => some (-E_NO_MEM, st1)
  | some (st1, some (pt, i)) =>
    let st2 := incref st1 pp
    let st3? := if present (st2.mem pt i) then page_remove st2 pml4e va else some st2
    match st3? with
    | none => none
    | some st3 => some (0, st3.write pt i (page2pa pp ||| sext64 perm ||| PTE_P))

/-! ## `kern/env.c` -/

/-- The body of the loop of `env_init` for slot `i`. -/
def env_init_step (st : Kernel) (i : Nat) : Kernel :=
  { st with
    envs := Function.update st.envs i
      { st.envs i with env_id := 0, env_status := ENV_FREE, env_link := st.env_free_list }
    env_free_list := some i }

/-- `env_init()`: the slots are pushed from `NENV - 1` down to `0`. -/
def env_init (lg : Nat) (st : Kernel) : Kernel :=
  ((List.range (NENV lg)).reverse).foldl env_init_step { st with env_free_list := none }

/-- The virtual addresses `UTOP, UTOP + PGSIZE, ...` below `KERNBASE`. -/
def kernel_window : List Nat :=
  (List.range ((KERNBASE - UTOP) / PGSIZE)).map (fun k => UTOP + k * PGSIZE)

/-- The loop of `env_setup_vm` over the addresses `vas`, for the new root
`root` held in frame `p`. The result is 0 when the loop ran to its end and
`-E_NO_MEM` when it returned early. -/
def env_setup_vm_loop (root p : Nat) : List Nat → Kernel → Option (Int × Kernel)
  | [], st => some (0, st)
  | va :: vas, st =>
    match pml4e_walk st st.kern_pml4 va false with
    | none => none
    | some (st1, none) => env_setup_vm_loop root p vas st1
    | some (st1, some (kt, ki)) =>
      if present (st1.mem kt ki) then
        match pml4e_walk st1 root va true with
        | none => none
        | some (st2, none) => (page_decref st2 p).map (fun s => (-E_NO_MEM, s))
        | some (st2, some (et, ei)) =>
          env_setup_vm_loop root p vas (st2.write et ei (st2.mem kt ki))
      else env_setup_vm_loop root p vas st1

/-- The block of `env_setup_vm` that gives the new root a PDPT in slot 0
when the loop created none. -/
def env_setup_vm_pdpt (root p : Nat) (st : Kernel) : Option (Int × Kernel) :=
  if ¬ present (st.mem root 0) then
    match page_alloc st ALLOC_ZERO with
    | (s, none) => (page_decref s p).map (fun s1 => (-E_NO_MEM, s1))
    | (s, some pdpe_page) =>
      some (0, (incref s pdpe_page).write root 0
        (page2pa pdpe_page ||| PTE_P ||| PTE_U ||| PTE_W))
  else some (0, st)

/-- The end of `env_setup_vm`: mirror slot 3 of the kernel's PDPT and install
the self-map at `PML4X(UVPT)`. -/
def env_setup_vm_mirror (root : Nat) (st : Kernel) : Option (Int × Kernel) :=
  match KADDR st (PTE_ADDR (st.mem root 0)),
        KADDR st (PTE_ADDR (st.mem st.kern_pml4 0)) with
  | some env_pdpe, some kern_pdpe =>
    let st1 := st.write env_pdpe 3 (st.mem kern_pdpe 3)
    some (0, st1.write root (PML4X UVPT) (page2pa root ||| PTE_P ||| PTE_U))
  | _, _ => none

/-- `env_setup_vm(e)`: the result and the new state. The root pointer
`page2kva(p)` is the frame `p` itself, `KADDR` panicking when `p` is not a
frame of `pages[]`. -/
def env_setup_vm (st : Kernel) (e : Nat) : Option (Int × Kernel) :=
  match page_alloc st ALLOC_ZERO with
  | (st1, none) => some (-E_NO_MEM, st1)
  | (st1, some p) =>
    match KADDR st1 (page2pa p) with
    | none => none
    | some root =>
      let st2 := (incref st1 p).setEnv e { st1.envs e with env_pml4e := some root }
      match env_setup_vm_loop root p kernel_window st2 with
      | none => none
      | some (r, st3) =>
        if r < 0 then some (r, st3)
        else
          match env_setup_vm_pdpt root p st3 with
          | none => none
          | some (r4, st4) =>
            if r4 < 0 then some (r4, st4)
            else env_setup_vm_mirror root st4

/-- The initial register frame `env_alloc` builds. -/
def initial_tf : Trapframe :=
  { Trapframe.zero with
    tf_ss := GD_UD ||| 3
    tf_rsp := USTACKTOP
    tf_cs := GD_UT ||| 3
    tf_eflags := Trapframe.zero.tf_eflags ||| FL_IF }

/-- The id `env_alloc` computes for slot `e` from the id stored there: 32-bit
signed arithmetic, wrapping. -/
def next_env_id (lg : Nat) (old_id : Nat) (e : Nat) : Nat :=
  let generation := ((old_id + (1 <<< ENVGENSHIFT)) % 2 ^ 32) &&& (2 ^ 32 - 1 - (NENV lg - 1))
  let generation := if int32 generation ≤ 0 then 1 <<< ENVGENSHIFT else generation
  (generation ||| e) % 2 ^ 32

/-- `env_alloc(newenv_store, parent_id)`: the result, the pointer written to
`*newenv_store` (`none` when it is not written), and the new state. -/
def env_alloc (lg : Nat) (st : Kernel) (parent_id : Nat) : Option (Int × Option Nat × Kernel) :=
  match st.env_free_list with
  | none => some (-E_NO_FREE_ENV, none, st)
  | some e =>
    match env_setup_vm st e with
    | none => none
    | some (r, st1) =>
      if r < 0 then some (r, none, st1)
      else
        let env := st1.envs e
        let env1 : Env :=
          { env with
            env_id := next_env_id lg env.env_id e
            env_parent_id := parent_id
            env_type := ENV_TYPE_USER
            env_status := ENV_RUNNABLE
            env_runs := 0
            env_tf := initial_tf
            env_pgfault_upcall := 0
            env_ipc_recving := false }
        some (0, some e, { st1.setEnv e env1 with env_free_list := env.env_link })

/-- The slot numbers `0, 1, ..., NPDENTRIES - 1` of a table, in loop order. -/
def table_slots : List Nat := List.range NPDENTRIES

/-- The innermost loop of `env_free`: unmap the entries `ptenos` of the page
table `pt`, stopping at the first address not below `UTOP`. -/
def env_free_ptes (root pt pdpe_index pdeno : Nat) : List Nat → Kernel → Option Kernel
  | [], st => some st
  | pteno :: rest, st =>
    if PGADDR 0 pdpe_index pdeno pteno 0 < UTOP then
      if present (st.mem pt pteno) then
        match page_remove st root (PGADDR 0 pdpe_index pdeno pteno 0) with
        | none => none
        | some st1 => env_free_ptes root pt pdpe_index pdeno rest st1
      else env_free_ptes root pt pdpe_index pdeno rest st
    else some st

/-- The middle loop of `env_free`: for each mapped page table of the page
directory `env_pgdir`, unmap its pages and free the table. -/
def env_free_pdes (root env_pgdir pdpe_index : Nat) : List Nat → Kernel → Option Kernel
  | [], st => some st
  | pdeno :: rest, st =>
    if ¬ present (st.mem env_pgdir pdeno) then env_free_pdes root env_pgdir pdpe_index rest st
    else
      let pa := PTE_ADDR (st.mem env_pgdir pdeno)
      (KADDR st pa).bind fun pt =>
      (env_free_ptes root pt pdpe_index pdeno table_slots st).bind fun st1 =>
      let st2 := st1.write env_pgdir pdeno 0
      (pa2page st2 pa).bind fun pp =>
      (page_decref st2 pp).bind fun st3 =>
      env_free_pdes root env_pgdir pdpe_index rest st3

/-- The outer loop of `env_free` over the entries of the PDPT `env_pdpe`. -/
def env_free_pdpes (root env_pdpe : Nat) : List Nat → Kernel → Option Kernel
  | [], st => some st
  | pdpe_index :: rest, st =>
    if ¬ present (st.mem env_pdpe pdpe_index) then env_free_pdpes root env_pdpe rest st
    else
      (KADDR st (PTE_ADDR (st.mem env_pdpe pdpe_index))).bind fun env_pgdir =>
      (env_free_pdes root env_pgdir pdpe_index table_slots st).bind fun st1 =>
      let pa := PTE_ADDR (st1.mem env_pdpe pdpe_index)
      let st2 := st1.write env_pdpe pdpe_index 0
      (pa2page st2 pa).bind fun pp =>
      (page_decref st2 pp).bind fun st3 =>
      env_free_pdpes root env_pdpe rest st3

/-- `env_free(e)`; `none` is a panic or the dereference of a null root. -/
def env_free (st : Kernel) (e : Nat) : Option Kernel :=
  match (st.envs e).env_pml4e with
  | none => none
  | some root =>
    match KADDR st (PTE_ADDR (st.mem root 0)) with
    | none => none
    | some env_pdpe =>
      match env_free_pdpes root env_pdpe [0, 1, 2] st with
      | none => none
      | some st1 =>
        match pa2page st1 (PTE_ADDR (st1.mem root 0)) with
        | none => none
        | some pdpt_pp =>
          match page_decref st1 pdpt_pp with
          | none => none
          | some st2 =>
            let pa := page2pa root
            let st3 := st2.setEnv e { st2.envs e with env_pml4e := none }
            match pa2page st3 pa with
            | none => none
            | some pml4_pp =>
              match page_decref st3 pml4_pp with
              | none => none
              | some st4 =>
                some { st4.setEnv e
                        { st4.envs e with env_status := ENV_FREE, env_link := st4.env_free_list }
                      with env_free_list := some e }

/-- `env_run(e)` on CPU `cpu`, up to the return to user mode. `none` is the
panic of `PADDR` on a null root. -/
def env_run (st : Kernel) (cpu : Nat) (e : Nat) : Option Kernel :=
  let st1 : Kernel :=
    match curenv st cpu with
    | some c =>
      if (st.envs c).env_status = ENV_RUNNING then
        st.setEnv c { st.envs c with env_status := ENV_RUNNABLE }
      else st
    | none => st
  let st2 := st1.setCurenv cpu (some e)
  let st3 := st2.setEnv e { st2.envs e with env_status := ENV_RUNNING }
  let st4 := st3.setEnv e { st3.envs e with env_runs := ((st3.envs e).env_runs + 1) % 2 ^ 32 }
  match (st4.envs e).env_pml4e with
  | none => none
  | some _ => some (st4.setEnv e { st4.envs e with env_cpunum := cpu })

/-- `sched_halt()` on CPU `cpu`: with no environment runnable, running or
dying the CPU stays in the monitor; otherwise it gives up its `curenv` and
halts. -/
def sched_halt (lg : Nat) (st : Kernel) (cpu : Nat) : Kernel :=
  if (List.range (NENV lg)).all (fun i =>
      ¬ ((st.envs i).env_status = ENV_RUNNABLE ∨ (st.envs i).env_status = ENV_RUNNING ∨
         (st.envs i).env_status = ENV_DYING)) then st
  else st.setCurenv cpu none

/-- `sched_yield()` on CPU `cpu`. -/
def sched_yield (lg : Nat) (st : Kernel) (cpu : Nat) : Option Kernel :=
  let start :=
    match curenv st cpu with
    | some c => ENVX lg (st.envs c).env_id
    | none => 0
  match (List.range (NENV lg)).find?
      (fun i => (st.envs ((start + 1 + i) % NENV lg)).env_status = ENV_RUNNABLE) with
  | some i => env_run st cpu ((start + 1 + i) % NENV lg)
  | none =>
    match curenv st cpu with
    | some c =>
      if (st.envs c).env_status = ENV_RUNNING then env_run st cpu c
      else some (sched_halt lg st cpu)
    | none => some (sched_halt lg st cpu)

/-- `env_destroy(e)` on CPU `cpu`. -/
def env_destroy (lg : Nat) (st : Kernel) (cpu : Nat) (e : Nat) : Option Kernel :=
  if (st.envs e).env_status = ENV_RUNNING ∧ curenv st cpu ≠ some e then
    some (st.setEnv e { st.envs e with env_status := ENV_DYING })
  else
    match env_free st e with
    | none => none
    | some st1 =>
      if curenv st1 cpu = some e then sched_yield lg (st1.setCurenv cpu none) cpu
      else some st1

/-! ## `kern/syscall.c`

Each system call runs on CPU `cpu` and yields its result and the new state;
`none` is a panic or a null dereference. -/

/-- `sys_getenvid()`. -/
def sys_getenvid (st : Kernel) (cpu : Nat) : Option (Int × Kernel) :=
  match curenv st cpu with
  | none => none
  | some c => some (int32 (st.envs c).env_id, st)

/-- `sys_env_destroy(envid)`. -/
def sys_env_destroy (lg : Nat) (st : Kernel) (cpu : Nat) (envid : Nat) : Option (Int × Kernel) :=
  match envid2env lg st cpu envid true with
  | none => none
  | some (r, e?) =>
    if r < 0 then some (r, st)
    else
      match e? with
      | none => none
      | some e => (env_destroy lg st cpu e).map (fun s => (0, s))

/-- `sys_yield()`. -/
def sys_yield (lg : Nat) (st : Kernel) (cpu : Nat) : Option (Int × Kernel) :=
  (sched_yield lg st cpu).map (fun s => (0, s))

/-- `sys_exofork()`. -/
def sys_exofork (lg : Nat) (st : Kernel) (cpu : Nat) : Option (Int × Kernel) :=
  let parent_id :=
    match curenv st cpu with
    | some c => (st.envs c).env_id
    | none => 0
  match env_alloc lg st parent_id with
  | none => none
  | some (r, e?, st1) =>
    if r < 0 then some (r, st1)
    else
      match e?, curenv st1 cpu with
      | some e, some c =>
        let st2 := st1.setEnv e { st1.envs e with env_status := ENV_NOT_RUNNABLE }
        let st3 := st2.setEnv e { st2.envs e with env_tf := (st2.envs c).env_tf }
        let tf := (st3.envs e).env_tf
        let st4 := st3.setEnv e
          { st3.envs e with env_tf := { tf with tf_regs := { tf.tf_regs with reg_rax := 0 } } }
        some (int32 (st4.envs e).env_id, st4)
      | _, _ => none

/-- `sys_env_set_status(envid, status)`. -/
def sys_env_set_status (lg : Nat) (st : Kernel) (cpu : Nat) (envid : Nat) (status : Nat) :
    Option (Int × Kernel) :=
  if status ≠ ENV_RUNNABLE ∧ status ≠ ENV_NOT_RUNNABLE then some (-E_INVAL, st)
  else
    match envid2env lg st cpu envid true with
    | none => none
    | some (r, e?) =>
      if r < 0 then some (-E_BAD_ENV, st)
      else
        match e? with
        | none => none
        | some e => some (0, st.setEnv e { st.envs e with env_status := status })

/-- `sys_env_set_pgfault_upcall(envid, func)`. -/
def sys_env_set_pgfault_upcall (lg : Nat) (st : Kernel) (cpu : Nat) (envid : Nat) (func : Nat) :
    Option (Int × Kernel) :=
  match envid2env lg st cpu envid true with
  | none => none
  | some (r, e?) =>
    if r < 0 then some (-E_BAD_ENV, st)
    else
      match e? with
      | none => none
      | some e => some (0, st.setEnv e { st.envs e with env_pgfault_upcall := func })

/-- `sys_page_alloc(envid, va, perm)`; `perm` is the 32-bit pattern of the
`int`. -/
def sys_page_alloc (lg : Nat) (st : Kernel) (cpu : Nat) (envid : Nat) (va : Nat) (perm : Nat) :
    Option (Int × Kernel) :=
  match envid2env lg st cpu envid true with
  | none => none
  | some (r, e?) =>
    if r < 0 then some (-E_BAD_ENV, st)
    else if va &&& 0xFFF ≠ 0 then some (-E_INVAL, st)
    else if va ≥ UTOP then some (-E_INVAL, st)
    else if (perm &&& 0xFFF) &&& (2 ^ 32 - 1 - PTE_SYSCALL) ≠ 0 then some (-E_INVAL, st)
    else
      match page_alloc st ALLOC_ZERO with
      | (st1, none) => some (-E_NO_MEM, st1)
      | (st1, some p) =>
        match e? with
        | none => none
        | some e =>
          match (st1.envs e).env_pml4e with
          | none => none
          | some root =>
            match page_insert st1 root p va (perm ||| PTE_U ||| PTE_P) with
            | none => none
            | some (r1, st2) =>
              if r1 < 0 then (page_free st2 p).map (fun s => (-E_NO_MEM, s))
              else some (0, st2)

/-- `sys_page_map(srcenvid, srcva, dstenvid, dstva, perm)`. -/
def sys_page_map (lg : Nat) (st : Kernel) (cpu : Nat) (srcenvid srcva dstenvid dstva perm : Nat) :
    Option (Int × Kernel) :=
  match envid2env lg st cpu srcenvid true with
  | none => none
  | some (r, srcenv?) =>
    if r < 0 then some (-E_BAD_ENV, st)
    else
      match envid2env lg st cpu dstenvid true with
      | none => none
      | some (r1, dstenv?) =>
        if r1 < 0 then some (-E_BAD_ENV, st)
        else if srcva % PGSIZE ≠ 0 ∨ dstva % PGSIZE ≠ 0 then some (-E_INVAL, st)
        else if srcva ≥ UTOP ∨ dstva ≥ UTOP then some (-E_INVAL, st)
        else if perm &&& (2 ^ 32 - 1 - PTE_SYSCALL) ≠ 0 then some (-E_INVAL, st)
        else if perm &&& (PTE_U ||| PTE_P) ≠ (PTE_U ||| PTE_P) then some (-E_INVAL, st)
        else
          match srcenv? with
          | none => none
          | some srcenv =>
            match (st.envs srcenv).env_pml4e with
            | none => none
            | some srcroot =>
              match page_lookup st srcroot srcva with
              | none => none
              | some none => some (-E_INVAL, st)
              | some (some (p, (pt, i))) =>
                if perm &&& PTE_W ≠ 0 ∧ st.mem pt i &&& PTE_W = 0 then some (-E_INVAL, st)
                else
                  match dstenv? with
                  | none => none
                  | some dstenv =>
                    match (st.envs dstenv).env_pml4e with
                    | none => none
                    | some dstroot =>
                      match page_insert st dstroot p dstva perm with
                      | none => none
                      | some (r2, st1) => if r2 < 0 then some (r2, st1) else some (0, st1)

/-- `sys_page_unmap(envid, va)`. -/
def sys_page_unmap (lg : Nat) (st : Kernel) (cpu : Nat) (envid : Nat) (va : Nat) :
    Option (Int × Kernel) :=
  match envid2env lg st cpu envid true with
  | none => none
  | some (r, e?) =>
    if r < 0 then some (-E_BAD_ENV, st)
    else if va % PGSIZE ≠ 0 then some (-E_INVAL, st)
    else if va ≥ UTOP then some (-E_INVAL, st)
    else
      match e? with
      | none => none
      | some e =>
        match (st.envs e).env_pml4e with
        | none => none
        | some root => (page_remove st root va).map (fun s => (0, s))

/-- The page transfer of `sys_ipc_try_send`, taken when `srcva < UTOP`: the
result (negative on error) and the state, with `env_ipc_perm` of the target
`e` set on success. -/
def ipc_transfer (st : Kernel) (cpu : Nat) (e : Nat) (srcva perm : Nat) : Option (Int × Kernel) :=
  if srcva % PGSIZE ≠ 0 then some (-E_INVAL, st)
  else if perm &&& PTE_U = 0 ∨ perm &&& PTE_P = 0 then some (-E_INVAL, st)
  else if perm &&& (2 ^ 32 - 1 - PTE_SYSCALL) ≠ 0 then some (-E_INVAL, st)
  else
    match curenv st cpu with
    | none => none
    | some c =>
      match (st.envs c).env_pml4e with
      | none => none
      | some croot =>
        match page_lookup st croot srcva with
        | none => none
        | some none => some (-E_INVAL, st)
        | some (some (pp, (pt, i))) =>
          if perm &&& PTE_W ≠ 0 ∧ st.mem pt i &&& PTE_W = 0 then some (-E_INVAL, st)
          else if (st.envs e).env_ipc_dstva < UTOP then
            match (st.envs e).env_pml4e with
            | none => none
            | some eroot =>
              match page_insert st eroot pp (st.envs e).env_ipc_dstva perm with
              | none => none
              | some (r, st1) =>
                if r < 0 then some (-E_NO_MEM, st1)
                else some (0, st1.setEnv e { st1.envs e with env_ipc_perm := perm })
          else some (0, st.setEnv e { st.envs e with env_ipc_perm := 0 })

/-- `sys_ipc_try_send(envid, value, srcva, perm)`. -/
def sys_ipc_try_send (lg : Nat) (st : Kernel) (cpu : Nat) (envid value srcva perm : Nat) :
    Option (Int × Kernel) :=
  match envid2env lg st cpu envid false with
  | none => none
  | some (r, e?) =>
    if r < 0 then some (-E_BAD_ENV, st)
    else
      match e? with
      | none => none
      | some e =>
        if (st.envs e).env_ipc_recving = false then some (-E_IPC_NOT_RECV, st)
        else
          let moved :=
            if srcva < UTOP then ipc_transfer st cpu e srcva perm
            else some (0, st.setEnv e { st.envs e with env_ipc_perm := 0 })
          match moved with
          | none => none
          | some (r1, st1) =>
            if r1 < 0 then some (r1, st1)
            else
              match curenv st1 cpu with
              | none => none
              | some c =>
                let st2 := st1.setEnv e { st1.envs e with env_ipc_recving := false }
                let st3 := st2.setEnv e { st2.envs e with env_ipc_from := (st2.envs c).env_id }
                let st4 := st3.setEnv e { st3.envs e with env_ipc_value := value }
                let tf := (st4.envs e).env_tf
                let st5 := st4.setEnv e
                  { st4.envs e with env_tf := { tf with tf_regs := { tf.tf_regs with reg_rax := 0 } } }
                some (0, st5.setEnv e { st5.envs e with env_status := ENV_RUNNABLE })

/-- `sys_ipc_recv(dstva)`. -/
def sys_ipc_recv (lg : Nat) (st : Kernel) (cpu : Nat) (dstva : Nat) : Option (Int × Kernel) :=
  if dstva < UTOP ∧ dstva % PGSIZE ≠ 0 then some (-E_INVAL, st)
  else
    match curenv st cpu with
    | none => none
    | some c =>
      let st1 := st.setEnv c
        { st.envs c with env_ipc_dstva := if dstva < UTOP then dstva else UTOP }
      let st2 := st1.setEnv c { st1.envs c with env_ipc_recving := true }
      let st3 := st2.setEnv c { st2.envs c with env_status := ENV_NOT_RUNNABLE }
      (sched_yield lg st3 cpu).map (fun s => (0, s))

/-! ## Notions the claims use -/

/-- The generation of an id: the id with its low `LOG2NENV` bits cleared,
read as a signed 32-bit value. -/
def generation_of (lg : Nat) (envid : Nat) : Int :=
  int32 (envid &&& (2 ^ 32 - 1 - (NENV lg - 1)))

/-- The id stored in slot `e` after the slot has been allocated `k` times
since `env_init` (which stores 0). -/
def slot_id (lg e : Nat) : Nat → Nat
  | 0 => 0
  | k + 1 => next_env_id lg (slot_id lg e k) e

/-! ## Concrete machines -/

/-- An unused environment record. -/
def blank_env : Env :=
  { env_tf := Trapframe.zero, env_link := none, env_id := 0, env_parent_id := 0, env_type := 0,
    env_status := ENV_FREE, env_runs := 0, env_cpunum := 0, env_pml4e := none,
    env_pgfault_upcall := 0, env_ipc_recving := false, env_ipc_dstva := 0, env_ipc_value := 0,
    env_ipc_from := 0, env_ipc_perm := 0 }

/-- A small machine before `env_init`: 16 frames; frame 0 holds the kernel
PML4, whose slot 0 points at the kernel PDPT in frame 1, which maps nothing
below `KERNBASE`; frames 2..15 are free and chained in order. -/
def boot : Kernel :=
  { npages := 16
    pages := fun i =>
      if 2 ≤ i ∧ i < 15 then ⟨some (i + 1), 0⟩ else ⟨none, if i < 2 then 1 else 0⟩
    page_free_list := some 2
    mem := fun f i => if f = 0 ∧ i = 0 then 0x1007 else 0
    kern_pml4 := 0
    envs := fun _ => blank_env
    env_free_list := none
    cpu_env := fun _ => none }

/-- A small two-CPU machine with `LOG2NENV = 1` in the state reached from
`boot` by `env_init`, two calls of `env_alloc` and one `env_run` on each CPU:
environment 0 (id `0x1000`) runs on CPU 0 and its child, environment 1 (id
`0x1001`), on CPU 1. Frames 2 and 3 hold the root and PDPT of environment 0,
frames 4 and 5 those of environment 1, and frames 6..15 are free. -/
def two_running : Kernel :=
  { npages := 16
    pages := fun i =>
      if 6 ≤ i ∧ i < 15 then ⟨some (i + 1), 0⟩ else ⟨none, if i < 6 then 1 else 0⟩
    page_free_list := some 6
    mem := fun f i =>
      if f = 0 ∧ i = 0 then 0x1007
      else if f = 2 ∧ i = 0 then 0x3007
      else if f = 2 ∧ i = 2 then 0x2005
      else if f = 4 ∧ i = 0 then 0x5007
      else if f = 4 ∧ i = 2 then 0x4005
      else 0
    kern_pml4 := 0
    envs := fun i =>
      if i = 0 then
        { blank_env with
          env_id := 0x1000, env_status := ENV_RUNNING, env_runs := 1, env_pml4e := some 2
          env_tf := initial_tf, env_link := some 1 }
      else if i = 1 then
        { blank_env with
          env_id := 0x1001, env_parent_id := 0x1000, env_status := ENV_RUNNING, env_runs := 1
          env_cpunum := 1, env_pml4e := some 4, env_tf := initial_tf }
      else blank_env
    env_free_list := none
    cpu_env := fun c => if c = 0 then some 0 else if c = 1 then some 1 else none }

/-- The machine `boot` after `env_init` with `LOG2NENV = 1`, at the moment
slot 0 has been allocated and freed `2^19 - 1` times: it is free, at the head
of the free list, and still stores the id of its last occupant. -/
def wrapping : Kernel :=
  { boot with
    envs := fun i =>
      if i = 0 then { blank_env with env_id := 0x7FFFF000, env_link := some 1 } else blank_env
    env_free_list := some 0 }

/-- The state after `env_free` of environment 1 of `two_running`. -/
def two_running_freed : Kernel := (env_free two_running 1).getD two_running

/-- The state after `env_alloc` re-allocates the slot freed in
`two_running_freed`. -/
def two_running_realloc : Kernel :=
  ((env_alloc 1 two_running_freed 0).map (fun r => r.2.2)).getD two_running_freed

/-- The machine `wrapping` with every frame taken: an environment is free but
no memory is. -/
def exhausted : Kernel := { wrapping with page_free_list := none }

/-- The states reached from `env_init` by any sequence of `env_alloc`,
`sys_exofork` and `env_free` (of a slot of the table). -/
inductive IdReach (lg : Nat) (st0 : Kernel) : Kernel → Prop
  | init : IdReach lg st0 (env_init lg st0)
  | alloc (st st' : Kernel) (parent_id : Nat) (r : Int) (store : Option Nat) :
      IdReach lg st0 st → env_alloc lg st parent_id = some (r, store, st') → IdReach lg st0 st'
  | exofork (st st' : Kernel) (cpu : Nat) (r : Int) :
      IdReach lg st0 st → sys_exofork lg st cpu = some (r, st') → IdReach lg st0 st'
  | free (st st' : Kernel) (e : Nat) :
      IdReach lg st0 st → e < NENV lg → env_free st e = some st' → IdReach lg st0 st'

/-- The invariant behind the id invariant: live environments have a positive
id whose index bits are their slot, and the free list and the links of the
table stay inside the table. -/
def IdInv (lg : Nat) (st : Kernel) : Prop :=
  (∀ i, i < NENV lg → (st.envs i).env_status ≠ ENV_FREE →
    0 < int32 (st.envs i).env_id ∧ ENVX lg (st.envs i).env_id = i) ∧
  (∀ e, st.env_free_list = some e → e < NENV lg) ∧
  (∀ i j, i < NENV lg → (st.envs i).env_link = some j → j < NENV lg)

/-- The machine `boot` after `env_init` with `LOG2NENV = 1`. -/
def booted : Kernel := env_init 1 boot

/-- The state after the first `env_alloc` on `booted`. -/
def first_alloc : Kernel := ((env_alloc 1 booted 0).map (fun r => r.2.2)).getD booted

/-- The list `l` is the chain that starts at `h` and follows `link` to
`NULL`. -/
def IsChain (link : Nat → Option Nat) : Option Nat → List Nat → Prop
  | h, [] => h = none
  | h, x :: xs => h = some x ∧ IsChain link (link x) xs

/-- The environment free-list invariant: the chain from `env_free_list`
through `env_link` is a list without repetition whose members are exactly
the environments of the table with status `ENV_FREE`. -/
def FreeListInv (lg : Nat) (st : Kernel) : Prop :=
  ∃ l, IsChain (fun i => (st.envs i).env_link) st.env_free_list l ∧ l.Nodup ∧
    ∀ i, i ∈ l ↔ (i < NENV lg ∧ (st.envs i).env_status = ENV_FREE)

/-- The calling CPU runs no environment or one that is not free. -/
def LiveCurenv (st : Kernel) (cpu : Nat) : Prop :=
  ∀ c, curenv st cpu = some c → (st.envs c).env_status ≠ ENV_FREE

/-- One call, on CPU `cpu` whose current environment (if any) is not free, of
an operation on the environment table; `env_free` and `env_destroy` are
called on an environment of the table that is not free. -/
inductive EnvStep (lg : Nat) (cpu : Nat) : Kernel → Kernel → Prop
  | alloc (st st' : Kernel) (parent_id : Nat) (r : Int) (store : Option Nat) :
      env_alloc lg st parent_id = some (r, store, st') → EnvStep lg cpu st st'
  | free (st st' : Kernel) (e : Nat) :
      e < NENV lg → (st.envs e).env_status ≠ ENV_FREE → env_free st e = some st' →
      EnvStep lg cpu st st'
  | destroy (st st' : Kernel) (e : Nat) :
      e < NENV lg → (st.envs e).env_status ≠ ENV_FREE → LiveCurenv st cpu →
      env_destroy lg st cpu e = some st' → EnvStep lg cpu st st'
  | exofork (st st' : Kernel) (r : Int) :
      sys_exofork lg st cpu = some (r, st') → EnvStep lg cpu st st'
  | set_status (st st' : Kernel) (envid status : Nat) (r : Int) :
      LiveCurenv st cpu → sys_env_set_status lg st cpu envid status = some (r, st') →
      EnvStep lg cpu st st'
  | ipc_try_send (st st' : Kernel) (envid value srcva perm : Nat) (r : Int) :
      LiveCurenv st cpu → sys_ipc_try_send lg st cpu envid value srcva perm = some (r, st') →
      EnvStep lg cpu st st'
  | ipc_recv (st st' : Kernel) (dstva : Nat) (r : Int) :
      LiveCurenv st cpu → sys_ipc_recv lg st cpu dstva = some (r, st') → EnvStep lg cpu st st'

/-- The running invariant: every environment of the table whose status is
`ENV_RUNNING` is the current environment of exactly one CPU. -/
def RunningInv (lg : Nat) (st : Kernel) : Prop :=
  ∀ i, i < NENV lg → (st.envs i).env_status = ENV_RUNNING → ∃! c, st.cpu_env c = some i

/-- From `two_running`: environment 0, on CPU 0, makes its running child
`ENV_RUNNABLE` with `sys_env_set_status` and then calls `sys_yield`. -/
def double_run_trace : Option (Int × Kernel) :=
  (sys_env_set_status 1 two_running 0 0x1001 ENV_RUNNABLE).bind
    (fun r => sys_yield 1 r.2 0)

/-- The state at the end of `double_run_trace`. -/
def double_run : Kernel := (double_run_trace.map (fun r => r.2)).getD two_running

/-- A machine in which environment 0 (root in frame 2, PDPT in frame 3, page
directory in frame 4, page tables in frames 100..227) maps frame 50 at every
page of the first 256 MiB but the last: 65535 mappings, and `pp_ref = 65535`.
It is the state after one `sys_page_alloc` at address 0 and 65534 calls of
`sys_page_map` from address 0 to the following pages. Frames 300..510 are
free. -/
def crowded : Kernel :=
  { npages := 512
    pages := fun i =>
      if 300 ≤ i ∧ i < 510 then ⟨some (i + 1), 0⟩
      else if i = 50 then ⟨none, 65535⟩
      else ⟨none, if i < 300 then 1 else 0⟩
    page_free_list := some 300
    mem := fun f i =>
      if f = 2 ∧ i = 0 then 3 * 4096 + 7
      else if f = 3 ∧ i = 0 then 4 * 4096 + 7
      else if f = 4 ∧ i < 128 then (100 + i) * 4096 + 7
      else if 100 ≤ f ∧ f < 228 ∧ i < 512 ∧ ¬ (f = 227 ∧ i = 511) then 50 * 4096 + 5
      else 0
    kern_pml4 := 0
    envs := fun i =>
      if i = 0 then
        { blank_env with
          env_id := 0x1000, env_status := ENV_RUNNING, env_runs := 1, env_pml4e := some 2
          env_tf := initial_tf }
      else blank_env
    env_free_list := some 1
    cpu_env := fun c => if c = 0 then some 0 else none }

/-- From `crowded`: environment 0 maps its page 0 once more, at the last page
of the 256 MiB (`0xFFFF000`). -/
def overflow_trace1 : Option (Int × Kernel) :=
  sys_page_map 1 crowded 0 0 0 0 0xFFFF000 (PTE_U ||| PTE_P)

/-- Then it maps the page again, at `0x10000000`. -/
def overflow_trace2 : Option (Int × Kernel) :=
  overflow_trace1.bind (fun r => sys_page_map 1 r.2 0 0 0 0 0x10000000 (PTE_U ||| PTE_P))

/-- Then it unmaps `0x10000000`. -/
def overflow_trace3 : Option (Int × Kernel) :=
  overflow_trace2.bind (fun r => sys_page_unmap 1 r.2 0 0 0x10000000)

/-- The list `l` is the page free list of `st`: the chain from
`page_free_list` through `pp_link`, without repetition; its members have a
zero reference count and every other frame has a null link. -/
def PageList (st : Kernel) (l : List Nat) : Prop :=
  IsChain (fun i => (st.pages i).pp_link) st.page_free_list l ∧ l.Nodup ∧
    (∀ f, f ∈ l → (st.pages f).pp_ref = 0) ∧ (∀ f, f ∉ l → (st.pages f).pp_link = none)

/-- The frame free-list invariant. -/
def PageInv (st : Kernel) : Prop := ∃ l, PageList st l

/-- Frame `f` is on the page free list: it is a member of the chain from
`page_free_list` through `pp_link`. -/
def OnPageFreeList (st : Kernel) (f : Nat) : Prop :=
  ∃ l, IsChain (fun i => (st.pages i).pp_link) st.page_free_list l ∧ f ∈ l

/-- The machine `two_running` after environment 0 called
`sys_page_alloc(0, 0, PTE_U | PTE_W | PTE_P)`: frame 6 is mapped at address 0
through the page directory in frame 7 and the page table in frame 8; frames
9..15 are free. -/
def mapped_once : Kernel :=
  { two_running with
    pages := fun i =>
      if 9 ≤ i ∧ i < 15 then ⟨some (i + 1), 0⟩ else ⟨none, if i < 9 then 1 else 0⟩
    page_free_list := some 9
    mem := fun f i =>
      if f = 3 ∧ i = 0 then 0x7007
      else if f = 7 ∧ i = 0 then 0x8007
      else if f = 8 ∧ i = 0 then 0x6007
      else two_running.mem f i }

/-! ## Frame conditions -/

/-- What the memory manager never changes: the environment table, its free
list, the per-CPU current environments, and the two boot-time constants. -/
structure EnvFrame (st st' : Kernel) : Prop where
  envs : st'.envs = st.envs
  env_free_list : st'.env_free_list = st.env_free_list
  cpu_env : st'.cpu_env = st.cpu_env
  npages : st'.npages = st.npages
  kern_pml4 : st'.kern_pml4 = st.kern_pml4

/-- What `env_setup_vm(e)` may change in the environment table: the root
pointer of slot `e` and nothing else. -/
structure SetupFrame (e : Nat) (st st' : Kernel) : Prop where
  envs : ∀ i, i ≠ e → st'.envs i = st.envs i
  env : { st'.envs e with env_pml4e := (st.envs e).env_pml4e } = st.envs e
  env_free_list : st'.env_free_list = st.env_free_list
  cpu_env : st'.cpu_env = st.cpu_env
  npages : st'.npages = st.npages
  kern_pml4 : st'.kern_pml4 = st.kern_pml4

/-- The state `env_alloc` leaves when it gives environment 0 of
`two_running_freed` (id `0x1000`) a child. -/
def two_running_child : Kernel :=
  ((env_alloc 1 two_running_freed 0x1000).map (fun r => r.2.2)).getD two_running_freed

/-- From `two_running`: environment 0 calls `sys_page_alloc(0, 0, PTE_W)`,
a permission without `PTE_U` and `PTE_P`. -/
def alloc_no_user : Option (Int × Kernel) := sys_page_alloc 1 two_running 0 0 0 PTE_W

/-- From `two_running`: environment 0 calls `sys_page_alloc(0, 0, 0x1007)`,
a permission with bit 12 set. -/
def alloc_high_bit : Option (Int × Kernel) := sys_page_alloc 1 two_running 0 0 0 0x1007

/-- The machine `mapped_once` after environment 0 called
`sys_page_map(0, 0, 0, 0x1000, PTE_U | PTE_P)`: page `0x1000` maps frame 6
read-only. -/
def mapped_ro : Kernel :=
  ((sys_page_map 1 mapped_once 0 0 0 0 0x1000 (PTE_U ||| PTE_P)).map (fun r => r.2)).getD
    mapped_once

/-! ## The walk as a recursion over the indices

`pml4e_walk` descends three levels; the definitions below describe a descent
of any depth, so that facts about it are proved once, by induction. -/

/-- The descent from table `tbl` through the indices `idxs`: each level is
one `walk_level`. `pml4e_walk` is the descent from the root through
`PML4X`, `PDPX` and `PDX` (`pml4e_walk_eq`). -/
def walk_from (create : Bool) : List Nat → Kernel → Nat → Option (Kernel × Option Nat)
  | [], st, tbl => some (st, some tbl)
  | idx :: rest, st, tbl =>
    match walk_level st tbl idx create with
    | none => none
    | some (st1, none) => some (st1, none)
    | some (st1, some t) => walk_from create rest st1 t

/-- The table reached from `tbl` through the present entries at `idxs`, in
the state as it is: `some none` when an entry is absent, `none` when `KADDR`
panics. -/
def leaf_from (st : Kernel) : List Nat → Nat → Option (Option Nat)
  | [], tbl => some (some tbl)
  | idx :: rest, tbl =>
    if present (st.mem tbl idx) then
      match KADDR st (PTE_ADDR (st.mem tbl idx)) with
      | none => none
      | some t => leaf_from st rest t
    else some none

/-- The entries (table frame and slot) read on the descent from `tbl`
through `idxs`: it stops after the first absent entry. -/
def cells_from (st : Kernel) : List Nat → Nat → List (Nat × Nat)
  | [], _ => []
  | idx :: rest, tbl =>
    (tbl, idx) ::
      (if present (st.mem tbl idx) then
        match KADDR st (PTE_ADDR (st.mem tbl idx)) with
        | none => []
        | some t => cells_from st rest t
      else [])

/-- The entries `page_lookup(root, va)` reads: one per level, down to the
leaf entry when the three tables above it exist. -/
def walk_cells (st : Kernel) (root va : Nat) : List (Nat × Nat) :=
  cells_from st [PML4X va, PDPX va, PDX va, PTX va] root

/-- The page-table frames on the path of `va`: the root and the tables the
present entries lead to. -/
def walk_tables (st : Kernel) (root va : Nat) : List Nat :=
  (walk_cells st root va).map (fun c => c.1)

/-- The machine `mapped_ro` after environment 0 called
`sys_page_unmap(0, 0x1000)`. -/
def unmapped : Kernel :=
  ((sys_page_unmap 1 mapped_ro 0 0 0x1000).map (fun r => r.2)).getD mapped_ro

/-- A two-CPU machine with `LOG2NENV = 1` in which environment 0 (id
`0x1000`, root in frame 2) runs on CPU 0 and maps frame 8 writable at
`0x400000` (PDPT in frame 3, page directory in frame 6, page table in frame
7), and its child, environment 1 (id `0x1001`, root in frame 4, PDPT in frame
5), waits in `sys_ipc_recv(0x600000)`. Frames 9..15 are free. -/
def ipc_ready : Kernel :=
  { npages := 16
    pages := fun i =>
      if 9 ≤ i ∧ i < 15 then ⟨some (i + 1), 0⟩ else ⟨none, if i < 9 then 1 else 0⟩
    page_free_list := some 9
    mem := fun f i =>
      if f = 0 ∧ i = 0 then 0x1007
      else if f = 2 ∧ i = 0 then 0x3007
      else if f = 2 ∧ i = 2 then 0x2005
      else if f = 3 ∧ i = 0 then 0x6007
      else if f = 6 ∧ i = 2 then 0x7007
      else if f = 7 ∧ i = 0 then 0x8007
      else if f = 4 ∧ i = 0 then 0x5007
      else if f = 4 ∧ i = 2 then 0x4005
      else 0
    kern_pml4 := 0
    envs := fun i =>
      if i = 0 then
        { blank_env with
          env_id := 0x1000, env_status := ENV_RUNNING, env_runs := 1, env_pml4e := some 2
          env_tf := initial_tf }
      else if i = 1 then
        { blank_env with
          env_id := 0x1001, env_parent_id := 0x1000, env_status := ENV_NOT_RUNNABLE
          env_runs := 1, env_cpunum := 1, env_pml4e := some 4, env_tf := initial_tf
          env_ipc_recving := true, env_ipc_dstva := 0x600000 }
      else blank_env
    env_free_list := none
    cpu_env := fun c => if c = 0 then some 0 else none }

/-- The machine `ipc_ready` after environment 0 called
`sys_ipc_try_send(0x1001, 42, 0x400000, PTE_U | PTE_P | PTE_W)`. -/
def ipc_sent : Kernel :=
  ((sys_ipc_try_send 1 ipc_ready 0 0x1001 42 0x400000 (PTE_U ||| PTE_P ||| PTE_W)).map
    (fun r => r.2)).getD ipc_ready


/-- The machine `two_running` at the moment environment 0 has trapped into
the kernel with 13 in `rax`. -/
def recv_caller : Kernel :=
  two_running.setEnv 0
    { two_running.envs 0 with
      env_tf := { initial_tf with tf_regs := { initial_tf.tf_regs with reg_rax := 13 } } }

/-- The state after environment 0 of `recv_caller` called
`sys_ipc_recv(UTOP)`. -/
def recv_blocked : Kernel :=
  ((sys_ipc_recv 1 recv_caller 0 UTOP).map (fun r => r.2)).getD recv_caller

/-- The machine `mapped_once` after `page_insert` mapped frame 6 a second
time, read-only, at `0x1000` in the address space of environment 0. -/
def mapped_twice : Kernel :=
  ((page_insert mapped_once 2 6 0x1000 (PTE_U ||| PTE_P)).map (fun r => r.2)).getD mapped_once

/-! ## Address spaces as trees -/

/-- The index paths of the first three gigabytes: slot 0 of the PML4, and
slots 0 to 2 of the table below it. -/
def UserPath : List Nat → Prop
  | [] => True
  | [a] => a = 0
  | a :: b :: _ => a = 0 ∧ b < 3

/-- The tables that map the first three gigabytes of the address space
rooted at `root` form a tree: `lab` gives each of them the one index path
that leads to it from the root. Their present entries address frames of
`pages[]`, and none of them is on the page free list `l`. -/
structure TableTree (st : Kernel) (l : List Nat) (root : Nat)
    (lab : Nat → Option (List Nat)) : Prop where
  root_lab : lab root = some []
  step : ∀ t p i, lab t = some p → p.length < 3 → UserPath (p ++ [i]) →
    present (st.mem t i) = true →
    ∃ t', KADDR st (PTE_ADDR (st.mem t i)) = some t' ∧ lab t' = some (p ++ [i])
  reach : ∀ t p, lab t = some p →
    p.length ≤ 3 ∧ UserPath p ∧ leaf_from st p root = some (some t)
  notfree : ∀ t p, lab t = some p → t ∉ l

/-- The indices of the three tables above the leaf entry of `va`. -/
def table_path (va : Nat) : List Nat := [PML4X va, PDPX va, PDX va]

/-! ## `region_alloc` and `load_icode` -/

/-- Modelled from the spec: `inc/types.h` is absent; `ROUNDDOWN(a, n)`, the
floor of spec §4.3. -/
def ROUNDDOWN (a n : Nat) : Nat := a - a % n

/-- Modelled from the spec: `inc/types.h` is absent; `ROUNDUP(a, n)`, the
ceiling of spec §4.3, in 64-bit arithmetic. -/
def ROUNDUP (a n : Nat) : Nat := ROUNDDOWN ((a + n - 1) % 2 ^ 64) n

/-- The addresses the loop of `region_alloc(e, va, len)` visits: `va_start`,
`va_start + PGSIZE`, ... below `va_end`. The sum `va + len` is a 64-bit
pointer. -/
def region_pages (va len : Nat) : List Nat :=
  let va_start := ROUNDDOWN va PGSIZE
  let va_end := ROUNDUP ((va + len) % 2 ^ 64) PGSIZE
  (List.range ((va_end - va_start) / PGSIZE)).map (fun k => va_start + k * PGSIZE)

/-- The loop of `region_alloc` for environment `e` over the addresses
`addrs`; `none` is a panic or the dereference of a null root. -/
def region_alloc_loop (e : Nat) : List Nat → Kernel → Option Kernel
  | [], st => some st
  | addr :: rest, st =>
    match page_alloc st 0 with
    | (_, none) => none
    | (st1, some pp) =>
      match (st1.envs e).env_pml4e with
      | none => none
      | some root =>
        match page_insert st1 root pp addr (PTE_U ||| PTE_W) with
        | none => none
        | some (r, st2) => if r < 0 then none else region_alloc_loop e rest st2

/-- `region_alloc(e, va, len)`; `none` is a panic. -/
def region_alloc (st : Kernel) (e va len : Nat) : Option Kernel :=
  region_alloc_loop e (region_pages va len) st

/-- The state of the loop of `env_setup_vm`, which started in `st0` with the
page free list `l0`: the tables of the new root form a tree whose frames all
came from `l0`; no frame outside `l0` has changed; the tables above the leaf
level hold entries on the paths of the window between `UTOP` and `KERNBASE`
only; the new root is counted once; and the leaf entries of the addresses
`done` are those of the kernel. -/
structure WindowTree (st0 st : Kernel) (l0 l : List Nat) (root : Nat)
    (lab : Nat → Option (List Nat)) (done : List Nat) : Prop where
  pages : PageList st l
  npages : st.npages = st0.npages
  kern : st.kern_pml4 = st0.kern_pml4
  tree : TableTree st l root lab
  sub : ∀ f, f ∈ l → f ∈ l0
  labelled : ∀ f q, lab f = some q → f ∈ l0
  kernel : ∀ f j, f ∉ l0 → st.mem f j = st0.mem f j
  shape : ∀ t q i, lab t = some q → q.length < 3 → present (st.mem t i) = true →
    ∃ va, va ∈ kernel_window ∧ (q ++ [i]) <+: table_path va
  copied : ∀ va, va ∈ done →
    ∀ kt, leaf_from st0 (table_path va) st0.kern_pml4 = some (some kt) →
      present (st0.mem kt (PTX va)) = true →
      ∃ et, leaf_from st (table_path va) root = some (some et) ∧
        st.mem et (PTX va) = st0.mem kt (PTX va)
  rootref : (st.pages root).pp_ref = 1 ∧ root ∉ l

/-! ## Releasing an address space -/

/-- A sequence of `page_decref` calls on the frames of a list, in order. -/
def decref_all : List Nat → Kernel → Option Kernel
  | [], st => some st
  | f :: fs, st => (page_decref st f).bind (decref_all fs)

/-- The frames the present entries `ks` of the table `pt` point at. -/
def ptes_frames (st : Kernel) (pt : Nat) (ks : List Nat) : List Nat :=
  (ks.filter (fun k => present (st.mem pt k))).map (fun k => PGNUM (PTE_ADDR (st.mem pt k)))

/-- The frames released through the entries `js` of the page directory `pd`
(entry `i` of the PDPT): for each present entry the pages of its table that
lie below `UTOP`, then the table. -/
def pdes_frames (st : Kernel) (pd i : Nat) (js : List Nat) : List Nat :=
  js.flatMap fun j =>
    if present (st.mem pd j) then
      (if PGADDR 0 i j 0 0 < UTOP then
        ptes_frames st (PGNUM (PTE_ADDR (st.mem pd j))) table_slots else []) ++
        [PGNUM (PTE_ADDR (st.mem pd j))]
    else []

/-- The frames released through the entries `is` of the PDPT `pdpt`. -/
def pdpes_frames (st : Kernel) (pdpt : Nat) (is : List Nat) : List Nat :=
  is.flatMap fun i =>
    if present (st.mem pdpt i) then
      pdes_frames st (PGNUM (PTE_ADDR (st.mem pdpt i))) i table_slots ++
        [PGNUM (PTE_ADDR (st.mem pdpt i))]
    else []

/-- The frames `env_free` releases for the address space `root`, in order. -/
def env_frames (st : Kernel) (root : Nat) : List Nat :=
  pdpes_frames st (PGNUM (PTE_ADDR (st.mem root 0))) [0, 1, 2] ++
    [PGNUM (PTE_ADDR (st.mem root 0)), root]

/-- The page-aligned addresses below `UTOP`, listed by their PDPT,
page-directory and page-table indices. -/
def user_pages : List Nat :=
  (List.range 3).flatMap fun i => table_slots.flatMap fun j =>
    (table_slots.filter (fun k => PGADDR 0 i j k 0 < UTOP)).map (fun k => PGADDR 0 i j k 0)

/-- The address space `root` maps the page at `va` to the frame `f`. -/
def maps_frame (st : Kernel) (root f va : Nat) : Bool :=
  match page_lookup st root va with
  | some (some (q, _)) => q == f
  | _ => false

/-- The number of pages below `UTOP` that the address space `root` maps to
the frame `f`. -/
def user_mappings (st : Kernel) (root f : Nat) : Nat :=
  user_pages.countP (maps_frame st root f)

/-! ## More of `inc/memlayout.h` and `kern/pmap.h` -/

/-- The size of a kernel stack. -/
def KSTKSIZE : Nat := 8 * PGSIZE

/-- The size of a kernel stack guard. -/
def KSTKGAP : Nat := 8 * PGSIZE

/-- Where user programs generally begin. -/
def UTEXT : Nat := 4 * PTSIZE

/-- The address used for temporary page mappings. -/
def UTEMP : Nat := PTSIZE * 2

/-- The address used for temporary page mappings of the user page-fault
handler. -/
def PFTEMP : Nat := UTEMP + PTSIZE - PGSIZE

/-- `_paddr(kva)` of `kern/pmap.h`, the function behind `PADDR`: the physical
address of a kernel virtual address; `none` is its panic. -/
def _paddr (kva : Nat) : Option Nat :=
  if kva < KERNBASE then none else some (kva - KERNBASE)

/-- `_kaddr(pa)` of `kern/pmap.h`, the function behind `KADDR`: the kernel
virtual address of a physical address, in 64 bits; `none` is its panic. -/
def _kaddr (st : Kernel) (pa : Nat) : Option Nat :=
  if PGNUM pa ≥ st.npages then none else some ((pa + KERNBASE) % 2 ^ 64)

/-- The states reached from `env_init` by calls of `env_alloc` alone, with the
number of calls that succeeded so far. -/
inductive AllocRun (lg : Nat) (st0 : Kernel) : Nat → Kernel → Prop
  | init : AllocRun lg st0 0 (env_init lg st0)
  | ok (k : Nat) (st st' : Kernel) (parent_id e : Nat) :
      AllocRun lg st0 k st → env_alloc lg st parent_id = some (0, some e, st') →
      AllocRun lg st0 (k + 1) st'
  | failed (k : Nat) (st st' : Kernel) (parent_id : Nat) (r : Int) (store : Option Nat) :
      AllocRun lg st0 k st → r < 0 → env_alloc lg st parent_id = some (r, store, st') →
      AllocRun lg st0 k st'

/-! ## `kern/spinlock.c`: the big kernel lock -/

/-- Where a CPU is with respect to `kernel_lock`: outside, in the loop of
`spin_lock`, or between the return of `spin_lock` and `spin_unlock`. -/
inductive LockPc where
  | outside
  | spinning
  | holding
deriving DecidableEq

/-- The word `kernel_lock.locked` and the position of every CPU. -/
structure LockState where
  locked : Nat
  pc : Nat → LockPc

/-- `xchg(&lk->locked, newval)`: the atomic exchange gives the old value and
stores the new one. -/
def xchg (s : LockState) (newval : Nat) : Nat × LockState :=
  (s.locked, { s with locked := newval })

/-- `__spin_initlock(lk, name)` with no CPU in the lock code. -/
def spin_initlock : LockState :=
  { locked := 0, pc := fun _ => LockPc.outside }

/-- CPU `c` calls `spin_lock(&kernel_lock)` and reaches its loop; `none` when
the CPU is already in the lock code. -/
def spin_lock_call (s : LockState) (c : Nat) : Option LockState :=
  if s.pc c = LockPc.outside then
    some { s with pc := Function.update s.pc c LockPc.spinning }
  else none

/-- One iteration of `while (xchg(&lk->locked, 1) != 0)` on CPU `c`: the loop
ends, and `spin_lock` returns, when the exchange gave 0. -/
def spin_lock_iter (s : LockState) (c : Nat) : Option LockState :=
  if s.pc c = LockPc.spinning then
    let r := xchg s 1
    if r.1 ≠ 0 then some r.2
    else some { r.2 with pc := Function.update r.2.pc c LockPc.holding }
  else none

/-- `spin_unlock(&kernel_lock)` on CPU `c`, which holds the lock:
`xchg(&lk->locked, 0)`. -/
def spin_unlock (s : LockState) (c : Nat) : Option LockState :=
  if s.pc c = LockPc.holding then
    some { (xchg s 0).2 with pc := Function.update s.pc c LockPc.outside }
  else none

/-- One atomic step of one CPU. -/
inductive LockEvent where
  | call (c : Nat)
  | iter (c : Nat)
  | unlock (c : Nat)
deriving DecidableEq

/-- The effect of one step; `none` when the CPU is not at that point. -/
def lock_step (s : LockState) : LockEvent → Option LockState
  | LockEvent.call c => spin_lock_call s c
  | LockEvent.iter c => spin_lock_iter s c
  | LockEvent.unlock c => spin_unlock s c

/-- An interleaving of the steps of the CPUs. -/
def lock_run (s : LockState) : List LockEvent → Option LockState
  | [] => some s
  | ev :: rest => (lock_step s ev).bind (fun s1 => lock_run s1 rest)

/-- The machine `two_running` with a single free frame, frame 15. -/
def one_free : Kernel :=
  { two_running with
    pages := fun i => ⟨none, if i < 6 then 1 else 0⟩
    page_free_list := some 15 }

/-! ## `lib/fork.c`: the user-level fork

The functions of `lib/fork.c` run in user mode, in the environment that is
`curenv` of its CPU; each system call is the kernel function of
`kern/syscall.c` applied to the state, and nothing else runs in between. -/

/-- The copy-on-write mark, one of the bits of `PTE_AVAIL`. -/
def PTE_COW : Nat := 0x800

/-- Modelled from the spec: `inc/mmu.h` is absent; the bit of a page-fault
error code that tells a write. -/
def FEC_WR : Nat := 0x2

/-- Modelled from the spec: the read `uvpt[pn]` through the self-map at `UVPT`
in the address space `root`: the leaf entry of page `pn`; the read faults
(`none`) unless the three entries above it are present. -/
def uvpt (st : Kernel) (root pn : Nat) : Option Nat :=
  match leaf_from st (table_path (pn <<< PGSHIFT)) root with
  | some (some pt) => some (st.mem pt (PTX (pn <<< PGSHIFT)))
  | _ => none

/-- `duppage(envid, pn)` of `lib/fork.c`, run by the current environment of
CPU `cpu`; `none` is a panic or a fault. -/
def duppage (lg : Nat) (st : Kernel) (cpu : Nat) (envid : Nat) (pn : Nat) :
    Option (Int × Kernel) :=
  let va := pn <<< PGSHIFT
  match curenv st cpu with
  | none => none
  | some c =>
    match (st.envs c).env_pml4e with
    | none => none
    | some root =>
      match uvpt st root pn with
      | none => none
      | some pte =>
        if pte &&& PTE_W ≠ 0 ∨ pte &&& PTE_COW ≠ 0 then
          match sys_page_map lg st cpu 0 va envid va (PTE_P ||| PTE_U ||| PTE_COW) with
          | none => none
          | some (r, st1) =>
            if r < 0 then none
            else
              match sys_page_map lg st1 cpu 0 va 0 va (PTE_P ||| PTE_U ||| PTE_COW) with
              | none => none
              | some (r1, st2) => if r1 < 0 then none else some (0, st2)
        else
          match sys_page_map lg st cpu 0 va envid va (PTE_P ||| PTE_U) with
          | none => none
          | some (r, st1) => if r < 0 then none else some (0, st1)

/-- The machine `mapped_once` with the page at address 0 of environment 0
read-only and marked with the available bit `0x200`. -/
def mapped_avail : Kernel :=
  { mapped_once with
    mem := fun f i => if f = 8 ∧ i = 0 then 0x6205 else mapped_once.mem f i }

/-- The machine `mapped_avail` after environment 0 called `duppage(0x1001, 0)`. -/
def duppage_avail : Kernel :=
  ((duppage 1 mapped_avail 0 0x1001 0).map (fun r => r.2)).getD mapped_avail

/-- Modelled from the spec: the copy `memmove(dst, src, PGSIZE)` a user
program makes between two page-aligned addresses of its address space: the
512 words of the frame mapped at `src` are stored in the frame mapped at
`dst`. `none` is the fault on a page that is not mapped. -/
def user_memmove_page (st : Kernel) (root dst src : Nat) : Option Kernel :=
  match page_lookup st root src, page_lookup st root dst with
  | some (some (fs, _)), some (some (fd, _)) =>
    some { st with mem := fun g i => if g = fd ∧ i < 512 then st.mem fs i else st.mem g i }
  | _, _ => none

/-- `pgfault(utf)` of `lib/fork.c`, run by the current environment of `cpu`
with `utf->utf_fault_va = addr` and `utf->utf_err = err`; `none` is a panic
(or a fault inside the handler). -/
def pgfault (lg : Nat) (st : Kernel) (cpu : Nat) (addr err : Nat) : Option Kernel :=
  if err &&& FEC_WR = 0 then none
  else
    match curenv st cpu with
    | none => none
    | some c =>
      match (st.envs c).env_pml4e with
      | none => none
      | some root =>
        match uvpt st root (PGNUM addr) with
        | none => none
        | some pte =>
          if pte &&& PTE_COW = 0 then none
          else
            let pg_addr := ROUNDDOWN addr PGSIZE
            match sys_page_alloc lg st cpu 0 PFTEMP (PTE_P ||| PTE_U ||| PTE_W) with
            | none => none
            | some (r, st1) =>
              if r < 0 then none
              else
                match user_memmove_page st1 root PFTEMP pg_addr with
                | none => none
                | some st2 =>
                  match sys_page_map lg st2 cpu 0 PFTEMP 0 pg_addr
                      (PTE_P ||| PTE_U ||| PTE_W) with
                  | none => none
                  | some (r1, st3) =>
                    if r1 < 0 then none
                    else
                      match sys_page_unmap lg st3 cpu 0 PFTEMP with
                      | none => none
                      | some (r2, st4) => if r2 < 0 then none else some st4

/-- Modelled from the spec: the store of the 64-bit word `val` at the
8-byte-aligned address `va` by a user program running in the address space
`root`. `none` is the page fault on a page that is not mapped or whose entry
lacks `PTE_W`. -/
def user_store (st : Kernel) (root va val : Nat) : Option Kernel :=
  match page_lookup st root (ROUNDDOWN va PGSIZE) with
  | some (some (fr, (pt, i))) =>
    if st.mem pt i &&& PTE_W ≠ 0 then some (st.write fr (va % PGSIZE / 8) val) else none
  | _ => none

/-- A machine of 32 frames as `fork` leaves it once `duppage` has run for
page 0: environment 0 (id `0x1000`, root in frame 2, PDPT 3, page directory
7, page table 8) on CPU 0 and its child, environment 1 (id `0x1001`, root in
frame 4, PDPT 5, page directory 9, page table 10) on CPU 1 both map frame 6
at address 0 with `PTE_P | PTE_U | PTE_COW`; its count is 2. Frames 11..31
are free. -/
def cow_pair : Kernel :=
  { two_running with
    npages := 32
    pages := fun i =>
      if 11 ≤ i ∧ i < 31 then ⟨some (i + 1), 0⟩
      else ⟨none, if i = 6 then 2 else if i < 11 then 1 else 0⟩
    page_free_list := some 11
    mem := fun f i =>
      if f = 3 ∧ i = 0 then 0x7007
      else if f = 7 ∧ i = 0 then 0x8007
      else if f = 8 ∧ i = 0 then 0x6805
      else if f = 5 ∧ i = 0 then 0x9007
      else if f = 9 ∧ i = 0 then 0xA007
      else if f = 10 ∧ i = 0 then 0x6805
      else two_running.mem f i }

/-- Modelled from the spec: `inc/mmu.h` is absent; the number of entries of a
page table at any level. -/
def NPTENTRIES : Nat := 512

/-- Modelled from the spec: the read `uvpml4e[i]` through the self-map at
`UVPT` (comment of `inc/memlayout.h`): entry `i` of the PML4 of the running
address space. -/
def uvpml4e (st : Kernel) (root i : Nat) : Nat := st.mem root i

/-- Modelled from the spec: the read `uvpde[idx]` through the self-map: entry
`idx % 512` of the PDPT that PML4 entry `idx / 512` addresses; `none` is the
fault when that table is not there. -/
def uvpde (st : Kernel) (root idx : Nat) : Option Nat :=
  match leaf_from st [idx / NPTENTRIES] root with
  | some (some t) => some (st.mem t (idx % NPTENTRIES))
  | _ => none

/-- Modelled from the spec: the read `uvpd[idx]` through the self-map: entry
`idx % 512` of the page directory on the path `idx / 512`. -/
def uvpd (st : Kernel) (root idx : Nat) : Option Nat :=
  match leaf_from st [idx / NPTENTRIES / NPTENTRIES, idx / NPTENTRIES % NPTENTRIES] root with
  | some (some t) => some (st.mem t (idx % NPTENTRIES))
  | _ => none

/-- The innermost loop of `fork`, over the page-table indices `ls`, for the
page directory entry `pdeIndex`: the state, the page numbers passed to
`duppage` so far, in order, and whether `goto done` was taken. `pn` is
computed in `int` and converted to `uint64_t`; `duppage` takes it as an
`unsigned`. `none` is a panic. -/
def fork_pt_loop (lg cpu envid root pdeIndex : Nat) :
    List Nat → Kernel → List Nat → Option (Kernel × List Nat × Bool)
  | [], st, log => some (st, log, false)
  | l :: ls, st, log =>
    let pn := sext64 (pdeIndex * NPTENTRIES + l)
    let va := (pn <<< PGSHIFT) % 2 ^ 64
    if va ≥ UTOP then some (st, log, true)
    else if va ≥ UXSTACKTOP - PGSIZE ∧ va < UXSTACKTOP then
      fork_pt_loop lg cpu envid root pdeIndex ls st log
    else
      match uvpt st root pn with
      | none => none
      | some pte =>
        if pte &&& PTE_P = 0 then fork_pt_loop lg cpu envid root pdeIndex ls st log
        else
          match duppage lg st cpu envid (pn % 2 ^ 32) with
          | none => none
          | some (r, st1) =>
            if r < 0 then none
            else fork_pt_loop lg cpu envid root pdeIndex ls st1 (log ++ [pn % 2 ^ 32])

/-- The loop of `fork` over the page-directory indices `ks`, for the PDPT
entry `pdpeIndex`. -/
def fork_pd_loop (lg cpu envid root pdpeIndex : Nat) :
    List Nat → Kernel → List Nat → Option (Kernel × List Nat × Bool)
  | [], st, log => some (st, log, false)
  | k :: ks, st, log =>
    let pdeIndex := pdpeIndex * NPTENTRIES + k
    match uvpd st root pdeIndex with
    | none => none
    | some e =>
      if e &&& PTE_P = 0 then fork_pd_loop lg cpu envid root pdpeIndex ks st log
      else
        match fork_pt_loop lg cpu envid root pdeIndex (List.range NPTENTRIES) st log with
        | none => none
        | some (st1, log1, true) => some (st1, log1, true)
        | some (st1, log1, false) => fork_pd_loop lg cpu envid root pdpeIndex ks st1 log1

/-- The loop of `fork` over the PDPT indices `js`, for the PML4 entry `i`. -/
def fork_pdpt_loop (lg cpu envid root i : Nat) :
    List Nat → Kernel → List Nat → Option (Kernel × List Nat × Bool)
  | [], st, log => some (st, log, false)
  | j :: js, st, log =>
    let pdpeIndex := i * NPTENTRIES + j
    match uvpde st root pdpeIndex with
    | none => none
    | some e =>
      if e &&& PTE_P = 0 then fork_pdpt_loop lg cpu envid root i js st log
      else
        match fork_pd_loop lg cpu envid root pdpeIndex (List.range NPTENTRIES) st log with
        | none => none
        | some (st1, log1, true) => some (st1, log1, true)
        | some (st1, log1, false) => fork_pdpt_loop lg cpu envid root i js st1 log1

/-- The outermost loop of `fork`, over the PML4 indices `is`. -/
def fork_pml4_loop (lg cpu envid root : Nat) :
    List Nat → Kernel → List Nat → Option (Kernel × List Nat × Bool)
  | [], st, log => some (st, log, false)
  | i :: is, st, log =>
    if uvpml4e st root i &&& PTE_P = 0 then fork_pml4_loop lg cpu envid root is st log
    else
      match fork_pdpt_loop lg cpu envid root i (List.range NPTENTRIES) st log with
      | none => none
      | some (st1, log1, true) => some (st1, log1, true)
      | some (st1, log1, false) => fork_pml4_loop lg cpu envid root is st1 log1

/-- The part of `fork` the parent runs once `sys_exofork` returned the
child's id `envid`: the four nested loops, then the child's exception stack,
its upcall (at the address `upcall` of `_pgfault_upcall`) and its status.
The result is the value returned, the state and the page numbers passed to
`duppage`, in order; `none` is a panic. -/
def fork_parent (lg : Nat) (st : Kernel) (cpu envid upcall : Nat) :
    Option (Nat × Kernel × List Nat) :=
  match curenv st cpu with
  | none => none
  | some c =>
    match (st.envs c).env_pml4e with
    | none => none
    | some root =>
      match fork_pml4_loop lg cpu envid root (List.range NPTENTRIES) st [] with
      | none => none
      | some (st1, log, _) =>
        match sys_page_alloc lg st1 cpu envid (UXSTACKTOP - PGSIZE)
            (PTE_P ||| PTE_U ||| PTE_W) with
        | none => none
        | some (r, st2) =>
          if r < 0 then none
          else
            match sys_env_set_pgfault_upcall lg st2 cpu envid upcall with
            | none => none
            | some (r1, st3) =>
              if r1 < 0 then none
              else
                match sys_env_set_status lg st3 cpu envid ENV_RUNNABLE with
                | none => none
                | some (r2, st4) => if r2 < 0 then none else some (envid, st4, log)

/-- Modelled from the spec: `lib/pgfault.c` is absent; `set_pgfault_handler`
installs the page-fault upcall of the calling environment (spec §4.10 step
1). -/
def set_pgfault_handler (lg : Nat) (st : Kernel) (cpu upcall : Nat) : Option (Int × Kernel) :=
  sys_env_set_pgfault_upcall lg st cpu 0 upcall

/-- `fork()` of `lib/fork.c` as the calling environment runs it: the value
returned to the parent, the state and the page numbers passed to `duppage`.
The child's own return from `sys_exofork` is the `0` stored in its saved
`rax`; it happens when the child is first run. -/
def fork (lg : Nat) (st : Kernel) (cpu upcall : Nat) : Option (Int × Kernel × List Nat) :=
  match set_pgfault_handler lg st cpu upcall with
  | none => none
  | some (_, st0) =>
    match sys_exofork lg st0 cpu with
    | none => none
    | some (envid, st1) =>
      if envid < 0 then none
      else if envid = 0 then some (0, st1, [])
      else
        (fork_parent lg st1 cpu envid.toNat upcall).map (fun r => ((r.1 : Int), r.2.1, r.2.2))

/-- A machine of 32 frames as `sys_exofork` leaves it inside `fork`:
environment 0 (id `0x1000`, root in frame 2, PDPT 3) on CPU 0 maps frame 6
writable at address 0 (page directory 7, page table 8) and, read-only, frame
1 at `UTOP` (page directory 9, page table 10); its child, environment 1 (id
`0x1001`, root in frame 4, PDPT 5), is not runnable, has 0 in its saved `rax`
and maps nothing. Frames 11..31 are free. -/
def forking : Kernel :=
  { two_running with
    npages := 32
    pages := fun i =>
      if 11 ≤ i ∧ i < 31 then ⟨some (i + 1), 0⟩ else ⟨none, if i < 11 then 1 else 0⟩
    page_free_list := some 11
    mem := fun f i =>
      if f = 3 ∧ i = 0 then 0x7007
      else if f = 7 ∧ i = 0 then 0x8007
      else if f = 8 ∧ i = 0 then 0x6007
      else if f = 3 ∧ i = 2 then 0x9007
      else if f = 9 ∧ i = 484 then 0xA007
      else if f = 10 ∧ i = 0 then 0x1005
      else two_running.mem f i
    envs := fun i =>
      if i = 1 then { two_running.envs 1 with env_status := ENV_NOT_RUNNABLE }
      else two_running.envs i
    cpu_env := fun c => if c = 0 then some 0 else none }

/-- The test `uvpt[pn] & PTE_P` of `fork`, false when the page table of `pn`
is not there: the PML4, PDPT, page-directory and page-table entries of page
`pn` are all present. -/
def pte_present (st : Kernel) (root pn : Nat) : Bool :=
  match uvpt st root pn with
  | some pte => pte &&& PTE_P != 0
  | none => false

/-- The pages `fork` is to duplicate: below `UTOP`, not the user exception
stack, and present. -/
def dup_page (st : Kernel) (root pn : Nat) : Bool :=
  decide (pn <<< PGSHIFT < UTOP) &&
    !decide (pn <<< PGSHIFT ≥ UXSTACKTOP - PGSIZE ∧ pn <<< PGSHIFT < UXSTACKTOP) &&
    pte_present st root pn

/-- The pages to duplicate among those of the page table `pdeIndex`, at the
indices `ls`. -/
def fork_pages_pt (st : Kernel) (root pdeIndex : Nat) (ls : List Nat) : List Nat :=
  (ls.map (fun l => pdeIndex * NPTENTRIES + l)).filter (dup_page st root)

/-- The pages to duplicate under the page directory `pdpeIndex`, at the
indices `ks`. -/
def fork_pages_pd (st : Kernel) (root pdpeIndex : Nat) (ks : List Nat) : List Nat :=
  ks.flatMap fun k =>
    match uvpd st root (pdpeIndex * NPTENTRIES + k) with
    | some e =>
      if e &&& PTE_P = 0 then []
      else fork_pages_pt st root (pdpeIndex * NPTENTRIES + k) (List.range NPTENTRIES)
    | none => []

/-- The pages to duplicate under the PDPT of PML4 entry `i`, at the indices
`js`. -/
def fork_pages_pdpt (st : Kernel) (root i : Nat) (js : List Nat) : List Nat :=
  js.flatMap fun j =>
    match uvpde st root (i * NPTENTRIES + j) with
    | some e =>
      if e &&& PTE_P = 0 then []
      else fork_pages_pd st root (i * NPTENTRIES + j) (List.range NPTENTRIES)
    | none => []

/-- The invariant of the loops of `fork`, between two calls of `duppage`,
when the loops have reached page `pos`: relative to the state `st0` in which
they started, with free list `l0`, parent tables `labP` and child tables
`labC0`. The parent's tables above the leaf level and the frames its pages
map are as in `st0`; the child's tables are a tree of frames that were child
tables or free in `st0`; the child maps nothing at the pages still to come
and at the exception stack; the frames of the pages still to come are counted
less than 65535 times. -/
structure ForkInv (proot croot : Nat) (st0 : Kernel) (l0 : List Nat)
    (labP labC0 : Nat → Option (List Nat)) (st : Kernel) (l : List Nat) (pos : Nat) : Prop where
  frame : EnvFrame st0 st
  plist : PageList st l
  lsub : ∀ g, g ∈ l → g ∈ l0
  treeP : TableTree st l proot labP
  treeC : ∃ labC, TableTree st l croot labC ∧
    ∀ t, labC t ≠ none → labC0 t ≠ none ∨ t ∈ l0
  memP : ∀ t q j, labP t = some q → q.length < 3 → st.mem t j = st0.mem t j
  lookP : ∀ va, UserPath (table_path va) → page_lookup st proot va = page_lookup st0 proot va
  childU : ∀ pn, pos ≤ pn → pn <<< PGSHIFT < UTOP →
    page_lookup st croot (pn <<< PGSHIFT) = some none
  childX : page_lookup st croot (UXSTACKTOP - PGSIZE) = some none
  refs : ∀ pn f slot, pos ≤ pn → pn <<< PGSHIFT < UTOP →
    page_lookup st0 proot (pn <<< PGSHIFT) = some (some (f, slot)) →
    (st.pages f).pp_ref < 65535

/-- What `fork` needs of the state `st0` in which its loops start: the
parent `c` (current on `cpu`, root `proot`) and the child `d` (id `envid`,
root `croot`) have tables that form two trees without a common table; the
frames the parent maps below `UTOP` are frames of `pages[]`, not free, not
tables of the child, each mapped at one page only; the child maps nothing
below `UTOP`. -/
structure ForkCtx (lg cpu envid c d proot croot : Nat) (st0 : Kernel) (l0 : List Nat)
    (labP labC0 : Nat → Option (List Nat)) : Prop where
  cur : curenv st0 cpu = some c
  child : envid2env lg st0 cpu envid true = some (0, some d)
  hproot : (st0.envs c).env_pml4e = some proot
  hcroot : (st0.envs d).env_pml4e = some croot
  plist : PageList st0 l0
  np : st0.npages ≤ 2 ^ 52
  fb : ∀ g, g ∈ l0 → g < st0.npages
  treeP : TableTree st0 l0 proot labP
  treeC : TableTree st0 l0 croot labC0
  disj : ∀ t q, labC0 t = some q → labP t = none
  data : ∀ va f slot, va < UTOP → page_lookup st0 proot va = some (some (f, slot)) →
    f ∉ l0 ∧ labC0 f = none
  valid : ∀ pn, pn <<< PGSHIFT < UTOP → pte_present st0 proot pn = true →
    page_lookup st0 proot (pn <<< PGSHIFT) ≠ none
  inj : ∀ pn pn' f s s', pn <<< PGSHIFT < UTOP → pn' <<< PGSHIFT < UTOP →
    page_lookup st0 proot (pn <<< PGSHIFT) = some (some (f, s)) →
    page_lookup st0 proot (pn' <<< PGSHIFT) = some (some (f, s')) → pn = pn'

/-- The page free list of `forking`. -/
def forking_free : List Nat :=
  [11, 12, 13, 14, 15, 16, 17, 18, 19, 20, 21, 22, 23, 24, 25, 26, 27, 28, 29, 30, 31]

/-- The tables of the parent in `forking`, each with the index path that
leads to it from the root. -/
def forking_parent_tables (f : Nat) : Option (List Nat) :=
  if f = 2 then some [] else if f = 3 then some [0] else if f = 7 then some [0, 0]
  else if f = 8 then some [0, 0, 0] else if f = 9 then some [0, 2]
  else if f = 10 then some [0, 2, 484] else none

/-- The tables of the child in `forking`. -/
def forking_child_tables (f : Nat) : Option (List Nat) :=
  if f = 4 then some [] else if f = 5 then some [0] else none

/-! ## `load_icode`: the ELF image and the kernel's byte stores -/

/-- Modelled from the spec: `inc/elf.h` is absent; the magic number of an ELF
image, `"\x7FELF"` read as a little-endian 32-bit word. -/
def ELF_MAGIC : Nat := 0x464C457F

/-- Modelled from the spec: `inc/elf.h` is absent; the type of a loadable
segment (`PT_LOAD`). -/
def ELF_PROG_LOAD : Nat := 1

/-- Modelled from the spec: `inc/elf.h` is absent; the fields of a program
header that `load_icode` reads. -/
structure Proghdr where
  p_type : Nat
  p_offset : Nat
  p_va : Nat
  p_filesz : Nat
  p_memsz : Nat
deriving DecidableEq

/-- Modelled from the spec: `inc/elf.h` is absent; the binary image as
`load_icode` reads it: the fields `e_magic` and `e_entry` of its header, the
`e_phnum` program headers at `e_phoff`, in order, and its bytes by offset. -/
structure Elf where
  e_magic : Nat
  e_entry : Nat
  phdrs : List Proghdr
  bytes : Nat → Nat

/-- Byte `k` of a 64-bit word, little-endian. -/
def word_byte (w k : Nat) : Nat := w / 256 ^ k % 256

/-- The word `w` with its byte `k` replaced by the low eight bits of `b`. -/
def word_set_byte (w k b : Nat) : Nat :=
  w - (w / 256 ^ k % 256) * 256 ^ k + (b % 256) * 256 ^ k

/-- Byte `k` of frame `f`. -/
def frame_byte (st : Kernel) (f k : Nat) : Nat := word_byte (st.mem f (k / 8)) (k % 8)

/-- Modelled from the spec: the byte the kernel reads at the address `va` of
the address space `root` that is in force; `none` is the kernel-mode page
fault on a page that is not mapped. -/
def load_byte (st : Kernel) (root va : Nat) : Option Nat :=
  match page_lookup st root va with
  | some (some (f, _)) => some (frame_byte st f (va % PGSIZE))
  | _ => none

/-- Modelled from the spec: the kernel's store of the byte `b` at the address
`va` of the address space `root` that is in force; `none` is the kernel-mode
page fault on a page that is not mapped. -/
def store_byte (st : Kernel) (root va b : Nat) : Option Kernel :=
  match page_lookup st root va with
  | some (some (f, _)) =>
    some (st.write f (va % PGSIZE / 8)
      (word_set_byte (st.mem f (va % PGSIZE / 8)) (va % PGSIZE % 8) b))
  | _ => none

/-- Modelled from the spec: `inc/string.h` is absent; `memcpy(dst, src, n)`
with `dst` in the address space `root` and the source bytes given by offset:
byte `i` goes to `dst + i`, for `i` from 0 to `n - 1`. -/
def memcpy_user (st : Kernel) (root dst : Nat) (src : Nat → Nat) : Nat → Option Kernel
  | 0 => some st
  | n + 1 =>
    (memcpy_user st root dst src n).bind
      (fun s => store_byte s root ((dst + n) % 2 ^ 64) (src n))

/-- Modelled from the spec: `inc/string.h` is absent; `memset(dst, c, n)`
with `dst` in the address space `root`. -/
def memset_user (st : Kernel) (root dst c n : Nat) : Option Kernel :=
  memcpy_user st root dst (fun _ => c) n

/-- The loop of `load_icode` over the program headers `phs`, for environment
`e` whose address space is in force; `none` is a panic. -/
def load_segments (e : Nat) (bytes : Nat → Nat) : List Proghdr → Kernel → Option Kernel
  | [], st => some st
  | ph :: rest, st =>
    if ph.p_type ≠ ELF_PROG_LOAD then load_segments e bytes rest st
    else
      match region_alloc st e ph.p_va ph.p_memsz with
      | none => none
      | some st1 =>
        match (st1.envs e).env_pml4e with
        | none => none
        | some root =>
          match memcpy_user st1 root ph.p_va (fun i => bytes (ph.p_offset + i)) ph.p_filesz with
          | none => none
          | some st2 =>
            match memset_user st2 root ((ph.p_va + ph.p_filesz) % 2 ^ 64) 0
                ((ph.p_memsz + 2 ^ 64 - ph.p_filesz) % 2 ^ 64) with
            | none => none
            | some st3 => load_segments e bytes rest st3

/-- `load_icode(e, binary)` of `kern/env.c`; `none` is a panic. The two
`lcr3` put the address space of `e` in force for the copies and the kernel's
afterwards. -/
def load_icode (st : Kernel) (e : Nat) (binary : Elf) : Option Kernel :=
  if binary.e_magic ≠ ELF_MAGIC then none
  else
    match (st.envs e).env_pml4e with
    | none => none
    | some _ =>
      match load_segments e binary.bytes binary.phdrs st with
      | none => none
      | some st1 =>
        let tf := (st1.envs e).env_tf
        region_alloc
          (st1.setEnv e { st1.envs e with env_tf := { tf with tf_rip := binary.e_entry } })
          e (USTACKTOP - PGSIZE) PGSIZE

/-- A binary for a program whose only segment lies in the page of the
initial stack: one byte, `0xAB`, at `USTACKTOP - PGSIZE`. -/
def stack_binary : Elf :=
  { e_magic := ELF_MAGIC
    e_entry := 0x800020
    phdrs := [⟨ELF_PROG_LOAD, 0x1000, USTACKTOP - PGSIZE, 1, 1⟩]
    bytes := fun i => if i = 0x1000 then 0xAB else 0 }

/-- What a store into data frames leaves as it was: the environment table,
the frame descriptors, the free list and the contents of the page tables
(the frames that `lab` labels). -/
structure DataStep (lab : Nat → Option (List Nat)) (st st' : Kernel) : Prop where
  frame : EnvFrame st st'
  pages : st'.pages = st.pages
  free : st'.page_free_list = st.page_free_list
  tables : ∀ t j, lab t ≠ none → st'.mem t j = st.mem t j

/-- The pages `ps` of the address space `root` are data pages: each is
mapped to a frame that is neither free nor a page table, and no two of them
to the same frame. -/
structure DataPages (st : Kernel) (root : Nat) (l : List Nat)
    (lab : Nat → Option (List Nat)) (ps : List Nat) : Prop where
  user : ∀ a, a ∈ ps → a % PGSIZE = 0 ∧ a < KERNBASE
  mapped : ∀ a, a ∈ ps →
    ∃ f slot, page_lookup st root a = some (some (f, slot)) ∧ f ∉ l ∧ lab f = none
  inj : ∀ a a' f s s', a ∈ ps → a' ∈ ps → page_lookup st root a = some (some (f, s)) →
    page_lookup st root a' = some (some (f, s')) → a = a'

/-- The pages `load_icode` allocates for the program headers `phs`: those
`region_alloc` visits for each loadable segment, in order. -/
def load_pages (phs : List Proghdr) : List Nat :=
  phs.flatMap (fun ph =>
    if ph.p_type = ELF_PROG_LOAD then region_pages ph.p_va ph.p_memsz else [])

/-- A binary with entry point `0x800020`: a segment that is not loadable and
a loadable segment of 8192 bytes at `0x800000`, of which the first 4096 come
from offset `0x1000` of the file. -/
def hello_binary : Elf :=
  { e_magic := ELF_MAGIC
    e_entry := 0x800020
    phdrs := [⟨4, 0x200, 0x400000, 0x40, 0x40⟩, ⟨ELF_PROG_LOAD, 0x1000, 0x800000, 4096, 8192⟩]
    bytes := fun i => (i + 1) % 256 }

/-- From `two_running`: environment 0, on CPU 0, marks its child, which CPU 1
is running, `ENV_NOT_RUNNABLE` with `sys_env_set_status` and then destroys it
with `sys_env_destroy`. -/
def freed_running_trace : Option (Int × Kernel) :=
  (sys_env_set_status 1 two_running 0 0x1001 ENV_NOT_RUNNABLE).bind
    (fun r => sys_env_destroy 1 r.2 0 0x1001)

/-- The state at the end of `freed_running_trace`: environment 1 is free and
still the current environment of CPU 1. -/
def freed_running : Kernel := (freed_running_trace.map (fun r => r.2)).getD two_running

/-- The state after environment 1, free in `freed_running` and still running
on CPU 1, calls `sys_env_set_status(0, ENV_RUNNABLE)`. -/
def freed_runnable : Kernel :=
  ((sys_env_set_status 1 freed_running 1 0 ENV_RUNNABLE).map (fun r => r.2)).getD freed_running

/-- The state after environment 1, free in `freed_running` and still running
on CPU 1, calls `sys_exofork()`. -/
def freed_forked : Kernel :=
  ((sys_exofork 1 freed_running 1).map (fun r => r.2)).getD freed_running
/-! ## Projections of the state updates -/

@[simp] theorem setEnv_envs (st : Kernel) (i : Nat) (e : Env) :
    (st.setEnv i e).envs = Function.update st.envs i e := rfl
@[simp] theorem setEnv_env_free_list (st : Kernel) (i : Nat) (e : Env) :
    (st.setEnv i e).env_free_list = st.env_free_list := rfl
@[simp] theorem setEnv_cpu_env (st : Kernel) (i : Nat) (e : Env) :
    (st.setEnv i e).cpu_env = st.cpu_env := rfl
@[simp] theorem setEnv_pages (st : Kernel) (i : Nat) (e : Env) :
    (st.setEnv i e).pages = st.pages := rfl
@[simp] theorem setEnv_page_free_list (st : Kernel) (i : Nat) (e : Env) :
    (st.setEnv i e).page_free_list = st.page_free_list := rfl
@[simp] theorem setEnv_mem (st : Kernel) (i : Nat) (e : Env) :
    (st.setEnv i e).mem = st.mem := rfl
@[simp] theorem setEnv_npages (st : Kernel) (i : Nat) (e : Env) :
    (st.setEnv i e).npages = st.npages := rfl
@[simp] theorem setEnv_kern_pml4 (st : Kernel) (i : Nat) (e : Env) :
    (st.setEnv i e).kern_pml4 = st.kern_pml4 := rfl

@[simp] theorem setPage_envs (st : Kernel) (i : Nat) (p : PageInfo) :
    (st.setPage i p).envs = st.envs := rfl
@[simp] theorem setPage_env_free_list (st : Kernel) (i : Nat) (p : PageInfo) :
    (st.setPage i p).env_free_list = st.env_free_list := rfl
@[simp] theorem setPage_cpu_env (st : Kernel) (i : Nat) (p : PageInfo) :
    (st.setPage i p).cpu_env = st.cpu_env := rfl
@[simp] theorem setPage_pages (st : Kernel) (i : Nat) (p : PageInfo) :
    (st.setPage i p).pages = Function.update st.pages i p := rfl
@[simp] theorem setPage_page_free_list (st : Kernel) (i : Nat) (p : PageInfo) :
    (st.setPage i p).page_free_list = st.page_free_list := rfl
@[simp] theorem setPage_mem (st : Kernel) (i : Nat) (p : PageInfo) :
    (st.setPage i p).mem = st.mem := rfl
@[simp] theorem setPage_npages (st : Kernel) (i : Nat) (p : PageInfo) :
    (st.setPage i p).npages = st.npages := rfl
@[simp] theorem setPage_kern_pml4 (st : Kernel) (i : Nat) (p : PageInfo) :
    (st.setPage i p).kern_pml4 = st.kern_pml4 := rfl

@[simp] theorem write_envs (st : Kernel) (f i v : Nat) : (st.write f i v).envs = st.envs := rfl
@[simp] theorem write_env_free_list (st : Kernel) (f i v : Nat) :
    (st.write f i v).env_free_list = st.env_free_list := rfl
@[simp] theorem write_cpu_env (st : Kernel) (f i v : Nat) :
    (st.write f i v).cpu_env = st.cpu_env := rfl
@[simp] theorem write_pages (st : Kernel) (f i v : Nat) : (st.write f i v).pages = st.pages := rfl
@[simp] theorem write_page_free_list (st : Kernel) (f i v : Nat) :
    (st.write f i v).page_free_list = st.page_free_list := rfl
@[simp] theorem write_npages (st : Kernel) (f i v : Nat) : (st.write f i v).npages = st.npages := rfl
@[simp] theorem write_kern_pml4 (st : Kernel) (f i v : Nat) :
    (st.write f i v).kern_pml4 = st.kern_pml4 := rfl
@[simp] theorem write_mem (st : Kernel) (f i v : Nat) :
    (st.write f i v).mem = Function.update st.mem f (Function.update (st.mem f) i v) := rfl

@[simp] theorem setCurenv_envs (st : Kernel) (c : Nat) (e : Option Nat) :
    (st.setCurenv c e).envs = st.envs := rfl
@[simp] theorem setCurenv_env_free_list (st : Kernel) (c : Nat) (e : Option Nat) :
    (st.setCurenv c e).env_free_list = st.env_free_list := rfl
@[simp] theorem setCurenv_cpu_env (st : Kernel) (c : Nat) (e : Option Nat) :
    (st.setCurenv c e).cpu_env = Function.update st.cpu_env c e := rfl
@[simp] theorem setCurenv_pages (st : Kernel) (c : Nat) (e : Option Nat) :
    (st.setCurenv c e).pages = st.pages := rfl
@[simp] theorem setCurenv_page_free_list (st : Kernel) (c : Nat) (e : Option Nat) :
    (st.setCurenv c e).page_free_list = st.page_free_list := rfl
@[simp] theorem setCurenv_mem (st : Kernel) (c : Nat) (e : Option Nat) :
    (st.setCurenv c e).mem = st.mem := rfl
@[simp] theorem setCurenv_npages (st : Kernel) (c : Nat) (e : Option Nat) :
    (st.setCurenv c e).npages = st.npages := rfl

/-! ## The memory manager leaves the environment table alone -/

theorem EnvFrame.refl (st : Kernel) : EnvFrame st st := ⟨rfl, rfl, rfl, rfl, rfl⟩

theorem EnvFrame.trans {a b c : Kernel} (h1 : EnvFrame a b) (h2 : EnvFrame b c) : EnvFrame a c :=
  ⟨h2.envs.trans h1.envs, h2.env_free_list.trans h1.env_free_list, h2.cpu_env.trans h1.cpu_env,
   h2.npages.trans h1.npages, h2.kern_pml4.trans h1.kern_pml4⟩

theorem envFrame_setPage (st : Kernel) (i : Nat) (p : PageInfo) : EnvFrame st (st.setPage i p) :=
  ⟨rfl, rfl, rfl, rfl, rfl⟩

theorem envFrame_write (st : Kernel) (f i v : Nat) : EnvFrame st (st.write f i v) :=
  ⟨rfl, rfl, rfl, rfl, rfl⟩

theorem envFrame_incref (st : Kernel) (pp : Nat) : EnvFrame st (incref st pp) :=
  ⟨rfl, rfl, rfl, rfl, rfl⟩

theorem envFrame_page_alloc (st : Kernel) (flags : Nat) : EnvFrame st (page_alloc st flags).1 := by
  unfold page_alloc
  split
  · exact EnvFrame.refl st
  · dsimp only
    split <;> exact ⟨rfl, rfl, rfl, rfl, rfl⟩

theorem envFrame_page_free {st st' : Kernel} {pp : Nat} (h : page_free st pp = some st') :
    EnvFrame st st' := by
  unfold page_free at h
  split at h
  · exact absurd h (by simp)
  · cases h; exact ⟨rfl, rfl, rfl, rfl, rfl⟩

theorem envFrame_page_decref {st st' : Kernel} {pp : Nat} (h : page_decref st pp = some st') :
    EnvFrame st st' := by
  unfold page_decref at h
  dsimp only at h
  split at h
  · exact (envFrame_setPage st pp _).trans (envFrame_page_free h)
  · cases h; exact envFrame_setPage st pp _

theorem envFrame_walk_level {st st' : Kernel} {tbl idx : Nat} {create : Bool} {r : Option Nat}
    (h : walk_level st tbl idx create = some (st', r)) : EnvFrame st st' := by
  unfold walk_level at h
  split at h
  · simp only [Option.map_eq_some', Prod.mk.injEq] at h
    obtain ⟨t, _, h1, _⟩ := h
    subst h1; exact EnvFrame.refl _
  · split at h
    · cases h; exact EnvFrame.refl _
    · have hpa := envFrame_page_alloc st ALLOC_ZERO
      split at h
      · rename_i st1 heq
        cases h
        rw [heq] at hpa; exact hpa
      · rename_i st1 pp heq
        rw [heq] at hpa
        simp only [Option.map_eq_some', Prod.mk.injEq] at h
        obtain ⟨t, _, h1, _⟩ := h
        subst h1
        exact hpa.trans ((envFrame_incref st1 pp).trans (envFrame_write _ _ _ _))

theorem envFrame_pml4e_walk {st st' : Kernel} {root va : Nat} {create : Bool}
    {r : Option (Nat × Nat)} (h : pml4e_walk st root va create = some (st', r)) :
    EnvFrame st st' := by
  unfold pml4e_walk at h
  split at h
  · exact absurd h (by simp)
  · rename_i st1 h1; cases h; exact envFrame_walk_level h1
  · rename_i st1 pdpe h1
    split at h
    · exact absurd h (by simp)
    · rename_i st2 h2; cases h; exact (envFrame_walk_level h1).trans (envFrame_walk_level h2)
    · rename_i st2 pgdir h2
      split at h
      · exact absurd h (by simp)
      · rename_i st3 h3; cases h
        exact ((envFrame_walk_level h1).trans (envFrame_walk_level h2)).trans
          (envFrame_walk_level h3)
      · rename_i st3 pt h3; cases h
        exact ((envFrame_walk_level h1).trans (envFrame_walk_level h2)).trans
          (envFrame_walk_level h3)

theorem envFrame_page_remove {st st' : Kernel} {root va : Nat}
    (h : page_remove st root va = some st') : EnvFrame st st' := by
  unfold page_remove at h
  split at h
  · exact absurd h (by simp)
  · cases h; exact EnvFrame.refl _
  · split at h
    · exact absurd h (by simp)
    · rename_i st1 h1; cases h
      exact (envFrame_page_decref h1).trans (envFrame_write _ _ _ _)

theorem envFrame_page_insert {st st' : Kernel} {root pp va perm : Nat} {r : Int}
    (h : page_insert st root pp va perm = some (r, st')) : EnvFrame st st' := by
  unfold page_insert at h
  split at h
  · exact absurd h (by simp)
  · rename_i st1 h1; cases h; exact envFrame_pml4e_walk h1
  · rename_i st1 pt i h1
    dsimp only at h
    split at h
    · exact absurd h (by simp)
    · rename_i st3 h3
      cases h
      refine ((envFrame_pml4e_walk h1).trans ((envFrame_incref st1 pp).trans ?_)).trans
        (envFrame_write _ _ _ _)
      split at h3
      · exact envFrame_page_remove h3
      · cases h3; exact EnvFrame.refl _

/-! ## `env_setup_vm` and `env_alloc` -/

theorem SetupFrame.of_envFrame {e : Nat} {st st' : Kernel} (h : EnvFrame st st') :
    SetupFrame e st st' :=
  ⟨fun i _ => by rw [h.envs], by rw [h.envs], h.env_free_list, h.cpu_env, h.npages, h.kern_pml4⟩

theorem SetupFrame.trans_envFrame {e : Nat} {a b c : Kernel} (h1 : SetupFrame e a b)
    (h2 : EnvFrame b c) : SetupFrame e a c :=
  ⟨fun i hi => by rw [h2.envs]; exact h1.envs i hi, by rw [h2.envs]; exact h1.env,
   h2.env_free_list.trans h1.env_free_list, h2.cpu_env.trans h1.cpu_env,
   h2.npages.trans h1.npages, h2.kern_pml4.trans h1.kern_pml4⟩

theorem env_setup_vm_loop_spec (root p : Nat) (vas : List Nat) :
    ∀ (st st' : Kernel) (r : Int), env_setup_vm_loop root p vas st = some (r, st') →
      EnvFrame st st' ∧ (r = 0 ∨ r = -E_NO_MEM) := by
  induction vas with
  | nil =>
    intro st st' r h
    simp only [env_setup_vm_loop, Option.some.injEq, Prod.mk.injEq] at h
    exact ⟨h.2 ▸ EnvFrame.refl _, Or.inl h.1.symm⟩
  | cons va vas ih =>
    intro st st' r h
    unfold env_setup_vm_loop at h
    split at h
    · exact absurd h (by simp)
    · rename_i st1 h1
      obtain ⟨hf, hr⟩ := ih _ _ _ h
      exact ⟨(envFrame_pml4e_walk h1).trans hf, hr⟩
    · rename_i st1 kt ki h1
      split at h
      · split at h
        · exact absurd h (by simp)
        · rename_i st2 h2
          simp only [Option.map_eq_some', Prod.mk.injEq] at h
          obtain ⟨s, hs, hr, hst⟩ := h
          subst hst
          exact ⟨((envFrame_pml4e_walk h1).trans (envFrame_pml4e_walk h2)).trans
            (envFrame_page_decref hs), Or.inr hr.symm⟩
        · rename_i st2 et ei h2
          obtain ⟨hf, hr⟩ := ih _ _ _ h
          exact ⟨((envFrame_pml4e_walk h1).trans (envFrame_pml4e_walk h2)).trans
            ((envFrame_write _ _ _ _).trans hf), hr⟩
      · obtain ⟨hf, hr⟩ := ih _ _ _ h
        exact ⟨(envFrame_pml4e_walk h1).trans hf, hr⟩

@[simp] theorem incref_envs (st : Kernel) (pp : Nat) : (incref st pp).envs = st.envs := rfl
@[simp] theorem incref_env_free_list (st : Kernel) (pp : Nat) :
    (incref st pp).env_free_list = st.env_free_list := rfl
@[simp] theorem incref_cpu_env (st : Kernel) (pp : Nat) : (incref st pp).cpu_env = st.cpu_env := rfl
@[simp] theorem incref_mem (st : Kernel) (pp : Nat) : (incref st pp).mem = st.mem := rfl
@[simp] theorem incref_npages (st : Kernel) (pp : Nat) : (incref st pp).npages = st.npages := rfl
@[simp] theorem incref_page_free_list (st : Kernel) (pp : Nat) :
    (incref st pp).page_free_list = st.page_free_list := rfl

theorem setupFrame_setRoot (st : Kernel) (e : Nat) (root : Option Nat) :
    SetupFrame e st (st.setEnv e { st.envs e with env_pml4e := root }) :=
  ⟨fun i hi => by simp [Function.update_noteq hi], by simp, rfl, rfl, rfl, rfl⟩

theorem env_setup_vm_pdpt_spec {root p : Nat} {st st' : Kernel} {r : Int}
    (h : env_setup_vm_pdpt root p st = some (r, st')) :
    EnvFrame st st' ∧ (r = 0 ∨ r = -E_NO_MEM) := by
  unfold env_setup_vm_pdpt at h
  split at h
  · have hpa3 := envFrame_page_alloc st ALLOC_ZERO
    split at h
    · rename_i s heq3
      rw [heq3] at hpa3
      simp only [Option.map_eq_some', Prod.mk.injEq] at h
      obtain ⟨s1, hs1, hr, hst⟩ := h
      subst hst
      exact ⟨hpa3.trans (envFrame_page_decref hs1), Or.inr hr.symm⟩
    · rename_i s pdpe_page heq3
      rw [heq3] at hpa3
      simp only [Option.some.injEq, Prod.mk.injEq] at h
      obtain ⟨hr, hst⟩ := h
      subst hst
      exact ⟨hpa3.trans ((envFrame_incref _ _).trans (envFrame_write _ _ _ _)), Or.inl hr.symm⟩
  · simp only [Option.some.injEq, Prod.mk.injEq] at h
    exact ⟨h.2 ▸ EnvFrame.refl _, Or.inl h.1.symm⟩

theorem env_setup_vm_mirror_spec {root : Nat} {st st' : Kernel} {r : Int}
    (h : env_setup_vm_mirror root st = some (r, st')) : EnvFrame st st' ∧ r = 0 := by
  unfold env_setup_vm_mirror at h
  split at h
  · cases h
    exact ⟨(envFrame_write _ _ _ _).trans (envFrame_write _ _ _ _), rfl⟩
  · exact absurd h (by simp)

theorem env_setup_vm_spec {st st' : Kernel} {e : Nat} {r : Int}
    (h : env_setup_vm st e = some (r, st')) :
    SetupFrame e st st' ∧ (r = 0 ∨ r = -E_NO_MEM) := by
  unfold env_setup_vm at h
  have hpa := envFrame_page_alloc st ALLOC_ZERO
  split at h
  · rename_i st1 heq
    rw [heq] at hpa
    cases h
    exact ⟨SetupFrame.of_envFrame hpa, Or.inr rfl⟩
  · rename_i st1 p heq
    rw [heq] at hpa
    replace hpa : EnvFrame st st1 := hpa
    split at h
    · exact absurd h (by simp)
    · rename_i root hroot
      dsimp only at h
      have h2 : SetupFrame e st
          ((incref st1 p).setEnv e { st1.envs e with env_pml4e := some root }) := by
        have hf : EnvFrame st (incref st1 p) := hpa.trans (envFrame_incref st1 p)
        refine ⟨fun i hi => ?_, ?_, hf.env_free_list, hf.cpu_env, hf.npages, hf.kern_pml4⟩
        · simp [Function.update_noteq hi, hpa.envs]
        · simp [hpa.envs]
      split at h
      · exact absurd h (by simp)
      · rename_i r3 st3 h3
        obtain ⟨hf3, hr3⟩ := env_setup_vm_loop_spec _ _ _ _ _ _ h3
        split at h
        · cases h; exact ⟨h2.trans_envFrame hf3, hr3⟩
        · split at h
          · exact absurd h (by simp)
          · rename_i r4 st4 h4
            have hf4 := env_setup_vm_pdpt_spec h4
            split at h
            · cases h; exact ⟨(h2.trans_envFrame hf3).trans_envFrame hf4.1, hf4.2⟩
            · obtain ⟨hf5, hr5⟩ := env_setup_vm_mirror_spec h
              exact ⟨((h2.trans_envFrame hf3).trans_envFrame hf4.1).trans_envFrame hf5,
                Or.inl hr5⟩

/-- The record `env_alloc` leaves in the slot it allocates. -/
theorem env_alloc_cases {lg : Nat} {st st' : Kernel} {parent_id : Nat} {r : Int}
    {store : Option Nat} (h : env_alloc lg st parent_id = some (r, store, st')) :
    (st.env_free_list = none ∧ r = -E_NO_FREE_ENV ∧ store = none ∧ st' = st) ∨
    (∃ e, st.env_free_list = some e ∧ env_setup_vm st e = some (r, st') ∧ r = -E_NO_MEM ∧
      store = none) ∨
    (∃ e st1, st.env_free_list = some e ∧ env_setup_vm st e = some (0, st1) ∧ r = 0 ∧
      store = some e ∧
      st' = { st1.setEnv e
                { st1.envs e with
                  env_id := next_env_id lg (st1.envs e).env_id e
                  env_parent_id := parent_id
                  env_type := ENV_TYPE_USER
                  env_status := ENV_RUNNABLE
                  env_runs := 0
                  env_tf := initial_tf
                  env_pgfault_upcall := 0
                  env_ipc_recving := false }
              with env_free_list := (st1.envs e).env_link }) := by
  unfold env_alloc at h
  split at h
  · rename_i hl
    simp only [Option.some.injEq, Prod.mk.injEq] at h
    exact Or.inl ⟨hl, h.1.symm, h.2.1.symm, h.2.2.symm⟩
  · rename_i e hl
    split at h
    · exact absurd h (by simp)
    · rename_i r1 st1 hs
      have hr := (env_setup_vm_spec hs).2
      split at h
      · rename_i hneg
        simp only [Option.some.injEq, Prod.mk.injEq] at h
        obtain ⟨h1, h2, h3⟩ := h
        subst h1 h3
        rcases hr with hr | hr
        · rw [hr] at hneg; exact absurd hneg (by decide)
        · exact Or.inr (Or.inl ⟨e, hl, hs, hr, h2.symm⟩)
      · rename_i hneg
        simp only [Option.some.injEq, Prod.mk.injEq] at h
        obtain ⟨h1, h2, h3⟩ := h
        rcases hr with hr | hr
        · subst hr
          exact Or.inr (Or.inr ⟨e, st1, hl, hs, h1.symm, h2.symm, h3.symm⟩)
        · rw [hr] at hneg; exact absurd (by decide) hneg

/-! ## Arithmetic of environment ids -/

theorem NENV_eq (lg : Nat) : NENV lg = 2 ^ lg := by
  unfold NENV; exact Nat.one_shiftLeft lg

theorem ENVX_eq_mod (lg envid : Nat) : ENVX lg envid = envid % 2 ^ lg := by
  unfold ENVX; rw [NENV_eq]; exact Nat.and_pow_two_sub_one_eq_mod envid lg

theorem ENVX_lt (lg envid : Nat) : ENVX lg envid < NENV lg := by
  rw [ENVX_eq_mod, NENV_eq]; exact Nat.mod_lt _ (Nat.pos_pow_of_pos lg (by decide))

/-- Clearing the low `lg` bits of a 32-bit pattern. -/
theorem and_not_mask (lg x : Nat) (hlg : lg ≤ 32) (hx : x < 2 ^ 32) :
    x &&& (2 ^ 32 - 1 - (2 ^ lg - 1)) = 2 ^ lg * (x / 2 ^ lg) := by
  have hpow : (2 : Nat) ^ 32 = 2 ^ lg * 2 ^ (32 - lg) := by
    rw [← pow_add]; congr 1; omega
  have h1 : 1 ≤ 2 ^ lg := Nat.one_le_two_pow
  have h2 : 1 ≤ 2 ^ (32 - lg) := Nat.one_le_two_pow
  have hmask : 2 ^ 32 - 1 - (2 ^ lg - 1) = 2 ^ lg * (2 ^ (32 - lg) - 1) := by
    rw [Nat.mul_sub, ← hpow]; omega
  rw [hmask]
  apply Nat.eq_of_testBit_eq
  intro i
  rw [Nat.testBit_and, Nat.testBit_mul_pow_two, Nat.testBit_mul_pow_two,
    Nat.testBit_two_pow_sub_one, ← Nat.shiftRight_eq_div_pow, Nat.testBit_shiftRight]
  by_cases hi : i ≥ lg
  · have e1 : lg + (i - lg) = i := by omega
    rw [e1]
    by_cases hi2 : i < 32
    · have : i - lg < 32 - lg := by omega
      simp [hi, this]
    · have hxi : x.testBit i = false := by
        apply Nat.testBit_eq_false_of_lt
        exact lt_of_lt_of_le hx (Nat.pow_le_pow_right (by decide) (by omega))
      simp [hxi]
  · simp [hi]

theorem int32_of_lt (x : Nat) (h : x < 2 ^ 31) : int32 x = (x : Int) := by
  unfold int32
  have h1 : x % 2 ^ 32 = x := Nat.mod_eq_of_lt (by omega)
  rw [h1, if_pos h]

theorem int32_nonpos_iff (x : Nat) (hx : x < 2 ^ 32) : int32 x ≤ 0 ↔ (x = 0 ∨ 2 ^ 31 ≤ x) := by
  unfold int32
  have h1 : x % 2 ^ 32 = x := Nat.mod_eq_of_lt hx
  rw [h1]
  split <;> omega

/-- The value `env_alloc` computes: with `g` the old id advanced by
`1 << ENVGENSHIFT` and cleared of its index bits, the new id is `g + e`, or
`4096 + e` when `g` is not positive as a signed 32-bit value. -/
theorem next_env_id_eq (lg old e : Nat) (hlg : lg ≤ 12) (he : e < 2 ^ lg) :
    next_env_id lg old e =
      (if 2 ^ lg * (((old + 4096) % 2 ^ 32) / 2 ^ lg) = 0 ∨
          2 ^ 31 ≤ 2 ^ lg * (((old + 4096) % 2 ^ 32) / 2 ^ lg)
        then 4096 else 2 ^ lg * (((old + 4096) % 2 ^ 32) / 2 ^ lg)) + e := by
  have hx : (old + 4096) % 2 ^ 32 < 2 ^ 32 := Nat.mod_lt _ (by decide)
  have hmask := and_not_mask lg ((old + 4096) % 2 ^ 32) (by omega) hx
  have hg32 : 2 ^ lg * (((old + 4096) % 2 ^ 32) / 2 ^ lg) < 2 ^ 32 :=
    lt_of_le_of_lt (Nat.mul_div_le _ _) hx
  have h4096 : (4096 : Nat) = 2 ^ lg * 2 ^ (12 - lg) := by
    rw [← pow_add]
    have : lg + (12 - lg) = 12 := by omega
    rw [this]; norm_num
  have hshift : (1 : Nat) <<< ENVGENSHIFT = 4096 := by decide
  unfold next_env_id
  simp only [hshift, NENV_eq, hmask]
  by_cases hc : 2 ^ lg * (((old + 4096) % 2 ^ 32) / 2 ^ lg) = 0 ∨
      2 ^ 31 ≤ 2 ^ lg * (((old + 4096) % 2 ^ 32) / 2 ^ lg)
  · rw [if_pos hc, if_pos ((int32_nonpos_iff _ hg32).2 hc)]
    have : (4096 ||| e) = 4096 + e := by
      rw [h4096]; exact (Nat.mul_add_lt_is_or he _).symm
    rw [this]
    have he2 : e < 4096 := lt_of_lt_of_le he (by
      calc 2 ^ lg ≤ 2 ^ 12 := Nat.pow_le_pow_right (by decide) hlg
        _ = 4096 := by norm_num)
    exact Nat.mod_eq_of_lt (by omega)
  · rw [if_neg hc, if_neg (fun h => hc ((int32_nonpos_iff _ hg32).1 h))]
    rw [← Nat.mul_add_lt_is_or he]
    push_neg at hc
    have hlt : 2 ^ lg * (((old + 4096) % 2 ^ 32) / 2 ^ lg) + e < 2 ^ 32 := by
      have h31 : (2 : Nat) ^ 31 = 2 ^ lg * 2 ^ (31 - lg) := by
        rw [← pow_add]; congr 1; omega
      have ha : ((old + 4096) % 2 ^ 32) / 2 ^ lg < 2 ^ (31 - lg) := by
        have := hc.2
        rw [h31] at this
        exact lt_of_mul_lt_mul_left this (Nat.zero_le _)
      calc 2 ^ lg * (((old + 4096) % 2 ^ 32) / 2 ^ lg) + e
          < 2 ^ lg * (((old + 4096) % 2 ^ 32) / 2 ^ lg) + 2 ^ lg := by omega
        _ = 2 ^ lg * (((old + 4096) % 2 ^ 32) / 2 ^ lg + 1) := by ring
        _ ≤ 2 ^ lg * 2 ^ (31 - lg) := Nat.mul_le_mul_left _ ha
        _ = 2 ^ 31 := h31.symm
        _ ≤ 2 ^ 32 := by norm_num
    exact Nat.mod_eq_of_lt hlt

theorem generation_of_eq (lg x : Nat) (hlg : lg ≤ 32) (hx : x < 2 ^ 32) :
    generation_of lg x = int32 (2 ^ lg * (x / 2 ^ lg)) := by
  unfold generation_of
  rw [NENV_eq, and_not_mask lg x hlg hx]

theorem next_env_id_envx (lg old e : Nat) (hlg : lg ≤ 12) (he : e < 2 ^ lg) :
    ENVX lg (next_env_id lg old e) = e := by
  rw [ENVX_eq_mod, next_env_id_eq lg old e hlg he]
  have h4096 : (4096 : Nat) = 2 ^ lg * 2 ^ (12 - lg) := by
    rw [← pow_add]
    have : lg + (12 - lg) = 12 := by omega
    rw [this]; norm_num
  split
  · rw [h4096, Nat.mul_add_mod]; exact Nat.mod_eq_of_lt he
  · rw [Nat.mul_add_mod]; exact Nat.mod_eq_of_lt he

theorem next_env_id_range (lg old e : Nat) (hlg : lg ≤ 12) (he : e < 2 ^ lg) :
    0 < next_env_id lg old e ∧ next_env_id lg old e < 2 ^ 31 := by
  rw [next_env_id_eq lg old e hlg he]
  interval_cases lg <;> simp only [Nat.reducePow] at he ⊢ <;> split <;> omega

theorem next_env_id_pos (lg old e : Nat) (hlg : lg ≤ 12) (he : e < 2 ^ lg) :
    0 < int32 (next_env_id lg old e) := by
  obtain ⟨h1, h2⟩ := next_env_id_range lg old e hlg he
  rw [int32_of_lt _ h2]; exact_mod_cast h1

theorem next_env_id_ne (lg old e : Nat) (hlg : lg ≤ 12) (he : e < 2 ^ lg) :
    next_env_id lg old e ≠ old := by
  rw [next_env_id_eq lg old e hlg he]
  interval_cases lg <;> simp only [Nat.reducePow] at he ⊢ <;> split <;> omega

/-- Without overflow the generation grows: when the generation computed from
the old id is positive and the old id is not negative, the new id has a
strictly larger generation. -/
theorem next_env_id_generation_lt (lg old e : Nat) (hlg : lg ≤ 12) (he : e < 2 ^ lg)
    (hold : old < 2 ^ 31) (hpos : 0 < generation_of lg ((old + 4096) % 2 ^ 32)) :
    generation_of lg old < generation_of lg (next_env_id lg old e) := by
  have hx : (old + 4096) % 2 ^ 32 < 2 ^ 32 := Nat.mod_lt _ (by decide)
  obtain ⟨h1, h2⟩ := next_env_id_range lg old e hlg he
  rw [generation_of_eq lg _ (by omega) hx] at hpos
  rw [generation_of_eq lg _ (by omega) (by omega), generation_of_eq lg _ (by omega) (by omega)]
  have hg32 : 2 ^ lg * (((old + 4096) % 2 ^ 32) / 2 ^ lg) < 2 ^ 32 :=
    lt_of_le_of_lt (Nat.mul_div_le _ _) hx
  have hnp := int32_nonpos_iff _ hg32
  have hc : ¬ (2 ^ lg * (((old + 4096) % 2 ^ 32) / 2 ^ lg) = 0 ∨
      2 ^ 31 ≤ 2 ^ lg * (((old + 4096) % 2 ^ 32) / 2 ^ lg)) := fun h => by
    have := hnp.2 h; omega
  have ho : 2 ^ lg * (old / 2 ^ lg) < 2 ^ 31 := lt_of_le_of_lt (Nat.mul_div_le _ _) hold
  have hn : 2 ^ lg * (next_env_id lg old e / 2 ^ lg) < 2 ^ 31 :=
    lt_of_le_of_lt (Nat.mul_div_le _ _) h2
  rw [int32_of_lt _ ho, int32_of_lt _ hn]
  have hne := next_env_id_eq lg old e hlg he
  rw [if_neg hc] at hne
  rw [hne]
  push_neg at hc
  have : 2 ^ lg * (old / 2 ^ lg) <
      2 ^ lg * ((2 ^ lg * (((old + 4096) % 2 ^ 32) / 2 ^ lg) + e) / 2 ^ lg) := by
    clear hpos hnp hne hn h1 h2
    interval_cases lg <;> simp only [Nat.reducePow] at * <;> omega
  exact_mod_cast this

/-- The first `2^19 - 1` ids of a slot: `4096 * k + e`. -/
theorem slot_id_eq (lg e : Nat) (hlg : lg ≤ 12) (he : e < 2 ^ lg) :
    ∀ k, 1 ≤ k → k < 2 ^ 19 → slot_id lg e k = 4096 * k + e := by
  intro k
  induction k with
  | zero => intro h; omega
  | succ k ih =>
    intro _ hk
    rw [slot_id, next_env_id_eq lg _ e hlg he]
    rcases Nat.eq_zero_or_pos k with h0 | hpos
    · subst h0
      simp only [slot_id]
      interval_cases lg <;> simp only [Nat.reducePow] at * <;> split <;> omega
    · rw [ih hpos (by omega)]
      interval_cases lg <;> simp only [Nat.reducePow] at * <;> split <;> omega

/-- After `2^19` allocations the generation wraps: the slot is given the id
of its first occupant again. -/
theorem slot_id_wraps (lg e : Nat) (hlg : lg ≤ 12) (he : e < 2 ^ lg) :
    slot_id lg e (2 ^ 19) = slot_id lg e 1 := by
  have h1 := slot_id_eq lg e hlg he 1 (by omega) (by norm_num)
  have h2 := slot_id_eq lg e hlg he (2 ^ 19 - 1) (by norm_num) (by norm_num)
  have e1 : (2 : Nat) ^ 19 = (2 ^ 19 - 1) + 1 := by norm_num
  rw [e1, slot_id, h2, h1, next_env_id_eq lg _ e hlg he]
  interval_cases lg <;> simp only [Nat.reducePow] at * <;> split <;> omega

/-! ## Evaluating `env_setup_vm` -/

theorem kernel_window_bounds {va : Nat} (h : va ∈ kernel_window) :
    0xBC800000 ≤ va ∧ va < 0xC0000000 := by
  unfold kernel_window at h
  simp only [List.mem_map, List.mem_range] at h
  obtain ⟨k, hk, rfl⟩ := h
  have h1 : (KERNBASE - UTOP) / PGSIZE = 14336 := by decide
  have h2 : UTOP = 0xBC800000 := by decide
  have h3 : PGSIZE = 4096 := rfl
  rw [h1] at hk
  rw [h2, h3]
  omega

theorem kernel_window_index {va : Nat} (h : va ∈ kernel_window) : PML4X va = 0 ∧ PDPX va = 2 := by
  obtain ⟨h1, h2⟩ := kernel_window_bounds h
  unfold PML4X PDPX
  rw [Nat.shiftRight_eq_div_pow, Nat.shiftRight_eq_div_pow]
  have e1 : va / 2 ^ 39 = 0 := by omega
  have e2 : va / 2 ^ 30 = 2 := by omega
  rw [e1, e2]
  exact ⟨by decide, by decide⟩

/-- The loop of `env_setup_vm` does nothing when the kernel maps nothing at
the addresses it visits. -/
theorem env_setup_vm_loop_unmapped (root p : Nat) (vas : List Nat) (st : Kernel)
    (h : ∀ va ∈ vas, pml4e_walk st st.kern_pml4 va false = some (st, none)) :
    env_setup_vm_loop root p vas st = some (0, st) := by
  induction vas with
  | nil => rfl
  | cons va vas ih =>
    unfold env_setup_vm_loop
    rw [h va (List.mem_cons_self _ _)]
    exact ih (fun v hv => h v (List.mem_cons_of_mem _ hv))

/-- A kernel whose PML4 slot 0 is present and whose PDPT slot 2 is not maps
nothing in the window between `UTOP` and `KERNBASE`. -/
theorem walk_window_unmapped (st : Kernel) (kt : Nat)
    (h0 : present (st.mem st.kern_pml4 0) = true)
    (h1 : KADDR st (PTE_ADDR (st.mem st.kern_pml4 0)) = some kt)
    (h2 : present (st.mem kt 2) = false) :
    ∀ va ∈ kernel_window, pml4e_walk st st.kern_pml4 va false = some (st, none) := by
  intro va hva
  obtain ⟨e1, e2⟩ := kernel_window_index hva
  simp [pml4e_walk, walk_level, e1, e2, h0, h1, h2]

/-! ## Entries of page tables -/

theorem PGNUM_page2pa (p : Nat) : PGNUM (page2pa p) = p := by
  unfold PGNUM page2pa
  exact Nat.shiftLeft_shiftRight p PGSHIFT

theorem KADDR_page2pa (st : Kernel) (p : Nat) (h : p < st.npages) :
    KADDR st (page2pa p) = some p := by
  unfold KADDR
  rw [PGNUM_page2pa, if_neg (by omega)]

/-- The address part of an entry built from a frame and twelve flag bits. -/
theorem PTE_ADDR_entry (p f : Nat) (hp : p < 2 ^ 52) (hf : f < 2 ^ 12) :
    PTE_ADDR (page2pa p ||| f) = page2pa p := by
  unfold PTE_ADDR page2pa PGSHIFT
  have hmask : (0xFFFFFFFFFFFFF000 : Nat) = 2 ^ 12 * (2 ^ 52 - 1) := by norm_num
  rw [hmask, Nat.shiftLeft_eq, Nat.mul_comm p]
  apply Nat.eq_of_testBit_eq
  intro i
  rw [Nat.testBit_and, Nat.testBit_or, Nat.testBit_mul_pow_two, Nat.testBit_mul_pow_two,
    Nat.testBit_two_pow_sub_one]
  by_cases hi : i ≥ 12
  · have hfi : f.testBit i = false :=
      Nat.testBit_eq_false_of_lt (lt_of_lt_of_le hf (Nat.pow_le_pow_right (by decide) hi))
    by_cases hi2 : i - 12 < 52
    · simp [hi, hfi, hi2]
    · have hpi : p.testBit (i - 12) = false :=
        Nat.testBit_eq_false_of_lt (lt_of_lt_of_le hp (Nat.pow_le_pow_right (by decide) (by omega)))
      simp [hi, hfi, hpi]
  · simp [hi]

theorem present_entry (x f : Nat) (hf : f &&& PTE_P ≠ 0) : present (x ||| f) = true := by
  unfold present
  simp only [bne_iff_ne, ne_eq]
  intro h
  apply hf
  apply Nat.eq_of_testBit_eq
  intro i
  have := congrArg (fun n => n.testBit i) h
  simp only [Nat.testBit_and, Nat.testBit_or, Nat.zero_testBit, Bool.and_eq_false_imp] at this ⊢
  cases hfi : f.testBit i <;> cases hpi : PTE_P.testBit i <;> simp_all

theorem page_alloc_zero_some (st : Kernel) (p : Nat) (hp : st.page_free_list = some p) :
    page_alloc st ALLOC_ZERO =
      ({ st with
          page_free_list := (st.pages p).pp_link
          pages := Function.update st.pages p { st.pages p with pp_link := none }
          mem := Function.update st.mem p (fun _ => 0) }, some p) := by
  unfold page_alloc
  rw [hp]
  simp [ALLOC_ZERO]

theorem KADDR_congr (s st : Kernel) (h : s.npages = st.npages) (x : Nat) :
    KADDR s x = KADDR st x := by
  simp [KADDR, h]

theorem env_setup_vm_pdpt_succeeds (root p q : Nat) (st : Kernel)
    (h0 : st.mem root 0 = 0) (hq : st.page_free_list = some q) :
    ∃ st4, env_setup_vm_pdpt root p st = some (0, st4) ∧ st4.npages = st.npages ∧
      st4.kern_pml4 = st.kern_pml4 ∧ st4.mem root 0 = (page2pa q ||| 7) ∧
      (∀ f, f ≠ root → f ≠ q → st4.mem f = st.mem f) := by
  have hnp : ¬ present (st.mem root 0) = true := by simp [h0, present]
  have hflags : ∀ x : Nat, x ||| PTE_P ||| PTE_U ||| PTE_W = x ||| 7 := by
    intro x
    rw [Nat.lor_assoc, Nat.lor_assoc]; rfl
  unfold env_setup_vm_pdpt
  rw [if_pos hnp, page_alloc_zero_some st q hq]
  refine ⟨_, rfl, rfl, rfl, ?_, ?_⟩
  · simp [hflags]
  · intro f hf1 hf2
    simp [Function.update_noteq hf1, Function.update_noteq hf2]

theorem env_setup_vm_mirror_succeeds (root q kt : Nat) (st : Kernel)
    (h1 : KADDR st (PTE_ADDR (st.mem root 0)) = some q)
    (h2 : KADDR st (PTE_ADDR (st.mem st.kern_pml4 0)) = some kt) :
    ∃ st', env_setup_vm_mirror root st = some (0, st') := by
  unfold env_setup_vm_mirror
  rw [h1, h2]
  exact ⟨_, rfl⟩

theorem page_alloc_zero_props (st : Kernel) (p : Nat) (hp : st.page_free_list = some p) :
    ∃ st1, page_alloc st ALLOC_ZERO = (st1, some p) ∧ st1.npages = st.npages ∧
      st1.kern_pml4 = st.kern_pml4 ∧ st1.mem = Function.update st.mem p (fun _ => 0) ∧
      st1.page_free_list = (st.pages p).pp_link :=
  ⟨_, page_alloc_zero_some st p hp, rfl, rfl, rfl, rfl⟩

/-- The successful path through `env_setup_vm`. -/
theorem env_setup_vm_path (st st1 st3 st4 : Kernel) (e p : Nat)
    (h1 : page_alloc st ALLOC_ZERO = (st1, some p)) (hk : KADDR st1 (page2pa p) = some p)
    (h3 : env_setup_vm_loop p p kernel_window
      ((incref st1 p).setEnv e { st1.envs e with env_pml4e := some p }) = some (0, st3))
    (h4 : env_setup_vm_pdpt p p st3 = some (0, st4)) :
    env_setup_vm st e = env_setup_vm_mirror p st4 := by
  unfold env_setup_vm
  rw [h1]
  simp only [hk, h3, h4, lt_self_iff_false, if_false]

/-- Sufficient conditions for `env_setup_vm` to succeed: two frames `p`, `q`
at the head of the free list, both frames of `pages[]` and neither the
kernel's PML4 nor its PDPT `kt`, and a kernel that maps nothing between
`UTOP` and `KERNBASE`. -/
theorem env_setup_vm_succeeds (st : Kernel) (e p q kt : Nat)
    (hp : st.page_free_list = some p) (hq : (st.pages p).pp_link = some q)
    (hpn : p < st.npages) (hqn : q < st.npages) (hq52 : q < 2 ^ 52)
    (hk0 : present (st.mem st.kern_pml4 0) = true)
    (hk1 : KADDR st (PTE_ADDR (st.mem st.kern_pml4 0)) = some kt)
    (hk2 : present (st.mem kt 2) = false)
    (hpk : st.kern_pml4 ≠ p) (hpkt : kt ≠ p) (hqk : st.kern_pml4 ≠ q) :
    ∃ st', env_setup_vm st e = some (0, st') := by
  obtain ⟨st1, h1, n1, k1, m1, l1⟩ := page_alloc_zero_props st p hp
  have hloop : env_setup_vm_loop p p kernel_window
      ((incref st1 p).setEnv e { st1.envs e with env_pml4e := some p }) =
      some (0, (incref st1 p).setEnv e { st1.envs e with env_pml4e := some p }) := by
    apply env_setup_vm_loop_unmapped
    apply walk_window_unmapped _ kt
    · simp only [setEnv_kern_pml4, setEnv_mem, incref_mem]
      show present (st1.mem st1.kern_pml4 0) = true
      rw [k1, m1, Function.update_noteq hpk]; exact hk0
    · show KADDR st1 (PTE_ADDR (st1.mem st1.kern_pml4 0)) = some kt
      rw [KADDR_congr st1 st n1, k1, m1, Function.update_noteq hpk]; exact hk1
    · show present (st1.mem kt 2) = false
      rw [m1, Function.update_noteq hpkt]; exact hk2
  obtain ⟨st4, h4, n4, k4, m4, f4⟩ :=
    env_setup_vm_pdpt_succeeds p p q
      ((incref st1 p).setEnv e { st1.envs e with env_pml4e := some p })
      (by show st1.mem p 0 = 0
          rw [m1]; simp)
      (by show st1.page_free_list = some q
          rw [l1]; exact hq)
  rw [env_setup_vm_path st st1 _ st4 e p h1 (KADDR_page2pa st1 p (by omega)) hloop h4]
  apply env_setup_vm_mirror_succeeds p q kt
  · rw [m4, PTE_ADDR_entry q 7 hq52 (by norm_num)]
    exact KADDR_page2pa st4 q (by rw [n4]; show q < st1.npages; omega)
  · rw [KADDR_congr st4 st (n4.trans n1), k4]
    show KADDR st (PTE_ADDR (st4.mem st1.kern_pml4 0)) = some kt
    rw [k1, f4 _ hpk hqk]
    show KADDR st (PTE_ADDR (st1.mem st.kern_pml4 0)) = some kt
    rw [m1, Function.update_noteq hpk]
    exact hk1

/-- Under the conditions of `env_setup_vm_succeeds` and with a free
environment, `env_alloc` succeeds. -/
theorem env_alloc_succeeds (lg : Nat) (st : Kernel) (parent_id e p q kt : Nat)
    (hl : st.env_free_list = some e)
    (hp : st.page_free_list = some p) (hq : (st.pages p).pp_link = some q)
    (hpn : p < st.npages) (hqn : q < st.npages) (hq52 : q < 2 ^ 52)
    (hk0 : present (st.mem st.kern_pml4 0) = true)
    (hk1 : KADDR st (PTE_ADDR (st.mem st.kern_pml4 0)) = some kt)
    (hk2 : present (st.mem kt 2) = false)
    (hpk : st.kern_pml4 ≠ p) (hpkt : kt ≠ p) (hqk : st.kern_pml4 ≠ q) :
    ∃ st', env_alloc lg st parent_id = some (0, some e, st') := by
  obtain ⟨st1, h1⟩ := env_setup_vm_succeeds st e p q kt hp hq hpn hqn hq52 hk0 hk1 hk2 hpk hpkt hqk
  unfold env_alloc
  rw [hl]
  simp only [h1, lt_self_iff_false, if_false]
  exact ⟨_, rfl⟩

/-! ## `env_free` -/

theorem envFrame_env_free_ptes (root pt pdpe_index pdeno : Nat) (l : List Nat) :
    ∀ (st st' : Kernel), env_free_ptes root pt pdpe_index pdeno l st = some st' →
      EnvFrame st st' := by
  induction l with
  | nil => intro st st' h; cases h; exact EnvFrame.refl _
  | cons pteno rest ih =>
    intro st st' h
    unfold env_free_ptes at h
    split at h
    · split at h
      · split at h
        · exact absurd h (by simp)
        · rename_i st1 h1
          exact (envFrame_page_remove h1).trans (ih _ _ h)
      · exact ih _ _ h
    · cases h; exact EnvFrame.refl _

theorem envFrame_env_free_pdes (root env_pgdir pdpe_index : Nat) (l : List Nat) :
    ∀ (st st' : Kernel), env_free_pdes root env_pgdir pdpe_index l st = some st' →
      EnvFrame st st' := by
  induction l with
  | nil => intro st st' h; cases h; exact EnvFrame.refl _
  | cons pdeno rest ih =>
    intro st st' h
    rw [env_free_pdes] at h
    split at h
    · exact ih _ _ h
    · simp only [Option.bind_eq_some] at h
      obtain ⟨pt, _, st1, h1, pp, _, st3, h3, h5⟩ := h
      exact (((envFrame_env_free_ptes _ _ _ _ _ _ _ h1).trans
        (envFrame_write _ _ _ _)).trans (envFrame_page_decref h3)).trans (ih _ _ h5)

theorem envFrame_env_free_pdpes (root env_pdpe : Nat) (l : List Nat) :
    ∀ (st st' : Kernel), env_free_pdpes root env_pdpe l st = some st' → EnvFrame st st' := by
  induction l with
  | nil => intro st st' h; cases h; exact EnvFrame.refl _
  | cons pdpe_index rest ih =>
    intro st st' h
    rw [env_free_pdpes] at h
    split at h
    · exact ih _ _ h
    · simp only [Option.bind_eq_some] at h
      obtain ⟨env_pgdir, _, st1, h1, pp, _, st3, h3, h5⟩ := h
      exact (((envFrame_env_free_pdes _ _ _ _ _ _ h1).trans
        (envFrame_write _ _ _ _)).trans (envFrame_page_decref h3)).trans (ih _ _ h5)

/-- What `env_free(e)` does to the environment table: slot `e` loses its
root, becomes `ENV_FREE` and is pushed on the free list; nothing else
changes. -/
theorem env_free_envs {st st' : Kernel} {e : Nat} (h : env_free st e = some st') :
    st'.envs = Function.update st.envs e
      { st.envs e with env_pml4e := none, env_status := ENV_FREE, env_link := st.env_free_list } ∧
    st'.env_free_list = some e ∧ st'.cpu_env = st.cpu_env ∧ st'.npages = st.npages ∧
    st'.kern_pml4 = st.kern_pml4 := by
  unfold env_free at h
  split at h
  · exact absurd h (by simp)
  · rename_i root hroot
    split at h
    · exact absurd h (by simp)
    · rename_i env_pdpe hpd
      split at h
      · exact absurd h (by simp)
      · rename_i st1 h1
        have f1 := envFrame_env_free_pdpes _ _ _ _ _ h1
        split at h
        · exact absurd h (by simp)
        · rename_i pdpt_pp hpp
          split at h
          · exact absurd h (by simp)
          · rename_i st2 h2
            have f2 := f1.trans (envFrame_page_decref h2)
            dsimp only at h
            split at h
            · exact absurd h (by simp)
            · rename_i pml4_pp hpp4
              split at h
              · exact absurd h (by simp)
              · rename_i st4 h4
                have f4 := envFrame_page_decref h4
                cases h
                refine ⟨?_, rfl, ?_, ?_, ?_⟩
                · simp only [setEnv_envs, f4.envs, f4.env_free_list, Function.update_same,
                    Function.update_idem, f2.envs, setEnv_env_free_list, f2.env_free_list]
                · simp only [setEnv_cpu_env, f4.cpu_env, f2.cpu_env]
                · simp only [setEnv_npages, f4.npages, f2.npages]
                · simp only [setEnv_kern_pml4, f4.kern_pml4, f2.kern_pml4]

/-! ## Resolution of ids -/

/-- With a current environment on the calling CPU `envid2env` does not fault:
it returns 0 and a slot, or `-E_BAD_ENV` and `NULL`. -/
theorem envid2env_total (lg : Nat) (st : Kernel) (cpu envid c : Nat) (checkperm : Bool)
    (hc : curenv st cpu = some c) :
    (∃ e, envid2env lg st cpu envid checkperm = some (0, some e) ∧
      (envid ≠ 0 → e = ENVX lg envid ∧ (st.envs e).env_status ≠ ENV_FREE ∧
        (st.envs e).env_id = envid) ∧ (envid = 0 → e = c)) ∨
    envid2env lg st cpu envid checkperm = some (-E_BAD_ENV, none) := by
  by_cases h0 : envid = 0
  · left; exact ⟨c, by simp [envid2env, h0, hc], fun h => absurd h0 h, fun _ => rfl⟩
  · unfold envid2env
    rw [if_neg h0]
    dsimp only
    split
    · right; rfl
    · rename_i hlive
      push_neg at hlive
      split
      · rw [hc]
        dsimp only
        split
        · right; rfl
        · left; exact ⟨_, rfl, fun _ => ⟨rfl, hlive.1, hlive.2⟩, fun h => absurd h h0⟩
      · left; exact ⟨_, rfl, fun _ => ⟨rfl, hlive.1, hlive.2⟩, fun h => absurd h h0⟩

/-- C1. `envid2env`: id 0 returns 0 and stores `curenv`. For a non-zero id
(the calling CPU having a current environment whenever `checkperm` is set) the
call returns 0 and stores `&envs[ENVX(envid)]` exactly when that slot is not
free, its stored id is `envid` in full, and (`checkperm` is false, or the slot
is `curenv`, or the slot's parent id is `curenv`'s id); in every other case it
returns `-E_BAD_ENV` and stores `NULL`. -/
theorem envid2env_contract (lg : Nat) (st : Kernel) (cpu envid : Nat) (checkperm : Bool)
    (hc : checkperm = true → curenv st cpu ≠ none) :
    (envid = 0 → envid2env lg st cpu envid checkperm = some (0, curenv st cpu)) ∧
    (envid ≠ 0 →
      (envid2env lg st cpu envid checkperm = some (0, some (ENVX lg envid)) ↔
        ((st.envs (ENVX lg envid)).env_status ≠ ENV_FREE ∧
         (st.envs (ENVX lg envid)).env_id = envid ∧
         (checkperm = false ∨ curenv st cpu = some (ENVX lg envid) ∨
          ∃ c, curenv st cpu = some c ∧
            (st.envs (ENVX lg envid)).env_parent_id = (st.envs c).env_id))) ∧
      (¬ ((st.envs (ENVX lg envid)).env_status ≠ ENV_FREE ∧
         (st.envs (ENVX lg envid)).env_id = envid ∧
         (checkperm = false ∨ curenv st cpu = some (ENVX lg envid) ∨
          ∃ c, curenv st cpu = some c ∧
            (st.envs (ENVX lg envid)).env_parent_id = (st.envs c).env_id)) →
        envid2env lg st cpu envid checkperm = some (-E_BAD_ENV, none))) := by
  refine ⟨fun h0 => by simp [envid2env, h0], fun h0 => ?_⟩
  have hne : (-E_BAD_ENV, (none : Option Nat)) ≠ ((0 : Int), some (ENVX lg envid)) := by
    simp [E_BAD_ENV]
  by_cases hst : (st.envs (ENVX lg envid)).env_status = ENV_FREE
  · simp [envid2env, h0, hst, E_BAD_ENV]
  by_cases hid : (st.envs (ENVX lg envid)).env_id = envid
  swap
  · simp [envid2env, h0, hst, hid, E_BAD_ENV]
  cases checkperm with
  | false => simp [envid2env, h0, hst, hid]
  | true =>
    cases hcur : curenv st cpu with
    | none => exact absurd hcur (hc rfl)
    | some c =>
      by_cases hec : ENVX lg envid = c
      · simp [envid2env, h0, hst, hid, hcur, hec]
      · have hec2 : c ≠ ENVX lg envid := fun h => hec h.symm
        by_cases hp : (st.envs (ENVX lg envid)).env_parent_id = (st.envs c).env_id
        · simp [envid2env, h0, hst, hid, hcur, hec, hec2, hp]
        · simp [envid2env, h0, hst, hid, hcur, hec, hec2, hp, E_BAD_ENV]

/-- Witness of `envid2env_contract`: on `two_running`, environment 0 on CPU 0
resolves the id `0x1001` of its child with the permission check on. -/
theorem envid2env_contract_witness :
    (true = true → curenv two_running 0 ≠ none) ∧
    envid2env 1 two_running 0 0x1001 true = some (0, some (ENVX 1 0x1001)) :=
  ⟨by decide,
   ((envid2env_contract 1 two_running 0 0x1001 true (by decide)).2 (by decide)).1.2 (by decide)⟩

/-! ## Isolation of environments -/

theorem SetupFrame.env_eq {e : Nat} {st st' : Kernel} (h : SetupFrame e st st') :
    st'.envs e = { st.envs e with env_pml4e := (st'.envs e).env_pml4e } := by
  have := h.env
  rw [← this]

/-- A successful `env_alloc`: it took the head `e` of the free list; the new
record of `e` and the unchanged rest of the table. -/
theorem env_alloc_success {lg : Nat} {st st' : Kernel} {parent_id e : Nat} {r : Int}
    (h : env_alloc lg st parent_id = some (r, some e, st')) :
    r = 0 ∧ st.env_free_list = some e ∧ st'.env_free_list = (st.envs e).env_link ∧
    st'.cpu_env = st.cpu_env ∧ (∀ i, i ≠ e → st'.envs i = st.envs i) ∧
    st'.envs e =
      { st.envs e with
        env_pml4e := (st'.envs e).env_pml4e
        env_id := next_env_id lg (st.envs e).env_id e
        env_parent_id := parent_id
        env_type := ENV_TYPE_USER
        env_status := ENV_RUNNABLE
        env_runs := 0
        env_tf := initial_tf
        env_pgfault_upcall := 0
        env_ipc_recving := false } := by
  rcases env_alloc_cases h with ⟨_, _, h3, _⟩ | ⟨_, _, _, _, h4⟩ | ⟨e', st1, hl, hs, hr0, hst, hst'⟩
  · exact absurd h3 (by simp)
  · exact absurd h4 (by simp)
  · cases hst
    have hf := (env_setup_vm_spec hs).1
    have he := hf.env_eq
    subst hst'
    refine ⟨hr0, hl, ?_, hf.cpu_env, ?_, ?_⟩
    · show (st1.envs e).env_link = _
      rw [he]
    · intro i hi
      show (Function.update st1.envs e _) i = _
      rw [Function.update_noteq hi]; exact hf.envs i hi
    · show (Function.update st1.envs e _) e = _
      rw [Function.update_same]
      have henv := hf.env
      generalize st1.envs e = x at henv ⊢
      generalize st.envs e = y at henv ⊢
      cases x; cases y
      simp only [Env.mk.injEq] at henv ⊢
      simp [henv]

/-- A failed `env_alloc`: the code is one of the two errors, nothing is
stored, and the free list, the current environments and every field of every
record except the root pointer of the head of the free list are unchanged. -/
theorem env_alloc_failure {lg : Nat} {st st' : Kernel} {parent_id : Nat} {r : Int}
    {store : Option Nat} (hr : r < 0) (h : env_alloc lg st parent_id = some (r, store, st')) :
    (r = -E_NO_FREE_ENV ∨ r = -E_NO_MEM) ∧ store = none ∧
    st'.env_free_list = st.env_free_list ∧ st'.cpu_env = st.cpu_env ∧
    (∀ i, { st'.envs i with env_pml4e := (st.envs i).env_pml4e } = st.envs i) ∧
    (r = -E_NO_FREE_ENV → st' = st) := by
  rcases env_alloc_cases h with ⟨_, h2, h3, h4⟩ | ⟨e, hl, hs, h3, h4⟩ | ⟨_, _, _, _, h3, _⟩
  · subst h4
    exact ⟨Or.inl h2, h3, rfl, rfl, fun i => rfl, fun _ => rfl⟩
  · have hf := (env_setup_vm_spec hs).1
    refine ⟨Or.inr h3, h4, hf.env_free_list, hf.cpu_env, fun i => ?_, fun hc => ?_⟩
    · by_cases hi : i = e
      · subst hi; exact hf.env
      · rw [hf.envs i hi]
    · rw [h3] at hc; exact absurd hc (by decide)
  · rw [h3] at hr; exact absurd hr (by decide)

/-! ## Stale ids -/

theorem envid2env_reject (lg : Nat) (st : Kernel) (cpu envid : Nat) (checkperm : Bool)
    (h0 : envid ≠ 0)
    (h : (st.envs (ENVX lg envid)).env_status = ENV_FREE ∨
      (st.envs (ENVX lg envid)).env_id ≠ envid) :
    envid2env lg st cpu envid checkperm = some (-E_BAD_ENV, none) := by
  unfold envid2env
  rw [if_neg h0]
  dsimp only
  rw [if_pos h]

theorem option_eq_some_getD {α : Type} (o : Option α) (d : α) (h : o.isSome = true) :
    o = some (o.getD d) := by
  cases o with
  | none => exact absurd h (by simp)
  | some a => rfl

theorem slot_id_succ_range (lg e k : Nat) (hlg : lg ≤ 12) (he : e < 2 ^ lg) (hk : 1 ≤ k) :
    slot_id lg e k ≠ 0 ∧ ENVX lg (slot_id lg e k) = e := by
  obtain ⟨k', rfl⟩ : ∃ k', k = k' + 1 := ⟨k - 1, by omega⟩
  rw [slot_id]
  exact ⟨Nat.pos_iff_ne_zero.mp (next_env_id_range lg _ e hlg he).1,
    next_env_id_envx lg _ e hlg he⟩

/-- C2, as the code has it. An environment in slot `e` with id `X` is freed by
`env_free` and the slot is re-allocated by `env_alloc`. Then `X` is rejected
by `envid2env` after the free and after the re-allocation; the new id is
`next_env_id lg X e` and differs from `X`; its generation is strictly larger
than that of `X` when the generation computed from `X` is positive (no
overflow of the signed 32-bit id); and among the first `2^19 - 1` occupants of
a slot since `env_init` no two have the same id, so the id of the `j`-th is
rejected while the slot holds the id of the `k`-th. -/
theorem stale_id_rejected (lg : Nat) (st0 st st' : Kernel) (e parent_id cpu j k : Nat)
    (checkperm : Bool) (hlg : lg ≤ 12) (he : e < NENV lg)
    (hx0 : (st0.envs e).env_id ≠ 0) (hxe : ENVX lg (st0.envs e).env_id = e)
    (hfree : env_free st0 e = some st)
    (halloc : env_alloc lg st parent_id = some (0, some e, st'))
    (hj : 1 ≤ j) (hjk : j < k) (hk : k < 2 ^ 19) :
    envid2env lg st cpu (st0.envs e).env_id checkperm = some (-E_BAD_ENV, none) ∧
    (st'.envs e).env_id = next_env_id lg (st0.envs e).env_id e ∧
    (st'.envs e).env_id ≠ (st0.envs e).env_id ∧
    envid2env lg st' cpu (st0.envs e).env_id checkperm = some (-E_BAD_ENV, none) ∧
    ((st0.envs e).env_id < 2 ^ 31 →
      0 < generation_of lg (((st0.envs e).env_id + 4096) % 2 ^ 32) →
      generation_of lg (st0.envs e).env_id < generation_of lg (st'.envs e).env_id) ∧
    slot_id lg e j ≠ slot_id lg e k ∧
    ((st'.envs e).env_id = slot_id lg e k →
      envid2env lg st' cpu (slot_id lg e j) checkperm = some (-E_BAD_ENV, none)) := by
  rw [NENV_eq] at he
  obtain ⟨henvs, _, _, _, _⟩ := env_free_envs hfree
  have hst : st.envs e =
      { st0.envs e with env_pml4e := none, env_status := ENV_FREE
                        env_link := st0.env_free_list } := by
    rw [henvs, Function.update_same]
  have hid : (st.envs e).env_id = (st0.envs e).env_id := by rw [hst]
  have hfreeStatus : (st.envs e).env_status = ENV_FREE := by rw [hst]
  obtain ⟨_, _, _, _, _, hnew⟩ := env_alloc_success halloc
  have hnewid : (st'.envs e).env_id = next_env_id lg (st0.envs e).env_id e := by
    rw [hnew, hid]
  have hne : (st'.envs e).env_id ≠ (st0.envs e).env_id := by
    rw [hnewid]; exact next_env_id_ne lg _ e hlg he
  have hjne : slot_id lg e j ≠ slot_id lg e k := by
    rw [slot_id_eq lg e hlg he j hj (by omega), slot_id_eq lg e hlg he k (by omega) hk]
    omega
  refine ⟨?_, hnewid, hne, ?_, ?_, hjne, ?_⟩
  · apply envid2env_reject _ _ _ _ _ hx0
    left; rw [hxe]; exact hfreeStatus
  · apply envid2env_reject _ _ _ _ _ hx0
    right; rw [hxe]; exact hne
  · intro h31 hpos
    rw [hnewid]
    exact next_env_id_generation_lt lg _ e hlg he h31 hpos
  · intro hk'
    obtain ⟨hj0, hje⟩ := slot_id_succ_range lg e j hlg he hj
    apply envid2env_reject _ _ _ _ _ hj0
    right; rw [hje, hk']; exact fun h => hjne h.symm

theorem two_running_free_eq : env_free two_running 1 = some two_running_freed :=
  option_eq_some_getD _ _ (by decide)

theorem two_running_realloc_eq :
    env_alloc 1 two_running_freed 0 = some (0, some 1, two_running_realloc) := by
  obtain ⟨st', h⟩ := env_alloc_succeeds 1 two_running_freed 0 1 4 5 1 (by decide) (by decide)
    (by decide) (by decide) (by decide) (by norm_num) (by decide) (by decide) (by decide)
    (by decide) (by decide) (by decide)
  simp [two_running_realloc, h]

/-- Witness of `stale_id_rejected`: on `two_running`, environment 1 (id
`0x1001`) is freed and its slot re-allocated; the old id is rejected. -/
theorem stale_id_rejected_witness :
    1 ≤ 12 ∧ 1 < NENV 1 ∧ env_free two_running 1 = some two_running_freed ∧
    env_alloc 1 two_running_freed 0 = some (0, some 1, two_running_realloc) ∧
    envid2env 1 two_running_freed 0 (two_running.envs 1).env_id true =
      some (-E_BAD_ENV, none) ∧
    envid2env 1 two_running_realloc 0 (two_running.envs 1).env_id true =
      some (-E_BAD_ENV, none) :=
  have h := stale_id_rejected 1 two_running two_running_freed two_running_realloc 1 0 0 1 2 true
    (by decide) (by decide) (by decide) (by decide) two_running_free_eq two_running_realloc_eq
    (by decide) (by decide) (by norm_num)
  ⟨by decide, by decide, two_running_free_eq, two_running_realloc_eq, h.1, h.2.2.2.1⟩

/-- Counterexample to C2 as stated. In `wrapping` slot 0 stores `0x7FFFF000`,
the id of its `(2^19 - 1)`-th occupant. `env_alloc` re-uses the slot with the
id `0x1000`: a smaller generation, and the very id the first occupant of the
slot had, which `envid2env` now resolves to the new occupant. -/
theorem stale_id_counterexample :
    slot_id 1 0 (2 ^ 19 - 1) = (wrapping.envs 0).env_id ∧ slot_id 1 0 1 = 0x1000 ∧
    (env_alloc 1 wrapping 0).map (fun r => (r.1, r.2.1, (r.2.2.envs 0).env_id)) =
      some (0, some 0, 0x1000) ∧
    generation_of 1 0x1000 < generation_of 1 (wrapping.envs 0).env_id ∧
    (env_alloc 1 wrapping 0).bind (fun r => envid2env 1 r.2.2 0 0x1000 false) =
      some (0, some 0) := by
  obtain ⟨st', h⟩ := env_alloc_succeeds 1 wrapping 0 0 2 3 1 (by decide) (by decide)
    (by decide) (by decide) (by decide) (by norm_num) (by decide) (by decide) (by decide)
    (by decide) (by decide) (by decide)
  obtain ⟨_, _, _, _, _, hnew⟩ := env_alloc_success h
  have hid : (st'.envs 0).env_id = 0x1000 := by
    rw [hnew]
    show next_env_id 1 (wrapping.envs 0).env_id 0 = 0x1000
    decide
  have hstat : (st'.envs 0).env_status = ENV_RUNNABLE := by rw [hnew]
  refine ⟨?_, ?_, ?_, by decide, ?_⟩
  · rw [slot_id_eq 1 0 (by decide) (by decide) _ (by norm_num) (by norm_num)]
    decide
  · rw [slot_id_eq 1 0 (by decide) (by decide) _ (by norm_num) (by norm_num)]
  · simp [h, hid]
  · simp only [h, Option.some_bind]
    have hx : ENVX 1 0x1000 = 0 := by decide
    simp [envid2env, hx, hid, hstat, ENV_RUNNABLE, ENV_FREE]

/-! ## `env_alloc` -/

/-- C9. A successful `env_alloc(store, parent_id)` (a result that is not
negative) returns 0, takes the head `e` of the free list, stores it, makes the
next element the new head, and leaves `e` with the given parent id, status
`ENV_RUNNABLE`, zero run count, no page-fault upcall, `env_ipc_recving`
clear, and a register frame that is zero except for `tf_ss = GD_UD | 3`,
`tf_cs = GD_UT | 3`, `tf_rsp = USTACKTOP` and the flag `FL_IF`; no other
record changes. -/
theorem env_alloc_postcondition (lg : Nat) (st st' : Kernel) (parent_id e : Nat) (r : Int)
    (store : Option Nat) (hhead : st.env_free_list = some e)
    (h : env_alloc lg st parent_id = some (r, store, st')) (hr : 0 ≤ r) :
    r = 0 ∧ store = some e ∧ st'.env_free_list = (st.envs e).env_link ∧
    (∀ i, i ≠ e → st'.envs i = st.envs i) ∧
    (st'.envs e).env_link = (st.envs e).env_link ∧
    (st'.envs e).env_parent_id = parent_id ∧
    (st'.envs e).env_status = ENV_RUNNABLE ∧
    (st'.envs e).env_runs = 0 ∧
    (st'.envs e).env_pgfault_upcall = 0 ∧
    (st'.envs e).env_ipc_recving = false ∧
    (st'.envs e).env_tf =
      { tf_regs := ⟨0, 0, 0, 0, 0, 0, 0, 0, 0, 0, 0, 0, 0, 0, 0⟩
        tf_trapno := 0, tf_err := 0, tf_rip := 0
        tf_cs := GD_UT ||| 3, tf_eflags := FL_IF, tf_rsp := USTACKTOP, tf_ss := GD_UD ||| 3 } ∧
    (st'.envs e).env_tf.tf_cs = 0x1B ∧ (st'.envs e).env_tf.tf_ss = 0x23 ∧
    (st'.envs e).env_tf.tf_rsp = 0xBC7FE000 ∧ (st'.envs e).env_tf.tf_eflags = 0x200 := by
  have hstore : store = some e ∧ r = 0 := by
    rcases env_alloc_cases h with ⟨h1, _⟩ | ⟨_, _, _, h3, _⟩ | ⟨e', _, hl, _, h3, h4, _⟩
    · rw [hhead] at h1; exact absurd h1 (by simp)
    · rw [h3] at hr; exact absurd hr (by decide)
    · rw [hhead] at hl; cases hl; exact ⟨h4, h3⟩
  obtain ⟨hs, hr0⟩ := hstore
  subst hs
  obtain ⟨_, _, hl, _, hothers, hnew⟩ := env_alloc_success h
  have htf : (st'.envs e).env_tf = initial_tf := by rw [hnew]
  refine ⟨hr0, rfl, hl, hothers, by rw [hnew], by rw [hnew], by rw [hnew], by rw [hnew],
    by rw [hnew], by rw [hnew], ?_, ?_, ?_, ?_, ?_⟩
  · rw [htf]; rfl
  · rw [htf]; decide
  · rw [htf]; decide
  · rw [htf]; decide
  · rw [htf]; decide

/-- C10. When `env_alloc` returns, its result is `-E_NO_FREE_ENV` exactly when
the environment free list was empty, and then the state is untouched (no
memory was allocated); with an empty list it does return that. Whenever the
result is negative it is `-E_NO_FREE_ENV` or `-E_NO_MEM`, `*newenv_store` is
not written, and the free list and every environment's `env_id`,
`env_status` and `env_link` are unchanged. -/
theorem env_alloc_errors (lg : Nat) (st st' : Kernel) (parent_id : Nat) (r : Int)
    (store : Option Nat) (h : env_alloc lg st parent_id = some (r, store, st')) :
    (r = -E_NO_FREE_ENV ↔ st.env_free_list = none) ∧
    (st.env_free_list = none → env_alloc lg st parent_id = some (-E_NO_FREE_ENV, none, st)) ∧
    (r = -E_NO_FREE_ENV → st' = st) ∧
    (r < 0 →
      (r = -E_NO_FREE_ENV ∨ r = -E_NO_MEM) ∧ store = none ∧
      st'.env_free_list = st.env_free_list ∧
      ∀ i, (st'.envs i).env_id = (st.envs i).env_id ∧
        (st'.envs i).env_status = (st.envs i).env_status ∧
        (st'.envs i).env_link = (st.envs i).env_link) := by
  refine ⟨?_, ?_, ?_, ?_⟩
  · rcases env_alloc_cases h with ⟨h1, h2, _⟩ | ⟨e, hl, _, h3, _⟩ | ⟨e, _, hl, _, h3, _⟩
    · exact ⟨fun _ => h1, fun _ => h2⟩
    · rw [h3, hl]; exact ⟨fun hc => absurd hc (by decide), fun hc => absurd hc (by simp)⟩
    · rw [h3, hl]; exact ⟨fun hc => absurd hc (by decide), fun hc => absurd hc (by simp)⟩
  · intro hl
    unfold env_alloc
    rw [hl]
  · intro hr
    exact (env_alloc_failure (by rw [hr]; decide) h).2.2.2.2.2 hr
  · intro hr
    obtain ⟨h1, h2, h3, _, h5, _⟩ := env_alloc_failure hr h
    refine ⟨h1, h2, h3, fun i => ?_⟩
    have := h5 i
    exact ⟨by rw [← this], by rw [← this], by rw [← this]⟩

/-- Witness of `env_alloc_postcondition`: the re-allocation of slot 1 in
`two_running_freed`. -/
theorem env_alloc_postcondition_witness :
    two_running_freed.env_free_list = some 1 ∧
    env_alloc 1 two_running_freed 0 = some (0, some 1, two_running_realloc) ∧
    (0 : Int) ≤ 0 ∧
    (two_running_realloc.envs 1).env_status = ENV_RUNNABLE ∧
    (two_running_realloc.envs 1).env_tf.tf_rsp = 0xBC7FE000 :=
  have h := env_alloc_postcondition 1 two_running_freed two_running_realloc 0 1 0 (some 1)
    (by decide) two_running_realloc_eq (le_refl 0)
  ⟨by decide, two_running_realloc_eq, le_refl 0, h.2.2.2.2.2.2.1, h.2.2.2.2.2.2.2.2.2.2.2.2.2.1⟩

theorem exhausted_alloc_eq : env_alloc 1 exhausted 0 = some (-E_NO_MEM, none, exhausted) := rfl

/-- Witness of `env_alloc_errors`: with a free environment but no free frame
`env_alloc` returns `-E_NO_MEM` and the table is as before; with no free
environment (`two_running`) it returns `-E_NO_FREE_ENV`. -/
theorem env_alloc_errors_witness :
    env_alloc 1 exhausted 0 = some (-E_NO_MEM, none, exhausted) ∧
    (-E_NO_MEM ≠ -E_NO_FREE_ENV ∧ exhausted.env_free_list ≠ none) ∧
    env_alloc 1 two_running 0 = some (-E_NO_FREE_ENV, none, two_running) :=
  have h := env_alloc_errors 1 exhausted exhausted 0 (-E_NO_MEM) none exhausted_alloc_eq
  have h2 := env_alloc_errors 1 two_running two_running 0 (-E_NO_FREE_ENV) none rfl
  ⟨exhausted_alloc_eq, ⟨by decide, fun hc => absurd (h.1.2 hc) (by decide)⟩, h2.2.1 (by decide)⟩

/-! ## `env_init` -/

theorem env_init_fold (n : Nat) :
    ∀ st : Kernel,
      (∀ i, i < n →
        (((List.range n).reverse.foldl env_init_step st).envs i).env_status = ENV_FREE ∧
        (((List.range n).reverse.foldl env_init_step st).envs i).env_id = 0 ∧
        (((List.range n).reverse.foldl env_init_step st).envs i).env_link =
          (if i + 1 < n then some (i + 1) else st.env_free_list)) ∧
      (∀ i, n ≤ i → ((List.range n).reverse.foldl env_init_step st).envs i = st.envs i) ∧
      ((List.range n).reverse.foldl env_init_step st).env_free_list =
        (if n = 0 then st.env_free_list else some 0) ∧
      ((List.range n).reverse.foldl env_init_step st).cpu_env = st.cpu_env := by
  induction n with
  | zero =>
    intro st
    exact ⟨fun i hi => absurd hi (by omega), fun i _ => rfl, rfl, rfl⟩
  | succ n ih =>
    intro st
    rw [List.range_succ, List.reverse_append, List.reverse_singleton, List.singleton_append,
      List.foldl_cons]
    obtain ⟨h1, h2, h3, h4⟩ := ih (env_init_step st n)
    refine ⟨fun i hi => ?_, fun i hi => ?_, ?_, ?_⟩
    · by_cases hin : i < n
      · obtain ⟨a, b, c⟩ := h1 i hin
        refine ⟨a, b, ?_⟩
        rw [c]
        by_cases h' : i + 1 < n
        · rw [if_pos h', if_pos (by omega)]
        · rw [if_neg h', if_pos (by omega)]
          have : i + 1 = n := by omega
          rw [this]; rfl
      · have hi' : i = n := by omega
        subst hi'
        rw [h2 i (le_refl i)]
        refine ⟨?_, ?_, ?_⟩
        · simp [env_init_step]
        · simp [env_init_step]
        · simp [env_init_step]
    · rw [h2 i (by omega)]
      have : i ≠ n := by omega
      simp [env_init_step, Function.update_noteq this]
    · rw [h3]
      by_cases hn : n = 0
      · subst hn; simp [env_init_step]
      · simp [hn]
    · rw [h4]; rfl

/-- After `env_init` every slot is free with id 0, slot `i` links to slot
`i + 1` (the last to `NULL`), and the head of the free list is slot 0. -/
theorem env_init_spec (lg : Nat) (st : Kernel) :
    (∀ i, i < NENV lg →
      ((env_init lg st).envs i).env_status = ENV_FREE ∧ ((env_init lg st).envs i).env_id = 0 ∧
      ((env_init lg st).envs i).env_link = (if i + 1 < NENV lg then some (i + 1) else none)) ∧
    (env_init lg st).env_free_list = some 0 ∧ (env_init lg st).cpu_env = st.cpu_env := by
  obtain ⟨h1, _, h3, h4⟩ := env_init_fold (NENV lg) { st with env_free_list := none }
  have hpos : NENV lg ≠ 0 := by
    rw [NENV_eq]; exact Nat.pos_iff_ne_zero.mp (Nat.pos_pow_of_pos lg (by decide))
  refine ⟨fun i hi => h1 i hi, ?_, h4⟩
  unfold env_init
  rw [h3, if_neg hpos]

/-! ## The id invariant -/

/-- The two outcomes of `sys_exofork`: the error of `env_alloc`, or a child
`e` whose record is the one `env_alloc` made, with status
`ENV_NOT_RUNNABLE` and the caller's register frame with `rax` cleared. -/
theorem sys_exofork_cases {lg : Nat} {st st' : Kernel} {cpu : Nat} {r : Int}
    (h : sys_exofork lg st cpu = some (r, st')) :
    (r < 0 ∧ ∃ parent_id store, env_alloc lg st parent_id = some (r, store, st')) ∨
    (∃ parent_id e c st1, env_alloc lg st parent_id = some (0, some e, st1) ∧
      curenv st cpu = some c ∧ parent_id = (st.envs c).env_id ∧
      st'.env_free_list = st1.env_free_list ∧ st'.cpu_env = st1.cpu_env ∧
      (∀ i, i ≠ e → st'.envs i = st1.envs i) ∧
      (st'.envs e).env_id = (st1.envs e).env_id ∧
      (st'.envs e).env_link = (st1.envs e).env_link ∧
      (st'.envs e).env_parent_id = (st1.envs e).env_parent_id ∧
      (st'.envs e).env_status = ENV_NOT_RUNNABLE ∧
      (st'.envs e).env_tf =
        { (st1.envs c).env_tf with
          tf_regs := { (st1.envs c).env_tf.tf_regs with reg_rax := 0 } } ∧
      r = int32 (st1.envs e).env_id) := by
  unfold sys_exofork at h
  dsimp only at h
  split at h
  · exact absurd h (by simp)
  · rename_i r1 e? st1 ha
    split at h
    · rename_i hneg
      simp only [Option.some.injEq, Prod.mk.injEq] at h
      obtain ⟨h1, h2⟩ := h
      subst h1 h2
      exact Or.inl ⟨hneg, _, _, ha⟩
    · split at h
      · rename_i e c hc
        have hr0 : r1 = 0 := (env_alloc_success ha).1
        subst hr0
        have hcpu : st1.cpu_env = st.cpu_env := (env_alloc_success ha).2.2.2.1
        have hc' : curenv st cpu = some c := by
          unfold curenv at hc ⊢; rw [← hcpu]; exact hc
        simp only [Option.some.injEq, Prod.mk.injEq] at h
        obtain ⟨h1, h2⟩ := h
        subst h2
        right
        refine ⟨_, e, c, st1, ?_, hc', rfl, rfl, rfl, ?_, ?_, ?_, ?_, ?_, ?_, ?_⟩
        · rw [hc'] at ha; exact ha
        · intro i hi
          simp [Function.update_noteq hi]
        · simp
        · simp
        · simp
        · simp
        · by_cases hce : c = e
          · subst hce; simp
          · simp [Function.update_noteq hce]
        · rw [← h1]; simp
      · exact absurd h (by simp)

theorem idInv_init (lg : Nat) (st0 : Kernel) : IdInv lg (env_init lg st0) := by
  obtain ⟨h1, h2, _⟩ := env_init_spec lg st0
  have hpos : 0 < NENV lg := by rw [NENV_eq]; exact Nat.pos_pow_of_pos lg (by decide)
  refine ⟨fun i hi hlive => absurd (h1 i hi).1 hlive, fun e he => ?_, fun i j hi hj => ?_⟩
  · rw [h2] at he; cases he; exact hpos
  · rw [(h1 i hi).2.2] at hj
    split at hj
    · cases hj; assumption
    · exact absurd hj (by simp)

theorem idInv_alloc {lg : Nat} {st st' : Kernel} {parent_id : Nat} {r : Int}
    {store : Option Nat} (hlg : lg ≤ 12) (hinv : IdInv lg st)
    (h : env_alloc lg st parent_id = some (r, store, st')) : IdInv lg st' := by
  obtain ⟨hid, hhead, hlink⟩ := hinv
  by_cases hr : r < 0
  · obtain ⟨_, _, hl, _, henv, _⟩ := env_alloc_failure hr h
    have hf : ∀ i, (st'.envs i).env_id = (st.envs i).env_id ∧
        (st'.envs i).env_status = (st.envs i).env_status ∧
        (st'.envs i).env_link = (st.envs i).env_link := fun i => by
      have := henv i
      exact ⟨by rw [← this], by rw [← this], by rw [← this]⟩
    refine ⟨fun i hi hlive => ?_, fun e he => hhead e (hl ▸ he), fun i j hi hj => ?_⟩
    · rw [(hf i).1]; rw [(hf i).2.1] at hlive; exact hid i hi hlive
    · rw [(hf i).2.2] at hj; exact hlink i j hi hj
  · rcases env_alloc_cases h with ⟨_, h2, _⟩ | ⟨_, _, _, h3, _⟩ | ⟨e, st1, hl, hs, h3, h4, _⟩
    · rw [h2] at hr; exact absurd (by decide) hr
    · rw [h3] at hr; exact absurd (by decide) hr
    · subst h3 h4
      obtain ⟨_, _, hl', _, hothers, hnew⟩ := env_alloc_success h
      have he : e < NENV lg := hhead e hl
      have he2 : e < 2 ^ lg := by rw [← NENV_eq]; exact he
      refine ⟨fun i hi hlive => ?_, fun j hj => ?_, fun i j hi hj => ?_⟩
      · by_cases hie : i = e
        · subst hie
          have : (st'.envs i).env_id = next_env_id lg (st.envs i).env_id i := by rw [hnew]
          rw [this]
          exact ⟨next_env_id_pos lg _ i hlg he2, next_env_id_envx lg _ i hlg he2⟩
        · rw [hothers i hie] at hlive ⊢; exact hid i hi hlive
      · rw [hl'] at hj; exact hlink e j he hj
      · by_cases hie : i = e
        · subst hie
          have : (st'.envs i).env_link = (st.envs i).env_link := by rw [hnew]
          rw [this] at hj; exact hlink i j hi hj
        · rw [hothers i hie] at hj; exact hlink i j hi hj

theorem idInv_free {lg : Nat} {st st' : Kernel} {e : Nat} (hinv : IdInv lg st)
    (he : e < NENV lg) (h : env_free st e = some st') : IdInv lg st' := by
  obtain ⟨hid, hhead, hlink⟩ := hinv
  obtain ⟨henvs, hl, _⟩ := env_free_envs h
  refine ⟨fun i hi hlive => ?_, fun j hj => ?_, fun i j hi hj => ?_⟩
  · by_cases hie : i = e
    · subst hie
      rw [henvs, Function.update_same] at hlive
      exact absurd rfl hlive
    · rw [henvs, Function.update_noteq hie] at hlive ⊢; exact hid i hi hlive
  · rw [hl] at hj; cases hj; exact he
  · by_cases hie : i = e
    · subst hie
      rw [henvs, Function.update_same] at hj
      exact hhead j hj
    · rw [henvs, Function.update_noteq hie] at hj; exact hlink i j hi hj

theorem idInv_exofork {lg : Nat} {st st' : Kernel} {cpu : Nat} {r : Int} (hlg : lg ≤ 12)
    (hinv : IdInv lg st) (h : sys_exofork lg st cpu = some (r, st')) : IdInv lg st' := by
  rcases sys_exofork_cases h with ⟨_, pid, store, ha⟩ |
    ⟨pid, e, c, st1, ha, _, _, hl, _, hothers, hid', hlink', _, hstat, _, _⟩
  · exact idInv_alloc hlg hinv ha
  · obtain ⟨hid, hhead, hlink⟩ := idInv_alloc hlg hinv ha
    have hlive1 : (st1.envs e).env_status ≠ ENV_FREE := by
      rw [(env_alloc_success ha).2.2.2.2.2]
      show ENV_RUNNABLE ≠ ENV_FREE
      decide
    refine ⟨fun i hi hlive => ?_, fun j hj => hhead j (hl ▸ hj), fun i j hi hj => ?_⟩
    · by_cases hie : i = e
      · subst hie; rw [hid']; exact hid i hi hlive1
      · rw [hothers i hie] at hlive ⊢; exact hid i hi hlive
    · by_cases hie : i = e
      · subst hie; rw [hlink'] at hj; exact hlink i j hi hj
      · rw [hothers i hie] at hj; exact hlink i j hi hj

theorem idInv_of_reach {lg : Nat} {st0 st : Kernel} (hlg : lg ≤ 12)
    (h : IdReach lg st0 st) : IdInv lg st := by
  induction h with
  | init => exact idInv_init lg st0
  | alloc st st' parent_id r store _ ha ih => exact idInv_alloc hlg ih ha
  | exofork st st' cpu r _ ha ih => exact idInv_exofork hlg ih ha
  | free st st' e _ he ha ih => exact idInv_free ih he ha

/-- C8. In every state reached from `env_init` by `env_alloc`, `sys_exofork`
and `env_free` (with `LOG2NENV <= ENVGENSHIFT`, as `kern/env.c` requires),
every environment of the table whose status is not `ENV_FREE` has an id that
is strictly positive as a signed 32-bit value, hence not zero, and whose index
bits `ENVX(env_id)` are its own index in `envs[]`. -/
theorem env_id_invariant (lg : Nat) (st0 st : Kernel) (i : Nat) (hlg : lg ≤ ENVGENSHIFT)
    (hreach : IdReach lg st0 st) (hi : i < NENV lg)
    (hlive : (st.envs i).env_status ≠ ENV_FREE) :
    0 < int32 (st.envs i).env_id ∧ (st.envs i).env_id ≠ 0 ∧
    ENVX lg (st.envs i).env_id = i := by
  obtain ⟨h1, h2⟩ := (idInv_of_reach hlg hreach).1 i hi hlive
  refine ⟨h1, fun h0 => ?_, h2⟩
  rw [h0] at h1
  exact absurd h1 (by decide)

theorem first_alloc_eq : env_alloc 1 booted 0 = some (0, some 0, first_alloc) := by
  obtain ⟨st', h⟩ := env_alloc_succeeds 1 booted 0 0 2 3 1 (by decide) (by decide)
    (by decide) (by decide) (by decide) (by norm_num) (by decide) (by decide) (by decide)
    (by decide) (by decide) (by decide)
  simp [first_alloc, h]

/-- Witness of `env_id_invariant`: the first environment allocated after
`env_init` on `boot`. -/
theorem env_id_invariant_witness :
    1 ≤ ENVGENSHIFT ∧ IdReach 1 boot first_alloc ∧ 0 < NENV 1 ∧
    (first_alloc.envs 0).env_status ≠ ENV_FREE ∧
    0 < int32 (first_alloc.envs 0).env_id ∧ ENVX 1 (first_alloc.envs 0).env_id = 0 :=
  have hreach : IdReach 1 boot first_alloc :=
    IdReach.alloc booted first_alloc 0 0 (some 0) IdReach.init first_alloc_eq
  have hlive : (first_alloc.envs 0).env_status ≠ ENV_FREE := by
    rw [(env_alloc_success first_alloc_eq).2.2.2.2.2]
    show ENV_RUNNABLE ≠ ENV_FREE
    decide
  have h := env_id_invariant 1 boot first_alloc 0 (by decide) hreach (by decide) hlive
  ⟨by decide, hreach, by decide, hlive, h.1, h.2.2⟩

/-! ## The environment free list -/

theorem isChain_congr {link link' : Nat → Option Nat} (l : List Nat) :
    ∀ h, (∀ x, x ∈ l → link' x = link x) → IsChain link h l → IsChain link' h l := by
  induction l with
  | nil => intro h _ hc; exact hc
  | cons x xs ih =>
    intro h hl hc
    obtain ⟨h1, h2⟩ := hc
    refine ⟨h1, ?_⟩
    rw [hl x (List.mem_cons_self _ _)]
    exact ih _ (fun y hy => hl y (List.mem_cons_of_mem _ hy)) h2

/-- The invariant only depends on the links, the head, and which slots are
free. -/
theorem freeListInv_congr {lg : Nat} {st st' : Kernel} (hinv : FreeListInv lg st)
    (hhead : st'.env_free_list = st.env_free_list)
    (hlink : ∀ i, (st'.envs i).env_link = (st.envs i).env_link)
    (hstat : ∀ i, i < NENV lg →
      ((st'.envs i).env_status = ENV_FREE ↔ (st.envs i).env_status = ENV_FREE)) :
    FreeListInv lg st' := by
  obtain ⟨l, hc, hnd, hmem⟩ := hinv
  refine ⟨l, ?_, hnd, fun i => ?_⟩
  · rw [hhead]
    exact isChain_congr l _ (fun x _ => hlink x) hc
  · rw [hmem i]
    constructor
    · rintro ⟨h1, h2⟩; exact ⟨h1, (hstat i h1).2 h2⟩
    · rintro ⟨h1, h2⟩; exact ⟨h1, (hstat i h1).1 h2⟩

theorem isChain_range (link : Nat → Option Nat) (n : Nat)
    (hlink : ∀ i, i < n → link i = if i + 1 < n then some (i + 1) else none) :
    ∀ m k, k + m = n → IsChain link (if k < n then some k else none) (List.range' k m) := by
  intro m
  induction m with
  | zero =>
    intro k hk
    have : ¬ k < n := by omega
    rw [if_neg this]
    rfl
  | succ m ih =>
    intro k hk
    have hkn : k < n := by omega
    rw [if_pos hkn]
    refine ⟨rfl, ?_⟩
    rw [hlink k hkn]
    exact ih (k + 1) (by omega)

theorem freeListInv_init (lg : Nat) (st0 : Kernel) : FreeListInv lg (env_init lg st0) := by
  obtain ⟨h1, h2, _⟩ := env_init_spec lg st0
  have hpos : 0 < NENV lg := by rw [NENV_eq]; exact Nat.pos_pow_of_pos lg (by decide)
  refine ⟨List.range' 0 (NENV lg), ?_, List.nodup_range' _ _, fun i => ?_⟩
  · have := isChain_range (fun i => ((env_init lg st0).envs i).env_link) (NENV lg)
      (fun i hi => (h1 i hi).2.2) (NENV lg) 0 (by omega)
    rw [if_pos hpos] at this
    rw [h2]; exact this
  · rw [List.mem_range']
    constructor
    · rintro ⟨k, hk, rfl⟩
      have : 0 + 1 * k < NENV lg := by omega
      exact ⟨this, (h1 _ this).1⟩
    · rintro ⟨hi, _⟩
      exact ⟨i, hi, by omega⟩

theorem freeListInv_alloc {lg : Nat} {st st' : Kernel} {parent_id : Nat} {r : Int}
    {store : Option Nat} (hinv : FreeListInv lg st)
    (h : env_alloc lg st parent_id = some (r, store, st')) : FreeListInv lg st' := by
  by_cases hr : r < 0
  · obtain ⟨_, _, hl, _, henv, _⟩ := env_alloc_failure hr h
    exact freeListInv_congr hinv hl (fun i => by rw [← henv i])
      (fun i _ => by rw [← henv i])
  · rcases env_alloc_cases h with ⟨_, h2, _⟩ | ⟨_, _, _, h3, _⟩ | ⟨e, st1, hl, hs, h3, h4, _⟩
    · rw [h2] at hr; exact absurd (by decide) hr
    · rw [h3] at hr; exact absurd (by decide) hr
    · subst h3 h4
      obtain ⟨_, _, hl', _, hothers, hnew⟩ := env_alloc_success h
      obtain ⟨l, hc, hnd, hmem⟩ := hinv
      have hlink : ∀ i, (st'.envs i).env_link = (st.envs i).env_link := fun i => by
        by_cases hie : i = e
        · subst hie; rw [hnew]
        · rw [hothers i hie]
      have hstat : (st'.envs e).env_status = ENV_RUNNABLE := by rw [hnew]
      cases l with
      | nil => rw [hl] at hc; exact absurd hc (by simp [IsChain])
      | cons x t =>
        obtain ⟨hx, hct⟩ := hc
        rw [hl] at hx
        cases hx
        have hnt : e ∉ t := (List.nodup_cons.mp hnd).1
        refine ⟨t, ?_, (List.nodup_cons.mp hnd).2, fun i => ?_⟩
        · rw [hl']
          exact isChain_congr t _ (fun y _ => hlink y) hct
        · constructor
          · intro hi
            have hie : i ≠ e := fun hh => hnt (hh ▸ hi)
            have := (hmem i).1 (List.mem_cons_of_mem _ hi)
            rw [hothers i hie]
            exact this
          · rintro ⟨hi, hfree⟩
            have hie : i ≠ e := by
              intro hh; subst hh; rw [hstat] at hfree; exact absurd hfree (by decide)
            rw [hothers i hie] at hfree
            have := (hmem i).2 ⟨hi, hfree⟩
            rcases List.mem_cons.mp this with h' | h'
            · exact absurd h' hie
            · exact h'

theorem freeListInv_free {lg : Nat} {st st' : Kernel} {e : Nat} (hinv : FreeListInv lg st)
    (he : e < NENV lg) (hlive : (st.envs e).env_status ≠ ENV_FREE)
    (h : env_free st e = some st') : FreeListInv lg st' := by
  obtain ⟨henvs, hl, _⟩ := env_free_envs h
  obtain ⟨l, hc, hnd, hmem⟩ := hinv
  have hel : e ∉ l := fun hh => hlive ((hmem e).1 hh).2
  refine ⟨e :: l, ⟨hl, ?_⟩, List.nodup_cons.mpr ⟨hel, hnd⟩, fun i => ?_⟩
  · have h1 : (st'.envs e).env_link = st.env_free_list := by
      rw [henvs, Function.update_same]
    show IsChain _ ((st'.envs e).env_link) l
    rw [h1]
    refine isChain_congr l _ (fun y hy => ?_) hc
    have : y ≠ e := fun hh => hel (hh ▸ hy)
    show (st'.envs y).env_link = (st.envs y).env_link
    rw [henvs, Function.update_noteq this]
  · by_cases hie : i = e
    · subst hie
      simp only [List.mem_cons, true_or, true_iff]
      exact ⟨he, by rw [henvs, Function.update_same]⟩
    · rw [henvs, Function.update_noteq hie, List.mem_cons, ← hmem i]
      simp [hie]

/-- What `env_run(e)` changes: `curenv` of the CPU, the status of `e`
(`ENV_RUNNING`) and of the previous `curenv` (`ENV_RUNNABLE` if it was
`ENV_RUNNING`), the run count and CPU number of `e`. -/
theorem env_run_spec {st st' : Kernel} {cpu e : Nat} (h : env_run st cpu e = some st') :
    st'.env_free_list = st.env_free_list ∧
    st'.cpu_env = Function.update st.cpu_env cpu (some e) ∧
    (∀ i, (st'.envs i).env_link = (st.envs i).env_link ∧
      (st'.envs i).env_id = (st.envs i).env_id) ∧
    (st'.envs e).env_status = ENV_RUNNING ∧
    (∀ i, i ≠ e → (st'.envs i).env_status =
      if curenv st cpu = some i ∧ (st.envs i).env_status = ENV_RUNNING then ENV_RUNNABLE
      else (st.envs i).env_status) := by
  unfold env_run at h
  dsimp only at h
  split at h
  · exact absurd h (by simp)
  · cases h
    refine ⟨?_, ?_, fun i => ?_, ?_, fun i hi => ?_⟩
    · simp only [setEnv_env_free_list, setCurenv_env_free_list]
      split
      · split <;> rfl
      · rfl
    · simp only [setEnv_cpu_env, setCurenv_cpu_env]
      split
      · split <;> rfl
      · rfl
    · by_cases hie : i = e
      · subst hie
        simp only [setEnv_envs, setCurenv_envs, Function.update_same]
        split
        · rename_i c hc
          split
          · by_cases hci : i = c
            · subst hci; simp
            · simp [Function.update_noteq hci]
          · exact ⟨rfl, rfl⟩
        · exact ⟨rfl, rfl⟩
      · simp only [setEnv_envs, setCurenv_envs, Function.update_noteq hie]
        split
        · rename_i c hc
          split
          · by_cases hci : i = c
            · subst hci; simp
            · simp [Function.update_noteq hci]
          · exact ⟨rfl, rfl⟩
        · exact ⟨rfl, rfl⟩
    · simp
    · simp only [setEnv_envs, setCurenv_envs, Function.update_noteq hi]
      split
      · rename_i c hc
        split
        · rename_i hrun
          by_cases hci : i = c
          · subst hci; simp [hc, hrun]
          · have : ¬ (curenv st cpu = some i) := by
              rw [hc]; intro hh; exact hci (Option.some.inj hh).symm
            simp [Function.update_noteq hci, this]
        · rename_i hrun
          have : ¬ (curenv st cpu = some i ∧ (st.envs i).env_status = ENV_RUNNING) := by
            rintro ⟨h1, h2⟩
            rw [hc] at h1
            cases h1
            exact hrun h2
          rw [if_neg this]
      · rename_i hc
        have : ¬ (curenv st cpu = some i ∧ (st.envs i).env_status = ENV_RUNNING) := by
          rintro ⟨h1, _⟩
          rw [hc] at h1
          exact absurd h1 (by simp)
        rw [if_neg this]

theorem sched_halt_spec (lg : Nat) (st : Kernel) (cpu : Nat) :
    (sched_halt lg st cpu).envs = st.envs ∧
    (sched_halt lg st cpu).env_free_list = st.env_free_list ∧
    ((sched_halt lg st cpu).cpu_env = st.cpu_env ∨
     (sched_halt lg st cpu).cpu_env = Function.update st.cpu_env cpu none) := by
  unfold sched_halt
  split
  · exact ⟨rfl, rfl, Or.inl rfl⟩
  · exact ⟨rfl, rfl, Or.inr rfl⟩

/-- The three ways out of `sched_yield`: it runs a runnable environment of
the table, or re-runs the running `curenv`, or halts when `curenv` is not
running. -/
theorem sched_yield_cases {lg : Nat} {st st' : Kernel} {cpu : Nat}
    (h : sched_yield lg st cpu = some st') :
    (∃ e, e < NENV lg ∧ (st.envs e).env_status = ENV_RUNNABLE ∧ env_run st cpu e = some st') ∨
    (∃ c, curenv st cpu = some c ∧ (st.envs c).env_status = ENV_RUNNING ∧
      env_run st cpu c = some st') ∨
    (st' = sched_halt lg st cpu ∧
      ∀ c, curenv st cpu = some c → (st.envs c).env_status ≠ ENV_RUNNING) := by
  have hpos : 0 < NENV lg := by rw [NENV_eq]; exact Nat.pos_pow_of_pos lg (by decide)
  unfold sched_yield at h
  dsimp only at h
  split at h
  · rename_i i hfind
    have hp := List.find?_some hfind
    simp only [decide_eq_true_eq] at hp
    exact Or.inl ⟨_, Nat.mod_lt _ hpos, hp, h⟩
  · split at h
    · rename_i c hc
      split at h
      · rename_i hrun
        exact Or.inr (Or.inl ⟨c, hc, hrun, h⟩)
      · rename_i hrun
        cases h
        refine Or.inr (Or.inr ⟨rfl, fun c' hc' => ?_⟩)
        rw [hc] at hc'; cases hc'; exact hrun
    · rename_i hc
      cases h
      refine Or.inr (Or.inr ⟨rfl, fun c' hc' => ?_⟩)
      rw [hc] at hc'; exact absurd hc' (by simp)

theorem freeListInv_env_run {lg : Nat} {st st' : Kernel} {cpu e : Nat}
    (hinv : FreeListInv lg st) (hlive : (st.envs e).env_status ≠ ENV_FREE)
    (h : env_run st cpu e = some st') : FreeListInv lg st' := by
  obtain ⟨hl, _, hlink, hrun, hothers⟩ := env_run_spec h
  refine freeListInv_congr hinv hl (fun i => (hlink i).1) (fun i _ => ?_)
  by_cases hie : i = e
  · subst hie
    rw [hrun]
    exact ⟨fun hh => absurd hh (by decide), fun hh => absurd hh hlive⟩
  · rw [hothers i hie]
    split
    · rename_i hc
      rw [hc.2]
      exact ⟨fun hh => absurd hh (by decide), fun hh => absurd hh (by decide)⟩
    · exact Iff.rfl

theorem freeListInv_sched_yield {lg : Nat} {st st' : Kernel} {cpu : Nat}
    (hinv : FreeListInv lg st) (h : sched_yield lg st cpu = some st') :
    FreeListInv lg st' := by
  rcases sched_yield_cases h with ⟨e, _, hs, hr⟩ | ⟨c, _, hs, hr⟩ | ⟨hst, _⟩
  · exact freeListInv_env_run hinv (by rw [hs]; decide) hr
  · exact freeListInv_env_run hinv (by rw [hs]; decide) hr
  · subst hst
    obtain ⟨h1, h2, _⟩ := sched_halt_spec lg st cpu
    exact freeListInv_congr hinv h2 (fun i => by rw [h1]) (fun i _ => by rw [h1])

theorem freeListInv_setCurenv {lg : Nat} {st : Kernel} (cpu : Nat) (e : Option Nat)
    (hinv : FreeListInv lg st) : FreeListInv lg (st.setCurenv cpu e) :=
  freeListInv_congr hinv rfl (fun _ => rfl) (fun _ _ => Iff.rfl)

theorem freeListInv_destroy {lg : Nat} {st st' : Kernel} {cpu e : Nat}
    (hinv : FreeListInv lg st) (he : e < NENV lg)
    (hlive : (st.envs e).env_status ≠ ENV_FREE)
    (h : env_destroy lg st cpu e = some st') : FreeListInv lg st' := by
  unfold env_destroy at h
  split at h
  · rename_i hc
    cases h
    refine freeListInv_congr hinv rfl (fun i => ?_) (fun i _ => ?_)
    · by_cases hie : i = e
      · subst hie; simp
      · simp [Function.update_noteq hie]
    · by_cases hie : i = e
      · subst hie
        simp only [setEnv_envs, Function.update_same]
        exact ⟨fun hh => absurd hh (by decide), fun hh => absurd hh hlive⟩
      · simp [Function.update_noteq hie]
  · split at h
    · exact absurd h (by simp)
    · rename_i st1 h1
      have hinv1 := freeListInv_free hinv he hlive h1
      split at h
      · exact freeListInv_sched_yield (freeListInv_setCurenv cpu none hinv1) h
      · cases h; exact hinv1

/-- An environment that `envid2env` resolves is `curenv` (for id 0) or is
not free. -/
theorem envid2env_ok {lg : Nat} {st : Kernel} {cpu envid e : Nat} {checkperm : Bool} {r : Int}
    (h : envid2env lg st cpu envid checkperm = some (r, some e)) :
    (envid = 0 ∧ curenv st cpu = some e) ∨ (st.envs e).env_status ≠ ENV_FREE := by
  unfold envid2env at h
  split at h
  · rename_i h0
    simp only [Option.some.injEq, Prod.mk.injEq] at h
    exact Or.inl ⟨h0, h.2⟩
  · dsimp only at h
    split at h
    · simp at h
    · rename_i hlive
      push_neg at hlive
      have hres : ∀ {r' : Int} {x : Option Nat},
          (some (r', x) : Option (Int × Option Nat)) = some (r, some e) →
          x = some (ENVX lg envid) → (st.envs e).env_status ≠ ENV_FREE := by
        intro r' x hx hxe
        simp only [Option.some.injEq, Prod.mk.injEq] at hx
        rw [hxe] at hx
        have := Option.some.inj hx.2
        rw [← this]; exact hlive.1
      split at h
      · split at h
        · simp at h
        · split at h
          · simp at h
          · exact Or.inr (hres h rfl)
      · exact Or.inr (hres h rfl)

theorem freeListInv_exofork {lg : Nat} {st st' : Kernel} {cpu : Nat} {r : Int}
    (hinv : FreeListInv lg st) (h : sys_exofork lg st cpu = some (r, st')) :
    FreeListInv lg st' := by
  rcases sys_exofork_cases h with ⟨_, pid, store, ha⟩ |
    ⟨pid, e, c, st1, ha, _, _, hl, _, hothers, _, hlink', _, hstat, _, _⟩
  · exact freeListInv_alloc hinv ha
  · have hinv1 := freeListInv_alloc hinv ha
    have hlive1 : (st1.envs e).env_status = ENV_RUNNABLE := by
      rw [(env_alloc_success ha).2.2.2.2.2]
    refine freeListInv_congr hinv1 hl (fun i => ?_) (fun i _ => ?_)
    · by_cases hie : i = e
      · subst hie; exact hlink'
      · rw [hothers i hie]
    · by_cases hie : i = e
      · subst hie
        rw [hstat, hlive1]
        exact ⟨fun hh => absurd hh (by decide), fun hh => absurd hh (by decide)⟩
      · rw [hothers i hie]

theorem freeListInv_set_status {lg : Nat} {st st' : Kernel} {cpu envid status : Nat} {r : Int}
    (hinv : FreeListInv lg st) (hcur : LiveCurenv st cpu)
    (h : sys_env_set_status lg st cpu envid status = some (r, st')) : FreeListInv lg st' := by
  unfold sys_env_set_status at h
  split at h
  · cases h; exact hinv
  · rename_i hvalid
    split at h
    · exact absurd h (by simp)
    · rename_i r1 e? he
      split at h
      · cases h; exact hinv
      · split at h
        · exact absurd h (by simp)
        · rename_i e
          cases h
          have hlive : (st.envs e).env_status ≠ ENV_FREE := by
            rcases envid2env_ok he with ⟨_, hc⟩ | hl
            · exact hcur e hc
            · exact hl
          have hnew : status ≠ ENV_FREE := by
            intro hs
            apply hvalid
            rw [hs]
            exact ⟨by decide, by decide⟩
          refine freeListInv_congr hinv rfl (fun i => ?_) (fun i _ => ?_)
          · by_cases hie : i = e
            · subst hie; simp
            · simp [Function.update_noteq hie]
          · by_cases hie : i = e
            · subst hie
              simp only [setEnv_envs, Function.update_same]
              exact ⟨fun hh => absurd hh hnew, fun hh => absurd hh hlive⟩
            · simp [Function.update_noteq hie]

/-- What the page transfer of `sys_ipc_try_send` leaves alone. -/
theorem ipc_transfer_frame {st st1 : Kernel} {cpu e srcva perm : Nat} {r : Int}
    (h : ipc_transfer st cpu e srcva perm = some (r, st1)) :
    st1.env_free_list = st.env_free_list ∧ st1.cpu_env = st.cpu_env ∧
    ∀ i, (st1.envs i).env_link = (st.envs i).env_link ∧
      (st1.envs i).env_status = (st.envs i).env_status ∧
      (st1.envs i).env_id = (st.envs i).env_id := by
  have hset : ∀ (s : Kernel) (v : Nat),
      (s.setEnv e { s.envs e with env_ipc_perm := v }).env_free_list = s.env_free_list ∧
      (s.setEnv e { s.envs e with env_ipc_perm := v }).cpu_env = s.cpu_env ∧
      ∀ i, ((s.setEnv e { s.envs e with env_ipc_perm := v }).envs i).env_link =
          (s.envs i).env_link ∧
        ((s.setEnv e { s.envs e with env_ipc_perm := v }).envs i).env_status =
          (s.envs i).env_status ∧
        ((s.setEnv e { s.envs e with env_ipc_perm := v }).envs i).env_id =
          (s.envs i).env_id := by
    intro s v
    refine ⟨rfl, rfl, fun i => ?_⟩
    by_cases hie : i = e
    · subst hie; simp
    · simp [Function.update_noteq hie]
  have hrefl : st.env_free_list = st.env_free_list ∧ st.cpu_env = st.cpu_env ∧
      ∀ i, (st.envs i).env_link = (st.envs i).env_link ∧
        (st.envs i).env_status = (st.envs i).env_status ∧
        (st.envs i).env_id = (st.envs i).env_id := ⟨rfl, rfl, fun _ => ⟨rfl, rfl, rfl⟩⟩
  unfold ipc_transfer at h
  split at h
  · cases h; exact hrefl
  · split at h
    · cases h; exact hrefl
    · split at h
      · cases h; exact hrefl
      · split at h
        · exact absurd h (by simp)
        · split at h
          · exact absurd h (by simp)
          · split at h
            · exact absurd h (by simp)
            · cases h; exact hrefl
            · split at h
              · cases h; exact hrefl
              · split at h
                · split at h
                  · exact absurd h (by simp)
                  · split at h
                    · exact absurd h (by simp)
                    · rename_i r2 st2 hins
                      have hf := envFrame_page_insert hins
                      split at h
                      · cases h
                        exact ⟨hf.env_free_list, hf.cpu_env, fun i => by rw [hf.envs]; simp⟩
                      · cases h
                        obtain ⟨a, b, c⟩ := hset st2 perm
                        refine ⟨a.trans hf.env_free_list, b.trans hf.cpu_env, fun i => ?_⟩
                        have hi := c i
                        have he2 : st2.envs i = st.envs i := congrFun hf.envs i
                        exact ⟨hi.1.trans (by rw [he2]), hi.2.1.trans (by rw [he2]),
                          hi.2.2.trans (by rw [he2])⟩
                · cases h; exact hset st 0

theorem freeListInv_ipc_try_send {lg : Nat} {st st' : Kernel} {cpu envid value srcva perm : Nat}
    {r : Int} (hinv : FreeListInv lg st) (hcur : LiveCurenv st cpu)
    (h : sys_ipc_try_send lg st cpu envid value srcva perm = some (r, st')) :
    FreeListInv lg st' := by
  unfold sys_ipc_try_send at h
  split at h
  · exact absurd h (by simp)
  · rename_i r1 e? he
    split at h
    · cases h; exact hinv
    · split at h
      · exact absurd h (by simp)
      · rename_i e
        have hlive : (st.envs e).env_status ≠ ENV_FREE := by
          rcases envid2env_ok he with ⟨_, hc⟩ | hl
          · exact hcur e hc
          · exact hl
        split at h
        · cases h; exact hinv
        · dsimp only at h
          have hmoved : ∀ {r1 : Int} {st1 : Kernel},
              (if srcva < UTOP then ipc_transfer st cpu e srcva perm
               else some (0, st.setEnv e { st.envs e with env_ipc_perm := 0 })) = some (r1, st1) →
              st1.env_free_list = st.env_free_list ∧
              ∀ i, (st1.envs i).env_link = (st.envs i).env_link ∧
                (st1.envs i).env_status = (st.envs i).env_status := by
            intro r1 st1 hm
            split at hm
            · obtain ⟨a, _, c⟩ := ipc_transfer_frame hm
              exact ⟨a, fun i => ⟨(c i).1, (c i).2.1⟩⟩
            · cases hm
              refine ⟨rfl, fun i => ?_⟩
              by_cases hie : i = e
              · subst hie; simp
              · simp [Function.update_noteq hie]
          split at h
          · exact absurd h (by simp)
          · rename_i r1 st1 hm
            obtain ⟨hl1, henv1⟩ := hmoved hm
            have hinv1 : FreeListInv lg st1 :=
              freeListInv_congr hinv hl1 (fun i => (henv1 i).1)
                (fun i _ => by rw [(henv1 i).2])
            split at h
            · cases h; exact hinv1
            · split at h
              · exact absurd h (by simp)
              · cases h
                refine freeListInv_congr hinv1 rfl (fun i => ?_) (fun i _ => ?_)
                · by_cases hie : i = e
                  · subst hie; simp
                  · simp [Function.update_noteq hie]
                · by_cases hie : i = e
                  · subst hie
                    simp only [setEnv_envs, Function.update_same]
                    rw [(henv1 i).2]
                    exact ⟨fun hh => absurd hh (by decide), fun hh => absurd hh hlive⟩
                  · simp [Function.update_noteq hie]

theorem freeListInv_ipc_recv {lg : Nat} {st st' : Kernel} {cpu dstva : Nat} {r : Int}
    (hinv : FreeListInv lg st) (hcur : LiveCurenv st cpu)
    (h : sys_ipc_recv lg st cpu dstva = some (r, st')) : FreeListInv lg st' := by
  unfold sys_ipc_recv at h
  split at h
  · cases h; exact hinv
  · split at h
    · exact absurd h (by simp)
    · rename_i c hc
      dsimp only at h
      simp only [Option.map_eq_some', Prod.mk.injEq] at h
      obtain ⟨s, hs, _, hst⟩ := h
      subst hst
      refine freeListInv_sched_yield ?_ hs
      have hlive := hcur c hc
      refine freeListInv_congr hinv rfl (fun i => ?_) (fun i _ => ?_)
      · by_cases hie : i = c
        · subst hie; simp
        · simp [Function.update_noteq hie]
      · by_cases hie : i = c
        · subst hie
          simp only [setEnv_envs, Function.update_same]
          exact ⟨fun hh => absurd hh (by decide), fun hh => absurd hh hlive⟩
        · simp [Function.update_noteq hie]

/-- The steps that keep the environment free-list invariant (a slot of the
table is on `env_free_list` exactly when its status is `ENV_FREE`, and the
list has no repetition): it holds after `env_init`, and is kept by every
`env_alloc` (successful or not), `env_free`, `env_destroy`, `sys_exofork`,
`sys_env_set_status`, `sys_ipc_try_send` and `sys_ipc_recv`, where
`env_free` and `env_destroy` are called on an environment that is not free
and the system calls by a CPU whose current environment is not free. A
system call by a current environment that is free is not covered. -/
theorem env_free_list_invariant (lg cpu : Nat) (st0 st st' : Kernel)
    (hinv : FreeListInv lg st) (hstep : EnvStep lg cpu st st') :
    FreeListInv lg (env_init lg st0) ∧ FreeListInv lg st' := by
  refine ⟨freeListInv_init lg st0, ?_⟩
  cases hstep with
  | alloc parent_id r store h => exact freeListInv_alloc hinv h
  | free e he hlive h => exact freeListInv_free hinv he hlive h
  | destroy e he hlive _ h => exact freeListInv_destroy hinv he hlive h
  | exofork r h => exact freeListInv_exofork hinv h
  | set_status envid status r hcur h => exact freeListInv_set_status hinv hcur h
  | ipc_try_send envid value srcva perm r hcur h => exact freeListInv_ipc_try_send hinv hcur h
  | ipc_recv dstva r hcur h => exact freeListInv_ipc_recv hinv hcur h

theorem two_running_freeListInv : FreeListInv 1 two_running := by
  refine ⟨[], rfl, List.nodup_nil, fun i => ?_⟩
  simp only [List.not_mem_nil, false_iff, not_and]
  intro hi
  have hi2 : i < 2 := hi
  interval_cases i <;> decide

/-- Witness of `env_free_list_invariant`: `env_free` of environment 1 of
`two_running`. -/
theorem env_free_list_invariant_witness :
    FreeListInv 1 two_running ∧ EnvStep 1 0 two_running two_running_freed ∧
    FreeListInv 1 (env_init 1 boot) ∧ FreeListInv 1 two_running_freed :=
  have hstep : EnvStep 1 0 two_running two_running_freed :=
    EnvStep.free two_running two_running_freed 1 (by decide) (by decide) two_running_free_eq
  have h := env_free_list_invariant 1 0 boot two_running two_running_freed
    two_running_freeListInv hstep
  ⟨two_running_freeListInv, hstep, h.1, h.2⟩

/-! ## The running invariant -/

theorem two_running_runningInv : RunningInv 1 two_running := by
  intro i hi _
  have hi2 : i < 2 := hi
  have hcpu : ∀ c, two_running.cpu_env c =
      if c = 0 then some 0 else if c = 1 then some 1 else none := fun _ => rfl
  interval_cases i
  · refine ⟨0, rfl, fun c hc => ?_⟩
    replace hc : two_running.cpu_env c = some 0 := hc
    rw [hcpu] at hc
    split at hc
    · assumption
    · split at hc <;> simp at hc
  · refine ⟨1, rfl, fun c hc => ?_⟩
    replace hc : two_running.cpu_env c = some 1 := hc
    rw [hcpu] at hc
    split at hc
    · simp at hc
    · split at hc
      · assumption
      · simp at hc

/-- C6, evaluated at the failing input. `two_running` satisfies the running
invariant. After environment 0 on CPU 0 calls `sys_env_set_status(0x1001,
ENV_RUNNABLE)` on its child, which CPU 1 is running, and then `sys_yield`,
both calls having returned, the child is `ENV_RUNNING` and is the current
environment of CPU 0 and of CPU 1: the invariant is broken. -/
theorem running_invariant_broken :
    RunningInv 1 two_running ∧
    double_run_trace.map (fun r => r.1) = some 0 ∧
    (double_run.envs 1).env_status = ENV_RUNNING ∧
    double_run.cpu_env 0 = some 1 ∧ double_run.cpu_env 1 = some 1 ∧
    ¬ RunningInv 1 double_run := by
  have h1 : (double_run.envs 1).env_status = ENV_RUNNING := by decide
  have h2 : double_run.cpu_env 0 = some 1 := by decide
  have h3 : double_run.cpu_env 1 = some 1 := by decide
  refine ⟨two_running_runningInv, by decide, h1, h2, h3, fun hinv => ?_⟩
  obtain ⟨c, _, huniq⟩ := hinv 1 (by decide) h1
  have e0 := huniq 0 h2
  have e1 := huniq 1 h3
  omega

/-! ## The reference count of a frame -/

/-- C4, evaluated at the failing input. In `crowded` frame 50 has 65535
mappings and `pp_ref = 65535`. One more `sys_page_map` returns 0 and leaves
`pp_ref = 0` although address 0 (and 65535 others) still maps frame 50; after
a further `sys_page_map` (`pp_ref = 1`) and the `sys_page_unmap` of that same
address, both returning 0, frame 50 is at the head of the page free list
while address 0 of the environment still maps it. -/
theorem refcount_wraps :
    (crowded.pages 50).pp_ref = 65535 ∧
    page_lookup crowded 2 0 = some (some (50, (100, 0))) ∧
    overflow_trace1.map (fun r => r.1) = some 0 ∧
    overflow_trace1.map (fun r => (r.2.pages 50).pp_ref) = some 0 ∧
    overflow_trace1.bind (fun r => page_lookup r.2 2 0) = some (some (50, (100, 0))) ∧
    overflow_trace1.bind (fun r => page_lookup r.2 2 0xFFFF000) =
      some (some (50, (227, 511))) ∧
    overflow_trace2.map (fun r => r.1) = some 0 ∧
    overflow_trace2.map (fun r => (r.2.pages 50).pp_ref) = some 1 ∧
    overflow_trace3.map (fun r => r.1) = some 0 ∧
    overflow_trace3.map (fun r => (r.2.pages 50).pp_ref) = some 0 ∧
    overflow_trace3.map (fun r => r.2.page_free_list) = some (some 50) ∧
    overflow_trace3.bind (fun r => page_lookup r.2 2 0) = some (some (50, (100, 0))) := by
  refine ⟨by decide, by decide, by decide, by decide, by decide, by decide, by decide,
    by decide, by decide, by decide, by decide, by decide⟩

/-! ## The page free list -/

theorem isChain_unique {link : Nat → Option Nat} (l1 : List Nat) :
    ∀ (l2 : List Nat) (h : Option Nat), IsChain link h l1 → IsChain link h l2 → l1 = l2 := by
  induction l1 with
  | nil =>
    intro l2 h h1 h2
    cases l2 with
    | nil => rfl
    | cons y ys =>
      have e1 : h = none := h1
      have e2 : h = some y := h2.1
      rw [e1] at e2
      cases e2
  | cons x xs ih =>
    intro l2 h h1 h2
    cases l2 with
    | nil =>
      have e1 : h = some x := h1.1
      have e2 : h = none := h2
      rw [e1] at e2
      cases e2
    | cons y ys =>
      have e1 : h = some x := h1.1
      have e2 : h = some y := h2.1
      rw [e1] at e2
      cases e2
      rw [ih ys _ h1.2 h2.2]

theorem onPageFreeList_iff {st : Kernel} {l : List Nat} (hl : PageList st l) (f : Nat) :
    OnPageFreeList st f ↔ f ∈ l := by
  constructor
  · rintro ⟨l2, h2, hf⟩
    rw [isChain_unique l _ _ hl.1 h2]
    exact hf
  · intro hf
    exact ⟨l, hl.1, hf⟩

theorem pageList_congr {st st' : Kernel} {l : List Nat} (hp : st'.pages = st.pages)
    (hh : st'.page_free_list = st.page_free_list) (hl : PageList st l) : PageList st' l := by
  unfold PageList at hl ⊢
  rw [hp, hh]
  exact hl

theorem pageList_write {st : Kernel} {l : List Nat} (f i v : Nat) (hl : PageList st l) :
    PageList (st.write f i v) l :=
  pageList_congr rfl rfl hl

theorem pageList_setref {st : Kernel} {l : List Nat} (pp r : Nat) (hl : PageList st l)
    (hpp : pp ∉ l) : PageList (st.setPage pp { st.pages pp with pp_ref := r }) l := by
  obtain ⟨hc, hnd, href, hlink⟩ := hl
  refine ⟨?_, hnd, ?_, ?_⟩
  · refine isChain_congr l _ ?_ hc
    intro x hx
    have hne : x ≠ pp := fun e => hpp (e ▸ hx)
    simp [Kernel.setPage, Function.update_noteq hne]
  · intro f hf
    have hne : f ≠ pp := fun e => hpp (e ▸ hf)
    simp only [setPage_pages, Function.update_noteq hne]
    exact href f hf
  · intro f hf
    by_cases hne : f = pp
    · subst hne
      simp only [setPage_pages, Function.update_same]
      exact hlink f hf
    · simp only [setPage_pages, Function.update_noteq hne]
      exact hlink f hf

theorem pageList_incref {st : Kernel} {l : List Nat} (pp : Nat) (hl : PageList st l)
    (hpp : pp ∉ l) : PageList (incref st pp) l :=
  pageList_setref pp _ hl hpp

theorem pageList_page_free {st st' : Kernel} {l : List Nat} {pp : Nat} (hl : PageList st l)
    (hpp : pp ∉ l) (h : page_free st pp = some st') : PageList st' (pp :: l) := by
  obtain ⟨hc, hnd, href, hlink⟩ := hl
  unfold page_free at h
  split at h
  · cases h
  · rename_i hcond
    have hr : (st.pages pp).pp_ref = 0 := by
      by_contra hne
      exact hcond (Or.inl hne)
    cases h
    refine ⟨⟨rfl, ?_⟩, List.nodup_cons.mpr ⟨hpp, hnd⟩, ?_, ?_⟩
    · simp only [Function.update_same]
      refine isChain_congr l _ ?_ hc
      intro x hx
      have hne : x ≠ pp := fun e => hpp (e ▸ hx)
      simp only [Function.update_noteq hne]
    · intro f hf
      by_cases hne : f = pp
      · subst hne
        simp only [Function.update_same]
        exact hr
      · simp only [Function.update_noteq hne]
        rcases List.mem_cons.mp hf with e | hm
        · exact absurd e hne
        · exact href f hm
    · intro f hf
      have hne : f ≠ pp := fun e => hf (e ▸ List.mem_cons_self _ _)
      simp only [Function.update_noteq hne]
      exact hlink f (fun hm => hf (List.mem_cons_of_mem _ hm))

/-- The allocator pops the head of the list, or leaves the state as it is. -/
theorem pageList_page_alloc {st : Kernel} {l : List Nat} (flags : Nat) (hl : PageList st l) :
    (l = [] ∧ (page_alloc st flags).2 = none ∧ PageList (page_alloc st flags).1 l) ∨
    (∃ p xs, l = p :: xs ∧ (page_alloc st flags).2 = some p ∧
      PageList (page_alloc st flags).1 xs) := by
  obtain ⟨hc, hnd, href, hlink⟩ := hl
  cases l with
  | nil =>
    left
    have hh : st.page_free_list = none := hc
    refine ⟨rfl, ?_, ?_⟩
    · unfold page_alloc
      rw [hh]
    · have : (page_alloc st flags).1 = st := by
        unfold page_alloc
        rw [hh]
      rw [this]
      exact ⟨hc, hnd, href, hlink⟩
  | cons p xs =>
    right
    have hh : st.page_free_list = some p := hc.1
    have hpx : p ∉ xs := (List.nodup_cons.mp hnd).1
    refine ⟨p, xs, rfl, ?_, ?_⟩
    · unfold page_alloc
      rw [hh]
    · have hpages : (page_alloc st flags).1.pages =
          Function.update st.pages p { st.pages p with pp_link := none } := by
        unfold page_alloc
        rw [hh]
        simp only
        split <;> rfl
      have hhead : (page_alloc st flags).1.page_free_list = (st.pages p).pp_link := by
        unfold page_alloc
        rw [hh]
        simp only
        split <;> rfl
      unfold PageList
      rw [hpages, hhead]
      refine ⟨?_, (List.nodup_cons.mp hnd).2, ?_, ?_⟩
      · refine isChain_congr xs _ ?_ hc.2
        intro x hx
        have hne : x ≠ p := fun e => hpx (e ▸ hx)
        simp only [Function.update_noteq hne]
      · intro f hf
        have hne : f ≠ p := fun e => hpx (e ▸ hf)
        simp only [Function.update_noteq hne]
        exact href f (List.mem_cons_of_mem _ hf)
      · intro f hf
        by_cases hne : f = p
        · subst hne
          simp only [Function.update_same]
        · simp only [Function.update_noteq hne]
          refine hlink f ?_
          intro hm
          rcases List.mem_cons.mp hm with e | hm
          · exact hne e
          · exact hf hm

theorem walk_level_false_some {st st1 : Kernel} {tbl idx t : Nat}
    (h : walk_level st tbl idx false = some (st1, some t)) :
    st1 = st ∧ present (st.mem tbl idx) = true ∧
      KADDR st (PTE_ADDR (st.mem tbl idx)) = some t := by
  unfold walk_level at h
  split at h
  · rename_i hp
    simp only [Option.map_eq_some'] at h
    obtain ⟨t1, hk, ht⟩ := h
    cases ht
    exact ⟨rfl, hp, hk⟩
  · rw [if_pos rfl] at h
    cases h

theorem walk_level_of_present {st : Kernel} {tbl idx t : Nat} (create : Bool)
    (hp : present (st.mem tbl idx) = true)
    (hk : KADDR st (PTE_ADDR (st.mem tbl idx)) = some t) :
    walk_level st tbl idx create = some (st, some t) := by
  unfold walk_level
  rw [if_pos hp, hk]
  rfl

theorem pml4e_walk_false_some {st st1 : Kernel} {root va pt i : Nat}
    (h : pml4e_walk st root va false = some (st1, some (pt, i))) :
    st1 = st ∧ i = PTX va ∧ ∃ a b,
      (present (st.mem root (PML4X va)) = true ∧
        KADDR st (PTE_ADDR (st.mem root (PML4X va))) = some a) ∧
      (present (st.mem a (PDPX va)) = true ∧
        KADDR st (PTE_ADDR (st.mem a (PDPX va))) = some b) ∧
      (present (st.mem b (PDX va)) = true ∧
        KADDR st (PTE_ADDR (st.mem b (PDX va))) = some pt) := by
  unfold pml4e_walk at h
  split at h
  · cases h
  · cases h
  · rename_i s1 a h1
    obtain ⟨e1, p1, k1⟩ := walk_level_false_some h1
    subst e1
    split at h
    · cases h
    · cases h
    · rename_i s2 b h2
      obtain ⟨e2, p2, k2⟩ := walk_level_false_some h2
      subst e2
      split at h
      · cases h
      · cases h
      · rename_i s3 c h3
        obtain ⟨e3, p3, k3⟩ := walk_level_false_some h3
        subst e3
        cases h
        exact ⟨rfl, rfl, a, b, ⟨p1, k1⟩, ⟨p2, k2⟩, ⟨p3, k3⟩⟩

theorem pml4e_walk_of_path {st : Kernel} {root va pt a b : Nat} (create : Bool)
    (h1 : present (st.mem root (PML4X va)) = true ∧
      KADDR st (PTE_ADDR (st.mem root (PML4X va))) = some a)
    (h2 : present (st.mem a (PDPX va)) = true ∧
      KADDR st (PTE_ADDR (st.mem a (PDPX va))) = some b)
    (h3 : present (st.mem b (PDX va)) = true ∧
      KADDR st (PTE_ADDR (st.mem b (PDX va))) = some pt) :
    pml4e_walk st root va create = some (st, some (pt, PTX va)) := by
  unfold pml4e_walk
  rw [walk_level_of_present create h1.1 h1.2]
  simp only
  rw [walk_level_of_present create h2.1 h2.2]
  simp only
  rw [walk_level_of_present create h3.1 h3.2]

/-- The state `mapped_once` agrees with what `sys_page_alloc` computes from
`two_running`, on the head of the free list and on the walk for address 0. -/
theorem mapped_once_eq :
    (sys_page_alloc 1 two_running 0 0 0 7).map (fun r => r.1) = some 0 ∧
    (sys_page_alloc 1 two_running 0 0 0 7).map (fun r => r.2.page_free_list) =
      some mapped_once.page_free_list ∧
    (sys_page_alloc 1 two_running 0 0 0 7).bind (fun r => page_lookup r.2 2 0) =
      page_lookup mapped_once 2 0 ∧
    (sys_page_alloc 1 two_running 0 0 0 7).map (fun r => (r.2.pages 6).pp_ref) =
      some (mapped_once.pages 6).pp_ref := by
  refine ⟨by decide, by decide, by decide, by decide⟩

theorem find_range_none (p : Nat → Bool) (n : Nat) (h : ∀ j, j < n → p j = false) :
    (List.range n).find? p = none := by
  rw [List.find?_eq_none]
  intro x hx
  rw [List.mem_range] at hx
  rw [h x hx]
  decide

theorem find_range_some (p : Nat → Bool) (n : Nat) :
    ∀ k, k < n → p k = true → (∀ j, j < k → p j = false) → (List.range n).find? p = some k := by
  induction n with
  | zero => intro k hk; omega
  | succ n ih =>
    intro k hk hp hmin
    rw [List.range_succ, List.find?_append]
    by_cases hkn : k < n
    · rw [ih k hkn hp hmin]
      rfl
    · have hkn2 : k = n := by omega
      subst hkn2
      rw [find_range_none p k hmin]
      simp [List.find?, hp]

/-- The scan `(s + 1 + k) % n` for `k < n` visits every slot once. -/
theorem scan_order (n s j : Nat) (hj : j < n) : ∃! k, k < n ∧ (s + 1 + k) % n = j := by
  have hn : 0 < n := by omega
  have ha : (s + 1) % n < n := Nat.mod_lt _ hn
  by_cases hc : (s + 1) % n ≤ j
  · refine ⟨j - (s + 1) % n, ⟨by omega, ?_⟩, ?_⟩
    · rw [Nat.add_mod, Nat.mod_eq_of_lt (show j - (s + 1) % n < n by omega)]
      rw [show (s + 1) % n + (j - (s + 1) % n) = j by omega]
      exact Nat.mod_eq_of_lt hj
    · rintro k ⟨hk, hkj⟩
      rw [Nat.add_mod, Nat.mod_eq_of_lt hk] at hkj
      by_cases hlt : (s + 1) % n + k < n
      · rw [Nat.mod_eq_of_lt hlt] at hkj
        omega
      · have : ((s + 1) % n + k) % n = (s + 1) % n + k - n := by
          rw [Nat.mod_eq_sub_mod (by omega)]
          exact Nat.mod_eq_of_lt (by omega)
        omega
  · refine ⟨j + n - (s + 1) % n, ⟨by omega, ?_⟩, ?_⟩
    · rw [Nat.add_mod, Nat.mod_eq_of_lt (show j + n - (s + 1) % n < n by omega)]
      rw [show (s + 1) % n + (j + n - (s + 1) % n) = j + n by omega]
      rw [Nat.add_mod_right]
      exact Nat.mod_eq_of_lt hj
    · rintro k ⟨hk, hkj⟩
      rw [Nat.add_mod, Nat.mod_eq_of_lt hk] at hkj
      by_cases hlt : (s + 1) % n + k < n
      · rw [Nat.mod_eq_of_lt hlt] at hkj
        omega
      · have : ((s + 1) % n + k) % n = (s + 1) % n + k - n := by
          rw [Nat.mod_eq_sub_mod (by omega)]
          exact Nat.mod_eq_of_lt (by omega)
        omega

theorem sched_yield_found (lg : Nat) (st : Kernel) (cpu k : Nat)
    (hidx : ∀ c, curenv st cpu = some c → ENVX lg (st.envs c).env_id = c)
    (hk : k < NENV lg)
    (hrun : (st.envs (((curenv st cpu).getD 0 + 1 + k) % NENV lg)).env_status = ENV_RUNNABLE)
    (hmin : ∀ j, j < k →
      (st.envs (((curenv st cpu).getD 0 + 1 + j) % NENV lg)).env_status ≠ ENV_RUNNABLE) :
    sched_yield lg st cpu = env_run st cpu (((curenv st cpu).getD 0 + 1 + k) % NENV lg) := by
  unfold sched_yield
  cases hc : curenv st cpu with
  | none =>
    rw [hc] at hrun hmin
    simp only [Option.getD_none] at hrun hmin ⊢
    rw [find_range_some _ (NENV lg) k hk (by simpa using hrun)
      (fun j hj => by simpa using hmin j hj)]
  | some c =>
    rw [hc] at hrun hmin
    simp only [Option.getD_some] at hrun hmin ⊢
    simp only [hidx c hc]
    rw [find_range_some _ (NENV lg) k hk (by simpa using hrun)
      (fun j hj => by simpa using hmin j hj)]

theorem sched_yield_not_found (lg : Nat) (st : Kernel) (cpu : Nat)
    (hnone : ∀ i, i < NENV lg → (st.envs i).env_status ≠ ENV_RUNNABLE) :
    sched_yield lg st cpu =
      match curenv st cpu with
      | some c =>
        if (st.envs c).env_status = ENV_RUNNING then env_run st cpu c
        else some (sched_halt lg st cpu)
      | none => some (sched_halt lg st cpu) := by
  have hn : 0 < NENV lg := by
    rw [NENV_eq]
    exact Nat.pos_pow_of_pos _ (by omega)
  unfold sched_yield
  simp only
  rw [find_range_none _ (NENV lg) (fun j _ => by
    simpa using hnone _ (Nat.mod_lt _ hn))]

theorem sched_yield_choice (lg : Nat) (st : Kernel) (cpu : Nat) :
    (∃ e, e < NENV lg ∧ (st.envs e).env_status = ENV_RUNNABLE ∧
      sched_yield lg st cpu = env_run st cpu e) ∨
    (∃ c, curenv st cpu = some c ∧ (st.envs c).env_status = ENV_RUNNING ∧
      sched_yield lg st cpu = env_run st cpu c) ∨
    sched_yield lg st cpu = some (sched_halt lg st cpu) := by
  have hn : 0 < NENV lg := by
    rw [NENV_eq]
    exact Nat.pos_pow_of_pos _ (by omega)
  unfold sched_yield
  simp only
  split
  · rename_i i hfind
    left
    have hp := List.find?_some hfind
    exact ⟨_, Nat.mod_lt _ hn, by simpa using hp, rfl⟩
  · right
    split
    · rename_i c hc
      split
      · rename_i hrun
        exact Or.inl ⟨c, hc, hrun, rfl⟩
      · exact Or.inr rfl
    · exact Or.inr rfl

/-- C11. With `s` the index of the current environment of the CPU (0 when
there is none; the code takes `ENVX(curenv->env_id)`, which is that index),
the slots `(s + 1 + k) % NENV` for `k < NENV` are every slot once, and
`sched_yield` runs the first of them whose status is `ENV_RUNNABLE`; when no
environment is `ENV_RUNNABLE` it re-runs the current environment if that is
`ENV_RUNNING`, and calls `sched_halt` otherwise. What it runs is always an
`ENV_RUNNABLE` environment or the CPU's own `ENV_RUNNING` current
environment. -/
theorem sched_yield_round_robin (lg : Nat) (st : Kernel) (cpu : Nat)
    (hidx : ∀ c, curenv st cpu = some c → ENVX lg (st.envs c).env_id = c) :
    (∀ j, j < NENV lg →
      ∃! k, k < NENV lg ∧ ((curenv st cpu).getD 0 + 1 + k) % NENV lg = j) ∧
    (∀ k, k < NENV lg →
      (st.envs (((curenv st cpu).getD 0 + 1 + k) % NENV lg)).env_status = ENV_RUNNABLE →
      (∀ j, j < k →
        (st.envs (((curenv st cpu).getD 0 + 1 + j) % NENV lg)).env_status ≠ ENV_RUNNABLE) →
      sched_yield lg st cpu =
        env_run st cpu (((curenv st cpu).getD 0 + 1 + k) % NENV lg)) ∧
    ((∀ i, i < NENV lg → (st.envs i).env_status ≠ ENV_RUNNABLE) →
      (∀ c, curenv st cpu = some c → (st.envs c).env_status = ENV_RUNNING →
        sched_yield lg st cpu = env_run st cpu c) ∧
      ((∀ c, curenv st cpu = some c → (st.envs c).env_status ≠ ENV_RUNNING) →
        sched_yield lg st cpu = some (sched_halt lg st cpu))) ∧
    ((∃ e, e < NENV lg ∧ (st.envs e).env_status = ENV_RUNNABLE ∧
        sched_yield lg st cpu = env_run st cpu e) ∨
      (∃ c, curenv st cpu = some c ∧ (st.envs c).env_status = ENV_RUNNING ∧
        sched_yield lg st cpu = env_run st cpu c) ∨
      sched_yield lg st cpu = some (sched_halt lg st cpu)) := by
  refine ⟨fun j hj => scan_order _ _ j hj,
    fun k hk hrun hmin => sched_yield_found lg st cpu k hidx hk hrun hmin, ?_,
    sched_yield_choice lg st cpu⟩
  intro hnone
  have h := sched_yield_not_found lg st cpu hnone
  constructor
  · intro c hc hrun
    rw [h, hc]
    simp only
    rw [if_pos hrun]
  · intro hnot
    rw [h]
    cases hc : curenv st cpu with
    | none => rfl
    | some c =>
      simp only
      rw [if_neg (hnot c hc)]

/-- In `two_running` no environment is runnable and CPU 0 runs environment 0:
`sched_yield` on CPU 0 runs it again. -/
theorem sched_yield_round_robin_witness :
    (∀ c, curenv two_running 0 = some c → ENVX 1 (two_running.envs c).env_id = c) ∧
    sched_yield 1 two_running 0 = env_run two_running 0 0 :=
  have hidx : ∀ c, curenv two_running 0 = some c → ENVX 1 (two_running.envs c).env_id = c := by
    intro c hc
    have h0 : curenv two_running 0 = some 0 := rfl
    rw [h0] at hc
    cases hc
    decide
  ⟨hidx, ((sched_yield_round_robin 1 two_running 0 hidx).2.2.1 (by decide)).1 0 rfl
    (by decide)⟩

/-! ## `sys_exofork` and `sys_env_set_status` -/

theorem freeListInv_head {lg : Nat} {st : Kernel} {e : Nat} (hinv : FreeListInv lg st)
    (hh : st.env_free_list = some e) : e < NENV lg ∧ (st.envs e).env_status = ENV_FREE := by
  obtain ⟨l, hc, _, hmem⟩ := hinv
  cases l with
  | nil =>
    have : st.env_free_list = none := hc
    rw [hh] at this
    cases this
  | cons x xs =>
    have h1 : st.env_free_list = some x := hc.1
    rw [hh] at h1
    cases h1
    exact (hmem e).mp (List.mem_cons_self _ _)

/-- When `env_alloc` returns, so does `sys_exofork` of a CPU that has a
current environment. -/
theorem sys_exofork_returns {lg : Nat} {st st1 : Kernel} {cpu c : Nat} {ra : Int}
    {store : Option Nat} (hcur : curenv st cpu = some c)
    (halloc : env_alloc lg st (st.envs c).env_id = some (ra, store, st1)) :
    ∃ r st', sys_exofork lg st cpu = some (r, st') := by
  have hcases := env_alloc_cases halloc
  unfold sys_exofork
  simp only [hcur, halloc]
  by_cases hneg : ra < 0
  · rw [if_pos hneg]
    exact ⟨_, _, rfl⟩
  · rw [if_neg hneg]
    rcases hcases with ⟨_, h2, _⟩ | ⟨_, _, _, h3, _⟩ | ⟨e, s1, _, hs, _, hst, hst'⟩
    · rw [h2] at hneg
      exact absurd (by decide) hneg
    · rw [h3] at hneg
      exact absurd (by decide) hneg
    · have hcpu : st1.cpu_env = st.cpu_env := (env_alloc_success (hst ▸ halloc)).2.2.2.1
      have hc1 : curenv st1 cpu = some c := by
        unfold curenv at hcur ⊢
        rw [hcpu]
        exact hcur
      rw [hst, hc1]
      exact ⟨_, _, rfl⟩

/-- The contract of `sys_exofork` for a caller that is not free. On a CPU
whose current environment `c` is not free, in a state with the environment
free-list invariant, `sys_exofork` returns whenever `env_alloc` does. A result that is not negative is the id of the child, the
former head `e` of the free list: it is positive, `e` is not the caller, its
parent id is the caller's id, its status `ENV_NOT_RUNNABLE`, its register
frame the caller's with `rax = 0`, and every other record, the caller's
included, is unchanged. A negative result is the error of `env_alloc`,
`-E_NO_FREE_ENV` or `-E_NO_MEM`, and then the free list and every
environment's id, status and link are unchanged. -/
theorem sys_exofork_contract (lg : Nat) (st st1 : Kernel) (cpu c : Nat) (ra : Int)
    (store : Option Nat) (hlg : lg ≤ ENVGENSHIFT) (hcur : curenv st cpu = some c)
    (hinv : FreeListInv lg st) (hlive : (st.envs c).env_status ≠ ENV_FREE)
    (halloc : env_alloc lg st (st.envs c).env_id = some (ra, store, st1)) :
    ∃ r st', sys_exofork lg st cpu = some (r, st') ∧
      (0 ≤ r → ∃ e, st.env_free_list = some e ∧ (st.envs e).env_status = ENV_FREE ∧ e ≠ c ∧
        r = int32 (st'.envs e).env_id ∧ 0 < r ∧
        (st'.envs e).env_parent_id = (st.envs c).env_id ∧
        (st'.envs e).env_status = ENV_NOT_RUNNABLE ∧
        (st'.envs e).env_tf =
          { (st.envs c).env_tf with
            tf_regs := { (st.envs c).env_tf.tf_regs with reg_rax := 0 } } ∧
        st'.envs c = st.envs c ∧ ∀ i, i ≠ e → st'.envs i = st.envs i) ∧
      (r < 0 → r = ra ∧ (r = -E_NO_FREE_ENV ∨ r = -E_NO_MEM) ∧
        st'.env_free_list = st.env_free_list ∧
        ∀ i, (st'.envs i).env_id = (st.envs i).env_id ∧
          (st'.envs i).env_status = (st.envs i).env_status ∧
          (st'.envs i).env_link = (st.envs i).env_link) := by
  obtain ⟨r, st', h⟩ := sys_exofork_returns hcur halloc
  refine ⟨r, st', h, ?_, ?_⟩
  · intro hr
    rcases sys_exofork_cases h with ⟨hneg, _⟩ | ⟨pid, e, c', s1, ha, hc', hpid, _, _, hoth, hid, _,
      hpar, hstat, htf, hres⟩
    · omega
    · rw [hcur] at hc'
      cases hc'
      subst hpid
      obtain ⟨_, hhead, _, _, hoth1, hrec⟩ := env_alloc_success ha
      obtain ⟨he, hfree⟩ := freeListInv_head hinv hhead
      have hec : e ≠ c := fun heq => hlive (heq ▸ hfree)
      have hce : c ≠ e := fun heq => hec heq.symm
      have hid1 : (s1.envs e).env_id = next_env_id lg (st.envs e).env_id e := by
        rw [hrec]
      have hpar1 : (s1.envs e).env_parent_id = (st.envs c).env_id := by
        rw [hrec]
      have hc1 : s1.envs c = st.envs c := hoth1 c hce
      refine ⟨e, hhead, hfree, hec, ?_, ?_, ?_, hstat, ?_, ?_, ?_⟩
      · rw [hid]
        exact hres
      · rw [hres, hid1]
        exact next_env_id_pos lg _ e hlg (by rw [← NENV_eq]; exact he)
      · rw [hpar, hpar1]
      · rw [htf, hc1]
      · rw [hoth c hce, hc1]
      · intro i hi
        rw [hoth i hi, hoth1 i hi]
  · intro hr
    rcases sys_exofork_cases h with ⟨_, pid, store', ha⟩ | ⟨_, _, _, _, _, _, _, _, _, _, _, _, _, _,
      _, hres⟩
    · have hra : sys_exofork lg st cpu = some (ra, st1) ∨ ¬ ra < 0 := by
        by_cases hneg : ra < 0
        · left
          unfold sys_exofork
          simp only [hcur, halloc]
          rw [if_pos hneg]
        · exact Or.inr hneg
      obtain ⟨hcode, _, hlist, _, hrecs, _⟩ := env_alloc_failure hr ha
      have hfields : ∀ i, (st'.envs i).env_id = (st.envs i).env_id ∧
          (st'.envs i).env_status = (st.envs i).env_status ∧
          (st'.envs i).env_link = (st.envs i).env_link := by
        intro i
        have := hrecs i
        rw [← this]
        exact ⟨rfl, rfl, rfl⟩
      rcases hra with hra | hra
      · rw [h] at hra
        simp only [Option.some.injEq, Prod.mk.injEq] at hra
        exact ⟨hra.1, hcode, hlist, hfields⟩
      · exfalso
        have h2 := h
        unfold sys_exofork at h2
        simp only [hcur, halloc] at h2
        rw [if_neg hra] at h2
        rcases env_alloc_cases halloc with ⟨_, h2', _⟩ | ⟨_, _, _, h3, _⟩ |
          ⟨e, s1, _, hs, hr0, hst, hst'⟩
        · rw [h2'] at hra
          exact hra (by decide)
        · rw [h3] at hra
          exact hra (by decide)
        · have hcpu : st1.cpu_env = st.cpu_env := (env_alloc_success (hst ▸ halloc)).2.2.2.1
          have hc1 : curenv st1 cpu = some c := by
            unfold curenv at hcur ⊢
            rw [hcpu]
            exact hcur
          rw [hst, hc1] at h2
          simp only [Option.some.injEq, Prod.mk.injEq] at h2
          have hpos : 0 < r := by
            rw [← h2.1]
            have hhead := (env_alloc_success (hst ▸ halloc)).2.1
            obtain ⟨he, _⟩ := freeListInv_head hinv hhead
            have hrec := (env_alloc_success (hst ▸ halloc)).2.2.2.2.2
            simp only [setEnv_envs, Function.update_same]
            rw [hrec]
            exact next_env_id_pos lg _ e hlg (by rw [← NENV_eq]; exact he)
          omega
    · rw [hres] at hr
      exfalso
      rename_i pid e c' s1 ha hc' hpid _ _ _ _ _ _ _ _
      obtain ⟨_, hhead, _, _, _, hrec⟩ := env_alloc_success ha
      obtain ⟨he, _⟩ := freeListInv_head hinv hhead
      have hid1 : (s1.envs e).env_id = next_env_id lg (st.envs e).env_id e := by
        rw [hrec]
      rw [hid1] at hr
      have := next_env_id_pos lg (st.envs e).env_id e hlg (by rw [← NENV_eq]; exact he)
      omega

theorem two_running_child_eq :
    env_alloc 1 two_running_freed (two_running_freed.envs 0).env_id =
      some (0, some 1, two_running_child) := by
  have hid : (two_running_freed.envs 0).env_id = 0x1000 := by decide
  rw [hid]
  obtain ⟨st', h⟩ := env_alloc_succeeds 1 two_running_freed 0x1000 1 4 5 1 (by decide)
    (by decide) (by decide) (by decide) (by decide) (by norm_num) (by decide) (by decide)
    (by decide) (by decide) (by decide) (by decide)
  simp [two_running_child, h]

theorem two_running_freed_freeListInv : FreeListInv 1 two_running_freed :=
  freeListInv_free two_running_freeListInv (by decide) (by decide) two_running_free_eq

/-- Environment 0 of `two_running_freed`, running on CPU 0, forks: slot 1 is
free and `env_alloc` succeeds. -/
theorem sys_exofork_contract_witness :
    curenv two_running_freed 0 = some 0 ∧
    env_alloc 1 two_running_freed (two_running_freed.envs 0).env_id =
      some (0, some 1, two_running_child) ∧
    ∃ r st', sys_exofork 1 two_running_freed 0 = some (r, st') ∧
      (0 ≤ r → ∃ e, two_running_freed.env_free_list = some e ∧
        (two_running_freed.envs e).env_status = ENV_FREE ∧ e ≠ 0 ∧
        r = int32 (st'.envs e).env_id ∧ 0 < r ∧
        (st'.envs e).env_parent_id = (two_running_freed.envs 0).env_id ∧
        (st'.envs e).env_status = ENV_NOT_RUNNABLE ∧
        (st'.envs e).env_tf =
          { (two_running_freed.envs 0).env_tf with
            tf_regs := { (two_running_freed.envs 0).env_tf.tf_regs with reg_rax := 0 } } ∧
        st'.envs 0 = two_running_freed.envs 0 ∧
        ∀ i, i ≠ e → st'.envs i = two_running_freed.envs i) ∧
      (r < 0 → r = 0 ∧ (r = -E_NO_FREE_ENV ∨ r = -E_NO_MEM) ∧
        st'.env_free_list = two_running_freed.env_free_list ∧
        ∀ i, (st'.envs i).env_id = (two_running_freed.envs i).env_id ∧
          (st'.envs i).env_status = (two_running_freed.envs i).env_status ∧
          (st'.envs i).env_link = (two_running_freed.envs i).env_link) :=
  ⟨by decide, two_running_child_eq,
    sys_exofork_contract 1 two_running_freed two_running_child 0 0 0 (some 1) (by decide)
      (by decide) two_running_freed_freeListInv (by decide) two_running_child_eq⟩

/-- C13. `sys_env_set_status(envid, status)` returns `-E_INVAL` with the
state unchanged when `status` is neither `ENV_RUNNABLE` nor
`ENV_NOT_RUNNABLE`; otherwise, the caller having a current environment, it
returns `-E_BAD_ENV` with the state unchanged when the permission-checked
`envid2env` fails, and otherwise 0, the new state being the old one with the
field `env_status` of the resolved environment set to `status`. -/
theorem sys_env_set_status_contract (lg : Nat) (st : Kernel) (cpu c envid status : Nat)
    (hc : curenv st cpu = some c) :
    (status ≠ ENV_RUNNABLE ∧ status ≠ ENV_NOT_RUNNABLE →
      sys_env_set_status lg st cpu envid status = some (-E_INVAL, st)) ∧
    (status = ENV_RUNNABLE ∨ status = ENV_NOT_RUNNABLE →
      (envid2env lg st cpu envid true = some (-E_BAD_ENV, none) ∧
        sys_env_set_status lg st cpu envid status = some (-E_BAD_ENV, st)) ∨
      (∃ e, envid2env lg st cpu envid true = some (0, some e) ∧
        sys_env_set_status lg st cpu envid status =
          some (0, { st with
            envs := Function.update st.envs e { st.envs e with env_status := status } }))) := by
  constructor
  · intro hbad
    unfold sys_env_set_status
    rw [if_pos hbad]
  · intro hok
    have hnot : ¬ (status ≠ ENV_RUNNABLE ∧ status ≠ ENV_NOT_RUNNABLE) := by
      rintro ⟨h1, h2⟩
      rcases hok with h | h
      · exact h1 h
      · exact h2 h
    rcases envid2env_total lg st cpu envid c true hc with ⟨e, he, _⟩ | hbad
    · right
      refine ⟨e, he, ?_⟩
      unfold sys_env_set_status
      rw [if_neg hnot, he]
      rfl
    · left
      refine ⟨hbad, ?_⟩
      unfold sys_env_set_status
      rw [if_neg hnot, hbad]
      rfl

/-- On `two_running`, environment 0 on CPU 0 sets the status of its child
`0x1001`: the three outcomes. -/
theorem sys_env_set_status_contract_witness :
    curenv two_running 0 = some 0 ∧
    sys_env_set_status 1 two_running 0 0x1001 ENV_RUNNING = some (-E_INVAL, two_running) ∧
    sys_env_set_status 1 two_running 0 0x2001 ENV_RUNNABLE = some (-E_BAD_ENV, two_running) ∧
    sys_env_set_status 1 two_running 0 0x1001 ENV_NOT_RUNNABLE =
      some (0, { two_running with
        envs := Function.update two_running.envs 1
          { two_running.envs 1 with env_status := ENV_NOT_RUNNABLE } }) :=
  ⟨rfl,
    (sys_env_set_status_contract 1 two_running 0 0 0x1001 ENV_RUNNING rfl).1 (by decide),
    ((sys_env_set_status_contract 1 two_running 0 0 0x2001 ENV_RUNNABLE rfl).2
      (Or.inl rfl)).elim (fun h => h.2) (fun h => h.elim (fun e he => by
        have h1 : envid2env 1 two_running 0 0x2001 true = some (-E_BAD_ENV, none) := by decide
        have h2 := he.1
        rw [h1] at h2
        simp at h2)),
    ((sys_env_set_status_contract 1 two_running 0 0 0x1001 ENV_NOT_RUNNABLE rfl).2
      (Or.inr rfl)).elim (fun h => absurd h.1 (by decide))
      (fun h => h.elim (fun e he => by
        have h1 : envid2env 1 two_running 0 0x1001 true = some (0, some 1) := by decide
        rw [h1] at he
        have he1 : e = 1 := by
          have := he.1
          simp only [Option.some.injEq, Prod.mk.injEq, true_and] at this
          exact this.symm
        subst he1
        exact he.2))⟩

/-! ## Validation of addresses and permissions -/

theorem and_fff_eq_mod (va : Nat) : va &&& 0xFFF = va % PGSIZE := by
  have h := Nat.and_pow_two_sub_one_eq_mod va 12
  norm_num at h
  exact h

/-- C14. With environment ids that the permission-checked `envid2env`
resolves, `sys_page_alloc`, `sys_page_unmap` and `sys_page_map` return
`-E_INVAL` and leave the whole state unchanged when a virtual address they
are given is not a multiple of `PGSIZE` or is at or above `UTOP`. -/
theorem user_va_validated (lg : Nat) (st : Kernel) (cpu : Nat) :
    (∀ envid va perm r e, envid2env lg st cpu envid true = some (r, e) → 0 ≤ r →
      va % PGSIZE ≠ 0 ∨ UTOP ≤ va →
      sys_page_alloc lg st cpu envid va perm = some (-E_INVAL, st)) ∧
    (∀ envid va r e, envid2env lg st cpu envid true = some (r, e) → 0 ≤ r →
      va % PGSIZE ≠ 0 ∨ UTOP ≤ va →
      sys_page_unmap lg st cpu envid va = some (-E_INVAL, st)) ∧
    (∀ srcenvid srcva dstenvid dstva perm r1 e1 r2 e2,
      envid2env lg st cpu srcenvid true = some (r1, e1) → 0 ≤ r1 →
      envid2env lg st cpu dstenvid true = some (r2, e2) → 0 ≤ r2 →
      (srcva % PGSIZE ≠ 0 ∨ UTOP ≤ srcva) ∨ (dstva % PGSIZE ≠ 0 ∨ UTOP ≤ dstva) →
      sys_page_map lg st cpu srcenvid srcva dstenvid dstva perm = some (-E_INVAL, st)) := by
  refine ⟨?_, ?_, ?_⟩
  · intro envid va perm r e he hr hva
    unfold sys_page_alloc
    rw [he]
    simp only
    rw [if_neg (by omega), and_fff_eq_mod]
    by_cases h1 : va % PGSIZE ≠ 0
    · rw [if_pos h1]
    · rw [if_neg h1]
      have h2 : va ≥ UTOP := by
        rcases hva with h | h
        · exact absurd h h1
        · exact h
      rw [if_pos h2]
  · intro envid va r e he hr hva
    unfold sys_page_unmap
    rw [he]
    simp only
    rw [if_neg (by omega)]
    by_cases h1 : va % PGSIZE ≠ 0
    · rw [if_pos h1]
    · rw [if_neg h1]
      have h2 : va ≥ UTOP := by
        rcases hva with h | h
        · exact absurd h h1
        · exact h
      rw [if_pos h2]
  · intro srcenvid srcva dstenvid dstva perm r1 e1 r2 e2 he1 hr1 he2 hr2 hva
    unfold sys_page_map
    rw [he1]
    simp only
    rw [if_neg (by omega), he2]
    simp only
    rw [if_neg (by omega)]
    by_cases h1 : srcva % PGSIZE ≠ 0 ∨ dstva % PGSIZE ≠ 0
    · rw [if_pos h1]
    · rw [if_neg h1]
      have h2 : srcva ≥ UTOP ∨ dstva ≥ UTOP := by
        rcases hva with (h | h) | (h | h)
        · exact absurd (Or.inl h) h1
        · exact Or.inl h
        · exact absurd (Or.inr h) h1
        · exact Or.inr h
      rw [if_pos h2]

/-- On `two_running`, environment 0 passes its own id with an unaligned
address, an address at `UTOP`, and an unaligned destination. -/
theorem user_va_validated_witness :
    envid2env 1 two_running 0 0 true = some (0, some 0) ∧
    sys_page_alloc 1 two_running 0 0 0x1001 (PTE_U ||| PTE_P) = some (-E_INVAL, two_running) ∧
    sys_page_unmap 1 two_running 0 0 UTOP = some (-E_INVAL, two_running) ∧
    sys_page_map 1 two_running 0 0 0 0 0x2800 (PTE_U ||| PTE_P) =
      some (-E_INVAL, two_running) :=
  ⟨rfl,
    (user_va_validated 1 two_running 0).1 0 0x1001 (PTE_U ||| PTE_P) 0 (some 0) rfl
      (le_refl 0) (Or.inl (by decide)),
    (user_va_validated 1 two_running 0).2.1 0 UTOP 0 (some 0) rfl (le_refl 0)
      (Or.inr (le_refl UTOP)),
    (user_va_validated 1 two_running 0).2.2 0 0 0 0x2800 (PTE_U ||| PTE_P) 0 (some 0) 0 (some 0)
      rfl (le_refl 0) rfl (le_refl 0) (Or.inr (Or.inl (by decide)))⟩

/-- The two sibling checks: `sys_page_map` and the page transfer of
`sys_ipc_try_send` return `-E_INVAL` with the state unchanged when `perm`
lacks `PTE_U` or `PTE_P`, or has a bit outside `PTE_SYSCALL`. -/
theorem perm_validated_map_send (lg : Nat) (st : Kernel) (cpu : Nat) :
    (∀ srcenvid srcva dstenvid dstva perm r1 e1 r2 e2,
      envid2env lg st cpu srcenvid true = some (r1, e1) → 0 ≤ r1 →
      envid2env lg st cpu dstenvid true = some (r2, e2) → 0 ≤ r2 →
      perm &&& (PTE_U ||| PTE_P) ≠ PTE_U ||| PTE_P ∨
        perm &&& (2 ^ 32 - 1 - PTE_SYSCALL) ≠ 0 →
      sys_page_map lg st cpu srcenvid srcva dstenvid dstva perm = some (-E_INVAL, st)) ∧
    (∀ envid value srcva perm e, envid2env lg st cpu envid false = some (0, some e) →
      (st.envs e).env_ipc_recving = true → srcva < UTOP →
      perm &&& (PTE_U ||| PTE_P) ≠ PTE_U ||| PTE_P ∨
        perm &&& (2 ^ 32 - 1 - PTE_SYSCALL) ≠ 0 →
      sys_ipc_try_send lg st cpu envid value srcva perm = some (-E_INVAL, st)) := by
  constructor
  · intro srcenvid srcva dstenvid dstva perm r1 e1 r2 e2 he1 hr1 he2 hr2 hperm
    unfold sys_page_map
    rw [he1]
    simp only
    rw [if_neg (by omega), he2]
    simp only
    rw [if_neg (by omega)]
    split
    · rfl
    · split
      · rfl
      · split
        · rfl
        · rename_i h3
          split
          · rfl
          · rename_i h4
            rcases hperm with h | h
            · exact absurd h h4
            · exact absurd h h3
  · intro envid value srcva perm e he hrecv hsrc hperm
    have hup : perm &&& PTE_U = 0 ∨ perm &&& PTE_P = 0 ∨
        (perm &&& PTE_U ≠ 0 ∧ perm &&& PTE_P ≠ 0) := by
      by_cases h1 : perm &&& PTE_U = 0
      · exact Or.inl h1
      · by_cases h2 : perm &&& PTE_P = 0
        · exact Or.inr (Or.inl h2)
        · exact Or.inr (Or.inr ⟨h1, h2⟩)
    have hbits : perm &&& PTE_U ≠ 0 → perm &&& PTE_P ≠ 0 →
        perm &&& (PTE_U ||| PTE_P) = PTE_U ||| PTE_P := by
      intro h1 h2
      apply Nat.eq_of_testBit_eq
      intro i
      have t1 : ∀ j, (perm &&& PTE_U).testBit j = (perm.testBit j && decide (j = 2)) := by
        intro j
        rw [Nat.testBit_and]
        have : PTE_U = 2 ^ 2 := rfl
        rw [this, Nat.testBit_two_pow]
        by_cases hj : j = 2 <;> simp [hj, eq_comm]
      have t2 : ∀ j, (perm &&& PTE_P).testBit j = (perm.testBit j && decide (j = 0)) := by
        intro j
        rw [Nat.testBit_and]
        have : PTE_P = 2 ^ 0 := rfl
        rw [this, Nat.testBit_two_pow]
        by_cases hj : j = 0 <;> simp [hj, eq_comm]
      have b2 : perm.testBit 2 = true := by
        by_contra hb
        apply h1
        apply Nat.eq_of_testBit_eq
        intro j
        rw [t1 j]
        by_cases hj : j = 2
        · subst hj
          simp [hb]
        · simp [hj]
      have b0 : perm.testBit 0 = true := by
        by_contra hb
        apply h2
        apply Nat.eq_of_testBit_eq
        intro j
        rw [t2 j]
        by_cases hj : j = 0
        · subst hj
          simp [hb]
        · simp [hj]
      rw [Nat.testBit_and]
      have hor : ∀ j, (PTE_U ||| PTE_P).testBit j = (decide (j = 2) || decide (j = 0)) := by
        intro j
        rw [Nat.testBit_or]
        have e1 : PTE_U = 2 ^ 2 := rfl
        have e2 : PTE_P = 2 ^ 0 := rfl
        rw [e1, e2, Nat.testBit_two_pow, Nat.testBit_two_pow]
        by_cases hj2 : j = 2 <;> by_cases hj0 : j = 0 <;> simp [hj2, hj0, eq_comm]
      rw [hor i]
      by_cases hi2 : i = 2
      · subst hi2
        simp [b2]
      · by_cases hi0 : i = 0
        · subst hi0
          simp [b0]
        · simp [hi2, hi0]
    have htr : ipc_transfer st cpu e srcva perm = some (-E_INVAL, st) := by
      unfold ipc_transfer
      split
      · rfl
      · split
        · rfl
        · rename_i h2
          split
          · rfl
          · rename_i h3
            exfalso
            rcases hperm with h | h
            · apply h
              apply hbits
              · exact fun h0 => h2 (Or.inl h0)
              · exact fun h0 => h2 (Or.inr h0)
            · exact h3 h
    unfold sys_ipc_try_send
    rw [he]
    simp only
    rw [if_neg (by decide), if_neg (by rw [hrecv]; decide), if_pos hsrc, htr]
    simp only
    rw [if_pos (by decide)]

/-- C15, evaluated at the failing inputs. On `two_running`, environment 0
calls `sys_page_alloc(0, 0, PTE_W)`: the result is 0 and address 0 is mapped
(to frame 6 with `PTE_U | PTE_W | PTE_P`). It calls
`sys_page_alloc(0, 0, 0x1007)`: the result is 0, the leaf entry is `0x7007`,
and address 0 maps frame 7, the page directory the same call allocated,
and not the zero-filled frame 6. -/
theorem sys_page_alloc_takes_bad_perm :
    PTE_W &&& (PTE_U ||| PTE_P) ≠ PTE_U ||| PTE_P ∧
    alloc_no_user.map (fun r => r.1) = some 0 ∧
    alloc_no_user.bind (fun r => page_lookup r.2 2 0) = some (some (6, (8, 0))) ∧
    alloc_no_user.map (fun r => r.2.mem 8 0) = some 0x6007 ∧
    0x1007 &&& (2 ^ 32 - 1 - PTE_SYSCALL) ≠ 0 ∧
    alloc_high_bit.map (fun r => r.1) = some 0 ∧
    alloc_high_bit.map (fun r => r.2.mem 8 0) = some 0x7007 ∧
    alloc_high_bit.bind (fun r => page_lookup r.2 2 0) = some (some (7, (8, 0))) ∧
    alloc_high_bit.map (fun r => r.2.mem 3 0) = some 0x7007 := by
  refine ⟨by decide, by decide, by decide, by decide, by decide, by decide, by decide,
    by decide, by decide⟩

/-- C16, evaluated at the failing input. On `two_running`, whose first free
frame is 6, environment 0 calls `sys_page_alloc(0, 0, 0x1007)`: the result is
0, and address 0 maps frame 7, which is not zero-filled (its slot 0 holds the
entry of the page table) and is the page directory of the environment; the
low twelve bits of the leaf entry are `0x007`, not `0x1007`. Frame 6 has
count 1 and is not what address 0 maps. -/
theorem sys_page_alloc_maps_other_frame :
    two_running.page_free_list = some 6 ∧
    alloc_high_bit.map (fun r => r.1) = some 0 ∧
    alloc_high_bit.bind (fun r => page_lookup r.2 2 0) = some (some (7, (8, 0))) ∧
    alloc_high_bit.map (fun r => r.2.mem 7 0) = some 0x8007 ∧
    alloc_high_bit.map (fun r => r.2.mem 8 0 &&& 0xFFF) = some 0x007 ∧
    0x1007 ||| PTE_U ||| PTE_P = 0x1007 ∧
    alloc_high_bit.map (fun r => (r.2.pages 6).pp_ref) = some 1 ∧
    alloc_high_bit.map (fun r => r.2.page_free_list) = some (some 9) := by
  refine ⟨by decide, by decide, by decide, by decide, by decide, by decide, by decide,
    by decide⟩

/-! ## `sys_page_map` -/

/-- C17. In a call of `sys_page_map` whose ids resolve, whose addresses are
page-aligned and below `UTOP` and whose `perm` is valid, the result is
`-E_INVAL` and the state is unchanged when `srcva` is not mapped in the source
address space, and when `perm` has `PTE_W` while the leaf entry of `srcva`
has not. -/
theorem no_write_escalation (lg : Nat) (st : Kernel)
    (cpu srcenvid srcva dstenvid dstva perm srcenv srcroot : Nat) (r1 r2 : Int)
    (dst : Option Nat)
    (hsrc : envid2env lg st cpu srcenvid true = some (r1, some srcenv)) (hr1 : 0 ≤ r1)
    (hdst : envid2env lg st cpu dstenvid true = some (r2, dst)) (hr2 : 0 ≤ r2)
    (hsa : srcva % PGSIZE = 0) (hda : dstva % PGSIZE = 0) (hsu : srcva < UTOP)
    (hdu : dstva < UTOP) (hp1 : perm &&& (2 ^ 32 - 1 - PTE_SYSCALL) = 0)
    (hp2 : perm &&& (PTE_U ||| PTE_P) = PTE_U ||| PTE_P)
    (hroot : (st.envs srcenv).env_pml4e = some srcroot) :
    (page_lookup st srcroot srcva = some none →
      sys_page_map lg st cpu srcenvid srcva dstenvid dstva perm = some (-E_INVAL, st)) ∧
    (∀ p pt i, page_lookup st srcroot srcva = some (some (p, (pt, i))) →
      perm &&& PTE_W ≠ 0 → st.mem pt i &&& PTE_W = 0 →
      sys_page_map lg st cpu srcenvid srcva dstenvid dstva perm = some (-E_INVAL, st)) := by
  constructor
  · intro hl
    unfold sys_page_map
    simp only [hsrc, hdst]
    rw [if_neg (by omega), if_neg (by omega), if_neg (by omega), if_neg (by omega),
      if_neg (by rw [hp1]; simp), if_neg (by rw [hp2]; simp)]
    simp only [hroot, hl]
  · intro p pt i hl hw hro
    unfold sys_page_map
    simp only [hsrc, hdst]
    rw [if_neg (by omega), if_neg (by omega), if_neg (by omega), if_neg (by omega),
      if_neg (by rw [hp1]; simp), if_neg (by rw [hp2]; simp)]
    simp only [hroot, hl]
    rw [if_pos ⟨hw, hro⟩]

/-- On `mapped_ro`, environment 0 asks for a writable copy of its read-only
page `0x1000`, and for a copy of the unmapped page `0x3000`. -/
theorem no_write_escalation_witness :
    envid2env 1 mapped_ro 0 0 true = some (0, some 0) ∧
    page_lookup mapped_ro 2 0x1000 = some (some (6, (8, 1))) ∧
    mapped_ro.mem 8 1 &&& PTE_W = 0 ∧
    page_lookup mapped_ro 2 0x3000 = some none ∧
    sys_page_map 1 mapped_ro 0 0 0x1000 0 0x2000 (PTE_U ||| PTE_P ||| PTE_W) =
      some (-E_INVAL, mapped_ro) ∧
    sys_page_map 1 mapped_ro 0 0 0x3000 0 0x2000 (PTE_U ||| PTE_P ||| PTE_W) =
      some (-E_INVAL, mapped_ro) :=
  ⟨by decide, by decide, by decide, by decide,
    (no_write_escalation 1 mapped_ro 0 0 0x1000 0 0x2000 (PTE_U ||| PTE_P ||| PTE_W) 0 2 0 0
      (some 0) (by decide) (le_refl 0) (by decide) (le_refl 0) (by decide) (by decide)
      (by decide) (by decide) (by decide) (by decide) (by decide)).2 6 8 1 (by decide)
      (by decide) (by decide),
    (no_write_escalation 1 mapped_ro 0 0 0x3000 0 0x2000 (PTE_U ||| PTE_P ||| PTE_W) 0 2 0 0
      (some 0) (by decide) (le_refl 0) (by decide) (le_refl 0) (by decide) (by decide)
      (by decide) (by decide) (by decide) (by decide) (by decide)).1 (by decide)⟩

/-! ## The walk, level by level -/

theorem pml4e_walk_eq (st : Kernel) (root va : Nat) (create : Bool) :
    pml4e_walk st root va create =
      (walk_from create [PML4X va, PDPX va, PDX va] st root).map
        (fun r => (r.1, r.2.map (fun pt => (pt, PTX va)))) := by
  unfold pml4e_walk
  simp only [walk_from]
  cases h1 : walk_level st root (PML4X va) create with
  | none => rfl
  | some r1 =>
    obtain ⟨s1, t1⟩ := r1
    cases t1 with
    | none => rfl
    | some a =>
      simp only
      cases h2 : walk_level s1 a (PDPX va) create with
      | none => rfl
      | some r2 =>
        obtain ⟨s2, t2⟩ := r2
        cases t2 with
        | none => rfl
        | some b =>
          simp only
          cases h3 : walk_level s2 b (PDX va) create with
          | none => rfl
          | some r3 =>
            obtain ⟨s3, t3⟩ := r3
            cases t3 with
            | none => rfl
            | some pt => rfl

theorem walk_level_false (st : Kernel) (tbl idx : Nat) :
    walk_level st tbl idx false =
      if present (st.mem tbl idx) then
        (KADDR st (PTE_ADDR (st.mem tbl idx))).map (fun t => (st, some t))
      else some (st, none) := by
  unfold walk_level
  split
  · rfl
  · rfl

theorem walk_from_false (idxs : List Nat) :
    ∀ (st : Kernel) (tbl : Nat),
      walk_from false idxs st tbl = (leaf_from st idxs tbl).map (fun r => (st, r)) := by
  induction idxs with
  | nil => intro st tbl; rfl
  | cons idx rest ih =>
    intro st tbl
    simp only [walk_from, leaf_from, walk_level_false]
    by_cases hp : present (st.mem tbl idx) = true
    · rw [if_pos hp, if_pos hp]
      cases hk : KADDR st (PTE_ADDR (st.mem tbl idx)) with
      | none => rfl
      | some t =>
        simp only [Option.map_some']
        exact ih st t
    · rw [if_neg hp, if_neg hp]
      rfl

theorem page_lookup_eq (st : Kernel) (root va : Nat) :
    page_lookup st root va =
      match leaf_from st [PML4X va, PDPX va, PDX va] root with
      | none => none
      | some none => some none
      | some (some pt) =>
        if present (st.mem pt (PTX va)) then
          (pa2page st (PTE_ADDR (st.mem pt (PTX va)))).map (fun pp => some (pp, (pt, PTX va)))
        else some none := by
  unfold page_lookup
  rw [pml4e_walk_eq, walk_from_false]
  cases leaf_from st [PML4X va, PDPX va, PDX va] root with
  | none => rfl
  | some r =>
    cases r with
    | none => rfl
    | some pt => rfl

theorem KADDR_npages {st st' : Kernel} (h : st'.npages = st.npages) (pa : Nat) :
    KADDR st' pa = KADDR st pa := by
  unfold KADDR
  rw [h]

theorem pa2page_npages {st st' : Kernel} (h : st'.npages = st.npages) (pa : Nat) :
    pa2page st' pa = pa2page st pa := by
  unfold pa2page
  rw [h]

/-- The descent only depends on the entries it reads. -/
theorem leaf_from_congr {st st' : Kernel} (hn : st'.npages = st.npages) (idxs : List Nat) :
    ∀ tbl, (∀ c, c ∈ cells_from st idxs tbl → st'.mem c.1 c.2 = st.mem c.1 c.2) →
      leaf_from st' idxs tbl = leaf_from st idxs tbl ∧
      cells_from st' idxs tbl = cells_from st idxs tbl := by
  induction idxs with
  | nil => intro tbl _; exact ⟨rfl, rfl⟩
  | cons idx rest ih =>
    intro tbl hc
    have h0 : st'.mem tbl idx = st.mem tbl idx := hc (tbl, idx) (by simp [cells_from])
    simp only [leaf_from, cells_from, h0, KADDR_npages hn]
    by_cases hp : present (st.mem tbl idx) = true
    · simp only [if_pos hp]
      cases hk : KADDR st (PTE_ADDR (st.mem tbl idx)) with
      | none => exact ⟨rfl, rfl⟩
      | some t =>
        have := ih t (fun c hcm => hc c (by simp [cells_from, hp, hk, hcm]))
        simp only
        exact ⟨this.1, by rw [this.2]⟩
    · simp only [if_neg hp]
      exact ⟨trivial, trivial⟩

/-- The entries read with one more index: the shorter descent's, and the
entry of the table it reaches. -/
theorem cells_from_append (st : Kernel) (x : Nat) (idxs : List Nat) :
    ∀ tbl, (∀ c, c ∈ cells_from st idxs tbl → c ∈ cells_from st (idxs ++ [x]) tbl) ∧
      (∀ pt, leaf_from st idxs tbl = some (some pt) →
        (pt, x) ∈ cells_from st (idxs ++ [x]) tbl) := by
  induction idxs with
  | nil =>
    intro tbl
    refine ⟨fun c hc => by simp [cells_from] at hc, fun pt h => ?_⟩
    simp only [leaf_from, Option.some.injEq] at h
    subst h
    simp [cells_from]
  | cons idx rest ih =>
    intro tbl
    simp only [List.cons_append, cells_from, leaf_from]
    by_cases hp : present (st.mem tbl idx) = true
    · simp only [if_pos hp]
      cases hk : KADDR st (PTE_ADDR (st.mem tbl idx)) with
      | none =>
        refine ⟨fun c hc => hc, fun pt h => ?_⟩
        simp at h
      | some t =>
        simp only
        refine ⟨fun c hc => ?_, fun pt h => ?_⟩
        · rcases List.mem_cons.mp hc with h | h
          · exact List.mem_cons.mpr (Or.inl h)
          · exact List.mem_cons.mpr (Or.inr ((ih t).1 c h))
        · exact List.mem_cons.mpr (Or.inr ((ih t).2 pt h))
    · simp only [if_neg hp]
      refine ⟨fun c hc => hc, fun pt h => ?_⟩
      simp at h

/-- The lookup only depends on the entries it reads. -/
theorem page_lookup_congr {st st' : Kernel} (hn : st'.npages = st.npages) (root va : Nat)
    (hc : ∀ c, c ∈ walk_cells st root va → st'.mem c.1 c.2 = st.mem c.1 c.2) :
    page_lookup st' root va = page_lookup st root va := by
  have happ := cells_from_append st (PTX va) [PML4X va, PDPX va, PDX va] root
  have h3 := leaf_from_congr hn [PML4X va, PDPX va, PDX va] root
    (fun c hcm => hc c (happ.1 c hcm))
  rw [page_lookup_eq, page_lookup_eq, h3.1]
  cases hl : leaf_from st [PML4X va, PDPX va, PDX va] root with
  | none => rfl
  | some r =>
    cases r with
    | none => rfl
    | some pt =>
      have hcell := hc (pt, PTX va) (happ.2 pt hl)
      simp only at hcell
      simp only [hcell, pa2page_npages hn]

/-- One level of the walk with `create`: the entry was present and nothing
changed, or it was absent and the head `t` of the free list became the new
table, zero-filled, with its entry stored in `tbl[idx]`. -/
theorem walk_level_create {s s1 : Kernel} {l : List Nat} {tbl idx t : Nat}
    (hl : PageList s l) (hnp : s.npages ≤ 2 ^ 52) (hfb : ∀ f, f ∈ l → f < s.npages)
    (htbl : tbl ∉ l) (h : walk_level s tbl idx true = some (s1, some t)) :
    (present (s.mem tbl idx) = true ∧ s1 = s ∧
      KADDR s (PTE_ADDR (s.mem tbl idx)) = some t) ∨
    (present (s.mem tbl idx) = false ∧ ∃ xs, l = t :: xs ∧ PageList s1 xs ∧
      s1.npages = s.npages ∧ (∀ j, s1.mem t j = 0) ∧
      (∀ f j, f ≠ t → (f, j) ≠ (tbl, idx) → s1.mem f j = s.mem f j) ∧
      present (s1.mem tbl idx) = true ∧ KADDR s1 (PTE_ADDR (s1.mem tbl idx)) = some t ∧
      (∀ f, f ≠ t → s1.pages f = s.pages f)) := by
  by_cases hp : present (s.mem tbl idx) = true
  · left
    unfold walk_level at h
    rw [if_pos hp] at h
    simp only [Option.map_eq_some'] at h
    obtain ⟨t1, hk, ht⟩ := h
    cases ht
    exact ⟨hp, rfl, hk⟩
  · right
    have hpf : present (s.mem tbl idx) = false := by
      cases hb : present (s.mem tbl idx)
      · rfl
      · exact absurd hb hp
    refine ⟨hpf, ?_⟩
    unfold walk_level at h
    rw [if_neg hp, if_neg (by decide)] at h
    rcases pageList_page_alloc ALLOC_ZERO hl with ⟨_, h2, _⟩ | ⟨p, xs, h1, h2, h3⟩
    · split at h
      · cases h
      · rename_i s0 pp heq
        rw [heq] at h2
        cases h2
    · have hhead : s.page_free_list = some p := by
        have := hl.1
        rw [h1] at this
        exact this.1
      have hstate := page_alloc_zero_some s p hhead
      rw [hstate] at h
      simp only [Option.map_eq_some'] at h
      obtain ⟨t1, hk, ht⟩ := h
      simp only [Prod.mk.injEq, Option.some.injEq] at ht
      obtain ⟨hs1, ht1⟩ := ht
      subst ht1
      have hpl : p < s.npages := hfb p (by rw [h1]; exact List.mem_cons_self _ _)
      have hp52 : p < 2 ^ 52 := by omega
      have hne : t1 ≠ tbl ∨ True := Or.inr trivial
      have hptbl : p ≠ tbl := fun e => htbl (by rw [h1, ← e]; exact List.mem_cons_self _ _)
      have hent7 : page2pa p ||| PTE_P ||| PTE_W ||| PTE_U = page2pa p ||| 7 := by
        rw [Nat.lor_assoc, Nat.lor_assoc]
        rfl
      have hentry : PTE_ADDR (page2pa p ||| PTE_P ||| PTE_W ||| PTE_U) = page2pa p := by
        rw [hent7]
        exact PTE_ADDR_entry p 7 hp52 (by norm_num)
      simp only [write_mem, Function.update_same] at hk
      rw [hentry] at hk
      have hk2 : KADDR s (page2pa p) = some p := KADDR_page2pa s p hpl
      have hkeq : t1 = p := by
        have hk3 : KADDR s (page2pa p) = some t1 := by
          rw [← hk]
          unfold KADDR
          rfl
        rw [hk2] at hk3
        cases hk3
        rfl
      subst hkeq
      have h3' : PageList (page_alloc s ALLOC_ZERO).1 xs := h3
      rw [hstate] at h3'
      have hpx : t1 ∉ xs := by
        have hnd := hl.2.1
        rw [h1] at hnd
        exact (List.nodup_cons.mp hnd).1
      subst hs1
      refine ⟨xs, h1, pageList_write _ _ _ (pageList_incref t1 h3' hpx), rfl, ?_, ?_, ?_, ?_, ?_⟩
      · intro j
        simp only [write_mem, incref_mem]
        rw [Function.update_noteq hptbl, Function.update_same]
      · intro f j hf hfj
        simp only [write_mem, incref_mem]
        by_cases hft : f = tbl
        · subst hft
          rw [Function.update_same]
          have hj : j ≠ idx := fun e => hfj (by rw [e])
          rw [Function.update_noteq hj, Function.update_noteq hf]
        · rw [Function.update_noteq hft, Function.update_noteq hf]
      · simp only [write_mem, Function.update_same]
        rw [hent7]
        exact present_entry _ 7 (by decide)
      · simp only [write_mem, Function.update_same]
        rw [hentry]
        exact hk2
      · intro f hf
        simp only [write_pages, incref, setPage_pages]
        rw [Function.update_noteq hf]
        simp only [Function.update_noteq hf]

theorem present_zero : present 0 = false := by decide

theorem cells_from_zero {st : Kernel} {t : Nat} (hz : ∀ j, st.mem t j = 0) (idxs : List Nat) :
    ∀ c, c ∈ cells_from st idxs t → c.1 = t := by
  cases idxs with
  | nil => intro c hc; simp [cells_from] at hc
  | cons idx rest =>
    intro c hc
    simp only [cells_from, hz, present_zero, Bool.false_eq_true, if_false,
      List.mem_singleton] at hc
    rw [hc]

theorem leaf_from_zero {st : Kernel} {t pt : Nat} (hz : ∀ j, st.mem t j = 0) (idxs : List Nat)
    (h : leaf_from st idxs t = some (some pt)) : pt = t := by
  cases idxs with
  | nil =>
    simp only [leaf_from, Option.some.injEq] at h
    exact h.symm
  | cons idx rest =>
    simp only [leaf_from, hz, present_zero, Bool.false_eq_true, if_false,
      Option.some.injEq] at h
    cases h

/-- The walk with `create` from `tbl` through `idxs`, in a state whose page
free list is `l` and in which no table on the existing path is free: the
path exists afterwards and ends in the table returned; the free list lost
the frames of the new tables; entries that were present in frames that were
not free, and the descriptors of such frames, are unchanged; and either
nothing changed, or the table returned is new and zero-filled. -/
theorem walk_from_create (x : Nat) (idxs : List Nat) :
    ∀ (s : Kernel) (l : List Nat) (tbl : Nat) (s' : Kernel) (pt : Nat),
      PageList s l → s.npages ≤ 2 ^ 52 → (∀ f, f ∈ l → f < s.npages) →
      (∀ c, c ∈ cells_from s (idxs ++ [x]) tbl → c.1 ∉ l) →
      ((cells_from s (idxs ++ [x]) tbl).map (fun c => c.1)).Nodup →
      walk_from true idxs s tbl = some (s', some pt) →
      ∃ l', PageList s' l' ∧ (∀ f, f ∈ l' → f ∈ l) ∧ s'.npages = s.npages ∧
        leaf_from s' idxs tbl = some (some pt) ∧
        (∀ f j, f ∉ l → present (s.mem f j) = true → s'.mem f j = s.mem f j) ∧
        (∀ f, f ∉ l → s'.pages f = s.pages f) ∧
        (∀ c, c ∈ cells_from s' (idxs ++ [x]) tbl →
          c.1 ∉ l' ∧ (c.1 ∈ l ∨ c.1 ∈ (cells_from s (idxs ++ [x]) tbl).map (fun c => c.1))) ∧
        ((cells_from s' (idxs ++ [x]) tbl).map (fun c => c.1)).Nodup ∧
        (s' = s ∨ (pt ∈ l ∧ ∀ j, s'.mem pt j = 0)) := by
  induction idxs with
  | nil =>
    intro s l tbl s' pt hl _ _ hcells hnd h
    simp only [walk_from, Option.some.injEq, Prod.mk.injEq] at h
    obtain ⟨h1, h2⟩ := h
    subst h1 h2
    refine ⟨l, hl, fun _ hf => hf, rfl, rfl, fun _ _ _ _ => rfl, fun _ _ => rfl, ?_, hnd,
      Or.inl rfl⟩
    intro c hc
    exact ⟨hcells c hc, Or.inr (List.mem_map.mpr ⟨c, hc, rfl⟩)⟩
  | cons idx rest ih =>
    intro s l tbl s' pt hl hnp hfb hcells hnd h
    have htbl : tbl ∉ l := hcells (tbl, idx) (by simp [cells_from])
    simp only [walk_from] at h
    split at h
    · cases h
    · cases h
    · rename_i s1 t hlev
      rcases walk_level_create hl hnp hfb htbl hlev with ⟨hp, hs1, hk⟩ |
        ⟨hp, xs, hlx, hl1, hn1, hz, hmem1, hp1, hk1, hpages1⟩
      · subst hs1
        have hcs : cells_from s1 ((idx :: rest) ++ [x]) tbl =
            (tbl, idx) :: cells_from s1 (rest ++ [x]) t := by
          rw [List.cons_append]
          simp only [cells_from, hp, if_true, hk]
        rw [hcs, List.map_cons, List.nodup_cons] at hnd
        obtain ⟨l', hl', hsub, hn', hleaf, hF, hpg, hG, hnd', hdisj⟩ :=
          ih s1 l t s' pt hl hnp hfb
            (fun c hc => hcells c (by rw [hcs]; exact List.mem_cons_of_mem _ hc)) hnd.2 h
        have hcell : s'.mem tbl idx = s1.mem tbl idx := hF tbl idx htbl hp
        have hcs' : cells_from s' ((idx :: rest) ++ [x]) tbl =
            (tbl, idx) :: cells_from s' (rest ++ [x]) t := by
          rw [List.cons_append]
          simp only [cells_from, hcell, hp, if_true, KADDR_npages hn', hk]
        refine ⟨l', hl', hsub, hn', ?_, hF, hpg, ?_, ?_, hdisj⟩
        · simp only [leaf_from, hcell, hp, if_true, KADDR_npages hn', hk]
          exact hleaf
        · intro c hc
          rw [hcs'] at hc
          rw [hcs]
          rcases List.mem_cons.mp hc with e | hm
          · subst e
            exact ⟨fun hm => htbl (hsub _ hm), Or.inr (by simp)⟩
          · obtain ⟨g1, g2⟩ := hG c hm
            refine ⟨g1, ?_⟩
            rcases g2 with g | g
            · exact Or.inl g
            · exact Or.inr (by
                rw [List.map_cons]
                exact List.mem_cons_of_mem _ g)
        · rw [hcs', List.map_cons, List.nodup_cons]
          refine ⟨?_, hnd'⟩
          intro hm
          obtain ⟨c', hc', e⟩ := List.mem_map.mp hm
          rcases (hG c' hc').2 with g | g
          · rw [e] at g
            exact htbl g
          · rw [e] at g
            exact hnd.1 g
      · have hnd : (t :: xs).Nodup := hlx ▸ hl.2.1
        have htx : t ∉ xs := (List.nodup_cons.mp hnd).1
        have htl : t ∈ l := by rw [hlx]; exact List.mem_cons_self _ _
        have hxl : ∀ f, f ∈ xs → f ∈ l := fun f hf => by
          rw [hlx]
          exact List.mem_cons_of_mem _ hf
        have hcs : cells_from s ((idx :: rest) ++ [x]) tbl = [(tbl, idx)] := by
          rw [List.cons_append]
          simp only [cells_from, hp, Bool.false_eq_true, if_false]
        have hnd1 : ((cells_from s1 (rest ++ [x]) t).map (fun c => c.1)).Nodup := by
          cases hrx : rest ++ [x] with
          | nil => simp [cells_from]
          | cons y ys =>
            simp only [cells_from, hz, present_zero, Bool.false_eq_true, if_false,
              List.map_cons, List.map_nil]
            exact List.nodup_singleton _
        obtain ⟨l', hl', hsub, hn', hleaf, hF, hpg, hG, hnd', hdisj⟩ :=
          ih s1 xs t s' pt hl1 (by rw [hn1]; exact hnp)
            (fun f hf => by rw [hn1]; exact hfb f (hxl f hf))
            (fun c hc => by rw [cells_from_zero hz _ c hc]; exact htx) hnd1 h
        have htbx : tbl ∉ xs := fun hm => htbl (hxl _ hm)
        have hcell : s'.mem tbl idx = s1.mem tbl idx := hF tbl idx htbx hp1
        have hcs2 : cells_from s' ((idx :: rest) ++ [x]) tbl =
            (tbl, idx) :: cells_from s' (rest ++ [x]) t := by
          rw [List.cons_append]
          simp only [cells_from, hcell, hp1, if_true, KADDR_npages hn', hk1]
        refine ⟨l', hl', fun f hf => hxl f (hsub f hf), hn'.trans hn1, ?_, ?_, ?_, ?_, ?_, ?_⟩
        · simp only [leaf_from, hcell, hp1, if_true, KADDR_npages hn', hk1]
          exact hleaf
        · intro f j hf hpres
          have hft : f ≠ t := fun e => hf (e ▸ htl)
          have hfj : (f, j) ≠ (tbl, idx) := by
            intro e
            simp only [Prod.mk.injEq] at e
            rw [e.1, e.2, hp] at hpres
            cases hpres
          have e1 : s1.mem f j = s.mem f j := hmem1 f j hft hfj
          rw [← e1]
          exact hF f j (fun hm => hf (hxl f hm)) (by rw [e1]; exact hpres)
        · intro f hf
          have hft : f ≠ t := fun e => hf (e ▸ htl)
          rw [hpg f (fun hm => hf (hxl f hm)), hpages1 f hft]
        · intro c hc
          have hcs' : cells_from s' ((idx :: rest) ++ [x]) tbl =
              (tbl, idx) :: cells_from s' (rest ++ [x]) t := by
            rw [List.cons_append]
            simp only [cells_from, hcell, hp1, if_true, KADDR_npages hn', hk1]
          rw [hcs'] at hc
          rw [hcs]
          rcases List.mem_cons.mp hc with e | hm
          · subst e
            exact ⟨fun hm => htbx (hsub _ hm), Or.inr (by simp)⟩
          · obtain ⟨g1, g2⟩ := hG c hm
            refine ⟨g1, Or.inl ?_⟩
            rcases g2 with g | g
            · exact hxl _ g
            · obtain ⟨c', hc', e⟩ := List.mem_map.mp g
              rw [← e, cells_from_zero hz _ c' hc']
              exact htl
        · rw [hcs2, List.map_cons, List.nodup_cons]
          refine ⟨?_, hnd'⟩
          intro hm
          obtain ⟨c', hc', e⟩ := List.mem_map.mp hm
          rcases (hG c' hc').2 with g | g
          · rw [e] at g
            exact htbx g
          · obtain ⟨c2, hc2, e2⟩ := List.mem_map.mp g
            rw [e, cells_from_zero hz _ c2 hc2] at e2
            have hbt : t = tbl := e2
            exact htbl (hbt ▸ htl)
        · right
          rcases hdisj with e | ⟨g1, g2⟩
          · subst e
            have := leaf_from_zero hz rest hleaf
            subst this
            exact ⟨htl, hz⟩
          · exact ⟨hxl _ g1, g2⟩

theorem page_decref_effect {st st' : Kernel} {pp : Nat} (h : page_decref st pp = some st') :
    st'.mem = st.mem ∧ st'.npages = st.npages ∧
    (st'.pages pp).pp_ref = (65535 + (st.pages pp).pp_ref) % 65536 ∧
    ∀ f, f ≠ pp → st'.pages f = st.pages f := by
  unfold page_decref at h
  simp only at h
  split at h
  · rename_i hr
    unfold page_free at h
    split at h
    · cases h
    · cases h
      refine ⟨rfl, rfl, ?_, ?_⟩
      · simp only [setPage_pages, Function.update_same]
      · intro f hf
        simp only [setPage_pages, Function.update_noteq hf]
  · cases h
    refine ⟨rfl, rfl, ?_, ?_⟩
    · simp only [setPage_pages, Function.update_same]
    · intro f hf
      simp only [setPage_pages, Function.update_noteq hf]

/-- On a complete descent every entry read is present. -/
theorem leaf_from_present (st : Kernel) (idxs : List Nat) :
    ∀ tbl pt, leaf_from st idxs tbl = some (some pt) →
      (∀ c, c ∈ cells_from st idxs tbl → present (st.mem c.1 c.2) = true) ∧
      ∀ x, cells_from st (idxs ++ [x]) tbl = cells_from st idxs tbl ++ [(pt, x)] := by
  induction idxs with
  | nil =>
    intro tbl pt h
    simp only [leaf_from, Option.some.injEq] at h
    subst h
    refine ⟨fun c hc => by simp [cells_from] at hc, fun x => ?_⟩
    simp only [List.nil_append, cells_from]
    split
    · split <;> rfl
    · rfl
  | cons idx rest ih =>
    intro tbl pt h
    simp only [leaf_from] at h
    by_cases hp : present (st.mem tbl idx) = true
    · rw [if_pos hp] at h
      cases hk : KADDR st (PTE_ADDR (st.mem tbl idx)) with
      | none =>
        rw [hk] at h
        cases h
      | some t =>
        rw [hk] at h
        obtain ⟨h1, h2⟩ := ih t pt h
        constructor
        · intro c hc
          simp only [cells_from, hp, if_true, hk] at hc
          rcases List.mem_cons.mp hc with e | hm
          · rw [e]
            exact hp
          · exact h1 c hm
        · intro x
          rw [List.cons_append]
          simp only [cells_from, hp, if_true, hk, h2 x, List.cons_append]
    · rw [if_neg hp] at h
      cases h

theorem sext64_small (perm : Nat) (h : perm < 2 ^ 12) : sext64 perm = perm := by
  unfold sext64
  have h1 : perm % 2 ^ 32 = perm := Nat.mod_eq_of_lt (by omega)
  rw [h1, if_pos (by omega)]

theorem lor_lt_two_pow12 (a b : Nat) (ha : a < 2 ^ 12) (hb : b < 2 ^ 12) : a ||| b < 2 ^ 12 :=
  Nat.or_lt_two_pow ha hb

/-- The entry `page_insert` writes, for flags within the low twelve bits:
its frame is `pp` and it is present. -/
theorem insert_entry (st : Kernel) (pp perm : Nat) (hpp : pp < st.npages)
    (hnp : st.npages ≤ 2 ^ 52) (hperm : perm < 2 ^ 12) :
    page2pa pp ||| sext64 perm ||| PTE_P = page2pa pp ||| perm ||| PTE_P ∧
    present (page2pa pp ||| sext64 perm ||| PTE_P) = true ∧
    pa2page st (PTE_ADDR (page2pa pp ||| sext64 perm ||| PTE_P)) = some pp := by
  rw [sext64_small perm hperm]
  refine ⟨rfl, present_entry _ PTE_P (by decide), ?_⟩
  rw [Nat.lor_assoc, PTE_ADDR_entry pp (perm ||| PTE_P) (by omega)
    (lor_lt_two_pow12 _ _ hperm (by decide))]
  unfold pa2page
  rw [PGNUM_page2pa, if_neg (by omega)]

/-- What `page_insert` does after its walk returned the leaf entry
`(pt, PTX va)`: the entry is overwritten, no other word of memory changes,
and the count of `pp` is incremented, and decremented again when the entry
was present and mapped `pp`. -/
theorem page_insert_tail {st st1 st' : Kernel} {root pp va perm pt : Nat}
    (hw : pml4e_walk st root va true = some (st1, some (pt, PTX va)))
    (hleaf : leaf_from st1 [PML4X va, PDPX va, PDX va] root = some (some pt))
    (h : page_insert st root pp va perm = some (0, st')) :
    st'.npages = st1.npages ∧
    st'.mem pt (PTX va) = page2pa pp ||| sext64 perm ||| PTE_P ∧
    (∀ f j, (f, j) ≠ (pt, PTX va) → st'.mem f j = st1.mem f j) ∧
    ((present (st1.mem pt (PTX va)) = true ∧
        ∃ q, page_lookup st1 root va = some (some (q, (pt, PTX va))) ∧
          (st'.pages pp).pp_ref =
            if q = pp then (65535 + ((st1.pages pp).pp_ref + 1) % 65536) % 65536
            else ((st1.pages pp).pp_ref + 1) % 65536) ∨
      (present (st1.mem pt (PTX va)) = false ∧ page_lookup st1 root va = some none ∧
        (st'.pages pp).pp_ref = ((st1.pages pp).pp_ref + 1) % 65536)) := by
  have hwrite : ∀ (s : Kernel) (v : Nat) (f j : Nat), (f, j) ≠ (pt, PTX va) →
      (s.write pt (PTX va) v).mem f j = s.mem f j := by
    intro s v f j hfj
    simp only [write_mem]
    by_cases hf : f = pt
    · subst hf
      have hj : j ≠ PTX va := fun e => hfj (by rw [e])
      rw [Function.update_same, Function.update_noteq hj]
    · rw [Function.update_noteq hf]
  have href2 : ((incref st1 pp).pages pp).pp_ref = ((st1.pages pp).pp_ref + 1) % 65536 := by
    simp only [incref, setPage_pages, Function.update_same]
  unfold page_insert at h
  rw [hw] at h
  simp only at h
  by_cases hpres : present (st1.mem pt (PTX va)) = true
  · have hp2 : present ((incref st1 pp).mem pt (PTX va)) = true := hpres
    rw [if_pos hp2] at h
    have hlook : page_lookup (incref st1 pp) root va = page_lookup st1 root va :=
      @page_lookup_congr st1 (incref st1 pp) rfl root va (fun _ _ => rfl)
    have hl1 : page_lookup st1 root va =
        (pa2page st1 (PTE_ADDR (st1.mem pt (PTX va)))).map
          (fun q => some (q, (pt, PTX va))) := by
      rw [page_lookup_eq, hleaf]
      simp only [hpres, if_true]
    unfold page_remove at h
    rw [hlook, hl1] at h
    cases hq : pa2page st1 (PTE_ADDR (st1.mem pt (PTX va))) with
    | none =>
      rw [hq] at h
      simp at h
    | some q =>
      rw [hq] at h
      simp only [Option.map_some'] at h
      cases hd : page_decref (incref st1 pp) q with
      | none =>
        rw [hd] at h
        simp at h
      | some st3 =>
        rw [hd] at h
        simp only [Option.some.injEq, Prod.mk.injEq, true_and] at h
        obtain ⟨e1, e2, e3, e4⟩ := page_decref_effect hd
        subst h
        refine ⟨e2, ?_, ?_, Or.inl ⟨hpres, q, ?_, ?_⟩⟩
        · simp only [write_mem, Function.update_same]
        · intro f j hfj
          rw [hwrite _ _ f j hfj, hwrite _ _ f j hfj, e1]
          rfl
        · rw [hl1, hq]
          rfl
        · simp only [write_pages]
          by_cases hqp : q = pp
          · subst hqp
            rw [if_pos rfl, e3, href2]
          · rw [if_neg hqp, e4 pp (fun e => hqp e.symm), href2]
  · have hpf : present (st1.mem pt (PTX va)) = false := by
      cases hb : present (st1.mem pt (PTX va))
      · rfl
      · exact absurd hb hpres
    have hp2 : ¬ present ((incref st1 pp).mem pt (PTX va)) = true := hpres
    rw [if_neg hp2] at h
    simp only [Option.some.injEq, Prod.mk.injEq, true_and] at h
    subst h
    refine ⟨rfl, ?_, ?_, Or.inr ⟨hpf, ?_, ?_⟩⟩
    · simp only [write_mem, Function.update_same]
    · intro f j hfj
      rw [hwrite _ _ f j hfj]
      rfl
    · rw [page_lookup_eq, hleaf]
      simp only [hpf, Bool.false_eq_true, if_false]
    · simp only [write_pages]
      exact href2

/-- A successful `page_insert(root, pp, va, perm)`, with `perm` within the
low twelve bits, in a state whose page free list is `l`, where the tables on
the path of `va` are distinct and not free and `pp` is a frame that is not
free: afterwards `va` maps `pp` through a leaf entry `page2pa(pp) | perm |
PTE_P` in a page table `pt` that is new or was the page table of `va`
before; present entries of frames that were not free are unchanged, the leaf
entry apart; the count of `pp` went up by one (16 bits), and down again when
`va` mapped `pp` before. -/
theorem page_insert_spec {st st' : Kernel} {l : List Nat} {root pp va perm : Nat}
    (hl : PageList st l) (hnp : st.npages ≤ 2 ^ 52) (hfb : ∀ f, f ∈ l → f < st.npages)
    (htab : ∀ c, c ∈ walk_cells st root va → c.1 ∉ l)
    (hnd : (walk_tables st root va).Nodup)
    (hpp : pp ∉ l) (hppn : pp < st.npages) (hperm : perm < 2 ^ 12)
    (h : page_insert st root pp va perm = some (0, st')) :
    ∃ pt, (pt ∈ l ∨ leaf_from st [PML4X va, PDPX va, PDX va] root = some (some pt)) ∧
      page_lookup st' root va = some (some (pp, (pt, PTX va))) ∧
      st'.mem pt (PTX va) = page2pa pp ||| perm ||| PTE_P ∧
      st'.npages = st.npages ∧
      (∀ f j, f ∉ l → present (st.mem f j) = true → (f, j) ≠ (pt, PTX va) →
        st'.mem f j = st.mem f j) ∧
      ((∃ slot, page_lookup st root va = some (some (pp, slot))) →
        (st'.pages pp).pp_ref = (65535 + ((st.pages pp).pp_ref + 1) % 65536) % 65536) ∧
      ((∀ slot, page_lookup st root va ≠ some (some (pp, slot))) →
        (st'.pages pp).pp_ref = ((st.pages pp).pp_ref + 1) % 65536) := by
  have h0 := h
  unfold page_insert at h0
  split at h0
  · cases h0
  · simp only [Option.some.injEq, Prod.mk.injEq] at h0
    exact absurd h0.1 (by decide)
  · rename_i st1 pt i hw
    clear h0
    have hw0 := hw
    rw [pml4e_walk_eq] at hw0
    simp only [Option.map_eq_some'] at hw0
    obtain ⟨⟨s1', r1⟩, hwf, he⟩ := hw0
    simp only [Prod.mk.injEq, Option.map_eq_some'] at he
    obtain ⟨hs, pt', hr1, hpt1, hpt2⟩ := he
    subst hs hr1 hpt1 hpt2
    obtain ⟨l1, hl1, hsub, hn1, hleaf1, hF, hpg, hG, hnd1, hdisj⟩ :=
      walk_from_create (PTX va) [PML4X va, PDPX va, PDX va] st l root s1' pt' hl hnp hfb
        htab hnd hwf
    obtain ⟨t1, t2, t3, t4⟩ := page_insert_tail hw hleaf1 h
    obtain ⟨e1, e2, e3⟩ := insert_entry st pp perm hppn hnp hperm
    have hcells1 := (leaf_from_present s1' [PML4X va, PDPX va, PDX va] root pt' hleaf1).2
      (PTX va)
    have hptnot : ∀ c, c ∈ cells_from s1' [PML4X va, PDPX va, PDX va] root → c.1 ≠ pt' := by
      intro c hc hce
      rw [hcells1, List.map_append, List.nodup_append] at hnd1
      refine hnd1.2.2 (List.mem_map.mpr ⟨c, hc, rfl⟩) ?_
      · simp only [List.map_cons, List.map_nil, List.mem_singleton]
        exact hce
    have hleaf' : leaf_from st' [PML4X va, PDPX va, PDX va] root = some (some pt') := by
      rw [← hleaf1]
      refine (leaf_from_congr t1 _ root ?_).1
      intro c hc
      exact t3 c.1 c.2 (fun e => hptnot c hc (by
        simp only [Prod.mk.injEq] at e
        exact e.1))
    have hstleaf : ∀ pp0 slot, page_lookup st root va = some (some (pp0, slot)) →
        leaf_from st [PML4X va, PDPX va, PDX va] root = some (some slot.1) ∧
        slot.1 ∉ l := by
      intro pp0 slot hlk
      rw [page_lookup_eq] at hlk
      cases hlf : leaf_from st [PML4X va, PDPX va, PDX va] root with
      | none =>
        rw [hlf] at hlk
        cases hlk
      | some r =>
        cases r with
        | none =>
          rw [hlf] at hlk
          simp at hlk
        | some pt0 =>
          rw [hlf] at hlk
          simp only at hlk
          split at hlk
          · simp only [Option.map_eq_some'] at hlk
            obtain ⟨q, _, hq2⟩ := hlk
            simp only [Option.some.injEq, Prod.mk.injEq] at hq2
            have hs : slot = (pt0, PTX va) := hq2.2.symm
            subst hs
            refine ⟨rfl, ?_⟩
            exact htab (pt0, PTX va)
              ((cells_from_append st (PTX va) [PML4X va, PDPX va, PDX va] root).2 pt0 hlf)
          · simp at hlk
    have hsame : ∀ pt0, leaf_from st [PML4X va, PDPX va, PDX va] root = some (some pt0) →
        leaf_from s1' [PML4X va, PDPX va, PDX va] root = some (some pt0) := by
      intro pt0 hlf
      rw [← hlf]
      refine (leaf_from_congr hn1 _ root ?_).1
      intro c hc
      have hpr := (leaf_from_present st _ root pt0 hlf).1 c hc
      exact hF c.1 c.2 (htab c
        ((cells_from_append st (PTX va) [PML4X va, PDPX va, PDX va] root).1 c hc)) hpr
    refine ⟨pt', ?_, ?_, ?_, t1.trans hn1, ?_, ?_, ?_⟩
    · rcases hdisj with e | ⟨g, _⟩
      · subst e
        exact Or.inr hleaf1
      · exact Or.inl g
    · rw [page_lookup_eq, hleaf']
      simp only [t2, e2, if_true]
      rw [pa2page_npages (t1.trans hn1), e3]
      rfl
    · rw [t2, e1]
    · intro f j hf hpres hfj
      rw [t3 f j hfj]
      exact hF f j hf hpres
    · rintro ⟨slot, hlk⟩
      obtain ⟨hlf, hsl⟩ := hstleaf pp slot hlk
      have hlf1 := hsame _ hlf
      rw [hleaf1] at hlf1
      simp only [Option.some.injEq] at hlf1
      have hpt'l : pt' ∉ l := hlf1 ▸ hsl
      have hs1 : s1' = st := by
        rcases hdisj with e | ⟨g, _⟩
        · exact e
        · exact absurd g hpt'l
      subst hs1
      rcases t4 with ⟨_, q, hq, href⟩ | ⟨_, hnone, _⟩
      · rw [hlk] at hq
        simp only [Option.some.injEq, Prod.mk.injEq] at hq
        rw [if_pos hq.1.symm] at href
        exact href
      · rw [hlk] at hnone
        simp at hnone
    · intro hno
      have hpage : s1'.pages pp = st.pages pp := hpg pp hpp
      rcases t4 with ⟨hpres, q, hq, href⟩ | ⟨_, _, href⟩
      · have hs1 : s1' = st := by
          rcases hdisj with e | ⟨_, g⟩
          · exact e
          · rw [g (PTX va), present_zero] at hpres
            cases hpres
        subst hs1
        have hqp : q ≠ pp := fun e => hno _ (e ▸ hq)
        rw [if_neg hqp] at href
        exact href
      · rw [href, hpage]

theorem page_insert_result {st st' : Kernel} {root pp va perm : Nat} {r : Int}
    (h : page_insert st root pp va perm = some (r, st')) : r = 0 ∨ r = -E_NO_MEM := by
  unfold page_insert at h
  split at h
  · cases h
  · simp only [Option.some.injEq, Prod.mk.injEq] at h
    exact Or.inr h.1.symm
  · simp only at h
    split at h
    · cases h
    · simp only [Option.some.injEq, Prod.mk.injEq] at h
      exact Or.inl h.1.symm

/-- What a successful `sys_page_map` went through. -/
theorem sys_page_map_ok {lg : Nat} {st st' : Kernel}
    {cpu srcenvid srcva dstenvid dstva perm srcenv dstenv srcroot dstroot : Nat}
    (hsrc : envid2env lg st cpu srcenvid true = some (0, some srcenv))
    (hdst : envid2env lg st cpu dstenvid true = some (0, some dstenv))
    (hsroot : (st.envs srcenv).env_pml4e = some srcroot)
    (hdroot : (st.envs dstenv).env_pml4e = some dstroot)
    (h : sys_page_map lg st cpu srcenvid srcva dstenvid dstva perm = some (0, st')) :
    srcva % PGSIZE = 0 ∧ dstva % PGSIZE = 0 ∧ srcva < UTOP ∧ dstva < UTOP ∧
    perm &&& (2 ^ 32 - 1 - PTE_SYSCALL) = 0 ∧ perm &&& (PTE_U ||| PTE_P) = PTE_U ||| PTE_P ∧
    ∃ p pt i, page_lookup st srcroot srcva = some (some (p, (pt, i))) ∧
      ¬ (perm &&& PTE_W ≠ 0 ∧ st.mem pt i &&& PTE_W = 0) ∧
      page_insert st dstroot p dstva perm = some (0, st') := by
  have hneg : ∀ (e : Int) (s : Kernel), e < 0 → some (e, s) = some ((0 : Int), st') → False := by
    intro e s he heq
    simp only [Option.some.injEq, Prod.mk.injEq] at heq
    omega
  unfold sys_page_map at h
  simp only [hsrc, hdst] at h
  rw [if_neg (by decide), if_neg (by decide)] at h
  split at h
  · exact absurd h (fun h => hneg _ _ (by decide) h)
  · rename_i h1
    split at h
    · exact absurd h (fun h => hneg _ _ (by decide) h)
    · rename_i h2
      split at h
      · exact absurd h (fun h => hneg _ _ (by decide) h)
      · rename_i h3
        split at h
        · exact absurd h (fun h => hneg _ _ (by decide) h)
        · rename_i h4
          simp only [hsroot] at h
          split at h
          · cases h
          · exact absurd h (fun h => hneg _ _ (by decide) h)
          · rename_i p pt i hlook
            split at h
            · exact absurd h (fun h => hneg _ _ (by decide) h)
            · rename_i h5
              simp only [hdroot] at h
              split at h
              · cases h
              · rename_i r2 st1 hins
                have hr := page_insert_result hins
                split at h
                · rename_i hlt
                  exact absurd h (fun h => hneg _ _ hlt h)
                · rename_i hge
                  simp only [Option.some.injEq, Prod.mk.injEq, true_and] at h
                  subst h
                  have hr0 : r2 = 0 := by
                    rcases hr with e | e
                    · exact e
                    · rw [e] at hge
                      exact absurd (by decide) hge
                  subst hr0
                  refine ⟨?_, ?_, ?_, ?_, ?_, ?_, p, pt, i, hlook, h5, hins⟩
                  · by_contra hc
                    exact h1 (Or.inl hc)
                  · by_contra hc
                    exact h1 (Or.inr hc)
                  · by_contra hc
                    exact h2 (Or.inl (by omega))
                  · by_contra hc
                    exact h2 (Or.inr (by omega))
                  · by_contra hc
                    exact h3 hc
                  · by_contra hc
                    exact h4 hc

theorem perm_syscall_bound (perm : Nat) (h32 : perm < 2 ^ 32)
    (h : perm &&& (2 ^ 32 - 1 - PTE_SYSCALL) = 0) : perm < 2 ^ 12 := by
  have h1 : perm &&& (2 ^ 32 - 1) = perm := by
    rw [Nat.and_pow_two_sub_one_eq_mod]
    exact Nat.mod_eq_of_lt h32
  have h2 : (2 ^ 32 - 1 : Nat) = (2 ^ 32 - 1 - PTE_SYSCALL) ||| PTE_SYSCALL := by decide
  rw [h2, Nat.and_or_distrib_left, h, Nat.zero_or] at h1
  have h3 : perm &&& PTE_SYSCALL ≤ PTE_SYSCALL := Nat.and_le_right
  have h4 : PTE_SYSCALL < 2 ^ 12 := by decide
  omega

theorem perm_has_present (perm : Nat) (h : perm &&& (PTE_U ||| PTE_P) = PTE_U ||| PTE_P) :
    perm ||| PTE_P = perm := by
  apply Nat.eq_of_testBit_eq
  intro i
  rw [Nat.testBit_or]
  by_cases hi : i = 0
  · subst hi
    have h0 : (perm &&& (PTE_U ||| PTE_P)).testBit 0 = (PTE_U ||| PTE_P).testBit 0 := by rw [h]
    rw [Nat.testBit_and] at h0
    have h5 : (PTE_U ||| PTE_P).testBit 0 = true := by decide
    rw [h5] at h0
    simp only [Bool.and_true] at h0
    rw [h0]
    rfl
  · have h1 : PTE_P.testBit i = false := by
      have : PTE_P = 2 ^ 0 := rfl
      rw [this, Nat.testBit_two_pow]
      simp [eq_comm, hi]
    rw [h1, Bool.or_false]

theorem entry_flags (p f : Nat) (hf : f < 2 ^ 12) : (page2pa p ||| f) &&& 0xFFF = f := by
  rw [and_fff_eq_mod]
  unfold page2pa PGSHIFT PGSIZE
  rw [Nat.shiftLeft_eq, Nat.mul_comm]
  have h1 : 2 ^ 12 * p ||| f = 2 ^ 12 * p + f := (Nat.mul_add_lt_is_or hf p).symm
  rw [h1]
  omega

theorem page_lookup_some {st : Kernel} {root va p : Nat} {slot : Nat × Nat}
    (h : page_lookup st root va = some (some (p, slot))) :
    ∃ pt, slot = (pt, PTX va) ∧
      leaf_from st [PML4X va, PDPX va, PDX va] root = some (some pt) ∧
      present (st.mem pt (PTX va)) = true ∧
      pa2page st (PTE_ADDR (st.mem pt (PTX va))) = some p ∧ p < st.npages := by
  rw [page_lookup_eq] at h
  cases hlf : leaf_from st [PML4X va, PDPX va, PDX va] root with
  | none =>
    rw [hlf] at h
    cases h
  | some r =>
    cases r with
    | none =>
      rw [hlf] at h
      simp at h
    | some pt0 =>
      rw [hlf] at h
      simp only at h
      by_cases hp : present (st.mem pt0 (PTX va)) = true
      · rw [if_pos hp] at h
        simp only [Option.map_eq_some'] at h
        obtain ⟨q, hq1, hq2⟩ := h
        simp only [Option.some.injEq, Prod.mk.injEq] at hq2
        obtain ⟨e1, e2⟩ := hq2
        subst e1
        refine ⟨pt0, e2.symm, rfl, hp, hq1, ?_⟩
        unfold pa2page at hq1
        split at hq1
        · cases hq1
        · simp only [Option.some.injEq] at hq1
          omega
      · rw [if_neg hp] at h
        simp at h

theorem pml4e_walk_false_of_leaf {st : Kernel} {root va pt : Nat}
    (h : leaf_from st [PML4X va, PDPX va, PDX va] root = some (some pt)) :
    pml4e_walk st root va false = some (st, some (pt, PTX va)) := by
  rw [pml4e_walk_eq, walk_from_false, h]
  rfl

/-- The entries read by the lookup of a mapped address are present, and the
last of them is the leaf entry. -/
theorem walk_cells_mapped {st : Kernel} {root va p : Nat} {slot : Nat × Nat}
    (h : page_lookup st root va = some (some (p, slot))) :
    slot ∈ walk_cells st root va ∧
    ∀ c, c ∈ walk_cells st root va → present (st.mem c.1 c.2) = true := by
  obtain ⟨pt, hs, hlf, hp, _, _⟩ := page_lookup_some h
  obtain ⟨h1, h2⟩ := leaf_from_present st [PML4X va, PDPX va, PDX va] root pt hlf
  have hw : walk_cells st root va =
      cells_from st [PML4X va, PDPX va, PDX va] root ++ [(pt, PTX va)] := h2 (PTX va)
  rw [hw, hs]
  refine ⟨List.mem_append.mpr (Or.inr (List.mem_singleton.mpr rfl)), ?_⟩
  intro c hc
  rcases List.mem_append.mp hc with hm | hm
  · exact h1 c hm
  · rw [List.mem_singleton.mp hm]
    exact hp

theorem option_pair_eq {α : Type} (o : Option (Int × α)) (d : α)
    (h : o.map (fun r => r.1) = some 0) : o = some (0, (o.map (fun r => r.2)).getD d) := by
  cases o with
  | none => simp at h
  | some r =>
    obtain ⟨r1, r2⟩ := r
    simp only [Option.map_some', Option.some.injEq] at h
    subst h
    rfl

theorem mapped_once_pageList : PageList mapped_once [9, 10, 11, 12, 13, 14, 15] := by
  refine ⟨?_, by decide, ?_, ?_⟩
  · exact ⟨rfl, rfl, rfl, rfl, rfl, rfl, rfl, rfl⟩
  · decide
  · intro f hf
    simp only [List.mem_cons, List.mem_singleton, List.not_mem_nil, or_false, not_or] at hf
    have hc : ¬ (9 ≤ f ∧ f < 15) := by omega
    show (mapped_once.pages f).pp_link = none
    simp only [mapped_once, if_neg hc]

theorem envid2env_frame {st st' : Kernel} (hf : EnvFrame st st') (lg cpu envid : Nat)
    (checkperm : Bool) : envid2env lg st' cpu envid checkperm = envid2env lg st cpu envid checkperm := by
  unfold envid2env curenv
  rw [hf.envs, hf.cpu_env]

/-- After the leaf entry of an address has been zeroed nothing is mapped
there. -/
theorem leaf_from_zeroed {st st1 : Kernel} (hn : st1.npages = st.npages) (pt i : Nat)
    (hm : ∀ f j, (f, j) ≠ (pt, i) → st1.mem f j = st.mem f j) (h0 : st1.mem pt i = 0)
    (idxs : List Nat) :
    ∀ tbl r, leaf_from st idxs tbl = some (some r) →
      leaf_from st1 idxs tbl = some (some r) ∨ leaf_from st1 idxs tbl = some none := by
  induction idxs with
  | nil => intro tbl r h; exact Or.inl h
  | cons idx rest ih =>
    intro tbl r h
    simp only [leaf_from] at h ⊢
    by_cases hc : (tbl, idx) = (pt, i)
    · simp only [Prod.mk.injEq] at hc
      rw [hc.1, hc.2, h0, present_zero]
      exact Or.inr rfl
    · rw [hm tbl idx hc, KADDR_npages hn]
      by_cases hp : present (st.mem tbl idx) = true
      · rw [if_pos hp] at h ⊢
        cases hk : KADDR st (PTE_ADDR (st.mem tbl idx)) with
        | none =>
          rw [hk] at h
          cases h
        | some t =>
          rw [hk] at h
          exact ih t r h
      · rw [if_neg hp] at h
        cases h

theorem page_remove_unmaps {st st1 : Kernel} {root va : Nat}
    (h : page_remove st root va = some st1) : page_lookup st1 root va = some none := by
  unfold page_remove at h
  split at h
  · cases h
  · rename_i hlk
    cases h
    exact hlk
  · rename_i q pt i hlk
    split at h
    · cases h
    · rename_i s hd
      cases h
      obtain ⟨e1, e2, _, _⟩ := page_decref_effect hd
      obtain ⟨pt', hs, hlf, _, _, _⟩ := page_lookup_some hlk
      simp only [Prod.mk.injEq] at hs
      obtain ⟨hs1, hs2⟩ := hs
      subst hs1 hs2
      have hn : (s.write pt (PTX va) 0).npages = st.npages := e2
      have h0 : (s.write pt (PTX va) 0).mem pt (PTX va) = 0 := by
        simp only [write_mem, Function.update_same]
      have hm : ∀ f j, (f, j) ≠ (pt, PTX va) → (s.write pt (PTX va) 0).mem f j = st.mem f j := by
        intro f j hfj
        simp only [write_mem]
        by_cases hf : f = pt
        · subst hf
          have hj : j ≠ PTX va := fun e => hfj (by rw [e])
          rw [Function.update_same, Function.update_noteq hj, e1]
        · rw [Function.update_noteq hf, e1]
      rw [page_lookup_eq]
      rcases leaf_from_zeroed hn pt (PTX va) hm h0 _ root pt hlf with g | g
      · rw [g]
        simp only [h0, present_zero, Bool.false_eq_true, if_false]
      · rw [g]

/-- C19. For an id the permission-checked `envid2env` resolves to an
environment with a root, and a page-aligned address below `UTOP`: a call of
`sys_page_unmap` that returns returns 0, and a second call in the state it
leaves returns 0 and that same state; when nothing is mapped at the address
the call returns 0 and the state is unchanged; and in a state whose page
free list is `l` the call returns when the frame mapped there is not on the
list. -/
theorem sys_page_unmap_idempotent (lg : Nat) (st : Kernel) (cpu envid va e root : Nat)
    (henv : envid2env lg st cpu envid true = some (0, some e))
    (hroot : (st.envs e).env_pml4e = some root)
    (hva : va % PGSIZE = 0) (hutop : va < UTOP) :
    (∀ r st1, sys_page_unmap lg st cpu envid va = some (r, st1) →
      r = 0 ∧ sys_page_unmap lg st1 cpu envid va = some (0, st1)) ∧
    (page_lookup st root va = some none →
      sys_page_unmap lg st cpu envid va = some (0, st)) ∧
    (∀ l q slot, PageList st l → page_lookup st root va = some (some (q, slot)) → q ∉ l →
      ∃ st1, sys_page_unmap lg st cpu envid va = some (0, st1)) := by
  have hcall : ∀ s : Kernel, envid2env lg s cpu envid true = some (0, some e) →
      (s.envs e).env_pml4e = some root →
      sys_page_unmap lg s cpu envid va = (page_remove s root va).map (fun s1 => (0, s1)) := by
    intro s h1 h2
    unfold sys_page_unmap
    simp only [h1, h2]
    rw [if_neg (by decide), if_neg (by omega), if_neg (by omega)]
  refine ⟨?_, ?_, ?_⟩
  · intro r st1 h
    rw [hcall st henv hroot] at h
    simp only [Option.map_eq_some', Prod.mk.injEq] at h
    obtain ⟨s1, hrem, hr, hs⟩ := h
    subst hs
    refine ⟨hr.symm, ?_⟩
    have hf := envFrame_page_remove hrem
    have henv1 : envid2env lg s1 cpu envid true = some (0, some e) := by
      rw [envid2env_frame hf]
      exact henv
    have hroot1 : (s1.envs e).env_pml4e = some root := by
      rw [hf.envs]
      exact hroot
    rw [hcall s1 henv1 hroot1]
    simp only [page_remove, page_remove_unmaps hrem, Option.map_some']
  · intro hnone
    rw [hcall st henv hroot]
    simp only [page_remove, hnone, Option.map_some']
  · intro l q slot hl hlk hq
    rw [hcall st henv hroot]
    obtain ⟨pt, i⟩ := slot
    simp only [page_remove, hlk]
    have hdec : ∃ s, page_decref st q = some s := by
      unfold page_decref
      simp only
      split
      · rename_i hr
        unfold page_free
        rw [if_neg]
        · exact ⟨_, rfl⟩
        · simp only [setPage_pages, Function.update_same, not_or, not_not]
          exact ⟨hr, hl.2.2.2 q hq⟩
      · exact ⟨_, rfl⟩
    obtain ⟨s, hs⟩ := hdec
    simp only [hs, Option.map_some']
    exact ⟨_, rfl⟩

theorem unmapped_eq : sys_page_unmap 1 mapped_ro 0 0 0x1000 = some (0, unmapped) :=
  option_pair_eq _ mapped_ro (by decide)

/-- On `mapped_ro`, environment 0 unmaps its page `0x1000` twice, and unmaps
the page `0x3000`, where nothing is mapped. -/
theorem sys_page_unmap_idempotent_witness :
    envid2env 1 mapped_ro 0 0 true = some (0, some 0) ∧
    page_lookup mapped_ro 2 0x1000 = some (some (6, (8, 1))) ∧
    sys_page_unmap 1 mapped_ro 0 0 0x1000 = some (0, unmapped) ∧
    sys_page_unmap 1 unmapped 0 0 0x1000 = some (0, unmapped) ∧
    page_lookup mapped_ro 2 0x3000 = some none ∧
    sys_page_unmap 1 mapped_ro 0 0 0x3000 = some (0, mapped_ro) :=
  ⟨by decide, by decide, unmapped_eq,
    ((sys_page_unmap_idempotent 1 mapped_ro 0 0 0x1000 0 2 (by decide) (by decide) (by decide)
      (by decide)).1 0 unmapped unmapped_eq).2,
    by decide,
    (sys_page_unmap_idempotent 1 mapped_ro 0 0 0x3000 0 2 (by decide) (by decide) (by decide)
      (by decide)).2.1 (by decide)⟩

/-! ## `sys_ipc_try_send` -/

/-- What a successful page transfer of `sys_ipc_try_send` went through. -/
theorem ipc_transfer_ok {st s1 : Kernel} {cpu e srcva perm : Nat}
    (h : ipc_transfer st cpu e srcva perm = some (0, s1)) :
    srcva % PGSIZE = 0 ∧ perm &&& (2 ^ 32 - 1 - PTE_SYSCALL) = 0 ∧
    perm &&& PTE_U ≠ 0 ∧ perm &&& PTE_P ≠ 0 ∧
    ∃ c croot pp slot, curenv st cpu = some c ∧ (st.envs c).env_pml4e = some croot ∧
      page_lookup st croot srcva = some (some (pp, slot)) ∧
      (((st.envs e).env_ipc_dstva < UTOP ∧ ∃ eroot s0,
          (st.envs e).env_pml4e = some eroot ∧
          page_insert st eroot pp (st.envs e).env_ipc_dstva perm = some (0, s0) ∧
          s1 = s0.setEnv e { s0.envs e with env_ipc_perm := perm }) ∨
        (¬ (st.envs e).env_ipc_dstva < UTOP ∧
          s1 = st.setEnv e { st.envs e with env_ipc_perm := 0 })) := by
  have hneg : ∀ (x : Int) (s : Kernel), x < 0 → some (x, s) = some ((0 : Int), s1) → False := by
    intro x s hx heq
    simp only [Option.some.injEq, Prod.mk.injEq] at heq
    omega
  unfold ipc_transfer at h
  split at h
  · exact absurd h (fun h => hneg _ _ (by decide) h)
  · rename_i h1
    split at h
    · exact absurd h (fun h => hneg _ _ (by decide) h)
    · rename_i h2
      split at h
      · exact absurd h (fun h => hneg _ _ (by decide) h)
      · rename_i h3
        split at h
        · cases h
        · rename_i c hc
          split at h
          · cases h
          · rename_i croot hcroot
            split at h
            · cases h
            · exact absurd h (fun h => hneg _ _ (by decide) h)
            · rename_i pp pt i hlk
              split at h
              · exact absurd h (fun h => hneg _ _ (by decide) h)
              · split at h
                · rename_i hd
                  split at h
                  · cases h
                  · rename_i eroot heroot
                    split at h
                    · cases h
                    · rename_i r s0 hins
                      split at h
                      · exact absurd h (fun h => hneg _ _ (by decide) h)
                      · rename_i hr
                        simp only [Option.some.injEq, Prod.mk.injEq, true_and] at h
                        have hr0 : r = 0 := by
                          rcases page_insert_result hins with g | g
                          · exact g
                          · rw [g] at hr
                            exact absurd (by decide) hr
                        subst hr0
                        refine ⟨by_contra (fun hc => h1 hc), by_contra (fun hc => h3 hc),
                          fun hc => h2 (Or.inl hc), fun hc => h2 (Or.inr hc),
                          c, croot, pp, (pt, i), hc, hcroot, hlk,
                          Or.inl ⟨hd, eroot, s0, heroot, hins, h.symm⟩⟩
                · rename_i hd
                  simp only [Option.some.injEq, Prod.mk.injEq, true_and] at h
                  refine ⟨by_contra (fun hc => h1 hc), by_contra (fun hc => h3 hc),
                    fun hc => h2 (Or.inl hc), fun hc => h2 (Or.inr hc),
                    c, croot, pp, (pt, i), hc, hcroot, hlk, Or.inr ⟨hd, h.symm⟩⟩

theorem ipc_transfer_result {st s1 : Kernel} {cpu e srcva perm : Nat} {r : Int}
    (h : ipc_transfer st cpu e srcva perm = some (r, s1)) : r = 0 ∨ r < 0 := by
  have hinv : (-E_INVAL : Int) < 0 := by decide
  have hmem : (-E_NO_MEM : Int) < 0 := by decide
  unfold ipc_transfer at h
  split at h
  · simp only [Option.some.injEq, Prod.mk.injEq] at h
    exact Or.inr (h.1 ▸ hinv)
  · split at h
    · simp only [Option.some.injEq, Prod.mk.injEq] at h
      exact Or.inr (h.1 ▸ hinv)
    · split at h
      · simp only [Option.some.injEq, Prod.mk.injEq] at h
        exact Or.inr (h.1 ▸ hinv)
      · split at h
        · cases h
        · split at h
          · cases h
          · split at h
            · cases h
            · simp only [Option.some.injEq, Prod.mk.injEq] at h
              exact Or.inr (h.1 ▸ hinv)
            · split at h
              · simp only [Option.some.injEq, Prod.mk.injEq] at h
                exact Or.inr (h.1 ▸ hinv)
              · split at h
                · split at h
                  · cases h
                  · split at h
                    · cases h
                    · split at h
                      · simp only [Option.some.injEq, Prod.mk.injEq] at h
                        exact Or.inr (h.1 ▸ hmem)
                      · simp only [Option.some.injEq, Prod.mk.injEq] at h
                        exact Or.inl h.1.symm
                · simp only [Option.some.injEq, Prod.mk.injEq] at h
                  exact Or.inl h.1.symm

/-- The state a successful `sys_ipc_try_send` leaves is the state after the
page transfer (or after `env_ipc_perm = 0` when `srcva` is not below `UTOP`)
with the five fields of the target set. -/
theorem sys_ipc_try_send_ok {lg : Nat} {st st' : Kernel} {cpu c envid value srcva perm e : Nat}
    (hcur : curenv st cpu = some c)
    (henv : envid2env lg st cpu envid false = some (0, some e))
    (hrecv : (st.envs e).env_ipc_recving = true)
    (h : sys_ipc_try_send lg st cpu envid value srcva perm = some (0, st')) :
    ∃ s1, ((srcva < UTOP ∧ ipc_transfer st cpu e srcva perm = some (0, s1)) ∨
        (¬ srcva < UTOP ∧ s1 = st.setEnv e { st.envs e with env_ipc_perm := 0 })) ∧
      st'.mem = s1.mem ∧ st'.npages = s1.npages ∧ st'.pages = s1.pages ∧
      (∀ i, i ≠ e → st'.envs i = s1.envs i) ∧
      st'.envs e =
        { s1.envs e with
          env_ipc_recving := false
          env_ipc_from := (st.envs c).env_id
          env_ipc_value := value
          env_tf :=
            { (s1.envs e).env_tf with
              tf_regs := { (s1.envs e).env_tf.tf_regs with reg_rax := 0 } }
          env_status := ENV_RUNNABLE } := by
  unfold sys_ipc_try_send at h
  simp only [henv] at h
  rw [if_neg (by decide), if_neg (by rw [hrecv]; decide)] at h
  split at h
  · cases h
  · rename_i r1 s1 hmoved
    split at h
    · rename_i hlt
      simp only [Option.some.injEq, Prod.mk.injEq] at h
      omega
    · rename_i hge
      have hcase : (srcva < UTOP ∧ ipc_transfer st cpu e srcva perm = some (0, s1)) ∨
          (¬ srcva < UTOP ∧ s1 = st.setEnv e { st.envs e with env_ipc_perm := 0 }) := by
        by_cases hs : srcva < UTOP
        · rw [if_pos hs] at hmoved
          rcases ipc_transfer_result hmoved with g | g
          · subst g
            exact Or.inl ⟨hs, hmoved⟩
          · exact absurd g hge
        · rw [if_neg hs] at hmoved
          simp only [Option.some.injEq, Prod.mk.injEq] at hmoved
          exact Or.inr ⟨hs, hmoved.2.symm⟩
      have hframe : s1.cpu_env = st.cpu_env ∧ (s1.envs c).env_id = (st.envs c).env_id := by
        rcases hcase with ⟨_, ht⟩ | ⟨_, hs1⟩
        · have hf := ipc_transfer_frame ht
          exact ⟨hf.2.1, (hf.2.2 c).2.2⟩
        · rw [hs1]
          constructor
          · rfl
          · by_cases hce : c = e
            · subst hce
              simp
            · simp [Function.update_noteq hce]
      have hc1 : curenv s1 cpu = some c := by
        unfold curenv at hcur ⊢
        rw [hframe.1]
        exact hcur
      simp only [hc1, Option.some.injEq, Prod.mk.injEq, true_and] at h
      subst h
      refine ⟨s1, hcase, rfl, rfl, rfl, ?_, ?_⟩
      · intro i hi
        simp [Function.update_noteq hi]
      · by_cases hce : c = e
        · subst hce
          simp [hframe.2]
        · simp [Function.update_noteq hce, hframe.2]

theorem perm_user_present (perm : Nat) (h1 : perm &&& PTE_U ≠ 0) (h2 : perm &&& PTE_P ≠ 0) :
    perm &&& (PTE_U ||| PTE_P) = PTE_U ||| PTE_P := by
  have t1 : ∀ j, (perm &&& PTE_U).testBit j = (perm.testBit j && decide (j = 2)) := by
    intro j
    rw [Nat.testBit_and]
    have : PTE_U = 2 ^ 2 := rfl
    rw [this, Nat.testBit_two_pow]
    by_cases hj : j = 2 <;> simp [hj, eq_comm]
  have t2 : ∀ j, (perm &&& PTE_P).testBit j = (perm.testBit j && decide (j = 0)) := by
    intro j
    rw [Nat.testBit_and]
    have : PTE_P = 2 ^ 0 := rfl
    rw [this, Nat.testBit_two_pow]
    by_cases hj : j = 0 <;> simp [hj, eq_comm]
  have b2 : perm.testBit 2 = true := by
    by_contra hb
    apply h1
    apply Nat.eq_of_testBit_eq
    intro j
    rw [t1 j]
    by_cases hj : j = 2
    · subst hj
      simp [hb]
    · simp [hj]
  have b0 : perm.testBit 0 = true := by
    by_contra hb
    apply h2
    apply Nat.eq_of_testBit_eq
    intro j
    rw [t2 j]
    by_cases hj : j = 0
    · subst hj
      simp [hb]
    · simp [hj]
  apply Nat.eq_of_testBit_eq
  intro i
  rw [Nat.testBit_and]
  have hor : (PTE_U ||| PTE_P).testBit i = (decide (i = 2) || decide (i = 0)) := by
    rw [Nat.testBit_or]
    have e1 : PTE_U = 2 ^ 2 := rfl
    have e2 : PTE_P = 2 ^ 0 := rfl
    rw [e1, e2, Nat.testBit_two_pow, Nat.testBit_two_pow]
    by_cases hj2 : i = 2 <;> by_cases hj0 : i = 0 <;> simp [hj2, hj0, eq_comm]
  rw [hor]
  by_cases hi2 : i = 2
  · subst hi2
    simp [b2]
  · by_cases hi0 : i = 0
    · subst hi0
      simp [b0]
    · simp [hi2, hi0]

/-- The target record after the page transfer: only `env_ipc_perm` differs. -/
theorem ipc_transfer_target {st s1 : Kernel} {cpu e srcva perm : Nat}
    (h : ipc_transfer st cpu e srcva perm = some (0, s1)) :
    (∀ i, i ≠ e → s1.envs i = st.envs i) ∧
    s1.envs e = { st.envs e with env_ipc_perm := (s1.envs e).env_ipc_perm } ∧
    (s1.envs e).env_ipc_perm = (if (st.envs e).env_ipc_dstva < UTOP then perm else 0) ∧
    (¬ (st.envs e).env_ipc_dstva < UTOP → s1.mem = st.mem) := by
  obtain ⟨_, _, _, _, c, croot, pp, slot, _, _, _, hcase⟩ := ipc_transfer_ok h
  rcases hcase with ⟨hd, eroot, s0, _, hins, hs1⟩ | ⟨hd, hs1⟩
  · have hf := envFrame_page_insert hins
    subst hs1
    refine ⟨?_, ?_, ?_, fun hc => absurd hd hc⟩
    · intro i hi
      simp only [setEnv_envs, Function.update_noteq hi, hf.envs]
    · simp only [setEnv_envs, Function.update_same, hf.envs]
    · simp only [setEnv_envs, Function.update_same, if_pos hd]
  · subst hs1
    refine ⟨?_, ?_, ?_, fun _ => rfl⟩
    · intro i hi
      simp only [setEnv_envs, Function.update_noteq hi]
    · simp only [setEnv_envs, Function.update_same]
    · simp only [setEnv_envs, Function.update_same, if_neg hd]

/-- C20. A caller `c` sends to a target `e` that the unchecked `envid2env`
resolves and that has `env_ipc_recving` set. With `srcva` at or above `UTOP`
the call returns 0. Whenever the call returns 0 the target has
`env_ipc_value = value`, `env_ipc_from` the caller's id, `env_ipc_recving`
clear, status `ENV_RUNNABLE` and its register frame with `rax = 0`; without
a page transfer `env_ipc_perm = 0` and memory is unchanged; with `srcva` and
the target's `env_ipc_dstva` below `UTOP`, `env_ipc_perm = perm` and, in a
state whose page free list is `l`, where the tables on the path of
`env_ipc_dstva` in the target are distinct and not free and the frame sent is
not free, `env_ipc_dstva` maps in the target the frame `srcva` maps in the
caller, the low twelve bits of the leaf entry being `perm`. -/
theorem sys_ipc_try_send_success (lg : Nat) (st : Kernel)
    (cpu c envid value srcva perm e : Nat) (l : List Nat)
    (hcur : curenv st cpu = some c)
    (henv : envid2env lg st cpu envid false = some (0, some e))
    (hrecv : (st.envs e).env_ipc_recving = true) :
    (¬ srcva < UTOP → ∃ s, sys_ipc_try_send lg st cpu envid value srcva perm = some (0, s)) ∧
    ∀ st', sys_ipc_try_send lg st cpu envid value srcva perm = some (0, st') →
      (st'.envs e).env_ipc_value = value ∧
      (st'.envs e).env_ipc_from = (st.envs c).env_id ∧
      (st'.envs e).env_ipc_recving = false ∧
      (st'.envs e).env_status = ENV_RUNNABLE ∧
      (st'.envs e).env_tf =
        { (st.envs e).env_tf with
          tf_regs := { (st.envs e).env_tf.tf_regs with reg_rax := 0 } } ∧
      (¬ (srcva < UTOP ∧ (st.envs e).env_ipc_dstva < UTOP) →
        (st'.envs e).env_ipc_perm = 0 ∧ st'.mem = st.mem) ∧
      (srcva < UTOP → (st.envs e).env_ipc_dstva < UTOP →
        (st'.envs e).env_ipc_perm = perm ∧
        ∀ croot eroot, (st.envs c).env_pml4e = some croot →
          (st.envs e).env_pml4e = some eroot →
          PageList st l → st.npages ≤ 2 ^ 52 → (∀ f, f ∈ l → f < st.npages) →
          (∀ x, x ∈ walk_cells st eroot (st.envs e).env_ipc_dstva → x.1 ∉ l) →
          (walk_tables st eroot (st.envs e).env_ipc_dstva).Nodup →
          (∀ p slot, page_lookup st croot srcva = some (some (p, slot)) → p ∉ l) →
          perm < 2 ^ 32 →
          ∃ pp slot pt, page_lookup st croot srcva = some (some (pp, slot)) ∧
            page_lookup st' eroot (st.envs e).env_ipc_dstva =
              some (some (pp, (pt, PTX (st.envs e).env_ipc_dstva))) ∧
            st'.mem pt (PTX (st.envs e).env_ipc_dstva) &&& 0xFFF = perm) := by
  constructor
  · intro hs
    unfold sys_ipc_try_send
    simp only [henv]
    rw [if_neg (by decide), if_neg (by rw [hrecv]; decide), if_neg hs]
    have hc1 : curenv (st.setEnv e { st.envs e with env_ipc_perm := 0 }) cpu = some c := hcur
    simp only [hc1]
    rw [if_neg (by decide)]
    exact ⟨_, rfl⟩
  · intro st' h
    obtain ⟨s1, hcase, hmem, hnp', _, hoth, hrec⟩ := sys_ipc_try_send_ok hcur henv hrecv h
    have hs1e : s1.envs e = { st.envs e with env_ipc_perm := (s1.envs e).env_ipc_perm } := by
      rcases hcase with ⟨_, ht⟩ | ⟨_, hs1⟩
      · exact (ipc_transfer_target ht).2.1
      · rw [hs1]
        simp only [setEnv_envs, Function.update_same]
    have htf : (s1.envs e).env_tf = (st.envs e).env_tf := by rw [hs1e]
    have hperm' : (st'.envs e).env_ipc_perm = (s1.envs e).env_ipc_perm := by rw [hrec]
    refine ⟨by rw [hrec], by rw [hrec], by rw [hrec], by rw [hrec], by rw [hrec, htf], ?_, ?_⟩
    · intro hno
      rcases hcase with ⟨hs, ht⟩ | ⟨_, hs1⟩
      · have hd : ¬ (st.envs e).env_ipc_dstva < UTOP := fun hd => hno ⟨hs, hd⟩
        obtain ⟨_, _, hp, hm⟩ := ipc_transfer_target ht
        rw [if_neg hd] at hp
        exact ⟨hperm'.trans hp, hmem.trans (hm hd)⟩
      · rw [hperm', hmem, hs1]
        exact ⟨by simp only [setEnv_envs, Function.update_same], rfl⟩
    · intro hs hd
      rcases hcase with ⟨_, ht⟩ | ⟨hns, _⟩
      · obtain ⟨_, _, hp, _⟩ := ipc_transfer_target ht
        rw [if_pos hd] at hp
        refine ⟨hperm'.trans hp, ?_⟩
        intro croot eroot hcroot heroot hl hnp hfb htab hnd hfree hp32
        obtain ⟨_, hp1, hpu, hpp, c', croot', pp, slot, hc', hcroot', hlk, hins⟩ :=
          ipc_transfer_ok ht
        rw [hcur] at hc'
        cases hc'
        rw [hcroot] at hcroot'
        cases hcroot'
        rcases hins with ⟨_, eroot', s0, heroot', hins, hs1⟩ | ⟨hnd', _⟩
        · rw [heroot] at heroot'
          cases heroot'
          have hp12 : perm < 2 ^ 12 := perm_syscall_bound perm hp32 hp1
          obtain ⟨_, _, _, _, _, hpn⟩ := page_lookup_some hlk
          obtain ⟨pt, _, hlk', hentry, hn', _, _, _⟩ :=
            page_insert_spec hl hnp hfb htab hnd (hfree pp _ hlk) hpn hp12 hins
          have hm0 : st'.mem = s0.mem := by
            rw [hmem, hs1]
            rfl
          have hn0 : st'.npages = s0.npages := by
            rw [hnp', hs1]
            rfl
          refine ⟨pp, slot, pt, hlk, ?_, ?_⟩
          · rw [@page_lookup_congr s0 st' hn0 eroot _ (fun x _ => by rw [hm0])]
            exact hlk'
          · rw [hm0, hentry, Nat.lor_assoc,
              perm_has_present perm (perm_user_present perm hpu hpp)]
            exact entry_flags pp perm hp12
        · exact absurd hd hnd'
      · exact absurd hs hns

theorem ipc_ready_pageList : PageList ipc_ready [9, 10, 11, 12, 13, 14, 15] := by
  refine ⟨?_, by decide, ?_, ?_⟩
  · exact ⟨rfl, rfl, rfl, rfl, rfl, rfl, rfl, rfl⟩
  · decide
  · intro f hf
    simp only [List.mem_cons, List.mem_singleton, List.not_mem_nil, or_false, not_or] at hf
    have hc : ¬ (9 ≤ f ∧ f < 15) := by omega
    show (ipc_ready.pages f).pp_link = none
    simp only [ipc_ready, if_neg hc]

theorem ipc_sent_eq :
    sys_ipc_try_send 1 ipc_ready 0 0x1001 42 0x400000 (PTE_U ||| PTE_P ||| PTE_W) =
      some (0, ipc_sent) :=
  option_pair_eq _ ipc_ready (by decide)

/-- On `ipc_ready`, environment 0 sends the value 42 and its page `0x400000`
to its child, which waits for a page at `0x600000`. -/
theorem sys_ipc_try_send_success_witness :
    envid2env 1 ipc_ready 0 0x1001 false = some (0, some 1) ∧
    (ipc_ready.envs 1).env_ipc_recving = true ∧
    (ipc_ready.envs 1).env_ipc_dstva = 0x600000 ∧
    page_lookup ipc_ready 2 0x400000 = some (some (8, (7, 0))) ∧
    sys_ipc_try_send 1 ipc_ready 0 0x1001 42 0x400000 (PTE_U ||| PTE_P ||| PTE_W) =
      some (0, ipc_sent) ∧
    (ipc_sent.envs 1).env_ipc_value = 42 ∧
    (ipc_sent.envs 1).env_ipc_from = 0x1000 ∧
    (ipc_sent.envs 1).env_ipc_recving = false ∧
    (ipc_sent.envs 1).env_status = ENV_RUNNABLE ∧
    (ipc_sent.envs 1).env_tf.tf_regs.reg_rax = 0 ∧
    (ipc_sent.envs 1).env_ipc_perm = PTE_U ||| PTE_P ||| PTE_W ∧
    ∃ pt, page_lookup ipc_sent 4 0x600000 = some (some (8, (pt, PTX 0x600000))) ∧
      ipc_sent.mem pt (PTX 0x600000) &&& 0xFFF = PTE_U ||| PTE_P ||| PTE_W := by
  have h0 : page_lookup ipc_ready 2 0x400000 = some (some (8, (7, 0))) := by decide
  have hd : (ipc_ready.envs 1).env_ipc_dstva = 0x600000 := rfl
  obtain ⟨h1, h2, h3, h4, h5, _, h7⟩ :=
    (sys_ipc_try_send_success 1 ipc_ready 0 0 0x1001 42 0x400000 (PTE_U ||| PTE_P ||| PTE_W) 1
      [9, 10, 11, 12, 13, 14, 15] rfl (by decide) rfl).2 ipc_sent ipc_sent_eq
  obtain ⟨h8, h9⟩ := h7 (by decide) (by decide)
  obtain ⟨pp, slot, pt, g1, g2, g3⟩ := h9 2 4 rfl rfl ipc_ready_pageList (by decide) (by decide)
    (by decide) (by decide)
    (fun p slot hlk => by
      rw [h0] at hlk
      simp only [Option.some.injEq, Prod.mk.injEq] at hlk
      rw [← hlk.1]
      decide)
    (by decide)
  rw [h0] at g1
  simp only [Option.some.injEq, Prod.mk.injEq] at g1
  obtain ⟨e1, _⟩ := g1
  subst e1
  rw [hd] at g2 g3
  refine ⟨by decide, rfl, rfl, h0, ipc_sent_eq, h1, h2, h3, h4, ?_, h8, pt, g2, g3⟩
  rw [h5]

/-! ## `sys_ipc_try_send`: errors -/

/-- A page transfer that fails returns `-E_INVAL` or `-E_NO_MEM` and leaves
the environment table alone. -/
theorem ipc_transfer_error {st s1 : Kernel} {cpu e srcva perm : Nat} {r : Int}
    (h : ipc_transfer st cpu e srcva perm = some (r, s1)) (hr : r < 0) :
    (r = -E_INVAL ∨ r = -E_NO_MEM) ∧ EnvFrame st s1 := by
  have hrefl : EnvFrame st st := ⟨rfl, rfl, rfl, rfl, rfl⟩
  unfold ipc_transfer at h
  split at h
  · simp only [Option.some.injEq, Prod.mk.injEq] at h
    exact ⟨Or.inl h.1.symm, h.2 ▸ hrefl⟩
  · split at h
    · simp only [Option.some.injEq, Prod.mk.injEq] at h
      exact ⟨Or.inl h.1.symm, h.2 ▸ hrefl⟩
    · split at h
      · simp only [Option.some.injEq, Prod.mk.injEq] at h
        exact ⟨Or.inl h.1.symm, h.2 ▸ hrefl⟩
      · split at h
        · cases h
        · split at h
          · cases h
          · split at h
            · cases h
            · simp only [Option.some.injEq, Prod.mk.injEq] at h
              exact ⟨Or.inl h.1.symm, h.2 ▸ hrefl⟩
            · split at h
              · simp only [Option.some.injEq, Prod.mk.injEq] at h
                exact ⟨Or.inl h.1.symm, h.2 ▸ hrefl⟩
              · split at h
                · split at h
                  · cases h
                  · split at h
                    · cases h
                    · rename_i hins
                      split at h
                      · simp only [Option.some.injEq, Prod.mk.injEq] at h
                        exact ⟨Or.inr h.1.symm, h.2 ▸ envFrame_page_insert hins⟩
                      · simp only [Option.some.injEq, Prod.mk.injEq] at h
                        omega
                · simp only [Option.some.injEq, Prod.mk.injEq] at h
                  omega

/-- C21. `sys_ipc_try_send` returns `-E_IPC_NOT_RECV`, changing nothing,
whenever the unchecked `envid2env` resolves the target and the target's
`env_ipc_recving` is clear, whatever `value`, `srcva` and `perm` are. Whenever
it returns a negative value, that value is `-E_BAD_ENV`, `-E_IPC_NOT_RECV`,
`-E_INVAL` or `-E_NO_MEM` and the whole environment table is as before: of
every environment `e`, the target included, `env_ipc_recving`,
`env_ipc_from`, `env_ipc_value`, `env_ipc_perm`, `env_ipc_dstva`,
`env_status` and the saved `rax` are unchanged. -/
theorem sys_ipc_try_send_atomic (lg : Nat) (st : Kernel) (cpu envid value srcva perm : Nat) :
    (∀ e, envid2env lg st cpu envid false = some (0, some e) →
      (st.envs e).env_ipc_recving = false →
      sys_ipc_try_send lg st cpu envid value srcva perm = some (-E_IPC_NOT_RECV, st)) ∧
    ∀ r st', sys_ipc_try_send lg st cpu envid value srcva perm = some (r, st') → r < 0 →
      (r = -E_BAD_ENV ∨ r = -E_IPC_NOT_RECV ∨ r = -E_INVAL ∨ r = -E_NO_MEM) ∧
      st'.envs = st.envs ∧
      ∀ e, (st'.envs e).env_ipc_recving = (st.envs e).env_ipc_recving ∧
        (st'.envs e).env_ipc_from = (st.envs e).env_ipc_from ∧
        (st'.envs e).env_ipc_value = (st.envs e).env_ipc_value ∧
        (st'.envs e).env_ipc_perm = (st.envs e).env_ipc_perm ∧
        (st'.envs e).env_ipc_dstva = (st.envs e).env_ipc_dstva ∧
        (st'.envs e).env_status = (st.envs e).env_status ∧
        (st'.envs e).env_tf.tf_regs.reg_rax = (st.envs e).env_tf.tf_regs.reg_rax := by
  have key : ∀ r st', sys_ipc_try_send lg st cpu envid value srcva perm = some (r, st') →
      r < 0 → (r = -E_BAD_ENV ∨ r = -E_IPC_NOT_RECV ∨ r = -E_INVAL ∨ r = -E_NO_MEM) ∧
        st'.envs = st.envs := by
    intro r st' h hr
    unfold sys_ipc_try_send at h
    cases henv : envid2env lg st cpu envid false with
    | none => simp only [henv] at h; cases h
    | some p =>
      obtain ⟨r0, t⟩ := p
      simp only [henv] at h
      by_cases hr0 : r0 < 0
      · rw [if_pos hr0] at h
        simp only [Option.some.injEq, Prod.mk.injEq] at h
        exact ⟨Or.inl h.1.symm, by rw [← h.2]⟩
      · rw [if_neg hr0] at h
        cases t with
        | none => cases h
        | some e =>
          simp only at h
          by_cases hrecv : (st.envs e).env_ipc_recving = false
          · rw [if_pos hrecv] at h
            simp only [Option.some.injEq, Prod.mk.injEq] at h
            exact ⟨Or.inr (Or.inl h.1.symm), by rw [← h.2]⟩
          · rw [if_neg hrecv] at h
            split at h
            · cases h
            · rename_i r1 s1 hmoved
              split at h
              · rename_i hlt
                simp only [Option.some.injEq, Prod.mk.injEq] at h
                obtain ⟨h1, h2⟩ := h
                subst h1 h2
                by_cases hs : srcva < UTOP
                · rw [if_pos hs] at hmoved
                  obtain ⟨hcode, hf⟩ := ipc_transfer_error hmoved hlt
                  exact ⟨Or.inr (Or.inr hcode), hf.envs⟩
                · rw [if_neg hs] at hmoved
                  simp only [Option.some.injEq, Prod.mk.injEq] at hmoved
                  omega
              · split at h
                · cases h
                · simp only [Option.some.injEq, Prod.mk.injEq] at h
                  omega
  refine ⟨?_, ?_⟩
  · intro e henv hrecv
    unfold sys_ipc_try_send
    simp only [henv]
    rw [if_neg (by decide), if_pos hrecv]
  · intro r st' h hr
    obtain ⟨hcode, henvs⟩ := key r st' h hr
    refine ⟨hcode, henvs, fun e => ?_⟩
    rw [henvs]
    exact ⟨rfl, rfl, rfl, rfl, rfl, rfl, rfl⟩

/-- On `two_running`, environment 0 sends to its child, which is not
receiving: the send is refused and the table is as before. -/
theorem sys_ipc_try_send_atomic_witness :
    sys_ipc_try_send 1 two_running 0 0x1001 42 0 7 = some (-E_IPC_NOT_RECV, two_running) ∧
    ∀ r st', sys_ipc_try_send 1 two_running 0 0x1001 42 0 7 = some (r, st') → r < 0 →
      st'.envs = two_running.envs :=
  ⟨(sys_ipc_try_send_atomic 1 two_running 0 0x1001 42 0 7).1 1 (by decide) (by decide),
    fun r st' h hr => ((sys_ipc_try_send_atomic 1 two_running 0 0x1001 42 0 7).2 r st' h hr).2.1⟩
/-! ## `sys_ipc_recv` -/

/-- The call `env_run(e)` leaves alone the record of every other environment
that is not running. -/
theorem env_run_other {st st' : Kernel} {cpu e i : Nat} (h : env_run st cpu e = some st')
    (hi : i ≠ e) (hnr : (st.envs i).env_status ≠ ENV_RUNNING) : st'.envs i = st.envs i := by
  unfold env_run at h
  dsimp only at h
  split at h
  · exact absurd h (by simp)
  · cases h
    simp only [setEnv_envs, setCurenv_envs, Function.update_noteq hi]
    split
    · rename_i c hc
      split
      · rename_i hrun
        have hic : i ≠ c := fun hh => hnr (hh ▸ hrun)
        simp only [setEnv_envs, Function.update_noteq hic]
      · rfl
    · rfl

/-- The scheduler leaves alone the record of an environment that is neither
runnable nor running. -/
theorem sched_yield_other {lg : Nat} {st st' : Kernel} {cpu i : Nat}
    (h : sched_yield lg st cpu = some st')
    (h1 : (st.envs i).env_status ≠ ENV_RUNNABLE) (h2 : (st.envs i).env_status ≠ ENV_RUNNING) :
    st'.envs i = st.envs i := by
  rcases sched_yield_cases h with ⟨e, _, he, hrun⟩ | ⟨c, _, hc, hrun⟩ | ⟨hh, _⟩
  · exact env_run_other hrun (fun hie => h1 (hie ▸ he)) h2
  · exact env_run_other hrun (fun hie => h2 (hie ▸ hc)) h2
  · rw [hh, (sched_halt_spec lg st cpu).1]

/-- The record of the caller `c` when `sys_ipc_recv(dstva)` is past its
check and the scheduler has returned to user mode: the destination is
`dstva` (or `UTOP`), `env_ipc_recving` is set, the status is
`ENV_NOT_RUNNABLE`, and every other field, the saved registers included, is
as before. -/
theorem sys_ipc_recv_record {lg : Nat} {st st' : Kernel} {cpu c dstva : Nat} {r : Int}
    (hcur : curenv st cpu = some c) (hva : ¬ (dstva < UTOP ∧ dstva % PGSIZE ≠ 0))
    (h : sys_ipc_recv lg st cpu dstva = some (r, st')) :
    r = 0 ∧
    st'.envs c =
      { st.envs c with
        env_ipc_dstva := if dstva < UTOP then dstva else UTOP
        env_ipc_recving := true
        env_status := ENV_NOT_RUNNABLE } := by
  unfold sys_ipc_recv at h
  rw [if_neg hva] at h
  simp only [hcur] at h
  rw [Option.map_eq_some'] at h
  obtain ⟨s, hs, hrs⟩ := h
  simp only [Prod.mk.injEq] at hrs
  refine ⟨hrs.1.symm, ?_⟩
  rw [← hrs.2]
  rw [sched_yield_other hs (by simp [ENV_NOT_RUNNABLE, ENV_RUNNABLE])
    (by simp [ENV_NOT_RUNNABLE, ENV_RUNNING])]
  simp only [setEnv_envs, Function.update_same]

theorem recv_blocked_eq : sys_ipc_recv 1 recv_caller 0 UTOP = some (0, recv_blocked) :=
  option_pair_eq _ recv_caller (by decide)

/-- C23. `sys_ipc_recv(dstva)` with `dstva` below `UTOP` and not page-aligned
returns `-E_INVAL` and changes nothing. Otherwise, when it has handed the CPU
to the scheduler, the caller's record has the destination `dstva` (`UTOP`
when `dstva` is not below `UTOP`), `env_ipc_recving` set and the status
`ENV_NOT_RUNNABLE`, but its saved register frame is as it was on entry:
`rax` is not zeroed. -/
theorem sys_ipc_recv_keeps_rax (lg : Nat) (st : Kernel) (cpu c dstva : Nat)
    (hcur : curenv st cpu = some c) :
    (dstva < UTOP → dstva % PGSIZE ≠ 0 →
      sys_ipc_recv lg st cpu dstva = some (-E_INVAL, st)) ∧
    (¬ (dstva < UTOP ∧ dstva % PGSIZE ≠ 0) →
      ∀ r st', sys_ipc_recv lg st cpu dstva = some (r, st') →
        r = 0 ∧
        (st'.envs c).env_ipc_dstva = (if dstva < UTOP then dstva else UTOP) ∧
        (st'.envs c).env_ipc_recving = true ∧
        (st'.envs c).env_status = ENV_NOT_RUNNABLE ∧
        (st'.envs c).env_tf = (st.envs c).env_tf ∧
        (st'.envs c).env_tf.tf_regs.reg_rax = (st.envs c).env_tf.tf_regs.reg_rax) := by
  refine ⟨fun h1 h2 => ?_, fun hva r st' h => ?_⟩
  · unfold sys_ipc_recv
    rw [if_pos ⟨h1, h2⟩]
  · obtain ⟨hr, hrec⟩ := sys_ipc_recv_record hcur hva h
    rw [hrec]
    exact ⟨hr, rfl, rfl, rfl, rfl, rfl⟩

/-- On `recv_caller`, environment 0 enters `sys_ipc_recv(UTOP)` with 13 in
`rax`; the call blocks it and hands the CPU over with 13 still in its saved
`rax`. An unaligned destination is refused. -/
theorem sys_ipc_recv_keeps_rax_witness :
    (recv_caller.envs 0).env_tf.tf_regs.reg_rax = 13 ∧
    sys_ipc_recv 1 recv_caller 0 UTOP = some (0, recv_blocked) ∧
    (recv_blocked.envs 0).env_ipc_recving = true ∧
    (recv_blocked.envs 0).env_status = ENV_NOT_RUNNABLE ∧
    (recv_blocked.envs 0).env_tf.tf_regs.reg_rax = 13 ∧
    sys_ipc_recv 1 recv_caller 0 0x400010 = some (-E_INVAL, recv_caller) :=
  have h := (sys_ipc_recv_keeps_rax 1 recv_caller 0 0 UTOP rfl).2 (by decide) 0 recv_blocked
    recv_blocked_eq
  ⟨rfl, recv_blocked_eq, h.2.2.1, h.2.2.2.1, h.2.2.2.2.2.trans rfl,
    (sys_ipc_recv_keeps_rax 1 recv_caller 0 0 0x400010 rfl).1 (by decide) (by decide)⟩

/-! ## Deferred destroy -/

/-- C24. `env_destroy(e)` on an environment whose status is `ENV_RUNNING`
and which is not the calling CPU's `curenv` returns with only `e`'s status
changed, to `ENV_DYING`: memory, the frame descriptors, both free lists, the
per-CPU current environments, every other record and every other field of
`e` (its id and root included) are as before. `sys_env_destroy(envid)`
returns 0 when `envid2env` permits such a target. -/
theorem env_destroy_deferred (lg : Nat) (st : Kernel) (cpu e : Nat)
    (hrun : (st.envs e).env_status = ENV_RUNNING) (hcur : curenv st cpu ≠ some e) :
    env_destroy lg st cpu e = some (st.setEnv e { st.envs e with env_status := ENV_DYING }) ∧
    (∀ st', env_destroy lg st cpu e = some st' →
      (st'.envs e).env_status = ENV_DYING ∧
      st'.envs e = { st.envs e with env_status := ENV_DYING } ∧
      (st'.envs e).env_id = (st.envs e).env_id ∧
      (st'.envs e).env_pml4e = (st.envs e).env_pml4e ∧
      (∀ i, i ≠ e → st'.envs i = st.envs i) ∧
      st'.mem = st.mem ∧ st'.pages = st.pages ∧ st'.page_free_list = st.page_free_list ∧
      st'.env_free_list = st.env_free_list ∧ st'.cpu_env = st.cpu_env) ∧
    ∀ envid, envid2env lg st cpu envid true = some (0, some e) →
      sys_env_destroy lg st cpu envid =
        some (0, st.setEnv e { st.envs e with env_status := ENV_DYING }) := by
  have h1 : env_destroy lg st cpu e =
      some (st.setEnv e { st.envs e with env_status := ENV_DYING }) := by
    unfold env_destroy
    rw [if_pos ⟨hrun, hcur⟩]
  refine ⟨h1, fun st' h => ?_, fun envid henv => ?_⟩
  · rw [h1] at h
    simp only [Option.some.injEq] at h
    subst h
    refine ⟨?_, ?_, ?_, ?_, fun i hi => ?_, rfl, rfl, rfl, rfl, rfl⟩
    · simp only [setEnv_envs, Function.update_same]
    · simp only [setEnv_envs, Function.update_same]
    · simp only [setEnv_envs, Function.update_same]
    · simp only [setEnv_envs, Function.update_same]
    · simp only [setEnv_envs, Function.update_noteq hi]
  · unfold sys_env_destroy
    simp only [henv]
    rw [if_neg (by decide), h1]
    rfl

/-- On `two_running`, environment 0 on CPU 0 destroys its child, which runs
on CPU 1. -/
theorem env_destroy_deferred_witness :
    (two_running.envs 1).env_status = ENV_RUNNING ∧ curenv two_running 0 ≠ some 1 ∧
    envid2env 1 two_running 0 0x1001 true = some (0, some 1) ∧
    sys_env_destroy 1 two_running 0 0x1001 =
      some (0, two_running.setEnv 1 { two_running.envs 1 with env_status := ENV_DYING }) :=
  ⟨rfl, by decide, by decide,
    (env_destroy_deferred 1 two_running 0 1 rfl (by decide)).2.2 0x1001 (by decide)⟩

/-! ## `sys_ipc_try_send` without a page transfer -/

/-- C22. A caller `c` sends to a target `e` that the unchecked `envid2env`
resolves and that has `env_ipc_recving` set. With `srcva` not below `UTOP`
the send returns 0; with `srcva` below `UTOP` and the target's
`env_ipc_dstva` not below `UTOP` it returns 0 when `srcva` and `perm` pass
the checks of a page transfer. Whenever the send returns 0, the target's
`env_ipc_perm` is `perm` (which is not 0) when a page was transferred, that
is when `srcva` and `env_ipc_dstva` are both below `UTOP`, and 0 otherwise,
and in that second case no word of memory, hence no page table, and no frame
descriptor, hence no reference count, has changed. A target that blocked in
`sys_ipc_recv(dstva)` with `dstva` not below `UTOP` has `env_ipc_dstva` not
below `UTOP`. -/
theorem sys_ipc_try_send_perm (lg : Nat) (st : Kernel) (cpu c envid value srcva perm e : Nat)
    (hcur : curenv st cpu = some c)
    (henv : envid2env lg st cpu envid false = some (0, some e))
    (hrecv : (st.envs e).env_ipc_recving = true) :
    (¬ srcva < UTOP → ∃ s, sys_ipc_try_send lg st cpu envid value srcva perm = some (0, s)) ∧
    (∀ croot pp pt i, srcva < UTOP → ¬ (st.envs e).env_ipc_dstva < UTOP →
      srcva % PGSIZE = 0 → perm &&& PTE_U ≠ 0 → perm &&& PTE_P ≠ 0 →
      perm &&& (2 ^ 32 - 1 - PTE_SYSCALL) = 0 →
      (st.envs c).env_pml4e = some croot →
      page_lookup st croot srcva = some (some (pp, (pt, i))) →
      ¬ (perm &&& PTE_W ≠ 0 ∧ st.mem pt i &&& PTE_W = 0) →
      ∃ s, sys_ipc_try_send lg st cpu envid value srcva perm = some (0, s)) ∧
    (∀ st', sys_ipc_try_send lg st cpu envid value srcva perm = some (0, st') →
      (srcva < UTOP ∧ (st.envs e).env_ipc_dstva < UTOP →
        (st'.envs e).env_ipc_perm = perm ∧ perm ≠ 0) ∧
      (¬ (srcva < UTOP ∧ (st.envs e).env_ipc_dstva < UTOP) →
        (st'.envs e).env_ipc_perm = 0 ∧ st'.mem = st.mem ∧ st'.pages = st.pages)) ∧
    ∀ st0 cpu0 dstva r0, UTOP ≤ dstva → curenv st0 cpu0 = some e →
      sys_ipc_recv lg st0 cpu0 dstva = some (r0, st) → ¬ (st.envs e).env_ipc_dstva < UTOP := by
  have hrf : ¬ (st.envs e).env_ipc_recving = false := by rw [hrecv]; decide
  refine ⟨fun hs => ?_, ?_, fun st' h => ?_, ?_⟩
  · unfold sys_ipc_try_send
    simp only [henv]
    rw [if_neg (by decide), if_neg hrf, if_neg hs]
    have hc1 : curenv (st.setEnv e { st.envs e with env_ipc_perm := 0 }) cpu = some c := hcur
    simp only [hc1]
    rw [if_neg (by decide)]
    exact ⟨_, rfl⟩
  · intro croot pp pt i hs hd hal hu hp hsys hroot hlk hw
    unfold sys_ipc_try_send
    simp only [henv]
    rw [if_neg (by decide), if_neg hrf, if_pos hs]
    have ht : ipc_transfer st cpu e srcva perm =
        some (0, st.setEnv e { st.envs e with env_ipc_perm := 0 }) := by
      unfold ipc_transfer
      rw [if_neg (by simpa using hal), if_neg (by simp only [not_or]; exact ⟨hu, hp⟩),
        if_neg (by simpa using hsys)]
      simp only [hcur, hroot, hlk]
      rw [if_neg hw, if_neg hd]
    have hc1 : curenv (st.setEnv e { st.envs e with env_ipc_perm := 0 }) cpu = some c := hcur
    simp only [ht, hc1]
    rw [if_neg (by decide)]
    exact ⟨_, rfl⟩
  · obtain ⟨s1, hcase, hmem, _, hpages, _, hrec⟩ := sys_ipc_try_send_ok hcur henv hrecv h
    refine ⟨fun hboth => ?_, fun hnot => ?_⟩
    · rcases hcase with ⟨hs, ht⟩ | ⟨hs, _⟩
      · obtain ⟨_, _, hperm, _⟩ := ipc_transfer_target ht
        obtain ⟨_, _, hu, _, _⟩ := ipc_transfer_ok ht
        rw [if_pos hboth.2] at hperm
        refine ⟨by rw [hrec]; exact hperm, fun h0 => hu ?_⟩
        rw [h0]
        rfl
      · exact absurd hboth.1 hs
    · rcases hcase with ⟨hs, ht⟩ | ⟨hs, hs1⟩
      · have hd : ¬ (st.envs e).env_ipc_dstva < UTOP := fun hd => hnot ⟨hs, hd⟩
        obtain ⟨_, _, hperm, _⟩ := ipc_transfer_target ht
        rw [if_neg hd] at hperm
        obtain ⟨_, _, _, _, _, _, _, _, _, _, _, hcase2⟩ := ipc_transfer_ok ht
        rcases hcase2 with ⟨hd2, _⟩ | ⟨_, hs1⟩
        · exact absurd hd2 hd
        · refine ⟨by rw [hrec]; exact hperm, ?_, ?_⟩
          · rw [hmem, hs1]; rfl
          · rw [hpages, hs1]; rfl
      · refine ⟨?_, ?_, ?_⟩
        · rw [hrec, hs1]
          simp only [setEnv_envs, Function.update_same]
        · rw [hmem, hs1]; rfl
        · rw [hpages, hs1]; rfl
  · intro st0 cpu0 dstva r0 hge hcur0 hrcv
    obtain ⟨_, hrec⟩ := sys_ipc_recv_record hcur0 (fun hh => by omega) hrcv
    rw [hrec]
    simp only [if_neg (show ¬ dstva < UTOP by omega)]
    exact Nat.lt_irrefl _

/-- On `ipc_ready`, environment 0 sends the value 42 to its child: without a
page (`srcva = UTOP`) the child's `env_ipc_perm` becomes 0 and memory and the
frame descriptors stay as they are; with its page `0x400000` the child's
`env_ipc_perm` becomes the permission sent. -/
theorem sys_ipc_try_send_perm_witness :
    envid2env 1 ipc_ready 0 0x1001 false = some (0, some 1) ∧
    (ipc_ready.envs 1).env_ipc_recving = true ∧
    (∃ s, sys_ipc_try_send 1 ipc_ready 0 0x1001 42 UTOP 7 = some (0, s) ∧
      (s.envs 1).env_ipc_perm = 0 ∧ s.mem = ipc_ready.mem ∧ s.pages = ipc_ready.pages) ∧
    sys_ipc_try_send 1 ipc_ready 0 0x1001 42 0x400000 (PTE_U ||| PTE_P ||| PTE_W) =
      some (0, ipc_sent) ∧
    (ipc_sent.envs 1).env_ipc_perm = PTE_U ||| PTE_P ||| PTE_W := by
  obtain ⟨s, hs⟩ :=
    (sys_ipc_try_send_perm 1 ipc_ready 0 0 0x1001 42 UTOP 7 1 rfl (by decide) rfl).1 (by decide)
  refine ⟨by decide, rfl, ⟨s, hs, ?_⟩, ipc_sent_eq, ?_⟩
  · exact ((sys_ipc_try_send_perm 1 ipc_ready 0 0 0x1001 42 UTOP 7 1 rfl (by decide) rfl).2.2.1
      s hs).2 (by decide)
  · exact (((sys_ipc_try_send_perm 1 ipc_ready 0 0 0x1001 42 0x400000 (PTE_U ||| PTE_P ||| PTE_W)
      1 rfl (by decide) rfl).2.2.1 ipc_sent ipc_sent_eq).1 (by decide)).1

/-! ## Inserting a frame where it is mapped already -/

/-- When the tables at `idxs` below `tbl` exist, the walk changes nothing,
with `create` or without. -/
theorem walk_from_of_leaf (create : Bool) (idxs : List Nat) :
    ∀ (st : Kernel) (tbl pt : Nat), leaf_from st idxs tbl = some (some pt) →
      walk_from create idxs st tbl = some (st, some pt) := by
  induction idxs with
  | nil =>
    intro st tbl pt h
    simp only [leaf_from, Option.some.injEq] at h
    subst h
    rfl
  | cons idx rest ih =>
    intro st tbl pt h
    simp only [leaf_from] at h
    split at h
    · rename_i hp
      cases hk : KADDR st (PTE_ADDR (st.mem tbl idx)) with
      | none => rw [hk] at h; cases h
      | some t =>
        rw [hk] at h
        simp only at h
        simp only [walk_from, walk_level_of_present create hp hk]
        exact ih st t pt h
    · cases h

theorem pml4e_walk_true_of_leaf {st : Kernel} {root va pt : Nat}
    (h : leaf_from st [PML4X va, PDPX va, PDX va] root = some (some pt)) :
    pml4e_walk st root va true = some (st, some (pt, PTX va)) := by
  rw [pml4e_walk_eq, walk_from_of_leaf true _ st root pt h]
  rfl

theorem mapped_twice_eq :
    page_insert mapped_once 2 6 0x1000 (PTE_U ||| PTE_P) = some (0, mapped_twice) :=
  option_pair_eq _ mapped_once (by decide)

/-- The call `page_decref(pp)` returns when the link of `pp` is null. -/
theorem page_decref_total (st : Kernel) (pp : Nat) (hlink : (st.pages pp).pp_link = none) :
    ∃ st', page_decref st pp = some st' := by
  unfold page_decref
  simp only
  split
  · rename_i hr
    unfold page_free
    rw [if_neg]
    · exact ⟨_, rfl⟩
    · simp only [setPage_pages, Function.update_same, not_or, not_not]
      exact ⟨hr, hlink⟩
  · exact ⟨_, rfl⟩

/-- A successful `page_insert` at an address that maps nothing: the walk
leaves a leaf entry that is not present, and the insert increments the count
of `pp` and writes the entry. -/
theorem page_insert_unmapped {st st' : Kernel} {l : List Nat} {root pp va perm : Nat}
    (hl : PageList st l) (hnp : st.npages ≤ 2 ^ 52) (hfb : ∀ f, f ∈ l → f < st.npages)
    (htab : ∀ c, c ∈ walk_cells st root va → c.1 ∉ l)
    (hnd : (walk_tables st root va).Nodup)
    (hun : page_lookup st root va = some none)
    (h : page_insert st root pp va perm = some (0, st')) :
    ∃ s1 pt l1, pml4e_walk st root va true = some (s1, some (pt, PTX va)) ∧
      st' = (incref s1 pp).write pt (PTX va) (page2pa pp ||| sext64 perm ||| PTE_P) ∧
      PageList s1 l1 ∧ (∀ f, f ∈ l1 → f ∈ l) ∧ s1.npages = st.npages ∧
      (∀ f, f ∉ l → s1.pages f = st.pages f) ∧
      (∀ f j, f ∉ l → present (st.mem f j) = true → s1.mem f j = st.mem f j) ∧
      leaf_from s1 [PML4X va, PDPX va, PDX va] root = some (some pt) ∧
      (s1 = st ∨ pt ∈ l) := by
  have h0 := h
  unfold page_insert at h0
  split at h0
  · cases h0
  · simp only [Option.some.injEq, Prod.mk.injEq] at h0
    exact absurd h0.1 (by decide)
  · rename_i st1 pt i hw
    have hw0 := hw
    rw [pml4e_walk_eq] at hw0
    simp only [Option.map_eq_some'] at hw0
    obtain ⟨⟨s1', r1⟩, hwf, he⟩ := hw0
    simp only [Prod.mk.injEq, Option.map_eq_some'] at he
    obtain ⟨hs, pt', hr1, hpt1, hpt2⟩ := he
    subst hs hr1 hpt1 hpt2
    obtain ⟨l1, hl1, hsub, hn1, hleaf1, hF, hpg, hG, hnd1, hdisj⟩ :=
      walk_from_create (PTX va) [PML4X va, PDPX va, PDX va] st l root s1' pt' hl hnp hfb
        htab hnd hwf
    have hnp : present (s1'.mem pt' (PTX va)) = false := by
      rcases hdisj with e | ⟨_, g⟩
      · subst e
        rw [page_lookup_eq, hleaf1] at hun
        simp only at hun
        cases hb : present (s1'.mem pt' (PTX va))
        · rfl
        · rw [hb] at hun
          simp only [if_true, Option.map_eq_some'] at hun
          obtain ⟨_, _, hx⟩ := hun
          cases hx
      · rw [g (PTX va), present_zero]
    have hnp2 : ¬ present ((incref s1' pp).mem pt' (PTX va)) = true := by
      show ¬ present (s1'.mem pt' (PTX va)) = true
      rw [hnp]
      decide
    simp only at h0
    rw [if_neg hnp2] at h0
    simp only [Option.some.injEq, Prod.mk.injEq, true_and] at h0
    refine ⟨s1', pt', l1, hw, h0.symm, hl1, hsub, hn1, hpg, hF, hleaf1, ?_⟩
    rcases hdisj with e | ⟨g, _⟩
    · exact Or.inl e
    · exact Or.inr g

/-- C26, as the program has it. With the 16-bit counts and a page free list
`l`, where the tables on the path of `va` are distinct and not free and `pp`
is a frame that is not free: when `va` maps nothing, a `page_insert(root, pp,
va, perm)` that returns 0 followed by `page_remove(root, va)` leaves every
frame that was not free before the insert with the count it had, and every
frame when the page table of `va` existed before the insert. -/
theorem insert_remove_refcount (st st1 : Kernel) (l : List Nat) (root pp va perm : Nat)
    (hl : PageList st l) (hnp : st.npages ≤ 2 ^ 52) (hfb : ∀ f, f ∈ l → f < st.npages)
    (htab : ∀ c, c ∈ walk_cells st root va → c.1 ∉ l)
    (hnd : (walk_tables st root va).Nodup)
    (hpp : pp ∉ l) (hppn : pp < st.npages) (hperm : perm < 2 ^ 12)
    (href : (st.pages pp).pp_ref < 65536)
    (hun : page_lookup st root va = some none)
    (h : page_insert st root pp va perm = some (0, st1)) :
    ∃ st2, page_remove st1 root va = some st2 ∧
      (∀ f, f ∉ l → (st2.pages f).pp_ref = (st.pages f).pp_ref) ∧
      ((∃ pt, leaf_from st [PML4X va, PDPX va, PDX va] root = some (some pt)) →
        ∀ f, (st2.pages f).pp_ref = (st.pages f).pp_ref) := by
  obtain ⟨pt, _, hlook1, _, _, _, _, _⟩ :=
    page_insert_spec hl hnp hfb htab hnd hpp hppn hperm h
  obtain ⟨s1, pt1, l1, hw, hst1, hl1, hsub, hn1, hpg, hF, hleaf1, hdisj⟩ :=
    page_insert_unmapped hl hnp hfb htab hnd hun h
  have hpages1 : ∀ f, st1.pages f = (incref s1 pp).pages f := by
    intro f
    rw [hst1]
    rfl
  have hpp1 : st1.pages pp =
      { st.pages pp with pp_ref := ((st.pages pp).pp_ref + 1) % 65536 } := by
    rw [hpages1]
    simp only [incref, setPage_pages, Function.update_same, hpg pp hpp]
  have hoth1 : ∀ f, f ≠ pp → st1.pages f = s1.pages f := by
    intro f hf
    rw [hpages1]
    simp only [incref, setPage_pages, Function.update_noteq hf]
  have hlink : (st1.pages pp).pp_link = none := by
    rw [hpp1]
    exact hl.2.2.2 pp hpp
  obtain ⟨s2, hdec⟩ := page_decref_total st1 pp hlink
  obtain ⟨_, _, hd3, hd4⟩ := page_decref_effect hdec
  have hrem : page_remove st1 root va = some (s2.write pt (PTX va) 0) := by
    simp only [page_remove, hlook1, hdec]
  have hcount : ((s2.write pt (PTX va) 0).pages pp).pp_ref = (st.pages pp).pp_ref := by
    show (s2.pages pp).pp_ref = _
    rw [hd3, hpp1]
    simp only
    omega
  have hother : ∀ f, f ≠ pp → (s2.write pt (PTX va) 0).pages f = s1.pages f := by
    intro f hf
    show s2.pages f = _
    rw [hd4 f hf, hoth1 f hf]
  refine ⟨_, hrem, fun f hf => ?_, fun hex f => ?_⟩
  · by_cases hfp : f = pp
    · subst hfp
      exact hcount
    · rw [hother f hfp, hpg f hf]
  · by_cases hfp : f = pp
    · subst hfp
      exact hcount
    · rw [hother f hfp]
      obtain ⟨pt0, hpt0⟩ := hex
      have hs : s1 = st := by
        rcases hdisj with e | g
        · exact e
        · exfalso
          have hsame : leaf_from s1 [PML4X va, PDPX va, PDX va] root = some (some pt0) := by
            rw [← hpt0]
            refine (leaf_from_congr hn1 _ root ?_).1
            intro c hc
            have hpr := (leaf_from_present st _ root pt0 hpt0).1 c hc
            exact hF c.1 c.2 (htab c
              ((cells_from_append st (PTX va) [PML4X va, PDPX va, PDX va] root).1 c hc)) hpr
          rw [hleaf1] at hsame
          simp only [Option.some.injEq] at hsame
          subst hsame
          exact htab (pt1, PTX va)
            ((cells_from_append st (PTX va) [PML4X va, PDPX va, PDX va] root).2 pt1 hpt0) g
      rw [hs]

/-- Two calls of `page_insert` followed by `page_remove` on `mapped_once`,
where frame 6 is mapped at address 0 with count 1 and frame 9 is free.
Inserting frame 6 at address 0 again and removing address 0 leaves frame 6
with count 0. Inserting frame 6 at `0x200000`, whose page table does not
exist, and removing `0x200000` leaves frame 9, now a page table, with
count 1. -/
theorem insert_remove_counterexample :
    (mapped_once.pages 6).pp_ref = 1 ∧
    (page_insert mapped_once 2 6 0 7).map (fun r => r.1) = some 0 ∧
    ((page_insert mapped_once 2 6 0 7).bind (fun r => page_remove r.2 2 0)).map
      (fun s => (s.pages 6).pp_ref) = some 0 ∧
    (mapped_once.pages 9).pp_ref = 0 ∧
    (page_insert mapped_once 2 6 0x200000 7).map (fun r => r.1) = some 0 ∧
    ((page_insert mapped_once 2 6 0x200000 7).bind (fun r => page_remove r.2 2 0x200000)).map
      (fun s => ((s.pages 6).pp_ref, (s.pages 9).pp_ref)) = some (1, 1) := by
  decide

/-- On `mapped_once`, frame 6 is inserted at `0x1000`, which maps nothing
and whose page table exists, and `0x1000` is removed: every count is as
before. -/
theorem insert_remove_refcount_witness :
    page_lookup mapped_once 2 0x1000 = some none ∧
    page_insert mapped_once 2 6 0x1000 (PTE_U ||| PTE_P) = some (0, mapped_twice) ∧
    ∃ st2, page_remove mapped_twice 2 0x1000 = some st2 ∧
      ∀ f, (st2.pages f).pp_ref = (mapped_once.pages f).pp_ref := by
  obtain ⟨st2, h2, _, hall⟩ :=
    insert_remove_refcount mapped_once mapped_twice [9, 10, 11, 12, 13, 14, 15] 2 6 0x1000
      (PTE_U ||| PTE_P) mapped_once_pageList (by decide) (by decide) (by decide) (by decide)
      (by decide) (by decide) (by decide) (by decide) (by decide) mapped_twice_eq
  exact ⟨by decide, mapped_twice_eq, st2, h2, hall ⟨8, by decide⟩⟩

/-! ## Address spaces as trees -/

theorem userPath_prefix : ∀ (p q : List Nat), UserPath (p ++ q) → UserPath p
  | [], _, _ => trivial
  | [_], [], h => h
  | [_], _ :: _, h => h.1
  | _ :: _ :: _, _, h => h

theorem userPath_table_path (va : Nat) (h : va < KERNBASE) : UserPath (table_path va) := by
  have h1 : va >>> 39 = 0 := by
    rw [Nat.shiftRight_eq_div_pow]
    have : va < 2 ^ 39 := lt_trans h (by decide)
    exact Nat.div_eq_of_lt this
  have h2 : va >>> 30 < 3 := by
    rw [Nat.shiftRight_eq_div_pow]
    have : va < 3 * 2 ^ 30 := h
    omega
  refine ⟨?_, ?_⟩
  · show (va >>> 39) &&& 0x1FF = 0
    rw [h1]
    rfl
  · show (va >>> 30) &&& 0x1FF < 3
    exact lt_of_le_of_lt Nat.and_le_left h2

theorem leaf_from_append (st : Kernel) (p q : List Nat) :
    ∀ tbl, leaf_from st (p ++ q) tbl =
      match leaf_from st p tbl with
      | none => none
      | some none => some none
      | some (some t) => leaf_from st q t := by
  induction p with
  | nil => intro tbl; rfl
  | cons i rest ih =>
    intro tbl
    simp only [List.cons_append, leaf_from]
    split
    · cases hk : KADDR st (PTE_ADDR (st.mem tbl i)) with
      | none => rfl
      | some t => exact ih t
    · rfl

/-- The tables read on a path of the first three gigabytes carry the
prefixes of the path as labels. -/
theorem tree_cells {st : Kernel} {l : List Nat} {root : Nat} {lab : Nat → Option (List Nat)}
    (ht : TableTree st l root lab) (q : List Nat) :
    ∀ (p : List Nat) (t : Nat), lab t = some p → p.length + q.length ≤ 4 →
      UserPath (p ++ q) →
      ∀ c, c ∈ cells_from st q t → ∃ k, k < q.length ∧ lab c.1 = some (p ++ q.take k) := by
  induction q with
  | nil => intro p t _ _ _ c hc; simp [cells_from] at hc
  | cons i rest ih =>
    intro p t hp hlen hu c hc
    simp only [cells_from, List.mem_cons] at hc
    rcases hc with hc | hc
    · subst hc
      exact ⟨0, by simp, by simpa using hp⟩
    · split at hc
      · rename_i hpres
        cases rest with
        | nil =>
          cases hk : KADDR st (PTE_ADDR (st.mem t i)) with
          | none => rw [hk] at hc; simp at hc
          | some t' => rw [hk] at hc; simp [cells_from] at hc
        | cons j rest2 =>
          have hlen3 : p.length < 3 := by
            simp only [List.length_cons] at hlen
            omega
          have hu1 : UserPath (p ++ [i]) := by
            have : p ++ i :: j :: rest2 = (p ++ [i]) ++ (j :: rest2) := by simp
            rw [this] at hu
            exact userPath_prefix _ _ hu
          obtain ⟨t', hk, hl'⟩ := ht.step t p i hp hlen3 hu1 hpres
          rw [hk] at hc
          simp only at hc
          obtain ⟨k, hk1, hk2⟩ := ih (p ++ [i]) t' hl'
            (by simp only [List.length_append, List.length_cons, List.length_nil] at hlen ⊢; omega)
            (by simpa using hu) c hc
          refine ⟨k + 1, by simp only [List.length_cons] at hk1 ⊢; omega, ?_⟩
          rw [hk2]
          simp
      · simp at hc

/-- The tables on the path of an address below `KERNBASE` are distinct and
not free. -/
theorem tree_walk_cells {st : Kernel} {l : List Nat} {root : Nat}
    {lab : Nat → Option (List Nat)} (ht : TableTree st l root lab) (va : Nat)
    (hva : UserPath (table_path va)) :
    (∀ c, c ∈ walk_cells st root va → c.1 ∉ l) ∧ (walk_tables st root va).Nodup := by
  have hu4 : UserPath ([] ++ [PML4X va, PDPX va, PDX va, PTX va]) := hva
  have hall := tree_cells ht [PML4X va, PDPX va, PDX va, PTX va] [] root ht.root_lab (by simp) hu4
  refine ⟨fun c hc => ?_, ?_⟩
  · obtain ⟨k, _, hk⟩ := hall c hc
    exact ht.notfree _ _ hk
  · have gen : ∀ (q p : List Nat) (t : Nat), lab t = some p → p.length + q.length ≤ 4 →
        UserPath (p ++ q) → ((cells_from st q t).map (fun c => c.1)).Nodup := by
      intro q
      induction q with
      | nil => intro p t _ _ _; simp [cells_from]
      | cons i rest ih =>
        intro p t hp hlen hu
        simp only [cells_from, List.map_cons, List.nodup_cons]
        split
        · rename_i hpres
          cases rest with
          | nil =>
            cases hk : KADDR st (PTE_ADDR (st.mem t i)) with
            | none => simp
            | some t' => simp [cells_from]
          | cons j rest2 =>
            have hlen3 : p.length < 3 := by
              simp only [List.length_cons] at hlen
              omega
            have hu1 : UserPath (p ++ [i]) := by
              have : p ++ i :: j :: rest2 = (p ++ [i]) ++ (j :: rest2) := by simp
              rw [this] at hu
              exact userPath_prefix _ _ hu
            obtain ⟨t', hk, hl'⟩ := ht.step t p i hp hlen3 hu1 hpres
            rw [hk]
            simp only
            have hlen' : (p ++ [i]).length + (j :: rest2).length ≤ 4 := by
              simp only [List.length_append, List.length_cons, List.length_nil] at hlen ⊢
              omega
            have hu' : UserPath ((p ++ [i]) ++ j :: rest2) := by simpa using hu
            refine ⟨?_, ih (p ++ [i]) t' hl' hlen' hu'⟩
            intro hmem
            rw [List.mem_map] at hmem
            obtain ⟨c, hc, hct⟩ := hmem
            obtain ⟨k, _, hk2⟩ := tree_cells ht (j :: rest2) (p ++ [i]) t' hl' hlen' hu' c hc
            rw [hct, hp] at hk2
            simp only [Option.some.injEq] at hk2
            have := congrArg List.length hk2
            simp only [List.length_append, List.length_cons, List.length_nil] at this
            omega
        · simp
    exact gen _ [] root ht.root_lab (by simp) hu4

/-- A state that agrees with `st` on the number of frames and on the entries
of the tables above the leaf level has the same tree, for any free list that
holds no table. -/
theorem tableTree_congr {st st' : Kernel} {l l' : List Nat} {root : Nat}
    {lab : Nat → Option (List Nat)} (ht : TableTree st l root lab)
    (hn : st'.npages = st.npages)
    (hm : ∀ t q j, lab t = some q → q.length < 3 → st'.mem t j = st.mem t j)
    (hfree : ∀ t q, lab t = some q → t ∉ l') : TableTree st' l' root lab := by
  refine ⟨ht.root_lab, ?_, ?_, hfree⟩
  · intro t p i hp hlen hu hpres
    rw [hm t p i hp hlen] at hpres ⊢
    rw [KADDR_npages hn]
    exact ht.step t p i hp hlen hu hpres
  · intro t p hp
    obtain ⟨h1, h2, h3⟩ := ht.reach t p hp
    refine ⟨h1, h2, ?_⟩
    rw [← h3]
    refine (leaf_from_congr hn p root ?_).1
    intro c hc
    obtain ⟨k, hk, hlk⟩ := tree_cells ht p [] root ht.root_lab (by simp only [List.length_nil]; omega)
      (by simpa using h2) c hc
    refine hm c.1 _ c.2 hlk ?_
    simp only [List.nil_append, List.length_take]
    omega

/-- One level of the walk with `create`, from a table of the tree: the tree
is kept, with the new table, if one was allocated, labelled. -/
theorem tree_walk_level {s s1 : Kernel} {l : List Nat} {root tbl idx t : Nat}
    {lab : Nat → Option (List Nat)} {p : List Nat}
    (hl : PageList s l) (hnp : s.npages ≤ 2 ^ 52) (hfb : ∀ f, f ∈ l → f < s.npages)
    (ht : TableTree s l root lab) (hp : lab tbl = some p) (hlen : p.length < 3)
    (hu : UserPath (p ++ [idx]))
    (h : walk_level s tbl idx true = some (s1, some t)) :
    ∃ l1 lab1, PageList s1 l1 ∧ TableTree s1 l1 root lab1 ∧ lab1 t = some (p ++ [idx]) ∧
      (∀ f q, lab f = some q → lab1 f = some q) ∧
      (∀ f, f ∈ l1 → f ∈ l) ∧ s1.npages = s.npages ∧
      (∀ f, f ∉ l → s1.pages f = s.pages f) ∧
      (∀ f j, f ∉ l → (f, j) ≠ (tbl, idx) → s1.mem f j = s.mem f j) ∧
      ((s1 = s ∧ l1 = l ∧ lab1 = lab) ∨
        (present (s.mem tbl idx) = false ∧ l = t :: l1 ∧
          lab1 = Function.update lab t (some (p ++ [idx])) ∧ (∀ j, s1.mem t j = 0))) := by
  have htbl : tbl ∉ l := ht.notfree tbl p hp
  rcases walk_level_create hl hnp hfb htbl h with ⟨hpres, hs, hk⟩ |
    ⟨hpres, xs, hlx, hl1, hn1, hz, hfr, hpres1, hk1, hpg⟩
  · subst hs
    obtain ⟨t', hk', hl'⟩ := ht.step tbl p idx hp hlen hu hpres
    rw [hk] at hk'
    simp only [Option.some.injEq] at hk'
    subst hk'
    exact ⟨l, lab, hl, ht, hl', fun _ _ h => h, fun _ h => h, rfl, fun _ _ => rfl,
      fun _ _ _ _ => rfl, Or.inl ⟨rfl, rfl, rfl⟩⟩
  · have htl : t ∈ l := by rw [hlx]; exact List.mem_cons_self _ _
    have htlab : lab t = none := by
      cases hlt : lab t with
      | none => rfl
      | some q => exact absurd htl (ht.notfree t q hlt)
    have htx : t ∉ xs := by
      have hnd := hl.2.1
      rw [hlx] at hnd
      exact (List.nodup_cons.mp hnd).1
    have hne : ∀ f q, lab f = some q → f ≠ t := by
      intro f q hf e
      rw [e, htlab] at hf
      cases hf
    have hext : ∀ f q, lab f = some q → Function.update lab t (some (p ++ [idx])) f = some q := by
      intro f q hf
      rw [Function.update_noteq (hne f q hf)]
      exact hf
    have hold : ∀ f q, Function.update lab t (some (p ++ [idx])) f = some q → f ≠ t →
        lab f = some q := by
      intro f q hf hft
      rw [Function.update_noteq hft] at hf
      exact hf
    have hcell : ∀ f q j, lab f = some q → (f, j) ≠ (tbl, idx) → s1.mem f j = s.mem f j :=
      fun f q j hf hfj => hfr f j (hne f q hf) hfj
    refine ⟨xs, Function.update lab t (some (p ++ [idx])), hl1, ?_, ?_, hext, ?_, hn1, ?_, ?_,
      Or.inr ⟨hpres, hlx, rfl, hz⟩⟩
    · refine ⟨hext root [] ht.root_lab, ?_, ?_, ?_⟩
      · intro u q i hq hqlen hqu hqpres
        by_cases hut : u = t
        · subst hut
          rw [hz i, present_zero] at hqpres
          cases hqpres
        · have hq0 := hold u q hq hut
          by_cases hci : (u, i) = (tbl, idx)
          · simp only [Prod.mk.injEq] at hci
            obtain ⟨e1, e2⟩ := hci
            subst e1 e2
            rw [hp] at hq0
            simp only [Option.some.injEq] at hq0
            subst hq0
            exact ⟨t, hk1, by rw [Function.update_same]⟩
          · rw [hcell u q i hq0 hci] at hqpres ⊢
            rw [KADDR_npages hn1]
            obtain ⟨t', hk', hl'⟩ := ht.step u q i hq0 hqlen hqu hqpres
            exact ⟨t', hk', hext t' _ hl'⟩
      · intro u q hq
        by_cases hut : u = t
        · subst hut
          rw [Function.update_same] at hq
          simp only [Option.some.injEq] at hq
          subst hq
          obtain ⟨h1, h2, h3⟩ := ht.reach tbl p hp
          refine ⟨by simp only [List.length_append, List.length_cons, List.length_nil]; omega,
            hu, ?_⟩
          have hsame : leaf_from s1 p root = some (some tbl) := by
            rw [← h3]
            refine (leaf_from_congr hn1 p root ?_).1
            intro c hc
            obtain ⟨k, hk, hlk⟩ := tree_cells ht p [] root ht.root_lab (by simp only [List.length_nil]; omega)
              (by simpa using h2) c hc
            refine hcell c.1 _ c.2 hlk ?_
            intro e
            have e1 : c.1 = tbl := congrArg Prod.fst e
            rw [e1, hp] at hlk
            simp only [List.nil_append, Option.some.injEq] at hlk
            have := congrArg List.length hlk
            simp only [List.length_take] at this
            omega
          rw [leaf_from_append, hsame]
          simp only [leaf_from, hpres1, if_true, hk1]
        · have hq0 := hold u q hq hut
          obtain ⟨h1, h2, h3⟩ := ht.reach u q hq0
          refine ⟨h1, h2, ?_⟩
          rw [← h3]
          refine (leaf_from_congr hn1 q root ?_).1
          intro c hc
          have hpr := (leaf_from_present s q root u h3).1 c hc
          obtain ⟨k, hk, hlk⟩ := tree_cells ht q [] root ht.root_lab (by simp only [List.length_nil]; omega)
            (by simpa using h2) c hc
          refine hcell c.1 _ c.2 hlk ?_
          intro e
          have e1 : c.1 = tbl := congrArg Prod.fst e
          have e2 : c.2 = idx := congrArg Prod.snd e
          rw [e1, e2, hpres] at hpr
          cases hpr
      · intro u q hq
        by_cases hut : u = t
        · subst hut
          exact htx
        · have hq0 := hold u q hq hut
          intro hux
          exact ht.notfree u q hq0 (by rw [hlx]; exact List.mem_cons_of_mem _ hux)
    · rw [Function.update_same]
    · intro f hf
      rw [hlx]
      exact List.mem_cons_of_mem _ hf
    · intro f hf
      exact hpg f (fun e => hf (e ▸ htl))
    · intro f j hf hfj
      exact hfr f j (fun e => hf (e ▸ htl)) hfj

/-- The walk with `create` from a table of the tree, along a path of the
first three gigabytes: the tree is kept, with the tables allocated on the
way labelled. Of the frames that were not free, only entries on the path that
were not present have changed; a new table holds nothing but its entry on the
path. -/
theorem tree_walk {root : Nat} (idxs : List Nat) :
    ∀ (s : Kernel) (l : List Nat) (lab : Nat → Option (List Nat)) (tbl : Nat) (p : List Nat)
      (s' : Kernel) (pt : Nat),
      PageList s l → s.npages ≤ 2 ^ 52 → (∀ f, f ∈ l → f < s.npages) →
      TableTree s l root lab → lab tbl = some p → p.length + idxs.length ≤ 3 →
      UserPath (p ++ idxs) → walk_from true idxs s tbl = some (s', some pt) →
      ∃ l' lab', PageList s' l' ∧ TableTree s' l' root lab' ∧ lab' pt = some (p ++ idxs) ∧
        (∀ f q, lab f = some q → lab' f = some q) ∧
        (∀ f, f ∈ l' → f ∈ l) ∧ s'.npages = s.npages ∧
        (∀ f, f ∉ l → s'.pages f = s.pages f) ∧
        (∀ f j, f ∉ l → s'.mem f j ≠ s.mem f j →
          present (s.mem f j) = false ∧
          ∃ k, lab f = some (p ++ idxs.take k) ∧ idxs[k]? = some j) ∧
        (∀ f q, lab f = none → lab' f = some q →
          f ∈ l ∧ f ∉ l' ∧ ∃ k, 0 < k ∧ q = p ++ idxs.take k ∧
            ∀ j, present (s'.mem f j) = true → idxs[k]? = some j) ∧
        l.length ≤ l'.length + idxs.length := by
  induction idxs with
  | nil =>
    intro s l lab tbl p s' pt hl _ _ ht hp _ _ h
    simp only [walk_from, Option.some.injEq, Prod.mk.injEq] at h
    obtain ⟨e1, e2⟩ := h
    subst e1 e2
    exact ⟨l, lab, hl, ht, by simpa using hp, fun _ _ h => h, fun _ h => h, rfl,
      fun _ _ => rfl, fun f j _ hne => absurd rfl hne,
      fun f q h1 h2 => (by rw [h1] at h2; cases h2), by simp⟩
  | cons idx rest ih =>
    intro s l lab tbl p s' pt hl hnp hfb ht hp hlen hu h
    simp only [walk_from] at h
    cases hw : walk_level s tbl idx true with
    | none => rw [hw] at h; cases h
    | some r =>
      obtain ⟨s1, r1⟩ := r
      cases r1 with
      | none => rw [hw] at h; simp at h
      | some t =>
        rw [hw] at h
        simp only at h
        have hlen3 : p.length < 3 := by
          simp only [List.length_cons] at hlen
          omega
        have hu1 : UserPath (p ++ [idx]) := by
          have : p ++ idx :: rest = (p ++ [idx]) ++ rest := by simp
          rw [this] at hu
          exact userPath_prefix _ _ hu
        obtain ⟨l1, lab1, hl1, ht1, hlt, hext1, hsub1, hn1, hpg1, hfr1, hcase⟩ :=
          tree_walk_level hl hnp hfb ht hp hlen3 hu1 hw
        have hfb1 : ∀ f, f ∈ l1 → f < s1.npages := fun f hf => by
          rw [hn1]; exact hfb f (hsub1 f hf)
        obtain ⟨l', lab', hl', ht', hlpt, hext', hsub', hn', hpg', hch', hnew', hlen'⟩ :=
          ih s1 l1 lab1 t (p ++ [idx]) s' pt hl1 (by rw [hn1]; exact hnp) hfb1 ht1 hlt
            (by simp only [List.length_append, List.length_cons, List.length_nil] at hlen ⊢
                omega)
            (by simpa using hu) h
        have hnl1 : ∀ f, f ∉ l → f ∉ l1 := fun f hf hf1 => hf (hsub1 f hf1)
        have hlabeq : ∀ f, f ∉ l → lab1 f = lab f := by
          intro f hf
          rcases hcase with ⟨_, _, e⟩ | ⟨_, hlx, e, _⟩
          · rw [e]
          · rw [e, Function.update_noteq]
            intro eft
            exact hf (by rw [hlx, eft]; exact List.mem_cons_self _ _)
        refine ⟨l', lab', hl', ht', by simpa using hlpt, fun f q hf => hext' f q (hext1 f q hf),
          fun f hf => hsub1 f (hsub' f hf), hn'.trans hn1,
          fun f hf => (hpg' f (hnl1 f hf)).trans (hpg1 f hf), ?_, ?_, ?_⟩
        · intro f j hf hne
          by_cases h1 : s1.mem f j = s.mem f j
          · rw [← h1] at hne
            obtain ⟨hab, k, hk1, hk2⟩ := hch' f j (hnl1 f hf) hne
            rw [h1] at hab
            refine ⟨hab, k + 1, ?_, ?_⟩
            · rw [← hlabeq f hf, hk1]
              simp
            · simpa using hk2
          · have hcell : (f, j) = (tbl, idx) := by
              by_contra hc
              exact h1 (hfr1 f j hf hc)
            simp only [Prod.mk.injEq] at hcell
            obtain ⟨e1, e2⟩ := hcell
            subst e1 e2
            rcases hcase with ⟨e, _, _⟩ | ⟨hab, _, _, _⟩
            · rw [e] at h1
              exact absurd rfl h1
            · exact ⟨hab, 0, by simpa using hp, by simp⟩
        · intro f q hf hq
          cases hf1 : lab1 f with
          | none =>
            obtain ⟨a1, a2, k, a3, a4, a5⟩ := hnew' f q hf1 hq
            refine ⟨hsub1 f a1, a2, k + 1, by omega, ?_, ?_⟩
            · rw [a4]; simp
            · intro j hj
              simpa using a5 j hj
          | some q1 =>
            have hq1 := hext' f q1 hf1
            rw [hq] at hq1
            simp only [Option.some.injEq] at hq1
            subst hq1
            rcases hcase with ⟨_, _, e⟩ | ⟨_, hlx, e, hz⟩
            · rw [e, hf] at hf1
              cases hf1
            · have hft : f = t := by
                by_contra hc
                rw [e, Function.update_noteq hc, hf] at hf1
                cases hf1
              subst hft
              rw [hlt] at hf1
              simp only [Option.some.injEq] at hf1
              have hfl : f ∈ l := by rw [hlx]; exact List.mem_cons_self _ _
              have hfl1 : f ∉ l1 := by
                have hnd := hl.2.1
                rw [hlx] at hnd
                exact (List.nodup_cons.mp hnd).1
              refine ⟨hfl, fun hc => hfl1 (hsub' f hc), 1, by omega, by rw [← hf1]; simp, ?_⟩
              intro j hj
              have hne : s'.mem f j ≠ s1.mem f j := by
                intro e2
                rw [e2, hz j, present_zero] at hj
                cases hj
              obtain ⟨_, k, hk1, hk2⟩ := hch' f j hfl1 hne
              rw [hlt] at hk1
              simp only [Option.some.injEq] at hk1
              have hlenk := congrArg List.length hk1
              simp only [List.length_append, List.length_take, List.length_cons,
                List.length_nil] at hlenk
              have hk0 : k = 0 := by
                by_contra hc
                have : rest.length = 0 := by omega
                have hrest : rest = [] := List.length_eq_zero.mp this
                rw [hrest] at hk2
                simp at hk2
              subst hk0
              simpa using hk2
        · simp only [List.length_cons]
          rcases hcase with ⟨_, e, _⟩ | ⟨_, e, _, _⟩
          · rw [e] at hlen'
            omega
          · rw [e]
            simp only [List.length_cons]
            omega

/-- Below a table of the tree, along a path of the first three gigabytes,
`KADDR` does not panic, and the table reached carries the path as its
label. -/
theorem tree_leaf {st : Kernel} {l : List Nat} {root : Nat} {lab : Nat → Option (List Nat)}
    (ht : TableTree st l root lab) (q : List Nat) :
    ∀ (p : List Nat) (t : Nat), lab t = some p → p.length + q.length ≤ 3 →
      UserPath (p ++ q) →
      leaf_from st q t ≠ none ∧
      ∀ pt, leaf_from st q t = some (some pt) → lab pt = some (p ++ q) := by
  induction q with
  | nil =>
    intro p t hp _ _
    refine ⟨by simp [leaf_from], fun pt h => ?_⟩
    simp only [leaf_from, Option.some.injEq] at h
    subst h
    simpa using hp
  | cons i rest ih =>
    intro p t hp hlen hu
    have hlen3 : p.length < 3 := by
      simp only [List.length_cons] at hlen
      omega
    have hu1 : UserPath (p ++ [i]) := by
      have : p ++ i :: rest = (p ++ [i]) ++ rest := by simp
      rw [this] at hu
      exact userPath_prefix _ _ hu
    simp only [leaf_from]
    split
    · rename_i hpres
      obtain ⟨t', hk, hl'⟩ := ht.step t p i hp hlen3 hu1 hpres
      rw [hk]
      simp only
      have := ih (p ++ [i]) t' hl'
        (by simp only [List.length_append, List.length_cons, List.length_nil] at hlen ⊢; omega)
        (by simpa using hu)
      simpa using this
    · exact ⟨by simp, fun pt h => by simp at h⟩

/-- The table path of an address has three indices. -/
theorem table_path_length (va : Nat) : (table_path va).length = 3 := rfl

/-- The walk of `pml4e_walk` with `create`, for an address of the first
three gigabytes, followed by a store in the leaf entry: the tree is kept, the
leaf entry of every other page is what it was, frames that were neither free
nor tables are untouched. -/
theorem tree_walk_write {s s1 s2 : Kernel} {l : List Nat} {root va pt v : Nat}
    {lab : Nat → Option (List Nat)}
    (hl : PageList s l) (hnp : s.npages ≤ 2 ^ 52) (hfb : ∀ f, f ∈ l → f < s.npages)
    (ht : TableTree s l root lab) (hva : UserPath (table_path va))
    (hw : pml4e_walk s root va true = some (s1, some (pt, PTX va)))
    (hn2 : s2.npages = s1.npages)
    (hm2 : ∀ f j, s2.mem f j = if (f, j) = (pt, PTX va) then v else s1.mem f j) :
    ∃ l' lab', PageList s1 l' ∧ TableTree s2 l' root lab' ∧ lab' pt = some (table_path va) ∧
      (∀ f q, lab f = some q → lab' f = some q) ∧
      (∀ f q, lab f = none → lab' f = some q → f ∈ l ∧ f ∉ l') ∧
      (∀ f, f ∈ l' → f ∈ l) ∧ s1.npages = s.npages ∧
      (∀ f, f ∉ l → s1.pages f = s.pages f) ∧
      leaf_from s2 (table_path va) root = some (some pt) ∧
      (∀ f j, f ∉ l → lab' f = none → s2.mem f j = s.mem f j) ∧
      (present (s1.mem pt (PTX va)) = true → s1 = s) ∧ l.length ≤ l'.length + 3 ∧
      (∀ t q j, lab' t = some q → q.length < 3 → present (s2.mem t j) = true →
        (lab t = some q ∧ present (s.mem t j) = true) ∨ (q ++ [j]) <+: table_path va) ∧
      ∀ va', UserPath (table_path va') →
        (table_path va', PTX va') ≠ (table_path va, PTX va) →
        (∀ pt', leaf_from s (table_path va') root = some (some pt') →
          leaf_from s2 (table_path va') root = some (some pt') ∧
          s2.mem pt' (PTX va') = s.mem pt' (PTX va')) ∧
        (leaf_from s (table_path va') root = some none →
          leaf_from s2 (table_path va') root = some none ∨
          ∃ pt', leaf_from s2 (table_path va') root = some (some pt') ∧
            present (s2.mem pt' (PTX va')) = false) := by
  have hw0 := hw
  rw [pml4e_walk_eq] at hw0
  simp only [Option.map_eq_some'] at hw0
  obtain ⟨⟨s1', r1⟩, hwf, he⟩ := hw0
  simp only [Prod.mk.injEq, Option.map_eq_some'] at he
  obtain ⟨hs, pt', hr1, hpt1, _⟩ := he
  subst hs hr1 hpt1
  obtain ⟨l', lab', hl', ht', hlpt, hext, hsub, hn1, hpg, hch, hnew, hlen⟩ :=
    tree_walk (table_path va) s l lab root [] s1' pt' hl hnp hfb ht ht.root_lab
      (by simp [table_path_length]) (by simpa using hva) hwf
  simp only [List.nil_append] at hlpt hch hnew
  have hn20 : s2.npages = s.npages := hn2.trans hn1
  -- the store leaves the upper tables alone
  have hup : ∀ t q j, lab' t = some q → q.length < 3 → s2.mem t j = s1'.mem t j := by
    intro t q j hq hlen
    rw [hm2, if_neg]
    intro e
    have e1 : t = pt' := congrArg Prod.fst e
    rw [e1, hlpt] at hq
    simp only [Option.some.injEq] at hq
    rw [← hq, table_path_length] at hlen
    omega
  have ht2 : TableTree s2 l' root lab' := tableTree_congr ht' hn2 hup ht'.notfree
  have hleaf2 : leaf_from s2 (table_path va) root = some (some pt') :=
    (ht2.reach pt' _ hlpt).2.2
  -- an entry of a table of the old tree changes only where it was absent
  have hold : ∀ t q j, lab t = some q → q.length < 3 → present (s.mem t j) = true →
      s2.mem t j = s.mem t j := by
    intro t q j hq hlen hpres
    rw [hup t q j (hext t q hq) hlen]
    by_contra hne
    obtain ⟨hab, _⟩ := hch t j (ht.notfree t q hq) hne
    rw [hab] at hpres
    cases hpres
  have hleafcell : ∀ t j, lab t = some (table_path va) ∨ (∃ q, lab t = some q ∧ q.length = 3) →
      s1'.mem t j = s.mem t j := by
    intro t j hq
    have hq3 : ∃ q, lab t = some q ∧ q.length = 3 := by
      rcases hq with h | h
      · exact ⟨_, h, table_path_length va⟩
      · exact h
    obtain ⟨q, hq1, hq2⟩ := hq3
    by_contra hne
    obtain ⟨_, k, hk1, hk2⟩ := hch t j (ht.notfree t q hq1) hne
    rw [hq1] at hk1
    simp only [Option.some.injEq] at hk1
    have hlenk := congrArg List.length hk1
    rw [hq2, List.length_take, table_path_length] at hlenk
    have hk3 : k < (table_path va).length := by
      by_contra hc
      rw [List.getElem?_eq_none (by omega)] at hk2
      cases hk2
    rw [table_path_length] at hk3
    omega
  have hpre : ∀ (k j : Nat), (table_path va)[k]? = some j →
      ((table_path va).take k ++ [j]) <+: table_path va := by
    intro k j hk
    have e : (table_path va).take (k + 1) = (table_path va).take k ++ [j] := by
      rw [List.take_succ, hk]
      rfl
    rw [← e]
    exact List.take_prefix _ _
  have hshape : ∀ t q j, lab' t = some q → q.length < 3 → present (s2.mem t j) = true →
      (lab t = some q ∧ present (s.mem t j) = true) ∨ (q ++ [j]) <+: table_path va := by
    intro t q j hq hqlen hpres
    rw [hup t q j hq hqlen] at hpres
    cases hlt : lab t with
    | some q' =>
      have hq' := hext t q' hlt
      rw [hq] at hq'
      simp only [Option.some.injEq] at hq'
      subst hq'
      by_cases hsame : s1'.mem t j = s.mem t j
      · left
        rw [hsame] at hpres
        exact ⟨rfl, hpres⟩
      · right
        obtain ⟨_, k, hk1, hk2⟩ := hch t j (ht.notfree t q hlt) hsame
        rw [hlt] at hk1
        simp only [Option.some.injEq] at hk1
        rw [hk1]
        exact hpre k j hk2
    | none =>
      right
      obtain ⟨_, _, k, _, hk1, hk2⟩ := hnew t q hlt hq
      rw [hk1]
      exact hpre k j (hk2 j hpres)
  refine ⟨l', lab', hl', ht2, hlpt, hext, fun f q h1 h2 => ⟨(hnew f q h1 h2).1,
    (hnew f q h1 h2).2.1⟩, hsub, hn1, hpg, hleaf2, ?_, ?_, hlen, hshape, ?_⟩
  · intro f j hf hlf
    rw [hm2, if_neg]
    · by_contra hne
      obtain ⟨_, k, hk1, _⟩ := hch f j hf hne
      have := hext f _ hk1
      rw [hlf] at this
      cases this
    · intro e
      have e1 : f = pt' := congrArg Prod.fst e
      rw [e1, hlpt] at hlf
      cases hlf
  · intro hpres
    by_contra hne
    -- a present leaf entry after the walk means the page table is old
    cases hlp : lab pt' with
    | none =>
      obtain ⟨_, _, k, hk0, hk1, hk2⟩ := hnew pt' _ hlp hlpt
      have hk := hk2 (PTX va) hpres
      have hlenk := congrArg List.length hk1
      rw [List.length_take, table_path_length] at hlenk
      rw [List.getElem?_eq_none (by rw [table_path_length]; omega)] at hk
      cases hk
    | some q =>
      have hq := hext pt' q hlp
      rw [hlpt] at hq
      simp only [Option.some.injEq] at hq
      subst hq
      have hr := (ht.reach pt' _ hlp).2.2
      have hwl : walk_from true [PML4X va, PDPX va, PDX va] s root = some (s, some pt') :=
        walk_from_of_leaf true (table_path va) s root pt' hr
      rw [hwl] at hwf
      simp only [Option.some.injEq, Prod.mk.injEq] at hwf
      exact hne hwf.1.symm
  · intro va' hva' hne
    have hu' : UserPath ([] ++ table_path va') := by simpa using hva'
    refine ⟨fun pt0 hpt0 => ?_, fun hnone => ?_⟩
    · have hlab0 : lab pt0 = some (table_path va') := by
        have := (tree_leaf ht (table_path va') [] root ht.root_lab
          (by simp [table_path_length]) hu').2 pt0 hpt0
        simpa using this
      refine ⟨?_, ?_⟩
      · rw [← hpt0]
        refine (leaf_from_congr hn20 _ root ?_).1
        intro c hc
        have hpr := (leaf_from_present s _ root pt0 hpt0).1 c hc
        obtain ⟨k, hk, hlk⟩ := tree_cells ht (table_path va') [] root ht.root_lab
          (by simp [table_path_length]) hu' c hc
        refine hold c.1 _ c.2 hlk ?_ hpr
        simp only [List.nil_append, List.length_take, table_path_length] at hk ⊢
        omega
      · rw [hm2, if_neg]
        · exact hleafcell pt0 _ (Or.inr ⟨_, hlab0, table_path_length va'⟩)
        · intro e
          have e1 : pt0 = pt' := congrArg Prod.fst e
          have e2 : PTX va' = PTX va := congrArg Prod.snd e
          have h1 := hext pt0 _ hlab0
          rw [e1, hlpt] at h1
          simp only [Option.some.injEq] at h1
          exact hne (by rw [h1, e2])
    · have hu2 := tree_leaf ht2 (table_path va') [] root ht2.root_lab
        (by simp [table_path_length]) hu'
      cases hl2 : leaf_from s2 (table_path va') root with
      | none => exact absurd hl2 hu2.1
      | some r =>
        cases r with
        | none => exact Or.inl rfl
        | some pt0 =>
          right
          refine ⟨pt0, rfl, ?_⟩
          have hlab0 : lab' pt0 = some (table_path va') := by
            have := hu2.2 pt0 hl2
            simpa using this
          cases hlp : lab pt0 with
          | some q =>
            have hq := hext pt0 q hlp
            rw [hlab0] at hq
            simp only [Option.some.injEq] at hq
            subst hq
            have hr := (ht.reach pt0 _ hlp).2.2
            rw [hnone] at hr
            cases hr
          | none =>
            obtain ⟨_, _, k, hk0, hk1, hk2⟩ := hnew pt0 _ hlp hlab0
            have hlenk := congrArg List.length hk1
            rw [List.length_take, table_path_length, table_path_length] at hlenk
            have hk3 : 3 ≤ k := by omega
            have hsame : table_path va' = table_path va := by
              rw [hk1, List.take_of_length_le (by rw [table_path_length]; exact hk3)]
            have hpt : pt0 = pt' := by
              rw [hsame, hleaf2] at hl2
              simp only [Option.some.injEq] at hl2
              exact hl2.symm
            have hx : PTX va' ≠ PTX va := fun e => hne (by rw [hsame, e])
            cases hb : present (s2.mem pt0 (PTX va')) with
            | false => rfl
            | true =>
              rw [hm2, if_neg (fun e => hx (congrArg Prod.snd e))] at hb
              have hk := hk2 (PTX va') hb
              rw [List.getElem?_eq_none (by rw [table_path_length]; exact hk3)] at hk
              cases hk

theorem write_mem_cell (st : Kernel) (f i v a b : Nat) :
    (st.write f i v).mem a b = if (a, b) = (f, i) then v else st.mem a b := by
  simp only [write_mem, Prod.mk.injEq]
  by_cases ha : a = f
  · subst ha
    by_cases hb : b = i
    · subst hb
      simp
    · simp [Function.update_noteq hb, hb]
  · simp [Function.update_noteq ha, ha]

/-- The lookup of a page in terms of its leaf entry: two states with the same
number of frames, the same leaf table for `va` and the same leaf entry give
the same result. -/
theorem page_lookup_of_leaf {s s' : Kernel} {root va : Nat} (hn : s'.npages = s.npages)
    (h : (∀ pt, leaf_from s (table_path va) root = some (some pt) →
        leaf_from s' (table_path va) root = some (some pt) ∧
        s'.mem pt (PTX va) = s.mem pt (PTX va)) ∧
      (leaf_from s (table_path va) root = some none →
        leaf_from s' (table_path va) root = some none ∨
        ∃ pt, leaf_from s' (table_path va) root = some (some pt) ∧
          present (s'.mem pt (PTX va)) = false))
    (hne : leaf_from s (table_path va) root ≠ none) :
    page_lookup s' root va = page_lookup s root va ∧
    ∀ q slot, page_lookup s root va = some (some (q, slot)) →
      s'.mem slot.1 slot.2 = s.mem slot.1 slot.2 := by
  have hs := page_lookup_eq s root va
  have hs' := page_lookup_eq s' root va
  change page_lookup s root va = match leaf_from s (table_path va) root with
    | none => none
    | some none => some none
    | some (some pt) =>
      if present (s.mem pt (PTX va)) then
        (pa2page s (PTE_ADDR (s.mem pt (PTX va)))).map (fun pp => some (pp, (pt, PTX va)))
      else some none at hs
  change page_lookup s' root va = match leaf_from s' (table_path va) root with
    | none => none
    | some none => some none
    | some (some pt) =>
      if present (s'.mem pt (PTX va)) then
        (pa2page s' (PTE_ADDR (s'.mem pt (PTX va)))).map (fun pp => some (pp, (pt, PTX va)))
      else some none at hs'
  cases hl : leaf_from s (table_path va) root with
  | none => exact absurd hl hne
  | some r =>
    cases r with
    | none =>
      rw [hl] at hs
      simp only at hs
      refine ⟨?_, fun q slot hq => ?_⟩
      · rw [hs]
        rcases h.2 hl with h2 | ⟨pt, h2, h3⟩
        · rw [h2] at hs'
          exact hs'
        · rw [h2] at hs'
          simp only [h3, Bool.false_eq_true, if_false] at hs'
          exact hs'
      · rw [hs] at hq
        cases hq
    | some pt =>
      obtain ⟨h1, h2⟩ := h.1 pt hl
      rw [hl] at hs
      rw [h1] at hs'
      simp only at hs hs'
      rw [h2, pa2page_npages hn] at hs'
      refine ⟨hs'.trans hs.symm, fun q slot hq => ?_⟩
      rw [hs] at hq
      split at hq
      · simp only [Option.map_eq_some'] at hq
        obtain ⟨_, _, hx⟩ := hq
        simp only [Option.some.injEq, Prod.mk.injEq] at hx
        rw [← hx.2]
        exact h2
      · cases hq

/-- A successful `page_insert` of a frame that is neither free nor a table,
at an address of the first three gigabytes that maps nothing: the tree is
kept, the address maps the frame, every other page is mapped as before, and
frames that were neither free nor tables keep their contents. -/
theorem tree_page_insert {s s' : Kernel} {l : List Nat} {root pp va perm : Nat}
    {lab : Nat → Option (List Nat)}
    (hl : PageList s l) (hnp : s.npages ≤ 2 ^ 52) (hfb : ∀ f, f ∈ l → f < s.npages)
    (ht : TableTree s l root lab) (hva : UserPath (table_path va))
    (hpp : pp ∉ l) (hlpp : lab pp = none) (hppn : pp < s.npages) (hperm : perm < 2 ^ 12)
    (hun : page_lookup s root va = some none)
    (h : page_insert s root pp va perm = some (0, s')) :
    ∃ l' lab' pt, PageList s' l' ∧ TableTree s' l' root lab' ∧
      (∀ f q, lab f = some q → lab' f = some q) ∧
      (∀ f q, lab f = none → lab' f = some q → f ∈ l ∧ f ∉ l') ∧
      (∀ f, f ∈ l' → f ∈ l) ∧ s'.npages = s.npages ∧
      page_lookup s' root va = some (some (pp, (pt, PTX va))) ∧
      s'.mem pt (PTX va) = page2pa pp ||| perm ||| PTE_P ∧
      (∀ f, f ∉ l → f ≠ pp → s'.pages f = s.pages f) ∧
      s'.pages pp = { s.pages pp with pp_ref := ((s.pages pp).pp_ref + 1) % 65536 } ∧
      (∀ f j, f ∉ l → lab' f = none → s'.mem f j = s.mem f j) ∧
      pp ∉ l' ∧ lab' pp = none ∧ l.length ≤ l'.length + 3 ∧
      ∀ va', UserPath (table_path va') →
        (table_path va', PTX va') ≠ (table_path va, PTX va) →
        page_lookup s' root va' = page_lookup s root va' ∧
        ∀ q slot, page_lookup s root va' = some (some (q, slot)) →
          s'.mem slot.1 slot.2 = s.mem slot.1 slot.2 := by
  obtain ⟨htab, hnd⟩ := tree_walk_cells ht va hva
  obtain ⟨pt0, _, hlook, hentry, _, _, _, _⟩ :=
    page_insert_spec hl hnp hfb htab hnd hpp hppn hperm h
  obtain ⟨s1, pt, l1, hw, hst, _, _, _, _, _, _, _⟩ :=
    page_insert_unmapped hl hnp hfb htab hnd hun h
  have hn2 : s'.npages = s1.npages := by rw [hst]; rfl
  have hm2 : ∀ f j, s'.mem f j =
      if (f, j) = (pt, PTX va) then page2pa pp ||| sext64 perm ||| PTE_P else s1.mem f j := by
    intro f j
    rw [hst, write_mem_cell]
    rfl
  obtain ⟨l', lab', hl', ht', hlpt, hext, hnew, hsub, hn1, hpg, hleaf, hdata, _, hlen, _, hoth⟩ :=
    tree_walk_write hl hnp hfb ht hva hw hn2 hm2
  have hppl' : pp ∉ l' := fun hc => hpp (hsub pp hc)
  have hpt : pt0 = pt := by
    obtain ⟨pt2, hslot, hlf, _⟩ := page_lookup_some hlook
    simp only [Prod.mk.injEq, and_true] at hslot
    have hlf' : leaf_from s' (table_path va) root = some (some pt2) := hlf
    rw [hleaf] at hlf'
    simp only [Option.some.injEq] at hlf'
    rw [hslot, ← hlf']
  subst hpt
  have hpl' : PageList s' l' := by
    rw [hst]
    exact pageList_write _ _ _ (pageList_incref pp hl' hppl')
  have hlpp' : lab' pp = none := by
    cases hc : lab' pp with
    | none => rfl
    | some q => exact absurd (hnew pp q hlpp hc).1 hpp
  refine ⟨l', lab', pt0, hpl', ht', hext, hnew, hsub, hn2.trans hn1, hlook, hentry, ?_, ?_,
    hdata, hppl', hlpp', hlen, ?_⟩
  · intro f hf hfp
    rw [hst]
    simp only [write_pages, incref, setPage_pages, Function.update_noteq hfp]
    exact hpg f hf
  · rw [hst]
    simp only [write_pages, incref, setPage_pages, Function.update_same, hpg pp hpp]
  · intro va' hva' hne
    have hu' : UserPath ([] ++ table_path va') := by simpa using hva'
    exact page_lookup_of_leaf (hn2.trans hn1) (hoth va' hva' hne)
      (tree_leaf ht (table_path va') [] root ht.root_lab (by simp [table_path_length]) hu').1

/-- With a free frame `x`, one level of the walk with `create` at an entry
that is not present returns the frame `x`. -/
theorem walk_level_alloc {s : Kernel} {tbl idx x : Nat} (hx : s.page_free_list = some x)
    (hxn : x < s.npages) (hnp : s.npages ≤ 2 ^ 52) (hpres : present (s.mem tbl idx) = false) :
    ∃ s1, walk_level s tbl idx true = some (s1, some x) := by
  unfold walk_level
  rw [if_neg (by rw [hpres]; decide), if_neg (by decide), page_alloc_zero_some s x hx]
  simp only
  have hent7 : page2pa x ||| PTE_P ||| PTE_W ||| PTE_U = page2pa x ||| 7 := by
    rw [Nat.lor_assoc, Nat.lor_assoc]
    rfl
  have hentry : PTE_ADDR (page2pa x ||| PTE_P ||| PTE_W ||| PTE_U) = page2pa x := by
    rw [hent7]
    exact PTE_ADDR_entry x 7 (by omega) (by norm_num)
  simp only [write_mem, Function.update_same, hentry]
  have hk : KADDR s (page2pa x) = some x := KADDR_page2pa s x hxn
  unfold KADDR at hk ⊢
  simp only [write_npages, incref_npages]
  rw [hk]
  exact ⟨_, rfl⟩

/-- From a table of the tree, along a path of the first three gigabytes, the
walk with `create` returns a table when the free list holds a frame for each
level. -/
theorem tree_walk_total {root : Nat} (idxs : List Nat) :
    ∀ (s : Kernel) (l : List Nat) (lab : Nat → Option (List Nat)) (tbl : Nat) (p : List Nat),
      PageList s l → s.npages ≤ 2 ^ 52 → (∀ f, f ∈ l → f < s.npages) →
      TableTree s l root lab → lab tbl = some p → p.length + idxs.length ≤ 3 →
      UserPath (p ++ idxs) → idxs.length ≤ l.length →
      ∃ s' pt, walk_from true idxs s tbl = some (s', some pt) := by
  induction idxs with
  | nil => intro s l lab tbl p _ _ _ _ _ _ _ _; exact ⟨s, tbl, rfl⟩
  | cons idx rest ih =>
    intro s l lab tbl p hl hnp hfb ht hp hlen hu hfree
    have hlen3 : p.length < 3 := by
      simp only [List.length_cons] at hlen
      omega
    have hu1 : UserPath (p ++ [idx]) := by
      have : p ++ idx :: rest = (p ++ [idx]) ++ rest := by simp
      rw [this] at hu
      exact userPath_prefix _ _ hu
    have hlen' : (p ++ [idx]).length + rest.length ≤ 3 := by
      simp only [List.length_append, List.length_cons, List.length_nil] at hlen ⊢
      omega
    have hu' : UserPath ((p ++ [idx]) ++ rest) := by simpa using hu
    have hw : ∃ s1 t, walk_level s tbl idx true = some (s1, some t) := by
      cases hpres : present (s.mem tbl idx) with
      | true =>
        obtain ⟨t', hk, _⟩ := ht.step tbl p idx hp hlen3 hu1 hpres
        exact ⟨s, t', walk_level_of_present true hpres hk⟩
      | false =>
        cases l with
        | nil => simp at hfree
        | cons x xs =>
          have hx : s.page_free_list = some x := hl.1.1
          obtain ⟨s1, h1⟩ := walk_level_alloc hx (hfb x (List.mem_cons_self _ _)) hnp hpres
          exact ⟨s1, x, h1⟩
    obtain ⟨s1, t, hw⟩ := hw
    obtain ⟨l1, lab1, hl1, ht1, hlt, _, hsub1, hn1, _, _, hcase⟩ :=
      tree_walk_level hl hnp hfb ht hp hlen3 hu1 hw
    have hfree1 : rest.length ≤ l1.length := by
      rcases hcase with ⟨_, e, _⟩ | ⟨_, e, _, _⟩
      · rw [e]
        simp only [List.length_cons] at hfree
        omega
      · rw [e] at hfree
        simp only [List.length_cons] at hfree
        omega
    obtain ⟨s', pt, h'⟩ := ih s1 l1 lab1 t (p ++ [idx]) hl1 (by rw [hn1]; exact hnp)
      (fun f hf => by rw [hn1]; exact hfb f (hsub1 f hf)) ht1 hlt hlen' hu' hfree1
    refine ⟨s', pt, ?_⟩
    simp only [walk_from, hw]
    exact h'

/-- In a tree, `page_insert` at an address of the first three gigabytes that
maps nothing returns 0 when three frames are free. -/
theorem tree_page_insert_total {s : Kernel} {l : List Nat} {root va : Nat}
    {lab : Nat → Option (List Nat)} (pp perm : Nat)
    (hl : PageList s l) (hnp : s.npages ≤ 2 ^ 52) (hfb : ∀ f, f ∈ l → f < s.npages)
    (ht : TableTree s l root lab) (hva : UserPath (table_path va))
    (hun : page_lookup s root va = some none) (hfree : 3 ≤ l.length) :
    ∃ s', page_insert s root pp va perm = some (0, s') := by
  obtain ⟨s1, pt, hwf⟩ := tree_walk_total (table_path va) s l lab root [] hl hnp hfb ht
    ht.root_lab (by simp [table_path_length]) (by simpa using hva)
    (by rw [table_path_length]; exact hfree)
  have hw : pml4e_walk s root va true = some (s1, some (pt, PTX va)) := by
    rw [pml4e_walk_eq]
    have hwf' : walk_from true [PML4X va, PDPX va, PDX va] s root = some (s1, some pt) := hwf
    rw [hwf']
    rfl
  have hv : ∀ f j, (s1.write pt (PTX va) (s1.mem pt (PTX va))).mem f j =
      if (f, j) = (pt, PTX va) then s1.mem pt (PTX va) else s1.mem f j :=
    fun f j => write_mem_cell _ _ _ _ _ _
  obtain ⟨_, _, _, _, _, _, _, _, _, _, hleaf, _, hsame, _, _, _⟩ :=
    tree_walk_write hl hnp hfb ht hva hw (rfl : (s1.write pt (PTX va) (s1.mem pt (PTX va))).npages
      = s1.npages) hv
  have hnp1 : ¬ present ((incref s1 pp).mem pt (PTX va)) = true := by
    intro hp
    have hp1 : present (s1.mem pt (PTX va)) = true := hp
    have hs := hsame hp1
    subst hs
    have hcg := (@leaf_from_congr s1 (s1.write pt (PTX va) (s1.mem pt (PTX va))) rfl
      (table_path va) root (fun c _ => by
        rw [hv]
        split
        · rename_i e
          simp only [Prod.mk.injEq] at e
          rw [e.1, e.2]
        · rfl)).1
    have hleaf1 : leaf_from s1 [PML4X va, PDPX va, PDX va] root = some (some pt) := by
      rw [hcg] at hleaf
      exact hleaf
    rw [page_lookup_eq, hleaf1] at hun
    simp only [hp1, if_true, Option.map_eq_some'] at hun
    obtain ⟨_, _, hx⟩ := hun
    cases hx
  unfold page_insert
  rw [hw]
  simp only
  rw [if_neg hnp1]
  exact ⟨_, rfl⟩

/-! ## `region_alloc` -/

theorem page_alloc_plain (st : Kernel) (p : Nat) (hp : st.page_free_list = some p) :
    page_alloc st 0 =
      ({ st with
          page_free_list := (st.pages p).pp_link
          pages := Function.update st.pages p { st.pages p with pp_link := none } }, some p) := by
  unfold page_alloc
  rw [hp]
  simp [ALLOC_ZERO]

/-- The loop of `region_alloc` over distinct pages of the first three
gigabytes that map nothing, in a tree: each page is mapped, writable by the
user, to a frame of its own taken from the free list; every other page is
mapped as before; frames that were neither free nor tables keep their
contents and their counts. -/
theorem region_alloc_loop_spec {e root : Nat} (addrs : List Nat) :
    ∀ (s s' : Kernel) (l : List Nat) (lab : Nat → Option (List Nat)),
      PageList s l → s.npages ≤ 2 ^ 52 → (∀ f, f ∈ l → f < s.npages) →
      TableTree s l root lab → (s.envs e).env_pml4e = some root →
      (∀ a, a ∈ addrs → UserPath (table_path a)) →
      (addrs.map (fun a => (table_path a, PTX a))).Nodup →
      (∀ a, a ∈ addrs → page_lookup s root a = some none) →
      region_alloc_loop e addrs s = some s' →
      ∃ l' lab' frames, PageList s' l' ∧ TableTree s' l' root lab' ∧
        (∀ f q, lab f = some q → lab' f = some q) ∧
        (∀ f q, lab f = none → lab' f = some q → f ∈ l ∧ f ∉ l') ∧
        (∀ f, f ∈ l' → f ∈ l) ∧ s'.npages = s.npages ∧ EnvFrame s s' ∧
        frames.Nodup ∧
        (∀ f, f ∈ frames → f ∈ l ∧ f ∉ l' ∧ lab' f = none ∧ (s'.pages f).pp_ref = 1) ∧
        List.Forall₂ (fun a f => ∃ pt, page_lookup s' root a = some (some (f, (pt, PTX a))) ∧
          s'.mem pt (PTX a) = page2pa f ||| (PTE_U ||| PTE_W) ||| PTE_P) addrs frames ∧
        (∀ f, f ∉ l → s'.pages f = s.pages f) ∧
        (∀ f j, f ∉ l → lab' f = none → s'.mem f j = s.mem f j) ∧
        ∀ va', UserPath (table_path va') →
          (table_path va', PTX va') ∉ addrs.map (fun a => (table_path a, PTX a)) →
          page_lookup s' root va' = page_lookup s root va' ∧
          ∀ q slot, page_lookup s root va' = some (some (q, slot)) →
            s'.mem slot.1 slot.2 = s.mem slot.1 slot.2 := by
  induction addrs with
  | nil =>
    intro s s' l lab hl _ _ ht _ _ _ _ h
    simp only [region_alloc_loop, Option.some.injEq] at h
    subst h
    exact ⟨l, lab, [], hl, ht, fun _ _ h => h, fun f q h1 h2 => (by rw [h1] at h2; cases h2),
      fun _ h => h, rfl, EnvFrame.refl s, List.nodup_nil, fun f hf => (by simp at hf),
      List.Forall₂.nil, fun _ _ => rfl, fun _ _ _ _ => rfl, fun _ _ _ => ⟨rfl, fun _ _ _ => rfl⟩⟩
  | cons a rest ih =>
    intro s s' l lab hl hnp hfb ht hroot huser hkeys hun h
    cases l with
    | nil =>
      have hh : s.page_free_list = none := hl.1
      simp only [region_alloc_loop, page_alloc, hh] at h
      cases h
    | cons p xs =>
      have hh : s.page_free_list = some p := hl.1.1
      have hpx : p ∉ xs := (List.nodup_cons.mp hl.2.1).1
      have hlp : lab p = none := by
        cases hc : lab p with
        | none => rfl
        | some q => exact absurd (List.mem_cons_self p xs) (ht.notfree p q hc)
      obtain ⟨s1, hs1⟩ : ∃ s1 : Kernel, { s with
          page_free_list := (s.pages p).pp_link
          pages := Function.update s.pages p { s.pages p with pp_link := none } } = s1 :=
        ⟨_, rfl⟩
      have hal : page_alloc s 0 = (s1, some p) := by rw [page_alloc_plain s p hh, hs1]
      have hl1 : PageList s1 xs := by
        rcases pageList_page_alloc 0 hl with ⟨e1, _, _⟩ | ⟨p', xs', e1, _, e3⟩
        · cases e1
        · simp only [List.cons.injEq] at e1
          rw [e1.2]
          rw [hal] at e3
          exact e3
      simp only [region_alloc_loop, hal] at h
      have hmem1 : s1.mem = s.mem := by rw [← hs1]
      have hn1 : s1.npages = s.npages := by rw [← hs1]
      have henv1 : s1.envs = s.envs := by rw [← hs1]
      have hpg1 : ∀ f, f ≠ p → s1.pages f = s.pages f := by
        intro f hf
        rw [← hs1]
        simp only [Function.update_noteq hf]
      have href1 : (s1.pages p).pp_ref = 0 := by
        rw [← hs1]
        simp only [Function.update_same]
        exact hl.2.2.1 p (List.mem_cons_self _ _)
      have hf1 : EnvFrame s s1 := by
        rw [← hs1]
        exact ⟨rfl, rfl, rfl, rfl, rfl⟩
      have ht1 : TableTree s1 xs root lab :=
        tableTree_congr ht hn1 (fun t q j _ _ => by rw [hmem1])
          (fun t q hq hc => ht.notfree t q hq (List.mem_cons_of_mem _ hc))
      have hlook1 : ∀ va', page_lookup s1 root va' = page_lookup s root va' :=
        fun va' => page_lookup_congr hn1 root va' (fun c _ => by rw [hmem1])
      rw [henv1, hroot] at h
      simp only at h
      cases hins : page_insert s1 root p a (PTE_U ||| PTE_W) with
      | none => rw [hins] at h; cases h
      | some r =>
        obtain ⟨r, s2⟩ := r
        rw [hins] at h
        simp only at h
        split at h
        · cases h
        · rename_i hr
          have hr0 : r = 0 := by
            rcases page_insert_result hins with e1 | e1
            · exact e1
            · rw [e1] at hr
              exact absurd (by decide) hr
          subst hr0
          have hfb1 : ∀ f, f ∈ xs → f < s1.npages := fun f hf => by
            rw [hn1]; exact hfb f (List.mem_cons_of_mem _ hf)
          have hpn : p < s1.npages := by
            rw [hn1]; exact hfb p (List.mem_cons_self _ _)
          obtain ⟨l2, lab2, pt, hl2, ht2, hext2, hnew2, hsub2, hn2, hlk2, hent2, hpg2, hpp2,
              hdata2, hpl2, hlp2, _, hoth2⟩ :=
            tree_page_insert hl1 (by rw [hn1]; exact hnp) hfb1 ht1
              (huser a (List.mem_cons_self _ _)) hpx hlp hpn (by decide)
              ((hlook1 a).trans (hun a (List.mem_cons_self _ _))) hins
          have hf2 : EnvFrame s1 s2 := envFrame_page_insert hins
          have hkeys' : (table_path a, PTX a) ∉ rest.map (fun a => (table_path a, PTX a)) ∧
              (rest.map (fun a => (table_path a, PTX a))).Nodup := by
            rw [List.map_cons] at hkeys
            exact List.nodup_cons.mp hkeys
          have hun2 : ∀ a', a' ∈ rest → page_lookup s2 root a' = some none := by
            intro a' ha'
            have hne : (table_path a', PTX a') ≠ (table_path a, PTX a) := by
              intro e1
              apply hkeys'.1
              rw [← e1]
              exact List.mem_map.mpr ⟨a', ha', rfl⟩
            rw [(hoth2 a' (huser a' (List.mem_cons_of_mem _ ha')) hne).1, hlook1]
            exact hun a' (List.mem_cons_of_mem _ ha')
          obtain ⟨l', lab', frames, hl', ht', hext', hnew', hsub', hn', hf', hnd', hfr', hall',
              hpg', hdata', hoth'⟩ :=
            ih s2 s' l2 lab2 hl2 (by rw [hn2, hn1]; exact hnp)
              (fun f hf => by rw [hn2]; exact hfb1 f (hsub2 f hf)) ht2
              (by rw [hf2.envs, henv1]; exact hroot)
              (fun a' ha' => huser a' (List.mem_cons_of_mem _ ha')) hkeys'.2 hun2 h
          have hpl' : p ∉ l' := fun hc => hpl2 (hsub' p hc)
          have hlp' : lab' p = none := by
            cases hc : lab' p with
            | none => rfl
            | some q => exact absurd (hnew' p q hlp2 hc).1 hpl2
          have hxl : ∀ f, f ∉ p :: xs → f ∉ xs := fun f hf hc => hf (List.mem_cons_of_mem _ hc)
          have hxl2 : ∀ f, f ∉ xs → f ∉ l2 := fun f hf hc => hf (hsub2 f hc)
          refine ⟨l', lab', p :: frames, hl', ht', fun f q hq => hext' f q (hext2 f q hq), ?_,
            fun f hf => List.mem_cons_of_mem _ (hsub2 f (hsub' f hf)), (hn'.trans hn2).trans hn1,
            (hf1.trans hf2).trans hf', ?_, ?_, ?_, ?_, ?_, ?_⟩
          · intro f q hq hq'
            cases hc : lab2 f with
            | none =>
              obtain ⟨g1, g2⟩ := hnew' f q hc hq'
              exact ⟨List.mem_cons_of_mem _ (hsub2 f g1), g2⟩
            | some q2 =>
              obtain ⟨g1, g2⟩ := hnew2 f q2 hq hc
              exact ⟨List.mem_cons_of_mem _ g1, fun hc2 => g2 (hsub' f hc2)⟩
          · refine List.nodup_cons.mpr ⟨fun hc => ?_, hnd'⟩
            exact hpl2 (hfr' p hc).1
          · intro f hf
            rcases List.mem_cons.mp hf with e1 | hf
            · subst e1
              refine ⟨List.mem_cons_self _ _, hpl', hlp', ?_⟩
              rw [hpg' f hpl2, hpp2]
              simp only [href1]
            · obtain ⟨g1, g2, g3, g4⟩ := hfr' f hf
              exact ⟨List.mem_cons_of_mem _ (hsub2 f g1), g2, g3, g4⟩
          · refine List.Forall₂.cons ?_ hall'
            have hnotin : (table_path a, PTX a) ∉
                rest.map (fun a => (table_path a, PTX a)) := hkeys'.1
            obtain ⟨g1, g2⟩ := hoth' a (huser a (List.mem_cons_self _ _)) hnotin
            refine ⟨pt, g1.trans hlk2, ?_⟩
            rw [g2 p (pt, PTX a) hlk2]
            exact hent2
          · intro f hf
            have hfp : f ≠ p := fun e1 => hf (e1 ▸ List.mem_cons_self _ _)
            rw [hpg' f (hxl2 f (hxl f hf)), hpg2 f (hxl f hf) hfp, hpg1 f hfp]
          · intro f j hf hlf
            have hlf2 : lab2 f = none := by
              cases hc : lab2 f with
              | none => rfl
              | some q => rw [hext' f q hc] at hlf; cases hlf
            rw [hdata' f j (hxl2 f (hxl f hf)) hlf, hdata2 f j (hxl f hf) hlf2, hmem1]
          · intro va' hva' hnotin
            simp only [List.map_cons, List.mem_cons, not_or] at hnotin
            obtain ⟨g1, g2⟩ := hoth' va' hva' hnotin.2
            obtain ⟨g3, g4⟩ := hoth2 va' hva' hnotin.1
            refine ⟨(g1.trans g3).trans (hlook1 va'), fun q slot hq => ?_⟩
            have hq1 : page_lookup s1 root va' = some (some (q, slot)) := by
              rw [hlook1]; exact hq
            have hq2 : page_lookup s2 root va' = some (some (q, slot)) := by
              rw [g3]; exact hq1
            rw [g2 q slot hq2, g4 q slot hq1, hmem1]

/-- The loop of `region_alloc` returns when the free list holds four frames
for each page. -/
theorem region_alloc_loop_total {e root : Nat} (addrs : List Nat) :
    ∀ (s : Kernel) (l : List Nat) (lab : Nat → Option (List Nat)),
      PageList s l → s.npages ≤ 2 ^ 52 → (∀ f, f ∈ l → f < s.npages) →
      TableTree s l root lab → (s.envs e).env_pml4e = some root →
      (∀ a, a ∈ addrs → UserPath (table_path a)) →
      (addrs.map (fun a => (table_path a, PTX a))).Nodup →
      (∀ a, a ∈ addrs → page_lookup s root a = some none) →
      4 * addrs.length ≤ l.length →
      ∃ s', region_alloc_loop e addrs s = some s' := by
  induction addrs with
  | nil => intro s _ _ _ _ _ _ _ _ _ _ _; exact ⟨s, rfl⟩
  | cons a rest ih =>
    intro s l lab hl hnp hfb ht hroot huser hkeys hun hfree
    cases l with
    | nil => simp at hfree
    | cons p xs =>
      have hh : s.page_free_list = some p := hl.1.1
      have hpx : p ∉ xs := (List.nodup_cons.mp hl.2.1).1
      have hlp : lab p = none := by
        cases hc : lab p with
        | none => rfl
        | some q => exact absurd (List.mem_cons_self p xs) (ht.notfree p q hc)
      obtain ⟨s1, hs1⟩ : ∃ s1 : Kernel, { s with
          page_free_list := (s.pages p).pp_link
          pages := Function.update s.pages p { s.pages p with pp_link := none } } = s1 :=
        ⟨_, rfl⟩
      have hal : page_alloc s 0 = (s1, some p) := by rw [page_alloc_plain s p hh, hs1]
      have hl1 : PageList s1 xs := by
        rcases pageList_page_alloc 0 hl with ⟨e1, _, _⟩ | ⟨p', xs', e1, _, e3⟩
        · cases e1
        · simp only [List.cons.injEq] at e1
          rw [e1.2]
          rw [hal] at e3
          exact e3
      have hmem1 : s1.mem = s.mem := by rw [← hs1]
      have hn1 : s1.npages = s.npages := by rw [← hs1]
      have henv1 : s1.envs = s.envs := by rw [← hs1]
      have ht1 : TableTree s1 xs root lab :=
        tableTree_congr ht hn1 (fun t q j _ _ => by rw [hmem1])
          (fun t q hq hc => ht.notfree t q hq (List.mem_cons_of_mem _ hc))
      have hlook1 : ∀ va', page_lookup s1 root va' = page_lookup s root va' :=
        fun va' => page_lookup_congr hn1 root va' (fun c _ => by rw [hmem1])
      have hfb1 : ∀ f, f ∈ xs → f < s1.npages := fun f hf => by
        rw [hn1]; exact hfb f (List.mem_cons_of_mem _ hf)
      have hpn : p < s1.npages := by
        rw [hn1]; exact hfb p (List.mem_cons_self _ _)
      have hnp1 : s1.npages ≤ 2 ^ 52 := by rw [hn1]; exact hnp
      have hun1 : page_lookup s1 root a = some none :=
        (hlook1 a).trans (hun a (List.mem_cons_self _ _))
      simp only [List.length_cons] at hfree
      obtain ⟨s2, hins⟩ := tree_page_insert_total p (PTE_U ||| PTE_W) hl1 hnp1 hfb1 ht1
        (huser a (List.mem_cons_self _ _)) hun1 (by omega)
      obtain ⟨l2, lab2, pt, hl2, ht2, _, _, hsub2, hn2, _, _, _, _, _, _, _, hlen2, hoth2⟩ :=
        tree_page_insert hl1 hnp1 hfb1 ht1 (huser a (List.mem_cons_self _ _)) hpx hlp hpn
          (by decide) hun1 hins
      have hf2 : EnvFrame s1 s2 := envFrame_page_insert hins
      have hkeys' : (table_path a, PTX a) ∉ rest.map (fun a => (table_path a, PTX a)) ∧
          (rest.map (fun a => (table_path a, PTX a))).Nodup := by
        rw [List.map_cons] at hkeys
        exact List.nodup_cons.mp hkeys
      have hun2 : ∀ a', a' ∈ rest → page_lookup s2 root a' = some none := by
        intro a' ha'
        have hne : (table_path a', PTX a') ≠ (table_path a, PTX a) := by
          intro e1
          apply hkeys'.1
          rw [← e1]
          exact List.mem_map.mpr ⟨a', ha', rfl⟩
        rw [(hoth2 a' (huser a' (List.mem_cons_of_mem _ ha')) hne).1, hlook1]
        exact hun a' (List.mem_cons_of_mem _ ha')
      obtain ⟨s', h'⟩ := ih s2 l2 lab2 hl2 (by rw [hn2]; exact hnp1)
        (fun f hf => by rw [hn2]; exact hfb1 f (hsub2 f hf)) ht2
        (by rw [hf2.envs, henv1]; exact hroot)
        (fun a' ha' => huser a' (List.mem_cons_of_mem _ ha')) hkeys'.2 hun2 (by omega)
      refine ⟨s', ?_⟩
      simp only [region_alloc_loop, hal, henv1, hroot, hins]
      rw [if_neg (by decide)]
      exact h'

/-! ### Addresses and their indices -/

theorem PML4X_eq (va : Nat) : PML4X va = va / 2 ^ 39 % 512 := by
  unfold PML4X
  rw [Nat.shiftRight_eq_div_pow]
  exact Nat.and_pow_two_sub_one_eq_mod _ 9

theorem PDPX_eq (va : Nat) : PDPX va = va / 2 ^ 30 % 512 := by
  unfold PDPX
  rw [Nat.shiftRight_eq_div_pow]
  exact Nat.and_pow_two_sub_one_eq_mod _ 9

theorem PDX_eq (va : Nat) : PDX va = va / 2 ^ 21 % 512 := by
  unfold PDX
  rw [Nat.shiftRight_eq_div_pow]
  exact Nat.and_pow_two_sub_one_eq_mod _ 9

theorem PTX_eq (va : Nat) : PTX va = va / 2 ^ 12 % 512 := by
  unfold PTX
  rw [Nat.shiftRight_eq_div_pow]
  exact Nat.and_pow_two_sub_one_eq_mod _ 9

/-- Two page-aligned addresses below `2^48` with the same four indices are
equal. -/
theorem page_key_inj {a b : Nat} (ha : a < 2 ^ 48) (hb : b < 2 ^ 48) (ha0 : a % PGSIZE = 0)
    (hb0 : b % PGSIZE = 0) (h : (table_path a, PTX a) = (table_path b, PTX b)) : a = b := by
  simp only [table_path, Prod.mk.injEq, List.cons.injEq, and_true] at h
  obtain ⟨⟨h1, h2, h3⟩, h4⟩ := h
  rw [PML4X_eq, PML4X_eq] at h1
  rw [PDPX_eq, PDPX_eq] at h2
  rw [PDX_eq, PDX_eq] at h3
  rw [PTX_eq, PTX_eq] at h4
  simp only [PGSIZE] at ha0 hb0
  norm_num at h1 h2 h3 h4 ha hb
  omega

/-- The addresses `region_alloc(e, va, len)` visits, when `va + len` does not
exceed `KERNBASE`: the page-aligned addresses from `ROUNDDOWN(va)` up to
`ROUNDUP(va + len)`. -/
theorem region_pages_mem {va len : Nat} (hb : va + len ≤ KERNBASE) (a : Nat) :
    a ∈ region_pages va len ↔
      a % PGSIZE = 0 ∧ ROUNDDOWN va PGSIZE ≤ a ∧ a < ROUNDUP (va + len) PGSIZE := by
  simp only [region_pages, List.mem_map, List.mem_range, ROUNDDOWN, ROUNDUP, PGSIZE,
    KERNBASE] at hb ⊢
  norm_num
  constructor
  · rintro ⟨k, hk, rfl⟩
    omega
  · rintro ⟨h1, h2, h3⟩
    refine ⟨(a - (va - va % 4096)) / 4096, ?_, ?_⟩ <;> omega

theorem region_pages_nodup (va len : Nat) : (region_pages va len).Nodup := by
  unfold region_pages
  refine List.Nodup.map ?_ (List.nodup_range _)
  intro x y h
  simp only [PGSIZE] at h
  omega

/-- Every byte of `[va, va + len)` lies in a page `region_alloc` visits. -/
theorem region_pages_cover {va len : Nat} (hb : va + len ≤ KERNBASE) (b : Nat) (h1 : va ≤ b)
    (h2 : b < va + len) : ROUNDDOWN b PGSIZE ∈ region_pages va len := by
  rw [region_pages_mem hb]
  simp only [ROUNDDOWN, ROUNDUP, PGSIZE, KERNBASE] at hb ⊢
  norm_num
  omega

theorem region_pages_keys {va len : Nat} (hb : va + len ≤ KERNBASE) :
    (∀ a, a ∈ region_pages va len → UserPath (table_path a)) ∧
    ((region_pages va len).map (fun a => (table_path a, PTX a))).Nodup := by
  have hlt : ∀ a, a ∈ region_pages va len → a < KERNBASE ∧ a % PGSIZE = 0 := by
    intro a ha
    rw [region_pages_mem hb] at ha
    refine ⟨?_, ha.1⟩
    have h3 := ha.2.2
    simp only [ROUNDDOWN, ROUNDUP, PGSIZE, KERNBASE] at hb h3 ⊢
    norm_num at h3
    omega
  refine ⟨fun a ha => userPath_table_path a (hlt a ha).1, ?_⟩
  refine List.Nodup.map_on ?_ (region_pages_nodup va len)
  intro x hx y hy hxy
  have hk : KERNBASE < 2 ^ 48 := by decide
  exact page_key_inj (lt_trans (hlt x hx).1 hk) (lt_trans (hlt y hy).1 hk) (hlt x hx).2
    (hlt y hy).2 hxy

/-- The loop of `region_alloc` over a list of addresses is the loop over its
first part followed by the loop over the rest. -/
theorem region_alloc_loop_append (e : Nat) (pre post : List Nat) :
    ∀ s, region_alloc_loop e (pre ++ post) s =
      (region_alloc_loop e pre s).bind (region_alloc_loop e post) := by
  induction pre with
  | nil => intro s; rfl
  | cons a rest ih =>
    intro s
    simp only [List.cons_append, region_alloc_loop]
    split
    · rfl
    · split
      · rfl
      · split
        · rfl
        · split
          · rfl
          · exact ih _

/-- C28. `region_alloc(e, va, len)` in an address space whose tables form a
tree, for a range that ends at or below `KERNBASE` and whose pages map
nothing, with the page free list `l`. The loop visits exactly the
page-aligned addresses from `ROUNDDOWN(va)` up to `ROUNDUP(va + len)`, which
cover every byte of `[va, va + len)`. It returns when `l` holds four frames
for each page, and it panics when a `page_alloc` yields no frame or a
`page_insert` fails, at whatever point of the loop. When it returns, each
page visited is mapped to a frame of its own, taken from the free list and
now counted once, by a leaf entry whose low twelve bits are `PTE_U | PTE_W |
PTE_P`; every other page below `KERNBASE` is mapped as before; the frames
that were not free keep their descriptors, and the environment table is
untouched. -/
theorem region_alloc_maps (st : Kernel) (l : List Nat) (lab : Nat → Option (List Nat))
    (e root va len : Nat)
    (hl : PageList st l) (hnp : st.npages ≤ 2 ^ 52) (hfb : ∀ f, f ∈ l → f < st.npages)
    (ht : TableTree st l root lab) (hroot : (st.envs e).env_pml4e = some root)
    (hbound : va + len ≤ KERNBASE)
    (hun : ∀ a, a ∈ region_pages va len → page_lookup st root a = some none) :
    (∀ a, a ∈ region_pages va len ↔
      a % PGSIZE = 0 ∧ ROUNDDOWN va PGSIZE ≤ a ∧ a < ROUNDUP (va + len) PGSIZE) ∧
    (∀ b, va ≤ b → b < va + len → ROUNDDOWN b PGSIZE ∈ region_pages va len) ∧
    (4 * (region_pages va len).length ≤ l.length →
      ∃ st', region_alloc st e va len = some st') ∧
    (∀ pre a post s1, region_pages va len = pre ++ a :: post →
      region_alloc_loop e pre st = some s1 →
      ((page_alloc s1 0).2 = none ∨
        ∃ s2 pp r s3, page_alloc s1 0 = (s2, some pp) ∧
          page_insert s2 root pp a (PTE_U ||| PTE_W) = some (r, s3) ∧ r < 0) →
      region_alloc st e va len = none) ∧
    ∀ st', region_alloc st e va len = some st' →
      ∃ frames, frames.Nodup ∧
        (∀ f, f ∈ frames →
          OnPageFreeList st f ∧ ¬ OnPageFreeList st' f ∧ (st'.pages f).pp_ref = 1) ∧
        List.Forall₂ (fun a f => ∃ pt,
            page_lookup st' root a = some (some (f, (pt, PTX a))) ∧
            st'.mem pt (PTX a) &&& 0xFFF = PTE_U ||| PTE_W ||| PTE_P)
          (region_pages va len) frames ∧
        (∀ va', va' < KERNBASE → va' % PGSIZE = 0 → va' ∉ region_pages va len →
          page_lookup st' root va' = page_lookup st root va') ∧
        (∀ f, ¬ OnPageFreeList st f → st'.pages f = st.pages f) ∧
        EnvFrame st st' := by
  obtain ⟨huser, hkeys⟩ := region_pages_keys hbound
  refine ⟨region_pages_mem hbound, region_pages_cover hbound, fun hfree => ?_, ?_,
    fun st' h => ?_⟩
  · exact region_alloc_loop_total (region_pages va len) st l lab hl hnp hfb ht hroot huser
      hkeys hun hfree
  · intro pre a post s1 hsplit hpre hfail
    unfold region_alloc
    rw [hsplit, region_alloc_loop_append, hpre]
    simp only [Option.some_bind]
    have henv : ∀ s2 pp, page_alloc s1 0 = (s2, some pp) → (s2.envs e).env_pml4e = some root := by
      intro s2 pp hal
      obtain ⟨l1, lab1, _, _, _, _, _, _, _, hf1, _⟩ :=
        region_alloc_loop_spec pre st s1 l lab hl hnp hfb ht hroot
          (fun x hx => huser x (by rw [hsplit]; exact List.mem_append_left _ hx))
          (by
            rw [hsplit, List.map_append] at hkeys
            exact (List.nodup_append.mp hkeys).1)
          (fun x hx => hun x (by rw [hsplit]; exact List.mem_append_left _ hx)) hpre
      have hf2 := envFrame_page_alloc s1 0
      rw [hal] at hf2
      rw [hf2.envs, hf1.envs]
      exact hroot
    rcases hfail with hnone | ⟨s2, pp, r, s3, hal, hins, hr⟩
    · cases hpa : page_alloc s1 0 with
      | mk s2 o =>
        rw [hpa] at hnone
        simp only at hnone
        subst hnone
        simp only [region_alloc_loop, hpa]
    · simp only [region_alloc_loop, hal, henv s2 pp hal, hins]
      rw [if_pos hr]
  · obtain ⟨l', lab', frames, hl', _, _, _, _, _, hf', hnd', hfr', hall', hpg', _, hoth'⟩ :=
      region_alloc_loop_spec (region_pages va len) st st' l lab hl hnp hfb ht hroot huser
        hkeys hun h
    refine ⟨frames, hnd', fun f hf => ?_, ?_, ?_, ?_, hf'⟩
    · obtain ⟨g1, g2, _, g4⟩ := hfr' f hf
      exact ⟨(onPageFreeList_iff hl f).mpr g1, fun hc => g2 ((onPageFreeList_iff hl' f).mp hc),
        g4⟩
    · refine List.Forall₂.imp ?_ hall'
      rintro a f ⟨pt, g1, g2⟩
      refine ⟨pt, g1, ?_⟩
      rw [g2, Nat.lor_assoc]
      exact entry_flags f _ (by decide)
    · intro va' hlt hal hnot
      refine (hoth' va' (userPath_table_path va' hlt) ?_).1
      intro hc
      rw [List.mem_map] at hc
      obtain ⟨a, ha, hka⟩ := hc
      have ha2 := (region_pages_mem hbound a).mp ha
      have halt : a < KERNBASE := by
        have h3 := ha2.2.2
        simp only [ROUNDDOWN, ROUNDUP, PGSIZE, KERNBASE] at hbound h3 ⊢
        norm_num at h3
        omega
      have hk : KERNBASE < 2 ^ 48 := by decide
      have := page_key_inj (lt_trans halt hk) (lt_trans hlt hk) ha2.1 hal hka
      exact hnot (this ▸ ha)
    · intro f hf
      exact hpg' f (fun hc => hf ((onPageFreeList_iff hl f).mpr hc))

theorem two_running_pageList :
    PageList two_running [6, 7, 8, 9, 10, 11, 12, 13, 14, 15] := by
  refine ⟨?_, by decide, ?_, ?_⟩
  · exact ⟨rfl, rfl, rfl, rfl, rfl, rfl, rfl, rfl, rfl, rfl, rfl⟩
  · decide
  · intro f hf
    simp only [List.mem_cons, List.mem_singleton, List.not_mem_nil, or_false, not_or] at hf
    have hc : ¬ (6 ≤ f ∧ f < 15) := by omega
    show (two_running.pages f).pp_link = none
    simp only [two_running, if_neg hc]

/-- The tables of environment 0 of `two_running`: the root in frame 2 and the
PDPT in frame 3, which is empty. -/
theorem two_running_tree :
    TableTree two_running [6, 7, 8, 9, 10, 11, 12, 13, 14, 15] 2
      (fun f => if f = 2 then some [] else if f = 3 then some [0] else none) := by
  refine ⟨rfl, ?_, ?_, ?_⟩
  · intro t p i hp hlen hu hpres
    by_cases h2 : t = 2
    · subst h2
      simp only [if_true, Option.some.injEq] at hp
      subst hp
      have hi : i = 0 := hu
      subst hi
      exact ⟨3, by decide, rfl⟩
    · by_cases h3 : t = 3
      · subst h3
        exfalso
        have hm : two_running.mem 3 i = 0 := by
          simp [two_running]
        rw [hm] at hpres
        exact absurd hpres (by decide)
      · simp only [if_neg h2, if_neg h3] at hp
        cases hp
  · intro t p hp
    by_cases h2 : t = 2
    · subst h2
      simp only [if_true, Option.some.injEq] at hp
      subst hp
      exact ⟨by decide, trivial, rfl⟩
    · by_cases h3 : t = 3
      · subst h3
        simp only [if_neg h2, if_true, Option.some.injEq] at hp
        subst hp
        exact ⟨by decide, rfl, by decide⟩
      · simp only [if_neg h2, if_neg h3] at hp
        cases hp
  · intro t p hp
    by_cases h2 : t = 2
    · subst h2
      decide
    · by_cases h3 : t = 3
      · subst h3
        decide
      · simp only [if_neg h2, if_neg h3] at hp
        cases hp

/-- On `two_running`, `region_alloc` for environment 0 at `0x800010` with
length `0x1000`, neither page-aligned: the two pages `0x800000` and
`0x801000` are mapped, each to a frame of its own, and the page `0x802000`
still maps nothing. -/
theorem region_alloc_maps_witness :
    region_pages 0x800010 0x1000 = [0x800000, 0x801000] ∧
    (∃ st', region_alloc two_running 0 0x800010 0x1000 = some st') ∧
    (∀ st', region_alloc two_running 0 0x800010 0x1000 = some st' →
      ∃ frames, frames.Nodup ∧
        List.Forall₂ (fun a f => ∃ pt,
            page_lookup st' 2 a = some (some (f, (pt, PTX a))) ∧
            st'.mem pt (PTX a) &&& 0xFFF = PTE_U ||| PTE_W ||| PTE_P)
          [0x800000, 0x801000] frames ∧
        page_lookup st' 2 0x802000 = some none) := by
  have hp : region_pages 0x800010 0x1000 = [0x800000, 0x801000] := by decide
  have hmain := region_alloc_maps two_running [6, 7, 8, 9, 10, 11, 12, 13, 14, 15]
    (fun f => if f = 2 then some [] else if f = 3 then some [0] else none) 0 2 0x800010 0x1000
    two_running_pageList (by decide) (by decide) two_running_tree rfl (by decide)
    (by rw [hp]; decide)
  refine ⟨hp, hmain.2.2.1 (by rw [hp]; decide), fun st' h => ?_⟩
  obtain ⟨frames, hnd, _, hall, hoth, _, _⟩ := hmain.2.2.2.2 st' h
  rw [hp] at hall
  refine ⟨frames, hnd, hall, ?_⟩
  rw [hoth 0x802000 (by decide) (by decide) (by rw [hp]; decide)]
  decide

/-! ## `env_setup_vm`: the window between `UTOP` and `KERNBASE` -/

theorem kernel_window_user {va : Nat} (h : va ∈ kernel_window) :
    va < KERNBASE ∧ va % PGSIZE = 0 ∧ va < 2 ^ 48 ∧ UserPath (table_path va) := by
  have hb := kernel_window_bounds h
  have hlt : va < KERNBASE := hb.2
  refine ⟨hlt, ?_, by omega, userPath_table_path va hlt⟩
  unfold kernel_window at h
  simp only [List.mem_map, List.mem_range] at h
  obtain ⟨k, _, rfl⟩ := h
  have h2 : UTOP = 0xBC800000 := by decide
  rw [h2]
  simp only [PGSIZE]
  omega

theorem kernel_window_nodup : kernel_window.Nodup := by
  unfold kernel_window
  refine List.Nodup.map ?_ (List.nodup_range _)
  intro x y h
  simp only [PGSIZE] at h
  omega

/-- Two addresses of the window with the same four indices are equal. -/
theorem kernel_window_key {a b : Nat} (ha : a ∈ kernel_window) (hb : b ∈ kernel_window)
    (h : (table_path a, PTX a) = (table_path b, PTX b)) : a = b := by
  obtain ⟨_, a2, a3, _⟩ := kernel_window_user ha
  obtain ⟨_, b2, b3, _⟩ := kernel_window_user hb
  exact page_key_inj a3 b3 a2 b2 h

/-- In the loop of `env_setup_vm` the kernel's walk reads what it read at the
start. -/
theorem windowTree_kernel_walk {st0 s : Kernel} {l0 l : List Nat} {root : Nat}
    {lab : Nat → Option (List Nat)} {done : List Nat}
    (hkw : ∀ va, va ∈ kernel_window → ∀ c, c ∈ walk_cells st0 st0.kern_pml4 va → c.1 ∉ l0)
    (hw : WindowTree st0 s l0 l root lab done) {va : Nat} (hva : va ∈ kernel_window) :
    pml4e_walk s s.kern_pml4 va false =
      (leaf_from st0 (table_path va) st0.kern_pml4).map
        (fun r => (s, r.map (fun pt => (pt, PTX va)))) ∧
    ∀ kt, leaf_from st0 (table_path va) st0.kern_pml4 = some (some kt) →
      kt ∉ l0 ∧ ∀ j, s.mem kt j = st0.mem kt j := by
  have hcg : leaf_from s (table_path va) st0.kern_pml4 =
      leaf_from st0 (table_path va) st0.kern_pml4 := by
    refine (leaf_from_congr hw.npages _ _ ?_).1
    intro c hc
    exact hw.kernel c.1 c.2 (hkw va hva c
      ((cells_from_append st0 (PTX va) (table_path va) st0.kern_pml4).1 c hc))
  refine ⟨?_, fun kt hkt => ?_⟩
  · rw [pml4e_walk_eq, walk_from_false, hw.kern]
    have hcg' : leaf_from s [PML4X va, PDPX va, PDX va] st0.kern_pml4 =
        leaf_from st0 (table_path va) st0.kern_pml4 := hcg
    rw [hcg']
    cases leaf_from st0 (table_path va) st0.kern_pml4 <;> rfl
  · have hkl : kt ∉ l0 := hkw va hva (kt, PTX va)
      ((cells_from_append st0 (PTX va) (table_path va) st0.kern_pml4).2 kt hkt)
    exact ⟨hkl, fun j => hw.kernel kt j hkl⟩

/-- The loop of `env_setup_vm`, when it runs to its end, keeps the state of
the loop and copies the leaf entry of every address it visits at which the
kernel has a present leaf entry. The kernel's tables on the paths of the
window are not among the frames that were free at the start. -/
theorem env_setup_vm_loop_inv {st0 : Kernel} {l0 : List Nat} {root : Nat}
    (hnp : st0.npages ≤ 2 ^ 52) (hfb : ∀ f, f ∈ l0 → f < st0.npages)
    (hkw : ∀ va, va ∈ kernel_window → ∀ c, c ∈ walk_cells st0 st0.kern_pml4 va → c.1 ∉ l0)
    (vas : List Nat) :
    ∀ (done : List Nat) (s : Kernel) (l : List Nat) (lab : Nat → Option (List Nat)) (r : Int)
      (s' : Kernel),
      WindowTree st0 s l0 l root lab done → (∀ va, va ∈ done ++ vas → va ∈ kernel_window) →
      (done ++ vas).Nodup → env_setup_vm_loop root root vas s = some (r, s') → ¬ r < 0 →
      ∃ l' lab', WindowTree st0 s' l0 l' root lab' (done ++ vas) ∧ EnvFrame s s' := by
  induction vas with
  | nil =>
    intro done s l lab r s' hw _ _ h _
    simp only [env_setup_vm_loop, Option.some.injEq, Prod.mk.injEq] at h
    obtain ⟨_, e2⟩ := h
    subst e2
    exact ⟨l, lab, by simpa using hw, EnvFrame.refl s⟩
  | cons va vas ih =>
    intro done s l lab r s' hw hin hnd h hr
    have hva : va ∈ kernel_window := hin va (by simp)
    have hdone_eq : done ++ va :: vas = (done ++ [va]) ++ vas := by simp
    have hin' : ∀ v, v ∈ (done ++ [va]) ++ vas → v ∈ kernel_window := by
      rw [← hdone_eq]; exact hin
    have hnd' : ((done ++ [va]) ++ vas).Nodup := by
      rw [← hdone_eq]; exact hnd
    obtain ⟨hkwalk, hkleaf⟩ := windowTree_kernel_walk hkw hw hva
    have hskip : (∀ kt, leaf_from st0 (table_path va) st0.kern_pml4 = some (some kt) →
        present (st0.mem kt (PTX va)) = false) →
        env_setup_vm_loop root root vas s = some (r, s') →
        ∃ l' lab', WindowTree st0 s' l0 l' root lab' (done ++ va :: vas) ∧ EnvFrame s s' := by
      intro hno h2
      rw [hdone_eq]
      refine ih (done ++ [va]) s l lab r s' ?_ hin' hnd' h2 hr
      refine ⟨hw.pages, hw.npages, hw.kern, hw.tree, hw.sub, hw.labelled, hw.kernel, hw.shape,
        ?_, hw.rootref⟩
      intro d hd kt hkt hpres
      rcases List.mem_append.mp hd with hd | hd
      · exact hw.copied d hd kt hkt hpres
      · simp only [List.mem_singleton] at hd
        subst hd
        rw [hno kt hkt] at hpres
        cases hpres
    unfold env_setup_vm_loop at h
    rw [hkwalk] at h
    cases hlf : leaf_from st0 (table_path va) st0.kern_pml4 with
    | none =>
      rw [hlf] at h
      cases h
    | some o =>
      cases o with
      | none =>
        rw [hlf] at h
        simp only [Option.map_some', Option.map_none'] at h
        exact hskip (fun kt hkt => by rw [hlf] at hkt; cases hkt) h
      | some kt =>
        rw [hlf] at h
        simp only [Option.map_some'] at h
        obtain ⟨hkl, hkm⟩ := hkleaf kt hlf
        by_cases hpres : present (s.mem kt (PTX va)) = true
        · rw [if_pos hpres] at h
          cases hwk : pml4e_walk s root va true with
          | none =>
            rw [hwk] at h
            cases h
          | some w =>
            obtain ⟨s2, o2⟩ := w
            cases o2 with
            | none =>
              rw [hwk] at h
              simp only [Option.map_eq_some', Prod.mk.injEq] at h
              obtain ⟨_, _, e1, _⟩ := h
              rw [← e1] at hr
              exact absurd (by decide) hr
            | some slot =>
              obtain ⟨et, ei⟩ := slot
              have hei : ei = PTX va := by
                have h0 := hwk
                rw [pml4e_walk_eq] at h0
                simp only [Option.map_eq_some', Prod.mk.injEq] at h0
                obtain ⟨_, _, _, _, _, e2⟩ := h0
                exact e2.2.symm
              subst hei
              rw [hwk] at h
              simp only at h
              have hnps : s.npages ≤ 2 ^ 52 := by rw [hw.npages]; exact hnp
              have hfbs : ∀ f, f ∈ l → f < s.npages := fun f hf => by
                rw [hw.npages]; exact hfb f (hw.sub f hf)
              obtain ⟨huser_lt, _, _, huser⟩ := kernel_window_user hva
              obtain ⟨l', lab', hl', ht', hlpt, hext, hnew, hsub, hn1, hpg, hleaf, hdata, _, _,
                  hshape, hoth⟩ :=
                tree_walk_write hw.pages hnps hfbs hw.tree huser hwk
                  (rfl : (s2.write et (PTX va) (s2.mem kt (PTX va))).npages = s2.npages)
                  (fun f j => write_mem_cell _ _ _ _ _ _)
              have hfw := envFrame_pml4e_walk hwk
              have hlab0 : ∀ f q, lab' f = some q → f ∈ l0 := by
                intro f q hq
                cases hc : lab f with
                | some q0 => exact hw.labelled f q0 hc
                | none => exact hw.sub f (hnew f q hc hq).1
              have hkt_lab : lab' kt = none := by
                cases hc : lab' kt with
                | none => rfl
                | some q => exact absurd (hlab0 kt q hc) hkl
              have hkt_l : kt ∉ l := fun hc => hkl (hw.sub kt hc)
              have hval : (s2.write et (PTX va) (s2.mem kt (PTX va))).mem et (PTX va) =
                  st0.mem kt (PTX va) := by
                rw [write_mem_cell, if_pos rfl]
                have h3 := hdata kt (PTX va) hkt_l hkt_lab
                rw [write_mem_cell, if_neg] at h3
                · rw [h3, hkm]
                · intro e1
                  have e2 : kt = et := congrArg Prod.fst e1
                  rw [e2, hlpt] at hkt_lab
                  cases hkt_lab
              have hw' : WindowTree st0 (s2.write et (PTX va) (s2.mem kt (PTX va))) l0 l' root
                  lab' (done ++ [va]) := by
                refine ⟨pageList_write _ _ _ hl', hn1.trans hw.npages,
                  hfw.kern_pml4.trans hw.kern, ht', fun f hf => hw.sub f (hsub f hf), hlab0, ?_,
                  ?_, ?_, ?_⟩
                · intro f j hf
                  have hfl : f ∉ l := fun hc => hf (hw.sub f hc)
                  have hfn : lab' f = none := by
                    cases hc : lab' f with
                    | none => rfl
                    | some q => exact absurd (hlab0 f q hc) hf
                  rw [hdata f j hfl hfn]
                  exact hw.kernel f j hf
                · intro t q j hq hqlen hpr
                  rcases hshape t q j hq hqlen hpr with ⟨g1, g2⟩ | g
                  · exact hw.shape t q j g1 hqlen g2
                  · exact ⟨va, hva, g⟩
                · intro d hd kt' hkt' hpres'
                  rcases List.mem_append.mp hd with hd1 | hd2
                  · obtain ⟨et', g1, g2⟩ := hw.copied d hd1 kt' hkt' hpres'
                    have hdw : d ∈ kernel_window := hin d (List.mem_append_left _ hd1)
                    have hne : (table_path d, PTX d) ≠ (table_path va, PTX va) := by
                      intro e1
                      have e2 := kernel_window_key hdw hva e1
                      rw [e2] at hd1
                      exact (List.nodup_append.mp hnd).2.2 hd1 (List.mem_cons_self _ _)
                    obtain ⟨g3, g4⟩ := (hoth d (kernel_window_user hdw).2.2.2 hne).1 et' g1
                    exact ⟨et', g3, g4.trans g2⟩
                  · simp only [List.mem_singleton] at hd2
                    subst hd2
                    rw [hlf] at hkt'
                    simp only [Option.some.injEq] at hkt'
                    subst hkt'
                    exact ⟨et, hleaf, hval⟩
                · refine ⟨?_, fun hc => hw.rootref.2 (hsub root hc)⟩
                  show (s2.pages root).pp_ref = 1
                  rw [hpg root hw.rootref.2]
                  exact hw.rootref.1
              obtain ⟨l2, lab2, hw2, hf2⟩ :=
                ih (done ++ [va]) _ l' lab' r s' hw' hin' hnd' h hr
              rw [hdone_eq]
              exact ⟨l2, lab2, hw2, (hfw.trans (envFrame_write _ _ _ _)).trans hf2⟩
        · rw [if_neg hpres] at h
          refine hskip (fun kt' hkt' => ?_) h
          rw [hlf] at hkt'
          simp only [Option.some.injEq] at hkt'
          rw [← hkt', ← hkm (PTX va)]
          cases hb : present (s.mem kt (PTX va)) with
          | false => rfl
          | true => exact absurd hb hpres

/-- The tables read on a path of the first three gigabytes carry the
prefixes of the path as labels, and each entry read is at the index that
follows the prefix. -/
theorem tree_cells_idx {st : Kernel} {l : List Nat} {root : Nat}
    {lab : Nat → Option (List Nat)} (ht : TableTree st l root lab) (q : List Nat) :
    ∀ (p : List Nat) (t : Nat), lab t = some p → p.length + q.length ≤ 4 →
      UserPath (p ++ q) →
      ∀ c, c ∈ cells_from st q t →
        ∃ k, lab c.1 = some (p ++ q.take k) ∧ q[k]? = some c.2 := by
  induction q with
  | nil => intro p t _ _ _ c hc; simp [cells_from] at hc
  | cons i rest ih =>
    intro p t hp hlen hu c hc
    simp only [cells_from, List.mem_cons] at hc
    rcases hc with hc | hc
    · subst hc
      exact ⟨0, by simpa using hp, by simp⟩
    · split at hc
      · rename_i hpres
        cases rest with
        | nil =>
          cases hk : KADDR st (PTE_ADDR (st.mem t i)) with
          | none => rw [hk] at hc; simp at hc
          | some t' => rw [hk] at hc; simp [cells_from] at hc
        | cons j rest2 =>
          have hlen3 : p.length < 3 := by
            simp only [List.length_cons] at hlen
            omega
          have hu1 : UserPath (p ++ [i]) := by
            have : p ++ i :: j :: rest2 = (p ++ [i]) ++ (j :: rest2) := by simp
            rw [this] at hu
            exact userPath_prefix _ _ hu
          obtain ⟨t', hk, hl'⟩ := ht.step t p i hp hlen3 hu1 hpres
          rw [hk] at hc
          simp only at hc
          obtain ⟨k, hk1, hk2⟩ := ih (p ++ [i]) t' hl'
            (by simp only [List.length_append, List.length_cons, List.length_nil] at hlen ⊢; omega)
            (by simpa using hu) c hc
          refine ⟨k + 1, ?_, by simpa using hk2⟩
          rw [hk1]
          simp
      · simp at hc

/-- The three tables above a leaf entry that exists. -/
theorem leaf_from_three {st : Kernel} {root a b c pt : Nat}
    (h : leaf_from st [a, b, c] root = some (some pt)) :
    ∃ t1 t2, present (st.mem root a) = true ∧ KADDR st (PTE_ADDR (st.mem root a)) = some t1 ∧
      present (st.mem t1 b) = true ∧ KADDR st (PTE_ADDR (st.mem t1 b)) = some t2 ∧
      present (st.mem t2 c) = true ∧ KADDR st (PTE_ADDR (st.mem t2 c)) = some pt := by
  simp only [leaf_from] at h
  split at h
  · rename_i h1
    cases k1 : KADDR st (PTE_ADDR (st.mem root a)) with
    | none => rw [k1] at h; cases h
    | some t1 =>
      rw [k1] at h
      simp only at h
      split at h
      · rename_i h2
        cases k2 : KADDR st (PTE_ADDR (st.mem t1 b)) with
        | none => rw [k2] at h; cases h
        | some t2 =>
          rw [k2] at h
          simp only at h
          split at h
          · rename_i h3
            cases k3 : KADDR st (PTE_ADDR (st.mem t2 c)) with
            | none => rw [k3] at h; cases h
            | some t3 =>
              rw [k3] at h
              simp only [Option.some.injEq] at h
              subst h
              exact ⟨t1, t2, h1, rfl, h2, k2, h3, k3⟩
          · cases h
      · cases h
  · cases h

/-- Addresses with the same table path lie in the same two megabytes. -/
theorem table_path_inj {a b : Nat} (ha : a < 2 ^ 48) (hb : b < 2 ^ 48)
    (h : table_path a = table_path b) : a / 2 ^ 21 = b / 2 ^ 21 := by
  simp only [table_path, List.cons.injEq, and_true] at h
  obtain ⟨h1, h2, h3⟩ := h
  rw [PML4X_eq, PML4X_eq] at h1
  rw [PDPX_eq, PDPX_eq] at h2
  rw [PDX_eq, PDX_eq] at h3
  norm_num at h1 h2 h3 ha hb ⊢
  omega

/-- The state after `env_setup_vm` has allocated and counted the new root
`p` and stored it in the environment is a state of its loop. -/
theorem windowTree_init {st : Kernel} {p : Nat} {xs : List Nat} (e : Nat)
    (hl : PageList st (p :: xs)) :
    WindowTree st
      ((incref (page_alloc st ALLOC_ZERO).1 p).setEnv e
        { (page_alloc st ALLOC_ZERO).1.envs e with env_pml4e := some p })
      (p :: xs) xs p (fun f => if f = p then some [] else none) [] := by
  have hh : st.page_free_list = some p := hl.1.1
  have hpx : p ∉ xs := (List.nodup_cons.mp hl.2.1).1
  have hl1 : PageList (page_alloc st ALLOC_ZERO).1 xs := by
    rcases pageList_page_alloc ALLOC_ZERO hl with ⟨e1, _, _⟩ | ⟨p', xs', e1, _, e3⟩
    · cases e1
    · simp only [List.cons.injEq] at e1
      rw [e1.2]
      exact e3
  have href : (st.pages p).pp_ref = 0 := hl.2.2.1 p (List.mem_cons_self _ _)
  rw [page_alloc_zero_some st p hh] at hl1 ⊢
  simp only at hl1 ⊢
  refine ⟨pageList_congr rfl rfl (pageList_incref p hl1 hpx), rfl, rfl, ?_,
    fun f hf => List.mem_cons_of_mem _ hf, ?_, ?_, ?_, ?_, ?_⟩
  · refine ⟨by simp, ?_, ?_, ?_⟩
    · intro t q i hq _ _ hpres
      by_cases htp : t = p
      · subst htp
        simp [incref, Kernel.setPage, present_zero] at hpres
      · simp [htp] at hq
    · intro t q hq
      by_cases htp : t = p
      · subst htp
        simp only [if_true, Option.some.injEq] at hq
        subst hq
        exact ⟨by decide, trivial, rfl⟩
      · simp [htp] at hq
    · intro t q hq
      by_cases htp : t = p
      · subst htp
        exact hpx
      · simp [htp] at hq
  · intro f q hq
    by_cases hfp : f = p
    · subst hfp
      exact List.mem_cons_self _ _
    · simp [hfp] at hq
  · intro f j hf
    have hfp : f ≠ p := fun e1 => hf (e1 ▸ List.mem_cons_self _ _)
    simp [incref, Kernel.setPage, Function.update_noteq hfp]
  · intro t q i hq _ hpres
    by_cases htp : t = p
    · subst htp
      simp [incref, Kernel.setPage, present_zero] at hpres
    · simp [htp] at hq
  · intro va hva
    cases hva
  · refine ⟨?_, hpx⟩
    simp [incref, Kernel.setPage, href]

theorem utop_in_window : UTOP ∈ kernel_window := by
  unfold kernel_window
  rw [List.mem_map]
  exact ⟨0, by rw [List.mem_range]; decide, by simp⟩

/-- The block of `env_setup_vm` that gives the new root a PDPT keeps the
state of the loop, and leaves slot 0 of the root present. -/
theorem windowTree_pdpt {st0 s s4 : Kernel} {l0 l : List Nat} {root : Nat}
    {lab : Nat → Option (List Nat)} {done : List Nat} {r4 : Int}
    (hnp : st0.npages ≤ 2 ^ 52) (hfb : ∀ f, f ∈ l0 → f < st0.npages)
    (hw : WindowTree st0 s l0 l root lab done)
    (h : env_setup_vm_pdpt root root s = some (r4, s4)) (hr : ¬ r4 < 0) :
    ∃ l' lab', WindowTree st0 s4 l0 l' root lab' done ∧ present (s4.mem root 0) = true ∧
      EnvFrame s s4 := by
  unfold env_setup_vm_pdpt at h
  by_cases hpres : present (s.mem root 0) = true
  · rw [if_neg (by rw [hpres]; decide)] at h
    simp only [Option.some.injEq, Prod.mk.injEq] at h
    obtain ⟨_, e2⟩ := h
    subst e2
    exact ⟨l, lab, hw, hpres, EnvFrame.refl s⟩
  · rw [if_pos hpres] at h
    have hpf : present (s.mem root 0) = false := by
      cases hb : present (s.mem root 0) with
      | false => rfl
      | true => exact absurd hb hpres
    have hnps : s.npages ≤ 2 ^ 52 := by rw [hw.npages]; exact hnp
    have hfbs : ∀ f, f ∈ l → f < s.npages := fun f hf => by
      rw [hw.npages]; exact hfb f (hw.sub f hf)
    cases l with
    | nil =>
      have hh : s.page_free_list = none := hw.pages.1
      simp only [page_alloc, hh, Option.map_eq_some', Prod.mk.injEq] at h
      obtain ⟨_, _, e1, _⟩ := h
      rw [← e1] at hr
      exact absurd (by decide) hr
    | cons q l1 =>
      have hh : s.page_free_list = some q := hw.pages.1.1
      obtain ⟨s1', hwl⟩ := walk_level_alloc hh (hfbs q (List.mem_cons_self _ _)) hnps hpf
      have hs : s1' = s4 := by
        have h0 := hwl
        unfold walk_level at h0
        rw [if_neg hpres, if_neg (by decide), page_alloc_zero_some s q hh] at h0
        simp only [Option.map_eq_some', Prod.mk.injEq] at h0
        obtain ⟨_, _, e1, _⟩ := h0
        rw [page_alloc_zero_some s q hh] at h
        simp only [Option.some.injEq, Prod.mk.injEq] at h
        rw [← e1, ← h.2]
        have hent : page2pa q ||| PTE_P ||| PTE_U ||| PTE_W =
            page2pa q ||| PTE_P ||| PTE_W ||| PTE_U := by
          rw [Nat.lor_assoc, Nat.lor_assoc, Nat.lor_assoc, Nat.lor_assoc]
          rfl
        rw [hent]
      subst hs
      obtain ⟨l', lab', hl', ht', hlq, hext, hsub, hn1, hpg, hfr, hcase⟩ :=
        tree_walk_level hw.pages hnps hfbs hw.tree hw.tree.root_lab (by decide)
          (show UserPath ([] ++ [0]) from rfl) hwl
      have hfw := envFrame_walk_level hwl
      have hp1 : present (s1'.mem root 0) = true := by
        rcases walk_level_create hw.pages hnps hfbs (hw.tree.notfree root [] hw.tree.root_lab)
          hwl with ⟨g, _, _⟩ | ⟨_, _, _, _, _, _, _, g, _, _⟩
        · rw [hpf] at g
          cases g
        · exact g
      have hcase' : present (s.mem root 0) = false ∧ q :: l1 = q :: l' ∧
          lab' = Function.update lab q (some ([] ++ [0])) ∧ ∀ j, s1'.mem q j = 0 := by
        rcases hcase with ⟨e1, _, _⟩ | g
        · rw [e1] at hp1
          rw [hpf] at hp1
          cases hp1
        · exact g
      obtain ⟨_, hl1, hlabeq, hz⟩ := hcase'
      have hlab0 : ∀ f p, lab' f = some p → f ∈ l0 := by
        intro f p hq
        by_cases hfq : f = q
        · rw [hfq]
          exact hw.sub q (List.mem_cons_self _ _)
        · rw [hlabeq, Function.update_noteq hfq] at hq
          exact hw.labelled f p hq
      have hroot0 : root ∈ l0 := hw.labelled root [] hw.tree.root_lab
      have hrootl : root ∉ q :: l1 := hw.rootref.2
      refine ⟨l', lab', ⟨hl', hn1.trans hw.npages, hfw.kern_pml4.trans hw.kern, ht',
        fun f hf => hw.sub f (hsub f hf), hlab0, ?_, ?_, ?_, ?_⟩, hp1, hfw⟩
      · intro f j hf
        have hfl : f ∉ q :: l1 := fun hc => hf (hw.sub f hc)
        rw [hfr f j hfl (fun e1 => hf (by
          rw [show f = root from congrArg Prod.fst e1]; exact hroot0))]
        exact hw.kernel f j hf
      · intro t p i hq hplen hpr
        by_cases htq : t = q
        · rw [htq, hz i, present_zero] at hpr
          cases hpr
        · rw [hlabeq, Function.update_noteq htq] at hq
          by_cases hci : (t, i) = (root, 0)
          · simp only [Prod.mk.injEq] at hci
            rw [hci.1, hw.tree.root_lab] at hq
            simp only [Option.some.injEq] at hq
            subst hq
            rw [hci.2]
            refine ⟨UTOP, utop_in_window, ?_⟩
            have : table_path UTOP = [0, 2, 484] := by decide
            rw [this]
            exact ⟨[2, 484], rfl⟩
          · rw [hfr t i (hw.tree.notfree t p hq) hci] at hpr
            exact hw.shape t p i hq hplen hpr
      · intro d hd kt hkt hpk
        obtain ⟨et, g1, _⟩ := hw.copied d hd kt hkt hpk
        exfalso
        obtain ⟨_, _, g2, _⟩ := leaf_from_three (show leaf_from s [PML4X d, PDPX d, PDX d] root =
          some (some et) from g1)
        have hd0 : PML4X d = 0 := by
          obtain ⟨va, hva, hp⟩ := hw.shape root [] (PML4X d) hw.tree.root_lab (by decide) g2
          obtain ⟨t, ht⟩ := hp
          simp only [List.nil_append, table_path, List.cons_append, List.cons.injEq] at ht
          rw [ht.1]
          exact (kernel_window_index hva).1
        rw [hd0, hpf] at g2
        cases g2
      · refine ⟨?_, fun hc => hrootl (hsub root hc)⟩
        rw [hpg root hrootl]
        exact hw.rootref.1

theorem kernel_window_mem (va : Nat) :
    va ∈ kernel_window ↔ UTOP ≤ va ∧ va < KERNBASE ∧ va % PGSIZE = 0 := by
  unfold kernel_window
  simp only [List.mem_map, List.mem_range, UTOP, UENVS, UPAGES, ULIM, MMIOBASE, MMIOLIM,
    KSTACKTOP, KERNBASE, PTSIZE, PGSIZE]
  norm_num
  constructor
  · rintro ⟨k, hk, rfl⟩
    omega
  · rintro ⟨h1, h2, h3⟩
    refine ⟨(va - 3162505216) / 4096, ?_, ?_⟩ <;> omega

/-- In a state of the loop of `env_setup_vm`, no address below `UTOP` is
mapped. -/
theorem windowTree_user_unmapped {st0 s : Kernel} {l0 l : List Nat} {root : Nat}
    {lab : Nat → Option (List Nat)} {done : List Nat}
    (hw : WindowTree st0 s l0 l root lab done) (va : Nat) (hva : va < UTOP) :
    page_lookup s root va = some none := by
  have hlt : va < KERNBASE := lt_trans hva (by decide)
  have hu := userPath_table_path va hlt
  have hne := (tree_leaf hw.tree (table_path va) [] root hw.tree.root_lab
    (by simp [table_path_length]) (by simpa using hu)).1
  have hs := page_lookup_eq s root va
  cases hlf : leaf_from s (table_path va) root with
  | none => exact absurd hlf hne
  | some o =>
    have hlf' : leaf_from s [PML4X va, PDPX va, PDX va] root = some o := hlf
    cases o with
    | none =>
      rw [hlf'] at hs
      exact hs
    | some pt =>
      exfalso
      obtain ⟨t1, t2, p1, k1, p2, k2, p3, _⟩ := leaf_from_three hlf'
      have hu1 : UserPath ([] ++ [PML4X va]) := hu.1
      obtain ⟨t1', k1', l1⟩ := hw.tree.step root [] (PML4X va) hw.tree.root_lab (by decide) hu1 p1
      rw [k1] at k1'
      simp only [Option.some.injEq] at k1'
      subst k1'
      have hu2 : UserPath ([] ++ [PML4X va] ++ [PDPX va]) := hu
      obtain ⟨t2', k2', l2⟩ := hw.tree.step t1 _ (PDPX va) l1 (by simp) hu2 p2
      rw [k2] at k2'
      simp only [Option.some.injEq] at k2'
      subst k2'
      obtain ⟨w, hw1, hw2⟩ := hw.shape t2 _ (PDX va) l2 (by simp) p3
      have heq : table_path va = table_path w := by
        obtain ⟨t, ht⟩ := hw2
        have hlen := congrArg List.length ht
        simp only [List.nil_append, List.cons_append, List.length_append, List.length_cons,
          List.length_nil, table_path_length] at hlen
        have htn : t = [] := List.length_eq_zero.mp (by omega)
        rw [htn, List.append_nil] at ht
        exact ht
      have hwb := kernel_window_bounds hw1
      have := table_path_inj (lt_trans hlt (by decide)) (by omega) heq
      have hut : UTOP = 0xBC800000 := by decide
      rw [hut] at hva
      norm_num at this
      omega

/-- The state `env_setup_vm` reaches before it mirrors the kernel half: a
state of its loop over the whole window, with slot 0 of the new root
present. -/
theorem env_setup_vm_window {st st' : Kernel} {l : List Nat} {e : Nat}
    (hl : PageList st l) (hnp : st.npages ≤ 2 ^ 52) (hfb : ∀ f, f ∈ l → f < st.npages)
    (hkw : ∀ va, va ∈ kernel_window → ∀ c, c ∈ walk_cells st st.kern_pml4 va → c.1 ∉ l)
    (h : env_setup_vm st e = some (0, st')) :
    ∃ root s4 l4 lab4, st.page_free_list = some root ∧
      WindowTree st s4 l l4 root lab4 kernel_window ∧ present (s4.mem root 0) = true ∧
      (s4.envs e).env_pml4e = some root ∧ env_setup_vm_mirror root s4 = some (0, st') := by
  unfold env_setup_vm at h
  cases l with
  | nil =>
    have hh : st.page_free_list = none := hl.1
    simp only [page_alloc, hh, Option.some.injEq, Prod.mk.injEq] at h
    exact absurd h.1 (by decide)
  | cons p xs =>
    have hh : st.page_free_list = some p := hl.1.1
    have hw0 := windowTree_init e hl
    have hal := page_alloc_zero_some st p hh
    have hpn : p < st.npages := hfb p (List.mem_cons_self _ _)
    generalize hpa : page_alloc st ALLOC_ZERO = pa at h hw0 hal
    obtain ⟨st1, o⟩ := pa
    have ho : o = some p := by
      have := congrArg Prod.snd hal
      exact this
    subst ho
    have hn1 : st1.npages = st.npages := by
      have := congrArg Prod.fst hal
      simp only at this
      rw [this]
    simp only at h hw0
    rw [KADDR_page2pa st1 p (by rw [hn1]; exact hpn)] at h
    simp only at h
    generalize hs2 : (incref st1 p).setEnv e { st1.envs e with env_pml4e := some p } = s2
      at h hw0
    have henv2 : (s2.envs e).env_pml4e = some p := by
      rw [← hs2]
      simp
    cases hloop : env_setup_vm_loop p p kernel_window s2 with
    | none => rw [hloop] at h; cases h
    | some w =>
      obtain ⟨r, s3⟩ := w
      rw [hloop] at h
      simp only at h
      by_cases hr : r < 0
      · rw [if_pos hr] at h
        simp only [Option.some.injEq, Prod.mk.injEq] at h
        rw [h.1] at hr
        exact absurd hr (by decide)
      · rw [if_neg hr] at h
        obtain ⟨l3, lab3, hw3, hf3⟩ :=
          env_setup_vm_loop_inv hnp hfb hkw kernel_window [] s2 xs _ r s3 hw0
            (fun va hva => by simpa using hva) (by simpa using kernel_window_nodup) hloop hr
        simp only [List.nil_append] at hw3
        cases hpd : env_setup_vm_pdpt p p s3 with
        | none => rw [hpd] at h; cases h
        | some w4 =>
          obtain ⟨r4, s4⟩ := w4
          rw [hpd] at h
          simp only at h
          by_cases hr4 : r4 < 0
          · rw [if_pos hr4] at h
            simp only [Option.some.injEq, Prod.mk.injEq] at h
            rw [h.1] at hr4
            exact absurd hr4 (by decide)
          · rw [if_neg hr4] at h
            obtain ⟨l4, lab4, hw4, hp4, hf4⟩ := windowTree_pdpt hnp hfb hw3 hpd hr4
            refine ⟨p, s4, l4, lab4, hh, hw4, hp4, ?_, h⟩
            rw [hf4.envs, hf3.envs]
            exact henv2

/-- C30. `env_setup_vm(e)` returned 0, from a state with the page free list
`l` in which the kernel's tables on the paths of the window between `UTOP`
and `KERNBASE`, and the table its PML4 slot 0 addresses, are not free. The
window is the page-aligned addresses from `UTOP` up to `KERNBASE`. The new
root, stored in `env_pml4e`, is the frame that headed the free list and its
count is 1. At every address of the window where the kernel had a present
leaf entry, the kernel still has it and the new root has a leaf entry equal
to it. Slot 0 of the new root is present, and entry 3 of the table it
addresses equals entry 3 of the table slot 0 of the kernel's PML4 addresses.
Slot `PML4X(UVPT)` of the new root holds `page2pa(root) | PTE_P | PTE_U`,
without `PTE_W`. No address below `UTOP` is mapped. -/
theorem env_setup_vm_post (st st' : Kernel) (l : List Nat) (e : Nat)
    (hl : PageList st l) (hnp : st.npages ≤ 2 ^ 52) (hfb : ∀ f, f ∈ l → f < st.npages)
    (hkw : ∀ va, va ∈ kernel_window → ∀ c, c ∈ walk_cells st st.kern_pml4 va → c.1 ∉ l)
    (hkp : ∀ kp, KADDR st (PTE_ADDR (st.mem st.kern_pml4 0)) = some kp → kp ∉ l)
    (h : env_setup_vm st e = some (0, st')) :
    (∀ va, va ∈ kernel_window ↔ UTOP ≤ va ∧ va < KERNBASE ∧ va % PGSIZE = 0) ∧
    ∃ root, (st'.envs e).env_pml4e = some root ∧ st.page_free_list = some root ∧
      (st'.pages root).pp_ref = 1 ∧
      (∀ va, va ∈ kernel_window →
        ∀ kt, leaf_from st (table_path va) st.kern_pml4 = some (some kt) →
          present (st.mem kt (PTX va)) = true →
          leaf_from st' (table_path va) st'.kern_pml4 = some (some kt) ∧
          st'.mem kt (PTX va) = st.mem kt (PTX va) ∧
          ∃ et, leaf_from st' (table_path va) root = some (some et) ∧
            st'.mem et (PTX va) = st'.mem kt (PTX va)) ∧
      (∃ ep kp, present (st'.mem root 0) = true ∧
        KADDR st' (PTE_ADDR (st'.mem root 0)) = some ep ∧
        KADDR st' (PTE_ADDR (st'.mem st'.kern_pml4 0)) = some kp ∧
        st'.mem ep 3 = st'.mem kp 3) ∧
      st'.mem root (PML4X UVPT) = page2pa root ||| PTE_P ||| PTE_U ∧
      st'.mem root (PML4X UVPT) &&& PTE_W = 0 ∧
      ∀ va, va < UTOP → page_lookup st' root va = some none := by
  refine ⟨kernel_window_mem, ?_⟩
  obtain ⟨root, s4, l4, lab4, hhead, hw, hp0, henv, hm⟩ := env_setup_vm_window hl hnp hfb hkw h
  have ht := hw.tree
  obtain ⟨ep, hkep, hlep⟩ := ht.step root [] 0 ht.root_lab (by decide) rfl hp0
  simp only [List.nil_append] at hlep
  have hrootl : root ∈ l := hw.labelled root [] ht.root_lab
  have hepl : ep ∈ l := hw.labelled ep _ hlep
  have hkernl : st.kern_pml4 ∉ l := by
    refine hkw UTOP utop_in_window (st.kern_pml4, PML4X UTOP) ?_
    simp [walk_cells, cells_from]
  have hkmem : s4.mem s4.kern_pml4 0 = st.mem st.kern_pml4 0 := by
    rw [hw.kern]
    exact hw.kernel _ _ hkernl
  unfold env_setup_vm_mirror at hm
  rw [hkep, hkmem, KADDR_npages hw.npages] at hm
  cases hk : KADDR st (PTE_ADDR (st.mem st.kern_pml4 0)) with
  | none => rw [hk] at hm; cases hm
  | some kp =>
    rw [hk] at hm
    simp only [Option.some.injEq, Prod.mk.injEq, true_and] at hm
    have hkpl : kp ∉ l := hkp kp hk
    have hn' : st'.npages = s4.npages := by rw [← hm]; rfl
    have hkern' : st'.kern_pml4 = st.kern_pml4 := by rw [← hm]; exact hw.kern
    have hx : PML4X UVPT = 2 := by decide
    have hmem : ∀ f j, st'.mem f j =
        if (f, j) = (root, PML4X UVPT) then page2pa root ||| PTE_P ||| PTE_U
        else if (f, j) = (ep, 3) then s4.mem kp 3 else s4.mem f j := by
      intro f j
      rw [← hm, write_mem_cell, write_mem_cell]
    have hsame : ∀ f j, f ≠ root → f ≠ ep → st'.mem f j = s4.mem f j := by
      intro f j h1 h2
      rw [hmem, if_neg (fun e1 => h1 (congrArg Prod.fst e1)),
        if_neg (fun e1 => h2 (congrArg Prod.fst e1))]
    have hout : ∀ f j, f ∉ l → st'.mem f j = st.mem f j := by
      intro f j hf
      rw [hsame f j (fun e1 => hf (e1 ▸ hrootl)) (fun e1 => hf (e1 ▸ hepl))]
      exact hw.kernel f j hf
    have heproot : ep ≠ root := by
      intro e1
      rw [e1, ht.root_lab] at hlep
      cases hlep
    -- the entries read for an address below `KERNBASE` are not the two written last
    have hcell : ∀ va, va < KERNBASE → ∀ c, c ∈ walk_cells s4 root va →
        st'.mem c.1 c.2 = s4.mem c.1 c.2 := by
      intro va hva c hc
      have hu := userPath_table_path va hva
      obtain ⟨k, hk1, hk2⟩ := tree_cells_idx ht [PML4X va, PDPX va, PDX va, PTX va] [] root
        ht.root_lab (by simp) (show UserPath ([] ++ [PML4X va, PDPX va, PDX va, PTX va]) from hu)
        c hc
      simp only [List.nil_append] at hk1
      rw [hmem, if_neg, if_neg]
      · intro e1
        have e2 : c.1 = ep := congrArg Prod.fst e1
        have e3 : c.2 = 3 := congrArg Prod.snd e1
        rw [e2, hlep] at hk1
        simp only [Option.some.injEq] at hk1
        have hlen := congrArg List.length hk1
        simp only [List.length_cons, List.length_nil, List.length_take] at hlen
        have hk1' : k = 1 := by omega
        subst hk1'
        simp only [List.getElem?_cons_succ, List.getElem?_cons_zero, Option.some.injEq] at hk2
        have := hu.2
        omega
      · intro e1
        have e2 : c.1 = root := congrArg Prod.fst e1
        have e3 : c.2 = PML4X UVPT := congrArg Prod.snd e1
        rw [e2, ht.root_lab] at hk1
        simp only [Option.some.injEq] at hk1
        have hlen := congrArg List.length hk1
        simp only [List.length_cons, List.length_nil, List.length_take] at hlen
        have hk1' : k = 0 := by omega
        subst hk1'
        simp only [List.getElem?_cons_zero, Option.some.injEq] at hk2
        have := hu.1
        rw [hx] at e3
        omega
    refine ⟨root, ?_, hhead, ?_, ?_, ?_, ?_, ?_, ?_⟩
    · rw [← hm]
      exact henv
    · rw [← hm]
      exact hw.rootref.1
    · intro va hva kt hkt hpk
      obtain ⟨et, g1, g2⟩ := hw.copied va hva kt hkt hpk
      obtain ⟨hvalt, _, _, _⟩ := kernel_window_user hva
      have hktl : kt ∉ l := hkw va hva (kt, PTX va)
        ((cells_from_append st (PTX va) (table_path va) st.kern_pml4).2 kt hkt)
      refine ⟨?_, hout kt _ hktl, et, ?_, ?_⟩
      · rw [hkern', ← hkt]
        refine (leaf_from_congr (hn'.trans hw.npages) _ _ ?_).1
        intro c hc
        exact hout c.1 c.2 (hkw va hva c
          ((cells_from_append st (PTX va) (table_path va) st.kern_pml4).1 c hc))
      · rw [← g1]
        refine (leaf_from_congr hn' _ _ ?_).1
        intro c hc
        exact hcell va hvalt c ((cells_from_append s4 (PTX va) (table_path va) root).1 c hc)
      · rw [hout kt _ hktl, ← g2]
        exact hcell va hvalt (et, PTX va)
          ((cells_from_append s4 (PTX va) (table_path va) root).2 et g1)
    · have hr0 : st'.mem root 0 = s4.mem root 0 := by
        rw [hmem, if_neg, if_neg]
        · intro e1
          exact heproot (congrArg Prod.fst e1).symm
        · intro e1
          have e3 : (0 : Nat) = PML4X UVPT := congrArg Prod.snd e1
          rw [hx] at e3
          cases e3
      refine ⟨ep, kp, by rw [hr0]; exact hp0, ?_, ?_, ?_⟩
      · rw [hr0, KADDR_npages hn']
        exact hkep
      · rw [hkern', hout _ _ hkernl, KADDR_npages (hn'.trans hw.npages)]
        exact hk
      · rw [hout kp 3 hkpl, hmem, if_neg, if_pos rfl]
        · exact hw.kernel kp 3 hkpl
        · intro e1
          exact heproot (congrArg Prod.fst e1)
    · rw [hmem, if_pos rfl]
    · rw [hmem, if_pos rfl]
      have h5 : page2pa root ||| PTE_P ||| PTE_U = page2pa root ||| 5 := by
        rw [Nat.lor_assoc]
        rfl
      have h6 : (page2pa root ||| 5) &&& 0xFFF = 5 := entry_flags root 5 (by norm_num)
      have h7 : (page2pa root ||| 5) &&& PTE_W = ((page2pa root ||| 5) &&& 0xFFF) &&& PTE_W := by
        rw [Nat.land_assoc]
        rfl
      rw [h5, h7, h6]
      rfl
    · intro va hva
      have hlt : va < KERNBASE := lt_trans hva (by decide)
      rw [page_lookup_congr hn' root va (hcell va hlt)]
      exact windowTree_user_unmapped hw va hva

theorem boot_pageList : PageList boot [2, 3, 4, 5, 6, 7, 8, 9, 10, 11, 12, 13, 14, 15] := by
  refine ⟨?_, by decide, ?_, ?_⟩
  · exact ⟨rfl, rfl, rfl, rfl, rfl, rfl, rfl, rfl, rfl, rfl, rfl, rfl, rfl, rfl, rfl⟩
  · decide
  · intro f hf
    simp only [List.mem_cons, List.mem_singleton, List.not_mem_nil, or_false, not_or] at hf
    have hc : ¬ (2 ≤ f ∧ f < 15) := by omega
    show (boot.pages f).pp_link = none
    simp only [boot, if_neg hc]

/-- On `boot`, whose kernel maps nothing between `UTOP` and `KERNBASE`,
`env_setup_vm(0)` returns 0: the new root is frame 2, counted once, with the
self-map in slot `PML4X(UVPT)` and nothing mapped below `UTOP`. -/
theorem env_setup_vm_post_witness :
    ∃ st', env_setup_vm boot 0 = some (0, st') ∧ (st'.envs 0).env_pml4e = some 2 ∧
      (st'.pages 2).pp_ref = 1 ∧
      st'.mem 2 (PML4X UVPT) = page2pa 2 ||| PTE_P ||| PTE_U ∧
      (∃ ep kp, present (st'.mem 2 0) = true ∧
        KADDR st' (PTE_ADDR (st'.mem 2 0)) = some ep ∧
        KADDR st' (PTE_ADDR (st'.mem st'.kern_pml4 0)) = some kp ∧
        st'.mem ep 3 = st'.mem kp 3) ∧
      ∀ va, va < UTOP → page_lookup st' 2 va = some none := by
  obtain ⟨st', h⟩ := env_setup_vm_succeeds boot 0 2 3 1 rfl rfl (by decide) (by decide)
    (by decide) (by decide) (by decide) (by decide) (by decide) (by decide) (by decide)
  have hkw : ∀ va, va ∈ kernel_window → ∀ c, c ∈ walk_cells boot boot.kern_pml4 va →
      c.1 ∉ [2, 3, 4, 5, 6, 7, 8, 9, 10, 11, 12, 13, 14, 15] := by
    intro va hva c hc
    obtain ⟨e1, e2⟩ := kernel_window_index hva
    have h0 : boot.mem 0 0 = 0x1007 := rfl
    have hk : KADDR boot (PTE_ADDR 0x1007) = some 1 := by decide
    have h1 : boot.mem 1 2 = 0 := rfl
    have hcells : walk_cells boot boot.kern_pml4 va = [(0, 0), (1, 2)] := by
      show cells_from boot [PML4X va, PDPX va, PDX va, PTX va] 0 = _
      rw [e1, e2]
      simp only [cells_from, h0, hk, h1]
      rfl
    rw [hcells] at hc
    simp only [List.mem_cons, List.mem_singleton, List.not_mem_nil, or_false] at hc
    rcases hc with hc | hc <;> rw [hc] <;> decide
  obtain ⟨_, root, g1, g2, g3, _, g5, g6, _, g8⟩ :=
    env_setup_vm_post boot st' [2, 3, 4, 5, 6, 7, 8, 9, 10, 11, 12, 13, 14, 15] 0 boot_pageList
      (by decide) (by decide) hkw (by decide) h
  have hr : root = 2 := by
    have : boot.page_free_list = some 2 := rfl
    rw [this] at g2
    simp only [Option.some.injEq] at g2
    exact g2.symm
  subst hr
  exact ⟨st', h, g1, g3, g6, g5, g8⟩
theorem decref_all_append (fs gs : List Nat) :
    ∀ s, decref_all (fs ++ gs) s = (decref_all fs s).bind (decref_all gs) := by
  induction fs with
  | nil => intro s; rfl
  | cons f fs ih =>
    intro s
    simp only [List.cons_append, decref_all]
    cases page_decref s f with
    | none => rfl
    | some s1 => simp only [Option.some_bind]; exact ih s1

/-- What `page_decref` does to the free list: the frame is pushed exactly
when its count reaches zero. -/
theorem pageList_page_decref_cases {st st' : Kernel} {l : List Nat} {pp : Nat}
    (hl : PageList st l) (hpp : pp ∉ l) (h : page_decref st pp = some st') :
    ((st'.pages pp).pp_ref = 0 → PageList st' (pp :: l)) ∧
    ((st'.pages pp).pp_ref ≠ 0 → PageList st' l) := by
  have he := (page_decref_effect h).2.2.1
  unfold page_decref at h
  simp only at h
  split at h
  · rename_i hr
    refine ⟨fun _ => pageList_page_free (pageList_setref pp _ hl hpp) hpp h, fun hne => ?_⟩
    rw [he] at hne
    exact absurd hr hne
  · rename_i hr
    cases h
    refine ⟨fun h0 => ?_, fun _ => pageList_setref pp _ hl hpp⟩
    rw [he] at h0
    exact absurd h0 hr

/-- The effect of a sequence of `page_decref` calls, when no count is
exhausted before its last decrement: every count drops by the number of
occurrences of the frame, and the frames whose count reaches zero join the
free list. -/
theorem decref_all_spec (fs : List Nat) :
    ∀ s l, PageList s l → (∀ f, f ∈ fs → f ∉ l) →
      (∀ f, f ∈ fs → fs.count f ≤ (s.pages f).pp_ref) →
      (∀ f, f ∈ fs → (s.pages f).pp_ref < 65536) →
      ∃ s' l', decref_all fs s = some s' ∧ PageList s' l' ∧
        (∀ f, (s'.pages f).pp_ref = (s.pages f).pp_ref - fs.count f) ∧
        (∀ f, f ∈ l' ↔ f ∈ l ∨ (f ∈ fs ∧ fs.count f = (s.pages f).pp_ref)) ∧
        s'.mem = s.mem ∧ EnvFrame s s' := by
  induction fs with
  | nil =>
    intro s l hl _ _ _
    exact ⟨s, l, rfl, hl, fun f => by simp, fun f => by simp, rfl, EnvFrame.refl s⟩
  | cons g fs ih =>
    intro s l hl hnl hcnt hlt
    have hg : g ∉ l := hnl g (List.mem_cons_self _ _)
    have hlink : (s.pages g).pp_link = none := hl.2.2.2 g hg
    obtain ⟨s1, h1⟩ := page_decref_total s g hlink
    obtain ⟨hm1, hn1, hr1, ho1⟩ := page_decref_effect h1
    have hc := pageList_page_decref_cases hl hg h1
    have hgc : fs.count g + 1 ≤ (s.pages g).pp_ref := by
      have := hcnt g (List.mem_cons_self _ _)
      rwa [List.count_cons_self] at this
    have hglt := hlt g (List.mem_cons_self _ _)
    have hr1' : (s1.pages g).pp_ref = (s.pages g).pp_ref - 1 := by
      rw [hr1]; omega
    have hcount : ∀ f, f ≠ g → (g :: fs).count f = fs.count f := fun f hf =>
      List.count_cons_of_ne hf fs
    by_cases hz : (s1.pages g).pp_ref = 0
    · have hl1 := hc.1 hz
      have hg0 : fs.count g = 0 := by omega
      have hgfs : g ∉ fs := List.count_eq_zero.mp hg0
      obtain ⟨s', l', hd, hl', hrefs, hmem, hm, hef⟩ := ih s1 (g :: l) hl1
        (fun f hf hm => by
          rcases List.mem_cons.mp hm with e | hm
          · exact hgfs (e ▸ hf)
          · exact hnl f (List.mem_cons_of_mem _ hf) hm)
        (fun f hf => by
          have hne : f ≠ g := fun e => hgfs (e ▸ hf)
          rw [ho1 f hne, ← hcount f hne]
          exact hcnt f (List.mem_cons_of_mem _ hf))
        (fun f hf => by
          have hne : f ≠ g := fun e => hgfs (e ▸ hf)
          rw [ho1 f hne]
          exact hlt f (List.mem_cons_of_mem _ hf))
      refine ⟨s', l', ?_, hl', ?_, ?_, hm.trans hm1, (envFrame_page_decref h1).trans hef⟩
      · simp only [decref_all, h1, Option.some_bind]; exact hd
      · intro f
        by_cases hf : f = g
        · subst hf
          rw [hrefs, List.count_cons_self, hg0, hr1']
          omega
        · rw [hrefs, ho1 f hf, hcount f hf]
      · intro f
        rw [hmem]
        by_cases hf : f = g
        · subst hf
          simp only [List.mem_cons, true_or, List.count_cons_self, hg0]
          constructor
          · intro _
            exact Or.inr ⟨trivial, by omega⟩
          · intro _
            trivial
        · rw [ho1 f hf, hcount f hf]
          simp only [List.mem_cons, hf, false_or]
    · have hl1 := hc.2 hz
      obtain ⟨s', l', hd, hl', hrefs, hmem, hm, hef⟩ := ih s1 l hl1
        (fun f hf => hnl f (List.mem_cons_of_mem _ hf))
        (fun f hf => by
          by_cases hne : f = g
          · subst hne
            rw [hr1']; omega
          · rw [ho1 f hne, ← hcount f hne]
            exact hcnt f (List.mem_cons_of_mem _ hf))
        (fun f hf => by
          by_cases hne : f = g
          · subst hne
            rw [hr1']; omega
          · rw [ho1 f hne]
            exact hlt f (List.mem_cons_of_mem _ hf))
      refine ⟨s', l', ?_, hl', ?_, ?_, hm.trans hm1, (envFrame_page_decref h1).trans hef⟩
      · simp only [decref_all, h1, Option.some_bind]; exact hd
      · intro f
        by_cases hf : f = g
        · subst hf
          rw [hrefs, List.count_cons_self, hr1']
          omega
        · rw [hrefs, ho1 f hf, hcount f hf]
      · intro f
        rw [hmem]
        by_cases hf : f = g
        · subst hf
          simp only [List.mem_cons, true_or, List.count_cons_self, true_and]
          constructor
          · rintro (h | ⟨hm, he⟩)
            · exact Or.inl h
            · right; rw [hr1'] at he; omega
          · rintro (h | he)
            · exact Or.inl h
            · right
              refine ⟨?_, by rw [hr1']; omega⟩
              by_contra hnm
              have := List.count_eq_zero.mpr hnm
              rw [hr1'] at hz
              omega
        · rw [ho1 f hf, hcount f hf]
          simp only [List.mem_cons, hf, false_or]

/-- Two states with the same frame table and free list: `page_decref` does
the same to both. -/
theorem page_decref_same {s t t' : Kernel} {f : Nat} (hp : s.pages = t.pages)
    (hf : s.page_free_list = t.page_free_list) (h : page_decref t f = some t') :
    ∃ s', page_decref s f = some s' ∧ s'.pages = t'.pages ∧
      s'.page_free_list = t'.page_free_list ∧ s'.mem = s.mem ∧ s'.npages = s.npages ∧
      EnvFrame s s' := by
  unfold page_decref at h ⊢
  simp only at h ⊢
  rw [hp]
  split at h
  · rename_i hr
    rw [if_pos hr]
    unfold page_free at h ⊢
    simp only [setPage_pages, Function.update_same] at h ⊢
    split at h
    · cases h
    · rename_i hc
      cases h
      rw [hp, if_neg hc]
      refine ⟨_, rfl, ?_, rfl, rfl, rfl, ⟨rfl, rfl, rfl, rfl, rfl⟩⟩
      simp only [setPage_pages, setPage_page_free_list, hp, hf]
  · rename_i hr
    rw [if_neg hr]
    cases h
    exact ⟨_, rfl, by simp only [setPage_pages, hp], hf, rfl, rfl, ⟨rfl, rfl, rfl, rfl, rfl⟩⟩

theorem PGADDR_val {i j k : Nat} (_hi : i < 512) (hj : j < 512) (hk : k < 512) :
    PGADDR 0 i j k 0 = i * 2 ^ 30 + j * 2 ^ 21 + k * 2 ^ 12 := by
  unfold PGADDR
  simp only [Nat.shiftLeft_eq, Nat.zero_mul, Nat.zero_or, Nat.or_zero]
  have h1 : i * 2 ^ 30 ||| j * 2 ^ 21 = i * 2 ^ 30 + j * 2 ^ 21 := by
    have := Nat.mul_add_lt_is_or (show j * 2 ^ 21 < 2 ^ 30 by omega) i
    rw [Nat.mul_comm i]; exact this.symm
  rw [h1]
  have h2 : i * 2 ^ 30 + j * 2 ^ 21 = 2 ^ 21 * (i * 2 ^ 9 + j) := by ring
  rw [h2]
  exact (Nat.mul_add_lt_is_or (show k * 2 ^ 12 < 2 ^ 21 by omega) _).symm

theorem PGADDR_index {i j k : Nat} (hi : i < 512) (hj : j < 512) (hk : k < 512) :
    table_path (PGADDR 0 i j k 0) = [0, i, j] ∧ PTX (PGADDR 0 i j k 0) = k := by
  rw [table_path, PML4X_eq, PDPX_eq, PDX_eq, PTX_eq, PGADDR_val hi hj hk]
  norm_num
  omega

theorem PGADDR_utop {i j k : Nat} (hi : i < 512) (hj : j < 512) (hk : k < 512) :
    PGADDR 0 i j k 0 < UTOP ↔ PGADDR 0 i j 0 0 < UTOP := by
  rw [PGADDR_val hi hj hk, PGADDR_val hi hj (by omega)]
  simp only [UTOP, UENVS, UPAGES, ULIM, MMIOBASE, MMIOLIM, KSTACKTOP, KERNBASE, PTSIZE, PGSIZE]
  omega
theorem cells_from_snoc (st : Kernel) (j : Nat) (p : List Nat) :
    ∀ tbl b, leaf_from st p tbl = some (some b) →
      cells_from st (p ++ [j]) tbl = cells_from st p tbl ++ [(b, j)] := by
  induction p with
  | nil =>
    intro tbl b h
    simp only [leaf_from, Option.some.injEq] at h
    subst h
    simp only [List.nil_append, cells_from]
    split
    · split <;> rfl
    · rfl
  | cons i rest ih =>
    intro tbl b h
    simp only [leaf_from] at h
    simp only [List.cons_append, cells_from]
    split at h
    · rename_i hp
      simp only [if_pos hp]
      cases hk : KADDR st (PTE_ADDR (st.mem tbl i)) with
      | none => rw [hk] at h; cases h
      | some t =>
        rw [hk] at h
        simp only at h ⊢
        exact congrArg _ (ih t b h)
    · cases h

/-- One `page_remove` of `env_free`: the walk reaches the table `pt`, the
frame in the present entry is released and the entry zeroed. -/
theorem page_remove_leaf {s t t1 : Kernel} {root pt va : Nat}
    (hleaf : leaf_from s (table_path va) root = some (some pt))
    (hp : present (s.mem pt (PTX va)) = true)
    (hv : PGNUM (PTE_ADDR (s.mem pt (PTX va))) < s.npages)
    (hP : s.pages = t.pages) (hF : s.page_free_list = t.page_free_list)
    (hd : page_decref t (PGNUM (PTE_ADDR (s.mem pt (PTX va)))) = some t1) :
    ∃ s1, page_remove s root va = some s1 ∧ s1.pages = t1.pages ∧
      s1.page_free_list = t1.page_free_list ∧ EnvFrame s s1 ∧
      ∀ f x, s1.mem f x = if f = pt ∧ x = PTX va then 0 else s.mem f x := by
  obtain ⟨s1, h1, hp1, hf1, hm1, hn1, he1⟩ := page_decref_same hP hF hd
  have hlk : page_lookup s root va =
      some (some (PGNUM (PTE_ADDR (s.mem pt (PTX va))), (pt, PTX va))) := by
    rw [page_lookup_eq]
    change (match leaf_from s (table_path va) root with
      | none => none
      | some none => some none
      | some (some pt) =>
        if present (s.mem pt (PTX va)) then
          (pa2page s (PTE_ADDR (s.mem pt (PTX va)))).map (fun pp => some (pp, (pt, PTX va)))
        else some none) = _
    rw [hleaf]
    simp only [hp, if_true, pa2page, ge_iff_le, Nat.not_le.mpr hv, if_false, Option.map_some']
  refine ⟨s1.write pt (PTX va) 0, ?_, hp1, hf1, he1.trans (envFrame_write _ _ _ _), ?_⟩
  · unfold page_remove
    rw [hlk]
    simp only [h1]
  · intro f x
    rw [write_mem_cell, hm1]
    simp only [Prod.mk.injEq]
/-- The innermost loop of `env_free` on the page table labelled `[0, i, j]` of
a well-formed tree, run beside a state `t` with the same frame table: it
succeeds when the decrements of the mapped frames do, leaves the same frame
table, and writes to the page table only. -/
theorem env_free_ptes_spec {st : Kernel} {l : List Nat} {root : Nat}
    {lab : Nat → Option (List Nat)} (hT : TableTree st l root lab) {pt i j : Nat}
    (hi : i < 3) (hj : j < 512) (hlp : lab pt = some [0, i, j])
    (hdata : PGADDR 0 i j 0 0 < UTOP → ∀ k, k < 512 → present (st.mem pt k) = true →
      PGNUM (PTE_ADDR (st.mem pt k)) < st.npages)
    (ks : List Nat) :
    ∀ s t t', (∀ k, k ∈ ks → k < 512) → ks.Nodup → s.npages = st.npages →
      (∀ c, c ∈ cells_from st [0, i, j] root → s.mem c.1 c.2 = st.mem c.1 c.2) →
      (∀ k, k ∈ ks → s.mem pt k = st.mem pt k) →
      s.pages = t.pages → s.page_free_list = t.page_free_list →
      decref_all (if PGADDR 0 i j 0 0 < UTOP then ptes_frames st pt ks else []) t = some t' →
      ∃ s', env_free_ptes root pt i j ks s = some s' ∧ s'.pages = t'.pages ∧
        s'.page_free_list = t'.page_free_list ∧ EnvFrame s s' ∧
        ∀ f, f ≠ pt → s'.mem f = s.mem f := by
  have hreach := (hT.reach pt _ hlp).2.2
  have hcell : ∀ c, c ∈ cells_from st [0, i, j] root → c.1 ≠ pt := by
    intro c hc e
    obtain ⟨k, hk, hlc⟩ := tree_cells hT [0, i, j] [] root hT.root_lab (by simp)
      (by exact ⟨rfl, hi⟩) c hc
    rw [e, hlp] at hlc
    have := congrArg List.length (Option.some.inj hlc)
    simp only [List.length_cons, List.length_nil, List.nil_append, List.length_take] at this hk
    omega
  induction ks with
  | nil =>
    intro s t t' _ _ _ _ _ hP hF hd
    have : t' = t := by
      split at hd
      · simp only [ptes_frames, List.filter_nil, List.map_nil, decref_all,
          Option.some.injEq] at hd
        exact hd.symm
      · simp only [decref_all, Option.some.injEq] at hd
        exact hd.symm
    subst this
    exact ⟨s, rfl, hP, hF, EnvFrame.refl s, fun _ _ => rfl⟩
  | cons k ks ih =>
    intro s t t' hks hnd hn hpath hag hP hF hd
    have hk : k < 512 := hks k (List.mem_cons_self _ _)
    have hi' : i < 512 := by omega
    by_cases hU : PGADDR 0 i j 0 0 < UTOP
    · have hUk : PGADDR 0 i j k 0 < UTOP := (PGADDR_utop hi' hj hk).mpr hU
      rw [if_pos hU] at hd
      have ih' := ih
      simp only [if_pos hU] at ih'
      simp only [env_free_ptes, if_pos hUk]
      have hagk : s.mem pt k = st.mem pt k := hag k (List.mem_cons_self _ _)
      by_cases hp : present (st.mem pt k) = true
      · rw [hagk, if_pos hp]
        have hfr : ptes_frames st pt (k :: ks) =
            PGNUM (PTE_ADDR (st.mem pt k)) :: ptes_frames st pt ks := by
          simp only [ptes_frames, List.filter_cons, hp, if_true, List.map_cons]
        rw [hfr] at hd
        simp only [decref_all] at hd
        cases hd1 : page_decref t (PGNUM (PTE_ADDR (st.mem pt k))) with
        | none => rw [hd1] at hd; cases hd
        | some t1 =>
          rw [hd1] at hd
          simp only [Option.some_bind] at hd
          obtain ⟨hpath3, hptx⟩ := PGADDR_index hi' hj hk
          have hleaf : leaf_from s (table_path (PGADDR 0 i j k 0)) root = some (some pt) := by
            rw [hpath3, (leaf_from_congr hn [0, i, j] root hpath).1]
            exact hreach
          obtain ⟨s1, hr1, hP1, hF1, hE1, hm1⟩ := page_remove_leaf hleaf
            (by rw [hptx, hagk]; exact hp)
            (by rw [hptx, hagk, hn]; exact hdata hU k hk hp) hP hF
            (by rw [hptx, hagk]; exact hd1)
          rw [hr1]
          simp only
          obtain ⟨s', hs', hP', hF', hE', hm'⟩ := ih' s1 t1 t'
            (fun x hx => hks x (List.mem_cons_of_mem _ hx)) (List.nodup_cons.mp hnd).2
            (hE1.npages.trans hn)
            (fun c hc => by
              rw [hm1, if_neg (fun e => hcell c hc e.1)]
              exact hpath c hc)
            (fun x hx => by
              have hne : x ≠ k := fun e => (List.nodup_cons.mp hnd).1 (e ▸ hx)
              rw [hm1, hptx, if_neg (fun e => hne e.2)]
              exact hag x (List.mem_cons_of_mem _ hx))
            hP1 hF1 hd
          refine ⟨s', hs', hP', hF', hE1.trans hE', fun f hf => ?_⟩
          rw [hm' f hf]
          funext x
          rw [hm1, if_neg (fun e => hf e.1)]
      · rw [hagk, if_neg hp]
        have hfr : ptes_frames st pt (k :: ks) = ptes_frames st pt ks := by
          simp only [ptes_frames, List.filter_cons, hp, Bool.false_eq_true, if_false]
        rw [hfr] at hd
        exact ih' s t t' (fun x hx => hks x (List.mem_cons_of_mem _ hx))
          (List.nodup_cons.mp hnd).2 hn hpath
          (fun x hx => hag x (List.mem_cons_of_mem _ hx)) hP hF hd
    · have hUk : ¬ PGADDR 0 i j k 0 < UTOP := fun h => hU ((PGADDR_utop hi' hj hk).mp h)
      rw [if_neg hU] at hd
      simp only [decref_all, Option.some.injEq] at hd
      subst hd
      simp only [env_free_ptes, if_neg hUk]
      exact ⟨s, rfl, hP, hF, EnvFrame.refl s, fun _ _ => rfl⟩
theorem KADDR_some {st : Kernel} {pa t : Nat} (h : KADDR st pa = some t) :
    t = PGNUM pa ∧ PGNUM pa < st.npages := by
  unfold KADDR at h
  split at h
  · cases h
  · rename_i hlt
    exact ⟨(Option.some.inj h).symm, Nat.lt_of_not_le hlt⟩

theorem table_slots_lt {k : Nat} (h : k ∈ table_slots) : k < 512 := by
  simpa [table_slots, NPDENTRIES] using h

theorem table_slots_nodup : table_slots.Nodup := List.nodup_range _

/-- The middle loop of `env_free` on the page directory labelled `[0, i]` of a
well-formed tree, run beside a state `t` with the same frame table. -/
theorem env_free_pdes_spec {st : Kernel} {l : List Nat} {root : Nat}
    {lab : Nat → Option (List Nat)} (hT : TableTree st l root lab) {b i : Nat}
    (hi : i < 3) (hlb : lab b = some [0, i])
    (hdata : ∀ pt j k, lab pt = some [0, i, j] → j < 512 → k < 512 →
      PGADDR 0 i j 0 0 < UTOP → present (st.mem pt k) = true →
      PGNUM (PTE_ADDR (st.mem pt k)) < st.npages)
    (js : List Nat) :
    ∀ s t t', (∀ j, j ∈ js → j < 512) → js.Nodup → s.npages = st.npages →
      (∀ c, c ∈ cells_from st [0, i] root → s.mem c.1 c.2 = st.mem c.1 c.2) →
      (∀ j, j ∈ js → s.mem b j = st.mem b j) →
      (∀ f j, j ∈ js → lab f = some [0, i, j] → s.mem f = st.mem f) →
      s.pages = t.pages → s.page_free_list = t.page_free_list →
      decref_all (pdes_frames st b i js) t = some t' →
      ∃ s', env_free_pdes root b i js s = some s' ∧ s'.pages = t'.pages ∧
        s'.page_free_list = t'.page_free_list ∧ EnvFrame s s' ∧
        ∀ f x, (f = b → x ∉ js) → (∀ j, j ∈ js → lab f ≠ some [0, i, j]) →
          s'.mem f x = s.mem f x := by
  have hreach := (hT.reach b _ hlb).2.2
  have hcell : ∀ c, c ∈ cells_from st [0, i] root → ∃ k, k < 2 ∧ lab c.1 = some ([0, i].take k) := by
    intro c hc
    obtain ⟨k, hk, hlc⟩ := tree_cells hT [0, i] [] root hT.root_lab (by simp)
      (by exact ⟨rfl, hi⟩) c hc
    exact ⟨k, by simpa using hk, by simpa using hlc⟩
  have hcell_ne : ∀ c, c ∈ cells_from st [0, i] root → ∀ f q, lab f = some q → 2 ≤ q.length →
      c.1 ≠ f := by
    intro c hc f q hq hlen e
    obtain ⟨k, hk, hlc⟩ := hcell c hc
    rw [e, hq] at hlc
    have := congrArg List.length (Option.some.inj hlc)
    simp only [List.length_take, List.length_cons, List.length_nil] at this
    omega
  induction js with
  | nil =>
    intro s t t' _ _ _ _ _ _ hP hF hd
    simp only [pdes_frames, List.flatMap_nil, decref_all, Option.some.injEq] at hd
    subst hd
    exact ⟨s, rfl, hP, hF, EnvFrame.refl s, fun _ _ _ _ => rfl⟩
  | cons j js ih =>
    intro s t t' hjs hnd hn hpath hagb hagpt hP hF hd
    have hj : j < 512 := hjs j (List.mem_cons_self _ _)
    have hjn : j ∉ js := (List.nodup_cons.mp hnd).1
    have hagj : s.mem b j = st.mem b j := hagb j (List.mem_cons_self _ _)
    simp only [env_free_pdes]
    by_cases hp : present (st.mem b j) = true
    · rw [hagj, if_neg (not_not.mpr hp)]
      obtain ⟨pt, hkpt, hlp⟩ := hT.step b [0, i] j hlb (by simp) (by exact ⟨rfl, hi⟩) hp
      have hlp' : lab pt = some [0, i, j] := hlp
      obtain ⟨hpt, hptn⟩ := KADDR_some hkpt
      have hfr : pdes_frames st b i (j :: js) =
          (if PGADDR 0 i j 0 0 < UTOP then ptes_frames st pt table_slots else []) ++
            (pt :: pdes_frames st b i js) := by
        simp only [pdes_frames, List.flatMap_cons, hp, if_true, ← hpt, List.append_assoc,
          List.singleton_append]
      rw [hfr, decref_all_append] at hd
      cases hd1 : decref_all
          (if PGADDR 0 i j 0 0 < UTOP then ptes_frames st pt table_slots else []) t with
      | none => rw [hd1] at hd; cases hd
      | some t1 =>
        rw [hd1] at hd
        simp only [Option.some_bind, decref_all] at hd
        cases hd2 : page_decref t1 pt with
        | none => rw [hd2] at hd; cases hd
        | some t2 =>
          rw [hd2] at hd
          simp only [Option.some_bind] at hd
          have hcells3 : cells_from st [0, i, j] root = cells_from st [0, i] root ++ [(b, j)] :=
            cells_from_snoc st j [0, i] root b hreach
          obtain ⟨s1, hs1, hP1, hF1, hE1, hm1⟩ := env_free_ptes_spec hT hi hj hlp'
            (fun hU k hk hpk => hdata pt j k hlp' hj hk hU hpk) table_slots s t t1
            (fun k hk => table_slots_lt hk) table_slots_nodup hn
            (fun c hc => by
              rw [hcells3] at hc
              rcases List.mem_append.mp hc with hc | hc
              · exact hpath c hc
              · rw [List.mem_singleton.mp hc]
                exact hagj)
            (fun k _ => by rw [hagpt pt j (List.mem_cons_self _ _) hlp'])
            hP hF hd1
          have hbpt : b ≠ pt := by
            intro e
            rw [e, hlp'] at hlb
            have := congrArg List.length (Option.some.inj hlb)
            simp at this
          rw [KADDR_npages hn, hkpt]
          simp only [Option.some_bind]
          rw [hs1]
          simp only [Option.some_bind]
          have hpa : pa2page (s1.write b j 0) (PTE_ADDR (st.mem b j)) = some pt := by
            unfold pa2page
            rw [write_npages, hE1.npages, hn, if_neg (Nat.not_le.mpr hptn), hpt]
          rw [hpa]
          simp only [Option.some_bind]
          obtain ⟨s3, hs3, hP3, hF3, hm3, hn3, hE3⟩ :=
            page_decref_same (show (s1.write b j 0).pages = t1.pages from hP1)
              (show (s1.write b j 0).page_free_list = t1.page_free_list from hF1) hd2
          rw [hs3]
          simp only [Option.some_bind]
          have hmem3 : ∀ f x, s3.mem f x = if (f, x) = (b, j) then 0 else s1.mem f x := by
            intro f x
            rw [hm3, write_mem_cell]
          have hE13 : EnvFrame s s3 := hE1.trans ((envFrame_write _ _ _ _).trans hE3)
          obtain ⟨s', hs', hP', hF', hE', hm'⟩ := ih s3 t2 t'
            (fun x hx => hjs x (List.mem_cons_of_mem _ hx)) (List.nodup_cons.mp hnd).2
            (hE13.npages.trans hn)
            (fun c hc => by
              have hcb : c.1 ≠ b := hcell_ne c hc b _ hlb (by simp)
              have hcp : c.1 ≠ pt := hcell_ne c hc pt _ hlp' (by simp)
              rw [hmem3, if_neg (fun e => hcb (congrArg Prod.fst e)), hm1 c.1 hcp]
              exact hpath c hc)
            (fun x hx => by
              have hne : x ≠ j := fun e => hjn (e ▸ hx)
              rw [hmem3, if_neg (fun e => hne (congrArg Prod.snd e)), hm1 b hbpt]
              exact hagb x (List.mem_cons_of_mem _ hx))
            (fun f x hx hlf => by
              have hne : x ≠ j := fun e => hjn (e ▸ hx)
              have hfb : f ≠ b := by
                intro e
                rw [e, hlb] at hlf
                have := congrArg List.length (Option.some.inj hlf)
                simp at this
              have hfp : f ≠ pt := by
                intro e
                rw [e, hlp'] at hlf
                have := Option.some.inj hlf
                simp only [List.cons.injEq, and_true, true_and] at this
                exact hne this.symm
              funext y
              rw [hmem3, if_neg (fun e => hfb (congrArg Prod.fst e)), hm1 f hfp]
              exact congrFun (hagpt f x (List.mem_cons_of_mem _ hx) hlf) y)
            (hP3) (hF3) hd
          refine ⟨s', hs', hP', hF', hE13.trans hE', fun f x hfb hfl => ?_⟩
          rw [hm' f x (fun e hx => hfb e (List.mem_cons_of_mem _ hx))
            (fun y hy => hfl y (List.mem_cons_of_mem _ hy))]
          have hfp : f ≠ pt := fun e => hfl j (List.mem_cons_self _ _) (e ▸ hlp')
          rw [hmem3, if_neg (fun e => hfb (congrArg Prod.fst e)
            (by rw [(Prod.mk.inj e).2]; exact List.mem_cons_self _ _)), hm1 f hfp]
    · rw [hagj, if_pos hp]
      have hfr : pdes_frames st b i (j :: js) = pdes_frames st b i js := by
        simp only [pdes_frames, List.flatMap_cons, hp, Bool.false_eq_true, if_false,
          List.nil_append]
      rw [hfr] at hd
      obtain ⟨s', hs', hP', hF', hE', hm'⟩ := ih s t t'
        (fun x hx => hjs x (List.mem_cons_of_mem _ hx)) (List.nodup_cons.mp hnd).2 hn hpath
        (fun x hx => hagb x (List.mem_cons_of_mem _ hx))
        (fun f x hx => hagpt f x (List.mem_cons_of_mem _ hx)) hP hF hd
      exact ⟨s', hs', hP', hF', hE', fun f x hfb hfl =>
        hm' f x (fun e hx => hfb e (List.mem_cons_of_mem _ hx))
          (fun y hy => hfl y (List.mem_cons_of_mem _ hy))⟩
/-- The outer loop of `env_free` on the PDPT labelled `[0]` of a well-formed
tree, run beside a state `t` with the same frame table. -/
theorem env_free_pdpes_spec {st : Kernel} {l : List Nat} {root : Nat}
    {lab : Nat → Option (List Nat)} (hT : TableTree st l root lab) {a : Nat}
    (hla : lab a = some [0])
    (hdata : ∀ pt i j k, lab pt = some [0, i, j] → i < 3 → j < 512 → k < 512 →
      PGADDR 0 i j 0 0 < UTOP → present (st.mem pt k) = true →
      PGNUM (PTE_ADDR (st.mem pt k)) < st.npages)
    (is : List Nat) :
    ∀ s t t', (∀ i, i ∈ is → i < 3) → is.Nodup → s.npages = st.npages →
      s.mem root 0 = st.mem root 0 →
      (∀ i, i ∈ is → s.mem a i = st.mem a i) →
      (∀ f i q, i ∈ is → lab f = some (0 :: i :: q) → s.mem f = st.mem f) →
      s.pages = t.pages → s.page_free_list = t.page_free_list →
      decref_all (pdpes_frames st a is) t = some t' →
      ∃ s', env_free_pdpes root a is s = some s' ∧ s'.pages = t'.pages ∧
        s'.page_free_list = t'.page_free_list ∧ EnvFrame s s' ∧
        ∀ f x, (f = a → x ∉ is) → (∀ i q, i ∈ is → lab f ≠ some (0 :: i :: q)) →
          s'.mem f x = s.mem f x := by
  have hreach := (hT.reach a _ hla).2.2
  have hra : root ≠ a := by
    intro e
    have h0 := hT.root_lab
    rw [e, hla] at h0
    cases h0
  induction is with
  | nil =>
    intro s t t' _ _ _ _ _ _ hP hF hd
    simp only [pdpes_frames, List.flatMap_nil, decref_all, Option.some.injEq] at hd
    subst hd
    exact ⟨s, rfl, hP, hF, EnvFrame.refl s, fun _ _ _ _ => rfl⟩
  | cons i is ih =>
    intro s t t' his hnd hn hroot haga hagsub hP hF hd
    have hi : i < 3 := his i (List.mem_cons_self _ _)
    have hin : i ∉ is := (List.nodup_cons.mp hnd).1
    have hagi : s.mem a i = st.mem a i := haga i (List.mem_cons_self _ _)
    simp only [env_free_pdpes]
    by_cases hp : present (st.mem a i) = true
    · rw [hagi, if_neg (not_not.mpr hp)]
      obtain ⟨b, hkb, hlb⟩ := hT.step a [0] i hla (by simp) (by exact ⟨rfl, hi⟩) hp
      have hlb' : lab b = some [0, i] := hlb
      obtain ⟨hb, hbn⟩ := KADDR_some hkb
      have hfr : pdpes_frames st a (i :: is) =
          pdes_frames st b i table_slots ++ (b :: pdpes_frames st a is) := by
        simp only [pdpes_frames, List.flatMap_cons, hp, if_true, ← hb, List.append_assoc,
          List.singleton_append]
      rw [hfr, decref_all_append] at hd
      cases hd1 : decref_all (pdes_frames st b i table_slots) t with
      | none => rw [hd1] at hd; cases hd
      | some t1 =>
        rw [hd1] at hd
        simp only [Option.some_bind, decref_all] at hd
        cases hd2 : page_decref t1 b with
        | none => rw [hd2] at hd; cases hd
        | some t2 =>
          rw [hd2] at hd
          simp only [Option.some_bind] at hd
          have hcells1 : cells_from st [0] root = [(root, 0)] := by
            have h1 := cells_from_snoc st 0 [] root root rfl
            simpa [cells_from] using h1
          have hcells2 : cells_from st [0, i] root = [(root, 0), (a, i)] := by
            have h2 := cells_from_snoc st i [0] root a hreach
            rw [hcells1] at h2
            exact h2
          obtain ⟨s1, hs1, hP1, hF1, hE1, hm1⟩ := env_free_pdes_spec hT hi hlb'
            (fun pt j k hlp hj hk hU hpk => hdata pt i j k hlp hi hj hk hU hpk) table_slots s t t1
            (fun k hk => table_slots_lt hk) table_slots_nodup hn
            (fun c hc => by
              rw [hcells2] at hc
              simp only [List.mem_cons, List.mem_singleton, List.not_mem_nil, or_false] at hc
              rcases hc with hc | hc
              · rw [hc]; exact hroot
              · rw [hc]; exact hagi)
            (fun j _ => by rw [hagsub b i [] (List.mem_cons_self _ _) hlb'])
            (fun f j _ hlf => hagsub f i [j] (List.mem_cons_self _ _) hlf)
            hP hF hd1
          have hab : a ≠ b := by
            intro e
            rw [e, hlb'] at hla
            have := congrArg List.length (Option.some.inj hla)
            simp at this
          have hkeep : ∀ f x, f ≠ b → (∀ q, lab f ≠ some (0 :: i :: q)) →
              s1.mem f x = s.mem f x := fun f x hfb hfl =>
            hm1 f x (fun e => absurd e hfb) (fun j _ => hfl [j])
          have hla_ne : ∀ i' q, lab a ≠ some (0 :: i' :: q) := by
            intro i' q e
            rw [hla] at e
            have := congrArg List.length (Option.some.inj e)
            simp at this
          have hlr_ne : ∀ i' q, lab root ≠ some (0 :: i' :: q) := by
            intro i' q e
            rw [hT.root_lab] at e
            cases e
          have hrb : root ≠ b := by
            intro e
            have h0 := hT.root_lab
            rw [e, hlb'] at h0
            cases h0
          have ha1 : s1.mem a i = st.mem a i := by
            rw [hkeep a i hab (hla_ne i)]
            exact hagi
          rw [KADDR_npages hn, hkb]
          simp only [Option.some_bind]
          rw [hs1]
          simp only [Option.some_bind]
          have hpa : pa2page (s1.write a i 0) (PTE_ADDR (s1.mem a i)) = some b := by
            unfold pa2page
            rw [ha1, write_npages, hE1.npages, hn, if_neg (Nat.not_le.mpr hbn), hb]
          rw [hpa]
          simp only [Option.some_bind]
          obtain ⟨s3, hs3, hP3, hF3, hm3, hn3, hE3⟩ :=
            page_decref_same (show (s1.write a i 0).pages = t1.pages from hP1)
              (show (s1.write a i 0).page_free_list = t1.page_free_list from hF1) hd2
          rw [hs3]
          simp only [Option.some_bind]
          have hmem3 : ∀ f x, s3.mem f x = if (f, x) = (a, i) then 0 else s1.mem f x := by
            intro f x
            rw [hm3, write_mem_cell]
          have hE13 : EnvFrame s s3 := hE1.trans ((envFrame_write _ _ _ _).trans hE3)
          obtain ⟨s', hs', hP', hF', hE', hm'⟩ := ih s3 t2 t'
            (fun x hx => his x (List.mem_cons_of_mem _ hx)) (List.nodup_cons.mp hnd).2
            (hE13.npages.trans hn)
            (by
              rw [hmem3, if_neg (fun e => hra (Prod.mk.inj e).1), hkeep root 0 hrb (hlr_ne i)]
              exact hroot)
            (fun x hx => by
              have hne : x ≠ i := fun e => hin (e ▸ hx)
              rw [hmem3, if_neg (fun e => hne (Prod.mk.inj e).2), hkeep a x hab (hla_ne i)]
              exact haga x (List.mem_cons_of_mem _ hx))
            (fun f x q hx hlf => by
              have hne : x ≠ i := fun e => hin (e ▸ hx)
              have hfa : f ≠ a := fun e => hla_ne x q (e ▸ hlf)
              have hfl : ∀ q', lab f ≠ some (0 :: i :: q') := by
                intro q' e
                rw [hlf] at e
                have := Option.some.inj e
                simp only [List.cons.injEq, true_and] at this
                exact hne this.1
              have hfb : f ≠ b := fun e => hfl [] (e ▸ hlb')
              funext y
              rw [hmem3, if_neg (fun e => hfa (Prod.mk.inj e).1), hkeep f y hfb hfl]
              exact congrFun (hagsub f x q (List.mem_cons_of_mem _ hx) hlf) y)
            hP3 hF3 hd
          refine ⟨s', hs', hP', hF', hE13.trans hE', fun f x hfa hfl => ?_⟩
          rw [hm' f x (fun e hx => hfa e (List.mem_cons_of_mem _ hx))
            (fun y q hy => hfl y q (List.mem_cons_of_mem _ hy))]
          have hfb : f ≠ b := fun e => hfl i [] (List.mem_cons_self _ _) (e ▸ hlb')
          rw [hmem3, if_neg (fun e => hfa (Prod.mk.inj e).1
            (by rw [(Prod.mk.inj e).2]; exact List.mem_cons_self _ _)),
            hkeep f x hfb (fun q => hfl i q (List.mem_cons_self _ _))]
    · rw [hagi, if_pos hp]
      have hfr : pdpes_frames st a (i :: is) = pdpes_frames st a is := by
        simp only [pdpes_frames, List.flatMap_cons, hp, Bool.false_eq_true, if_false,
          List.nil_append]
      rw [hfr] at hd
      obtain ⟨s', hs', hP', hF', hE', hm'⟩ := ih s t t'
        (fun x hx => his x (List.mem_cons_of_mem _ hx)) (List.nodup_cons.mp hnd).2 hn hroot
        (fun x hx => haga x (List.mem_cons_of_mem _ hx))
        (fun f x q hx => hagsub f x q (List.mem_cons_of_mem _ hx)) hP hF hd
      exact ⟨s', hs', hP', hF', hE', fun f x hfa hfl =>
        hm' f x (fun e hx => hfa e (List.mem_cons_of_mem _ hx))
          (fun y q hy => hfl y q (List.mem_cons_of_mem _ hy))⟩
/-- The run of `env_free` on a well-formed address space: it succeeds when the
decrements of `env_frames` do, and leaves the frame table they leave. -/
theorem env_free_run {st : Kernel} {l : List Nat} {root : Nat}
    {lab : Nat → Option (List Nat)} (hT : TableTree st l root lab) {e : Nat}
    (hroot : (st.envs e).env_pml4e = some root) (hrn : root < st.npages)
    (hp0 : present (st.mem root 0) = true)
    (hdata : ∀ pt i j k, lab pt = some [0, i, j] → i < 3 → j < 512 → k < 512 →
      PGADDR 0 i j 0 0 < UTOP → present (st.mem pt k) = true →
      PGNUM (PTE_ADDR (st.mem pt k)) < st.npages)
    {t' : Kernel} (hd : decref_all (env_frames st root) st = some t') :
    ∃ st', env_free st e = some st' ∧ st'.pages = t'.pages ∧
      st'.page_free_list = t'.page_free_list ∧ st'.npages = st.npages ∧
      st'.env_free_list = some e ∧
      st'.envs e = { st.envs e with
        env_pml4e := none, env_status := ENV_FREE, env_link := st.env_free_list } ∧
      (∀ x, x ≠ e → st'.envs x = st.envs x) ∧ st'.cpu_env = st.cpu_env := by
  obtain ⟨a, hka, hla⟩ := hT.step root [] 0 hT.root_lab (by simp) (by exact rfl) hp0
  have hla' : lab a = some [0] := hla
  obtain ⟨ha, han⟩ := KADDR_some hka
  have hra : root ≠ a := by
    intro e
    have h0 := hT.root_lab
    rw [e, hla'] at h0
    cases h0
  have hfr : env_frames st root = pdpes_frames st a [0, 1, 2] ++ [a, root] := by
    simp only [env_frames, ← ha]
  rw [hfr, decref_all_append] at hd
  cases hd1 : decref_all (pdpes_frames st a [0, 1, 2]) st with
  | none => rw [hd1] at hd; cases hd
  | some t1 =>
    rw [hd1] at hd
    simp only [Option.some_bind, decref_all] at hd
    cases hd2 : page_decref t1 a with
    | none => rw [hd2] at hd; cases hd
    | some t2 =>
      rw [hd2] at hd
      simp only [Option.some_bind] at hd
      cases hd3 : page_decref t2 root with
      | none => rw [hd3] at hd; cases hd
      | some t3 =>
        rw [hd3] at hd
        simp only [Option.some_bind, Option.some.injEq] at hd
        subst hd
        obtain ⟨s1, hs1, hP1, hF1, hE1, hm1⟩ := env_free_pdpes_spec hT hla' hdata [0, 1, 2]
          st st t1 (by intro i hi; simp at hi; omega) (by decide) rfl rfl
          (fun _ _ => rfl) (fun _ _ _ _ _ => rfl) rfl rfl hd1
        have hr1 : s1.mem root 0 = st.mem root 0 :=
          hm1 root 0 (fun e => absurd e hra) (fun i q _ e => by
            rw [hT.root_lab] at e
            cases e)
        obtain ⟨s2, hs2, hP2, hF2, hm2, hn2, hE2⟩ := page_decref_same hP1 hF1 hd2
        obtain ⟨s4, hs4, hP4, hF4, hm4, hn4, hE4⟩ :=
          page_decref_same
            (show (s2.setEnv e { s2.envs e with env_pml4e := none }).pages = t2.pages from hP2)
            (show (s2.setEnv e { s2.envs e with env_pml4e := none }).page_free_list =
              t2.page_free_list from hF2) hd3
        have hpa1 : pa2page s1 (PTE_ADDR (s1.mem root 0)) = some a := by
          unfold pa2page
          rw [hr1, hE1.npages, if_neg (Nat.not_le.mpr han), ha]
        have hpg : PGNUM (page2pa root) = root := by
          unfold PGNUM page2pa
          rw [Nat.shiftLeft_eq, Nat.shiftRight_eq_div_pow]
          exact Nat.mul_div_cancel _ (by decide)
        have hpa3 : pa2page (s2.setEnv e { s2.envs e with env_pml4e := none }) (page2pa root) =
            some root := by
          unfold pa2page
          rw [hpg, setEnv_npages, hn2, hE1.npages, if_neg (Nat.not_le.mpr hrn)]
        have henvs2 : s2.envs = st.envs := hE2.envs.trans hE1.envs
        have hfl2 : s2.env_free_list = st.env_free_list :=
          hE2.env_free_list.trans hE1.env_free_list
        refine ⟨{ s4.setEnv e
                    { s4.envs e with env_status := ENV_FREE, env_link := s4.env_free_list }
                  with env_free_list := some e }, ?_, ?_, ?_, ?_, ?_, ?_, ?_, ?_⟩
        · unfold env_free
          rw [hroot]
          simp only [hka, hs1, hpa1, hs2, hpa3, hs4]
        · exact hP4
        · exact hF4
        · show s4.npages = st.npages
          rw [hn4, setEnv_npages, hn2, hE1.npages]
        · rfl
        · show Function.update s4.envs e _ e = _
          rw [Function.update_same, hE4.envs, hE4.env_free_list, setEnv_envs,
            setEnv_env_free_list, Function.update_same, henvs2, hfl2]
        · intro x hx
          show Function.update s4.envs e _ x = _
          rw [Function.update_noteq hx, hE4.envs, setEnv_envs, Function.update_noteq hx, henvs2]
        · show s4.cpu_env = st.cpu_env
          rw [hE4.cpu_env, setEnv_cpu_env, hE2.cpu_env, hE1.cpu_env]
theorem count_ptes_frames (st : Kernel) (pt f : Nat) (ks : List Nat) :
    (ptes_frames st pt ks).count f =
      ks.countP (fun k => present (st.mem pt k) && (PGNUM (PTE_ADDR (st.mem pt k)) == f)) := by
  unfold ptes_frames
  rw [List.count_eq_countP, List.countP_map, List.countP_filter]
  apply List.countP_congr
  intro k _
  simp only [Function.comp, Bool.and_eq_true, beq_iff_eq]
  exact And.comm

/-- The lookup of the page with indices `i`, `j`, `k` in terms of its page
table. -/
theorem page_lookup_cell {st : Kernel} {l : List Nat} {root : Nat}
    {lab : Nat → Option (List Nat)} (hT : TableTree st l root lab) {pt i j k : Nat}
    (hi : i < 512) (hj : j < 512) (hk : k < 512) (hlp : lab pt = some [0, i, j]) :
    page_lookup st root (PGADDR 0 i j k 0) =
      if present (st.mem pt k) then
        (pa2page st (PTE_ADDR (st.mem pt k))).map (fun pp => some (pp, (pt, k)))
      else some none := by
  obtain ⟨hpath, hptx⟩ := PGADDR_index hi hj hk
  have hreach := (hT.reach pt _ hlp).2.2
  rw [page_lookup_eq]
  change (match leaf_from st (table_path (PGADDR 0 i j k 0)) root with
    | none => none
    | some none => some none
    | some (some pt) =>
      if present (st.mem pt (PTX (PGADDR 0 i j k 0))) then
        (pa2page st (PTE_ADDR (st.mem pt (PTX (PGADDR 0 i j k 0))))).map
          (fun pp => some (pp, (pt, PTX (PGADDR 0 i j k 0))))
      else some none) = _
  rw [hpath, hptx, hreach]

theorem page_lookup_absent {st : Kernel} {root i j k : Nat}
    (hi : i < 512) (hj : j < 512) (hk : k < 512)
    (h : leaf_from st [0, i, j] root = some none) :
    page_lookup st root (PGADDR 0 i j k 0) = some none := by
  obtain ⟨hpath, hptx⟩ := PGADDR_index hi hj hk
  rw [page_lookup_eq]
  change (match leaf_from st (table_path (PGADDR 0 i j k 0)) root with
    | none => none
    | some none => some none
    | some (some pt) =>
      if present (st.mem pt (PTX (PGADDR 0 i j k 0))) then
        (pa2page st (PTE_ADDR (st.mem pt (PTX (PGADDR 0 i j k 0))))).map
          (fun pp => some (pp, (pt, PTX (PGADDR 0 i j k 0))))
      else some none) = _
  rw [hpath, h]

/-- The pages of one page table: the mappings of `f` among its pages below
`UTOP` are the occurrences of `f` among the frames `env_free` releases through
it. -/
theorem count_block {st : Kernel} {l : List Nat} {root : Nat}
    {lab : Nat → Option (List Nat)} (hT : TableTree st l root lab) {pt i j : Nat}
    (hi : i < 512) (hj : j < 512) (hlp : lab pt = some [0, i, j])
    (hdata : PGADDR 0 i j 0 0 < UTOP → ∀ k, k < 512 → present (st.mem pt k) = true →
      PGNUM (PTE_ADDR (st.mem pt k)) < st.npages) (f : Nat) :
    ((table_slots.filter (fun k => PGADDR 0 i j k 0 < UTOP)).map
        (fun k => PGADDR 0 i j k 0)).countP (maps_frame st root f) =
    (if PGADDR 0 i j 0 0 < UTOP then ptes_frames st pt table_slots else []).count f := by
  by_cases hU : PGADDR 0 i j 0 0 < UTOP
  · rw [if_pos hU, count_ptes_frames, List.countP_map]
    have hfil : table_slots.filter (fun k => PGADDR 0 i j k 0 < UTOP) = table_slots := by
      apply List.filter_eq_self.mpr
      intro k hk
      simpa using (PGADDR_utop hi hj (table_slots_lt hk)).mpr hU
    rw [hfil]
    apply List.countP_congr
    intro k hk
    have hk' := table_slots_lt hk
    simp only [Function.comp, maps_frame, page_lookup_cell hT hi hj hk' hlp]
    by_cases hp : present (st.mem pt k) = true
    · have hv := hdata hU k hk' hp
      simp only [hp, if_true, pa2page, ge_iff_le, Nat.not_le.mpr hv, if_false, Option.map_some',
        Bool.true_and]
    · simp only [hp, Bool.false_eq_true, if_false, Bool.false_and]
  · rw [if_neg hU]
    have hfil : table_slots.filter (fun k => PGADDR 0 i j k 0 < UTOP) = [] := by
      apply List.filter_eq_nil_iff.mpr
      intro k hk
      simpa using fun h => hU ((PGADDR_utop hi hj (table_slots_lt hk)).mp h)
    rw [hfil]
    rfl
theorem maps_frame_absent {st : Kernel} {root i j k : Nat}
    (hi : i < 512) (hj : j < 512) (hk : k < 512)
    (h : leaf_from st [0, i, j] root = some none) (f : Nat) :
    maps_frame st root f (PGADDR 0 i j k 0) = false := by
  unfold maps_frame
  rw [page_lookup_absent hi hj hk h]

theorem count_block_absent {st : Kernel} {root i j : Nat} (hi : i < 512) (hj : j < 512)
    (h : leaf_from st [0, i, j] root = some none) (f : Nat) :
    ((table_slots.filter (fun k => PGADDR 0 i j k 0 < UTOP)).map
        (fun k => PGADDR 0 i j k 0)).countP (maps_frame st root f) = 0 := by
  apply List.countP_eq_zero.mpr
  intro va hva
  obtain ⟨k, hk, rfl⟩ := List.mem_map.mp hva
  have hk' := table_slots_lt (List.mem_filter.mp hk).1
  rw [maps_frame_absent hi hj hk' h]
  simp

theorem singleton_count_ne {a f : Nat} (h : a ≠ f) : [a].count f = 0 := by
  simp [List.count_singleton, h]

/-- The pages of one page directory: the mappings of a frame that is not a
table among its pages below `UTOP` are its occurrences among the frames
`env_free` releases through the directory. -/
theorem count_pd {st : Kernel} {l : List Nat} {root : Nat}
    {lab : Nat → Option (List Nat)} (hT : TableTree st l root lab) {b i : Nat}
    (hi : i < 3) (hlb : lab b = some [0, i])
    (hdata : ∀ pt j k, lab pt = some [0, i, j] → j < 512 → k < 512 →
      PGADDR 0 i j 0 0 < UTOP → present (st.mem pt k) = true →
      PGNUM (PTE_ADDR (st.mem pt k)) < st.npages)
    {f : Nat} (hf : lab f = none) :
    (table_slots.flatMap fun j =>
        (table_slots.filter (fun k => PGADDR 0 i j k 0 < UTOP)).map
          (fun k => PGADDR 0 i j k 0)).countP (maps_frame st root f) =
      (pdes_frames st b i table_slots).count f := by
  have hi' : i < 512 := by omega
  have hreach := (hT.reach b _ hlb).2.2
  rw [List.countP_flatMap]
  unfold pdes_frames
  rw [List.count_flatMap]
  refine congrArg List.sum ?_
  apply List.map_congr_left
  intro j hj
  have hj' := table_slots_lt hj
  simp only [Function.comp]
  by_cases hp : present (st.mem b j) = true
  · obtain ⟨pt, hkpt, hlp⟩ := hT.step b [0, i] j hlb (by simp) (by exact ⟨rfl, hi⟩) hp
    have hlp' : lab pt = some [0, i, j] := hlp
    obtain ⟨hpt, -⟩ := KADDR_some hkpt
    have hne : pt ≠ f := by
      intro e
      rw [e, hf] at hlp'
      cases hlp'
    rw [if_pos hp, ← hpt, List.count_append, singleton_count_ne hne, Nat.add_zero]
    exact count_block hT hi' hj' hlp' (fun hU k hk hpk => hdata pt j k hlp' hj' hk hU hpk) f
  · rw [if_neg hp]
    have hleaf : leaf_from st [0, i, j] root = some none := by
      have := leaf_from_append st [0, i] [j] root
      rw [hreach] at this
      simp only [List.cons_append, List.nil_append] at this
      rw [this]
      simp only [leaf_from, hp, Bool.false_eq_true, if_false]
    rw [count_block_absent hi' hj' hleaf f]
    rfl

/-- The mappings of a frame that is not a table in the user half of an address
space are its occurrences among the frames `env_free` releases. -/
theorem count_env_frames {st : Kernel} {l : List Nat} {root : Nat}
    {lab : Nat → Option (List Nat)} (hT : TableTree st l root lab)
    (hp0 : present (st.mem root 0) = true)
    (hdata : ∀ pt i j k, lab pt = some [0, i, j] → i < 3 → j < 512 → k < 512 →
      PGADDR 0 i j 0 0 < UTOP → present (st.mem pt k) = true →
      PGNUM (PTE_ADDR (st.mem pt k)) < st.npages)
    {f : Nat} (hf : lab f = none) :
    (env_frames st root).count f = user_mappings st root f := by
  obtain ⟨a, hka, hla⟩ := hT.step root [] 0 hT.root_lab (by simp) (by exact rfl) hp0
  have hla' : lab a = some [0] := hla
  obtain ⟨ha, -⟩ := KADDR_some hka
  have hreach := (hT.reach a _ hla').2.2
  have hna : a ≠ f := by
    intro e
    rw [e, hf] at hla'
    cases hla'
  have hnr : root ≠ f := by
    intro e
    have h0 := hT.root_lab
    rw [e, hf] at h0
    cases h0
  have htail : [a, root].count f = 0 := by
    simp [List.count_cons, hna, hnr]
  unfold env_frames user_mappings user_pages
  rw [← ha, List.count_append, htail, Nat.add_zero, List.countP_flatMap]
  unfold pdpes_frames
  rw [List.count_flatMap]
  have hr : List.range 3 = [0, 1, 2] := rfl
  rw [hr]
  refine congrArg List.sum ?_
  apply List.map_congr_left
  intro i hi
  have hi3 : i < 3 := by
    simp only [List.mem_cons, List.mem_singleton, List.not_mem_nil, or_false] at hi
    omega
  have hi' : i < 512 := by omega
  simp only [Function.comp]
  by_cases hp : present (st.mem a i) = true
  · obtain ⟨b, hkb, hlb⟩ := hT.step a [0] i hla' (by simp) (by exact ⟨rfl, hi3⟩) hp
    have hlb' : lab b = some [0, i] := hlb
    obtain ⟨hb, -⟩ := KADDR_some hkb
    have hne : b ≠ f := by
      intro e
      rw [e, hf] at hlb'
      cases hlb'
    rw [if_pos hp, ← hb, List.count_append, singleton_count_ne hne, Nat.add_zero]
    exact (count_pd hT hi3 hlb'
      (fun pt j k hlp hj hk hU hpk => hdata pt i j k hlp hi3 hj hk hU hpk) hf).symm
  · rw [if_neg hp]
    symm
    show List.countP _ _ = 0
    apply List.countP_eq_zero.mpr
    intro va hva
    obtain ⟨j, hj, hva⟩ := List.mem_flatMap.mp hva
    obtain ⟨k, hk, rfl⟩ := List.mem_map.mp hva
    have hj' := table_slots_lt hj
    have hk' := table_slots_lt (List.mem_filter.mp hk).1
    have hleaf : leaf_from st [0, i, j] root = some none := by
      have := leaf_from_append st [0] [i, j] root
      rw [hreach] at this
      simp only [List.cons_append, List.nil_append] at this
      rw [this]
      simp only [leaf_from, hp, Bool.false_eq_true, if_false]
    rw [maps_frame_absent hi' hj' hk' hleaf]
    simp
theorem count_flatMap_single {l : List Nat} {g : Nat → List Nat} {f x0 : Nat} (hnd : l.Nodup)
    (hx : x0 ∈ l) (h : ∀ x, x ∈ l → x ≠ x0 → f ∉ g x) :
    (l.flatMap g).count f = (g x0).count f := by
  induction l with
  | nil => cases hx
  | cons y ys ih =>
    rw [List.flatMap_cons, List.count_append]
    obtain ⟨hy, hnd'⟩ := List.nodup_cons.mp hnd
    rcases List.mem_cons.mp hx with e | hm
    · subst e
      have : (ys.flatMap g).count f = 0 := by
        apply List.count_eq_zero.mpr
        intro hmem
        obtain ⟨x, hxs, hfx⟩ := List.mem_flatMap.mp hmem
        exact h x (List.mem_cons_of_mem _ hxs) (fun e => hy (e ▸ hxs)) hfx
      rw [this, Nat.add_zero]
    · have hne : y ≠ x0 := fun e => hy (e ▸ hm)
      have : (g y).count f = 0 :=
        List.count_eq_zero.mpr (h y (List.mem_cons_self _ _) hne)
      rw [this, Nat.zero_add]
      exact ih hnd' hm (fun x hxs => h x (List.mem_cons_of_mem _ hxs))

theorem mem_ptes_frames {st : Kernel} {pt x : Nat} {ks : List Nat}
    (h : x ∈ ptes_frames st pt ks) :
    ∃ k, k ∈ ks ∧ present (st.mem pt k) = true ∧ x = PGNUM (PTE_ADDR (st.mem pt k)) := by
  unfold ptes_frames at h
  obtain ⟨k, hk, rfl⟩ := List.mem_map.mp h
  obtain ⟨hk1, hk2⟩ := List.mem_filter.mp hk
  exact ⟨k, hk1, hk2, rfl⟩

/-- The frames released through a page directory are frames of pages, which
are no tables, and its page tables. -/
theorem mem_pdes_frames {st : Kernel} {l : List Nat} {root : Nat}
    {lab : Nat → Option (List Nat)} (hT : TableTree st l root lab) {b i : Nat}
    (hi : i < 3) (hlb : lab b = some [0, i])
    (hdu : ∀ pt j k, lab pt = some [0, i, j] → j < 512 → k < 512 →
      PGADDR 0 i j 0 0 < UTOP → present (st.mem pt k) = true →
      lab (PGNUM (PTE_ADDR (st.mem pt k))) = none)
    {js : List Nat} (hjs : ∀ j, j ∈ js → j < 512) {x : Nat}
    (h : x ∈ pdes_frames st b i js) :
    lab x = none ∨ ∃ j, j ∈ js ∧ present (st.mem b j) = true ∧ lab x = some [0, i, j] ∧
      x = PGNUM (PTE_ADDR (st.mem b j)) := by
  unfold pdes_frames at h
  obtain ⟨j, hj, hx⟩ := List.mem_flatMap.mp h
  by_cases hp : present (st.mem b j) = true
  · obtain ⟨pt, hkpt, hlp⟩ := hT.step b [0, i] j hlb (by simp) (by exact ⟨rfl, hi⟩) hp
    have hlp' : lab pt = some [0, i, j] := hlp
    obtain ⟨hpt, -⟩ := KADDR_some hkpt
    rw [if_pos hp, ← hpt] at hx
    rcases List.mem_append.mp hx with hx | hx
    · left
      split at hx
      · rename_i hU
        obtain ⟨k, hk, hpk, rfl⟩ := mem_ptes_frames hx
        exact hdu pt j k hlp' (hjs j hj) (table_slots_lt hk) hU hpk
      · cases hx
    · right
      rw [List.mem_singleton] at hx
      subst hx
      exact ⟨j, hj, hp, hlp', hpt⟩
  · rw [if_neg hp] at hx
    cases hx

/-- The frames released through the PDPT are frames of pages, page
directories and page tables. -/
theorem mem_pdpes_frames {st : Kernel} {l : List Nat} {root : Nat}
    {lab : Nat → Option (List Nat)} (hT : TableTree st l root lab) {a : Nat}
    (hla : lab a = some [0])
    (hdu : ∀ pt i j k, lab pt = some [0, i, j] → i < 3 → j < 512 → k < 512 →
      PGADDR 0 i j 0 0 < UTOP → present (st.mem pt k) = true →
      lab (PGNUM (PTE_ADDR (st.mem pt k))) = none)
    {is : List Nat} (his : ∀ i, i ∈ is → i < 3) {x : Nat}
    (h : x ∈ pdpes_frames st a is) :
    lab x = none ∨
      (∃ i, i ∈ is ∧ present (st.mem a i) = true ∧ lab x = some [0, i] ∧
        x = PGNUM (PTE_ADDR (st.mem a i))) ∨
      ∃ i j, i ∈ is ∧ j < 512 ∧ lab x = some [0, i, j] := by
  unfold pdpes_frames at h
  obtain ⟨i, hi, hx⟩ := List.mem_flatMap.mp h
  have hi3 := his i hi
  by_cases hp : present (st.mem a i) = true
  · obtain ⟨b, hkb, hlb⟩ := hT.step a [0] i hla (by simp) (by exact ⟨rfl, hi3⟩) hp
    have hlb' : lab b = some [0, i] := hlb
    obtain ⟨hb, -⟩ := KADDR_some hkb
    rw [if_pos hp, ← hb] at hx
    rcases List.mem_append.mp hx with hx | hx
    · rcases mem_pdes_frames hT hi3 hlb'
          (fun pt j k hlp hj hk hU hpk => hdu pt i j k hlp hi3 hj hk hU hpk)
          (fun j hj => table_slots_lt hj) hx with h1 | ⟨j, hj, -, hl, -⟩
      · exact Or.inl h1
      · exact Or.inr (Or.inr ⟨i, j, hi, table_slots_lt hj, hl⟩)
    · rw [List.mem_singleton] at hx
      subst hx
      exact Or.inr (Or.inl ⟨i, hi, hp, hlb', hb⟩)
  · rw [if_neg hp] at hx
    cases hx
/-- A table of the user half of a well-formed address space, reached through
slots below 512, occurs exactly once among the frames `env_free` releases. -/
theorem count_env_frames_table {st : Kernel} {l : List Nat} {root : Nat}
    {lab : Nat → Option (List Nat)} (hT : TableTree st l root lab)
    (hp0 : present (st.mem root 0) = true)
    (hdu : ∀ pt i j k, lab pt = some [0, i, j] → i < 3 → j < 512 → k < 512 →
      PGADDR 0 i j 0 0 < UTOP → present (st.mem pt k) = true →
      lab (PGNUM (PTE_ADDR (st.mem pt k))) = none)
    {f : Nat} {p : List Nat} (hlf : lab f = some p) (hidx : ∀ x, x ∈ p → x < 512) :
    (env_frames st root).count f = 1 := by
  obtain ⟨a, hka, hla⟩ := hT.step root [] 0 hT.root_lab (by simp) (by exact rfl) hp0
  have hla' : lab a = some [0] := hla
  obtain ⟨ha, -⟩ := KADDR_some hka
  have hra : root ≠ a := by
    intro e
    have h0 := hT.root_lab
    rw [e, hla'] at h0
    cases h0
  obtain ⟨hlen, hup, hreach⟩ := hT.reach f p hlf
  have h3 : ∀ i, i ∈ [0, 1, 2] → i < 3 := by
    intro i hi
    simp only [List.mem_cons, List.mem_singleton, List.not_mem_nil, or_false] at hi
    omega
  have hmem := fun x (hx : x ∈ pdpes_frames st a [0, 1, 2]) =>
    mem_pdpes_frames hT hla' hdu h3 hx
  unfold env_frames
  rw [← ha, List.count_append]
  match p, hlf, hlen, hup, hreach, hidx with
  | [], hlf, _, _, hreach, _ =>
    have hfr : f = root := by
      simp only [leaf_from, Option.some.injEq] at hreach
      exact hreach.symm
    have h0 : (pdpes_frames st a [0, 1, 2]).count f = 0 := by
      apply List.count_eq_zero.mpr
      intro hx
      rcases hmem f hx with h | ⟨i, _, _, h, _⟩ | ⟨i, j, _, _, h⟩ <;> rw [hlf] at h <;> cases h
    rw [h0, hfr]
    simp [List.count_cons, hra.symm]
  | [x], hlf, _, hup, hreach, _ =>
    have hx0 : x = 0 := hup
    subst hx0
    have hfa : f = a := by
      simp only [leaf_from, hp0, if_true, hka, Option.some.injEq] at hreach
      exact hreach.symm
    have h0 : (pdpes_frames st a [0, 1, 2]).count f = 0 := by
      apply List.count_eq_zero.mpr
      intro hx
      rcases hmem f hx with h | ⟨i, _, _, h, _⟩ | ⟨i, j, _, _, h⟩ <;> rw [hlf] at h <;>
        simp at h
    rw [h0, hfa]
    simp [List.count_cons, hra]
  | [x, y], hlf, _, hup, hreach, _ =>
    obtain ⟨hx0, hy3⟩ : x = 0 ∧ y < 3 := hup
    subst hx0
    have hpy : present (st.mem a y) = true ∧ KADDR st (PTE_ADDR (st.mem a y)) = some f := by
      simp only [leaf_from, hp0, if_true, hka] at hreach
      split at hreach
      · rename_i hp
        refine ⟨hp, ?_⟩
        cases hk : KADDR st (PTE_ADDR (st.mem a y)) with
        | none => rw [hk] at hreach; cases hreach
        | some t =>
          rw [hk] at hreach
          simp only [Option.some.injEq] at hreach
          rw [hreach]
      · cases hreach
    obtain ⟨hfy, -⟩ := KADDR_some hpy.2
    have htail : [a, root].count f = 0 := by
      have h1 : a ≠ f := by
        intro e
        rw [e, hlf] at hla'
        simp at hla'
      have h2 : root ≠ f := by
        intro e
        have h0 := hT.root_lab
        rw [e, hlf] at h0
        cases h0
      simp [List.count_cons, h1, h2]
    rw [htail, Nat.add_zero]
    unfold pdpes_frames
    rw [count_flatMap_single (by decide) (show y ∈ [0, 1, 2] by
      simp only [List.mem_cons, List.mem_singleton, List.not_mem_nil, or_false]; omega)]
    · rw [if_pos hpy.1, ← hfy, List.count_append]
      have h0 : (pdes_frames st f y table_slots).count f = 0 := by
        apply List.count_eq_zero.mpr
        intro hx
        rcases mem_pdes_frames hT hy3 hlf
          (fun pt j k hlp hj hk hU hpk => hdu pt y j k hlp hy3 hj hk hU hpk)
          (fun j hj => table_slots_lt hj) hx with h | ⟨j, _, _, h, _⟩ <;> rw [hlf] at h <;>
          simp at h
      rw [h0]
      simp
    · intro i hi hne hx
      have hx' : f ∈ pdpes_frames st a [i] := by
        unfold pdpes_frames
        simpa using hx
      rcases mem_pdpes_frames hT hla' hdu (fun z hz => by
          rw [List.mem_singleton.mp hz]; exact h3 i hi) hx' with
        h | ⟨i', hi', _, h, _⟩ | ⟨i', j, _, _, h⟩
      · rw [hlf] at h; cases h
      · rw [hlf, List.mem_singleton.mp hi'] at h
        simp only [Option.some.injEq, List.cons.injEq, and_true, true_and] at h
        exact hne h.symm
      · rw [hlf] at h
        simp at h
  | [x, y, z], hlf, _, hup, hreach, hidx =>
    obtain ⟨hx0, hy3⟩ : x = 0 ∧ y < 3 := hup
    subst hx0
    have hz : z < 512 := hidx z (by simp)
    obtain ⟨t1, b, _, hk1, hpy, hkb, hpz, hkf⟩ := leaf_from_three hreach
    have ht1 : t1 = a := by
      rw [hka] at hk1
      exact (Option.some.inj hk1).symm
    subst ht1
    obtain ⟨hb, -⟩ := KADDR_some hkb
    obtain ⟨hfz, -⟩ := KADDR_some hkf
    obtain ⟨b', hkb', hlb⟩ := hT.step t1 [0] y hla' (by simp) (by exact ⟨rfl, hy3⟩) hpy
    have hbb : b' = b := by
      rw [hkb] at hkb'
      exact (Option.some.inj hkb').symm
    subst hbb
    have hlb' : lab b' = some [0, y] := hlb
    have htail : [t1, root].count f = 0 := by
      have h1 : t1 ≠ f := by
        intro e
        rw [e, hlf] at hla'
        simp at hla'
      have h2 : root ≠ f := by
        intro e
        have h0 := hT.root_lab
        rw [e, hlf] at h0
        cases h0
      simp [List.count_cons, h1, h2]
    rw [htail, Nat.add_zero]
    unfold pdpes_frames
    rw [count_flatMap_single (by decide) (show y ∈ [0, 1, 2] by
      simp only [List.mem_cons, List.mem_singleton, List.not_mem_nil, or_false]; omega)]
    · have hbf : b' ≠ f := by
        intro e
        rw [e, hlf] at hlb'
        simp at hlb'
      rw [if_pos hpy, ← hb, List.count_append, singleton_count_ne hbf, Nat.add_zero]
      unfold pdes_frames
      rw [count_flatMap_single table_slots_nodup (show z ∈ table_slots by
        simp [table_slots, NPDENTRIES, hz])]
      · rw [if_pos hpz, ← hfz, List.count_append]
        have h0 : (if PGADDR 0 y z 0 0 < UTOP then ptes_frames st f table_slots
            else []).count f = 0 := by
          apply List.count_eq_zero.mpr
          intro hx
          split at hx
          · rename_i hU
            obtain ⟨k, hk, hpk, e⟩ := mem_ptes_frames hx
            have := hdu f y z k hlf hy3 hz (table_slots_lt hk) hU hpk
            rw [← e, hlf] at this
            cases this
          · cases hx
        rw [h0]
        simp
      · intro j hj hne hx
        have hx' : f ∈ pdes_frames st b' y [j] := by
          unfold pdes_frames
          simpa using hx
        rcases mem_pdes_frames hT hy3 hlb'
          (fun pt j k hlp hj hk hU hpk => hdu pt y j k hlp hy3 hj hk hU hpk)
          (fun w hw => by rw [List.mem_singleton.mp hw]; exact table_slots_lt hj) hx' with
          h | ⟨j', hj', _, h, _⟩
        · rw [hlf] at h; cases h
        · rw [hlf, List.mem_singleton.mp hj'] at h
          simp only [Option.some.injEq, List.cons.injEq, and_true, true_and] at h
          exact hne h.symm
    · intro i hi hne hx
      have hx' : f ∈ pdpes_frames st t1 [i] := by
        unfold pdpes_frames
        simpa using hx
      rcases mem_pdpes_frames hT hla' hdu (fun w hw => by
          rw [List.mem_singleton.mp hw]; exact h3 i hi) hx' with
        h | ⟨i', hi', _, h, _⟩ | ⟨i', j, hi', _, h⟩
      · rw [hlf] at h; cases h
      · rw [hlf] at h
        simp at h
      · rw [hlf, List.mem_singleton.mp hi'] at h
        simp only [Option.some.injEq, List.cons.injEq, and_true, true_and] at h
        exact hne h.1.symm
  | _ :: _ :: _ :: _ :: _, _, hlen, _, _, _ =>
    simp only [List.length_cons] at hlen
    omega
theorem user_pages_mem {i j k : Nat} (hi : i < 3) (hj : j < 512) (hk : k < 512)
    (hU : PGADDR 0 i j 0 0 < UTOP) : PGADDR 0 i j k 0 ∈ user_pages := by
  unfold user_pages
  refine List.mem_flatMap.mpr ⟨i, List.mem_range.mpr hi, List.mem_flatMap.mpr ⟨j, ?_, ?_⟩⟩
  · simpa [table_slots, NPDENTRIES] using hj
  · refine List.mem_map.mpr ⟨k, List.mem_filter.mpr ⟨?_, ?_⟩, rfl⟩
    · simpa [table_slots, NPDENTRIES] using hk
    · simpa using (PGADDR_utop (by omega) hj hk).mpr hU

/-- The members of `user_pages` are the page-aligned addresses below `UTOP`. -/
theorem mem_user_pages (va : Nat) : va ∈ user_pages ↔ va < UTOP ∧ va % PGSIZE = 0 := by
  have hutop : UTOP = 0xBC800000 := by decide
  constructor
  · intro h
    unfold user_pages at h
    obtain ⟨i, hi, h⟩ := List.mem_flatMap.mp h
    obtain ⟨j, hj, h⟩ := List.mem_flatMap.mp h
    obtain ⟨k, hk, rfl⟩ := List.mem_map.mp h
    obtain ⟨hk1, hk2⟩ := List.mem_filter.mp hk
    have hi' : i < 512 := by have := List.mem_range.mp hi; omega
    have hj' := table_slots_lt hj
    have hk' := table_slots_lt hk1
    refine ⟨by simpa using hk2, ?_⟩
    rw [PGADDR_val hi' hj' hk']
    simp only [PGSIZE]
    omega
  · rintro ⟨h1, h2⟩
    rw [hutop] at h1
    simp only [PGSIZE] at h2
    have hi : va / 2 ^ 30 < 3 := by omega
    have hj : va / 2 ^ 21 % 512 < 512 := Nat.mod_lt _ (by decide)
    have hk : va / 2 ^ 12 % 512 < 512 := Nat.mod_lt _ (by decide)
    have hva : va = PGADDR 0 (va / 2 ^ 30) (va / 2 ^ 21 % 512) (va / 2 ^ 12 % 512) 0 := by
      rw [PGADDR_val (by omega) hj hk]
      omega
    have hU : PGADDR 0 (va / 2 ^ 30) (va / 2 ^ 21 % 512) 0 0 < UTOP := by
      rw [PGADDR_val (by omega) hj (by omega), hutop]
      omega
    rw [hva]
    exact user_pages_mem hi hj hk hU

/-- The page-level conditions on the user half give the entry-level ones: a
present entry of a page table below `UTOP` holds a valid frame that is no
table. -/
theorem user_cells_of_lookups {st : Kernel} {l : List Nat} {root : Nat}
    {lab : Nat → Option (List Nat)} (hT : TableTree st l root lab)
    (hvalid : ∀ va, va ∈ user_pages → page_lookup st root va ≠ none)
    (hdu : ∀ va q slot, va ∈ user_pages → page_lookup st root va = some (some (q, slot)) →
      lab q = none) :
    ∀ pt i j k, lab pt = some [0, i, j] → i < 3 → j < 512 → k < 512 →
      PGADDR 0 i j 0 0 < UTOP → present (st.mem pt k) = true →
      PGNUM (PTE_ADDR (st.mem pt k)) < st.npages ∧
      lab (PGNUM (PTE_ADDR (st.mem pt k))) = none := by
  intro pt i j k hlp hi hj hk hU hp
  have hmem := user_pages_mem hi hj hk hU
  have hlk := page_lookup_cell hT (show i < 512 by omega) hj hk hlp
  rw [if_pos hp] at hlk
  have hv : PGNUM (PTE_ADDR (st.mem pt k)) < st.npages := by
    by_contra hge
    have : pa2page st (PTE_ADDR (st.mem pt k)) = none := by
      unfold pa2page
      rw [if_pos (Nat.le_of_not_lt hge)]
    rw [this] at hlk
    exact hvalid _ hmem hlk
  refine ⟨hv, ?_⟩
  have : pa2page st (PTE_ADDR (st.mem pt k)) = some (PGNUM (PTE_ADDR (st.mem pt k))) := by
    unfold pa2page
    rw [if_neg (Nat.not_le.mpr hv)]
  rw [this] at hlk
  exact hdu _ _ _ hmem hlk

/-- C29. `env_free(e)` releases an address space completely. Let the tables of
the user half of `e` form a well-formed tree (`lab` names them), each with
reference count 1, let every page below `UTOP` resolve to a frame that is no
table, and let no frame have more mappings below `UTOP` than its (16-bit)
count. Then `env_free` returns, and afterwards: the count of every frame that
is no table has dropped by exactly the number of `e`'s mappings of it; a frame
all of whose references were such mappings has count 0 and is on the page free
list; every table reached through slots below 512 - page tables, page
directories, the PDPT and the PML4 - has count 0 and is on the free list; `e`
has status `ENV_FREE` and is the head of the environment free list; and the
page free list is well formed. -/
theorem env_free_releases {st : Kernel} {l : List Nat} {root : Nat}
    {lab : Nat → Option (List Nat)} (e : Nat) (hl : PageList st l)
    (hT : TableTree st l root lab) (hroot : (st.envs e).env_pml4e = some root)
    (hrn : root < st.npages) (hp0 : present (st.mem root 0) = true)
    (hvalid : ∀ va, va ∈ user_pages → page_lookup st root va ≠ none)
    (hdu : ∀ va q slot, va ∈ user_pages → page_lookup st root va = some (some (q, slot)) →
      lab q = none)
    (htab : ∀ f p, lab f = some p → (st.pages f).pp_ref = 1)
    (hcnt : ∀ f, lab f = none → user_mappings st root f ≤ (st.pages f).pp_ref)
    (h16 : ∀ f, (st.pages f).pp_ref < 65536) :
    ∃ st', env_free st e = some st' ∧
      (∀ f, lab f = none →
        (st'.pages f).pp_ref = (st.pages f).pp_ref - user_mappings st root f) ∧
      (∀ f, lab f = none → 0 < user_mappings st root f →
        user_mappings st root f = (st.pages f).pp_ref →
        (st'.pages f).pp_ref = 0 ∧ OnPageFreeList st' f) ∧
      (∀ f p, lab f = some p → (∀ x, x ∈ p → x < 512) →
        (st'.pages f).pp_ref = 0 ∧ OnPageFreeList st' f) ∧
      (st'.envs e).env_status = ENV_FREE ∧ st'.env_free_list = some e ∧ PageInv st' := by
  have hcells := user_cells_of_lookups hT hvalid hdu
  have hdata := fun pt i j k h1 h2 h3 h4 h5 h6 => (hcells pt i j k h1 h2 h3 h4 h5 h6).1
  have hdu' := fun pt i j k h1 h2 h3 h4 h5 h6 => (hcells pt i j k h1 h2 h3 h4 h5 h6).2
  have hcount0 : ∀ f, lab f = none → (env_frames st root).count f = user_mappings st root f :=
    fun f hf => count_env_frames hT hp0 hdata hf
  have hcount1 : ∀ f p, lab f = some p → (∀ x, x ∈ p → x < 512) →
      (env_frames st root).count f = 1 :=
    fun f p hf hidx => count_env_frames_table hT hp0 hdu' hf hidx
  obtain ⟨a, hka, hla⟩ := hT.step root [] 0 hT.root_lab (by simp) (by exact rfl) hp0
  have hla' : lab a = some [0] := hla
  obtain ⟨ha, -⟩ := KADDR_some hka
  have h3 : ∀ i, i ∈ [0, 1, 2] → i < 3 := by
    intro i hi
    simp only [List.mem_cons, List.mem_singleton, List.not_mem_nil, or_false] at hi
    omega
  -- the label of a released table has slots below 512
  have hidx : ∀ f p, f ∈ env_frames st root → lab f = some p → ∀ x, x ∈ p → x < 512 := by
    intro f p hf hlf
    unfold env_frames at hf
    rw [← ha] at hf
    rcases List.mem_append.mp hf with hf | hf
    · rcases mem_pdpes_frames hT hla' hdu' h3 hf with h | ⟨i, hi, _, h, _⟩ | ⟨i, j, hi, hj, h⟩
      · rw [hlf] at h; cases h
      · rw [hlf] at h
        have := Option.some.inj h
        subst this
        intro x hx
        have := h3 i hi
        simp only [List.mem_cons, List.mem_singleton, List.not_mem_nil, or_false] at hx
        omega
      · rw [hlf] at h
        have := Option.some.inj h
        subst this
        intro x hx
        have := h3 i hi
        simp only [List.mem_cons, List.mem_singleton, List.not_mem_nil, or_false] at hx
        omega
    · simp only [List.mem_cons, List.mem_singleton, List.not_mem_nil, or_false] at hf
      rcases hf with hf | hf
      · rw [hf, hla'] at hlf
        have := Option.some.inj hlf
        subst this
        intro x hx
        simp only [List.mem_singleton] at hx
        omega
      · rw [hf, hT.root_lab] at hlf
        have := Option.some.inj hlf
        subst this
        intro x hx
        cases hx
  have hcle : ∀ f, f ∈ env_frames st root → (env_frames st root).count f ≤ (st.pages f).pp_ref := by
    intro f hf
    cases hlf : lab f with
    | none => rw [hcount0 f hlf]; exact hcnt f hlf
    | some p => rw [hcount1 f p hlf (hidx f p hf hlf), htab f p hlf]
  have hnl : ∀ f, f ∈ env_frames st root → f ∉ l := by
    intro f hf hfl
    have hpos : 0 < (env_frames st root).count f := List.count_pos_iff.mpr hf
    have := hcle f hf
    have h0 := hl.2.2.1 f hfl
    omega
  obtain ⟨t', l', hd, hl', href, hmem, -, -⟩ := decref_all_spec (env_frames st root) st l hl hnl
    hcle (fun f _ => h16 f)
  obtain ⟨st', hrun, hP, hF, -, hfl, henv, -, -⟩ := env_free_run hT hroot hrn hp0 hdata hd
  have hl'' : PageList st' l' := pageList_congr hP hF hl'
  refine ⟨st', hrun, ?_, ?_, ?_, ?_, hfl, ⟨l', hl''⟩⟩
  · intro f hf
    rw [hP, href, hcount0 f hf]
  · intro f hf hpos heq
    refine ⟨by rw [hP, href, hcount0 f hf]; omega, ?_⟩
    rw [onPageFreeList_iff hl'', hmem]
    right
    have hin : f ∈ env_frames st root := by
      apply List.count_pos_iff.mp
      rw [hcount0 f hf]
      exact hpos
    exact ⟨hin, by rw [hcount0 f hf]; exact heq⟩
  · intro f p hf hx
    have hc := hcount1 f p hf hx
    refine ⟨by rw [hP, href, hc, htab f p hf], ?_⟩
    rw [onPageFreeList_iff hl'', hmem]
    right
    have hin : f ∈ env_frames st root := by
      apply List.count_pos_iff.mp
      rw [hc]
      exact Nat.one_pos
    exact ⟨hin, by rw [hc, htab f p hf]⟩
  · rw [henv]
/-- The entry-level conditions on the user half give the page-level ones. -/
theorem user_lookups_of_cells {st : Kernel} {l : List Nat} {root : Nat}
    {lab : Nat → Option (List Nat)} (hT : TableTree st l root lab)
    (hcells : ∀ pt i j k, lab pt = some [0, i, j] → i < 3 → j < 512 → k < 512 →
      present (st.mem pt k) = true →
      PGNUM (PTE_ADDR (st.mem pt k)) < st.npages ∧
      lab (PGNUM (PTE_ADDR (st.mem pt k))) = none) :
    (∀ va, va ∈ user_pages → page_lookup st root va ≠ none) ∧
    (∀ va q slot, va ∈ user_pages → page_lookup st root va = some (some (q, slot)) →
      lab q = none) := by
  have key : ∀ va, va ∈ user_pages → page_lookup st root va = some none ∨
      ∃ q slot, page_lookup st root va = some (some (q, slot)) ∧ lab q = none := by
    intro va hva
    unfold user_pages at hva
    obtain ⟨i, hi, h⟩ := List.mem_flatMap.mp hva
    obtain ⟨j, hj, h⟩ := List.mem_flatMap.mp h
    obtain ⟨k, hk, rfl⟩ := List.mem_map.mp h
    have hi3 : i < 3 := List.mem_range.mp hi
    have hi' : i < 512 := by omega
    have hj' := table_slots_lt hj
    have hk' := table_slots_lt (List.mem_filter.mp hk).1
    obtain ⟨hne, hlab⟩ := tree_leaf hT [0, i, j] [] root hT.root_lab (by simp)
      (by exact ⟨rfl, hi3⟩)
    cases hleaf : leaf_from st [0, i, j] root with
    | none => exact absurd hleaf hne
    | some r =>
      cases r with
      | none => exact Or.inl (page_lookup_absent hi' hj' hk' hleaf)
      | some pt =>
        have hlp : lab pt = some [0, i, j] := by simpa using hlab pt hleaf
        rw [page_lookup_cell hT hi' hj' hk' hlp]
        by_cases hp : present (st.mem pt k) = true
        · obtain ⟨hv, hq⟩ := hcells pt i j k hlp hi3 hj' hk' hp
          right
          refine ⟨PGNUM (PTE_ADDR (st.mem pt k)), (pt, k), ?_, hq⟩
          simp only [hp, if_true, pa2page, ge_iff_le, Nat.not_le.mpr hv, if_false,
            Option.map_some']
        · left
          simp only [hp, Bool.false_eq_true, if_false]
  constructor
  · intro va hva h
    rcases key va hva with h1 | ⟨q, slot, h1, _⟩ <;> rw [h] at h1 <;> cases h1
  · intro va q slot hva h
    rcases key va hva with h1 | ⟨q', slot', h1, hq⟩
    · rw [h] at h1; cases h1
    · rw [h] at h1
      simp only [Option.some.injEq, Prod.mk.injEq] at h1
      rw [h1.1]
      exact hq

/-- The tables of environment 0 of `mapped_once`: the root in frame 2, the
PDPT in frame 3, the page directory in frame 7 and the page table in frame 8. -/
theorem mapped_once_tree :
    TableTree mapped_once [9, 10, 11, 12, 13, 14, 15] 2
      (fun f => if f = 2 then some [] else if f = 3 then some [0]
        else if f = 7 then some [0, 0] else if f = 8 then some [0, 0, 0] else none) := by
  have hm3 : ∀ i, i ≠ 0 → mapped_once.mem 3 i = 0 := by
    intro i hi
    simp [mapped_once, two_running, hi]
  have hm7 : ∀ i, i ≠ 0 → mapped_once.mem 7 i = 0 := by
    intro i hi
    simp [mapped_once, two_running, hi]
  refine ⟨rfl, ?_, ?_, ?_⟩
  · intro t p i hp hlen hu hpres
    by_cases h2 : t = 2
    · subst h2
      simp only [if_true, Option.some.injEq] at hp
      subst hp
      have hi : i = 0 := hu
      subst hi
      exact ⟨3, by decide, rfl⟩
    · by_cases h3 : t = 3
      · subst h3
        simp only [if_neg h2, if_true, Option.some.injEq] at hp
        subst hp
        by_cases hi : i = 0
        · subst hi
          exact ⟨7, by decide, rfl⟩
        · rw [hm3 i hi] at hpres
          exact absurd hpres (by decide)
      · by_cases h7 : t = 7
        · subst h7
          simp only [if_neg h2, if_neg h3, if_true, Option.some.injEq] at hp
          subst hp
          by_cases hi : i = 0
          · subst hi
            exact ⟨8, by decide, rfl⟩
          · rw [hm7 i hi] at hpres
            exact absurd hpres (by decide)
        · by_cases h8 : t = 8
          · subst h8
            simp only [if_neg h2, if_neg h3, if_neg h7, if_true, Option.some.injEq] at hp
            subst hp
            simp at hlen
          · simp only [if_neg h2, if_neg h3, if_neg h7, if_neg h8] at hp
            cases hp
  · intro t p hp
    by_cases h2 : t = 2
    · subst h2
      simp only [if_true, Option.some.injEq] at hp
      subst hp
      exact ⟨by decide, trivial, rfl⟩
    · by_cases h3 : t = 3
      · subst h3
        simp only [if_neg h2, if_true, Option.some.injEq] at hp
        subst hp
        exact ⟨by decide, rfl, by decide⟩
      · by_cases h7 : t = 7
        · subst h7
          simp only [if_neg h2, if_neg h3, if_true, Option.some.injEq] at hp
          subst hp
          exact ⟨by decide, ⟨rfl, by decide⟩, by decide⟩
        · by_cases h8 : t = 8
          · subst h8
            simp only [if_neg h2, if_neg h3, if_neg h7, if_true, Option.some.injEq] at hp
            subst hp
            exact ⟨by decide, ⟨rfl, by decide⟩, by decide⟩
          · simp only [if_neg h2, if_neg h3, if_neg h7, if_neg h8] at hp
            cases hp
  · intro t p hp
    by_cases h2 : t = 2
    · subst h2; decide
    · by_cases h3 : t = 3
      · subst h3; decide
      · by_cases h7 : t = 7
        · subst h7; decide
        · by_cases h8 : t = 8
          · subst h8; decide
          · simp only [if_neg h2, if_neg h3, if_neg h7, if_neg h8] at hp
            cases hp
set_option maxRecDepth 100000 in
theorem mapped_once_env_frames : env_frames mapped_once 2 = [6, 8, 7, 3, 2] := by
  decide

theorem mapped_once_cells :
    ∀ pt i j k,
      (fun f => if f = 2 then some [] else if f = 3 then some [0]
        else if f = 7 then some [0, 0] else if f = 8 then some [0, 0, 0] else none) pt =
        some [0, i, j] → i < 3 → j < 512 → k < 512 →
      present (mapped_once.mem pt k) = true →
      PGNUM (PTE_ADDR (mapped_once.mem pt k)) < mapped_once.npages ∧
      (fun f => if f = 2 then some [] else if f = 3 then some [0]
        else if f = 7 then some [0, 0] else if f = 8 then some [0, 0, 0] else none)
        (PGNUM (PTE_ADDR (mapped_once.mem pt k))) = none := by
  intro pt i j k hlp _ _ _ hp
  have h8 : pt = 8 := by
    simp only at hlp
    split at hlp
    · simp at hlp
    · split at hlp
      · simp at hlp
      · split at hlp
        · simp at hlp
        · split at hlp
          · assumption
          · cases hlp
  subst h8
  by_cases hk : k = 0
  · subst hk
    decide
  · have : mapped_once.mem 8 k = 0 := by simp [mapped_once, two_running, hk]
    rw [this] at hp
    exact absurd hp (by decide)

/-- On `mapped_once`, `env_free` of environment 0, which maps frame 6 at
address 0 through the tables in frames 2, 3, 7 and 8: the call returns, and
the page frame 6 and the four tables end with count 0 on the page free list;
the environment is free and heads the environment free list. -/
theorem env_free_releases_witness :
    ∃ st', env_free mapped_once 0 = some st' ∧
      ((st'.pages 6).pp_ref = 0 ∧ OnPageFreeList st' 6) ∧
      ((st'.pages 8).pp_ref = 0 ∧ OnPageFreeList st' 8) ∧
      ((st'.pages 7).pp_ref = 0 ∧ OnPageFreeList st' 7) ∧
      ((st'.pages 3).pp_ref = 0 ∧ OnPageFreeList st' 3) ∧
      ((st'.pages 2).pp_ref = 0 ∧ OnPageFreeList st' 2) ∧
      (st'.envs 0).env_status = ENV_FREE ∧ st'.env_free_list = some 0 ∧ PageInv st' := by
  have hlk := user_lookups_of_cells mapped_once_tree mapped_once_cells
  have hdata : ∀ pt i j k,
      (fun f => if f = 2 then some [] else if f = 3 then some [0]
        else if f = 7 then some [0, 0] else if f = 8 then some [0, 0, 0] else none) pt =
        some [0, i, j] → i < 3 → j < 512 → k < 512 → PGADDR 0 i j 0 0 < UTOP →
      present (mapped_once.mem pt k) = true →
      PGNUM (PTE_ADDR (mapped_once.mem pt k)) < mapped_once.npages :=
    fun pt i j k h1 h2 h3 h4 _ h6 => (mapped_once_cells pt i j k h1 h2 h3 h4 h6).1
  have h16 : ∀ f, (mapped_once.pages f).pp_ref < 65536 := by
    intro f
    simp only [mapped_once]
    split
    · simp
    · split <;> simp
  have hm6 : user_mappings mapped_once 2 6 = 1 := by
    rw [← count_env_frames mapped_once_tree (by decide) hdata (by decide),
      mapped_once_env_frames]
    decide
  obtain ⟨st', hrun, hdrop, hfree, htab, hst, hhead, hinv⟩ :=
    env_free_releases 0 mapped_once_pageList mapped_once_tree rfl (by decide) (by decide)
      hlk.1 hlk.2
      (by
        intro f p hf
        split at hf
        · rename_i h; subst h; decide
        · split at hf
          · rename_i h; subst h; decide
          · split at hf
            · rename_i h; subst h; decide
            · split at hf
              · rename_i h; subst h; decide
              · cases hf)
      (by
        intro f hf
        rw [← count_env_frames mapped_once_tree (by decide) hdata hf, mapped_once_env_frames]
        by_cases h6 : f = 6
        · subst h6; decide
        · have h8 : f ≠ 8 := by intro e; subst e; simp at hf
          have h7 : f ≠ 7 := by intro e; subst e; simp at hf
          have h3 : f ≠ 3 := by intro e; subst e; simp at hf
          have h2 : f ≠ 2 := by intro e; subst e; simp at hf
          simp [List.count_cons, Ne.symm h6, Ne.symm h8, Ne.symm h7, Ne.symm h3, Ne.symm h2])
      h16
  refine ⟨st', hrun, ?_, ?_, ?_, ?_, ?_, hst, hhead, hinv⟩
  · exact hfree 6 (by decide) (by rw [hm6]; decide) (by rw [hm6]; decide)
  · exact htab 8 [0, 0, 0] (by decide) (by decide)
  · exact htab 7 [0, 0] (by decide) (by decide)
  · exact htab 3 [0] (by decide) (by decide)
  · exact htab 2 [] (by decide) (by decide)
/-- C35. The constants of `inc/memlayout.h`, with `PGSIZE = 4096` and
`PTSIZE` two megabytes, evaluate to the values the layout gives, are ordered
`USTACKTOP < UXSTACKTOP - PGSIZE < UTOP < UPAGES < ULIM < KERNBASE`, and
`UTOP` is a multiple of `PTSIZE`. -/
theorem memlayout_constants :
    PGSIZE = 4096 ∧ PTSIZE = 2 * 1024 * 1024 ∧
    KERNBASE = 0xC0000000 ∧ KSTACKTOP = 0xC0000000 ∧
    KSTKSIZE = 8 * PGSIZE ∧ KSTKGAP = 8 * PGSIZE ∧
    MMIOLIM = 0xBFE00000 ∧ MMIOBASE = 0xBFC00000 ∧ ULIM = 0xBFC00000 ∧
    UPAGES = 0xBCA00000 ∧
    UENVS = 0xBC800000 ∧ UTOP = 0xBC800000 ∧ UXSTACKTOP = 0xBC800000 ∧
    USTACKTOP = UTOP - 2 * PGSIZE ∧ USTACKTOP = 0xBC7FE000 ∧
    UTEXT = 0x800000 ∧ UTEMP = 0x400000 ∧ PFTEMP = 0x5FF000 ∧
    USTACKTOP < UXSTACKTOP - PGSIZE ∧ UXSTACKTOP - PGSIZE < UTOP ∧ UTOP < UPAGES ∧
    UPAGES < ULIM ∧ ULIM < KERNBASE ∧ UTOP % PTSIZE = 0 := by
  decide
theorem PGNUM_eq (pa : Nat) : PGNUM pa = pa / PGSIZE := by
  unfold PGNUM
  rw [Nat.shiftRight_eq_div_pow]
  rfl

/-- C40. The conversions of `kern/pmap.h` on a machine whose physical memory,
mapped at `KERNBASE`, ends below `2^64`: a descriptor `&pages[i]` with
`i < npages` has the physical address `i * PGSIZE`, which `pa2page` takes back
to it; a physical address `pa` of a frame below `npages` goes through
`pa2page` and `page2pa` to `pa` with its low twelve bits cleared; `pa2page`
panics exactly when `PGNUM(pa) >= npages`; and `PADDR(KADDR(pa))` is `pa`,
without a panic, for such a `pa`. -/
theorem frame_conversion_round_trip (st : Kernel)
    (hn : st.npages * PGSIZE + KERNBASE ≤ 2 ^ 64) :
    (∀ i, i < st.npages →
      page2pa i = i * PGSIZE ∧ page2pa i < 2 ^ 64 ∧ pa2page st (page2pa i) = some i) ∧
    (∀ pa, PGNUM pa < st.npages →
      ∃ pp, pa2page st pa = some pp ∧ page2pa pp = pa - pa % PGSIZE) ∧
    (∀ pa, pa2page st pa = none ↔ PGNUM pa ≥ st.npages) ∧
    (∀ pa, PGNUM pa < st.npages → (_kaddr st pa).bind _paddr = some pa) := by
  have hP : PGSIZE = 4096 := rfl
  have hK : KERNBASE = 3221225472 := rfl
  rw [hP, hK] at hn
  refine ⟨fun i hi => ?_, fun pa hpa => ?_, fun pa => ?_, fun pa hpa => ?_⟩
  · have h1 : page2pa i = i * PGSIZE := by
      unfold page2pa
      rw [Nat.shiftLeft_eq]
      rfl
    refine ⟨h1, by rw [h1, hP]; omega, ?_⟩
    unfold pa2page
    rw [PGNUM_page2pa, if_neg (by omega)]
  · refine ⟨PGNUM pa, ?_, ?_⟩
    · unfold pa2page
      rw [if_neg (by omega)]
    · unfold page2pa
      rw [Nat.shiftLeft_eq, PGNUM_eq, hP]
      show pa / 4096 * 4096 = pa - pa % 4096
      omega
  · unfold pa2page
    constructor
    · intro h
      by_contra hc
      rw [if_neg hc] at h
      cases h
    · intro h
      rw [if_pos h]
  · rw [PGNUM_eq, hP] at hpa
    have hlt : pa + 3221225472 < 2 ^ 64 := by omega
    unfold _kaddr
    rw [PGNUM_eq, hP, if_neg (by omega), Option.some_bind, _paddr, hK,
      Nat.mod_eq_of_lt hlt, if_neg (by omega), Nat.add_sub_cancel]

/-- On `boot`, with 16 frames: descriptor 5 has physical address `0x5000`, the
address `0x5abc` belongs to it, `0x10000` is beyond the frames, and the kernel
address of `0x5abc` is `0xC0005abc`. -/
theorem frame_conversion_round_trip_witness :
    (page2pa 5 = 0x5000 ∧ pa2page boot (page2pa 5) = some 5) ∧
    (∃ pp, pa2page boot 0x5abc = some pp ∧ page2pa pp = 0x5000) ∧
    pa2page boot 0x10000 = none ∧
    _kaddr boot 0x5abc = some 0xC0005abc ∧ (_kaddr boot 0x5abc).bind _paddr = some 0x5abc := by
  obtain ⟨h1, h2, h3, h4⟩ := frame_conversion_round_trip boot (by decide)
  obtain ⟨a, _, c⟩ := h1 5 (by decide)
  obtain ⟨pp, hpp, hpa⟩ := h2 0x5abc (by decide)
  exact ⟨⟨by rw [a]; decide, c⟩, ⟨pp, hpp, by rw [hpa]; decide⟩, (h3 0x10000).mpr (by decide),
    by decide, h4 0x5abc (by decide)⟩
theorem env_run_total (st : Kernel) (cpu e root : Nat)
    (hroot : (st.envs e).env_pml4e = some root) : ∃ st', env_run st cpu e = some st' := by
  cases h : env_run st cpu e with
  | some st' => exact ⟨st', rfl⟩
  | none =>
    exfalso
    unfold env_run at h
    dsimp only at h
    split at h
    · rename_i heq
      simp only [setEnv_envs, setCurenv_envs, Function.update_same] at heq
      split at heq
      · split at heq
        · rename_i c _ _
          simp only [setEnv_envs] at heq
          by_cases hce : e = c
          · subst hce
            rw [Function.update_same] at heq
            rw [hroot] at heq
            cases heq
          · rw [Function.update_noteq hce, hroot] at heq
            cases heq
        · rw [hroot] at heq
          cases heq
      · rw [hroot] at heq
        cases heq
    · cases h

theorem env_run_runs {st st' : Kernel} {cpu e : Nat} (h : env_run st cpu e = some st') :
    (st'.envs e).env_runs = ((st.envs e).env_runs + 1) % 2 ^ 32 := by
  unfold env_run at h
  dsimp only at h
  split at h
  · cases h
  · cases h
    simp only [setEnv_envs, setCurenv_envs, Function.update_same]
    split
    · split
      · rename_i c _ _
        simp only [setEnv_envs]
        by_cases hce : e = c
        · subst hce
          rw [Function.update_same]
        · rw [Function.update_noteq hce]
      · rfl
    · rfl

/-- C38. `env_run(e)` on CPU `cpu`, for an environment with a root: it
returns to user mode with `e` the CPU's `curenv`, status `ENV_RUNNING` and
`env_runs` one higher (in 32 bits); the previous `curenv`, if another
environment, goes from `ENV_RUNNING` to `ENV_RUNNABLE` and keeps any other
status; no other environment's status and no other CPU's `curenv` changes.
Hence, if before the call no environment but the old `curenv` was
`ENV_RUNNING`, afterwards `e` and only `e` is. -/
theorem env_run_switch (st : Kernel) (cpu e root : Nat)
    (hroot : (st.envs e).env_pml4e = some root) :
    ∃ st', env_run st cpu e = some st' ∧ curenv st' cpu = some e ∧
      (st'.envs e).env_status = ENV_RUNNING ∧
      (st'.envs e).env_runs = ((st.envs e).env_runs + 1) % 2 ^ 32 ∧
      ((st.envs e).env_runs + 1 < 2 ^ 32 → (st'.envs e).env_runs = (st.envs e).env_runs + 1) ∧
      (∀ c, curenv st cpu = some c → c ≠ e → (st.envs c).env_status = ENV_RUNNING →
        (st'.envs c).env_status = ENV_RUNNABLE) ∧
      (∀ c, curenv st cpu = some c → c ≠ e → (st.envs c).env_status ≠ ENV_RUNNING →
        (st'.envs c).env_status = (st.envs c).env_status) ∧
      (∀ i, i ≠ e → curenv st cpu ≠ some i →
        (st'.envs i).env_status = (st.envs i).env_status) ∧
      (∀ c, c ≠ cpu → curenv st' c = curenv st c) ∧
      ((∀ i, (st.envs i).env_status = ENV_RUNNING → curenv st cpu = some i) →
        ∀ i, (st'.envs i).env_status = ENV_RUNNING ↔ i = e) := by
  obtain ⟨st', h⟩ := env_run_total st cpu e root hroot
  obtain ⟨_, hcpu, _, hst, hoth⟩ := env_run_spec h
  have hruns := env_run_runs h
  refine ⟨st', h, ?_, hst, hruns, fun hlt => ?_, fun c hc hce hr => ?_, fun c hc hce hr => ?_,
    fun i hie hci => ?_, fun c hc => ?_, fun hone i => ?_⟩
  · show st'.cpu_env cpu = some e
    rw [hcpu, Function.update_same]
  · rw [hruns, Nat.mod_eq_of_lt hlt]
  · rw [hoth c hce, if_pos ⟨hc, hr⟩]
  · rw [hoth c hce, if_neg (fun hh => hr hh.2)]
  · rw [hoth i hie, if_neg (fun hh => hci hh.1)]
  · show st'.cpu_env c = st.cpu_env c
    rw [hcpu, Function.update_noteq hc]
  · constructor
    · intro hi
      by_contra hie
      rw [hoth i hie] at hi
      split at hi
      · exact absurd hi (by decide)
      · rename_i hn
        exact hn ⟨hone i hi, hi⟩
    · intro hi
      rw [hi]
      exact hst

/-- On `two_running`, CPU 0, whose `curenv` is the running environment 0,
runs environment 1: it becomes the CPU's `curenv` with `env_runs` 2, and
environment 0 goes back to `ENV_RUNNABLE`. -/
theorem env_run_switch_witness :
    ∃ st', env_run two_running 0 1 = some st' ∧ curenv st' 0 = some 1 ∧
      (st'.envs 1).env_status = ENV_RUNNING ∧ (st'.envs 1).env_runs = 2 ∧
      (st'.envs 0).env_status = ENV_RUNNABLE := by
  obtain ⟨st', h1, h2, h3, _, h5, h6, _⟩ := env_run_switch two_running 0 1 4 (by decide)
  exact ⟨st', h1, h2, h3, h5 (by decide), h6 0 (by decide) (by decide) (by decide)⟩
/-- After `k` successful calls of `env_alloc` the free list starts at slot `k`
and the slots from `k` on are linked in array order. -/
theorem allocRun_inv {lg : Nat} {st0 st : Kernel} {k : Nat} (h : AllocRun lg st0 k st) :
    st.env_free_list = (if k < NENV lg then some k else none) ∧
    ∀ i, k ≤ i → i < NENV lg →
      (st.envs i).env_link = if i + 1 < NENV lg then some (i + 1) else none := by
  induction h with
  | init =>
    obtain ⟨h1, h2, _⟩ := env_init_spec lg st0
    have hpos : 0 < NENV lg := by rw [NENV_eq]; exact Nat.pos_pow_of_pos lg (by decide)
    exact ⟨by rw [h2, if_pos hpos], fun i _ hi => (h1 i hi).2.2⟩
  | ok k st st' parent_id e _ ha ih =>
    obtain ⟨hl, hlink⟩ := ih
    obtain ⟨_, hhead, hl', _, hoth, _⟩ := env_alloc_success ha
    rw [hl] at hhead
    have hk : k < NENV lg := by
      by_contra hc
      rw [if_neg hc] at hhead
      cases hhead
    rw [if_pos hk] at hhead
    have hek : e = k := (Option.some.inj hhead).symm
    subst hek
    refine ⟨?_, fun i hi hin => ?_⟩
    · rw [hl', hlink e (le_refl e) hk]
    · rw [hoth i (by omega)]
      exact hlink i (by omega) hin
  | failed k st st' parent_id r store _ hr ha ih =>
    obtain ⟨hl, hlink⟩ := ih
    obtain ⟨_, _, hl', _, henv, _⟩ := env_alloc_failure hr ha
    refine ⟨by rw [hl', hl], fun i hi hin => ?_⟩
    rw [← hlink i hi hin, ← henv i]

/-- C36. After `env_init` every slot of the table is free with id 0 and the
free list holds the slots in array order. Hence, in a run of `env_alloc`
calls after `env_init` (no `env_free`), when `k` calls have succeeded the
next call that succeeds returns `&envs[k]` (the first returns `envs[0]`), at
most `NENV` calls succeed, and after `NENV` successes every call returns
`-E_NO_FREE_ENV` and changes nothing. -/
theorem env_alloc_array_order (lg : Nat) (st0 : Kernel) :
    (∀ i, i < NENV lg →
      ((env_init lg st0).envs i).env_status = ENV_FREE ∧
      ((env_init lg st0).envs i).env_id = 0) ∧
    IsChain (fun i => ((env_init lg st0).envs i).env_link) (env_init lg st0).env_free_list
      (List.range' 0 (NENV lg)) ∧
    ∀ k st, AllocRun lg st0 k st →
      k ≤ NENV lg ∧
      (∀ parent_id r store st', env_alloc lg st parent_id = some (r, store, st') → 0 ≤ r →
        r = 0 ∧ store = some k ∧ k < NENV lg) ∧
      (k = NENV lg → ∀ parent_id, env_alloc lg st parent_id = some (-E_NO_FREE_ENV, none, st)) := by
  obtain ⟨h1, h2, _⟩ := env_init_spec lg st0
  have hpos : 0 < NENV lg := by rw [NENV_eq]; exact Nat.pos_pow_of_pos lg (by decide)
  refine ⟨fun i hi => ⟨(h1 i hi).1, (h1 i hi).2.1⟩, ?_, fun k st hrun => ?_⟩
  · have := isChain_range (fun i => ((env_init lg st0).envs i).env_link) (NENV lg)
      (fun i hi => (h1 i hi).2.2) (NENV lg) 0 (by omega)
    rw [if_pos hpos] at this
    rw [h2]
    exact this
  · have hk : k ≤ NENV lg := by
      clear h1 h2
      induction hrun with
      | init => exact Nat.zero_le _
      | ok k st st' parent_id e hprev ha ih =>
        obtain ⟨hl, _⟩ := allocRun_inv hprev
        obtain ⟨_, hhead, _⟩ := env_alloc_success ha
        rw [hl] at hhead
        by_contra hc
        rw [if_neg (by omega)] at hhead
        cases hhead
      | failed k st st' parent_id r store _ _ _ ih => exact ih
    obtain ⟨hl, _⟩ := allocRun_inv hrun
    refine ⟨hk, fun parent_id r store st' ha hr => ?_, fun hkn parent_id => ?_⟩
    · rcases env_alloc_cases ha with ⟨_, h2, _⟩ | ⟨_, _, _, h3, _⟩ | ⟨e, st1, hle, _, h3, h4, _⟩
      · rw [h2] at hr; exact absurd hr (by decide)
      · rw [h3] at hr; exact absurd hr (by decide)
      · rw [hl] at hle
        have hkl : k < NENV lg := by
          by_contra hc
          rw [if_neg hc] at hle
          cases hle
        rw [if_pos hkl] at hle
        rw [← Option.some.inj hle] at h4
        exact ⟨h3, h4, hkl⟩
    · rw [hkn, if_neg (lt_irrefl _)] at hl
      unfold env_alloc
      rw [hl]

/-- On `boot` with two slots: after `env_init` the first successful
`env_alloc` returns slot 0. -/
theorem env_alloc_array_order_witness :
    AllocRun 1 boot 0 booted ∧
    ∀ parent_id r store st', env_alloc 1 booted parent_id = some (r, store, st') → 0 ≤ r →
      r = 0 ∧ store = some 0 ∧ 0 < NENV 1 :=
  ⟨AllocRun.init, ((env_alloc_array_order 1 boot).2.2 0 booted AllocRun.init).2.1⟩
/-- The invariant of the lock: the word is 0 and no CPU holds the lock, or it
is 1 and exactly one CPU holds it. -/
theorem lock_step_inv {s s' : LockState} {ev : LockEvent} (h : lock_step s ev = some s')
    (hinv : (s.locked = 0 ∧ ∀ c, s.pc c ≠ LockPc.holding) ∨
      (s.locked = 1 ∧ ∃ c, s.pc c = LockPc.holding ∧ ∀ d, s.pc d = LockPc.holding → d = c)) :
    (s'.locked = 0 ∧ ∀ c, s'.pc c ≠ LockPc.holding) ∨
      (s'.locked = 1 ∧ ∃ c, s'.pc c = LockPc.holding ∧
        ∀ d, s'.pc d = LockPc.holding → d = c) := by
  cases ev with
  | call c =>
    simp only [lock_step, spin_lock_call] at h
    split at h
    · cases h
      rcases hinv with ⟨h0, hno⟩ | ⟨h1, c0, hc0, huniq⟩
      · left
        refine ⟨h0, fun d => ?_⟩
        by_cases hd : d = c
        · subst hd; simp
        · simp only [Function.update_noteq hd]; exact hno d
      · right
        rename_i hout
        have hne : c0 ≠ c := by
          intro e
          rw [e, hout] at hc0
          cases hc0
        refine ⟨h1, c0, by simp only [Function.update_noteq hne]; exact hc0, fun d hd => ?_⟩
        by_cases hdc : d = c
        · subst hdc; simp at hd
        · simp only [Function.update_noteq hdc] at hd
          exact huniq d hd
    · cases h
  | iter c =>
    simp only [lock_step, spin_lock_iter, xchg] at h
    split at h
    · rename_i hsp
      split at h
      · rename_i hne
        cases h
        rcases hinv with ⟨h0, _⟩ | ⟨_, c0, hc0, huniq⟩
        · exact absurd h0 hne
        · exact Or.inr ⟨rfl, c0, hc0, huniq⟩
      · rename_i hz
        cases h
        have hz' : s.locked = 0 := by
          by_contra hc
          exact hz hc
        rcases hinv with ⟨_, hno⟩ | ⟨h1, _⟩
        · right
          refine ⟨rfl, c, by simp, fun d hd => ?_⟩
          by_contra hdc
          simp only [Function.update_noteq hdc] at hd
          exact hno d hd
        · rw [hz'] at h1
          cases h1
    · cases h
  | unlock c =>
    simp only [lock_step, spin_unlock, xchg] at h
    split at h
    · rename_i hh
      cases h
      rcases hinv with ⟨_, hno⟩ | ⟨_, c0, _, huniq⟩
      · exact absurd hh (hno c)
      · left
        refine ⟨rfl, fun d => ?_⟩
        by_cases hdc : d = c
        · subst hdc; simp
        · simp only [Function.update_noteq hdc]
          intro hd
          exact hdc ((huniq d hd).trans (huniq c hh).symm)
    · cases h

theorem lock_run_inv (evs : List LockEvent) :
    ∀ s s', lock_run s evs = some s' →
      ((s.locked = 0 ∧ ∀ c, s.pc c ≠ LockPc.holding) ∨
        (s.locked = 1 ∧ ∃ c, s.pc c = LockPc.holding ∧
          ∀ d, s.pc d = LockPc.holding → d = c)) →
      ((s'.locked = 0 ∧ ∀ c, s'.pc c ≠ LockPc.holding) ∨
        (s'.locked = 1 ∧ ∃ c, s'.pc c = LockPc.holding ∧
          ∀ d, s'.pc d = LockPc.holding → d = c)) := by
  induction evs with
  | nil =>
    intro s s' h hinv
    simp only [lock_run, Option.some.injEq] at h
    subst h
    exact hinv
  | cons ev rest ih =>
    intro s s' h hinv
    simp only [lock_run] at h
    cases h1 : lock_step s ev with
    | none => rw [h1] at h; cases h
    | some s1 =>
      rw [h1] at h
      exact ih s1 s' h (lock_step_inv h1 hinv)

/-- C37. Mutual exclusion of the big kernel lock. In every interleaving of the
CPUs that starts from an initialised lock, each CPU calling `spin_lock`,
looping on `xchg(&lk->locked, 1)` and calling `spin_unlock` only while it
holds the lock: at most one CPU is between the return of its `spin_lock` and
its `spin_unlock`, and the word `locked` is 1 exactly while one is. The
iteration that lets `spin_lock` return found `locked` 0 and left it 1, and
`spin_unlock` leaves it 0. -/
theorem kernel_lock_mutual_exclusion (evs : List LockEvent) (s : LockState)
    (h : lock_run spin_initlock evs = some s) :
    (∀ c d, s.pc c = LockPc.holding → s.pc d = LockPc.holding → c = d) ∧
    (s.locked = 1 ↔ ∃ c, s.pc c = LockPc.holding) ∧
    (s.locked = 0 ∨ s.locked = 1) ∧
    (∀ c s', spin_lock_iter s c = some s' → s'.pc c = LockPc.holding →
      s.locked = 0 ∧ s'.locked = 1) ∧
    (∀ c s', spin_unlock s c = some s' → s'.locked = 0 ∧ s'.pc c = LockPc.outside) := by
  have hinv := lock_run_inv evs spin_initlock s h (Or.inl ⟨rfl, fun c hc => by cases hc⟩)
  refine ⟨fun c d hc hd => ?_, ?_, ?_, fun c s' hs hh => ?_, fun c s' hs => ?_⟩
  · rcases hinv with ⟨_, hno⟩ | ⟨_, c0, _, huniq⟩
    · exact absurd hc (hno c)
    · exact (huniq c hc).trans (huniq d hd).symm
  · rcases hinv with ⟨h0, hno⟩ | ⟨h1, c0, hc0, _⟩
    · constructor
      · intro h1
        rw [h0] at h1
        cases h1
      · rintro ⟨c, hc⟩
        exact absurd hc (hno c)
    · exact ⟨fun _ => ⟨c0, hc0⟩, fun _ => h1⟩
  · rcases hinv with ⟨h0, _⟩ | ⟨h1, _⟩
    · exact Or.inl h0
    · exact Or.inr h1
  · simp only [spin_lock_iter, xchg] at hs
    split at hs
    · rename_i hsp
      split at hs
      · cases hs
        rw [hsp] at hh
        cases hh
      · rename_i hz
        cases hs
        exact ⟨by by_contra hc; exact hz hc, rfl⟩
    · cases hs
  · simp only [spin_unlock, xchg] at hs
    split at hs
    · cases hs
      exact ⟨rfl, by simp⟩
    · cases hs

/-- Two CPUs: both call `spin_lock`, CPU 0 wins the exchange, CPU 1 spins,
CPU 0 unlocks and CPU 1 then acquires the lock. At the end CPU 1 holds it,
CPU 0 does not, and the word is 1. -/
theorem kernel_lock_mutual_exclusion_witness :
    ∃ s, lock_run spin_initlock
        [LockEvent.call 0, LockEvent.call 1, LockEvent.iter 0, LockEvent.iter 1,
          LockEvent.unlock 0, LockEvent.iter 1] = some s ∧
      s.pc 1 = LockPc.holding ∧ s.pc 0 = LockPc.outside ∧ s.locked = 1 ∧
      ∀ c d, s.pc c = LockPc.holding → s.pc d = LockPc.holding → c = d := by
  have hs : ∃ s, lock_run spin_initlock
        [LockEvent.call 0, LockEvent.call 1, LockEvent.iter 0, LockEvent.iter 1,
          LockEvent.unlock 0, LockEvent.iter 1] = some s ∧
      s.pc 1 = LockPc.holding ∧ s.pc 0 = LockPc.outside ∧ s.locked = 1 :=
    ⟨_, rfl, by decide, by decide, by decide⟩
  obtain ⟨s, h, h1, h2, h3⟩ := hs
  exact ⟨s, h, h1, h2, h3, (kernel_lock_mutual_exclusion _ s h).1⟩
theorem page_alloc_none {st st1 : Kernel} {flags : Nat} (h : page_alloc st flags = (st1, none)) :
    st1 = st ∧ st.page_free_list = none := by
  unfold page_alloc at h
  split at h
  · rename_i hh
    simp only [Prod.mk.injEq, and_true] at h
    exact ⟨h.symm, hh⟩
  · simp only [Prod.mk.injEq] at h
    exact absurd h.2 (by simp)

/-- One level of the walk with `create` gives `NULL` only when the entry is
absent and no frame is free, and then changes nothing. -/
theorem walk_level_none {s s1 : Kernel} {tbl idx : Nat}
    (h : walk_level s tbl idx true = some (s1, none)) :
    s1 = s ∧ present (s.mem tbl idx) = false ∧ s.page_free_list = none := by
  unfold walk_level at h
  split at h
  · simp only [Option.map_eq_some', Prod.mk.injEq] at h
    obtain ⟨t, _, _, ht⟩ := h
    cases ht
  · rename_i hp
    simp only [Bool.true_eq_false, if_false] at h
    split at h
    · rename_i st1 hpa
      simp only [Option.some.injEq, Prod.mk.injEq, and_true] at h
      obtain ⟨h1, h2⟩ := page_alloc_none hpa
      subst h
      refine ⟨h1, ?_, h2⟩
      cases hb : present (s.mem tbl idx)
      · rfl
      · exact absurd hb hp
    · simp only [Option.map_eq_some', Prod.mk.injEq] at h
      obtain ⟨t, _, _, ht⟩ := h
      cases ht

/-- A walk with `create` that gives `NULL`: the free list ran out at an absent
entry. The descent in the state it leaves stops at that entry; the frames
that were not free keep their descriptors and their present entries. -/
theorem walk_from_fail (x : Nat) (idxs : List Nat) :
    ∀ (s : Kernel) (l : List Nat) (tbl : Nat) (s' : Kernel),
      PageList s l → s.npages ≤ 2 ^ 52 → (∀ f, f ∈ l → f < s.npages) →
      (∀ c, c ∈ cells_from s (idxs ++ [x]) tbl → c.1 ∉ l) →
      ((cells_from s (idxs ++ [x]) tbl).map (fun c => c.1)).Nodup →
      walk_from true idxs s tbl = some (s', none) →
      ∃ l', PageList s' l' ∧ (∀ f, f ∈ l' → f ∈ l) ∧ s'.npages = s.npages ∧
        leaf_from s' idxs tbl = some none ∧
        (∀ f j, f ∉ l → present (s.mem f j) = true → s'.mem f j = s.mem f j) ∧
        (∀ f, f ∉ l → s'.pages f = s.pages f) ∧ s'.page_free_list = none := by
  induction idxs with
  | nil =>
    intro s l tbl s' _ _ _ _ _ h
    simp only [walk_from, Option.some.injEq, Prod.mk.injEq] at h
    exact absurd h.2 (by simp)
  | cons idx rest ih =>
    intro s l tbl s' hl hnp hfb hcells hnd h
    have htbl : tbl ∉ l := hcells (tbl, idx) (by simp [cells_from])
    simp only [walk_from] at h
    split at h
    · cases h
    · rename_i s1 hlev
      simp only [Option.some.injEq, Prod.mk.injEq, and_true] at h
      subst h
      obtain ⟨h1, hp, hfl⟩ := walk_level_none hlev
      subst h1
      refine ⟨l, hl, fun _ hf => hf, rfl, ?_, fun _ _ _ _ => rfl, fun _ _ => rfl, hfl⟩
      simp only [leaf_from, hp, Bool.false_eq_true, if_false]
    · rename_i s1 t hlev
      rcases walk_level_create hl hnp hfb htbl hlev with ⟨hp, hs1, hk⟩ |
        ⟨hp, xs, hlx, hl1, hn1, hz, hmem1, hp1, hk1, hpages1⟩
      · subst hs1
        have hcs : cells_from s1 ((idx :: rest) ++ [x]) tbl =
            (tbl, idx) :: cells_from s1 (rest ++ [x]) t := by
          rw [List.cons_append]
          simp only [cells_from, hp, if_true, hk]
        rw [hcs, List.map_cons, List.nodup_cons] at hnd
        obtain ⟨l', hl', hsub, hn', hleaf, hF, hpg, hfl⟩ :=
          ih s1 l t s' hl hnp hfb
            (fun c hc => hcells c (by rw [hcs]; exact List.mem_cons_of_mem _ hc)) hnd.2 h
        have hcell : s'.mem tbl idx = s1.mem tbl idx := hF tbl idx htbl hp
        refine ⟨l', hl', hsub, hn', ?_, hF, hpg, hfl⟩
        simp only [leaf_from, hcell, hp, if_true, KADDR_npages hn', hk]
        exact hleaf
      · have hnd0 : (t :: xs).Nodup := hlx ▸ hl.2.1
        have htx : t ∉ xs := (List.nodup_cons.mp hnd0).1
        have htl : t ∈ l := by rw [hlx]; exact List.mem_cons_self _ _
        have hxl : ∀ f, f ∈ xs → f ∈ l := fun f hf => by
          rw [hlx]
          exact List.mem_cons_of_mem _ hf
        have hnd1 : ((cells_from s1 (rest ++ [x]) t).map (fun c => c.1)).Nodup := by
          cases hrx : rest ++ [x] with
          | nil => simp [cells_from]
          | cons y ys =>
            simp only [cells_from, hz, present_zero, Bool.false_eq_true, if_false,
              List.map_cons, List.map_nil]
            exact List.nodup_singleton _
        obtain ⟨l', hl', hsub, hn', hleaf, hF, hpg, hfl⟩ :=
          ih s1 xs t s' hl1 (by rw [hn1]; exact hnp)
            (fun f hf => by rw [hn1]; exact hfb f (hxl f hf))
            (fun c hc => by rw [cells_from_zero hz _ c hc]; exact htx) hnd1 h
        have htbx : tbl ∉ xs := fun hm => htbl (hxl _ hm)
        have hcell : s'.mem tbl idx = s1.mem tbl idx := hF tbl idx htbx hp1
        refine ⟨l', hl', fun f hf => hxl f (hsub f hf), hn'.trans hn1, ?_, ?_, ?_, hfl⟩
        · simp only [leaf_from, hcell, hp1, if_true, KADDR_npages hn', hk1]
          exact hleaf
        · intro f j hf hpres
          have hft : f ≠ t := fun e => hf (e ▸ htl)
          have hfj : (f, j) ≠ (tbl, idx) := by
            intro e
            simp only [Prod.mk.injEq] at e
            rw [e.1, e.2, hp] at hpres
            cases hpres
          have e1 : s1.mem f j = s.mem f j := hmem1 f j hft hfj
          rw [← e1]
          exact hF f j (fun hm => hf (hxl f hm)) (by rw [e1]; exact hpres)
        · intro f hf
          have hft : f ≠ t := fun e => hf (e ▸ htl)
          rw [hpg f (fun hm => hf (hxl f hm)), hpages1 f hft]
/-- The failure path of `sys_page_alloc`: the frame `p` it took from the free
list is given to a `page_insert` that returns a negative result. The walk ran
out of frames, `p` was not counted, and `page_free(p)` finds its count zero
and its link null: it pushes `p` back, and `va` maps nothing. -/
theorem page_insert_fail_free {st st2 : Kernel} {l : List Nat} {root p va perm : Nat} {r1 : Int}
    (hl : PageList st l) (hnp : st.npages ≤ 2 ^ 52) (hfb : ∀ f, f ∈ l → f < st.npages)
    (htab : ∀ c, c ∈ walk_cells st root va → c.1 ∉ l)
    (hnd : (walk_tables st root va).Nodup)
    (hhead : st.page_free_list = some p)
    (hins : page_insert (page_alloc st ALLOC_ZERO).1 root p va perm = some (r1, st2))
    (hr1 : r1 < 0) :
    (st2.pages p).pp_ref = 0 ∧ (st2.pages p).pp_link = none ∧
    ∃ s, page_free st2 p = some s ∧ (s.pages p).pp_ref = 0 ∧ s.page_free_list = some p ∧
      OnPageFreeList s p ∧ PageInv s ∧ page_lookup s root va = some none ∧
      EnvFrame st s := by
  obtain ⟨st1, hpa, hn1, _, hmem1, hfl1⟩ := page_alloc_zero_props st p hhead
  rcases pageList_page_alloc ALLOC_ZERO hl with ⟨hnil, _, _⟩ | ⟨p', xs, hlx, hp', hl1⟩
  · have := hl.1
    rw [hnil] at this
    rw [hhead] at this
    cases this
  · rw [hpa] at hp' hl1 hins
    simp only at hp' hl1 hins
    have hpp : p' = p := (Option.some.inj hp').symm
    subst hpp
    have hpl : p' ∈ l := by rw [hlx]; exact List.mem_cons_self _ _
    have hpx : p' ∉ xs := by
      have := hl.2.1
      rw [hlx] at this
      exact (List.nodup_cons.mp this).1
    have hxl : ∀ f, f ∈ xs → f ∈ l := fun f hf => by
      rw [hlx]; exact List.mem_cons_of_mem _ hf
    have hcell : ∀ c, c ∈ walk_cells st root va → st1.mem c.1 c.2 = st.mem c.1 c.2 := by
      intro c hc
      have hne : c.1 ≠ p' := fun e => htab c hc (e ▸ hpl)
      rw [hmem1, Function.update_noteq hne]
    have hcong := leaf_from_congr hn1 [PML4X va, PDPX va, PDX va, PTX va] root hcell
    have hcells1 : walk_cells st1 root va = walk_cells st root va := hcong.2
    have hwalk : walk_from true [PML4X va, PDPX va, PDX va] st1 root = some (st2, none) := by
      unfold page_insert at hins
      rw [pml4e_walk_eq] at hins
      cases hw : walk_from true [PML4X va, PDPX va, PDX va] st1 root with
      | none => rw [hw] at hins; cases hins
      | some r =>
        obtain ⟨s, t⟩ := r
        rw [hw] at hins
        cases t with
        | none =>
          simp only [Option.map_some', Option.map_none', Option.some.injEq,
            Prod.mk.injEq] at hins
          rw [hins.2]
        | some pt =>
          simp only [Option.map_some'] at hins
          split at hins
          · cases hins
          · simp only [Option.some.injEq, Prod.mk.injEq] at hins
            rw [← hins.1] at hr1
            exact absurd hr1 (by decide)
    obtain ⟨l', hl', hsub, hn', hleaf, _, hpg, hfl⟩ :=
      walk_from_fail (PTX va) [PML4X va, PDPX va, PDX va] st1 xs root st2 hl1
        (by rw [hn1]; exact hnp) (fun f hf => by rw [hn1]; exact hfb f (hxl f hf))
        (fun c hc => by
          have hc' : c ∈ walk_cells st root va := by rw [← hcells1]; exact hc
          exact fun hm => htab c hc' (hxl _ hm))
        (by
          have : (walk_tables st1 root va).Nodup := by
            unfold walk_tables
            rw [hcells1]
            exact hnd
          exact this) hwalk
    have hpage1 : st1.pages p' = { st.pages p' with pp_link := none } := by
      rw [page_alloc_zero_some st p' hhead] at hpa
      have := (Prod.mk.inj hpa).1
      rw [← this]
      simp only [Function.update_same]
    have hpage2 : st2.pages p' = { st.pages p' with pp_link := none } := by
      rw [hpg p' hpx, hpage1]
    have href : (st2.pages p').pp_ref = 0 := by
      rw [hpage2]
      exact hl.2.2.1 p' hpl
    have hlink : (st2.pages p').pp_link = none := by
      rw [hpage2]
    have hpl' : p' ∉ l' := fun hm => hpx (hsub _ hm)
    have hfree : ∃ s, page_free st2 p' = some s := by
      unfold page_free
      rw [if_neg (by rw [href, hlink]; simp)]
      exact ⟨_, rfl⟩
    obtain ⟨s, hs⟩ := hfree
    have hls := pageList_page_free hl' hpl' hs
    have hEf := envFrame_page_free hs
    have hsm : s.mem = st2.mem ∧ (s.pages p').pp_ref = 0 ∧ s.page_free_list = some p' := by
      unfold page_free at hs
      rw [if_neg (by rw [href, hlink]; simp)] at hs
      cases hs
      exact ⟨rfl, by simp only [Function.update_same]; exact href, rfl⟩
    have hE12 : EnvFrame st1 st2 := by
      have hw := hwalk
      have : pml4e_walk st1 root va true = some (st2, none) := by
        rw [pml4e_walk_eq, hw]
        rfl
      exact envFrame_pml4e_walk this
    have hE01 : EnvFrame st st1 := by
      have := envFrame_page_alloc st ALLOC_ZERO
      rw [hpa] at this
      exact this
    refine ⟨href, hlink, s, hs, hsm.2.1, hsm.2.2, ?_, ⟨_, hls⟩, ?_, (hE01.trans hE12).trans hEf⟩
    · exact (onPageFreeList_iff hls p').mpr (List.mem_cons_self _ _)
    · rw [page_lookup_eq]
      have hcs : leaf_from s [PML4X va, PDPX va, PDX va] root =
          leaf_from st2 [PML4X va, PDPX va, PDX va] root :=
        (leaf_from_congr (show s.npages = st2.npages from hEf.npages) _ root
          (fun c _ => by rw [hsm.1])).1
      rw [hcs, hleaf]
/-- C39. `sys_page_alloc` leaks no frame when it fails for lack of memory. In
a state with the page free-list invariant in which the tables on the path of
`va` are distinct and not free, when the call returns `-E_NO_MEM`: either
the free list was empty and nothing changed, or the frame `p` taken for the
page was given back by `page_free` - which found its count zero and its link
null, so did not panic - and is again the head of the free list with count
0; `va` maps nothing in the target address space, and the environment table
is unchanged. -/
theorem sys_page_alloc_no_leak (lg : Nat) (st st' : Kernel) (cpu envid va perm e root : Nat)
    (l : List Nat) (henv : envid2env lg st cpu envid true = some (0, some e))
    (hroot : (st.envs e).env_pml4e = some root)
    (hl : PageList st l) (hnp : st.npages ≤ 2 ^ 52) (hfb : ∀ f, f ∈ l → f < st.npages)
    (htab : ∀ c, c ∈ walk_cells st root va → c.1 ∉ l)
    (hnd : (walk_tables st root va).Nodup)
    (h : sys_page_alloc lg st cpu envid va perm = some (-E_NO_MEM, st')) :
    (st.page_free_list = none ∧ st' = st) ∨
    (∃ p st2, st.page_free_list = some p ∧
      page_insert (page_alloc st ALLOC_ZERO).1 root p va (perm ||| PTE_U ||| PTE_P) =
        some (-E_NO_MEM, st2) ∧
      (st2.pages p).pp_ref = 0 ∧ (st2.pages p).pp_link = none ∧
      page_free st2 p = some st' ∧
      (st'.pages p).pp_ref = 0 ∧ st'.page_free_list = some p ∧ OnPageFreeList st' p ∧
      PageInv st' ∧ page_lookup st' root va = some none ∧ EnvFrame st st') := by
  unfold sys_page_alloc at h
  rw [henv] at h
  simp only [lt_self_iff_false, if_false] at h
  split at h
  · simp only [Option.some.injEq, Prod.mk.injEq] at h
    exact absurd h.1 (by decide)
  · split at h
    · simp only [Option.some.injEq, Prod.mk.injEq] at h
      exact absurd h.1 (by decide)
    · split at h
      · simp only [Option.some.injEq, Prod.mk.injEq] at h
        exact absurd h.1 (by decide)
      · split at h
        · rename_i st1 hpa
          simp only [Option.some.injEq, Prod.mk.injEq, true_and] at h
          obtain ⟨h1, h2⟩ := page_alloc_none hpa
          left
          exact ⟨h2, by rw [← h, h1]⟩
        · rename_i st1 p hpa
          have hE : EnvFrame st st1 := by
            have := envFrame_page_alloc st ALLOC_ZERO
            rw [hpa] at this
            exact this
          have hhead : st.page_free_list = some p := by
            cases hh : st.page_free_list with
            | none =>
              unfold page_alloc at hpa
              rw [hh] at hpa
              simp only [Prod.mk.injEq] at hpa
              exact absurd hpa.2 (by simp)
            | some q =>
              unfold page_alloc at hpa
              rw [hh] at hpa
              simp only [Prod.mk.injEq, Option.some.injEq] at hpa
              rw [hpa.2]
          rw [hE.envs, hroot] at h
          simp only at h
          have hst1 : st1 = (page_alloc st ALLOC_ZERO).1 := by rw [hpa]
          cases hins : page_insert st1 root p va (perm ||| PTE_U ||| PTE_P) with
          | none => rw [hins] at h; cases h
          | some r =>
            obtain ⟨r1, st2⟩ := r
            rw [hins] at h
            simp only at h
            split at h
            · rename_i hr1
              rw [hst1] at hins
              obtain ⟨href, hlink, s, hs, hsr, hsh, hon, hinv, hlk, hEs⟩ :=
                page_insert_fail_free hl hnp hfb htab hnd hhead hins hr1
              rw [hs] at h
              simp only [Option.map_some', Option.some.injEq, Prod.mk.injEq, true_and] at h
              subst h
              have hr : r1 = -E_NO_MEM := by
                rcases page_insert_result hins with h0 | h0
                · rw [h0] at hr1; exact absurd hr1 (by decide)
                · exact h0
              rw [hr] at hins
              exact Or.inr ⟨p, st2, hhead, hins, href, hlink, hs, hsr, hsh, hon, hinv, hlk, hEs⟩
            · simp only [Option.some.injEq, Prod.mk.injEq] at h
              exact absurd h.1 (by decide)
theorem option_fst_eq {α : Type} {o : Option (Int × α)} {r : Int}
    (h : o.map (fun x => x.1) = some r) : ∃ s, o = some (r, s) := by
  cases o with
  | none => simp at h
  | some x =>
    obtain ⟨x1, x2⟩ := x
    simp only [Option.map_some', Option.some.injEq] at h
    subst h
    exact ⟨x2, rfl⟩

theorem one_free_pageList : PageList one_free [15] := by
  refine ⟨⟨rfl, rfl⟩, by decide, ?_, fun f _ => rfl⟩
  intro f hf
  rw [List.mem_singleton.mp hf]
  rfl

/-- On `one_free`, environment 0 calls `sys_page_alloc(0, 0, PTE_U | PTE_W |
PTE_P)`: frame 15 is taken for the page, the walk finds no frame for a page
directory, and the call returns `-E_NO_MEM` with frame 15 back at the head of
the free list, its count 0, and address 0 unmapped. -/
theorem sys_page_alloc_no_leak_witness :
    ∃ st', sys_page_alloc 1 one_free 0 0 0 7 = some (-E_NO_MEM, st') ∧
      one_free.page_free_list = some 15 ∧
      (st'.pages 15).pp_ref = 0 ∧ st'.page_free_list = some 15 ∧ OnPageFreeList st' 15 ∧
      page_lookup st' 2 0 = some none := by
  obtain ⟨st', h⟩ := option_fst_eq
    (show (sys_page_alloc 1 one_free 0 0 0 7).map (fun x => x.1) = some (-E_NO_MEM) by decide)
  rcases sys_page_alloc_no_leak 1 one_free st' 0 0 0 7 0 2 [15] (by decide) (by decide)
      one_free_pageList (by decide) (by decide) (by decide) (by decide) h with
    ⟨h1, _⟩ | ⟨p, st2, hp, _, _, _, _, h6, h7, h8, _, h10, _⟩
  · exact absurd h1 (by decide)
  · have hp15 : p = 15 := by
      have : one_free.page_free_list = some 15 := rfl
      rw [this] at hp
      exact (Option.some.inj hp).symm
    subst hp15
    exact ⟨st', h, rfl, h6, h7, h8, h10⟩
/-- Re-inserting a frame at an address that already maps it, when its count
is between 1 and 65535: the call returns 0 and only rewrites the leaf entry. -/
theorem page_insert_same_state {st : Kernel} {root va pp perm : Nat} {slot : Nat × Nat}
    (hlook : page_lookup st root va = some (some (pp, slot)))
    (h1 : 0 < (st.pages pp).pp_ref) (h2 : (st.pages pp).pp_ref < 65536) :
    ∃ st', page_insert st root pp va perm = some (0, st') ∧ st'.pages = st.pages ∧
      st'.page_free_list = st.page_free_list ∧ EnvFrame st st' ∧
      ∀ g j, st'.mem g j =
        if (g, j) = slot then page2pa pp ||| sext64 perm ||| PTE_P else st.mem g j := by
  obtain ⟨pt, i⟩ := slot
  have hl := hlook
  unfold page_lookup at hl
  split at hl
  · cases hl
  · cases hl
  · rename_i s1 pt1 i1 hw
    obtain ⟨e1, ei, a, b, p1, p2, p3⟩ := pml4e_walk_false_some hw
    subst e1
    split at hl
    · rename_i hpres
      simp only [Option.map_eq_some'] at hl
      obtain ⟨q, hq, he⟩ := hl
      simp only [Option.some.injEq, Prod.mk.injEq] at he
      obtain ⟨rfl, rfl, rfl⟩ := he
      have hlook2 : page_lookup (incref s1 q) root va = some (some (q, (pt1, i1))) := by
        rw [← hlook]
        unfold page_lookup
        rw [pml4e_walk_of_path false p1 p2 p3]
        have : pml4e_walk (incref s1 q) root va false =
            some (incref s1 q, some (pt1, PTX va)) := pml4e_walk_of_path false p1 p2 p3
        rw [this]
        rfl
      have hr : (65535 + (((s1.pages q).pp_ref + 1) % 65536)) % 65536 = (s1.pages q).pp_ref := by
        omega
      have hdec : page_decref (incref s1 q) q = some (s1.setPage q (s1.pages q)) := by
        unfold page_decref
        have e : (incref s1 q).pages q =
            { s1.pages q with pp_ref := ((s1.pages q).pp_ref + 1) % 65536 } := by
          simp [incref]
        simp only [e, hr]
        rw [if_neg (by omega)]
        simp [incref, Kernel.setPage]
      refine ⟨((s1.setPage q (s1.pages q)).write pt1 i1 0).write pt1 i1
          (page2pa q ||| sext64 perm ||| PTE_P), ?_, ?_, rfl, ⟨rfl, rfl, rfl, rfl, rfl⟩, ?_⟩
      · unfold page_insert
        rw [pml4e_walk_of_path true p1 p2 p3, ← ei]
        simp only
        have hp2 : present ((incref s1 q).mem pt1 i1) = true := hpres
        rw [if_pos hp2]
        unfold page_remove
        rw [hlook2]
        simp only
        rw [hdec]
      · simp [Kernel.setPage]
      · intro g j
        rw [write_mem_cell]
        by_cases hc : (g, j) = (pt1, i1)
        · rw [if_pos hc, if_pos hc]
        · rw [if_neg hc, if_neg hc, write_mem_cell, if_neg hc]
          rfl
    · cases hl
/-- A successful `sys_page_map` returns 0. -/
theorem sys_page_map_nonneg {lg : Nat} {st st' : Kernel}
    {cpu srcenvid srcva dstenvid dstva perm : Nat} {r : Int}
    (h : sys_page_map lg st cpu srcenvid srcva dstenvid dstva perm = some (r, st'))
    (hr : ¬ r < 0) : r = 0 := by
  have hneg : ∀ (e : Int) (s : Kernel), e < 0 → some (e, s) = some (r, st') → r = 0 := by
    intro e s he heq
    simp only [Option.some.injEq, Prod.mk.injEq] at heq
    omega
  unfold sys_page_map at h
  repeat' split at h
  all_goals first
    | exact hneg _ _ (by decide) h
    | (simp only [Option.some.injEq, Prod.mk.injEq] at h; omega)
    | cases h

/-- Mapping a frame of one address space at the same address of another
one, whose tables form a tree apart from the tables of the source and which
maps nothing there: the target maps the frame with exactly the permissions
asked for, the frame's count goes up by one, and the source's entry is as
before. -/
theorem sys_page_map_fresh {lg : Nat} {st st1 : Kernel}
    {cpu srcenvid dstenvid va perm srcenv dstenv srcroot dstroot f : Nat} {pslot : Nat × Nat}
    {l : List Nat} {lab : Nat → Option (List Nat)}
    (hsrc : envid2env lg st cpu srcenvid true = some (0, some srcenv))
    (hdst : envid2env lg st cpu dstenvid true = some (0, some dstenv))
    (hsroot : (st.envs srcenv).env_pml4e = some srcroot)
    (hdroot : (st.envs dstenv).env_pml4e = some dstroot)
    (hl : PageList st l) (hnp : st.npages ≤ 2 ^ 52) (hfb : ∀ g, g ∈ l → g < st.npages)
    (ht : TableTree st l dstroot lab)
    (hmap : page_lookup st srcroot va = some (some (f, pslot)))
    (hsep : ∀ x, x ∈ walk_cells st srcroot va → x.1 ∉ l ∧ lab x.1 = none)
    (hf : f ∉ l) (hlf : lab f = none)
    (hun : page_lookup st dstroot va = some none)
    (hperm : perm < 2 ^ 32)
    (h : sys_page_map lg st cpu srcenvid va dstenvid va perm = some (0, st1)) :
    ∃ l' lab' pt, PageList st1 l' ∧ TableTree st1 l' dstroot lab' ∧
      (∀ g q, lab g = some q → lab' g = some q) ∧
      (∀ g q, lab g = none → lab' g = some q → g ∈ l ∧ g ∉ l') ∧
      (∀ g, g ∈ l' → g ∈ l) ∧ st1.npages = st.npages ∧ EnvFrame st st1 ∧
      page_lookup st1 dstroot va = some (some (f, (pt, PTX va))) ∧
      st1.mem pt (PTX va) &&& 0xFFF = perm ∧ lab' pt ≠ none ∧
      (∀ g, g ∉ l → g ≠ f → st1.pages g = st.pages g) ∧
      st1.pages f = { st.pages f with pp_ref := ((st.pages f).pp_ref + 1) % 65536 } ∧
      (∀ g j, g ∉ l → lab' g = none → st1.mem g j = st.mem g j) ∧
      f ∉ l' ∧ lab' f = none ∧ l.length ≤ l'.length + 3 ∧
      page_lookup st1 srcroot va = some (some (f, pslot)) ∧
      walk_cells st1 srcroot va = walk_cells st srcroot va ∧
      ∀ va', UserPath (table_path va') →
        (table_path va', PTX va') ≠ (table_path va, PTX va) →
        page_lookup st1 dstroot va' = page_lookup st dstroot va' ∧
        ∀ q slot, page_lookup st dstroot va' = some (some (q, slot)) →
          st1.mem slot.1 slot.2 = st.mem slot.1 slot.2 := by
  obtain ⟨_, _, hlt, _, hp1, hp2, p, pts, is, hlook, _, hins⟩ :=
    sys_page_map_ok hsrc hdst hsroot hdroot h
  rw [hmap] at hlook
  simp only [Option.some.injEq, Prod.mk.injEq] at hlook
  obtain ⟨rfl, _⟩ := hlook
  have hp12 : perm < 2 ^ 12 := perm_syscall_bound perm hperm hp1
  obtain ⟨_, _, _, _, _, hpn⟩ := page_lookup_some hmap
  have hva : UserPath (table_path va) :=
    userPath_table_path va (lt_trans hlt (by decide))
  obtain ⟨l', lab', pt, hl', ht', hext, hnew, hsub, hn', hlk', hentry, hpg, hpf, hmem,
      hfl', hlf', hlen, hoth⟩ :=
    tree_page_insert hl hnp hfb ht hva hf hlf hpn hp12 hun hins
  have hnone : ∀ x, x ∈ walk_cells st srcroot va → lab' x.1 = none := by
    intro x hx
    cases hq : lab' x.1 with
    | none => rfl
    | some q => exact absurd (hnew _ q (hsep x hx).2 hq).1 (hsep x hx).1
  have hcell : ∀ x, x ∈ walk_cells st srcroot va → st1.mem x.1 x.2 = st.mem x.1 x.2 :=
    fun x hx => hmem x.1 x.2 (hsep x hx).1 (hnone x hx)
  have hlabpt : lab' pt ≠ none := by
    obtain ⟨hin, _⟩ := walk_cells_mapped hlk'
    have hu4 : UserPath ([] ++ [PML4X va, PDPX va, PDX va, PTX va]) := hva
    obtain ⟨k, _, hk⟩ := tree_cells ht' [PML4X va, PDPX va, PDX va, PTX va] [] dstroot
      ht'.root_lab (by simp) hu4 _ hin
    intro hc
    rw [hc] at hk
    cases hk
  refine ⟨l', lab', pt, hl', ht', hext, hnew, hsub, hn', envFrame_page_insert hins, hlk', ?_,
    hlabpt, hpg, hpf, hmem, hfl', hlf', hlen, ?_, ?_, hoth⟩
  · rw [hentry, Nat.lor_assoc, perm_has_present perm hp2]
    exact entry_flags f perm hp12
  · rw [page_lookup_congr hn' srcroot va hcell]
    exact hmap
  · exact (leaf_from_congr hn' _ srcroot hcell).2

/-- Mapping a page of an address space onto itself, when its frame's count
is between 1 and 65535: only the leaf entry is rewritten. -/
theorem sys_page_map_self {lg : Nat} {st st' : Kernel}
    {cpu envid va perm env root f : Nat} {slot : Nat × Nat}
    (hsrc : envid2env lg st cpu envid true = some (0, some env))
    (hroot : (st.envs env).env_pml4e = some root)
    (hmap : page_lookup st root va = some (some (f, slot)))
    (h1 : 0 < (st.pages f).pp_ref) (h2 : (st.pages f).pp_ref < 65536)
    (h : sys_page_map lg st cpu envid va envid va perm = some (0, st')) :
    st'.pages = st.pages ∧ st'.page_free_list = st.page_free_list ∧ EnvFrame st st' ∧
    st'.npages = st.npages ∧
    ∀ g j, st'.mem g j =
      if (g, j) = slot then page2pa f ||| sext64 perm ||| PTE_P else st.mem g j := by
  obtain ⟨_, _, _, _, _, _, p, pts, is, hlook, _, hins⟩ :=
    sys_page_map_ok hsrc hsrc hroot hroot h
  rw [hmap] at hlook
  simp only [Option.some.injEq, Prod.mk.injEq] at hlook
  obtain ⟨rfl, _⟩ := hlook
  obtain ⟨s, hs, hpg, hfl, hef, hm⟩ := @page_insert_same_state st root va f perm slot hmap h1 h2
  rw [hs] at hins
  simp only [Option.some.injEq, Prod.mk.injEq, true_and] at hins
  subst hins
  exact ⟨hpg, hfl, hef, hef.npages, hm⟩
/-- Rewriting the leaf entry of a mapped address, on a path of distinct
tables, with an entry for frame `p`: the address maps `p` through the same
entry, and the path is as before. -/
theorem page_lookup_rewrite {st st' : Kernel} {root va f p perm : Nat} {slot : Nat × Nat}
    (hmap : page_lookup st root va = some (some (f, slot)))
    (hnd : (walk_tables st root va).Nodup)
    (hn : st'.npages = st.npages) (hnp : st.npages ≤ 2 ^ 52) (hp : p < st.npages)
    (hperm : perm < 2 ^ 12) (hpres : perm &&& PTE_P ≠ 0)
    (hm : ∀ g j, st'.mem g j = if (g, j) = slot then page2pa p ||| perm else st.mem g j) :
    page_lookup st' root va = some (some (p, slot)) ∧
    walk_cells st' root va = walk_cells st root va := by
  obtain ⟨pt, hs, hlf, _, _, _⟩ := page_lookup_some hmap
  subst hs
  have hsn := cells_from_snoc st (PTX va) [PML4X va, PDPX va, PDX va] root pt hlf
  have hwc : walk_cells st root va =
      cells_from st [PML4X va, PDPX va, PDX va] root ++ [(pt, PTX va)] := hsn
  unfold walk_tables at hnd
  rw [hwc, List.map_append, List.nodup_append] at hnd
  have hup : ∀ c, c ∈ cells_from st [PML4X va, PDPX va, PDX va] root →
      st'.mem c.1 c.2 = st.mem c.1 c.2 := by
    intro c hc
    rw [hm, if_neg]
    intro e
    have e1 : c.1 = pt := congrArg Prod.fst e
    exact hnd.2.2 (List.mem_map.mpr ⟨c, hc, e1⟩) (by simp)
  obtain ⟨hlf', hcf'⟩ := leaf_from_congr hn _ root hup
  rw [hlf] at hlf'
  have hsn' := cells_from_snoc st' (PTX va) [PML4X va, PDPX va, PDX va] root pt hlf'
  have hwc' : walk_cells st' root va =
      cells_from st' [PML4X va, PDPX va, PDX va] root ++ [(pt, PTX va)] := hsn'
  refine ⟨?_, by rw [hwc', hwc, hcf']⟩
  unfold page_lookup
  rw [pml4e_walk_false_of_leaf hlf']
  simp only
  rw [hm, if_pos rfl, if_pos (present_entry _ _ hpres),
    PTE_ADDR_entry p perm (lt_of_lt_of_le hp hnp) hperm]
  unfold pa2page
  rw [PGNUM_page2pa, if_neg (by omega)]
  rfl
theorem uvpt_of_lookup {st : Kernel} {root pn f : Nat} {slot : Nat × Nat}
    (h : page_lookup st root (pn <<< PGSHIFT) = some (some (f, slot))) :
    uvpt st root pn = some (st.mem slot.1 slot.2) := by
  obtain ⟨pt, hs, hlf, _, _, _⟩ := page_lookup_some h
  unfold uvpt
  have hlf' : leaf_from st (table_path (pn <<< PGSHIFT)) root = some (some pt) := hlf
  rw [hlf', hs]

/-- The tables of environment 1 of `mapped_once`: the root in frame 4 and the
empty PDPT in frame 5. -/
theorem mapped_once_child_tree :
    TableTree mapped_once [9, 10, 11, 12, 13, 14, 15] 4
      (fun f => if f = 4 then some [] else if f = 5 then some [0] else none) := by
  have hm5 : ∀ i, mapped_once.mem 5 i = 0 := by
    intro i
    simp [mapped_once, two_running]
  refine ⟨rfl, ?_, ?_, ?_⟩
  · intro t p i hp hlen hu hpres
    by_cases h4 : t = 4
    · subst h4
      simp only [if_true, Option.some.injEq] at hp
      subst hp
      have hi : i = 0 := hu
      subst hi
      exact ⟨5, by decide, rfl⟩
    · by_cases h5 : t = 5
      · subst h5
        rw [hm5 i] at hpres
        exact absurd hpres (by decide)
      · simp only [if_neg h4, if_neg h5] at hp
        cases hp
  · intro t p hp
    by_cases h4 : t = 4
    · subst h4
      simp only [if_true, Option.some.injEq] at hp
      subst hp
      exact ⟨by decide, trivial, rfl⟩
    · by_cases h5 : t = 5
      · subst h5
        simp only [if_neg h4, if_true, Option.some.injEq] at hp
        subst hp
        exact ⟨by decide, rfl, by decide⟩
      · simp only [if_neg h4, if_neg h5] at hp
        cases hp
  · intro t p hp
    by_cases h4 : t = 4
    · subst h4
      decide
    · by_cases h5 : t = 5
      · subst h5
        decide
      · simp only [if_neg h4, if_neg h5] at hp
        cases hp

/-- C32 (duppage, read-only branch): the parent `c` maps frame `f` at
`va = pn * PGSIZE` through an entry with neither `PTE_W` nor `PTE_COW`; the
child's tables form a tree that is apart from the parent's tables on the path
of `va` and maps nothing at `va`; the count of `f` is below 65535. When
`duppage(envid, pn)` returns, it returns 0, the child maps `f` at `va` with
flags exactly `PTE_P | PTE_U`, whatever other flags the parent's entry
carries, the parent's entry is as before, and the count of `f` is one more. -/
theorem duppage_readonly (lg : Nat) (st st' : Kernel) (cpu envid pn c d proot croot f : Nat)
    (pslot : Nat × Nat) (l : List Nat) (lab : Nat → Option (List Nat)) (r : Int)
    (hcur : curenv st cpu = some c)
    (hchild : envid2env lg st cpu envid true = some (0, some d))
    (hproot : (st.envs c).env_pml4e = some proot)
    (hcroot : (st.envs d).env_pml4e = some croot)
    (hl : PageList st l) (hnp : st.npages ≤ 2 ^ 52) (hfb : ∀ g, g ∈ l → g < st.npages)
    (ht : TableTree st l croot lab)
    (hmap : page_lookup st proot (pn <<< PGSHIFT) = some (some (f, pslot)))
    (hw : st.mem pslot.1 pslot.2 &&& PTE_W = 0 ∧ st.mem pslot.1 pslot.2 &&& PTE_COW = 0)
    (hsep : ∀ x, x ∈ walk_cells st proot (pn <<< PGSHIFT) → x.1 ∉ l ∧ lab x.1 = none)
    (hf : f ∉ l) (hlf : lab f = none) (href : (st.pages f).pp_ref < 65535)
    (hun : page_lookup st croot (pn <<< PGSHIFT) = some none)
    (h : duppage lg st cpu envid pn = some (r, st')) :
    r = 0 ∧ pn <<< PGSHIFT < UTOP ∧
    sys_page_map lg st cpu 0 (pn <<< PGSHIFT) envid (pn <<< PGSHIFT) (PTE_P ||| PTE_U) =
      some (0, st') ∧
    ∃ cslot, page_lookup st' croot (pn <<< PGSHIFT) = some (some (f, cslot)) ∧
      st'.mem cslot.1 cslot.2 &&& 0xFFF = PTE_P ||| PTE_U ∧
      page_lookup st' proot (pn <<< PGSHIFT) = some (some (f, pslot)) ∧
      st'.mem pslot.1 pslot.2 = st.mem pslot.1 pslot.2 ∧
      (st'.pages f).pp_ref = (st.pages f).pp_ref + 1 := by
  have hsrc : envid2env lg st cpu 0 true = some (0, some c) := by
    unfold envid2env
    rw [if_pos rfl, hcur]
  unfold duppage at h
  simp only [hcur, hproot, uvpt_of_lookup hmap] at h
  rw [if_neg (by
    intro hc
    rcases hc with hc | hc
    · exact hc hw.1
    · exact hc hw.2)] at h
  cases h1 : sys_page_map lg st cpu 0 (pn <<< PGSHIFT) envid (pn <<< PGSHIFT)
      (PTE_P ||| PTE_U) with
  | none => rw [h1] at h; cases h
  | some r1 =>
    obtain ⟨e1, st1⟩ := r1
    rw [h1] at h
    simp only at h
    by_cases hneg : e1 < 0
    · rw [if_pos hneg] at h; cases h
    · rw [if_neg hneg] at h
      have he1 : e1 = 0 := sys_page_map_nonneg h1 hneg
      subst he1
      simp only [Option.some.injEq, Prod.mk.injEq] at h
      obtain ⟨hr, hst⟩ := h
      subst hst
      obtain ⟨_, _, hlt, _, _, _, _⟩ := sys_page_map_ok hsrc hchild hproot hcroot h1
      obtain ⟨l', lab', pt, hl', ht', hext, hnew, hsub, hn', hef, hlk', hfl1, hlabpt, hpg, hpf,
          hmem, hfl', hlf', hlen, hplk, hpcells, hoth⟩ :=
        sys_page_map_fresh hsrc hchild hproot hcroot hl hnp hfb ht hmap hsep hf hlf hun
          (by decide) h1
      have hin : pslot ∈ walk_cells st proot (pn <<< PGSHIFT) := (walk_cells_mapped hmap).1
      have hpl : lab' pslot.1 = none := by
        cases hq : lab' pslot.1 with
        | none => rfl
        | some q => exact absurd (hnew _ q (hsep _ hin).2 hq).1 (hsep _ hin).1
      refine ⟨hr.symm, hlt, rfl, (pt, PTX (pn <<< PGSHIFT)), hlk', hfl1, hplk,
        hmem _ _ (hsep _ hin).1 hpl, ?_⟩
      rw [hpf]
      exact Nat.mod_eq_of_lt (by omega)

theorem mapped_avail_child_tree :
    TableTree mapped_avail [9, 10, 11, 12, 13, 14, 15] 4
      (fun f => if f = 4 then some [] else if f = 5 then some [0] else none) := by
  refine tableTree_congr mapped_once_child_tree rfl ?_ (fun t q h => by
    by_cases h4 : t = 4
    · subst h4; decide
    · by_cases h5 : t = 5
      · subst h5; decide
      · simp only [if_neg h4, if_neg h5] at h
        cases h)
  intro t q j h _
  have h8 : t ≠ 8 := by
    intro e
    subst e
    simp at h
  show (if t = 8 ∧ j = 0 then 0x6205 else mapped_once.mem t j) = mapped_once.mem t j
  rw [if_neg (fun hc => h8 hc.1)]

set_option maxRecDepth 100000 in
theorem duppage_avail_eq : duppage 1 mapped_avail 0 0x1001 0 = some (0, duppage_avail) :=
  option_pair_eq _ mapped_avail (by decide)

/-- On `mapped_avail`, environment 0 maps frame 6 at address 0 read-only with
the available bit `0x200` (entry `0x6205`, `PTE_SYSCALL` bits `0x205`):
`duppage(0x1001, 0)` returns 0 and maps frame 6 into the child with flags
`PTE_P | PTE_U = 0x005`, so the bit `0x200` of the parent's entry is
dropped. -/
theorem duppage_readonly_witness :
    duppage 1 mapped_avail 0 0x1001 0 = some (0, duppage_avail) ∧
    page_lookup mapped_avail 2 0 = some (some (6, (8, 0))) ∧
    mapped_avail.mem 8 0 = 0x6205 ∧ mapped_avail.mem 8 0 &&& PTE_SYSCALL = 0x205 ∧
    ∃ cslot, page_lookup duppage_avail 4 0 = some (some (6, cslot)) ∧
      duppage_avail.mem cslot.1 cslot.2 &&& 0xFFF = 0x005 ∧
      duppage_avail.mem cslot.1 cslot.2 &&& PTE_SYSCALL ≠ mapped_avail.mem 8 0 &&& PTE_SYSCALL ∧
      page_lookup duppage_avail 2 0 = some (some (6, (8, 0))) ∧
      duppage_avail.mem 8 0 = 0x6205 ∧ (duppage_avail.pages 6).pp_ref = 2 := by
  obtain ⟨_, _, _, cslot, h1, h2, h3, h4, h5⟩ :=
    duppage_readonly 1 mapped_avail duppage_avail 0 0x1001 0 0 1 2 4 6 (8, 0)
      [9, 10, 11, 12, 13, 14, 15]
      (fun f => if f = 4 then some [] else if f = 5 then some [0] else none) 0
      (by decide) (by decide) (by decide) (by decide) mapped_once_pageList (by decide)
      (by decide) mapped_avail_child_tree (by decide) (by decide) (by decide) (by decide)
      (by decide) (by decide) (by decide) duppage_avail_eq
  refine ⟨duppage_avail_eq, by decide, by decide, by decide, cslot, h1, h2, ?_, h3, h4, h5⟩
  have e : duppage_avail.mem cslot.1 cslot.2 &&& PTE_SYSCALL =
      (duppage_avail.mem cslot.1 cslot.2 &&& 0xFFF) &&& PTE_SYSCALL := by
    rw [Nat.land_assoc]
    rfl
  rw [e, h2]
  decide
/-- A successful `sys_page_alloc` at an address that maps nothing, in an
address space whose tables form a tree: the head of the free list is
zero-filled and mapped there with count 1, other pages are mapped as before. -/
theorem sys_page_alloc_fresh {lg : Nat} {st st1 : Kernel} {cpu envid va perm env root : Nat}
    {l : List Nat} {lab : Nat → Option (List Nat)} {r : Int}
    (henv : envid2env lg st cpu envid true = some (0, some env))
    (hroot : (st.envs env).env_pml4e = some root)
    (hl : PageList st l) (hnp : st.npages ≤ 2 ^ 52) (hfb : ∀ g, g ∈ l → g < st.npages)
    (ht : TableTree st l root lab)
    (hun : page_lookup st root va = some none)
    (hperm : perm < 2 ^ 12)
    (h : sys_page_alloc lg st cpu envid va perm = some (r, st1)) (hr : ¬ r < 0) :
    r = 0 ∧ va < UTOP ∧ ∃ p xs l' lab' pt, l = p :: xs ∧ st.page_free_list = some p ∧
      PageList st1 l' ∧ TableTree st1 l' root lab' ∧
      (∀ g q, lab g = some q → lab' g = some q) ∧
      (∀ g q, lab g = none → lab' g = some q → g ∈ xs ∧ g ∉ l') ∧
      (∀ g, g ∈ l' → g ∈ xs) ∧ st1.npages = st.npages ∧ EnvFrame st st1 ∧
      page_lookup st1 root va = some (some (p, (pt, PTX va))) ∧
      st1.mem pt (PTX va) &&& 0xFFF = perm ||| PTE_U ||| PTE_P ∧
      (∀ g, g ∉ l → st1.pages g = st.pages g) ∧
      (st1.pages p).pp_ref = 1 ∧
      (∀ g j, g ∉ l → lab' g = none → st1.mem g j = st.mem g j) ∧
      (∀ j, st1.mem p j = 0) ∧
      p ∉ l' ∧ lab' p = none ∧ l.length ≤ l'.length + 4 ∧
      ∀ va', UserPath (table_path va') →
        (table_path va', PTX va') ≠ (table_path va, PTX va) →
        page_lookup st1 root va' = page_lookup st root va' ∧
        ∀ q slot, page_lookup st root va' = some (some (q, slot)) →
          st1.mem slot.1 slot.2 = st.mem slot.1 slot.2 := by
  have hneg : ∀ (e : Int) (s : Kernel), e < 0 → some (e, s) = some (r, st1) → False := by
    intro e s he heq
    simp only [Option.some.injEq, Prod.mk.injEq] at heq
    omega
  unfold sys_page_alloc at h
  rw [henv] at h
  simp only [lt_self_iff_false, if_false] at h
  split at h
  · exact absurd h (fun h => hneg _ _ (by decide) h)
  · split at h
    · exact absurd h (fun h => hneg _ _ (by decide) h)
    · rename_i hlt
      split at h
      · exact absurd h (fun h => hneg _ _ (by decide) h)
      · split at h
        · exact absurd h (fun h => hneg _ _ (by decide) h)
        · rename_i sa p hpa
          have hE : EnvFrame st sa := by
            have := envFrame_page_alloc st ALLOC_ZERO
            rw [hpa] at this
            exact this
          have hhead : st.page_free_list = some p := by
            cases hh : st.page_free_list with
            | none =>
              unfold page_alloc at hpa
              rw [hh] at hpa
              simp only [Prod.mk.injEq] at hpa
              exact absurd hpa.2 (by simp)
            | some q =>
              unfold page_alloc at hpa
              rw [hh] at hpa
              simp only [Prod.mk.injEq, Option.some.injEq] at hpa
              rw [hpa.2]
          have hsa := page_alloc_zero_some st p hhead
          rw [hpa] at hsa
          simp only [Prod.mk.injEq, true_and, and_true] at hsa
          have hmem : sa.mem = Function.update st.mem p (fun _ => 0) := by rw [hsa]
          have hpages : sa.pages = Function.update st.pages p { st.pages p with pp_link := none } := by
            rw [hsa]
          obtain ⟨xs, hlx, hlxs⟩ : ∃ xs, l = p :: xs ∧ PageList sa xs := by
            rcases pageList_page_alloc ALLOC_ZERO hl with ⟨_, h2, _⟩ | ⟨p', xs, h1, h2, h3⟩
            · rw [hpa] at h2
              cases h2
            · rw [hpa] at h2 h3
              simp only [Option.some.injEq] at h2
              subst h2
              exact ⟨xs, h1, h3⟩
          have hpl : p ∈ l := by rw [hlx]; simp
          have hpxs : p ∉ xs := by
            have hnd := hl.2.1
            rw [hlx] at hnd
            exact (List.nodup_cons.mp hnd).1
          have hsub : ∀ g, g ∈ xs → g ∈ l := fun g hg => by rw [hlx]; exact List.mem_cons_of_mem _ hg
          have hmemne : ∀ g j, g ≠ p → sa.mem g j = st.mem g j := by
            intro g j hg
            rw [hmem, Function.update_noteq hg]
          have hta : TableTree sa xs root lab :=
            tableTree_congr ht hE.npages
              (fun t q j hq _ => hmemne t j (fun e => ht.notfree t q hq (e ▸ hpl)))
              (fun t q hq hc => ht.notfree t q hq (hsub t hc))
          have hva : UserPath (table_path va) :=
            userPath_table_path va (lt_trans (Nat.lt_of_not_ge hlt) (by decide))
          have hcells : ∀ va', UserPath (table_path va') →
              ∀ c, c ∈ walk_cells st root va' → sa.mem c.1 c.2 = st.mem c.1 c.2 := by
            intro va' hv c hc
            exact hmemne _ _ (fun e => (tree_walk_cells ht va' hv).1 c hc (e ▸ hpl))
          have huna : page_lookup sa root va = some none := by
            rw [page_lookup_congr hE.npages root va (hcells va hva)]
            exact hun
          rw [hE.envs, hroot] at h
          simp only at h
          cases hins : page_insert sa root p va (perm ||| PTE_U ||| PTE_P) with
          | none => rw [hins] at h; cases h
          | some r0 =>
            obtain ⟨r1, st2⟩ := r0
            rw [hins] at h
            simp only at h
            split at h
            · rename_i hr1
              cases hpf : page_free st2 p with
              | none => rw [hpf] at h; cases h
              | some s =>
                rw [hpf] at h
                exact absurd h (fun h => hneg _ _ (by decide) h)
            · rename_i hr1
              simp only [Option.some.injEq, Prod.mk.injEq] at h
              obtain ⟨hr0, hst⟩ := h
              subst hst
              have hr10 : r1 = 0 := by
                rcases page_insert_result hins with h0 | h0
                · exact h0
                · rw [h0] at hr1; exact absurd (by decide) hr1
              subst hr10
              have hp12 : perm ||| PTE_U ||| PTE_P < 2 ^ 12 :=
                Nat.or_lt_two_pow (Nat.or_lt_two_pow hperm (by decide)) (by decide)
              have hlabp : lab p = none := by
                cases hq : lab p with
                | none => rfl
                | some q => exact absurd hpl (ht.notfree p q hq)
              obtain ⟨l', lab', pt, hl', ht', hext, hnew, hsub', hn', hlk', hentry, hpg, hpf, hmem',
                  hfl', hlf', hlen, hoth⟩ :=
                tree_page_insert hlxs (by rw [hE.npages]; exact hnp)
                  (fun g hg => by rw [hE.npages]; exact hfb g (hsub g hg)) hta hva hpxs hlabp
                  (by rw [hE.npages]; exact hfb p hpl) hp12 huna hins
              refine ⟨hr0.symm, Nat.lt_of_not_ge hlt, p, xs, l', lab', pt, hlx, hhead, hl', ht',
                hext, hnew, hsub', by rw [hn', hE.npages],
                EnvFrame.trans hE (envFrame_page_insert hins), hlk', ?_, ?_, ?_, ?_, ?_, hfl',
                hlf', ?_, ?_⟩
              · rw [hentry, Nat.lor_assoc]
                have e : (perm ||| PTE_U ||| PTE_P) ||| PTE_P = perm ||| PTE_U ||| PTE_P := by
                  rw [Nat.lor_assoc (perm ||| PTE_U), Nat.or_self]
                rw [e]
                exact entry_flags p _ hp12
              · intro g hg
                have hgp : g ≠ p := fun e => hg (e ▸ hpl)
                rw [hpg g (fun hc => hg (hsub g hc)) hgp, hpages, Function.update_noteq hgp]
              · rw [hpf, hpages]
                simp only [Function.update_same]
                rw [hl.2.2.1 p hpl]
              · intro g j hg hlg
                rw [hmem' g j (fun hc => hg (hsub g hc)) hlg]
                exact hmemne g j (fun e => hg (e ▸ hpl))
              · intro j
                rw [hmem' p j hpxs hlf', hmem]
                simp
              · rw [hlx]
                simp only [List.length_cons]
                omega
              · intro va' hv hne
                obtain ⟨h1, h2⟩ := hoth va' hv hne
                have hsame : page_lookup sa root va' = page_lookup st root va' :=
                  page_lookup_congr hE.npages root va' (hcells va' hv)
                refine ⟨by rw [h1, hsame], ?_⟩
                intro q slot hq
                rw [h2 q slot (by rw [hsame]; exact hq)]
                exact hcells va' hv slot (walk_cells_mapped hq).1
/-- Inserting at an address that maps frame `g`: the walk allocates nothing,
`g` is released after `pp` was counted, and the leaf entry is rewritten. -/
theorem page_insert_replace {st : Kernel} {root va pp g perm : Nat} {slot : Nat × Nat}
    (hlook : page_lookup st root va = some (some (g, slot))) :
    page_insert st root pp va perm =
      (page_decref (incref st pp) g).map (fun s3 =>
        ((0 : Int), (s3.write slot.1 slot.2 0).write slot.1 slot.2
          (page2pa pp ||| sext64 perm ||| PTE_P))) := by
  obtain ⟨pt, i⟩ := slot
  have hl := hlook
  unfold page_lookup at hl
  split at hl
  · cases hl
  · cases hl
  · rename_i s1 pt1 i1 hw
    obtain ⟨e1, ei, a, b, p1, p2, p3⟩ := pml4e_walk_false_some hw
    subst e1
    split at hl
    · rename_i hpres
      simp only [Option.map_eq_some'] at hl
      obtain ⟨q, hq, he⟩ := hl
      simp only [Option.some.injEq, Prod.mk.injEq] at he
      obtain ⟨rfl, rfl, rfl⟩ := he
      have hlook2 : page_lookup (incref s1 pp) root va = some (some (q, (pt1, i1))) := by
        rw [← hlook]
        unfold page_lookup
        rw [pml4e_walk_of_path false p1 p2 p3]
        have : pml4e_walk (incref s1 pp) root va false =
            some (incref s1 pp, some (pt1, PTX va)) := pml4e_walk_of_path false p1 p2 p3
        rw [this]
        rfl
      unfold page_insert
      rw [pml4e_walk_of_path true p1 p2 p3, ← ei]
      simp only
      have hp2 : present ((incref s1 pp).mem pt1 i1) = true := hpres
      rw [if_pos hp2]
      unfold page_remove
      rw [hlook2]
      simp only
      cases page_decref (incref s1 pp) q with
      | none => rfl
      | some s3 => rfl
    · cases hl
/-- Rewriting the leaf entry of a mapped address of a tree: the tables are
the same tree, and every other page is mapped as before. -/
theorem tree_rewrite_leaf {s s2 : Kernel} {l l2 : List Nat} {root va g v : Nat}
    {slot : Nat × Nat} {lab : Nat → Option (List Nat)}
    (hl : PageList s l) (hnp : s.npages ≤ 2 ^ 52) (hfb : ∀ f, f ∈ l → f < s.npages)
    (ht : TableTree s l root lab) (hva : UserPath (table_path va))
    (hmap : page_lookup s root va = some (some (g, slot)))
    (hn2 : s2.npages = s.npages)
    (hm2 : ∀ f j, s2.mem f j = if (f, j) = slot then v else s.mem f j)
    (hfree : ∀ t q, lab t = some q → t ∉ l2) :
    TableTree s2 l2 root lab ∧ lab slot.1 = some (table_path va) ∧
    ∀ va', UserPath (table_path va') → (table_path va', PTX va') ≠ (table_path va, PTX va) →
      page_lookup s2 root va' = page_lookup s root va' ∧
      ∀ q slot', page_lookup s root va' = some (some (q, slot')) →
        s2.mem slot'.1 slot'.2 = s.mem slot'.1 slot'.2 := by
  obtain ⟨pt, hs, hlf, _, _, _⟩ := page_lookup_some hmap
  subst hs
  have hu : UserPath ([] ++ table_path va) := by simpa using hva
  have hlpt : lab pt = some (table_path va) := by
    have := (tree_leaf ht (table_path va) [] root ht.root_lab
      (by simp [table_path_length]) hu).2 pt hlf
    simpa using this
  refine ⟨?_, hlpt, ?_⟩
  · refine tableTree_congr ht hn2 ?_ hfree
    intro t q j hq hlen
    rw [hm2, if_neg]
    intro e
    have e1 : t = pt := congrArg Prod.fst e
    rw [e1, hlpt] at hq
    simp only [Option.some.injEq] at hq
    rw [← hq, table_path_length] at hlen
    omega
  · obtain ⟨_, _, _, _, _, _, _, _, _, _, _, _, _, _, _, hoth⟩ :=
      tree_walk_write hl hnp hfb ht hva (pml4e_walk_true_of_leaf hlf) hn2 hm2
    intro va' hva' hne
    have hu' : UserPath ([] ++ table_path va') := by simpa using hva'
    exact page_lookup_of_leaf hn2 (hoth va' hva' hne)
      (tree_leaf ht (table_path va') [] root ht.root_lab (by simp [table_path_length]) hu').1
/-- Releasing the frame mapped at an address of a tree and rewriting the
leaf entry: the frame's count goes down by one (it joins the free list at
zero), the tables are the same tree, and other pages are mapped as before. -/
theorem tree_release_leaf {s s3 s2 : Kernel} {l : List Nat} {root va g v : Nat}
    {slot : Nat × Nat} {lab : Nat → Option (List Nat)}
    (hl : PageList s l) (hnp : s.npages ≤ 2 ^ 52) (hfb : ∀ f, f ∈ l → f < s.npages)
    (ht : TableTree s l root lab) (hva : UserPath (table_path va))
    (hmap : page_lookup s root va = some (some (g, slot)))
    (hg : g ∉ l) (hlg : lab g = none)
    (hdec : page_decref s g = some s3)
    (hn : s2.npages = s3.npages) (hp : s2.pages = s3.pages)
    (hfl : s2.page_free_list = s3.page_free_list)
    (hm : ∀ f j, s2.mem f j = if (f, j) = slot then v else s3.mem f j) :
    ∃ l2, PageList s2 l2 ∧ (∀ x, x ∈ l2 → x ∈ l ∨ x = g) ∧ (∀ x, x ∈ l → x ∈ l2) ∧
      (∀ x, x ∈ l2 → x < s2.npages) ∧
      TableTree s2 l2 root lab ∧ s2.npages = s.npages ∧
      (∀ f j, s2.mem f j = if (f, j) = slot then v else s.mem f j) ∧
      (s2.pages g).pp_ref = (65535 + (s.pages g).pp_ref) % 65536 ∧
      (∀ x, x ≠ g → s2.pages x = s.pages x) ∧
      lab slot.1 = some (table_path va) ∧
      ∀ va', UserPath (table_path va') → (table_path va', PTX va') ≠ (table_path va, PTX va) →
        page_lookup s2 root va' = page_lookup s root va' ∧
        ∀ q slot', page_lookup s root va' = some (some (q, slot')) →
          s2.mem slot'.1 slot'.2 = s.mem slot'.1 slot'.2 := by
  obtain ⟨hmem3, hn3, href3, hoth3⟩ := page_decref_effect hdec
  obtain ⟨hc0, hc1⟩ := pageList_page_decref_cases hl hg hdec
  obtain ⟨_, _, _, _, _, hgn⟩ := page_lookup_some hmap
  have hm2 : ∀ f j, s2.mem f j = if (f, j) = slot then v else s.mem f j := by
    intro f j
    rw [hm, hmem3]
  have hn2 : s2.npages = s.npages := hn.trans hn3
  have key : ∀ l2, PageList s3 l2 → (∀ x, x ∈ l2 → x ∈ l ∨ x = g) → (∀ x, x ∈ l → x ∈ l2) →
      ∃ l2, PageList s2 l2 ∧ (∀ x, x ∈ l2 → x ∈ l ∨ x = g) ∧ (∀ x, x ∈ l → x ∈ l2) ∧
      (∀ x, x ∈ l2 → x < s2.npages) ∧
      TableTree s2 l2 root lab ∧ s2.npages = s.npages ∧
      (∀ f j, s2.mem f j = if (f, j) = slot then v else s.mem f j) ∧
      (s2.pages g).pp_ref = (65535 + (s.pages g).pp_ref) % 65536 ∧
      (∀ x, x ≠ g → s2.pages x = s.pages x) ∧
      lab slot.1 = some (table_path va) ∧
      ∀ va', UserPath (table_path va') → (table_path va', PTX va') ≠ (table_path va, PTX va) →
        page_lookup s2 root va' = page_lookup s root va' ∧
        ∀ q slot', page_lookup s root va' = some (some (q, slot')) →
          s2.mem slot'.1 slot'.2 = s.mem slot'.1 slot'.2 := by
    intro l2 hl2 hsub hsup
    have hfree : ∀ t q, lab t = some q → t ∉ l2 := by
      intro t q hq hc
      rcases hsub t hc with h1 | h1
      · exact ht.notfree t q hq h1
      · rw [h1, hlg] at hq
        cases hq
    obtain ⟨ht2, hls, hoth⟩ := tree_rewrite_leaf hl hnp hfb ht hva hmap hn2 hm2 hfree
    refine ⟨l2, pageList_congr hp hfl hl2, hsub, hsup, ?_, ht2, hn2, hm2, ?_, ?_, hls, hoth⟩
    · intro x hx
      rw [hn2]
      rcases hsub x hx with h1 | h1
      · exact hfb x h1
      · rw [h1]; exact hgn
    · rw [hp]; exact href3
    · intro x hx
      rw [hp]; exact hoth3 x hx
  by_cases h0 : (s3.pages g).pp_ref = 0
  · exact key (g :: l) (hc0 h0)
      (fun x hx => by
        rcases List.mem_cons.mp hx with h1 | h1
        · exact Or.inr h1
        · exact Or.inl h1)
      (fun x hx => List.mem_cons_of_mem _ hx)
  · exact key l (hc1 h0) (fun x hx => Or.inl hx) (fun x hx => hx)
/-- The converse of `sys_page_map_ok`: when the checks pass and the insert
succeeds, `sys_page_map` returns 0 with the state of the insert. -/
theorem sys_page_map_run {lg : Nat} {st st' : Kernel}
    {cpu srcenvid srcva dstenvid dstva perm srcenv dstenv srcroot dstroot p : Nat}
    {slot : Nat × Nat}
    (hsrc : envid2env lg st cpu srcenvid true = some (0, some srcenv))
    (hdst : envid2env lg st cpu dstenvid true = some (0, some dstenv))
    (hsroot : (st.envs srcenv).env_pml4e = some srcroot)
    (hdroot : (st.envs dstenv).env_pml4e = some dstroot)
    (ha1 : srcva % PGSIZE = 0) (ha2 : dstva % PGSIZE = 0) (hb1 : srcva < UTOP) (hb2 : dstva < UTOP)
    (hp1 : perm &&& (2 ^ 32 - 1 - PTE_SYSCALL) = 0)
    (hp2 : perm &&& (PTE_U ||| PTE_P) = PTE_U ||| PTE_P)
    (hlook : page_lookup st srcroot srcva = some (some (p, slot)))
    (hw : ¬ (perm &&& PTE_W ≠ 0 ∧ st.mem slot.1 slot.2 &&& PTE_W = 0))
    (hins : page_insert st dstroot p dstva perm = some (0, st')) :
    sys_page_map lg st cpu srcenvid srcva dstenvid dstva perm = some (0, st') := by
  obtain ⟨pt, i⟩ := slot
  unfold sys_page_map
  simp only [hsrc, hdst]
  rw [if_neg (by decide), if_neg (by decide), if_neg (by omega), if_neg (by omega),
    if_neg (not_not.mpr hp1), if_neg (not_not.mpr hp2)]
  simp only [hsroot, hlook, hdroot]
  rw [if_neg hw, hins]
  simp

/-- Moving a mapping inside one address space onto an address that maps
another frame `f`: the target then maps `p`, `f` is released, and the other
pages are mapped as before. -/
theorem sys_page_map_replace {lg : Nat} {st st' : Kernel}
    {cpu envid sva dva perm env root p f : Nat} {sslot dslot : Nat × Nat}
    {l : List Nat} {lab : Nat → Option (List Nat)}
    (henv : envid2env lg st cpu envid true = some (0, some env))
    (hroot : (st.envs env).env_pml4e = some root)
    (hl : PageList st l) (hnp : st.npages ≤ 2 ^ 52) (hfb : ∀ g, g ∈ l → g < st.npages)
    (ht : TableTree st l root lab)
    (hsrc : page_lookup st root sva = some (some (p, sslot)))
    (hdst : page_lookup st root dva = some (some (f, dslot)))
    (hpf : p ≠ f) (hfl : f ∉ l) (hpl : p ∉ l) (hlf : lab f = none)
    (hperm : perm < 2 ^ 32)
    (h : sys_page_map lg st cpu envid sva envid dva perm = some (0, st')) :
    ∃ l2, PageList st' l2 ∧ (∀ x, x ∈ l2 → x ∈ l ∨ x = f) ∧ (∀ x, x ∈ l → x ∈ l2) ∧
      (∀ x, x ∈ l2 → x < st'.npages) ∧
      TableTree st' l2 root lab ∧ st'.npages = st.npages ∧ EnvFrame st st' ∧
      page_lookup st' root dva = some (some (p, dslot)) ∧
      st'.mem dslot.1 dslot.2 &&& 0xFFF = perm ∧
      (∀ g j, (g, j) ≠ dslot → st'.mem g j = st.mem g j) ∧
      (st'.pages p).pp_ref = ((st.pages p).pp_ref + 1) % 65536 ∧
      (st'.pages f).pp_ref = (65535 + (st.pages f).pp_ref) % 65536 ∧
      (∀ x, x ≠ p → x ≠ f → st'.pages x = st.pages x) ∧
      lab dslot.1 = some (table_path dva) ∧
      ∀ va', UserPath (table_path va') → (table_path va', PTX va') ≠ (table_path dva, PTX dva) →
        page_lookup st' root va' = page_lookup st root va' ∧
        ∀ q slot', page_lookup st root va' = some (some (q, slot')) →
          st'.mem slot'.1 slot'.2 = st.mem slot'.1 slot'.2 := by
  obtain ⟨_, _, _, hlt, hp1, hp2, p', pts, is, hlook, _, hins⟩ :=
    sys_page_map_ok henv henv hroot hroot h
  rw [hsrc] at hlook
  simp only [Option.some.injEq, Prod.mk.injEq] at hlook
  obtain ⟨rfl, _⟩ := hlook
  have hp12 : perm < 2 ^ 12 := perm_syscall_bound perm hperm hp1
  have hva : UserPath (table_path dva) := userPath_table_path dva (lt_trans hlt (by decide))
  obtain ⟨_, _, _, _, _, hpn⟩ := page_lookup_some hsrc
  have hli : PageList (incref st p) l := pageList_incref p hl hpl
  have hti : TableTree (incref st p) l root lab :=
    tableTree_congr ht rfl (fun _ _ _ _ _ => rfl) ht.notfree
  have hlki : ∀ va', page_lookup (incref st p) root va' = page_lookup st root va' :=
    fun va' => @page_lookup_congr st (incref st p) rfl root va' (fun _ _ => rfl)
  rw [page_insert_replace hdst] at hins
  cases hdec : page_decref (incref st p) f with
  | none => rw [hdec] at hins; cases hins
  | some s3 =>
    rw [hdec] at hins
    simp only [Option.map_some', Option.some.injEq, Prod.mk.injEq, true_and] at hins
    have hm : ∀ g j, st'.mem g j =
        if (g, j) = dslot then page2pa p ||| sext64 perm ||| PTE_P else s3.mem g j := by
      intro g j
      rw [← hins, write_mem_cell]
      by_cases hc : (g, j) = (dslot.1, dslot.2)
      · rw [if_pos hc, if_pos hc]
      · rw [if_neg hc, if_neg hc, write_mem_cell, if_neg hc]
    have hE : EnvFrame st st' := by
      rw [← hins]
      exact ((envFrame_incref st p).trans (envFrame_page_decref hdec)).trans
        ((envFrame_write _ _ _ _).trans (envFrame_write _ _ _ _))
    obtain ⟨l2, hl2, hsub, hsup, hb2, ht2, hn2, hm2, hrf, hoth, hls, holk⟩ :=
      tree_release_leaf hli hnp hfb hti hva (by rw [hlki]; exact hdst) hfl hlf hdec
        (by rw [← hins]; rfl) (by rw [← hins]; rfl) (by rw [← hins]; rfl) hm
    have hent : page2pa p ||| sext64 perm ||| PTE_P = page2pa p ||| perm := by
      rw [sext64_small perm hp12, Nat.lor_assoc, perm_has_present perm hp2]
    rw [hent] at hm2
    have hnd := (tree_walk_cells ht dva hva).2
    have hmst : ∀ g j, st'.mem g j = if (g, j) = dslot then page2pa p ||| perm else st.mem g j :=
      hm2
    have hpres : perm &&& PTE_P ≠ 0 := by
      intro hc
      have e : perm &&& PTE_P = (perm &&& (PTE_U ||| PTE_P)) &&& PTE_P := by
        rw [Nat.land_assoc]
        rfl
      rw [e, hp2] at hc
      exact absurd hc (by decide)
    refine ⟨l2, hl2, hsub, hsup, hb2, ht2, hn2, hE,
      (page_lookup_rewrite hdst hnd hn2 hnp hpn hp12 hpres hmst).1, ?_, ?_, ?_, ?_, ?_, hls, ?_⟩
    · rw [hmst, if_pos rfl]
      exact entry_flags p perm hp12
    · intro g j hne
      rw [hmst, if_neg hne]
    · rw [hoth p hpf]
      simp [incref]
    · rw [hrf]
      simp [incref, Function.update_noteq (Ne.symm hpf)]
    · intro x hxp hxf
      rw [hoth x hxf]
      simp [incref, Function.update_noteq hxp]
    · intro va' hv hne
      obtain ⟨h1, h2⟩ := holk va' hv hne
      refine ⟨by rw [h1, hlki], ?_⟩
      intro q slot' hq
      exact h2 q slot' (by rw [hlki]; exact hq)
/-- Unmapping a mapped page of a tree: its frame is released, the address
maps nothing, and the other pages are mapped as before. -/
theorem sys_page_unmap_mapped {lg : Nat} {st st' : Kernel} {cpu envid va env root p : Nat}
    {slot : Nat × Nat} {l : List Nat} {lab : Nat → Option (List Nat)} {r : Int}
    (henv : envid2env lg st cpu envid true = some (0, some env))
    (hroot : (st.envs env).env_pml4e = some root)
    (hl : PageList st l) (hnp : st.npages ≤ 2 ^ 52) (hfb : ∀ g, g ∈ l → g < st.npages)
    (ht : TableTree st l root lab)
    (hmap : page_lookup st root va = some (some (p, slot)))
    (hpl : p ∉ l) (hlp : lab p = none)
    (h : sys_page_unmap lg st cpu envid va = some (r, st')) (hr : ¬ r < 0) :
    r = 0 ∧ ∃ l2, PageList st' l2 ∧ (∀ x, x ∈ l2 → x ∈ l ∨ x = p) ∧ (∀ x, x ∈ l → x ∈ l2) ∧
      (∀ x, x ∈ l2 → x < st'.npages) ∧
      TableTree st' l2 root lab ∧ st'.npages = st.npages ∧ EnvFrame st st' ∧
      page_lookup st' root va = some none ∧
      (∀ g j, (g, j) ≠ slot → st'.mem g j = st.mem g j) ∧
      (st'.pages p).pp_ref = (65535 + (st.pages p).pp_ref) % 65536 ∧
      (∀ x, x ≠ p → st'.pages x = st.pages x) ∧
      ∀ va', UserPath (table_path va') → (table_path va', PTX va') ≠ (table_path va, PTX va) →
        page_lookup st' root va' = page_lookup st root va' ∧
        ∀ q slot', page_lookup st root va' = some (some (q, slot')) →
          st'.mem slot'.1 slot'.2 = st.mem slot'.1 slot'.2 := by
  have hneg : ∀ (e : Int) (s : Kernel), e < 0 → some (e, s) = some (r, st') → False := by
    intro e s he heq
    simp only [Option.some.injEq, Prod.mk.injEq] at heq
    omega
  unfold sys_page_unmap at h
  rw [henv] at h
  simp only [lt_self_iff_false, if_false] at h
  split at h
  · exact absurd h (fun h => hneg _ _ (by decide) h)
  · split at h
    · exact absurd h (fun h => hneg _ _ (by decide) h)
    · rename_i hlt
      rw [hroot] at h
      simp only at h
      cases hrm : page_remove st root va with
      | none => rw [hrm] at h; cases h
      | some s =>
        rw [hrm] at h
        simp only [Option.map_some', Option.some.injEq, Prod.mk.injEq] at h
        obtain ⟨hr0, hst⟩ := h
        subst hst
        have hva : UserPath (table_path va) :=
          userPath_table_path va (lt_trans (Nat.lt_of_not_ge hlt) (by decide))
        have hun := page_remove_unmaps hrm
        have hE := envFrame_page_remove hrm
        unfold page_remove at hrm
        rw [hmap] at hrm
        simp only at hrm
        cases hdec : page_decref st p with
        | none => rw [hdec] at hrm; cases hrm
        | some s3 =>
          rw [hdec] at hrm
          simp only [Option.some.injEq] at hrm
          have hm : ∀ g j, s.mem g j = if (g, j) = slot then 0 else s3.mem g j := by
            intro g j
            rw [← hrm, write_mem_cell]
          obtain ⟨l2, hl2, hsub, hsup, hb2, ht2, hn2, hm2, hrf, hoth, hls, holk⟩ :=
            tree_release_leaf hl hnp hfb ht hva hmap hpl hlp hdec
              (by rw [← hrm]; rfl) (by rw [← hrm]; rfl) (by rw [← hrm]; rfl) hm
          refine ⟨hr0.symm, l2, hl2, hsub, hsup, hb2, ht2, hn2, hE, hun, ?_, hrf, hoth, holk⟩
          intro g j hne
          rw [hm2, if_neg hne]

/-- With four free frames, `sys_page_alloc` at a page-aligned address below
`UTOP` that maps nothing, in an address space whose tables form a tree,
returns 0. -/
theorem sys_page_alloc_total {lg : Nat} {st : Kernel} {cpu envid va perm env root : Nat}
    {l : List Nat} {lab : Nat → Option (List Nat)}
    (henv : envid2env lg st cpu envid true = some (0, some env))
    (hroot : (st.envs env).env_pml4e = some root)
    (hl : PageList st l) (hnp : st.npages ≤ 2 ^ 52) (hfb : ∀ g, g ∈ l → g < st.npages)
    (ht : TableTree st l root lab)
    (hun : page_lookup st root va = some none)
    (ha : va &&& 0xFFF = 0) (hb : va < UTOP)
    (hperm : (perm &&& 0xFFF) &&& (2 ^ 32 - 1 - PTE_SYSCALL) = 0)
    (hfree : 4 ≤ l.length) :
    ∃ st1, sys_page_alloc lg st cpu envid va perm = some (0, st1) := by
  cases l with
  | nil => simp at hfree
  | cons p xs =>
    have hhead : st.page_free_list = some p := hl.1.1
    have hpa := page_alloc_zero_some st p hhead
    have hE : EnvFrame st (page_alloc st ALLOC_ZERO).1 := envFrame_page_alloc st ALLOC_ZERO
    have hlxs : PageList (page_alloc st ALLOC_ZERO).1 xs := by
      rcases pageList_page_alloc ALLOC_ZERO hl with ⟨h1, _, _⟩ | ⟨p', xs', h1, _, h3⟩
      · cases h1
      · simp only [List.cons.injEq] at h1
        rw [h1.2]
        exact h3
    have hpl : p ∈ p :: xs := List.mem_cons_self _ _
    have hsub : ∀ g, g ∈ xs → g ∈ p :: xs := fun g hg => List.mem_cons_of_mem _ hg
    have hmemne : ∀ g j, g ≠ p → (page_alloc st ALLOC_ZERO).1.mem g j = st.mem g j := by
      intro g j hg
      rw [hpa]
      simp only [Function.update_noteq hg]
    have hta : TableTree (page_alloc st ALLOC_ZERO).1 xs root lab :=
      tableTree_congr ht hE.npages
        (fun t q j hq _ => hmemne t j (fun e => ht.notfree t q hq (e ▸ hpl)))
        (fun t q hq hc => ht.notfree t q hq (hsub t hc))
    have hva : UserPath (table_path va) := userPath_table_path va (lt_trans hb (by decide))
    have huna : page_lookup (page_alloc st ALLOC_ZERO).1 root va = some none := by
      rw [page_lookup_congr hE.npages root va (fun c hc =>
        hmemne _ _ (fun e => (tree_walk_cells ht va hva).1 c hc (e ▸ hpl)))]
      exact hun
    obtain ⟨s', hs'⟩ := tree_page_insert_total p (perm ||| PTE_U ||| PTE_P) hlxs
      (by rw [hE.npages]; exact hnp) (fun g hg => by rw [hE.npages]; exact hfb g (hsub g hg))
      hta hva huna (by simp only [List.length_cons] at hfree; omega)
    refine ⟨s', ?_⟩
    unfold sys_page_alloc
    rw [henv]
    simp only [lt_self_iff_false, if_false]
    rw [if_neg (not_not.mpr ha), if_neg (by omega), if_neg (not_not.mpr hperm)]
    have hsplit : page_alloc st ALLOC_ZERO = ((page_alloc st ALLOC_ZERO).1, some p) := by
      rw [hpa]
    rw [hsplit]
    simp only
    rw [hE.envs, hroot]
    simp only
    rw [hs']
    simp

/-- Moving a mapping onto an address that maps another frame succeeds when
the checks of `sys_page_map` pass. -/
theorem sys_page_map_replace_total {lg : Nat} {st : Kernel}
    {cpu envid sva dva perm env root p f : Nat} {sslot dslot : Nat × Nat} {l : List Nat}
    (henv : envid2env lg st cpu envid true = some (0, some env))
    (hroot : (st.envs env).env_pml4e = some root)
    (hl : PageList st l)
    (hsrc : page_lookup st root sva = some (some (p, sslot)))
    (hdst : page_lookup st root dva = some (some (f, dslot)))
    (hpf : p ≠ f) (hfl : f ∉ l)
    (ha1 : sva % PGSIZE = 0) (ha2 : dva % PGSIZE = 0) (hb1 : sva < UTOP) (hb2 : dva < UTOP)
    (hp1 : perm &&& (2 ^ 32 - 1 - PTE_SYSCALL) = 0)
    (hp2 : perm &&& (PTE_U ||| PTE_P) = PTE_U ||| PTE_P)
    (hw : ¬ (perm &&& PTE_W ≠ 0 ∧ st.mem sslot.1 sslot.2 &&& PTE_W = 0)) :
    ∃ st', sys_page_map lg st cpu envid sva envid dva perm = some (0, st') := by
  have hlink : ((incref st p).pages f).pp_link = none := by
    simp only [incref, setPage_pages, Function.update_noteq (Ne.symm hpf)]
    exact hl.2.2.2 f hfl
  obtain ⟨s3, hdec⟩ := page_decref_total (incref st p) f hlink
  refine ⟨(s3.write dslot.1 dslot.2 0).write dslot.1 dslot.2
    (page2pa p ||| sext64 perm ||| PTE_P),
    sys_page_map_run henv henv hroot hroot ha1 ha2 hb1 hb2 hp1 hp2 hsrc hw ?_⟩
  rw [page_insert_replace hdst, hdec]
  rfl

/-- Unmapping a mapped page whose frame is not free returns 0. -/
theorem sys_page_unmap_total {lg : Nat} {st : Kernel} {cpu envid va env root p : Nat}
    {slot : Nat × Nat} {l : List Nat}
    (henv : envid2env lg st cpu envid true = some (0, some env))
    (hroot : (st.envs env).env_pml4e = some root)
    (hl : PageList st l)
    (hmap : page_lookup st root va = some (some (p, slot)))
    (hpl : p ∉ l) (ha : va % PGSIZE = 0) (hb : va < UTOP) :
    ∃ st', sys_page_unmap lg st cpu envid va = some (0, st') := by
  obtain ⟨s3, hdec⟩ := page_decref_total st p (hl.2.2.2 p hpl)
  refine ⟨s3.write slot.1 slot.2 0, ?_⟩
  unfold sys_page_unmap
  rw [henv]
  simp only [lt_self_iff_false, if_false]
  rw [if_neg (not_not.mpr ha), if_neg (by omega), hroot]
  simp only
  unfold page_remove
  rw [hmap]
  simp only
  rw [hdec]
  rfl
theorem page_lookup_indices (st : Kernel) (root : Nat) {va va' : Nat}
    (h1 : table_path va = table_path va') (h2 : PTX va = PTX va') :
    page_lookup st root va = page_lookup st root va' := by
  have e : [PML4X va, PDPX va, PDX va] = [PML4X va', PDPX va', PDX va'] := h1
  unfold page_lookup
  rw [pml4e_walk_eq, pml4e_walk_eq, e, h2]

theorem PGNUM_shift (addr : Nat) : PGNUM addr <<< PGSHIFT = ROUNDDOWN addr PGSIZE := by
  unfold PGNUM ROUNDDOWN PGSHIFT PGSIZE
  rw [Nat.shiftLeft_eq, Nat.shiftRight_eq_div_pow]
  have := Nat.div_add_mod addr 4096
  norm_num
  omega

theorem ROUNDDOWN_aligned (addr : Nat) : ROUNDDOWN addr PGSIZE % PGSIZE = 0 := by
  unfold ROUNDDOWN PGSIZE
  have := Nat.div_add_mod addr 4096
  omega

theorem length_le_of_nodup_subset {l1 l2 : List Nat} (hn : l1.Nodup)
    (hs : ∀ x, x ∈ l1 → x ∈ l2) : l1.length ≤ l2.length :=
  (List.Nodup.subperm hn hs).length_le
/-- The tables read by the lookup of an address of the first three
gigabytes are tables of the tree. -/
theorem tree_walk_lab {st : Kernel} {l : List Nat} {root : Nat} {lab : Nat → Option (List Nat)}
    (ht : TableTree st l root lab) {va : Nat} (hva : UserPath (table_path va))
    {c : Nat × Nat} (hc : c ∈ walk_cells st root va) : lab c.1 ≠ none := by
  have hu4 : UserPath ([] ++ [PML4X va, PDPX va, PDX va, PTX va]) := hva
  obtain ⟨k, _, hk⟩ := tree_cells ht [PML4X va, PDPX va, PDX va, PTX va] [] root
    ht.root_lab (by simp) hu4 c hc
  rw [hk]
  simp

theorem user_memmove_page_eq {st : Kernel} {root dst src fs fd : Nat} {ss sd : Nat × Nat}
    (hs : page_lookup st root src = some (some (fs, ss)))
    (hd : page_lookup st root dst = some (some (fd, sd))) :
    user_memmove_page st root dst src =
      some { st with mem := fun g i => if g = fd ∧ i < 512 then st.mem fs i else st.mem g i } := by
  unfold user_memmove_page
  rw [hs, hd]

theorem user_memmove_page_frame {st st' : Kernel} {root dst src : Nat}
    (h : user_memmove_page st root dst src = some st') :
    EnvFrame st st' ∧ st'.pages = st.pages ∧ st'.page_free_list = st.page_free_list := by
  unfold user_memmove_page at h
  split at h
  · simp only [Option.some.injEq] at h
    subst h
    exact ⟨⟨rfl, rfl, rfl, rfl, rfl⟩, rfl, rfl⟩
  · cases h

/-- The effect of `pgfault` when it returns, on an address space whose tables
form a tree, for a fault on a mapped page while `PFTEMP` maps nothing. -/
theorem pgfault_spec {lg : Nat} {st st' : Kernel} {cpu addr err c root f : Nat}
    {slot : Nat × Nat} {l : List Nat} {lab : Nat → Option (List Nat)}
    (hcur : curenv st cpu = some c) (hroot : (st.envs c).env_pml4e = some root)
    (hl : PageList st l) (hnp : st.npages ≤ 2 ^ 52) (hfb : ∀ g, g ∈ l → g < st.npages)
    (ht : TableTree st l root lab)
    (hmap : page_lookup st root (ROUNDDOWN addr PGSIZE) = some (some (f, slot)))
    (hf : f ∉ l) (hlf : lab f = none)
    (hun : page_lookup st root PFTEMP = some none)
    (h : pgfault lg st cpu addr err = some st') :
    err &&& FEC_WR ≠ 0 ∧ st.mem slot.1 slot.2 &&& PTE_COW ≠ 0 ∧
    ∃ p xs l2 lab2, l = p :: xs ∧ st.page_free_list = some p ∧
      PageList st' l2 ∧ (∀ x, x ∈ l2 → x ∈ xs ∨ x = f) ∧ (∀ x, x ∈ l2 → x < st'.npages) ∧
      l.length ≤ l2.length + 4 ∧
      TableTree st' l2 root lab2 ∧ (∀ g q, lab g = some q → lab2 g = some q) ∧
      (∀ g q, lab g = none → lab2 g = some q → g ∈ xs) ∧
      st'.npages = st.npages ∧ EnvFrame st st' ∧
      page_lookup st' root (ROUNDDOWN addr PGSIZE) = some (some (p, slot)) ∧
      st'.mem slot.1 slot.2 &&& 0xFFF = PTE_P ||| PTE_U ||| PTE_W ∧
      (st'.pages p).pp_ref = 1 ∧ lab2 p = none ∧
      (∀ i, i < 512 → st'.mem p i = st.mem f i) ∧
      page_lookup st' root PFTEMP = some none ∧
      (st'.pages f).pp_ref = (65535 + (st.pages f).pp_ref) % 65536 ∧
      (∀ x, x ∉ l → x ≠ f → st'.pages x = st.pages x) ∧
      (∀ g j, g ∉ l → lab g = none → st'.mem g j = st.mem g j) ∧
      ∀ va', UserPath (table_path va') →
        (table_path va', PTX va') ≠
          (table_path (ROUNDDOWN addr PGSIZE), PTX (ROUNDDOWN addr PGSIZE)) →
        (table_path va', PTX va') ≠ (table_path PFTEMP, PTX PFTEMP) →
        page_lookup st' root va' = page_lookup st root va' := by
  have henv : envid2env lg st cpu 0 true = some (0, some c) := by
    unfold envid2env
    rw [if_pos rfl, hcur]
  have hmap' : page_lookup st root (PGNUM addr <<< PGSHIFT) = some (some (f, slot)) := by
    rw [PGNUM_shift]
    exact hmap
  unfold pgfault at h
  split at h
  · cases h
  rename_i herr
  simp only [hcur, hroot, uvpt_of_lookup hmap'] at h
  split at h
  · cases h
  rename_i hcow
  generalize ROUNDDOWN addr PGSIZE = pg at hmap h ⊢
  cases h1 : sys_page_alloc lg st cpu 0 PFTEMP (PTE_P ||| PTE_U ||| PTE_W) with
  | none => rw [h1] at h; cases h
  | some r1 =>
  obtain ⟨e1, st1⟩ := r1
  rw [h1] at h
  simp only at h
  by_cases hneg1 : e1 < 0
  · rw [if_pos hneg1] at h; cases h
  rw [if_neg hneg1] at h
  obtain ⟨_, hltT, p, xs, l1, lab1, ptT, hlx, hhead, hl1, ht1, hext1, hnew1, hsub1, hn1, hE1,
      hlkT1, hflT1, hpg1, href1, hmem1, hzero1, hpl1, hlp1, hlen1, hoth1⟩ :=
    sys_page_alloc_fresh henv hroot hl hnp hfb ht hun (by decide) h1 hneg1
  cases h2 : user_memmove_page st1 root PFTEMP pg with
  | none => rw [h2] at h; cases h
  | some st2 =>
  rw [h2] at h
  simp only at h
  cases h3 : sys_page_map lg st2 cpu 0 PFTEMP 0 pg (PTE_P ||| PTE_U ||| PTE_W) with
  | none => rw [h3] at h; cases h
  | some r3 =>
  obtain ⟨e3, st3⟩ := r3
  rw [h3] at h
  simp only at h
  by_cases hneg3 : e3 < 0
  · rw [if_pos hneg3] at h; cases h
  rw [if_neg hneg3] at h
  have he3 : e3 = 0 := sys_page_map_nonneg h3 hneg3
  subst he3
  cases h4 : sys_page_unmap lg st3 cpu 0 PFTEMP with
  | none => rw [h4] at h; cases h
  | some r4 =>
  obtain ⟨e4, st4⟩ := r4
  rw [h4] at h
  simp only at h
  by_cases hneg4 : e4 < 0
  · rw [if_pos hneg4] at h; cases h
  rw [if_neg hneg4] at h
  simp only [Option.some.injEq] at h
  subst h
  obtain ⟨hE2, hpages2, hfl2⟩ := user_memmove_page_frame h2
  have hn2 : st2.npages = st1.npages := hE2.npages
  have henv2 : envid2env lg st2 cpu 0 true = some (0, some c) := by
    rw [envid2env_frame (hE1.trans hE2)]
    exact henv
  have hroot2 : (st2.envs c).env_pml4e = some root := by
    rw [(hE1.trans hE2).envs]
    exact hroot
  obtain ⟨_, _, _, hltpg, _, _, _⟩ := sys_page_map_ok henv2 henv2 hroot2 hroot2 h3
  have hvapg : UserPath (table_path pg) := userPath_table_path pg (lt_trans hltpg (by decide))
  have hvaT : UserPath (table_path PFTEMP) := userPath_table_path PFTEMP (by decide)
  have hne : (table_path pg, PTX pg) ≠ (table_path PFTEMP, PTX PFTEMP) := by
    intro e
    simp only [Prod.mk.injEq] at e
    have := page_lookup_indices st root e.1 e.2
    rw [hmap, hun] at this
    cases this
  obtain ⟨hlkpg1, hslot1⟩ := hoth1 pg hvapg hne
  rw [hmap] at hlkpg1
  rw [user_memmove_page_eq hlkpg1 hlkT1] at h2
  have hst2 : st2 =
      { st1 with mem := fun g i => if g = p ∧ i < 512 then st1.mem f i else st1.mem g i } :=
    (Option.some.inj h2).symm
  have hpl : p ∈ l := by rw [hlx]; simp
  have hxs : ∀ x, x ∈ xs → x ∈ l := fun x hx => by rw [hlx]; exact List.mem_cons_of_mem _ hx
  have hpf : p ≠ f := fun e => hf (e ▸ hpl)
  have hlf1 : lab1 f = none := by
    cases hq : lab1 f with
    | none => rfl
    | some q => exact absurd (hxs f (hnew1 f q hlf hq).1) hf
  have hfl1 : f ∉ l1 := fun hc => hf (hxs f (hsub1 f hc))
  have hmem2 : ∀ g j, g ≠ p → st2.mem g j = st1.mem g j := by
    intro g j hg
    rw [hst2]
    show (if g = p ∧ j < 512 then st1.mem f j else st1.mem g j) = st1.mem g j
    rw [if_neg (fun hc => hg hc.1)]
  have hlabne : ∀ g, lab1 g ≠ none → g ≠ p := by
    intro g hg e
    rw [e, hlp1] at hg
    exact hg rfl
  have ht2 : TableTree st2 l1 root lab1 :=
    tableTree_congr ht1 hn2
      (fun t q j hq _ => hmem2 t j (hlabne t (by rw [hq]; simp))) ht1.notfree
  have hl2 : PageList st2 l1 := pageList_congr hpages2 hfl2 hl1
  have hlk2 : ∀ va', UserPath (table_path va') →
      page_lookup st2 root va' = page_lookup st1 root va' := by
    intro va' hv
    exact page_lookup_congr hn2 root va'
      (fun x hx => hmem2 _ _ (hlabne _ (tree_walk_lab ht1 hv hx)))
  have hnp2 : st2.npages ≤ 2 ^ 52 := by rw [hn2, hn1]; exact hnp
  have hfb2 : ∀ g, g ∈ l1 → g < st2.npages := by
    intro g hg
    rw [hn2, hn1]
    exact hfb g (hxs g (hsub1 g hg))
  have hlkT2 : page_lookup st2 root PFTEMP = some (some (p, (ptT, PTX PFTEMP))) := by
    rw [hlk2 PFTEMP hvaT]
    exact hlkT1
  have hlkpg2 : page_lookup st2 root pg = some (some (f, slot)) := by
    rw [hlk2 pg hvapg]
    exact hlkpg1
  obtain ⟨l3, hl3, hsub3, hsup3, hb3, ht3, hn3, hE3, hlk3, hflg3, hmem3, hrp3, hrf3, hoth3, hls3,
      holk3⟩ :=
    sys_page_map_replace henv2 hroot2 hl2 hnp2 hfb2 ht2 hlkT2 hlkpg2 hpf hfl1 hpl1 hlf1
      (by decide) h3
  have hneT : (table_path PFTEMP, PTX PFTEMP) ≠ (table_path pg, PTX pg) := fun e => hne e.symm
  have hlkT3 : page_lookup st3 root PFTEMP = some (some (p, (ptT, PTX PFTEMP))) := by
    rw [(holk3 PFTEMP hvaT hneT).1]
    exact hlkT2
  have henv3 : envid2env lg st3 cpu 0 true = some (0, some c) := by
    rw [envid2env_frame hE3]
    exact henv2
  have hroot3 : (st3.envs c).env_pml4e = some root := by
    rw [hE3.envs]
    exact hroot2
  have hpl3 : p ∉ l3 := by
    intro hc
    rcases hsub3 p hc with h1 | h1
    · exact hpl1 h1
    · exact hpf h1
  obtain ⟨_, l4, hl4, hsub4, hsup4, hb4, ht4, hn4, hE4, hunT4, hmem4, hrp4, hoth4, holk4⟩ :=
    sys_page_unmap_mapped henv3 hroot3 hl3 (by rw [hn3]; exact hnp2) hb3 ht3 hlkT3 hpl3 hlp1
      h4 hneg4
  have hrefp : (st4.pages p).pp_ref = 1 := by
    rw [hrp4, hrp3, hpages2, href1]
  have hpl4 : p ∉ l4 := by
    intro hc
    have := hl4.2.2.1 p hc
    rw [hrefp] at this
    exact absurd this (by decide)
  have hslotlab : lab1 slot.1 ≠ none := by rw [hls3]; simp
  have hslotTlab : lab1 ptT ≠ none :=
    tree_walk_lab ht1 hvaT (walk_cells_mapped hlkT1).1
  have hlab1none : ∀ g, g ∉ l → lab g = none → lab1 g = none := by
    intro g hg hlg
    cases hq : lab1 g with
    | none => rfl
    | some q => exact absurd (hxs g (hnew1 g q hlg hq).1) hg
  have hfar : ∀ g j, lab1 g = none → g ≠ p → st4.mem g j = st1.mem g j := by
    intro g j hg hgp
    rw [hmem4 g j (fun e => hslotTlab (by
        have e1 : g = ptT := congrArg Prod.fst e
        rw [← e1]; exact hg)),
      hmem3 g j (fun e => hslotlab (by
        have e1 : g = slot.1 := congrArg Prod.fst e
        rw [← e1]; exact hg)),
      hmem2 g j hgp]
  refine ⟨herr, hcow, p, xs, l4, lab1, hlx, hhead, hl4, ?_, hb4, ?_, ht4, hext1,
    fun g q hg hq => (hnew1 g q hg hq).1, by rw [hn4, hn3, hn2, hn1],
    ((hE1.trans hE2).trans hE3).trans hE4, ?_, ?_, hrefp, hlp1, ?_, hunT4, ?_, ?_, ?_, ?_⟩
  · intro x hx
    rcases hsub4 x hx with h1 | h1
    · rcases hsub3 x h1 with h2 | h2
      · exact Or.inl (hsub1 x h2)
      · exact Or.inr h2
    · exact absurd hx (h1 ▸ hpl4)
  · have : l1.length ≤ l4.length :=
      length_le_of_nodup_subset hl1.2.1 (fun x hx => hsup4 x (hsup3 x hx))
    omega
  · rw [(holk4 pg hvapg hne).1]
    exact hlk3
  · rw [(holk4 pg hvapg hne).2 p slot hlk3]
    exact hflg3
  · intro i hi
    have e4 : st4.mem p i = st3.mem p i :=
      hmem4 p i (fun e => hslotTlab (by
        have e1 : p = ptT := congrArg Prod.fst e
        rw [← e1]; exact hlp1))
    have e3 : st3.mem p i = st2.mem p i :=
      hmem3 p i (fun e => hslotlab (by
        have e1 : p = slot.1 := congrArg Prod.fst e
        rw [← e1]; exact hlp1))
    have e2 : st2.mem p i = st1.mem f i := by
      rw [hst2]
      show (if p = p ∧ i < 512 then st1.mem f i else st1.mem p i) = st1.mem f i
      rw [if_pos ⟨rfl, hi⟩]
    rw [e4, e3, e2]
    exact hmem1 f i hf hlf1
  · rw [hoth4 f (Ne.symm hpf), hrf3, hpages2, hpg1 f hf]
  · intro x hx hxf
    have hxp : x ≠ p := fun e => hx (e ▸ hpl)
    rw [hoth4 x hxp, hoth3 x hxp hxf, hpages2, hpg1 x hx]
  · intro g j hg hlg
    have hgp : g ≠ p := fun e => hg (e ▸ hpl)
    rw [hfar g j (hlab1none g hg hlg) hgp]
    exact hmem1 g j hg (hlab1none g hg hlg)
  · intro va' hv hn1' hn2'
    rw [(holk4 va' hv hn2').1, (holk3 va' hv hn1').1, hlk2 va' hv, (hoth1 va' hv hn2').1]
/-- With four free frames, `pgfault` returns for a write fault on a mapped
copy-on-write page below `UTOP` while `PFTEMP` maps nothing. -/
theorem pgfault_total {lg : Nat} {st : Kernel} {cpu addr err c root f : Nat}
    {slot : Nat × Nat} {l : List Nat} {lab : Nat → Option (List Nat)}
    (hcur : curenv st cpu = some c) (hroot : (st.envs c).env_pml4e = some root)
    (hl : PageList st l) (hnp : st.npages ≤ 2 ^ 52) (hfb : ∀ g, g ∈ l → g < st.npages)
    (ht : TableTree st l root lab)
    (hmap : page_lookup st root (ROUNDDOWN addr PGSIZE) = some (some (f, slot)))
    (hf : f ∉ l) (hlf : lab f = none)
    (hun : page_lookup st root PFTEMP = some none)
    (herr : err &&& FEC_WR ≠ 0) (hcow : st.mem slot.1 slot.2 &&& PTE_COW ≠ 0)
    (hlt : ROUNDDOWN addr PGSIZE < UTOP) (hfree : 4 ≤ l.length) :
    ∃ st', pgfault lg st cpu addr err = some st' := by
  have henv : envid2env lg st cpu 0 true = some (0, some c) := by
    unfold envid2env
    rw [if_pos rfl, hcur]
  have hmap' : page_lookup st root (PGNUM addr <<< PGSHIFT) = some (some (f, slot)) := by
    rw [PGNUM_shift]
    exact hmap
  have hal := ROUNDDOWN_aligned addr
  unfold pgfault
  rw [if_neg herr]
  simp only [hcur, hroot, uvpt_of_lookup hmap']
  rw [if_neg hcow]
  generalize ROUNDDOWN addr PGSIZE = pg at hmap hlt hal ⊢
  obtain ⟨st1, h1⟩ := @sys_page_alloc_total lg st cpu 0 PFTEMP (PTE_P ||| PTE_U ||| PTE_W) c root
    l lab henv hroot hl hnp hfb ht hun (by decide) (by decide) (by decide) hfree
  obtain ⟨_, hltT, p, xs, l1, lab1, ptT, hlx, hhead, hl1, ht1, hext1, hnew1, hsub1, hn1, hE1,
      hlkT1, hflT1, hpg1, href1, hmem1, hzero1, hpl1, hlp1, hlen1, hoth1⟩ :=
    sys_page_alloc_fresh henv hroot hl hnp hfb ht hun (by decide) h1 (by decide)
  have hvapg : UserPath (table_path pg) := userPath_table_path pg (lt_trans hlt (by decide))
  have hvaT : UserPath (table_path PFTEMP) := userPath_table_path PFTEMP (by decide)
  have hne : (table_path pg, PTX pg) ≠ (table_path PFTEMP, PTX PFTEMP) := by
    intro e
    simp only [Prod.mk.injEq] at e
    have := page_lookup_indices st root e.1 e.2
    rw [hmap, hun] at this
    cases this
  obtain ⟨hlkpg1, hslot1⟩ := hoth1 pg hvapg hne
  rw [hmap] at hlkpg1
  have h2 := user_memmove_page_eq hlkpg1 hlkT1
  generalize hst2 : ({ st1 with mem := fun g i =>
    if g = p ∧ i < 512 then st1.mem f i else st1.mem g i } : Kernel) = st2 at h2
  obtain ⟨hE2, hpages2, hfl2⟩ := user_memmove_page_frame h2
  have hn2 : st2.npages = st1.npages := hE2.npages
  have henv2 : envid2env lg st2 cpu 0 true = some (0, some c) := by
    rw [envid2env_frame (hE1.trans hE2)]
    exact henv
  have hroot2 : (st2.envs c).env_pml4e = some root := by
    rw [(hE1.trans hE2).envs]
    exact hroot
  have hpl : p ∈ l := by rw [hlx]; simp
  have hxs : ∀ x, x ∈ xs → x ∈ l := fun x hx => by rw [hlx]; exact List.mem_cons_of_mem _ hx
  have hpf : p ≠ f := fun e => hf (e ▸ hpl)
  have hlf1 : lab1 f = none := by
    cases hq : lab1 f with
    | none => rfl
    | some q => exact absurd (hxs f (hnew1 f q hlf hq).1) hf
  have hfl1 : f ∉ l1 := fun hc => hf (hxs f (hsub1 f hc))
  have hmem2 : ∀ g j, g ≠ p → st2.mem g j = st1.mem g j := by
    intro g j hg
    rw [← hst2]
    show (if g = p ∧ j < 512 then st1.mem f j else st1.mem g j) = st1.mem g j
    rw [if_neg (fun hc => hg hc.1)]
  have hlabne : ∀ g, lab1 g ≠ none → g ≠ p := by
    intro g hg e
    rw [e, hlp1] at hg
    exact hg rfl
  have ht2 : TableTree st2 l1 root lab1 :=
    tableTree_congr ht1 hn2
      (fun t q j hq _ => hmem2 t j (hlabne t (by rw [hq]; simp))) ht1.notfree
  have hl2 : PageList st2 l1 := pageList_congr hpages2 hfl2 hl1
  have hlk2 : ∀ va', UserPath (table_path va') →
      page_lookup st2 root va' = page_lookup st1 root va' := by
    intro va' hv
    exact page_lookup_congr hn2 root va'
      (fun x hx => hmem2 _ _ (hlabne _ (tree_walk_lab ht1 hv hx)))
  have hnp2 : st2.npages ≤ 2 ^ 52 := by rw [hn2, hn1]; exact hnp
  have hfb2 : ∀ g, g ∈ l1 → g < st2.npages := by
    intro g hg
    rw [hn2, hn1]
    exact hfb g (hxs g (hsub1 g hg))
  have hlkT2 : page_lookup st2 root PFTEMP = some (some (p, (ptT, PTX PFTEMP))) := by
    rw [hlk2 PFTEMP hvaT]
    exact hlkT1
  have hlkpg2 : page_lookup st2 root pg = some (some (f, slot)) := by
    rw [hlk2 pg hvapg]
    exact hlkpg1
  have hslotTlab : lab1 ptT ≠ none :=
    tree_walk_lab ht1 hvaT (walk_cells_mapped hlkT1).1
  have hwr : ¬ ((PTE_P ||| PTE_U ||| PTE_W) &&& PTE_W ≠ 0 ∧
      st2.mem ptT (PTX PFTEMP) &&& PTE_W = 0) := by
    intro hc
    have e : st2.mem ptT (PTX PFTEMP) &&& PTE_W =
        (st2.mem ptT (PTX PFTEMP) &&& 0xFFF) &&& PTE_W := by
      rw [Nat.land_assoc]
      rfl
    rw [e, hmem2 _ _ (hlabne _ hslotTlab), hflT1] at hc
    exact absurd hc.2 (by decide)
  obtain ⟨st3, h3⟩ := @sys_page_map_replace_total lg st2 cpu 0 PFTEMP pg
    (PTE_P ||| PTE_U ||| PTE_W) c root p f (ptT, PTX PFTEMP) slot l1 henv2 hroot2 hl2 hlkT2
    hlkpg2 hpf hfl1 (by decide) hal hltT hlt (by decide) (by decide) hwr
  obtain ⟨l3, hl3, hsub3, hsup3, hb3, ht3, hn3, hE3, hlk3, hflg3, hmem3, hrp3, hrf3, hoth3, hls3,
      holk3⟩ :=
    sys_page_map_replace henv2 hroot2 hl2 hnp2 hfb2 ht2 hlkT2 hlkpg2 hpf hfl1 hpl1 hlf1
      (by decide) h3
  have hneT : (table_path PFTEMP, PTX PFTEMP) ≠ (table_path pg, PTX pg) := fun e => hne e.symm
  have hlkT3 : page_lookup st3 root PFTEMP = some (some (p, (ptT, PTX PFTEMP))) := by
    rw [(holk3 PFTEMP hvaT hneT).1]
    exact hlkT2
  have henv3 : envid2env lg st3 cpu 0 true = some (0, some c) := by
    rw [envid2env_frame hE3]
    exact henv2
  have hroot3 : (st3.envs c).env_pml4e = some root := by
    rw [hE3.envs]
    exact hroot2
  have hpl3 : p ∉ l3 := by
    intro hc
    rcases hsub3 p hc with h1 | h1
    · exact hpl1 h1
    · exact hpf h1
  obtain ⟨st4, h4⟩ := sys_page_unmap_total henv3 hroot3 hl3 hlkT3 hpl3 (by decide) hltT
  refine ⟨st4, ?_⟩
  simp only [h1, h2, h3, h4]
  rfl
/-- C33 (copy-on-write fault handler): environment `c`, whose tables form a
tree, maps frame `f` (counted between 1 and 65535 times, not one of its
tables) at the page of `addr`, and nothing at `PFTEMP`. Then `pgfault` panics
when the error code lacks `FEC_WR` and when the entry lacks `PTE_COW`; with
both, four free frames and a page below `UTOP` it returns; and whenever it
returns, the page maps the frame `p` that headed the free list, with count 1
and flags exactly `PTE_P | PTE_U | PTE_W`, the 512 words of `p` are those of
`f`, `PFTEMP` maps nothing, and the count of `f` is one less than before. -/
theorem pgfault_cow (lg : Nat) (st : Kernel) (cpu addr err c root f : Nat)
    (slot : Nat × Nat) (l : List Nat) (lab : Nat → Option (List Nat))
    (hcur : curenv st cpu = some c) (hroot : (st.envs c).env_pml4e = some root)
    (hl : PageList st l) (hnp : st.npages ≤ 2 ^ 52) (hfb : ∀ g, g ∈ l → g < st.npages)
    (ht : TableTree st l root lab)
    (hmap : page_lookup st root (ROUNDDOWN addr PGSIZE) = some (some (f, slot)))
    (hf : f ∉ l) (hlf : lab f = none)
    (href1 : 0 < (st.pages f).pp_ref) (href2 : (st.pages f).pp_ref < 65536)
    (hun : page_lookup st root PFTEMP = some none) :
    (err &&& FEC_WR = 0 → pgfault lg st cpu addr err = none) ∧
    (st.mem slot.1 slot.2 &&& PTE_COW = 0 → pgfault lg st cpu addr err = none) ∧
    (err &&& FEC_WR ≠ 0 → st.mem slot.1 slot.2 &&& PTE_COW ≠ 0 →
      ROUNDDOWN addr PGSIZE < UTOP → 4 ≤ l.length →
      ∃ st', pgfault lg st cpu addr err = some st') ∧
    ∀ st', pgfault lg st cpu addr err = some st' →
      ∃ p, st.page_free_list = some p ∧ p ≠ f ∧ (st.pages p).pp_ref = 0 ∧
        page_lookup st' root (ROUNDDOWN addr PGSIZE) = some (some (p, slot)) ∧
        (st'.pages p).pp_ref = 1 ∧
        st'.mem slot.1 slot.2 &&& 0xFFF = PTE_P ||| PTE_U ||| PTE_W ∧
        (∀ i, i < 512 → st'.mem p i = st.mem f i) ∧
        page_lookup st' root PFTEMP = some none ∧
        (st'.pages f).pp_ref + 1 = (st.pages f).pp_ref := by
  have hmap' : page_lookup st root (PGNUM addr <<< PGSHIFT) = some (some (f, slot)) := by
    rw [PGNUM_shift]
    exact hmap
  refine ⟨?_, ?_, ?_, ?_⟩
  · intro h
    unfold pgfault
    rw [if_pos h]
  · intro h
    unfold pgfault
    split
    · rfl
    · simp only [hcur, hroot, uvpt_of_lookup hmap']
      rw [if_pos h]
  · intro herr hcow hlt hfree
    exact pgfault_total hcur hroot hl hnp hfb ht hmap hf hlf hun herr hcow hlt hfree
  · intro st' h
    obtain ⟨_, _, p, xs, l2, lab2, hlx, hhead, _, _, _, _, _, _, _, _, _, hlk, hflg, hrp, _,
        hcont, hunT, hrf, _, _, _⟩ :=
      pgfault_spec hcur hroot hl hnp hfb ht hmap hf hlf hun h
    have hpl : p ∈ l := by rw [hlx]; simp
    refine ⟨p, hhead, fun e => hf (e ▸ hpl), hl.2.2.1 p hpl, hlk, hrp, hflg, hcont, hunT, ?_⟩
    rw [hrf]
    omega
/-- The label function of an address space with one table per level: root
`r`, PDPT `a`, page directory `b` and page table `c`, each at index 0. -/
theorem chain_tree (st : Kernel) (l : List Nat) (r a b c : Nat)
    (h0 : present (st.mem r 0) = true ∧ KADDR st (PTE_ADDR (st.mem r 0)) = some a)
    (h1 : present (st.mem a 0) = true ∧ KADDR st (PTE_ADDR (st.mem a 0)) = some b)
    (h1' : ∀ i, i ≠ 0 → present (st.mem a i) = false)
    (h2 : present (st.mem b 0) = true ∧ KADDR st (PTE_ADDR (st.mem b 0)) = some c)
    (h2' : ∀ i, i ≠ 0 → present (st.mem b i) = false)
    (hra : r ≠ a) (hrb : r ≠ b) (hrc : r ≠ c) (hab : a ≠ b) (hac : a ≠ c) (hbc : b ≠ c)
    (hfree : r ∉ l ∧ a ∉ l ∧ b ∉ l ∧ c ∉ l) :
    TableTree st l r (fun f => if f = r then some [] else if f = a then some [0]
      else if f = b then some [0, 0] else if f = c then some [0, 0, 0] else none) := by
  have lr : (fun f => if f = r then some [] else if f = a then some [0]
      else if f = b then some [0, 0] else if f = c then some [0, 0, 0] else none) r =
      some [] := by simp
  have la : (fun f => if f = r then some [] else if f = a then some [0]
      else if f = b then some [0, 0] else if f = c then some [0, 0, 0] else none) a =
      some [0] := by simp [Ne.symm hra]
  have lb : (fun f => if f = r then some [] else if f = a then some [0]
      else if f = b then some [0, 0] else if f = c then some [0, 0, 0] else none) b =
      some [0, 0] := by simp [Ne.symm hrb, Ne.symm hab]
  have lc : (fun f => if f = r then some [] else if f = a then some [0]
      else if f = b then some [0, 0] else if f = c then some [0, 0, 0] else none) c =
      some [0, 0, 0] := by simp [Ne.symm hrc, Ne.symm hac, Ne.symm hbc]
  have hcases : ∀ t p, (fun f => if f = r then some [] else if f = a then some [0]
      else if f = b then some [0, 0] else if f = c then some [0, 0, 0] else none) t = some p →
      (t = r ∧ p = []) ∨ (t = a ∧ p = [0]) ∨ (t = b ∧ p = [0, 0]) ∨ (t = c ∧ p = [0, 0, 0]) := by
    intro t p hp
    simp only at hp
    split at hp
    · rename_i h
      exact Or.inl ⟨h, (Option.some.inj hp).symm⟩
    · split at hp
      · rename_i h
        exact Or.inr (Or.inl ⟨h, (Option.some.inj hp).symm⟩)
      · split at hp
        · rename_i h
          exact Or.inr (Or.inr (Or.inl ⟨h, (Option.some.inj hp).symm⟩))
        · split at hp
          · rename_i h
            exact Or.inr (Or.inr (Or.inr ⟨h, (Option.some.inj hp).symm⟩))
          · cases hp
  have hl1 : leaf_from st [0] r = some (some a) := by
    simp [leaf_from, h0.1, h0.2]
  have hl2 : leaf_from st [0, 0] r = some (some b) := by
    simp [leaf_from, h0.1, h0.2, h1.1, h1.2]
  have hl3 : leaf_from st [0, 0, 0] r = some (some c) := by
    simp [leaf_from, h0.1, h0.2, h1.1, h1.2, h2.1, h2.2]
  refine ⟨lr, ?_, ?_, ?_⟩
  · intro t p i hp hlen hu hpres
    rcases hcases t p hp with ⟨ht, hp'⟩ | ⟨ht, hp'⟩ | ⟨ht, hp'⟩ | ⟨ht, hp'⟩
    · subst ht hp'
      have hi : i = 0 := hu
      subst hi
      exact ⟨a, h0.2, la⟩
    · subst ht hp'
      by_cases hi : i = 0
      · subst hi
        exact ⟨b, h1.2, lb⟩
      · rw [h1' i hi] at hpres
        cases hpres
    · subst ht hp'
      by_cases hi : i = 0
      · subst hi
        exact ⟨c, h2.2, lc⟩
      · rw [h2' i hi] at hpres
        cases hpres
    · subst hp'
      simp at hlen
  · intro t p hp
    rcases hcases t p hp with ⟨ht, hp'⟩ | ⟨ht, hp'⟩ | ⟨ht, hp'⟩ | ⟨ht, hp'⟩
    · subst ht hp'
      exact ⟨by decide, trivial, rfl⟩
    · subst ht hp'
      exact ⟨by decide, rfl, hl1⟩
    · subst ht hp'
      exact ⟨by decide, ⟨rfl, by decide⟩, hl2⟩
    · subst ht hp'
      exact ⟨by decide, ⟨rfl, by decide⟩, hl3⟩
  · intro t p hp
    rcases hcases t p hp with ⟨ht, _⟩ | ⟨ht, _⟩ | ⟨ht, _⟩ | ⟨ht, _⟩
    · rw [ht]; exact hfree.1
    · rw [ht]; exact hfree.2.1
    · rw [ht]; exact hfree.2.2.1
    · rw [ht]; exact hfree.2.2.2

theorem cow_pair_pageList : PageList cow_pair
    [11, 12, 13, 14, 15, 16, 17, 18, 19, 20, 21, 22, 23, 24, 25, 26, 27, 28, 29, 30, 31] := by
  refine ⟨?_, by decide, ?_, ?_⟩
  · exact ⟨rfl, rfl, rfl, rfl, rfl, rfl, rfl, rfl, rfl, rfl, rfl, rfl, rfl, rfl, rfl, rfl, rfl,
      rfl, rfl, rfl, rfl, rfl⟩
  · decide
  · intro f hf
    simp only [List.mem_cons, List.mem_singleton, List.not_mem_nil, or_false, not_or] at hf
    have hc : ¬ (11 ≤ f ∧ f < 31) := by omega
    show (cow_pair.pages f).pp_link = none
    simp only [cow_pair, if_neg hc]

theorem cow_pair_tree_parent : TableTree cow_pair
    [11, 12, 13, 14, 15, 16, 17, 18, 19, 20, 21, 22, 23, 24, 25, 26, 27, 28, 29, 30, 31] 2
    (fun f => if f = 2 then some [] else if f = 3 then some [0]
      else if f = 7 then some [0, 0] else if f = 8 then some [0, 0, 0] else none) :=
  chain_tree cow_pair _ 2 3 7 8 (by decide) (by decide)
    (fun i hi => by simp [cow_pair, two_running, hi, present]) (by decide)
    (fun i hi => by simp [cow_pair, two_running, hi, present])
    (by decide) (by decide) (by decide) (by decide) (by decide) (by decide) (by decide)

theorem cow_pair_tree_child : TableTree cow_pair
    [11, 12, 13, 14, 15, 16, 17, 18, 19, 20, 21, 22, 23, 24, 25, 26, 27, 28, 29, 30, 31] 4
    (fun f => if f = 4 then some [] else if f = 5 then some [0]
      else if f = 9 then some [0, 0] else if f = 10 then some [0, 0, 0] else none) :=
  chain_tree cow_pair _ 4 5 9 10 (by decide) (by decide)
    (fun i hi => by simp [cow_pair, two_running, hi, present]) (by decide)
    (fun i hi => by simp [cow_pair, two_running, hi, present])
    (by decide) (by decide) (by decide) (by decide) (by decide) (by decide) (by decide)
theorem flags_write {x : Nat} (h : x &&& 0xFFF = PTE_P ||| PTE_U ||| PTE_W) :
    x &&& PTE_W ≠ 0 := by
  have e : x &&& PTE_W = (x &&& 0xFFF) &&& PTE_W := by
    rw [Nat.land_assoc]
    rfl
  rw [e, h]
  decide

/-- What another address space sees of a change that leaves every frame
alone that was neither free nor a table of the faulting address space: its
tables are the same tree and its pages are mapped as before. -/
theorem tree_elsewhere {st st' : Kernel} {l l2 : List Nat} {root2 f : Nat}
    {lab labo : Nat → Option (List Nat)}
    (hn : st'.npages = st.npages)
    (hmem : ∀ g j, g ∉ l → lab g = none → st'.mem g j = st.mem g j)
    (hsub : ∀ x, x ∈ l2 → x ∈ l ∨ x = f)
    (ht : TableTree st l root2 labo) (hdis : ∀ t q, labo t = some q → lab t = none)
    (hlfo : labo f = none) :
    TableTree st' l2 root2 labo ∧
    ∀ va, UserPath (table_path va) →
      page_lookup st' root2 va = page_lookup st root2 va ∧
      walk_cells st' root2 va = walk_cells st root2 va ∧
      ∀ c, c ∈ walk_cells st root2 va → st'.mem c.1 c.2 = st.mem c.1 c.2 := by
  have hlabmem : ∀ t j, labo t ≠ none → st'.mem t j = st.mem t j := by
    intro t j ht'
    cases hq : labo t with
    | none => exact absurd hq ht'
    | some q => exact hmem t j (ht.notfree t q hq) (hdis t q hq)
  refine ⟨?_, ?_⟩
  · refine tableTree_congr ht hn (fun t q j hq _ => hlabmem t j (by rw [hq]; simp)) ?_
    intro t q hq hc
    rcases hsub t hc with h1 | h1
    · exact ht.notfree t q hq h1
    · rw [h1, hlfo] at hq
      cases hq
  · intro va hva
    have hc : ∀ c, c ∈ walk_cells st root2 va → st'.mem c.1 c.2 = st.mem c.1 c.2 :=
      fun c hc => hlabmem c.1 c.2 (tree_walk_lab ht hva hc)
    exact ⟨page_lookup_congr hn root2 va hc, (leaf_from_congr hn _ root2 hc).2, hc⟩

/-- A store into a frame that is not a table of the tree changes no
mapping. -/
theorem tree_data_write {st : Kernel} {l : List Nat} {root p i v : Nat}
    {lab : Nat → Option (List Nat)} (ht : TableTree st l root lab) (hp : lab p = none) :
    TableTree (st.write p i v) l root lab ∧
    ∀ va, UserPath (table_path va) →
      page_lookup (st.write p i v) root va = page_lookup st root va := by
  have hm : ∀ t j, lab t ≠ none → (st.write p i v).mem t j = st.mem t j := by
    intro t j ht'
    rw [write_mem_cell, if_neg]
    intro e
    have e1 : t = p := congrArg Prod.fst e
    rw [e1] at ht'
    exact ht' hp
  exact ⟨tableTree_congr ht rfl (fun t q j hq _ => hm t j (by rw [hq]; simp)) ht.notfree,
    fun va hva => @page_lookup_congr st (st.write p i v) rfl root va
      (fun c hc => hm c.1 c.2 (tree_walk_lab ht hva hc))⟩
/-- On `cow_pair`, parent and child in turn store at address `0x10` of the
page both map copy-on-write: each store faults, `pgfault` gives the writer a
frame of its own, and the store is repeated. In the end the parent reads
`0xAB`, the child `0xCD`, the shared frame 6 has count 0 and the two new
frames count 1. -/
theorem cow_pair_scenario :
    user_store cow_pair 2 0x10 0xAB = none ∧
    ∃ sP pP sC pC,
      pgfault 1 cow_pair 0 0x10 FEC_WR = some sP ∧
      page_lookup sP 2 0 = some (some (pP, (8, 0))) ∧
      user_store sP 2 0x10 0xAB = some (sP.write pP 2 0xAB) ∧
      user_store (sP.write pP 2 0xAB) 4 0x10 0xCD = none ∧
      pgfault 1 (sP.write pP 2 0xAB) 1 0x10 FEC_WR = some sC ∧
      page_lookup sC 4 0 = some (some (pC, (10, 0))) ∧
      user_store sC 4 0x10 0xCD = some (sC.write pC 2 0xCD) ∧
      page_lookup (sC.write pC 2 0xCD) 2 0 = some (some (pP, (8, 0))) ∧
      page_lookup (sC.write pC 2 0xCD) 4 0 = some (some (pC, (10, 0))) ∧
      pP ≠ pC ∧ pP ≠ 6 ∧ pC ≠ 6 ∧
      (sC.write pC 2 0xCD).mem pP 2 = 0xAB ∧ (sC.write pC 2 0xCD).mem pC 2 = 0xCD ∧
      ((sC.write pC 2 0xCD).pages 6).pp_ref = 0 ∧
      ((sC.write pC 2 0xCD).pages pP).pp_ref = 1 ∧
      ((sC.write pC 2 0xCD).pages pC).pp_ref = 1 := by
  have hrd : ROUNDDOWN 0x10 PGSIZE = 0 := by decide
  have hu0 : UserPath (table_path 0) := userPath_table_path 0 (by decide)
  have huT : UserPath (table_path PFTEMP) := userPath_table_path PFTEMP (by decide)
  have hdisCP : ∀ t q, (fun f => if f = 4 then some [] else if f = 5 then some [0]
      else if f = 9 then some [0, 0] else if f = 10 then some [0, 0, 0] else none) t = some q →
      (fun f => if f = 2 then some [] else if f = 3 then some [0]
        else if f = 7 then some [0, 0] else if f = 8 then some [0, 0, 0] else none) t = none := by
    intro t q h
    simp only at h ⊢
    split at h
    · rename_i e; subst e; rfl
    · split at h
      · rename_i e; subst e; rfl
      · split at h
        · rename_i e; subst e; rfl
        · split at h
          · rename_i e; subst e; rfl
          · cases h
  have hdisPC : ∀ t q, (fun f => if f = 2 then some [] else if f = 3 then some [0]
      else if f = 7 then some [0, 0] else if f = 8 then some [0, 0, 0] else none) t = some q →
      (fun f => if f = 4 then some [] else if f = 5 then some [0]
        else if f = 9 then some [0, 0] else if f = 10 then some [0, 0, 0] else none) t = none := by
    intro t q h
    simp only at h ⊢
    split at h
    · rename_i e; subst e; rfl
    · split at h
      · rename_i e; subst e; rfl
      · split at h
        · rename_i e; subst e; rfl
        · split at h
          · rename_i e; subst e; rfl
          · cases h
  -- the parent's fault
  obtain ⟨sP, hP⟩ := @pgfault_total 1 cow_pair 0 0x10 FEC_WR 0 2 6 (8, 0) _ _
    (by decide) (by decide) cow_pair_pageList (by decide) (by decide) cow_pair_tree_parent
    (by decide) (by decide) (by decide) (by decide) (by decide) (by decide) (by decide)
    (by decide)
  obtain ⟨_, _, pP, xs, lP, labP2, hlx, hhead, hlP, hsubP, hbP, hlenP, tP2, hextP, hnewP, hnP,
      hEP, hlkP, hflP, hrefP, hlabpP, hcontP, hunTP, hrf6P, hpgP, hmemP, holkP⟩ :=
    @pgfault_spec 1 cow_pair sP 0 0x10 FEC_WR 0 2 6 (8, 0) _ _
      (by decide) (by decide) cow_pair_pageList (by decide) (by decide) cow_pair_tree_parent
      (by decide) (by decide) (by decide) (by decide) hP
  rw [hrd] at hlkP
  have hpPl : pP ∈ [11, 12, 13, 14, 15, 16, 17, 18, 19, 20, 21, 22, 23, 24, 25, 26, 27, 28, 29,
      30, 31] := by rw [hlx]; simp
  have hxs : ∀ x, x ∈ xs → x ∈ [11, 12, 13, 14, 15, 16, 17, 18, 19, 20, 21, 22, 23, 24, 25, 26,
      27, 28, 29, 30, 31] := fun x hx => by rw [hlx]; exact List.mem_cons_of_mem _ hx
  have hsubP' : ∀ x, x ∈ lP → x ∈ [11, 12, 13, 14, 15, 16, 17, 18, 19, 20, 21, 22, 23, 24, 25,
      26, 27, 28, 29, 30, 31] ∨ x = 6 := by
    intro x hx
    rcases hsubP x hx with h1 | h1
    · exact Or.inl (hxs x h1)
    · exact Or.inr h1
  have hpP6 : pP ≠ 6 := by
    intro e
    rw [e] at hpPl
    exact absurd hpPl (by decide)
  have hlabCpP : (fun f => if f = 4 then some [] else if f = 5 then some [0]
      else if f = 9 then some [0, 0] else if f = 10 then some [0, 0, 0] else none) pP = none := by
    cases hq : (fun f => if f = 4 then some [] else if f = 5 then some [0]
      else if f = 9 then some [0, 0] else if f = 10 then some [0, 0, 0] else none) pP with
    | none => rfl
    | some q => exact absurd hpPl (cow_pair_tree_child.notfree pP q hq)
  have href6P : (sP.pages 6).pp_ref = 1 := by
    rw [hrf6P]
    decide
  have h6lP : 6 ∉ lP := by
    intro hc
    have := hlP.2.2.1 6 hc
    rw [href6P] at this
    cases this
  have hpPlP : pP ∉ lP := by
    intro hc
    have := hlP.2.2.1 pP hc
    rw [hrefP] at this
    cases this
  -- the child's view after the parent's fault
  obtain ⟨tC1, hCsame⟩ := tree_elsewhere hnP hmemP hsubP' cow_pair_tree_child hdisCP (by decide)
  -- the parent's store
  obtain ⟨tP3, hPw⟩ := @tree_data_write sP lP 2 pP 2 0xAB labP2 tP2 hlabpP
  obtain ⟨tC2, hCw⟩ := @tree_data_write sP lP 4 pP 2 0xAB _ tC1 hlabCpP
  have hstoreP : user_store sP 2 0x10 0xAB = some (sP.write pP 2 0xAB) := by
    unfold user_store
    rw [hrd, hlkP]
    simp only
    rw [if_pos (flags_write hflP)]
    rfl
  have hlkC1 : page_lookup (sP.write pP 2 0xAB) 4 0 = some (some (6, (10, 0))) := by
    rw [hCw 0 hu0, (hCsame 0 hu0).1]
    decide
  have hunC1 : page_lookup (sP.write pP 2 0xAB) 4 PFTEMP = some none := by
    rw [hCw PFTEMP huT, (hCsame PFTEMP huT).1]
    decide
  have hmemC10 : (sP.write pP 2 0xAB).mem 10 0 = 0x6805 := by
    rw [write_mem_cell, if_neg (by
      intro e
      have e1 : (10 : Nat) = pP := congrArg Prod.fst e
      rw [← e1] at hpPl
      exact absurd hpPl (by decide))]
    rw [hmemP 10 0 (by decide) (by decide)]
    decide
  have hstoreC0 : user_store (sP.write pP 2 0xAB) 4 0x10 0xCD = none := by
    unfold user_store
    rw [hrd, hlkC1]
    simp only
    rw [hmemC10, if_neg (by decide)]
  -- the child's fault
  have hcurC : curenv (sP.write pP 2 0xAB) 1 = some 1 := by
    show (sP.write pP 2 0xAB).cpu_env 1 = some 1
    rw [write_cpu_env, hEP.cpu_env]
    decide
  have hrootC : ((sP.write pP 2 0xAB).envs 1).env_pml4e = some 4 := by
    rw [write_envs, hEP.envs]
    decide
  have hlP' : PageList (sP.write pP 2 0xAB) lP := pageList_write _ _ _ hlP
  have hnpC : (sP.write pP 2 0xAB).npages ≤ 2 ^ 52 := by
    rw [write_npages, hnP]
    decide
  have hlen0 : 4 ≤ lP.length := by
    have : ([11, 12, 13, 14, 15, 16, 17, 18, 19, 20, 21, 22, 23, 24, 25, 26, 27, 28, 29, 30,
      31] : List Nat).length = 21 := rfl
    omega
  have hmapC : page_lookup (sP.write pP 2 0xAB) 4 (ROUNDDOWN 0x10 PGSIZE) =
      some (some (6, (10, 0))) := by rw [hrd]; exact hlkC1
  obtain ⟨sC, hC⟩ := @pgfault_total 1 (sP.write pP 2 0xAB) 1 0x10 FEC_WR 1 4 6 (10, 0) lP _
    hcurC hrootC hlP' hnpC hbP tC2 hmapC h6lP (by decide) hunC1 (by decide)
    (by rw [hmemC10]; decide) (by decide) hlen0
  obtain ⟨_, _, pC, xsC, lC, labC2, hlxC, hheadC, hlC, hsubC, hbC, hlenC, tC3, hextC, hnewC, hnC,
      hEC, hlkC, hflC, hrefC, hlabpC, hcontC, hunTC, hrf6C, hpgC, hmemC, holkC⟩ :=
    @pgfault_spec 1 (sP.write pP 2 0xAB) sC 1 0x10 FEC_WR 1 4 6 (10, 0) lP _
      hcurC hrootC hlP' hnpC hbP tC2 hmapC h6lP (by decide) hunC1 hC
  rw [hrd] at hlkC
  have hpClP : pC ∈ lP := by rw [hlxC]; simp
  have hpPC : pP ≠ pC := fun e => hpPlP (e ▸ hpClP)
  have hpC6 : pC ≠ 6 := fun e => h6lP (e ▸ hpClP)
  have hstoreC : user_store sC 4 0x10 0xCD = some (sC.write pC 2 0xCD) := by
    unfold user_store
    rw [hrd, hlkC]
    simp only
    rw [if_pos (flags_write hflC)]
    rfl
  -- the parent's view after the child's fault
  have hdisP2C : ∀ t q, labP2 t = some q →
      (fun f => if f = 4 then some [] else if f = 5 then some [0]
        else if f = 9 then some [0, 0] else if f = 10 then some [0, 0, 0] else none) t = none := by
    intro t q hq
    cases hq0 : (fun f => if f = 2 then some [] else if f = 3 then some [0]
        else if f = 7 then some [0, 0] else if f = 8 then some [0, 0, 0] else none) t with
    | some q0 => exact hdisPC t q0 hq0
    | none =>
      have hin := hxs t (hnewP t q hq0 hq)
      cases hq1 : (fun f => if f = 4 then some [] else if f = 5 then some [0]
        else if f = 9 then some [0, 0] else if f = 10 then some [0, 0, 0] else none) t with
      | none => rfl
      | some q1 => exact absurd hin (cow_pair_tree_child.notfree t q1 hq1)
  have hlabP26 : labP2 6 = none := by
    cases hq : labP2 6 with
    | none => rfl
    | some q =>
      have := hxs 6 (hnewP 6 q (by decide) hq)
      exact absurd this (by decide)
  have hsubC' : ∀ x, x ∈ lC → x ∈ lP ∨ x = 6 := by
    intro x hx
    rcases hsubC x hx with h1 | h1
    · exact Or.inl (by rw [hlxC]; exact List.mem_cons_of_mem _ h1)
    · exact Or.inr h1
  obtain ⟨tP4, hPsame⟩ := tree_elsewhere hnC hmemC hsubC' tP3 hdisP2C hlabP26
  have hlkP2 : page_lookup sC 2 0 = some (some (pP, (8, 0))) := by
    rw [(hPsame 0 hu0).1, hPw 0 hu0]
    exact hlkP
  have hlabP2pC : labP2 pC = none := by
    cases hq : labP2 pC with
    | none => rfl
    | some q => exact absurd hpClP (tP3.notfree pC q hq)
  obtain ⟨_, hPw2⟩ := @tree_data_write sC lC 2 pC 2 0xCD labP2 tP4 hlabP2pC
  obtain ⟨_, hCw2⟩ := @tree_data_write sC lC 4 pC 2 0xCD labC2 tC3 hlabpC
  have hmemPP : sC.mem pP 2 = 0xAB := by
    rw [hmemC pP 2 hpPlP hlabCpP, write_mem_cell, if_pos rfl]
  have hstore0 : user_store cow_pair 2 0x10 0xAB = none := by
    have hlk0 : page_lookup cow_pair 2 (ROUNDDOWN 0x10 PGSIZE) = some (some (6, (8, 0))) := by
      decide
    unfold user_store
    rw [hlk0]
    simp only
    rw [if_neg (by decide)]
  refine ⟨hstore0, sP, pP, sC, pC, hP, hlkP, hstoreP, hstoreC0, hC, hlkC, hstoreC, ?_, ?_,
    hpPC, hpP6, hpC6, ?_, ?_, ?_, ?_, ?_⟩
  · rw [hPw2 0 hu0]
    exact hlkP2
  · rw [hCw2 0 hu0]
    exact hlkC
  · rw [write_mem_cell, if_neg (by
      intro e
      exact hpPC (congrArg Prod.fst e))]
    exact hmemPP
  · rw [write_mem_cell, if_pos rfl]
  · rw [write_pages, hrf6C, write_pages, href6P]
  · rw [write_pages, hpgC pP hpPlP hpP6, write_pages]
    exact hrefP
  · rw [write_pages]
    exact hrefC
/-- On `cow_pair` the parent's write fault at `0x10` is handled: `pgfault`
panics for a read fault, and on `mapped_once`, whose page 0 is writable and
not copy-on-write, for a write fault; for the write fault on `cow_pair` it
returns, page 0 of the parent then maps frame 11, the former head of the free
list, with count 1, flags `PTE_P | PTE_U | PTE_W` and the contents of frame
6, `PFTEMP` maps nothing and the count of frame 6 went from 2 to 1. Then
parent and child store `0xAB` and `0xCD` at `0x10`: each store faults first,
is handled by `pgfault` and repeated; in the end the parent reads `0xAB` and
the child `0xCD` from frames of their own with count 1, and frame 6 has
count 0. -/
theorem pgfault_cow_witness :
    pgfault 1 cow_pair 0 0x10 0 = none ∧
    pgfault 1 mapped_once 0 0 FEC_WR = none ∧
    (∃ st', pgfault 1 cow_pair 0 0x10 FEC_WR = some st') ∧
    (∀ st', pgfault 1 cow_pair 0 0x10 FEC_WR = some st' →
      cow_pair.page_free_list = some 11 ∧ (cow_pair.pages 11).pp_ref = 0 ∧
      (cow_pair.pages 6).pp_ref = 2 ∧
      page_lookup st' 2 0 = some (some (11, (8, 0))) ∧
      (st'.pages 11).pp_ref = 1 ∧
      st'.mem 8 0 &&& 0xFFF = PTE_P ||| PTE_U ||| PTE_W ∧
      (∀ i, i < 512 → st'.mem 11 i = cow_pair.mem 6 i) ∧
      page_lookup st' 2 PFTEMP = some none ∧
      (st'.pages 6).pp_ref = 1) ∧
    user_store cow_pair 2 0x10 0xAB = none ∧
    ∃ sP pP sC pC,
      pgfault 1 cow_pair 0 0x10 FEC_WR = some sP ∧
      page_lookup sP 2 0 = some (some (pP, (8, 0))) ∧
      user_store sP 2 0x10 0xAB = some (sP.write pP 2 0xAB) ∧
      user_store (sP.write pP 2 0xAB) 4 0x10 0xCD = none ∧
      pgfault 1 (sP.write pP 2 0xAB) 1 0x10 FEC_WR = some sC ∧
      page_lookup sC 4 0 = some (some (pC, (10, 0))) ∧
      user_store sC 4 0x10 0xCD = some (sC.write pC 2 0xCD) ∧
      page_lookup (sC.write pC 2 0xCD) 2 0 = some (some (pP, (8, 0))) ∧
      page_lookup (sC.write pC 2 0xCD) 4 0 = some (some (pC, (10, 0))) ∧
      pP ≠ pC ∧ pP ≠ 6 ∧ pC ≠ 6 ∧
      (sC.write pC 2 0xCD).mem pP 2 = 0xAB ∧ (sC.write pC 2 0xCD).mem pC 2 = 0xCD ∧
      ((sC.write pC 2 0xCD).pages 6).pp_ref = 0 ∧
      ((sC.write pC 2 0xCD).pages pP).pp_ref = 1 ∧
      ((sC.write pC 2 0xCD).pages pC).pp_ref = 1 := by
  have hread := (pgfault_cow 1 cow_pair 0 0x10 0 0 2 6 (8, 0) _ _
    (by decide) (by decide) cow_pair_pageList (by decide) (by decide) cow_pair_tree_parent
    (by decide) (by decide) (by decide) (by decide) (by decide) (by decide)).1 (by decide)
  have hnocow := (pgfault_cow 1 mapped_once 0 0 FEC_WR 0 2 6 (8, 0) _ _
    (by decide) (by decide) mapped_once_pageList (by decide) (by decide) mapped_once_tree
    (by decide) (by decide) (by decide) (by decide) (by decide) (by decide)).2.1 (by decide)
  obtain ⟨_, _, htot, hspec⟩ := pgfault_cow 1 cow_pair 0 0x10 FEC_WR 0 2 6 (8, 0) _ _
    (by decide) (by decide) cow_pair_pageList (by decide) (by decide) cow_pair_tree_parent
    (by decide) (by decide) (by decide) (by decide) (by decide) (by decide)
  refine ⟨hread, hnocow, htot (by decide) (by decide) (by decide) (by decide), ?_,
    cow_pair_scenario⟩
  intro st' h
  obtain ⟨p, hp, _, _, hlk, hrp, hflg, hcont, hunT, hrf⟩ := hspec st' h
  have hp11 : p = 11 := by
    have h11 : cow_pair.page_free_list = some 11 := rfl
    rw [h11] at hp
    exact (Option.some.inj hp).symm
  subst hp11
  have hrd : ROUNDDOWN 0x10 PGSIZE = 0 := by decide
  rw [hrd] at hlk
  have h62 : (cow_pair.pages 6).pp_ref = 2 := by decide
  rw [h62] at hrf
  exact ⟨rfl, by decide, h62, hlk, hrp, hflg, hcont, hunT, by omega⟩
theorem shift_aligned (pn : Nat) : (pn <<< PGSHIFT) % PGSIZE = 0 := by
  unfold PGSHIFT PGSIZE
  rw [Nat.shiftLeft_eq]
  omega

/-- Page-aligned addresses of 48 bits with the same indices are equal. -/
theorem indices_inj {a b : Nat} (ha : a < 2 ^ 48) (hb : b < 2 ^ 48)
    (ha0 : a % PGSIZE = 0) (hb0 : b % PGSIZE = 0)
    (h1 : table_path a = table_path b) (h2 : PTX a = PTX b) : a = b := by
  have h3 := table_path_inj ha hb h1
  rw [PTX_eq, PTX_eq] at h2
  unfold PGSIZE at ha0 hb0
  norm_num at h2 h3 ha hb
  omega

theorem shift_indices_ne {pn pn' : Nat} (h1 : pn <<< PGSHIFT < UTOP) (h2 : pn' <<< PGSHIFT < UTOP)
    (hne : pn' ≠ pn) :
    (table_path (pn' <<< PGSHIFT), PTX (pn' <<< PGSHIFT)) ≠
      (table_path (pn <<< PGSHIFT), PTX (pn <<< PGSHIFT)) := by
  intro e
  simp only [Prod.mk.injEq] at e
  have hU : UTOP < 2 ^ 48 := by decide
  have := indices_inj (lt_trans h2 hU) (lt_trans h1 hU) (shift_aligned pn') (shift_aligned pn)
    e.1 e.2
  unfold PGSHIFT at this
  rw [Nat.shiftLeft_eq, Nat.shiftLeft_eq] at this
  omega

/-- The lookup of a page in terms of the entry `uvpt[pn]`. -/
theorem page_lookup_of_uvpt {st : Kernel} {root pn pte : Nat}
    (h : uvpt st root pn = some pte) :
    ∃ pt, leaf_from st (table_path (pn <<< PGSHIFT)) root = some (some pt) ∧
      pte = st.mem pt (PTX (pn <<< PGSHIFT)) ∧
      page_lookup st root (pn <<< PGSHIFT) =
        if present pte then
          (pa2page st (PTE_ADDR pte)).map (fun pp => some (pp, (pt, PTX (pn <<< PGSHIFT))))
        else some none := by
  unfold uvpt at h
  split at h
  · rename_i pt hlf
    simp only [Option.some.injEq] at h
    refine ⟨pt, hlf, h.symm, ?_⟩
    unfold page_lookup
    rw [pml4e_walk_false_of_leaf hlf, ← h]
  · cases h
/-- In a state of the loops of `fork`, the parent's tables are not tables of
the child. -/
theorem forkInv_apart {lg cpu envid c d proot croot : Nat} {st0 : Kernel}
    {l0 : List Nat} {labP labC0 labC : Nat → Option (List Nat)}
    (ctx : ForkCtx lg cpu envid c d proot croot st0 l0 labP labC0)
    (horig : ∀ t, labC t ≠ none → labC0 t ≠ none ∨ t ∈ l0) :
    ∀ t, labP t ≠ none → labC t = none := by
  intro t ht
  cases hq : labC t with
  | none => rfl
  | some q =>
    rcases horig t (by rw [hq]; simp) with h1 | h1
    · cases hq0 : labC0 t with
      | none => exact absurd hq0 h1
      | some q0 => exact absurd (ctx.disj t q0 hq0) ht
    · cases hp : labP t with
      | none => exact absurd hp ht
      | some p => exact absurd h1 (ctx.treeP.notfree t p hp)

/-- The first call of `duppage`, seen from the loops of `fork`: the parent's
page `pn`, mapped to frame `f`, is mapped into the child, which takes at most
three frames; the invariant holds for the pages after `pn`. -/
theorem fork_child_map {lg cpu envid c d proot croot : Nat} {st0 st : Kernel}
    {l0 l : List Nat} {labP labC0 : Nat → Option (List Nat)} {pos pn f perm : Nat}
    {pslot : Nat × Nat}
    (ctx : ForkCtx lg cpu envid c d proot croot st0 l0 labP labC0)
    (inv : ForkInv proot croot st0 l0 labP labC0 st l pos)
    (hpn : pos ≤ pn) (hlt : pn <<< PGSHIFT < UTOP)
    (hx : pn <<< PGSHIFT ≠ UXSTACKTOP - PGSIZE)
    (hmap : page_lookup st proot (pn <<< PGSHIFT) = some (some (f, pslot)))
    (hperm : perm < 2 ^ 32) (hp1 : perm &&& (2 ^ 32 - 1 - PTE_SYSCALL) = 0)
    (hp2 : perm &&& (PTE_U ||| PTE_P) = PTE_U ||| PTE_P) (hp3 : perm &&& PTE_W = 0)
    (hfree : 3 ≤ l.length) :
    ∃ st1 l1, sys_page_map lg st cpu 0 (pn <<< PGSHIFT) envid (pn <<< PGSHIFT) perm =
        some (0, st1) ∧
      ForkInv proot croot st0 l0 labP labC0 st1 l1 (pn + 1) ∧ l.length ≤ l1.length + 3 ∧
      page_lookup st1 proot (pn <<< PGSHIFT) = some (some (f, pslot)) ∧
      (st1.pages f).pp_ref = (st.pages f).pp_ref + 1 ∧ (st1.pages f).pp_ref < 65536 := by
  have hU : UTOP < KERNBASE := by decide
  have hva : UserPath (table_path (pn <<< PGSHIFT)) :=
    userPath_table_path _ (lt_trans hlt hU)
  have hsrc : envid2env lg st cpu 0 true = some (0, some c) := by
    rw [envid2env_frame inv.frame]
    unfold envid2env
    rw [if_pos rfl, ctx.cur]
  have hdst : envid2env lg st cpu envid true = some (0, some d) := by
    rw [envid2env_frame inv.frame]
    exact ctx.child
  have hproot : (st.envs c).env_pml4e = some proot := by
    rw [inv.frame.envs]
    exact ctx.hproot
  have hcroot : (st.envs d).env_pml4e = some croot := by
    rw [inv.frame.envs]
    exact ctx.hcroot
  have hnp : st.npages ≤ 2 ^ 52 := by
    rw [inv.frame.npages]
    exact ctx.np
  have hfb : ∀ g, g ∈ l → g < st.npages := by
    intro g hg
    rw [inv.frame.npages]
    exact ctx.fb g (inv.lsub g hg)
  obtain ⟨labC, htC, horig⟩ := inv.treeC
  have hPC := forkInv_apart ctx horig
  have hmap0 : page_lookup st0 proot (pn <<< PGSHIFT) = some (some (f, pslot)) := by
    rw [← inv.lookP _ hva]
    exact hmap
  obtain ⟨hf0, hlf0⟩ := ctx.data _ f pslot hlt hmap0
  have hf : f ∉ l := fun hc => hf0 (inv.lsub f hc)
  have hlf : labC f = none := by
    cases hq : labC f with
    | none => rfl
    | some q =>
      rcases horig f (by rw [hq]; simp) with h1 | h1
      · exact absurd hlf0 h1
      · exact absurd h1 hf0
  have hsep : ∀ x, x ∈ walk_cells st proot (pn <<< PGSHIFT) → x.1 ∉ l ∧ labC x.1 = none := by
    intro x hx'
    have hl' := tree_walk_lab inv.treeP hva hx'
    refine ⟨?_, hPC _ hl'⟩
    cases hp : labP x.1 with
    | none => exact absurd hp hl'
    | some p => exact inv.treeP.notfree _ p hp
  have hun := inv.childU pn hpn hlt
  obtain ⟨s', hins⟩ := tree_page_insert_total f perm inv.plist hnp hfb htC hva hun hfree
  have h1 : sys_page_map lg st cpu 0 (pn <<< PGSHIFT) envid (pn <<< PGSHIFT) perm =
      some (0, s') :=
    sys_page_map_run hsrc hdst hproot hcroot (shift_aligned pn) (shift_aligned pn) hlt hlt
      hp1 hp2 hmap (fun hc => hc.1 hp3) hins
  obtain ⟨l1, labC1, pt, hl1, ht1, hext, hnew, hsub1, hn1, hE1, hlk1, _, _, hpg1, hpf1,
      hmem1, _, _, hlen1, hplk, _, hoth1⟩ :=
    sys_page_map_fresh hsrc hdst hproot hcroot inv.plist hnp hfb htC hmap hsep hf hlf hun
      hperm h1
  have hrefs := inv.refs pn f pslot hpn hlt hmap0
  have hlabP1 : ∀ t, labP t ≠ none → labC1 t = none := by
    intro t ht
    cases hq : labC1 t with
    | none => rfl
    | some q =>
      cases hq0 : labC t with
      | some q0 => exact absurd (hPC t ht) (by rw [hq0]; simp)
      | none =>
        have hin := (hnew t q hq0 hq).1
        cases hp : labP t with
        | none => exact absurd hp ht
        | some p => exact absurd hin (inv.treeP.notfree t p hp)
  have hPmem : ∀ t j, labP t ≠ none → s'.mem t j = st.mem t j := by
    intro t j ht
    refine hmem1 t j ?_ (hlabP1 t ht)
    cases hp : labP t with
    | none => exact absurd hp ht
    | some p => exact inv.treeP.notfree t p hp
  refine ⟨s', l1, h1, ?_, hlen1, hplk, ?_, ?_⟩
  · refine ⟨inv.frame.trans hE1, hl1, fun g hg => inv.lsub g (hsub1 g hg), ?_, ?_, ?_, ?_, ?_,
      ?_, ?_⟩
    · exact tableTree_congr inv.treeP hn1
        (fun t q j hq _ => hPmem t j (by rw [hq]; simp))
        (fun t q hq hc => inv.treeP.notfree t q hq (hsub1 t hc))
    · refine ⟨labC1, ht1, ?_⟩
      intro t ht
      cases hq0 : labC t with
      | some q0 => exact horig t (by rw [hq0]; simp)
      | none =>
        cases hq : labC1 t with
        | none => exact absurd hq ht
        | some q => exact Or.inr (inv.lsub t (hnew t q hq0 hq).1)
    · intro t q j hq hlen
      rw [hPmem t j (by rw [hq]; simp)]
      exact inv.memP t q j hq hlen
    · intro va' hva'
      rw [← inv.lookP va' hva']
      exact page_lookup_congr hn1 proot va'
        (fun x hx' => hPmem x.1 x.2 (tree_walk_lab inv.treeP hva' hx'))
    · intro pn' hpn' hlt'
      have hne : pn' ≠ pn := by omega
      rw [(hoth1 _ (userPath_table_path _ (lt_trans hlt' hU))
        (shift_indices_ne hlt hlt' hne)).1]
      exact inv.childU pn' (by omega) hlt'
    · have hX : UXSTACKTOP - PGSIZE < UTOP := by decide
      have hne : (table_path (UXSTACKTOP - PGSIZE), PTX (UXSTACKTOP - PGSIZE)) ≠
          (table_path (pn <<< PGSHIFT), PTX (pn <<< PGSHIFT)) := by
        intro e
        simp only [Prod.mk.injEq] at e
        have hU48 : UTOP < 2 ^ 48 := by decide
        exact hx (indices_inj (lt_trans hX hU48) (lt_trans hlt hU48) (by decide)
          (shift_aligned pn) e.1 e.2).symm
      rw [(hoth1 _ (userPath_table_path _ (lt_trans hX hU)) hne).1]
      exact inv.childX
    · intro pn' f' slot' hpn' hlt' hm'
      have hne : pn' ≠ pn := by omega
      have hff : f' ≠ f := by
        intro e
        rw [e] at hm'
        exact hne (ctx.inj pn' pn f slot' pslot hlt' hlt hm' hmap0)
      have hf'0 := (ctx.data _ f' slot' hlt' hm').1
      rw [hpg1 f' (fun hc => hf'0 (inv.lsub f' hc)) hff]
      exact inv.refs pn' f' slot' (by omega) hlt' hm'
  · rw [hpf1]
    exact Nat.mod_eq_of_lt (by omega)
  · rw [hpf1]
    exact Nat.mod_lt _ (by decide)
/-- The second call of `duppage` in its copy-on-write branch, seen from the
loops of `fork`: the parent's entry is rewritten and the invariant kept. -/
theorem fork_parent_remap {lg cpu envid c d proot croot : Nat} {st0 st : Kernel}
    {l0 l : List Nat} {labP labC0 : Nat → Option (List Nat)} {pos pn f : Nat}
    {pslot : Nat × Nat}
    (ctx : ForkCtx lg cpu envid c d proot croot st0 l0 labP labC0)
    (inv : ForkInv proot croot st0 l0 labP labC0 st l pos)
    (hlt : pn <<< PGSHIFT < UTOP)
    (hmap : page_lookup st proot (pn <<< PGSHIFT) = some (some (f, pslot)))
    (h1 : 0 < (st.pages f).pp_ref) (h2 : (st.pages f).pp_ref < 65536) :
    ∃ st2, sys_page_map lg st cpu 0 (pn <<< PGSHIFT) 0 (pn <<< PGSHIFT)
        (PTE_P ||| PTE_U ||| PTE_COW) = some (0, st2) ∧
      ForkInv proot croot st0 l0 labP labC0 st2 l pos := by
  have hU : UTOP < KERNBASE := by decide
  have hva : UserPath (table_path (pn <<< PGSHIFT)) :=
    userPath_table_path _ (lt_trans hlt hU)
  have hsrc : envid2env lg st cpu 0 true = some (0, some c) := by
    rw [envid2env_frame inv.frame]
    unfold envid2env
    rw [if_pos rfl, ctx.cur]
  have hproot : (st.envs c).env_pml4e = some proot := by
    rw [inv.frame.envs]
    exact ctx.hproot
  have hnp : st.npages ≤ 2 ^ 52 := by
    rw [inv.frame.npages]
    exact ctx.np
  have hfb : ∀ g, g ∈ l → g < st.npages := by
    intro g hg
    rw [inv.frame.npages]
    exact ctx.fb g (inv.lsub g hg)
  obtain ⟨labC, htC, horig⟩ := inv.treeC
  have hPC := forkInv_apart ctx horig
  obtain ⟨s, hs, _, _, _, _⟩ :=
    @page_insert_same_state st proot (pn <<< PGSHIFT) f (PTE_P ||| PTE_U ||| PTE_COW) pslot
      hmap h1 h2
  have hcall : sys_page_map lg st cpu 0 (pn <<< PGSHIFT) 0 (pn <<< PGSHIFT)
      (PTE_P ||| PTE_U ||| PTE_COW) = some (0, s) :=
    sys_page_map_run hsrc hsrc hproot hproot (shift_aligned pn) (shift_aligned pn) hlt hlt
      (by decide) (by decide) hmap (fun hc => hc.1 (by decide)) hs
  obtain ⟨hpg, hfl, hE, hn, hm⟩ := sys_page_map_self hsrc hproot hmap h1 h2 hcall
  have e : page2pa f ||| sext64 (PTE_P ||| PTE_U ||| PTE_COW) ||| PTE_P =
      page2pa f ||| (PTE_P ||| PTE_U ||| PTE_COW) := by
    rw [Nat.lor_assoc]
    rfl
  rw [e] at hm
  obtain ⟨ht2, hls, hoth⟩ := tree_rewrite_leaf inv.plist hnp hfb inv.treeP hva hmap hn hm
    inv.treeP.notfree
  obtain ⟨_, _, _, _, _, hfn⟩ := page_lookup_some hmap
  have hself := (page_lookup_rewrite hmap (tree_walk_cells inv.treeP _ hva).2 hn hnp hfn
    (by decide) (by decide) hm).1
  have hslotP : labP pslot.1 ≠ none := by rw [hls]; simp
  have hCmem : ∀ t j, labC t ≠ none → s.mem t j = st.mem t j := by
    intro t j ht
    rw [hm, if_neg]
    intro e'
    have e1 : t = pslot.1 := congrArg Prod.fst e'
    rw [e1] at ht
    exact ht (hPC _ hslotP)
  have hClk : ∀ va', UserPath (table_path va') →
      page_lookup s croot va' = page_lookup st croot va' := by
    intro va' hva'
    exact page_lookup_congr hn croot va'
      (fun x hx => hCmem x.1 x.2 (tree_walk_lab htC hva' hx))
  refine ⟨s, hcall, inv.frame.trans hE, pageList_congr hpg hfl inv.plist, inv.lsub, ht2, ?_, ?_,
    ?_, ?_, ?_, ?_⟩
  · exact ⟨labC, tableTree_congr htC hn (fun t q j hq _ => hCmem t j (by rw [hq]; simp))
      htC.notfree, horig⟩
  · intro t q j hq hlen
    rw [hm, if_neg, inv.memP t q j hq hlen]
    intro e'
    have e1 : t = pslot.1 := congrArg Prod.fst e'
    rw [e1, hls] at hq
    simp only [Option.some.injEq] at hq
    rw [← hq, table_path_length] at hlen
    omega
  · intro va' hva'
    rw [← inv.lookP va' hva']
    by_cases hi : (table_path va', PTX va') = (table_path (pn <<< PGSHIFT), PTX (pn <<< PGSHIFT))
    · simp only [Prod.mk.injEq] at hi
      rw [page_lookup_indices s proot hi.1 hi.2, page_lookup_indices st proot hi.1 hi.2, hself,
        hmap]
    · exact (hoth va' hva' hi).1
  · intro pn' hpn' hlt'
    rw [hClk _ (userPath_table_path _ (lt_trans hlt' hU))]
    exact inv.childU pn' hpn' hlt'
  · rw [hClk _ (userPath_table_path _ (by decide))]
    exact inv.childX
  · intro pn' f' slot' hpn' hlt' hm'
    rw [hpg]
    exact inv.refs pn' f' slot' hpn' hlt' hm'

/-- A call of `duppage` from the loops of `fork`, for a present page `pn`
below `UTOP` other than the exception stack, with three free frames: it
returns 0 and the invariant holds for the pages after `pn`. -/
theorem fork_duppage_step {lg cpu envid c d proot croot : Nat} {st0 st : Kernel}
    {l0 l : List Nat} {labP labC0 : Nat → Option (List Nat)} {pos pn : Nat}
    (ctx : ForkCtx lg cpu envid c d proot croot st0 l0 labP labC0)
    (inv : ForkInv proot croot st0 l0 labP labC0 st l pos)
    (hpn : pos ≤ pn) (hlt : pn <<< PGSHIFT < UTOP)
    (hx : pn <<< PGSHIFT ≠ UXSTACKTOP - PGSIZE)
    (hpres : pte_present st proot pn = true)
    (hfree : 3 ≤ l.length) :
    ∃ st' l', duppage lg st cpu envid pn = some (0, st') ∧
      ForkInv proot croot st0 l0 labP labC0 st' l' (pn + 1) ∧ l.length ≤ l'.length + 3 ∧
      pte_present st0 proot pn = true := by
  have hU : UTOP < KERNBASE := by decide
  have hva : UserPath (table_path (pn <<< PGSHIFT)) :=
    userPath_table_path _ (lt_trans hlt hU)
  have hcur : curenv st cpu = some c := by
    show st.cpu_env cpu = some c
    rw [inv.frame.cpu_env]
    exact ctx.cur
  have hproot : (st.envs c).env_pml4e = some proot := by
    rw [inv.frame.envs]
    exact ctx.hproot
  -- the page is mapped, in the state of the loop and at the start
  cases hu : uvpt st proot pn with
  | none =>
    unfold pte_present at hpres
    rw [hu] at hpres
    cases hpres
  | some pte =>
  have hP : present pte = true := by
    unfold pte_present at hpres
    rw [hu] at hpres
    exact hpres
  obtain ⟨pt, hlf, hpte, hlk⟩ := page_lookup_of_uvpt hu
  rw [if_pos hP] at hlk
  have hlk0 := inv.lookP _ hva
  have hu4 : UserPath ([] ++ table_path (pn <<< PGSHIFT)) := by simpa using hva
  have hleaf0 := (tree_leaf ctx.treeP (table_path (pn <<< PGSHIFT)) [] proot ctx.treeP.root_lab
    (by simp [table_path_length]) hu4).1
  have hpres0 : pte_present st0 proot pn = true ∧
      ∃ f pslot, page_lookup st0 proot (pn <<< PGSHIFT) = some (some (f, pslot)) := by
    cases hl0 : leaf_from st0 (table_path (pn <<< PGSHIFT)) proot with
    | none => exact absurd hl0 hleaf0
    | some o =>
      cases o with
      | none =>
        have : page_lookup st0 proot (pn <<< PGSHIFT) = some none := by
          unfold page_lookup
          rw [pml4e_walk_eq, walk_from_false]
          have hl0' : leaf_from st0 [PML4X (pn <<< PGSHIFT), PDPX (pn <<< PGSHIFT),
            PDX (pn <<< PGSHIFT)] proot = some none := hl0
          rw [hl0']
          rfl
        rw [this, hlk] at hlk0
        cases hq : pa2page st (PTE_ADDR pte) with
        | none => rw [hq] at hlk0; cases hlk0
        | some q => rw [hq] at hlk0; cases hlk0
      | some pt0 =>
        have hu0 : uvpt st0 proot pn = some (st0.mem pt0 (PTX (pn <<< PGSHIFT))) := by
          unfold uvpt
          rw [hl0]
        obtain ⟨pt0', hlf0', _, hlk00⟩ := page_lookup_of_uvpt hu0
        by_cases hP0 : present (st0.mem pt0 (PTX (pn <<< PGSHIFT))) = true
        · have hp0 : pte_present st0 proot pn = true := by
            unfold pte_present
            rw [hu0]
            exact hP0
          refine ⟨hp0, ?_⟩
          have hv := ctx.valid pn hlt hp0
          rw [if_pos hP0] at hlk00
          cases hq : pa2page st0 (PTE_ADDR (st0.mem pt0 (PTX (pn <<< PGSHIFT)))) with
          | none =>
            rw [hq] at hlk00
            exact absurd hlk00 hv
          | some q =>
            rw [hq] at hlk00
            exact ⟨q, _, hlk00⟩
        · rw [if_neg hP0] at hlk00
          rw [hlk00, hlk] at hlk0
          cases hq : pa2page st (PTE_ADDR pte) with
          | none => rw [hq] at hlk0; cases hlk0
          | some q => rw [hq] at hlk0; cases hlk0
  obtain ⟨hp0, f, pslot, hmap0⟩ := hpres0
  have hmap : page_lookup st proot (pn <<< PGSHIFT) = some (some (f, pslot)) := by
    rw [hlk0]
    exact hmap0
  have hu' := uvpt_of_lookup hmap
  unfold duppage
  simp only [hcur, hproot, hu']
  by_cases hw : st.mem pslot.1 pslot.2 &&& PTE_W ≠ 0 ∨ st.mem pslot.1 pslot.2 &&& PTE_COW ≠ 0
  · rw [if_pos hw]
    obtain ⟨st1, l1, hc1, inv1, hlen1, hmap1, hr1, hr1'⟩ :=
      fork_child_map ctx inv hpn hlt hx hmap (by decide : PTE_P ||| PTE_U ||| PTE_COW < 2 ^ 32)
        (by decide) (by decide) (by decide) hfree
    obtain ⟨st2, hc2, inv2⟩ := fork_parent_remap ctx inv1 hlt hmap1 (by omega) hr1'
    refine ⟨st2, l1, ?_, inv2, hlen1, hp0⟩
    simp only [hc1, hc2]
    rfl
  · rw [if_neg hw]
    obtain ⟨st1, l1, hc1, inv1, hlen1, _, _, _⟩ :=
      fork_child_map ctx inv hpn hlt hx hmap (by decide : PTE_P ||| PTE_U < 2 ^ 32)
        (by decide) (by decide) (by decide) hfree
    refine ⟨st1, l1, ?_, inv1, hlen1, hp0⟩
    simp only [hc1]
    rfl
theorem fork_pt_loop_cons (lg cpu envid root pdeIndex l : Nat) (ls : List Nat) (st : Kernel)
    (log : List Nat) :
    fork_pt_loop lg cpu envid root pdeIndex (l :: ls) st log =
      if (sext64 (pdeIndex * NPTENTRIES + l) <<< PGSHIFT) % 2 ^ 64 ≥ UTOP then some (st, log, true)
      else if (sext64 (pdeIndex * NPTENTRIES + l) <<< PGSHIFT) % 2 ^ 64 ≥ UXSTACKTOP - PGSIZE ∧
          (sext64 (pdeIndex * NPTENTRIES + l) <<< PGSHIFT) % 2 ^ 64 < UXSTACKTOP then
        fork_pt_loop lg cpu envid root pdeIndex ls st log
      else
        match uvpt st root (sext64 (pdeIndex * NPTENTRIES + l)) with
        | none => none
        | some pte =>
          if pte &&& PTE_P = 0 then fork_pt_loop lg cpu envid root pdeIndex ls st log
          else
            match duppage lg st cpu envid (sext64 (pdeIndex * NPTENTRIES + l) % 2 ^ 32) with
            | none => none
            | some (r, st1) =>
              if r < 0 then none
              else fork_pt_loop lg cpu envid root pdeIndex ls st1
                (log ++ [sext64 (pdeIndex * NPTENTRIES + l) % 2 ^ 32]) := rfl

theorem fork_pt_loop_nil (lg cpu envid root pdeIndex : Nat) (st : Kernel) (log : List Nat) :
    fork_pt_loop lg cpu envid root pdeIndex [] st log = some (st, log, false) := rfl
theorem sext64_lt (x : Nat) (h : x < 2 ^ 31) : sext64 x = x := by
  unfold sext64
  have h1 : x % 2 ^ 32 = x := Nat.mod_eq_of_lt (by omega)
  rw [h1, if_pos h]

theorem shift_mul (pn : Nat) : pn <<< PGSHIFT = pn * 4096 := by
  unfold PGSHIFT
  rw [Nat.shiftLeft_eq]

theorem UTOP_val : UTOP = 0xbc800000 := by decide

theorem pn_indices {j k l : Nat} (hj : j < 512) (hk : k < 512) (hl : l < 512) :
    table_path (((j * NPTENTRIES + k) * NPTENTRIES + l) <<< PGSHIFT) = [0, j, k] ∧
    PTX (((j * NPTENTRIES + k) * NPTENTRIES + l) <<< PGSHIFT) = l := by
  have e : ((j * NPTENTRIES + k) * NPTENTRIES + l) <<< PGSHIFT = PGADDR 0 j k l 0 := by
    rw [PGADDR_val hj hk hl, shift_mul]
    unfold NPTENTRIES
    ring
  rw [e]
  exact PGADDR_index hj hk hl

/-- Under the invariant the parent's tables are where they were. -/
theorem forkInv_leaf {lg cpu envid c d proot croot : Nat} {st0 st : Kernel}
    {l0 l : List Nat} {labP labC0 : Nat → Option (List Nat)} {pos : Nat}
    (ctx : ForkCtx lg cpu envid c d proot croot st0 l0 labP labC0)
    (inv : ForkInv proot croot st0 l0 labP labC0 st l pos)
    (q : List Nat) (hq : q.length ≤ 3) (hu : UserPath q) :
    leaf_from st q proot = leaf_from st0 q proot := by
  refine (leaf_from_congr inv.frame.npages q proot ?_).1
  intro x hx
  have hu' : UserPath ([] ++ q) := by simpa using hu
  obtain ⟨k, hk, hlab⟩ := tree_cells ctx.treeP q [] proot ctx.treeP.root_lab
    (by simp only [List.length_nil]; omega) hu' x hx
  refine inv.memP x.1 _ x.2 hlab ?_
  simp only [List.nil_append, List.length_take]
  omega

/-- Under the invariant the parent's pages are present where they were. -/
theorem forkInv_present {lg cpu envid c d proot croot : Nat} {st0 st : Kernel}
    {l0 l : List Nat} {labP labC0 : Nat → Option (List Nat)} {pos pn : Nat}
    (ctx : ForkCtx lg cpu envid c d proot croot st0 l0 labP labC0)
    (inv : ForkInv proot croot st0 l0 labP labC0 st l pos)
    (hlt : pn <<< PGSHIFT < UTOP) (h : pte_present st proot pn = false) :
    pte_present st0 proot pn = false := by
  have hva : UserPath (table_path (pn <<< PGSHIFT)) :=
    userPath_table_path _ (lt_trans hlt (by decide))
  have hleaf := forkInv_leaf ctx inv (table_path (pn <<< PGSHIFT)) (by simp [table_path_length])
    hva
  cases hu0 : uvpt st0 proot pn with
  | none =>
    unfold pte_present
    rw [hu0]
  | some pte0 =>
    obtain ⟨pt0, hlf0, hpte0, hlk0⟩ := page_lookup_of_uvpt hu0
    have hu : uvpt st proot pn = some (st.mem pt0 (PTX (pn <<< PGSHIFT))) := by
      unfold uvpt
      rw [hleaf, hlf0]
    obtain ⟨pt, _, _, hlk⟩ := page_lookup_of_uvpt hu
    have hP : present (st.mem pt0 (PTX (pn <<< PGSHIFT))) = false := by
      unfold pte_present at h
      rw [hu] at h
      exact h
    rw [hP] at hlk
    simp only [Bool.false_eq_true, if_false] at hlk
    rw [inv.lookP _ hva, hlk0] at hlk
    unfold pte_present
    rw [hu0]
    by_cases hP0 : present pte0 = true
    · rw [if_pos hP0] at hlk
      cases hq : pa2page st0 (PTE_ADDR pte0) with
      | none => rw [hq] at hlk; cases hlk
      | some q => rw [hq] at hlk; cases hlk
    · unfold present at hP0
      simpa using hP0

/-- Under the invariant a page that is present is one that was present and
mapped at the start. -/
theorem forkInv_mapped {lg cpu envid c d proot croot : Nat} {st0 st : Kernel}
    {l0 l : List Nat} {labP labC0 : Nat → Option (List Nat)} {pos pn : Nat}
    (ctx : ForkCtx lg cpu envid c d proot croot st0 l0 labP labC0)
    (inv : ForkInv proot croot st0 l0 labP labC0 st l pos)
    (hlt : pn <<< PGSHIFT < UTOP) (h : pte_present st proot pn = true) :
    pte_present st0 proot pn = true := by
  cases hp0 : pte_present st0 proot pn with
  | true => rfl
  | false =>
    exfalso
    have hva : UserPath (table_path (pn <<< PGSHIFT)) :=
      userPath_table_path _ (lt_trans hlt (by decide))
    have hleaf := forkInv_leaf ctx inv (table_path (pn <<< PGSHIFT))
      (by simp [table_path_length]) hva
    cases hu : uvpt st proot pn with
    | none =>
      unfold pte_present at h
      rw [hu] at h
      cases h
    | some pte =>
      obtain ⟨pt, hlf, hpte, hlk⟩ := page_lookup_of_uvpt hu
      have hP : present pte = true := by
        unfold pte_present at h
        rw [hu] at h
        exact h
      rw [if_pos hP] at hlk
      have hu0 : uvpt st0 proot pn = some (st0.mem pt (PTX (pn <<< PGSHIFT))) := by
        unfold uvpt
        rw [← hleaf, hlf]
      obtain ⟨_, _, _, hlk0⟩ := page_lookup_of_uvpt hu0
      have hP0 : present (st0.mem pt (PTX (pn <<< PGSHIFT))) = false := by
        unfold pte_present at hp0
        rw [hu0] at hp0
        exact hp0
      rw [hP0] at hlk0
      simp only [Bool.false_eq_true, if_false] at hlk0
      rw [inv.lookP _ hva, hlk0] at hlk
      cases hq : pa2page st (PTE_ADDR pte) with
      | none => rw [hq] at hlk; cases hlk
      | some q => rw [hq] at hlk; cases hlk

/-- The innermost loop of `fork` over a page table that lies below `UTOP`:
with three free frames for each page to duplicate it runs to its end, calls
`duppage` for exactly those pages, in order, and keeps the invariant. -/
theorem fork_pt_loop_user {lg cpu envid c d proot croot : Nat} {st0 : Kernel}
    {l0 : List Nat} {labP labC0 : Nat → Option (List Nat)} {j k pt m : Nat}
    (ctx : ForkCtx lg cpu envid c d proot croot st0 l0 labP labC0)
    (hj : j < 3) (hk : k < 512) (hreg : j * NPTENTRIES + k < 1508)
    (hleaf : leaf_from st0 [0, j, k] proot = some (some pt)) :
    ∀ (n s : Nat) (st : Kernel) (l log : List Nat), s + n ≤ 512 →
      ForkInv proot croot st0 l0 labP labC0 st l ((j * NPTENTRIES + k) * NPTENTRIES + s) →
      3 * (fork_pages_pt st0 proot (j * NPTENTRIES + k) (List.range' s n)).length + m ≤
        l.length →
      ∃ st' l', fork_pt_loop lg cpu envid proot (j * NPTENTRIES + k) (List.range' s n) st log =
          some (st', log ++ fork_pages_pt st0 proot (j * NPTENTRIES + k) (List.range' s n),
            false) ∧
        ForkInv proot croot st0 l0 labP labC0 st' l'
          ((j * NPTENTRIES + k) * NPTENTRIES + s + n) ∧
        m ≤ l'.length := by
  intro n
  induction n with
  | zero =>
    intro s st l log _ inv hb
    refine ⟨st, l, ?_, by rw [Nat.add_zero]; exact inv, ?_⟩
    · rw [List.range'_zero, fork_pt_loop_nil]
      unfold fork_pages_pt
      rw [List.map_nil, List.filter_nil, List.append_nil]
    · simp only [List.range'_zero, fork_pages_pt, List.map_nil, List.filter_nil,
        List.length_nil] at hb
      omega
  | succ n ih =>
    intro s st l log hs inv hb
    have hl512 : s < 512 := by omega
    have eadd : ∀ X : Nat, X + (s + 1) + n = X + s + (n + 1) := fun X => by omega
    have hpnlt : (j * NPTENTRIES + k) * NPTENTRIES + s < 2 ^ 31 := by
      unfold NPTENTRIES at hreg ⊢
      omega
    have hvalt : ((j * NPTENTRIES + k) * NPTENTRIES + s) <<< PGSHIFT < UTOP := by
      rw [shift_mul, UTOP_val]
      unfold NPTENTRIES at hreg ⊢
      omega
    have hmod64 : (((j * NPTENTRIES + k) * NPTENTRIES + s) <<< PGSHIFT) % 2 ^ 64 =
        ((j * NPTENTRIES + k) * NPTENTRIES + s) <<< PGSHIFT :=
      Nat.mod_eq_of_lt (lt_trans hvalt (by decide))
    have hmod32 : ((j * NPTENTRIES + k) * NPTENTRIES + s) % 2 ^ 32 =
        (j * NPTENTRIES + k) * NPTENTRIES + s := Nat.mod_eq_of_lt (by omega)
    have hnext : ForkInv proot croot st0 l0 labP labC0 st l
        ((j * NPTENTRIES + k) * NPTENTRIES + (s + 1)) :=
      { inv with
        childU := fun pn hp hlt => inv.childU pn (by omega) hlt
        refs := fun pn f slot hp hlt hm => inv.refs pn f slot (by omega) hlt hm }
    have hidx := pn_indices (show j < 512 by omega) hk hl512
    have hva : UserPath (table_path (((j * NPTENTRIES + k) * NPTENTRIES + s) <<< PGSHIFT)) :=
      userPath_table_path _ (lt_trans hvalt (by decide))
    have hleafst : leaf_from st
        (table_path (((j * NPTENTRIES + k) * NPTENTRIES + s) <<< PGSHIFT)) proot =
        some (some pt) := by
      rw [forkInv_leaf ctx inv _ (by simp [table_path_length]) hva, hidx.1]
      exact hleaf
    have hu : uvpt st proot ((j * NPTENTRIES + k) * NPTENTRIES + s) =
        some (st.mem pt (PTX (((j * NPTENTRIES + k) * NPTENTRIES + s) <<< PGSHIFT))) := by
      unfold uvpt
      rw [hleafst]
    have hpages : fork_pages_pt st0 proot (j * NPTENTRIES + k) (List.range' s (n + 1)) =
        (if dup_page st0 proot ((j * NPTENTRIES + k) * NPTENTRIES + s) = true then
          [(j * NPTENTRIES + k) * NPTENTRIES + s] else []) ++
        fork_pages_pt st0 proot (j * NPTENTRIES + k) (List.range' (s + 1) n) := by
      unfold fork_pages_pt
      rw [List.range'_succ, List.map_cons, List.filter_cons]
      split <;> simp
    rw [hpages] at hb ⊢
    rw [List.range'_succ, fork_pt_loop_cons, sext64_lt _ hpnlt, hmod64, hmod32]
    rw [if_neg (by omega)]
    by_cases hxs : ((j * NPTENTRIES + k) * NPTENTRIES + s) <<< PGSHIFT ≥ UXSTACKTOP - PGSIZE ∧
        ((j * NPTENTRIES + k) * NPTENTRIES + s) <<< PGSHIFT < UXSTACKTOP
    · rw [if_pos hxs]
      have hd : dup_page st0 proot ((j * NPTENTRIES + k) * NPTENTRIES + s) = false := by
        unfold dup_page
        simp [hxs.1, hxs.2]
      rw [hd] at hb ⊢
      simp only [Bool.false_eq_true, if_false, List.nil_append] at hb ⊢
      obtain ⟨st', l', h1, h2, h3⟩ := ih (s + 1) st l log (by omega) hnext hb
      exact ⟨st', l', h1, by rw [eadd] at h2; exact h2, h3⟩
    · rw [if_neg hxs]
      simp only [hu]
      by_cases hP : st.mem pt (PTX (((j * NPTENTRIES + k) * NPTENTRIES + s) <<< PGSHIFT)) &&&
          PTE_P = 0
      · rw [if_pos hP]
        have hps : pte_present st proot ((j * NPTENTRIES + k) * NPTENTRIES + s) = false := by
          unfold pte_present
          rw [hu]
          simp [hP]
        have hd : dup_page st0 proot ((j * NPTENTRIES + k) * NPTENTRIES + s) = false := by
          unfold dup_page
          rw [forkInv_present ctx inv hvalt hps]
          simp
        rw [hd] at hb ⊢
        simp only [Bool.false_eq_true, if_false, List.nil_append] at hb ⊢
        obtain ⟨st', l', h1, h2, h3⟩ := ih (s + 1) st l log (by omega) hnext hb
        exact ⟨st', l', h1, by rw [eadd] at h2; exact h2, h3⟩
      · rw [if_neg hP]
        have hps : pte_present st proot ((j * NPTENTRIES + k) * NPTENTRIES + s) = true := by
          unfold pte_present
          rw [hu]
          simpa using hP
        have hxne : ((j * NPTENTRIES + k) * NPTENTRIES + s) <<< PGSHIFT ≠ UXSTACKTOP - PGSIZE := by
          intro e
          apply hxs
          rw [e]
          decide
        have hp0 := forkInv_mapped ctx inv hvalt hps
        have hd : dup_page st0 proot ((j * NPTENTRIES + k) * NPTENTRIES + s) = true := by
          unfold dup_page
          rw [hp0]
          simp only [Bool.and_true, Bool.and_eq_true, decide_eq_true_eq, Bool.not_eq_true',
            decide_eq_false_iff_not]
          exact ⟨hvalt, hxs⟩
        rw [hd] at hb ⊢
        simp only [if_true, List.singleton_append, List.length_cons] at hb ⊢
        obtain ⟨st1, l1, hdup, inv1, hlen1, _⟩ :=
          fork_duppage_step ctx inv (le_refl _) hvalt hxne hps (by omega)
        rw [hdup]
        simp only
        rw [if_neg (by decide)]
        obtain ⟨st', l', h1, h2, h3⟩ := ih (s + 1) st1 l1
          (log ++ [(j * NPTENTRIES + k) * NPTENTRIES + s]) (by omega)
          (by rw [← Nat.add_assoc]; exact inv1) (by omega)
        refine ⟨st', l', ?_, by rw [eadd] at h2; exact h2, h3⟩
        rw [h1, List.append_assoc]
        rfl
theorem fork_pd_loop_nil (lg cpu envid root pdpeIndex : Nat) (st : Kernel) (log : List Nat) :
    fork_pd_loop lg cpu envid root pdpeIndex [] st log = some (st, log, false) := rfl

theorem fork_pd_loop_cons (lg cpu envid root pdpeIndex k : Nat) (ks : List Nat) (st : Kernel)
    (log : List Nat) :
    fork_pd_loop lg cpu envid root pdpeIndex (k :: ks) st log =
      match uvpd st root (pdpeIndex * NPTENTRIES + k) with
      | none => none
      | some e =>
        if e &&& PTE_P = 0 then fork_pd_loop lg cpu envid root pdpeIndex ks st log
        else
          match fork_pt_loop lg cpu envid root (pdpeIndex * NPTENTRIES + k)
              (List.range NPTENTRIES) st log with
          | none => none
          | some (st1, log1, true) => some (st1, log1, true)
          | some (st1, log1, false) => fork_pd_loop lg cpu envid root pdpeIndex ks st1 log1 :=
  rfl

theorem range_nptentries : List.range NPTENTRIES = 0 :: List.range' 1 511 := by
  rw [List.range_eq_range']
  rfl

/-- A page table at or above `UTOP` holds no page to duplicate. -/
theorem fork_pages_pt_above (st0 : Kernel) (root pdeIndex : Nat) (h : 1508 ≤ pdeIndex)
    (ls : List Nat) : fork_pages_pt st0 root pdeIndex ls = [] := by
  unfold fork_pages_pt
  rw [List.filter_eq_nil_iff]
  intro pn hpn
  rw [List.mem_map] at hpn
  obtain ⟨l, _, rfl⟩ := hpn
  unfold dup_page
  have : ¬ (pdeIndex * NPTENTRIES + l) <<< PGSHIFT < UTOP := by
    rw [shift_mul, UTOP_val]
    unfold NPTENTRIES
    omega
  simp [this]

/-- The innermost loop of `fork` over a page table at or above `UTOP` takes
`goto done` at once. -/
theorem fork_pt_loop_above (lg cpu envid root pdeIndex : Nat) (st : Kernel) (log : List Nat)
    (h1 : 1508 ≤ pdeIndex) (h2 : pdeIndex < 2 ^ 22) :
    fork_pt_loop lg cpu envid root pdeIndex (List.range NPTENTRIES) st log =
      some (st, log, true) := by
  rw [range_nptentries, fork_pt_loop_cons, sext64_lt _ (by unfold NPTENTRIES; omega)]
  have hlt : (pdeIndex * NPTENTRIES + 0) <<< PGSHIFT < 2 ^ 64 := by
    rw [shift_mul]
    unfold NPTENTRIES
    omega
  rw [Nat.mod_eq_of_lt hlt, if_pos]
  rw [shift_mul, UTOP_val]
  unfold NPTENTRIES
  omega

theorem uvpd_eq (st : Kernel) (root : Nat) {j k : Nat} (hj : j < 512) (hk : k < 512) :
    uvpd st root (j * NPTENTRIES + k) =
      match leaf_from st [0, j] root with
      | some (some t) => some (st.mem t k)
      | _ => none := by
  unfold uvpd
  have e1 : (j * NPTENTRIES + k) / NPTENTRIES / NPTENTRIES = 0 := by
    unfold NPTENTRIES
    omega
  have e2 : (j * NPTENTRIES + k) / NPTENTRIES % NPTENTRIES = j := by
    unfold NPTENTRIES
    omega
  have e3 : (j * NPTENTRIES + k) % NPTENTRIES = k := by
    unfold NPTENTRIES
    omega
  rw [e1, e2, e3]

theorem uvpde_eq (st : Kernel) (root : Nat) {j : Nat} (hj : j < 512) :
    uvpde st root (0 * NPTENTRIES + j) =
      match leaf_from st [0] root with
      | some (some t) => some (st.mem t j)
      | _ => none := by
  unfold uvpde
  have e1 : (0 * NPTENTRIES + j) / NPTENTRIES = 0 := by
    unfold NPTENTRIES
    omega
  have e3 : (0 * NPTENTRIES + j) % NPTENTRIES = j := by
    unfold NPTENTRIES
    omega
  rw [e1, e3]

/-- A page directory entry at or above `UTOP` contributes no page. -/
theorem fork_pages_pd_above (st0 : Kernel) (root j : Nat) :
    ∀ ks : List Nat, (∀ k, k ∈ ks → 1508 ≤ j * NPTENTRIES + k) →
      fork_pages_pd st0 root j ks = [] := by
  intro ks h
  unfold fork_pages_pd
  rw [List.flatMap_eq_nil_iff]
  intro k hk
  split
  · split
    · rfl
    · exact fork_pages_pt_above st0 root _ (h k hk) _
  · rfl

theorem forkInv_mono {proot croot : Nat} {st0 st : Kernel} {l0 l : List Nat}
    {labP labC0 : Nat → Option (List Nat)} {pos pos' : Nat}
    (inv : ForkInv proot croot st0 l0 labP labC0 st l pos) (h : pos ≤ pos') :
    ForkInv proot croot st0 l0 labP labC0 st l pos' :=
  { inv with
    childU := fun pn hp hlt => inv.childU pn (by omega) hlt
    refs := fun pn f slot hp hlt hm => inv.refs pn f slot (by omega) hlt hm }
theorem range_nptentries_zero : List.range NPTENTRIES = List.range' 0 512 := by
  rw [List.range_eq_range']
  rfl

/-- A present entry of a table of the tree leads to the table one level
down. -/
theorem tree_child {st : Kernel} {l : List Nat} {root : Nat} {lab : Nat → Option (List Nat)}
    (ht : TableTree st l root lab) {p : List Nat} {t i : Nat} (hp : p.length < 3)
    (hu : UserPath (p ++ [i])) (hup : UserPath p)
    (hleaf : leaf_from st p root = some (some t)) (hpr : present (st.mem t i) = true) :
    ∃ t', leaf_from st (p ++ [i]) root = some (some t') := by
  have hlab : lab t = some ([] ++ p) :=
    (tree_leaf ht p [] root ht.root_lab (by simp only [List.length_nil]; omega)
      (by simpa using hup)).2 t hleaf
  rw [List.nil_append] at hlab
  obtain ⟨t', hk, _⟩ := ht.step t p i hlab hp hu hpr
  refine ⟨t', ?_⟩
  rw [leaf_from_append, hleaf]
  simp only [leaf_from, hpr, if_true, hk]

theorem fork_pages_pd_cons (st0 : Kernel) (root j k : Nat) (ks : List Nat) :
    fork_pages_pd st0 root j (k :: ks) =
      (match uvpd st0 root (j * NPTENTRIES + k) with
        | some e =>
          if e &&& PTE_P = 0 then []
          else fork_pages_pt st0 root (j * NPTENTRIES + k) (List.range NPTENTRIES)
        | none => []) ++ fork_pages_pd st0 root j ks := by
  unfold fork_pages_pd
  rw [List.flatMap_cons]

/-- The loop of `fork` over a page directory of the first three gigabytes:
with three free frames for each page to duplicate it ends, at its last index
or by `goto done`, calls `duppage` for exactly the pages to duplicate, in
order, and keeps the invariant; it ends by `goto done` when an entry at or
above `UTOP` is present. -/
theorem fork_pd_loop_user {lg cpu envid c d proot croot : Nat} {st0 : Kernel}
    {l0 : List Nat} {labP labC0 : Nat → Option (List Nat)} {j b m : Nat}
    (ctx : ForkCtx lg cpu envid c d proot croot st0 l0 labP labC0)
    (hj : j < 3) (hpd : leaf_from st0 [0, j] proot = some (some b)) :
    ∀ (n s : Nat) (st : Kernel) (l log : List Nat), s + n ≤ 512 →
      ForkInv proot croot st0 l0 labP labC0 st l ((j * NPTENTRIES + s) * NPTENTRIES) →
      3 * (fork_pages_pd st0 proot j (List.range' s n)).length + m ≤ l.length →
      ∃ st' l' dn, fork_pd_loop lg cpu envid proot j (List.range' s n) st log =
          some (st', log ++ fork_pages_pd st0 proot j (List.range' s n), dn) ∧
        ForkInv proot croot st0 l0 labP labC0 st' l'
          ((j * NPTENTRIES + s + n) * NPTENTRIES) ∧
        m ≤ l'.length ∧
        (dn = false → ∀ k, s ≤ k → k < s + n → 1508 ≤ j * NPTENTRIES + k →
          present (st0.mem b k) = false) ∧
        (dn = true → 1508 < j * NPTENTRIES + s + n) := by
  intro n
  induction n with
  | zero =>
    intro s st l log _ inv hb
    refine ⟨st, l, false, ?_, by rw [Nat.add_zero]; exact inv, ?_, ?_, ?_⟩
    · rw [List.range'_zero, fork_pd_loop_nil]
      unfold fork_pages_pd
      rw [List.flatMap_nil, List.append_nil]
    · omega
    · intro _ k h1 h2
      omega
    · intro h
      cases h
  | succ n ih =>
    intro s st l log hs inv hb
    have hs512 : s < 512 := by omega
    have hj512 : j < 512 := by omega
    have hlab : labP b = some [0, j] := by
      have := (tree_leaf ctx.treeP [0, j] [] proot ctx.treeP.root_lab (by simp)
        (by simp only [List.nil_append, UserPath]; exact ⟨trivial, hj⟩)).2 b hpd
      simpa using this
    have hpdst : leaf_from st [0, j] proot = some (some b) := by
      rw [forkInv_leaf ctx inv [0, j] (by simp)
        (by simp only [UserPath]; exact ⟨trivial, hj⟩)]
      exact hpd
    have hmem : st.mem b s = st0.mem b s := inv.memP b [0, j] s hlab (by simp)
    have hu0 : uvpd st0 proot (j * NPTENTRIES + s) = some (st0.mem b s) := by
      rw [uvpd_eq st0 proot hj512 hs512, hpd]
    have hu : uvpd st proot (j * NPTENTRIES + s) = some (st0.mem b s) := by
      rw [uvpd_eq st proot hj512 hs512, hpdst]
      simp only [hmem]
    have hnext : ForkInv proot croot st0 l0 labP labC0 st l
        ((j * NPTENTRIES + (s + 1)) * NPTENTRIES) :=
      forkInv_mono inv (by unfold NPTENTRIES; omega)
    have eadd : (j * NPTENTRIES + (s + 1) + n) * NPTENTRIES =
        (j * NPTENTRIES + s + (n + 1)) * NPTENTRIES := by
      unfold NPTENTRIES
      omega
    rw [List.range'_succ, fork_pages_pd_cons, hu0] at hb ⊢
    rw [fork_pd_loop_cons, hu]
    simp only at hb ⊢
    by_cases hP : st0.mem b s &&& PTE_P = 0
    · simp only [if_pos hP, List.nil_append] at hb ⊢
      obtain ⟨st', l', dn, h1, h2, h3, h4, h5⟩ := ih (s + 1) st l log (by omega) hnext hb
      refine ⟨st', l', dn, h1, by rw [eadd] at h2; exact h2, h3, ?_,
        fun hdn => by have := h5 hdn; omega⟩
      intro hdn k hk1 hk2 hk3
      by_cases hks : k = s
      · subst hks
        unfold present
        simp [hP]
      · exact h4 hdn k (by omega) (by omega) hk3
    · simp only [if_neg hP] at hb ⊢
      have hpr : present (st0.mem b s) = true := by
        unfold present
        simpa using hP
      obtain ⟨pt, hpt⟩ := tree_child ctx.treeP (show [0, j].length < 3 by simp)
        (show UserPath ([0, j] ++ [s]) by
          simp only [List.cons_append, List.nil_append, UserPath]; exact ⟨trivial, hj⟩)
        (show UserPath [0, j] by simp only [UserPath]; exact ⟨trivial, hj⟩) hpd hpr
      by_cases hreg : j * NPTENTRIES + s < 1508
      · have inv0 : ForkInv proot croot st0 l0 labP labC0 st l
            ((j * NPTENTRIES + s) * NPTENTRIES + 0) := by
          rw [Nat.add_zero]
          exact inv
        rw [range_nptentries_zero] at hb ⊢
        rw [List.length_append] at hb
        obtain ⟨st1, l1, hpt1, inv1, hlen1⟩ :=
          @fork_pt_loop_user lg cpu envid c d proot croot st0 l0 labP labC0 j s pt
            (3 * (fork_pages_pd st0 proot j (List.range' (s + 1) n)).length + m)
            ctx hj hs512 hreg hpt 512 0 st l log (by omega) inv0 (by omega)
        rw [hpt1]
        simp only
        have epos : (j * NPTENTRIES + s) * NPTENTRIES + 0 + 512 =
            (j * NPTENTRIES + (s + 1)) * NPTENTRIES := by
          unfold NPTENTRIES
          omega
        rw [epos] at inv1
        obtain ⟨st', l', dn, h1, h2, h3, h4, h5⟩ := ih (s + 1) st1 l1
          (log ++ fork_pages_pt st0 proot (j * NPTENTRIES + s) (List.range' 0 512))
          (by omega) inv1 hlen1
        refine ⟨st', l', dn, ?_, by rw [eadd] at h2; exact h2, h3, ?_,
          fun hdn => by have := h5 hdn; omega⟩
        · rw [h1, List.append_assoc]
        · intro hdn k hk1 hk2 hk3
          by_cases hks : k = s
          · subst hks
            omega
          · exact h4 hdn k (by omega) (by omega) hk3
      · rw [fork_pt_loop_above lg cpu envid proot _ st log (by omega)
          (by unfold NPTENTRIES; omega)]
        simp only
        rw [fork_pages_pt_above st0 proot _ (by omega), List.nil_append] at hb ⊢
        rw [fork_pages_pd_above st0 proot j (List.range' (s + 1) n)
          (fun k hk => by rw [List.mem_range'_1] at hk; omega)] at hb ⊢
        refine ⟨st, l, true, by rw [List.append_nil], ?_, by omega, ?_, fun _ => by omega⟩
        · exact forkInv_mono inv (by unfold NPTENTRIES; omega)
        · intro hdn
          cases hdn
theorem fork_pdpt_loop_nil (lg cpu envid root i : Nat) (st : Kernel) (log : List Nat) :
    fork_pdpt_loop lg cpu envid root i [] st log = some (st, log, false) := rfl

theorem fork_pdpt_loop_cons (lg cpu envid root i j : Nat) (js : List Nat) (st : Kernel)
    (log : List Nat) :
    fork_pdpt_loop lg cpu envid root i (j :: js) st log =
      match uvpde st root (i * NPTENTRIES + j) with
      | none => none
      | some e =>
        if e &&& PTE_P = 0 then fork_pdpt_loop lg cpu envid root i js st log
        else
          match fork_pd_loop lg cpu envid root (i * NPTENTRIES + j)
              (List.range NPTENTRIES) st log with
          | none => none
          | some (st1, log1, true) => some (st1, log1, true)
          | some (st1, log1, false) => fork_pdpt_loop lg cpu envid root i js st1 log1 :=
  rfl

theorem fork_pml4_loop_cons (lg cpu envid root i : Nat) (is : List Nat) (st : Kernel)
    (log : List Nat) :
    fork_pml4_loop lg cpu envid root (i :: is) st log =
      if uvpml4e st root i &&& PTE_P = 0 then fork_pml4_loop lg cpu envid root is st log
      else
        match fork_pdpt_loop lg cpu envid root i (List.range NPTENTRIES) st log with
        | none => none
        | some (st1, log1, true) => some (st1, log1, true)
        | some (st1, log1, false) => fork_pml4_loop lg cpu envid root is st1 log1 := rfl

theorem fork_pages_pdpt_cons (st0 : Kernel) (root i j : Nat) (js : List Nat) :
    fork_pages_pdpt st0 root i (j :: js) =
      (match uvpde st0 root (i * NPTENTRIES + j) with
        | some e =>
          if e &&& PTE_P = 0 then []
          else fork_pages_pd st0 root (i * NPTENTRIES + j) (List.range NPTENTRIES)
        | none => []) ++ fork_pages_pdpt st0 root i js := by
  unfold fork_pages_pdpt
  rw [List.flatMap_cons]

/-- Once the loop over the PDPT indices has taken `goto done`, further
indices are not looked at. -/
theorem fork_pdpt_loop_done (lg cpu envid root i : Nat) (ys : List Nat) :
    ∀ (xs : List Nat) (st : Kernel) (log : List Nat) (st' : Kernel) (log' : List Nat),
      fork_pdpt_loop lg cpu envid root i xs st log = some (st', log', true) →
      fork_pdpt_loop lg cpu envid root i (xs ++ ys) st log = some (st', log', true) := by
  intro xs
  induction xs with
  | nil =>
    intro st log st' log' h
    rw [fork_pdpt_loop_nil] at h
    cases h
  | cons j js ih =>
    intro st log st' log' h
    rw [List.cons_append, fork_pdpt_loop_cons]
    rw [fork_pdpt_loop_cons] at h
    cases hu : uvpde st root (i * NPTENTRIES + j) with
    | none => rw [hu] at h; cases h
    | some e =>
      rw [hu] at h
      simp only at h ⊢
      by_cases hP : e &&& PTE_P = 0
      · rw [if_pos hP] at h ⊢
        exact ih st log st' log' h
      · rw [if_neg hP] at h ⊢
        cases hpd : fork_pd_loop lg cpu envid root (i * NPTENTRIES + j)
            (List.range NPTENTRIES) st log with
        | none => rw [hpd] at h; cases h
        | some r =>
          obtain ⟨st1, log1, dn⟩ := r
          rw [hpd] at h
          cases dn with
          | true => exact h
          | false => exact ih st1 log1 st' log' h

/-- The loop of `fork` over the first three entries of the PDPT of PML4 slot
0: it ends, calls `duppage` for exactly the pages to duplicate, in order, and
keeps the invariant; it ends by `goto done` when a page-directory entry at or
above `UTOP` is present. -/
theorem fork_pdpt_loop_user {lg cpu envid c d proot croot : Nat} {st0 : Kernel}
    {l0 : List Nat} {labP labC0 : Nat → Option (List Nat)} {a m : Nat}
    (ctx : ForkCtx lg cpu envid c d proot croot st0 l0 labP labC0)
    (ha : leaf_from st0 [0] proot = some (some a)) :
    ∀ (n s : Nat) (st : Kernel) (l log : List Nat), s + n ≤ 3 →
      ForkInv proot croot st0 l0 labP labC0 st l (s * NPTENTRIES * NPTENTRIES) →
      3 * (fork_pages_pdpt st0 proot 0 (List.range' s n)).length + m ≤ l.length →
      ∃ st' l' dn pos, fork_pdpt_loop lg cpu envid proot 0 (List.range' s n) st log =
          some (st', log ++ fork_pages_pdpt st0 proot 0 (List.range' s n), dn) ∧
        ForkInv proot croot st0 l0 labP labC0 st' l' pos ∧
        (dn = false → pos = (s + n) * NPTENTRIES * NPTENTRIES) ∧
        m ≤ l'.length ∧
        (dn = false → ∀ j k b, s ≤ j → j < s + n → k < 512 → 1508 ≤ j * NPTENTRIES + k →
          leaf_from st0 [0, j] proot = some (some b) → present (st0.mem b k) = false) := by
  intro n
  induction n with
  | zero =>
    intro s st l log _ inv hb
    refine ⟨st, l, false, _, ?_, inv, fun _ => by rw [Nat.add_zero], by omega, ?_⟩
    · rw [List.range'_zero, fork_pdpt_loop_nil]
      unfold fork_pages_pdpt
      rw [List.flatMap_nil, List.append_nil]
    · intro _ j k b h1 h2
      omega
  | succ n ih =>
    intro s st l log hs inv hb
    have hs3 : s < 3 := by omega
    have hs512 : s < 512 := by omega
    have hlab : labP a = some [0] := by
      have := (tree_leaf ctx.treeP [0] [] proot ctx.treeP.root_lab (by simp)
        (by simp only [List.nil_append, UserPath])).2 a ha
      simpa using this
    have hast : leaf_from st [0] proot = some (some a) := by
      rw [forkInv_leaf ctx inv [0] (by simp) (by simp only [UserPath])]
      exact ha
    have hmem : st.mem a s = st0.mem a s := inv.memP a [0] s hlab (by simp)
    have hu0 : uvpde st0 proot (0 * NPTENTRIES + s) = some (st0.mem a s) := by
      rw [uvpde_eq st0 proot hs512, ha]
    have hu : uvpde st proot (0 * NPTENTRIES + s) = some (st0.mem a s) := by
      rw [uvpde_eq st proot hs512, hast]
      simp only [hmem]
    have hnext : ForkInv proot croot st0 l0 labP labC0 st l
        ((s + 1) * NPTENTRIES * NPTENTRIES) :=
      forkInv_mono inv (by unfold NPTENTRIES; omega)
    have ez : 0 * NPTENTRIES + s = s := by omega
    have hsplit : leaf_from st0 [0, s] proot =
        if present (st0.mem a s) then
          match KADDR st0 (PTE_ADDR (st0.mem a s)) with
          | none => none
          | some t => some (some t)
        else some none := by
      have := leaf_from_append st0 [0] [s] proot
      rw [ha] at this
      simp only [List.cons_append, List.nil_append] at this
      rw [this]
      rfl
    rw [List.range'_succ, fork_pages_pdpt_cons, hu0] at hb ⊢
    rw [fork_pdpt_loop_cons, hu]
    simp only at hb ⊢
    by_cases hP : st0.mem a s &&& PTE_P = 0
    · simp only [if_pos hP, List.nil_append] at hb ⊢
      obtain ⟨st', l', dn, pos, h1, h2, h2p, h3, h4⟩ :=
        ih (s + 1) st l log (by omega) hnext hb
      refine ⟨st', l', dn, pos, h1, h2, fun hdn => by rw [h2p hdn]; unfold NPTENTRIES; omega,
        h3, ?_⟩
      intro hdn j k b hj1 hj2 hk hk3 hb2
      by_cases hjs : j = s
      · subst hjs
        exfalso
        have hnp : present (st0.mem a j) = false := by
          unfold present
          simp [hP]
        rw [hsplit, hnp] at hb2
        simp at hb2
      · exact h4 hdn j k b (by omega) (by omega) hk hk3 hb2
    · simp only [if_neg hP] at hb ⊢
      have hpr : present (st0.mem a s) = true := by
        unfold present
        simpa using hP
      obtain ⟨b, hb0⟩ := tree_child ctx.treeP (show [0].length < 3 by simp)
        (show UserPath ([0] ++ [s]) by
          simp only [List.cons_append, List.nil_append, UserPath]; exact ⟨trivial, hs3⟩)
        (show UserPath [0] by simp only [UserPath]) ha hpr
      simp only [List.cons_append, List.nil_append] at hb0
      have inv0 : ForkInv proot croot st0 l0 labP labC0 st l
          ((s * NPTENTRIES + 0) * NPTENTRIES) := by
        rw [Nat.add_zero]
        exact inv
      rw [ez, range_nptentries_zero] at hb ⊢
      rw [List.length_append] at hb
      obtain ⟨st1, l1, dn1, hpd1, inv1, hlen1, hno1, hyes1⟩ :=
        @fork_pd_loop_user lg cpu envid c d proot croot st0 l0 labP labC0 s b
          (3 * (fork_pages_pdpt st0 proot 0 (List.range' (s + 1) n)).length + m)
          ctx hs3 hb0 512 0 st l log (by omega) inv0 (by omega)
      rw [hpd1]
      cases dn1 with
      | true =>
        simp only
        have hn0 : n = 0 := by
          have := hyes1 rfl
          unfold NPTENTRIES at this
          omega
        subst hn0
        refine ⟨st1, l1, true, _, ?_, inv1, (fun h => by cases h), by omega,
          (fun h => by cases h)⟩
        rw [List.range'_zero]
        unfold fork_pages_pdpt
        rw [List.flatMap_nil, List.append_nil]
      | false =>
        simp only
        have epos : (s * NPTENTRIES + 0 + 512) * NPTENTRIES =
            (s + 1) * NPTENTRIES * NPTENTRIES := by
          unfold NPTENTRIES
          omega
        rw [epos] at inv1
        obtain ⟨st', l', dn, pos, h1, h2, h2p, h3, h4⟩ := ih (s + 1) st1 l1
          (log ++ fork_pages_pd st0 proot s (List.range' 0 512)) (by omega) inv1 hlen1
        refine ⟨st', l', dn, pos, ?_, h2,
          fun hdn => by rw [h2p hdn]; unfold NPTENTRIES; omega, h3, ?_⟩
        · rw [h1, List.append_assoc]
        · intro hdn j k b2 hj1 hj2 hk hk3 hb2
          by_cases hjs : j = s
          · subst hjs
            rw [hb0] at hb2
            cases hb2
            exact hno1 rfl k (by omega) (by omega) hk3
          · exact h4 hdn j k b2 (by omega) (by omega) hk hk3 hb2
theorem fork_pages_pt_bounds {st0 : Kernel} {root idx x : Nat} {ls : List Nat}
    (hls : ∀ l, l ∈ ls → l < 512) (h : x ∈ fork_pages_pt st0 root idx ls) :
    idx * NPTENTRIES ≤ x ∧ x < idx * NPTENTRIES + 512 ∧ dup_page st0 root x = true := by
  unfold fork_pages_pt at h
  rw [List.mem_filter, List.mem_map] at h
  obtain ⟨⟨l, hl, rfl⟩, hd⟩ := h
  have := hls l hl
  exact ⟨by omega, by omega, hd⟩

theorem fork_pages_pt_sorted (st0 : Kernel) (root idx s n : Nat) :
    (fork_pages_pt st0 root idx (List.range' s n)).Pairwise (fun a b => a < b) := by
  unfold fork_pages_pt
  refine List.Pairwise.filter _ ?_
  rw [List.pairwise_map]
  exact (List.pairwise_lt_range' s n).imp (fun h => by omega)

theorem fork_pages_pd_bounds {st0 : Kernel} {root j x : Nat} {ks : List Nat}
    (h : x ∈ fork_pages_pd st0 root j ks) :
    ∃ k, k ∈ ks ∧ (j * NPTENTRIES + k) * NPTENTRIES ≤ x ∧
      x < (j * NPTENTRIES + k) * NPTENTRIES + 512 ∧ dup_page st0 root x = true := by
  unfold fork_pages_pd at h
  rw [List.mem_flatMap] at h
  obtain ⟨k, hk, h⟩ := h
  split at h
  · split at h
    · cases h
    · rw [range_nptentries_zero] at h
      have := fork_pages_pt_bounds (fun l hl => by rw [List.mem_range'_1] at hl; omega) h
      exact ⟨k, hk, this⟩
  · cases h

theorem fork_pages_pd_sorted (st0 : Kernel) (root j s n : Nat) :
    (fork_pages_pd st0 root j (List.range' s n)).Pairwise (fun a b => a < b) := by
  unfold fork_pages_pd
  rw [List.pairwise_flatMap]
  constructor
  · intro k _
    split
    · split
      · exact List.Pairwise.nil
      · rw [range_nptentries_zero]
        exact fork_pages_pt_sorted st0 root _ 0 512
    · exact List.Pairwise.nil
  · refine (List.pairwise_lt_range' s n).imp ?_
    intro k1 k2 hk x hx y hy
    have hx1 : x < (j * NPTENTRIES + k1) * NPTENTRIES + 512 := by
      split at hx
      · split at hx
        · cases hx
        · rw [range_nptentries_zero] at hx
          exact (fork_pages_pt_bounds
            (fun l hl => by rw [List.mem_range'_1] at hl; omega) hx).2.1
      · cases hx
    have hy1 : (j * NPTENTRIES + k2) * NPTENTRIES ≤ y := by
      split at hy
      · split at hy
        · cases hy
        · rw [range_nptentries_zero] at hy
          exact (fork_pages_pt_bounds
            (fun l hl => by rw [List.mem_range'_1] at hl; omega) hy).1
      · cases hy
    unfold NPTENTRIES at hx1 hy1
    omega

theorem fork_pages_pdpt_bounds {st0 : Kernel} {root x : Nat} {js : List Nat}
    (h : x ∈ fork_pages_pdpt st0 root 0 js) :
    ∃ j, j ∈ js ∧ j * NPTENTRIES * NPTENTRIES ≤ x ∧
      x < (j + 1) * NPTENTRIES * NPTENTRIES ∧ dup_page st0 root x = true := by
  unfold fork_pages_pdpt at h
  rw [List.mem_flatMap] at h
  obtain ⟨j, hj, h⟩ := h
  split at h
  · split at h
    · cases h
    · rw [range_nptentries_zero] at h
      obtain ⟨k, hk, h1, h2, h3⟩ := fork_pages_pd_bounds h
      rw [List.mem_range'_1] at hk
      refine ⟨j, hj, ?_, ?_, h3⟩
      · unfold NPTENTRIES at h1 ⊢
        omega
      · unfold NPTENTRIES at h2 ⊢
        omega
  · cases h

/-- The pages to duplicate are listed in increasing order, so none of them
twice. -/
theorem fork_pages_pdpt_sorted (st0 : Kernel) (root s n : Nat) :
    (fork_pages_pdpt st0 root 0 (List.range' s n)).Pairwise (fun a b => a < b) := by
  have hsing : ∀ j x, x ∈ fork_pages_pdpt st0 root 0 [j] →
      j * NPTENTRIES * NPTENTRIES ≤ x ∧ x < (j + 1) * NPTENTRIES * NPTENTRIES := by
    intro j x hx
    obtain ⟨j', hj', h1, h2, _⟩ := fork_pages_pdpt_bounds hx
    rw [List.mem_singleton] at hj'
    subst hj'
    exact ⟨h1, h2⟩
  have hone : ∀ j, fork_pages_pdpt st0 root 0 [j] =
      match uvpde st0 root (0 * NPTENTRIES + j) with
      | some e =>
        if e &&& PTE_P = 0 then []
        else fork_pages_pd st0 root (0 * NPTENTRIES + j) (List.range NPTENTRIES)
      | none => [] := by
    intro j
    unfold fork_pages_pdpt
    rw [List.flatMap_cons, List.flatMap_nil, List.append_nil]
  unfold fork_pages_pdpt
  rw [List.pairwise_flatMap]
  constructor
  · intro j _
    split
    · split
      · exact List.Pairwise.nil
      · rw [range_nptentries_zero]
        exact fork_pages_pd_sorted st0 root _ 0 512
    · exact List.Pairwise.nil
  · refine (List.pairwise_lt_range' s n).imp ?_
    intro j1 j2 hj x hx y hy
    have hx1 := (hsing j1 x (by rw [hone]; exact hx)).2
    have hy1 := (hsing j2 y (by rw [hone]; exact hy)).1
    unfold NPTENTRIES at hx1 hy1
    omega

/-- The pages `fork` duplicates: exactly those of `dup_page`. -/
theorem mem_fork_pages (st0 : Kernel) (root pn : Nat) :
    pn ∈ fork_pages_pdpt st0 root 0 (List.range' 0 3) ↔ dup_page st0 root pn = true := by
  constructor
  · intro h
    obtain ⟨_, _, _, _, h⟩ := fork_pages_pdpt_bounds h
    exact h
  · intro h
    have hd := h
    unfold dup_page at h
    simp only [Bool.and_eq_true, decide_eq_true_eq, Bool.not_eq_true',
      decide_eq_false_iff_not] at h
    obtain ⟨⟨hlt, _⟩, hpres⟩ := h
    rw [shift_mul, UTOP_val] at hlt
    have hj : pn / 512 / 512 < 3 := by omega
    have hk : pn / 512 % 512 < 512 := Nat.mod_lt _ (by decide)
    have hl : pn % 512 < 512 := Nat.mod_lt _ (by decide)
    have hpn : pn = ((pn / 512 / 512) * NPTENTRIES + pn / 512 % 512) * NPTENTRIES + pn % 512 := by
      unfold NPTENTRIES
      omega
    generalize pn / 512 / 512 = j at hj hpn
    generalize pn / 512 % 512 = k at hk hpn
    generalize pn % 512 = l at hl hpn
    have hidx := pn_indices (show j < 512 by omega) hk hl
    rw [← hpn] at hidx
    unfold pte_present at hpres
    cases hu : uvpt st0 root pn with
    | none => rw [hu] at hpres; cases hpres
    | some pte =>
      obtain ⟨pt, hlf, _, _⟩ := page_lookup_of_uvpt hu
      rw [hidx.1] at hlf
      obtain ⟨t1, t2, h1, k1, h2, k2, h3, k3⟩ := leaf_from_three hlf
      have hl1 : leaf_from st0 [0] root = some (some t1) := by
        simp only [leaf_from, h1, if_true, k1]
      have hl2 : leaf_from st0 [0, j] root = some (some t2) := by
        simp only [leaf_from, h1, if_true, k1, h2, k2]
      have ez : 0 * NPTENTRIES + j = j := by omega
      have hp2 : ¬ st0.mem t1 j &&& PTE_P = 0 := by
        unfold present at h2
        simpa using h2
      have hp3 : ¬ st0.mem t2 k &&& PTE_P = 0 := by
        unfold present at h3
        simpa using h3
      unfold fork_pages_pdpt
      rw [List.mem_flatMap]
      refine ⟨j, by rw [List.mem_range'_1]; omega, ?_⟩
      rw [uvpde_eq st0 root (show j < 512 by omega), hl1]
      simp only [if_neg hp2]
      rw [ez]
      unfold fork_pages_pd
      rw [List.mem_flatMap]
      refine ⟨k, by rw [List.mem_range]; exact hk, ?_⟩
      rw [uvpd_eq st0 root (show j < 512 by omega) hk, hl2]
      simp only [if_neg hp3]
      unfold fork_pages_pt
      rw [List.mem_filter, List.mem_map]
      exact ⟨⟨l, by rw [List.mem_range]; exact hl, hpn.symm⟩, hd⟩

/-- The four loops of `fork`, from the state `st0` of the hypotheses: when a
page directory entry at or above `UTOP` is present in the third gigabyte, they
end by `goto done` inside PML4 slot 0, having called `duppage` for exactly the
pages to duplicate, in increasing order. -/
theorem fork_loops {lg cpu envid c d proot croot : Nat} {st0 : Kernel}
    {l0 : List Nat} {labP labC0 : Nat → Option (List Nat)} {m : Nat}
    (ctx : ForkCtx lg cpu envid c d proot croot st0 l0 labP labC0)
    (inv : ForkInv proot croot st0 l0 labP labC0 st0 l0 0)
    (hdone : ∃ b k, leaf_from st0 [0, 2] proot = some (some b) ∧ 484 ≤ k ∧ k < 512 ∧
      present (st0.mem b k) = true)
    (hfree : 3 * (fork_pages_pdpt st0 proot 0 (List.range' 0 3)).length + m ≤ l0.length) :
    ∃ st' l' pos, fork_pml4_loop lg cpu envid proot (List.range NPTENTRIES) st0 [] =
        some (st', fork_pages_pdpt st0 proot 0 (List.range' 0 3), true) ∧
      ForkInv proot croot st0 l0 labP labC0 st' l' pos ∧ m ≤ l'.length := by
  obtain ⟨b, k, hb, hk1, hk2, hpk⟩ := hdone
  have ha : ∃ a, leaf_from st0 [0] proot = some (some a) := by
    have := leaf_from_append st0 [0] [2] proot
    simp only [List.cons_append, List.nil_append] at this
    rw [hb] at this
    cases h0 : leaf_from st0 [0] proot with
    | none => rw [h0] at this; cases this
    | some o =>
      cases o with
      | none => rw [h0] at this; cases this
      | some a => exact ⟨a, rfl⟩
  obtain ⟨a, ha⟩ := ha
  have hp0 : ¬ uvpml4e st0 proot 0 &&& PTE_P = 0 := by
    unfold uvpml4e
    intro h
    have hnp : present (st0.mem proot 0) = false := by
      unfold present
      simp [h]
    simp only [leaf_from, hnp] at ha
    cases ha
  have inv0 : ForkInv proot croot st0 l0 labP labC0 st0 l0 (0 * NPTENTRIES * NPTENTRIES) := by
    rw [Nat.zero_mul, Nat.zero_mul]
    exact inv
  obtain ⟨st', l', dn, pos, h1, h2, _, h3, h4⟩ :=
    fork_pdpt_loop_user ctx ha 3 0 st0 l0 [] (by omega) inv0 hfree
  have hdn : dn = true := by
    cases dn with
    | true => rfl
    | false =>
      have := h4 rfl 2 k b (by omega) (by omega) hk2 (by unfold NPTENTRIES; omega) hb
      rw [this] at hpk
      cases hpk
  subst hdn
  rw [List.nil_append] at h1
  have hsplit : List.range NPTENTRIES = List.range' 0 3 ++ List.range' (0 + 3) 509 := by
    rw [List.range'_append_1, range_nptentries_zero]
  refine ⟨st', l', pos, ?_, h2, h3⟩
  rw [range_nptentries, fork_pml4_loop_cons, if_neg hp0, hsplit,
    fork_pdpt_loop_done lg cpu envid proot 0 _ _ st0 [] st' _ h1]
/-- A store in `envs[d]` that keeps the status, the id and the parent id of
the slot does not change what `envid2env` answers. -/
theorem envid2env_setEnv (lg : Nat) (st : Kernel) (cpu envid d : Nat) (e : Env)
    (checkperm : Bool)
    (h1 : e.env_status = (st.envs d).env_status) (h2 : e.env_id = (st.envs d).env_id)
    (h3 : e.env_parent_id = (st.envs d).env_parent_id) :
    envid2env lg (st.setEnv d e) cpu envid checkperm = envid2env lg st cpu envid checkperm := by
  have hs : ∀ i, ((st.setEnv d e).envs i).env_status = (st.envs i).env_status := by
    intro i
    by_cases hi : i = d
    · subst hi
      simp [Kernel.setEnv, h1]
    · simp [Kernel.setEnv, Function.update_noteq hi]
  have hi : ∀ i, ((st.setEnv d e).envs i).env_id = (st.envs i).env_id := by
    intro i
    by_cases hi : i = d
    · subst hi
      simp [Kernel.setEnv, h2]
    · simp [Kernel.setEnv, Function.update_noteq hi]
  have hp : ∀ i, ((st.setEnv d e).envs i).env_parent_id = (st.envs i).env_parent_id := by
    intro i
    by_cases hi : i = d
    · subst hi
      simp [Kernel.setEnv, h3]
    · simp [Kernel.setEnv, Function.update_noteq hi]
  have hc : curenv (st.setEnv d e) cpu = curenv st cpu := rfl
  unfold envid2env
  simp only [hs, hi, hp, hc]

/-- The end of `fork`, after the loops: with four free frames the child gets
a fresh zero-filled page for its exception stack, the upcall and the status
`ENV_RUNNABLE`; nothing else of its descriptor changes. -/
theorem fork_tail {lg cpu envid c d proot croot : Nat} {st0 st1 : Kernel}
    {l0 l1 : List Nat} {labP labC0 : Nat → Option (List Nat)} {pos : Nat} (upcall : Nat)
    (ctx : ForkCtx lg cpu envid c d proot croot st0 l0 labP labC0)
    (inv : ForkInv proot croot st0 l0 labP labC0 st1 l1 pos) (hfree : 4 ≤ l1.length) :
    ∃ st2 st4 p slot,
      sys_page_alloc lg st1 cpu envid (UXSTACKTOP - PGSIZE) (PTE_P ||| PTE_U ||| PTE_W) =
        some (0, st2) ∧
      sys_env_set_pgfault_upcall lg st2 cpu envid upcall =
        some (0, st2.setEnv d { st2.envs d with env_pgfault_upcall := upcall }) ∧
      sys_env_set_status lg (st2.setEnv d { st2.envs d with env_pgfault_upcall := upcall })
        cpu envid ENV_RUNNABLE = some (0, st4) ∧
      p ∈ l0 ∧
      page_lookup st4 croot (UXSTACKTOP - PGSIZE) = some (some (p, slot)) ∧
      st4.mem slot.1 slot.2 &&& 0xFFF = PTE_P ||| PTE_U ||| PTE_W ∧
      (st4.pages p).pp_ref = 1 ∧ (∀ j, st4.mem p j = 0) ∧
      st4.envs d = { st0.envs d with env_pgfault_upcall := upcall, env_status := ENV_RUNNABLE } ∧
      (∀ i, i ≠ d → st4.envs i = st0.envs i) := by
  have henv : envid2env lg st1 cpu envid true = some (0, some d) := by
    rw [envid2env_frame inv.frame]
    exact ctx.child
  have hroot : (st1.envs d).env_pml4e = some croot := by
    rw [inv.frame.envs]
    exact ctx.hcroot
  have hnp : st1.npages ≤ 2 ^ 52 := by
    rw [inv.frame.npages]
    exact ctx.np
  have hfb : ∀ g, g ∈ l1 → g < st1.npages := by
    intro g hg
    rw [inv.frame.npages]
    exact ctx.fb g (inv.lsub g hg)
  obtain ⟨labC, htC, _⟩ := inv.treeC
  obtain ⟨st2, h2⟩ := @sys_page_alloc_total lg st1 cpu envid (UXSTACKTOP - PGSIZE)
    (PTE_P ||| PTE_U ||| PTE_W) d croot l1 labC henv hroot inv.plist hnp hfb htC inv.childX
    (by decide) (by decide) (by decide) hfree
  obtain ⟨_, _, p, xs, l2, lab2, pt, hlx, _, _, _, _, _, _, _, hE2, hlk2, hfl2, _, href2, _,
      hz2, _, _, _, _⟩ :=
    sys_page_alloc_fresh henv hroot inv.plist hnp hfb htC inv.childX (by decide) h2 (by decide)
  have hE02 : EnvFrame st0 st2 := inv.frame.trans hE2
  have henv2 : envid2env lg st2 cpu envid true = some (0, some d) := by
    rw [envid2env_frame hE02]
    exact ctx.child
  have h3 : sys_env_set_pgfault_upcall lg st2 cpu envid upcall =
      some (0, st2.setEnv d { st2.envs d with env_pgfault_upcall := upcall }) := by
    unfold sys_env_set_pgfault_upcall
    rw [henv2]
    simp
  have henv3 : envid2env lg (st2.setEnv d { st2.envs d with env_pgfault_upcall := upcall })
      cpu envid true = some (0, some d) := by
    exact (envid2env_setEnv lg st2 cpu envid d
      { st2.envs d with env_pgfault_upcall := upcall } true rfl rfl rfl).trans henv2
  have h4 : sys_env_set_status lg
      (st2.setEnv d { st2.envs d with env_pgfault_upcall := upcall }) cpu envid ENV_RUNNABLE =
      some (0, (st2.setEnv d { st2.envs d with env_pgfault_upcall := upcall }).setEnv d
        { (st2.setEnv d { st2.envs d with env_pgfault_upcall := upcall }).envs d with
          env_status := ENV_RUNNABLE }) := by
    unfold sys_env_set_status
    rw [if_neg (by simp), henv3]
    simp
  refine ⟨st2, _, p, (pt, PTX (UXSTACKTOP - PGSIZE)), h2, h3, h4, ?_, ?_, ?_, ?_, ?_, ?_, ?_⟩
  · exact inv.lsub p (by rw [hlx]; exact List.mem_cons_self _ _)
  · have e : ∀ (s : Kernel) (e1 : Env), page_lookup (s.setEnv d e1) croot (UXSTACKTOP - PGSIZE) =
        page_lookup s croot (UXSTACKTOP - PGSIZE) :=
      fun s e1 => @page_lookup_congr s (s.setEnv d e1) rfl croot _ (fun _ _ => rfl)
    rw [e, e]
    exact hlk2
  · have e : PTE_P ||| PTE_U ||| PTE_W = (PTE_P ||| PTE_U ||| PTE_W) ||| PTE_U ||| PTE_P := by
      decide
    rw [e, ← hfl2]
    rfl
  · exact href2
  · exact hz2
  · simp only [Kernel.setEnv, Function.update_same, hE02.envs]
  · intro i hi
    simp only [Kernel.setEnv, Function.update_noteq hi, hE02.envs]
theorem dup_page_iff (st : Kernel) (root pn : Nat) :
    dup_page st root pn = true ↔
      (pn <<< PGSHIFT < UTOP ∧ pn <<< PGSHIFT ≠ UXSTACKTOP - PGSIZE ∧
        pte_present st root pn = true) := by
  have hx : UXSTACKTOP = 0xbc800000 := by decide
  have hp : PGSIZE = 4096 := by decide
  unfold dup_page
  simp only [Bool.and_eq_true, decide_eq_true_eq, Bool.not_eq_true', decide_eq_false_iff_not]
  rw [shift_mul, UTOP_val, hx, hp]
  constructor
  · rintro ⟨⟨h1, h2⟩, h3⟩
    exact ⟨h1, by omega, h3⟩
  · rintro ⟨h1, h2, h3⟩
    exact ⟨⟨h1, by omega⟩, h3⟩

/-- The hypotheses of `fork` give the invariant of its loops at their
start. -/
theorem forkInv_start {lg cpu envid c d proot croot : Nat} {st : Kernel} {l : List Nat}
    {labP labC : Nat → Option (List Nat)}
    (ctx : ForkCtx lg cpu envid c d proot croot st l labP labC)
    (hchild : ∀ pn, pn <<< PGSHIFT < UTOP → page_lookup st croot (pn <<< PGSHIFT) = some none)
    (hrefs : ∀ pn f slot, pn <<< PGSHIFT < UTOP →
      page_lookup st proot (pn <<< PGSHIFT) = some (some (f, slot)) →
      (st.pages f).pp_ref < 65535) :
    ForkInv proot croot st l labP labC st l 0 :=
  { frame := EnvFrame.refl st
    plist := ctx.plist
    lsub := fun _ h => h
    treeP := ctx.treeP
    treeC := ⟨labC, ctx.treeC, fun _ h => Or.inl h⟩
    memP := fun _ _ _ _ _ => rfl
    lookP := fun _ _ => rfl
    childU := fun pn _ hlt => hchild pn hlt
    childX := by
      have e : 0xbc7ff <<< PGSHIFT = UXSTACKTOP - PGSIZE := by decide
      rw [← e]
      exact hchild _ (by decide)
    refs := fun pn f slot _ hlt hm => hrefs pn f slot hlt hm }

/-- C34. `fork` in the parent, once `sys_exofork` has returned the child's id
`envid`, in a state where the parent's and the child's tables form two trees
without a common table, the frames the parent maps below `UTOP` are counted
less than 65535 times, are not free, not tables of the child and each mapped
at one page, the child maps nothing below `UTOP`, a page-directory entry at or
above `UTOP` is present in the third gigabyte (the kernel maps `UENVS` at
`UTOP`), and the free list holds three frames for each page to duplicate (all
of them listed in `ps`) and four more: `fork` returns `envid`; it has called
`duppage` once (`log` has no repetition) for exactly the page numbers `pn`
with `pn * PGSIZE < UTOP`, other than the user exception-stack page at
`UXSTACKTOP - PGSIZE`, whose PML4, PDPT, page-directory and page-table
entries are all present, so for no page at or above `UTOP`; afterwards the
child maps a frame `p` taken from the free list, zero-filled and counted
once, at `UXSTACKTOP - PGSIZE` with the flags `PTE_P | PTE_U | PTE_W`, its
upcall is `upcall`, its status is `ENV_RUNNABLE`, and nothing else of its
descriptor has changed: its saved `rax` is the 0 that `sys_exofork` stored,
the value its own call returns. -/
theorem fork_coverage {lg cpu envid c d proot croot : Nat} {st : Kernel} {l : List Nat}
    {labP labC : Nat → Option (List Nat)} (upcall : Nat) (ps : List Nat)
    (ctx : ForkCtx lg cpu envid c d proot croot st l labP labC)
    (hchild : ∀ pn, pn <<< PGSHIFT < UTOP → page_lookup st croot (pn <<< PGSHIFT) = some none)
    (hrefs : ∀ pn f slot, pn <<< PGSHIFT < UTOP →
      page_lookup st proot (pn <<< PGSHIFT) = some (some (f, slot)) →
      (st.pages f).pp_ref < 65535)
    (hdone : ∃ b k, leaf_from st [0, 2] proot = some (some b) ∧ 484 ≤ k ∧ k < 512 ∧
      present (st.mem b k) = true)
    (hps : ∀ pn, pn <<< PGSHIFT < UTOP → pn <<< PGSHIFT ≠ UXSTACKTOP - PGSIZE →
      pte_present st proot pn = true → pn ∈ ps)
    (hfree : 3 * ps.length + 4 ≤ l.length) :
    ∃ st' log p slot,
      fork_parent lg st cpu envid upcall = some (envid, st', log) ∧
      log.Nodup ∧
      (∀ pn, pn ∈ log ↔
        (pn <<< PGSHIFT < UTOP ∧ pn <<< PGSHIFT ≠ UXSTACKTOP - PGSIZE ∧
          pte_present st proot pn = true)) ∧
      p ∈ l ∧
      page_lookup st' croot (UXSTACKTOP - PGSIZE) = some (some (p, slot)) ∧
      st'.mem slot.1 slot.2 &&& 0xFFF = PTE_P ||| PTE_U ||| PTE_W ∧
      (st'.pages p).pp_ref = 1 ∧ (∀ j, st'.mem p j = 0) ∧
      st'.envs d =
        { st.envs d with env_pgfault_upcall := upcall, env_status := ENV_RUNNABLE } ∧
      (∀ i, i ≠ d → st'.envs i = st.envs i) ∧
      ∀ s s0 r, set_pgfault_handler lg s cpu upcall = some (r, s0) →
        sys_exofork lg s0 cpu = some ((envid : Int), st) → 0 < envid →
        fork lg s cpu upcall = some ((envid : Int), st', log) := by
  have hnd : (fork_pages_pdpt st proot 0 (List.range' 0 3)).Nodup :=
    (fork_pages_pdpt_sorted st proot 0 3).imp (fun h => Nat.ne_of_lt h)
  have hlen : (fork_pages_pdpt st proot 0 (List.range' 0 3)).length ≤ ps.length := by
    refine length_le_of_nodup_subset hnd ?_
    intro x hx
    obtain ⟨h1, h2, h3⟩ := (dup_page_iff st proot x).1 ((mem_fork_pages st proot x).1 hx)
    exact hps x h1 h2 h3
  obtain ⟨st1, l1, pos, hloop, inv1, hl1⟩ :=
    @fork_loops lg cpu envid c d proot croot st l labP labC 4 ctx
      (forkInv_start ctx hchild hrefs) hdone (by omega)
  obtain ⟨st2, st4, p, slot, h2, h3, h4, hp, hlk, hfl, href, hz, hd, hoth⟩ :=
    fork_tail upcall ctx inv1 hl1
  have hpar : fork_parent lg st cpu envid upcall =
      some (envid, st4, fork_pages_pdpt st proot 0 (List.range' 0 3)) := by
    unfold fork_parent
    rw [ctx.cur]
    simp only [ctx.hproot, hloop, h2]
    rw [if_neg (by decide)]
    simp only [h3]
    rw [if_neg (by decide)]
    simp only [h4]
    rw [if_neg (by decide)]
  refine ⟨st4, _, p, slot, hpar, hnd, ?_, hp, hlk, hfl, href, hz, hd, hoth, ?_⟩
  · intro pn
    rw [mem_fork_pages, dup_page_iff]
  · intro s s0 r hs hx hpos
    unfold fork
    rw [hs]
    simp only [hx]
    rw [if_neg (by omega), if_neg (by omega), Int.toNat_ofNat, hpar]
    rfl
theorem pte_present_of_lookup {st : Kernel} {root pn f : Nat} {slot : Nat × Nat}
    (h : page_lookup st root (pn <<< PGSHIFT) = some (some (f, slot))) :
    pte_present st root pn = true := by
  unfold pte_present
  rw [uvpt_of_lookup h]
  obtain ⟨pt, hs, _, hpr, _⟩ := page_lookup_some h
  subst hs
  exact hpr

theorem forking_pageList : PageList forking forking_free := by
  refine ⟨?_, by decide, ?_, ?_⟩
  · exact ⟨rfl, rfl, rfl, rfl, rfl, rfl, rfl, rfl, rfl, rfl, rfl, rfl, rfl, rfl, rfl, rfl, rfl,
      rfl, rfl, rfl, rfl, rfl⟩
  · decide
  · intro f hf
    simp only [forking_free, List.mem_cons, List.mem_singleton, List.not_mem_nil, or_false,
      not_or] at hf
    have hc : ¬ (11 ≤ f ∧ f < 31) := by omega
    show (forking.pages f).pp_link = none
    simp only [forking, if_neg hc]

theorem forking_parent_cases {t : Nat} {p : List Nat} (h : forking_parent_tables t = some p) :
    (t = 2 ∧ p = []) ∨ (t = 3 ∧ p = [0]) ∨ (t = 7 ∧ p = [0, 0]) ∨ (t = 8 ∧ p = [0, 0, 0]) ∨
      (t = 9 ∧ p = [0, 2]) ∨ (t = 10 ∧ p = [0, 2, 484]) := by
  unfold forking_parent_tables at h
  split at h
  · rename_i e
    exact Or.inl ⟨e, (Option.some.inj h).symm⟩
  · split at h
    · rename_i e
      exact Or.inr (Or.inl ⟨e, (Option.some.inj h).symm⟩)
    · split at h
      · rename_i e
        exact Or.inr (Or.inr (Or.inl ⟨e, (Option.some.inj h).symm⟩))
      · split at h
        · rename_i e
          exact Or.inr (Or.inr (Or.inr (Or.inl ⟨e, (Option.some.inj h).symm⟩)))
        · split at h
          · rename_i e
            exact Or.inr (Or.inr (Or.inr (Or.inr (Or.inl ⟨e, (Option.some.inj h).symm⟩))))
          · split at h
            · rename_i e
              exact Or.inr (Or.inr (Or.inr (Or.inr (Or.inr ⟨e, (Option.some.inj h).symm⟩))))
            · cases h

theorem forking_tree_parent : TableTree forking forking_free 2 forking_parent_tables := by
  refine ⟨rfl, ?_, ?_, ?_⟩
  · intro t p i hp hlen hu hpres
    rcases forking_parent_cases hp with ⟨ht, hp'⟩ | ⟨ht, hp'⟩ | ⟨ht, hp'⟩ | ⟨ht, hp'⟩ |
      ⟨ht, hp'⟩ | ⟨ht, hp'⟩
    · subst ht hp'
      have hi : i = 0 := hu
      subst hi
      exact ⟨3, by decide, rfl⟩
    · subst ht hp'
      by_cases h0 : i = 0
      · subst h0
        exact ⟨7, by decide, rfl⟩
      · by_cases h2 : i = 2
        · subst h2
          exact ⟨9, by decide, rfl⟩
        · have : present (forking.mem 3 i) = false := by
            simp [forking, two_running, h0, h2, present]
          rw [this] at hpres
          cases hpres
    · subst ht hp'
      by_cases h0 : i = 0
      · subst h0
        exact ⟨8, by decide, rfl⟩
      · have : present (forking.mem 7 i) = false := by
          simp [forking, two_running, h0, present]
        rw [this] at hpres
        cases hpres
    · subst ht hp'
      simp at hlen
    · subst ht hp'
      by_cases h0 : i = 484
      · subst h0
        exact ⟨10, by decide, rfl⟩
      · have : present (forking.mem 9 i) = false := by
          simp [forking, two_running, h0, present]
        rw [this] at hpres
        cases hpres
    · subst ht hp'
      simp at hlen
  · intro t p hp
    rcases forking_parent_cases hp with ⟨ht, hp'⟩ | ⟨ht, hp'⟩ | ⟨ht, hp'⟩ | ⟨ht, hp'⟩ |
      ⟨ht, hp'⟩ | ⟨ht, hp'⟩ <;> subst ht hp'
    · exact ⟨by decide, trivial, by decide⟩
    · exact ⟨by decide, rfl, by decide⟩
    · exact ⟨by decide, ⟨rfl, by decide⟩, by decide⟩
    · exact ⟨by decide, ⟨rfl, by decide⟩, by decide⟩
    · exact ⟨by decide, ⟨rfl, by decide⟩, by decide⟩
    · exact ⟨by decide, ⟨rfl, by decide⟩, by decide⟩
  · intro t p hp
    rcases forking_parent_cases hp with ⟨ht, _⟩ | ⟨ht, _⟩ | ⟨ht, _⟩ | ⟨ht, _⟩ |
      ⟨ht, _⟩ | ⟨ht, _⟩ <;> subst ht <;> decide

theorem forking_child_cases {t : Nat} {p : List Nat} (h : forking_child_tables t = some p) :
    (t = 4 ∧ p = []) ∨ (t = 5 ∧ p = [0]) := by
  unfold forking_child_tables at h
  split at h
  · rename_i e
    exact Or.inl ⟨e, (Option.some.inj h).symm⟩
  · split at h
    · rename_i e
      exact Or.inr ⟨e, (Option.some.inj h).symm⟩
    · cases h

theorem forking_tree_child : TableTree forking forking_free 4 forking_child_tables := by
  refine ⟨rfl, ?_, ?_, ?_⟩
  · intro t p i hp hlen hu hpres
    rcases forking_child_cases hp with ⟨ht, hp'⟩ | ⟨ht, hp'⟩
    · subst ht hp'
      have hi : i = 0 := hu
      subst hi
      exact ⟨5, by decide, rfl⟩
    · subst ht hp'
      have : present (forking.mem 5 i) = false := by
        simp [forking, two_running, present]
      rw [this] at hpres
      cases hpres
  · intro t p hp
    rcases forking_child_cases hp with ⟨ht, hp'⟩ | ⟨ht, hp'⟩ <;> subst ht hp'
    · exact ⟨by decide, trivial, by decide⟩
    · exact ⟨by decide, rfl, by decide⟩
  · intro t p hp
    rcases forking_child_cases hp with ⟨ht, _⟩ | ⟨ht, _⟩ <;> subst ht <;> decide

/-- In `forking` the parent has one page below `UTOP`: page 0, in page
table 8. -/
theorem forking_leaf {va pt : Nat} (hlt : va < UTOP)
    (hlf : leaf_from forking (table_path va) 2 = some (some pt))
    (hpr : present (forking.mem pt (PTX va)) = true) :
    table_path va = table_path 0 ∧ PTX va = PTX 0 ∧ pt = 8 := by
  have hva : UserPath (table_path va) := userPath_table_path va (lt_trans hlt (by decide))
  have hlab := (tree_leaf forking_tree_parent (table_path va) [] 2 rfl
    (by simp [table_path_length]) (by simpa using hva)).2 pt hlf
  rw [List.nil_append] at hlab
  have hlen := table_path_length va
  rcases forking_parent_cases hlab with ⟨_, hp⟩ | ⟨_, hp⟩ | ⟨_, hp⟩ | ⟨ht, hp⟩ |
    ⟨_, hp⟩ | ⟨ht, hp⟩
  · rw [hp] at hlen
    cases hlen
  · rw [hp] at hlen
    cases hlen
  · rw [hp] at hlen
    cases hlen
  · subst ht
    have h0 : PTX va = 0 := by
      by_contra hne
      have : present (forking.mem 8 (PTX va)) = false := by
        simp [forking, two_running, hne, present]
      rw [this] at hpr
      cases hpr
    refine ⟨hp, h0, rfl⟩
  · rw [hp] at hlen
    cases hlen
  · exfalso
    simp only [table_path, List.cons.injEq, and_true] at hp
    obtain ⟨_, h2, h3⟩ := hp
    rw [PDPX_eq] at h2
    rw [PDX_eq] at h3
    rw [UTOP_val] at hlt
    omega

theorem forking_present {pn : Nat} (hlt : pn <<< PGSHIFT < UTOP)
    (h : pte_present forking 2 pn = true) : pn = 0 := by
  unfold pte_present at h
  cases hu : uvpt forking 2 pn with
  | none => rw [hu] at h; cases h
  | some pte =>
    rw [hu] at h
    obtain ⟨pt, hlf, hpte, _⟩ := page_lookup_of_uvpt hu
    have hpr : present (forking.mem pt (PTX (pn <<< PGSHIFT))) = true := by
      rw [← hpte]
      exact h
    obtain ⟨h1, h2, _⟩ := forking_leaf hlt hlf hpr
    have hU : UTOP < 2 ^ 48 := by decide
    have := indices_inj (lt_trans hlt hU) (by decide) (shift_aligned pn) (by decide) h1 h2
    rw [shift_mul] at this
    omega

theorem forking_mapped {va f : Nat} {slot : Nat × Nat} (hlt : va < UTOP)
    (h : page_lookup forking 2 va = some (some (f, slot))) : f = 6 := by
  obtain ⟨pt, _, hlf, hpr, _, _⟩ := page_lookup_some h
  obtain ⟨h1, h2, _⟩ := forking_leaf hlt hlf hpr
  rw [page_lookup_indices forking 2 h1 h2] at h
  have h0 : page_lookup forking 2 0 = some (some (6, (8, 0))) := by decide
  rw [h0] at h
  simp only [Option.some.injEq, Prod.mk.injEq] at h
  exact h.1.symm

theorem forking_child_empty (va : Nat) (hlt : va < UTOP) :
    page_lookup forking 4 va = some none := by
  have hva : UserPath (table_path va) := userPath_table_path va (lt_trans hlt (by decide))
  have h0 : PML4X va = 0 := hva.1
  rw [page_lookup_eq, h0]
  have : leaf_from forking [0, PDPX va, PDX va] 4 = some none := by
    have hp : present (forking.mem 4 0) = true := by decide
    have hk : KADDR forking (PTE_ADDR (forking.mem 4 0)) = some 5 := by decide
    have h5 : present (forking.mem 5 (PDPX va)) = false := by
      simp [forking, two_running, present]
    simp only [leaf_from, hp, if_true, hk, h5]
    rfl
  rw [this]

theorem forking_ctx :
    ForkCtx 1 0 0x1001 0 1 2 4 forking forking_free forking_parent_tables
      forking_child_tables :=
  { cur := by decide
    child := by decide
    hproot := by decide
    hcroot := by decide
    plist := forking_pageList
    np := by decide
    fb := by decide
    treeP := forking_tree_parent
    treeC := forking_tree_child
    disj := by
      intro t q h
      rcases forking_child_cases h with ⟨ht, _⟩ | ⟨ht, _⟩ <;> subst ht <;> rfl
    data := by
      intro va f slot hlt h
      have := forking_mapped hlt h
      subst this
      exact ⟨by decide, rfl⟩
    valid := by
      intro pn hlt h
      have := forking_present hlt h
      subst this
      decide
    inj := by
      intro pn pn' f s s' h1 h2 hm hm'
      rw [forking_present h1 (pte_present_of_lookup hm),
        forking_present h2 (pte_present_of_lookup hm')] }
/-- Witness for C34 on `forking`: the parent maps page 0 below `UTOP` and a
read-only page at `UTOP`; `fork` returns the child's id `0x1001`. -/
theorem fork_coverage_witness :
    ∃ st' log p slot,
      fork_parent 1 forking 0 0x1001 0x800040 = some (0x1001, st', log) ∧
      log.Nodup ∧
      (∀ pn, pn ∈ log ↔
        (pn <<< PGSHIFT < UTOP ∧ pn <<< PGSHIFT ≠ UXSTACKTOP - PGSIZE ∧
          pte_present forking 2 pn = true)) ∧
      p ∈ forking_free ∧
      page_lookup st' 4 (UXSTACKTOP - PGSIZE) = some (some (p, slot)) ∧
      st'.mem slot.1 slot.2 &&& 0xFFF = PTE_P ||| PTE_U ||| PTE_W ∧
      (st'.pages p).pp_ref = 1 ∧ (∀ j, st'.mem p j = 0) ∧
      st'.envs 1 =
        { forking.envs 1 with env_pgfault_upcall := 0x800040, env_status := ENV_RUNNABLE } ∧
      (∀ i, i ≠ 1 → st'.envs i = forking.envs i) ∧
      ∀ s s0 r, set_pgfault_handler 1 s 0 0x800040 = some (r, s0) →
        sys_exofork 1 s0 0 = some (((0x1001 : Nat) : Int), forking) → 0 < 0x1001 →
        fork 1 s 0 0x800040 = some (((0x1001 : Nat) : Int), st', log) :=
  fork_coverage 0x800040 [0] forking_ctx (fun _ h => forking_child_empty _ h)
    (fun pn f slot hlt h => by rw [forking_mapped hlt h]; decide)
    ⟨9, 484, by decide, by decide, by decide, by decide⟩
    (fun pn h1 _ h3 => by rw [forking_present h1 h3]; exact List.mem_singleton_self 0)
    (by decide)
theorem word_byte_set (w b : Nat) {k k' : Nat} (hk : k < 8) (hk' : k' < 8) :
    word_byte (word_set_byte w k b) k' = if k' = k then b % 256 else word_byte w k' := by
  unfold word_byte word_set_byte
  have hb : b % 256 < 256 := Nat.mod_lt _ (by decide)
  generalize b % 256 = c at hb
  interval_cases k <;> interval_cases k' <;> norm_num <;> omega
theorem rounddown_add_mod (a : Nat) : ROUNDDOWN a PGSIZE + a % PGSIZE = a := by
  unfold ROUNDDOWN
  have := Nat.mod_le a PGSIZE
  omega

theorem rounddown_indices (a : Nat) :
    table_path (ROUNDDOWN a PGSIZE) = table_path a ∧ PTX (ROUNDDOWN a PGSIZE) = PTX a := by
  unfold table_path
  rw [PML4X_eq, PDPX_eq, PDX_eq, PTX_eq, PML4X_eq, PDPX_eq, PDX_eq, PTX_eq]
  unfold ROUNDDOWN PGSIZE
  norm_num
  omega

theorem page_lookup_rounddown (st : Kernel) (root a : Nat) :
    page_lookup st root a = page_lookup st root (ROUNDDOWN a PGSIZE) :=
  (page_lookup_indices st root (rounddown_indices a).1 (rounddown_indices a).2).symm

theorem rounddown_lt {a : Nat} (h : a < KERNBASE) : ROUNDDOWN a PGSIZE < KERNBASE := by
  unfold ROUNDDOWN
  omega

theorem rounddown_aligned (a : Nat) : ROUNDDOWN a PGSIZE % PGSIZE = 0 := by
  unfold ROUNDDOWN PGSIZE
  omega

theorem dataStep_refl (lab : Nat → Option (List Nat)) (st : Kernel) : DataStep lab st st :=
  ⟨EnvFrame.refl st, rfl, rfl, fun _ _ _ => rfl⟩

theorem dataStep_trans {lab : Nat → Option (List Nat)} {a b c : Kernel}
    (h1 : DataStep lab a b) (h2 : DataStep lab b c) : DataStep lab a c :=
  ⟨h1.frame.trans h2.frame, h2.pages.trans h1.pages, h2.free.trans h1.free,
    fun t j ht => (h2.tables t j ht).trans (h1.tables t j ht)⟩

/-- A store into data frames keeps the free list, the tree of tables and
every mapping of the first three gigabytes. -/
theorem dataStep_keeps {st st' : Kernel} {l : List Nat} {root : Nat}
    {lab : Nat → Option (List Nat)} (hs : DataStep lab st st') (hl : PageList st l)
    (ht : TableTree st l root lab) :
    PageList st' l ∧ TableTree st' l root lab ∧
      ∀ va, UserPath (table_path va) → page_lookup st' root va = page_lookup st root va :=
  ⟨pageList_congr hs.pages hs.free hl,
    tableTree_congr ht hs.frame.npages
      (fun t q j hq _ => hs.tables t j (by rw [hq]; simp)) ht.notfree,
    fun va hva => page_lookup_congr hs.frame.npages root va
      (fun c hc => hs.tables c.1 c.2 (tree_walk_lab ht hva hc))⟩

theorem dataPages_step {st st' : Kernel} {l : List Nat} {root : Nat}
    {lab : Nat → Option (List Nat)} {ps : List Nat} (hs : DataStep lab st st')
    (hl : PageList st l) (ht : TableTree st l root lab) (hd : DataPages st root l lab ps) :
    DataPages st' root l lab ps := by
  obtain ⟨_, _, hlk⟩ := dataStep_keeps hs hl ht
  have hu : ∀ a, a ∈ ps → UserPath (table_path a) :=
    fun a ha => userPath_table_path a (hd.user a ha).2
  refine ⟨hd.user, ?_, ?_⟩
  · intro a ha
    rw [hlk a (hu a ha)]
    exact hd.mapped a ha
  · intro a a' f s s' ha ha' h1 h2
    rw [hlk a (hu a ha)] at h1
    rw [hlk a' (hu a' ha')] at h2
    exact hd.inj a a' f s s' ha ha' h1 h2

/-- The kernel's store of one byte in a data page: it returns, the byte
stored is read back, and every other byte of the data pages reads as
before. -/
theorem store_byte_spec {st : Kernel} {l : List Nat} {root : Nat}
    {lab : Nat → Option (List Nat)} {ps : List Nat} (hl : PageList st l)
    (ht : TableTree st l root lab) (hd : DataPages st root l lab ps) (b0 v : Nat)
    (hb0 : b0 < KERNBASE) (hp0 : ROUNDDOWN b0 PGSIZE ∈ ps) :
    ∃ st', store_byte st root b0 v = some st' ∧ DataStep lab st st' ∧
      ∀ b, b < KERNBASE → ROUNDDOWN b PGSIZE ∈ ps →
        load_byte st' root b = if b = b0 then some (v % 256) else load_byte st root b := by
  obtain ⟨f0, slot0, hlk0, _, hlab0⟩ := hd.mapped _ hp0
  have hlkb0 : page_lookup st root b0 = some (some (f0, slot0)) := by
    rw [page_lookup_rounddown]
    exact hlk0
  have hstep : DataStep lab st (st.write f0 (b0 % PGSIZE / 8)
      (word_set_byte (st.mem f0 (b0 % PGSIZE / 8)) (b0 % PGSIZE % 8) v)) := by
    refine ⟨envFrame_write _ _ _ _, rfl, rfl, ?_⟩
    intro t j hne
    rw [write_mem_cell, if_neg]
    intro e
    have e1 : t = f0 := congrArg Prod.fst e
    rw [e1] at hne
    exact hne hlab0
  refine ⟨_, ?_, hstep, ?_⟩
  · unfold store_byte
    rw [hlkb0]
  · intro b hb hp
    obtain ⟨_, _, hlk'⟩ := dataStep_keeps hstep hl ht
    obtain ⟨f, slot, hlk, _, _⟩ := hd.mapped _ hp
    have hlkb : page_lookup st root b = some (some (f, slot)) := by
      rw [page_lookup_rounddown]
      exact hlk
    have h8 : b % PGSIZE % 8 < 8 := Nat.mod_lt _ (by decide)
    have h80 : b0 % PGSIZE % 8 < 8 := Nat.mod_lt _ (by decide)
    unfold load_byte
    rw [hlk' b (userPath_table_path b hb), hlkb]
    simp only
    unfold frame_byte
    rw [write_mem_cell]
    by_cases hbb : b = b0
    · subst hbb
      rw [hlkb0] at hlkb
      simp only [Option.some.injEq, Prod.mk.injEq] at hlkb
      rw [← hlkb.1, if_pos rfl, if_pos rfl, word_byte_set _ _ h8 h8, if_pos rfl]
    · rw [if_neg hbb]
      by_cases hc : (f, b % PGSIZE / 8) = (f0, b0 % PGSIZE / 8)
      · rw [if_pos hc]
        simp only [Prod.mk.injEq] at hc
        obtain ⟨hf, hw⟩ := hc
        subst hf
        have hpage := hd.inj _ _ f slot slot0 hp hp0 hlk hlk0
        have hne : b % PGSIZE % 8 ≠ b0 % PGSIZE % 8 := by
          intro e
          apply hbb
          have e1 := rounddown_add_mod b
          have e2 := rounddown_add_mod b0
          have := Nat.div_add_mod (b % PGSIZE) 8
          have := Nat.div_add_mod (b0 % PGSIZE) 8
          omega
        rw [word_byte_set _ _ h80 h8, if_neg hne, hw]
      · rw [if_neg hc]
/-- The kernel's `memcpy` into data pages: it returns, the bytes copied are
read back, and every other byte of the data pages reads as before. -/
theorem memcpy_user_spec {st : Kernel} {l : List Nat} {root : Nat}
    {lab : Nat → Option (List Nat)} {ps : List Nat} (hl : PageList st l)
    (ht : TableTree st l root lab) (hd : DataPages st root l lab ps) (dst : Nat)
    (src : Nat → Nat) :
    ∀ n, dst + n ≤ KERNBASE → (∀ i, i < n → ROUNDDOWN (dst + i) PGSIZE ∈ ps) →
      ∃ st', memcpy_user st root dst src n = some st' ∧ DataStep lab st st' ∧
        ∀ b, b < KERNBASE → ROUNDDOWN b PGSIZE ∈ ps →
          load_byte st' root b =
            if dst ≤ b ∧ b < dst + n then some (src (b - dst) % 256) else load_byte st root b := by
  intro n
  induction n with
  | zero =>
    intro _ _
    refine ⟨st, rfl, dataStep_refl lab st, ?_⟩
    intro b _ _
    rw [if_neg (by omega)]
  | succ n ih =>
    intro hbound hpages
    obtain ⟨s1, h1, hs1, hb1⟩ := ih (by omega) (fun i hi => hpages i (by omega))
    obtain ⟨hl1, ht1, _⟩ := dataStep_keeps hs1 hl ht
    have hd1 := dataPages_step hs1 hl ht hd
    have hK : KERNBASE < 2 ^ 64 := by decide
    have hmod : (dst + n) % 2 ^ 64 = dst + n := Nat.mod_eq_of_lt (by omega)
    obtain ⟨s2, h2, hs2, hb2⟩ := store_byte_spec hl1 ht1 hd1 (dst + n) (src n) (by omega)
      (hpages n (by omega))
    refine ⟨s2, ?_, dataStep_trans hs1 hs2, ?_⟩
    · show (memcpy_user st root dst src n).bind
        (fun s => store_byte s root ((dst + n) % 2 ^ 64) (src n)) = some s2
      rw [h1, hmod]
      exact h2
    · intro b hb hp
      rw [hb2 b hb hp, hb1 b hb hp]
      by_cases hbn : b = dst + n
      · subst hbn
        rw [if_pos rfl, if_pos ⟨by omega, by omega⟩, Nat.add_sub_cancel_left]
      · rw [if_neg hbn]
        by_cases hin : dst ≤ b ∧ b < dst + n
        · rw [if_pos hin, if_pos ⟨hin.1, by omega⟩]
        · rw [if_neg hin, if_neg (by omega)]
/-- The loop of `region_alloc` takes at most four frames for each page. -/
theorem region_alloc_loop_length {e root : Nat} (addrs : List Nat) :
    ∀ (s s' : Kernel) (l : List Nat) (lab : Nat → Option (List Nat)),
      PageList s l → s.npages ≤ 2 ^ 52 → (∀ f, f ∈ l → f < s.npages) →
      TableTree s l root lab → (s.envs e).env_pml4e = some root →
      (∀ a, a ∈ addrs → UserPath (table_path a)) →
      (addrs.map (fun a => (table_path a, PTX a))).Nodup →
      (∀ a, a ∈ addrs → page_lookup s root a = some none) →
      region_alloc_loop e addrs s = some s' →
      ∀ l', PageList s' l' → l.length ≤ l'.length + 4 * addrs.length := by
  induction addrs with
  | nil =>
    intro s s' l lab hl _ _ _ _ _ _ _ h l' hl'
    simp only [region_alloc_loop, Option.some.injEq] at h
    subst h
    rw [isChain_unique l _ _ hl.1 hl'.1]
    omega
  | cons a rest ih =>
    intro s s' l lab hl hnp hfb ht hroot huser hkeys hun h l' hl'
    cases l with
    | nil =>
      have hh : s.page_free_list = none := hl.1
      simp only [region_alloc_loop, page_alloc, hh] at h
      cases h
    | cons p xs =>
      have hh : s.page_free_list = some p := hl.1.1
      have hpx : p ∉ xs := (List.nodup_cons.mp hl.2.1).1
      have hlp : lab p = none := by
        cases hc : lab p with
        | none => rfl
        | some q => exact absurd (List.mem_cons_self p xs) (ht.notfree p q hc)
      obtain ⟨s1, hs1⟩ : ∃ s1 : Kernel, { s with
          page_free_list := (s.pages p).pp_link
          pages := Function.update s.pages p { s.pages p with pp_link := none } } = s1 :=
        ⟨_, rfl⟩
      have hal : page_alloc s 0 = (s1, some p) := by rw [page_alloc_plain s p hh, hs1]
      have hl1 : PageList s1 xs := by
        rcases pageList_page_alloc 0 hl with ⟨e1, _, _⟩ | ⟨p', xs', e1, _, e3⟩
        · cases e1
        · simp only [List.cons.injEq] at e1
          rw [e1.2]
          rw [hal] at e3
          exact e3
      simp only [region_alloc_loop, hal] at h
      have hmem1 : s1.mem = s.mem := by rw [← hs1]
      have hn1 : s1.npages = s.npages := by rw [← hs1]
      have henv1 : s1.envs = s.envs := by rw [← hs1]
      have ht1 : TableTree s1 xs root lab :=
        tableTree_congr ht hn1 (fun t q j _ _ => by rw [hmem1])
          (fun t q hq hc => ht.notfree t q hq (List.mem_cons_of_mem _ hc))
      have hlook1 : ∀ va', page_lookup s1 root va' = page_lookup s root va' :=
        fun va' => page_lookup_congr hn1 root va' (fun c _ => by rw [hmem1])
      rw [henv1, hroot] at h
      simp only at h
      cases hins : page_insert s1 root p a (PTE_U ||| PTE_W) with
      | none => rw [hins] at h; cases h
      | some r =>
        obtain ⟨r, s2⟩ := r
        rw [hins] at h
        simp only at h
        split at h
        · cases h
        · rename_i hr
          have hr0 : r = 0 := by
            rcases page_insert_result hins with e1 | e1
            · exact e1
            · rw [e1] at hr
              exact absurd (by decide) hr
          subst hr0
          have hfb1 : ∀ f, f ∈ xs → f < s1.npages := fun f hf => by
            rw [hn1]; exact hfb f (List.mem_cons_of_mem _ hf)
          have hpn : p < s1.npages := by
            rw [hn1]; exact hfb p (List.mem_cons_self _ _)
          obtain ⟨l2, lab2, pt, hl2, ht2, _, _, hsub2, hn2, _, _, _, _, _, _, _, hlen2, hoth2⟩ :=
            tree_page_insert hl1 (by rw [hn1]; exact hnp) hfb1 ht1
              (huser a (List.mem_cons_self _ _)) hpx hlp hpn (by decide)
              ((hlook1 a).trans (hun a (List.mem_cons_self _ _))) hins
          have hf2 : EnvFrame s1 s2 := envFrame_page_insert hins
          have hkeys' : (table_path a, PTX a) ∉ rest.map (fun a => (table_path a, PTX a)) ∧
              (rest.map (fun a => (table_path a, PTX a))).Nodup := by
            rw [List.map_cons] at hkeys
            exact List.nodup_cons.mp hkeys
          have hun2 : ∀ a', a' ∈ rest → page_lookup s2 root a' = some none := by
            intro a' ha'
            have hne : (table_path a', PTX a') ≠ (table_path a, PTX a) := by
              intro e1
              apply hkeys'.1
              rw [← e1]
              exact List.mem_map.mpr ⟨a', ha', rfl⟩
            rw [(hoth2 a' (huser a' (List.mem_cons_of_mem _ ha')) hne).1, hlook1]
            exact hun a' (List.mem_cons_of_mem _ ha')
          have := ih s2 s' l2 lab2 hl2 (by rw [hn2, hn1]; exact hnp)
            (fun f hf => by rw [hn2]; exact hfb1 f (hsub2 f hf)) ht2
            (by rw [hf2.envs, henv1]; exact hroot)
            (fun a' ha' => huser a' (List.mem_cons_of_mem _ ha')) hkeys'.2 hun2 h l' hl'
          simp only [List.length_cons]
          omega
theorem forall2_left {α β : Type} {R : α → β → Prop} {xs : List α} {ys : List β}
    (h : List.Forall₂ R xs ys) : ∀ a, a ∈ xs → ∃ y, y ∈ ys ∧ R a y := by
  induction h with
  | nil => intro a ha; cases ha
  | cons hr _ ih =>
    intro a ha
    rcases List.mem_cons.mp ha with e | ha
    · subst e
      exact ⟨_, List.mem_cons_self _ _, hr⟩
    · obtain ⟨y, hy, hry⟩ := ih a ha
      exact ⟨y, List.mem_cons_of_mem _ hy, hry⟩

theorem forall2_inj {α β : Type} {R : α → β → Prop} {xs : List α} {ys : List β}
    (hfun : ∀ a y y', R a y → R a y' → y = y') (h : List.Forall₂ R xs ys) :
    ys.Nodup → ∀ a a' y, a ∈ xs → a' ∈ xs → R a y → R a' y → a = a' := by
  induction h with
  | nil => intro _ a a' y ha; cases ha
  | cons hr hrest ih =>
    rename_i x y0 xs' ys'
    intro hnd a a' y ha ha' hra hra'
    obtain ⟨hy0, hnd'⟩ := List.nodup_cons.mp hnd
    rcases List.mem_cons.mp ha with e | hin
    · rcases List.mem_cons.mp ha' with e' | hin'
      · rw [e, e']
      · exfalso
        obtain ⟨y', hy', hry'⟩ := forall2_left hrest a' hin'
        have e1 := hfun a' y y' hra' hry'
        have e2 := hfun x y y0 (e ▸ hra) hr
        rw [e2] at e1
        exact hy0 (e1 ▸ hy')
    · rcases List.mem_cons.mp ha' with e' | hin'
      · exfalso
        obtain ⟨y', hy', hry'⟩ := forall2_left hrest a hin
        have e1 := hfun a y y' hra hry'
        have e2 := hfun x y y0 (e' ▸ hra') hr
        rw [e2] at e1
        exact hy0 (e1 ▸ hy')
      · exact ih hnd' a a' y hin hin' hra hra'

theorem region_pages_lt {va len : Nat} (hb : va + len ≤ KERNBASE) {a : Nat}
    (ha : a ∈ region_pages va len) : a % PGSIZE = 0 ∧ a < KERNBASE := by
  rw [region_pages_mem hb] at ha
  refine ⟨ha.1, ?_⟩
  have h3 := ha.2.2
  simp only [ROUNDDOWN, ROUNDUP, PGSIZE, KERNBASE] at hb h3 ⊢
  norm_num at h3
  omega

/-- A page whose indices are those of an address below `KERNBASE` is the page
of that address. -/
theorem key_rounddown {b a : Nat} (hb : b < KERNBASE) (ha : a < KERNBASE)
    (ha0 : a % PGSIZE = 0) (h : (table_path b, PTX b) = (table_path a, PTX a)) :
    ROUNDDOWN b PGSIZE = a := by
  have hk : KERNBASE < 2 ^ 48 := by decide
  refine page_key_inj (lt_trans (rounddown_lt hb) hk) (lt_trans ha hk) (rounddown_aligned b) ha0 ?_
  rw [(rounddown_indices b).1, (rounddown_indices b).2]
  exact h

/-- `region_alloc` next to data pages: it returns when the free list holds
four frames for each page, its pages become data pages, and the bytes of the
data pages there were read as before. -/
theorem region_alloc_data {st : Kernel} {l : List Nat} {root : Nat}
    {lab : Nat → Option (List Nat)} {ps : List Nat} {e va len m : Nat}
    (hl : PageList st l) (hnp : st.npages ≤ 2 ^ 52) (hfb : ∀ f, f ∈ l → f < st.npages)
    (ht : TableTree st l root lab) (hroot : (st.envs e).env_pml4e = some root)
    (hd : DataPages st root l lab ps) (hbound : va + len ≤ KERNBASE)
    (hun : ∀ a, a ∈ region_pages va len → page_lookup st root a = some none)
    (hfree : 4 * (region_pages va len).length + m ≤ l.length) :
    ∃ st' l' lab', region_alloc st e va len = some st' ∧ PageList st' l' ∧
      TableTree st' l' root lab' ∧ (∀ f, f ∈ l' → f ∈ l) ∧ EnvFrame st st' ∧ m ≤ l'.length ∧
      DataPages st' root l' lab' (ps ++ region_pages va len) ∧
      (∀ b, b < KERNBASE → ROUNDDOWN b PGSIZE ∈ ps →
        load_byte st' root b = load_byte st root b) ∧
      (∀ va', va' < KERNBASE → ROUNDDOWN va' PGSIZE ∉ region_pages va len →
        page_lookup st' root va' = page_lookup st root va') ∧
      (∀ a, a ∈ region_pages va len → ∃ f pt,
        page_lookup st' root a = some (some (f, (pt, PTX a))) ∧
        st'.mem pt (PTX a) &&& 0xFFF = PTE_U ||| PTE_W ||| PTE_P) := by
  obtain ⟨huser, hkeys⟩ := region_pages_keys hbound
  obtain ⟨st', hrun⟩ := region_alloc_loop_total (region_pages va len) st l lab hl hnp hfb ht
    hroot huser hkeys hun (by omega)
  obtain ⟨l', lab', frames, hl', ht', hext, hnew, hsub, hn, hE, hnd, hfr, hall, hpg, hdata,
      hoth⟩ :=
    region_alloc_loop_spec (region_pages va len) st st' l lab hl hnp hfb ht hroot huser hkeys
      hun hrun
  have hlen := region_alloc_loop_length (region_pages va len) st st' l lab hl hnp hfb ht hroot
    huser hkeys hun hrun l' hl'
  have hother : ∀ va', va' < KERNBASE → ROUNDDOWN va' PGSIZE ∉ region_pages va len →
      (table_path va', PTX va') ∉ (region_pages va len).map (fun a => (table_path a, PTX a)) := by
    intro va' hva' hnot hmem
    obtain ⟨a, ha, hkey⟩ := List.mem_map.mp hmem
    obtain ⟨ha0, halt⟩ := region_pages_lt hbound ha
    have := key_rounddown hva' halt ha0 hkey.symm
    exact hnot (this ▸ ha)
  have hlook : ∀ va', va' < KERNBASE → ROUNDDOWN va' PGSIZE ∉ region_pages va len →
      page_lookup st' root va' = page_lookup st root va' :=
    fun va' hva' hnot => (hoth va' (userPath_table_path va' hva') (hother va' hva' hnot)).1
  have hps_not : ∀ a, a ∈ ps → ROUNDDOWN a PGSIZE ∉ region_pages va len := by
    intro a ha hin
    have e : ROUNDDOWN a PGSIZE = a := by
      have := (hd.user a ha).1
      unfold ROUNDDOWN
      omega
    rw [e] at hin
    obtain ⟨f, slot, hlk, _, _⟩ := hd.mapped a ha
    rw [hun a hin] at hlk
    cases hlk
  have hfunc : ∀ (a f f' : Nat),
      (∃ pt, page_lookup st' root a = some (some (f, (pt, PTX a))) ∧
        st'.mem pt (PTX a) = page2pa f ||| (PTE_U ||| PTE_W) ||| PTE_P) →
      (∃ pt, page_lookup st' root a = some (some (f', (pt, PTX a))) ∧
        st'.mem pt (PTX a) = page2pa f' ||| (PTE_U ||| PTE_W) ||| PTE_P) → f = f' := by
    rintro a f f' ⟨pt, h1, _⟩ ⟨pt', h2, _⟩
    rw [h1] at h2
    simp only [Option.some.injEq, Prod.mk.injEq] at h2
    exact h2.1
  have hlab_keep : ∀ f, f ∉ l → lab f = none → lab' f = none := by
    intro f hf hlf
    cases hc : lab' f with
    | none => rfl
    | some q => exact absurd (hnew f q hlf hc).1 hf
  have hreg : ∀ a, a ∈ region_pages va len → ∃ f pt, f ∈ frames ∧
      page_lookup st' root a = some (some (f, (pt, PTX a))) ∧
      st'.mem pt (PTX a) = page2pa f ||| (PTE_U ||| PTE_W) ||| PTE_P := by
    intro a ha
    obtain ⟨f, hf, pt, h1, h2⟩ := forall2_left hall a ha
    exact ⟨f, pt, hf, h1, h2⟩
  refine ⟨st', l', lab', hrun, hl', ht', hsub, hE, by omega, ⟨?_, ?_, ?_⟩, ?_, hlook, ?_⟩
  · intro a ha
    rcases List.mem_append.mp ha with ha | ha
    · exact hd.user a ha
    · exact region_pages_lt hbound ha
  · intro a ha
    rcases List.mem_append.mp ha with ha | ha
    · obtain ⟨f, slot, hlk, hfl, hlf⟩ := hd.mapped a ha
      refine ⟨f, slot, ?_, fun hc => hfl (hsub f hc), hlab_keep f hfl hlf⟩
      rw [hlook a (hd.user a ha).2 (hps_not a ha)]
      exact hlk
    · obtain ⟨f, pt, hf, h1, _⟩ := hreg a ha
      exact ⟨f, _, h1, (hfr f hf).2.1, (hfr f hf).2.2.1⟩
  · intro a a' f s s' ha ha' h1 h2
    rcases List.mem_append.mp ha with ha | ha
    · rcases List.mem_append.mp ha' with ha' | ha'
      · rw [hlook a (hd.user a ha).2 (hps_not a ha)] at h1
        rw [hlook a' (hd.user a' ha').2 (hps_not a' ha')] at h2
        exact hd.inj a a' f s s' ha ha' h1 h2
      · exfalso
        rw [hlook a (hd.user a ha).2 (hps_not a ha)] at h1
        obtain ⟨f0, _, hlk0, hfl0, _⟩ := hd.mapped a ha
        rw [h1] at hlk0
        simp only [Option.some.injEq, Prod.mk.injEq] at hlk0
        obtain ⟨f', pt, hf', h1', _⟩ := hreg a' ha'
        rw [h2] at h1'
        simp only [Option.some.injEq, Prod.mk.injEq] at h1'
        apply hfl0
        rw [← hlk0.1, h1'.1]
        exact (hfr f' hf').1
    · rcases List.mem_append.mp ha' with ha' | ha'
      · exfalso
        rw [hlook a' (hd.user a' ha').2 (hps_not a' ha')] at h2
        obtain ⟨f0, _, hlk0, hfl0, _⟩ := hd.mapped a' ha'
        rw [h2] at hlk0
        simp only [Option.some.injEq, Prod.mk.injEq] at hlk0
        obtain ⟨f', pt, hf', h1', _⟩ := hreg a ha
        rw [h1] at h1'
        simp only [Option.some.injEq, Prod.mk.injEq] at h1'
        apply hfl0
        rw [← hlk0.1, h1'.1]
        exact (hfr f' hf').1
      · obtain ⟨f1, pt1, _, g1, g1'⟩ := hreg a ha
        obtain ⟨f2, pt2, _, g2, g2'⟩ := hreg a' ha'
        have e1 : f1 = f := by
          rw [h1] at g1
          simp only [Option.some.injEq, Prod.mk.injEq] at g1
          exact g1.1.symm
        have e2 : f2 = f := by
          rw [h2] at g2
          simp only [Option.some.injEq, Prod.mk.injEq] at g2
          exact g2.1.symm
        rw [e1] at g1 g1'
        rw [e2] at g2 g2'
        exact forall2_inj (fun a y y' => hfunc a y y') hall hnd a a' f ha ha' ⟨pt1, g1, g1'⟩
          ⟨pt2, g2, g2'⟩
  · intro b hb hp
    have hnot : ROUNDDOWN b PGSIZE ∉ region_pages va len := by
      have := hps_not _ hp
      have e : ROUNDDOWN (ROUNDDOWN b PGSIZE) PGSIZE = ROUNDDOWN b PGSIZE := by
        have := rounddown_aligned b
        generalize ROUNDDOWN b PGSIZE = x at this ⊢
        unfold ROUNDDOWN
        omega
      rw [e] at this
      exact this
    obtain ⟨f, slot, hlk, hfl, hlf⟩ := hd.mapped _ hp
    have hlkb : page_lookup st root b = some (some (f, slot)) := by
      rw [page_lookup_rounddown]
      exact hlk
    unfold load_byte
    rw [hlook b hb hnot, hlkb]
    simp only
    unfold frame_byte
    rw [hdata f _ hfl (hlab_keep f hfl hlf)]
  · intro a ha
    obtain ⟨f, pt, _, h1, h2⟩ := hreg a ha
    refine ⟨f, pt, h1, ?_⟩
    rw [h2, Nat.lor_assoc]
    exact entry_flags f _ (by decide)
theorem load_pages_cons (ph : Proghdr) (rest : List Proghdr) :
    load_pages (ph :: rest) =
      (if ph.p_type = ELF_PROG_LOAD then region_pages ph.p_va ph.p_memsz else []) ++
        load_pages rest := by
  unfold load_pages
  rw [List.flatMap_cons]

theorem load_segments_skip (e : Nat) (bytes : Nat → Nat) (ph : Proghdr) (rest : List Proghdr)
    (st : Kernel) (h : ph.p_type ≠ ELF_PROG_LOAD) :
    load_segments e bytes (ph :: rest) st = load_segments e bytes rest st := by
  rw [load_segments, if_pos h]

theorem load_segments_load (e : Nat) (bytes : Nat → Nat) (ph : Proghdr) (rest : List Proghdr)
    (st : Kernel) (h : ph.p_type = ELF_PROG_LOAD) :
    load_segments e bytes (ph :: rest) st =
      match region_alloc st e ph.p_va ph.p_memsz with
      | none => none
      | some st1 =>
        match (st1.envs e).env_pml4e with
        | none => none
        | some root =>
          match memcpy_user st1 root ph.p_va (fun i => bytes (ph.p_offset + i)) ph.p_filesz with
          | none => none
          | some st2 =>
            match memset_user st2 root ((ph.p_va + ph.p_filesz) % 2 ^ 64) 0
                ((ph.p_memsz + 2 ^ 64 - ph.p_filesz) % 2 ^ 64) with
            | none => none
            | some st3 => load_segments e bytes rest st3 := by
  rw [load_segments, if_neg (not_not.mpr h)]

theorem rounddown_of_aligned {a : Nat} (h : a % PGSIZE = 0) : ROUNDDOWN a PGSIZE = a := by
  unfold ROUNDDOWN
  omega

/-- The loop of `load_icode` over program headers whose loadable segments
end at or below `KERNBASE`, have `p_filesz <= p_memsz` and lie in pages that
are distinct from one another and from the data pages `ps`, and that map
nothing: with four free frames for each page it returns; the bytes of each
loadable segment are those of the file followed by zeros; the bytes of `ps`
and the mappings of all other pages are as before. -/
theorem load_segments_spec {e root : Nat} (bytes : Nat → Nat) :
    ∀ (phs : List Proghdr) (st : Kernel) (l : List Nat) (lab : Nat → Option (List Nat))
      (ps : List Nat) (m : Nat),
      PageList st l → st.npages ≤ 2 ^ 52 → (∀ f, f ∈ l → f < st.npages) →
      TableTree st l root lab → (st.envs e).env_pml4e = some root →
      DataPages st root l lab ps →
      (∀ ph, ph ∈ phs → ph.p_type = ELF_PROG_LOAD →
        ph.p_filesz ≤ ph.p_memsz ∧ ph.p_va + ph.p_memsz ≤ KERNBASE) →
      (ps ++ load_pages phs).Nodup →
      (∀ a, a ∈ load_pages phs → page_lookup st root a = some none) →
      4 * (load_pages phs).length + m ≤ l.length →
      ∃ st' l' lab', load_segments e bytes phs st = some st' ∧ PageList st' l' ∧
        TableTree st' l' root lab' ∧ (∀ f, f ∈ l' → f ∈ l) ∧ EnvFrame st st' ∧
        m ≤ l'.length ∧ DataPages st' root l' lab' (ps ++ load_pages phs) ∧
        (∀ b, b < KERNBASE → ROUNDDOWN b PGSIZE ∈ ps →
          load_byte st' root b = load_byte st root b) ∧
        (∀ va', va' < KERNBASE → ROUNDDOWN va' PGSIZE ∉ load_pages phs →
          page_lookup st' root va' = page_lookup st root va') ∧
        (∀ ph, ph ∈ phs → ph.p_type = ELF_PROG_LOAD → ∀ i, i < ph.p_memsz →
          load_byte st' root (ph.p_va + i) =
            some (if i < ph.p_filesz then bytes (ph.p_offset + i) % 256 else 0)) := by
  intro phs
  induction phs with
  | nil =>
    intro st l lab ps m hl _ _ ht _ hd _ _ _ hfree
    refine ⟨st, l, lab, rfl, hl, ht, fun _ h => h, EnvFrame.refl st, ?_, ?_, fun _ _ _ => rfl,
      fun _ _ _ => rfl, ?_⟩
    · simp only [load_pages, List.flatMap_nil, List.length_nil] at hfree
      omega
    · simp only [load_pages, List.flatMap_nil, List.append_nil]
      exact hd
    · intro ph hph
      cases hph
  | cons ph rest ih =>
    intro st l lab ps m hl hnp hfb ht hroot hd hseg hnd hun hfree
    by_cases hty : ph.p_type = ELF_PROG_LOAD
    swap
    · rw [load_pages_cons, if_neg hty, List.nil_append] at hnd hun hfree ⊢
      obtain ⟨st', l', lab', h1, h2, h3, h4, h5, h6, h7, h8, h9, h10⟩ :=
        ih st l lab ps m hl hnp hfb ht hroot hd
          (fun ph' hph' => hseg ph' (List.mem_cons_of_mem _ hph')) hnd hun hfree
      refine ⟨st', l', lab', ?_, h2, h3, h4, h5, h6, h7, h8, ?_, ?_⟩
      · rw [load_segments_skip e bytes ph rest st hty]
        exact h1
      · exact h9
      · intro ph' hph' hty' i hi
        rcases List.mem_cons.mp hph' with e1 | hin
        · rw [e1] at hty'
          exact absurd hty' hty
        · exact h10 ph' hin hty' i hi
    · obtain ⟨hfm, hbound⟩ := hseg ph (List.mem_cons_self _ _) hty
      have hcons := load_pages_cons ph rest
      rw [if_pos hty] at hcons
      rw [hcons] at hnd hun hfree ⊢
      rw [List.length_append] at hfree
      have hndP : ∀ a, a ∈ region_pages ph.p_va ph.p_memsz → a ∉ ps ∧ a ∉ load_pages rest := by
        intro a ha
        rw [← List.append_assoc] at hnd
        have h1 := (List.nodup_append.mp hnd).2.2
        have h2 := (List.nodup_append.mp (List.nodup_append.mp hnd).1).2.2
        exact ⟨fun hc => h2 hc ha, fun hc => h1 (List.mem_append_right _ ha) hc⟩
      obtain ⟨s1, l1, lab1, hr1, hl1, ht1, hsub1, hE1, hlen1, hd1, hby1, hlk1, _⟩ :=
        @region_alloc_data st l root lab ps e ph.p_va ph.p_memsz
          (4 * (load_pages rest).length + m) hl hnp hfb ht hroot hd hbound
          (fun a ha => hun a (List.mem_append_left _ ha)) (by omega)
      have hroot1 : (s1.envs e).env_pml4e = some root := by
        rw [hE1.envs]
        exact hroot
      have hcover : ∀ i, i < ph.p_memsz →
          ROUNDDOWN (ph.p_va + i) PGSIZE ∈ ps ++ region_pages ph.p_va ph.p_memsz :=
        fun i hi => List.mem_append_right _
          (region_pages_cover hbound (ph.p_va + i) (by omega) (by omega))
      obtain ⟨s2, hr2, hs2, hby2⟩ := memcpy_user_spec hl1 ht1 hd1 ph.p_va
        (fun i => bytes (ph.p_offset + i)) ph.p_filesz (by omega)
        (fun i hi => hcover i (by omega))
      obtain ⟨hl2, ht2, hlk2⟩ := dataStep_keeps hs2 hl1 ht1
      have hd2 := dataPages_step hs2 hl1 ht1 hd1
      have hK : KERNBASE < 2 ^ 64 := by decide
      have hm1 : (ph.p_va + ph.p_filesz) % 2 ^ 64 = ph.p_va + ph.p_filesz :=
        Nat.mod_eq_of_lt (by omega)
      have hm2 : (ph.p_memsz + 2 ^ 64 - ph.p_filesz) % 2 ^ 64 = ph.p_memsz - ph.p_filesz := by
        have e1 : ph.p_memsz + 2 ^ 64 - ph.p_filesz = (ph.p_memsz - ph.p_filesz) + 2 ^ 64 := by
          omega
        rw [e1, Nat.add_mod_right]
        exact Nat.mod_eq_of_lt (by omega)
      obtain ⟨s3, hr3, hs3, hby3⟩ := memcpy_user_spec hl2 ht2 hd2 (ph.p_va + ph.p_filesz)
        (fun _ => 0) (ph.p_memsz - ph.p_filesz) (by omega)
        (fun i hi => by
          rw [Nat.add_assoc]
          exact hcover (ph.p_filesz + i) (by omega))
      obtain ⟨hl3, ht3, hlk3⟩ := dataStep_keeps hs3 hl2 ht2
      have hd3 := dataPages_step hs3 hl2 ht2 hd2
      have hE3 : EnvFrame st s3 := (hE1.trans hs2.frame).trans hs3.frame
      have hrest_aligned : ∀ a, a ∈ load_pages rest → a % PGSIZE = 0 ∧ a < KERNBASE := by
        intro a ha
        unfold load_pages at ha
        rw [List.mem_flatMap] at ha
        obtain ⟨ph', hph', ha'⟩ := ha
        split at ha'
        · rename_i hty'
          exact region_pages_lt (hseg ph' (List.mem_cons_of_mem _ hph') hty').2 ha'
        · cases ha'
      have hun3 : ∀ a, a ∈ load_pages rest → page_lookup s3 root a = some none := by
        intro a ha
        obtain ⟨ha0, halt⟩ := hrest_aligned a ha
        have hu := userPath_table_path a halt
        rw [hlk3 a hu, hlk2 a hu, hlk1 a halt
          (by rw [rounddown_of_aligned ha0]; exact fun hc => (hndP a hc).2 ha)]
        exact hun a (List.mem_append_right _ ha)
      obtain ⟨st', l', lab', h1, h2, h3, h4, h5, h6, h7, h8, h9, h10⟩ :=
        ih s3 l1 lab1 (ps ++ region_pages ph.p_va ph.p_memsz) m hl3
          (by rw [hE3.npages]; exact hnp)
          (fun f hf => by rw [hE3.npages]; exact hfb f (hsub1 f hf)) ht3
          (by rw [hE3.envs]; exact hroot) hd3
          (fun ph' hph' => hseg ph' (List.mem_cons_of_mem _ hph'))
          (by rw [List.append_assoc]; exact hnd) hun3 hlen1
      have hps_range : ∀ b, ROUNDDOWN b PGSIZE ∈ ps →
          ¬ (ph.p_va ≤ b ∧ b < ph.p_va + ph.p_memsz) := by
        intro b hp hin
        exact (hndP _ (region_pages_cover hbound b hin.1 hin.2)).1 hp
      refine ⟨st', l', lab', ?_, h2, h3, fun f hf => hsub1 f (h4 f hf), hE3.trans h5, h6, ?_, ?_,
        ?_, ?_⟩
      · rw [load_segments_load e bytes ph rest st hty, hr1]
        simp only [hroot1, hr2]
        unfold memset_user
        rw [hm1, hm2, hr3]
        exact h1
      · rw [← List.append_assoc]
        exact h7
      · intro b hb hp
        have hp' : ROUNDDOWN b PGSIZE ∈ ps ++ region_pages ph.p_va ph.p_memsz :=
          List.mem_append_left _ hp
        have hnr := hps_range b hp
        rw [h8 b hb hp', hby3 b hb hp', if_neg (by omega), hby2 b hb hp', if_neg (by omega)]
        exact hby1 b hb hp
      · intro va' hva' hnot
        have hu := userPath_table_path va' hva'
        rw [h9 va' hva' (fun hc => hnot (List.mem_append_right _ hc)), hlk3 va' hu, hlk2 va' hu]
        exact hlk1 va' hva' (fun hc => hnot (List.mem_append_left _ hc))
      · intro ph' hph' hty' i hi
        rcases List.mem_cons.mp hph' with e1 | hin
        · subst e1
          have hb : ph'.p_va + i < KERNBASE := by omega
          rw [h8 _ hb (hcover i hi), hby3 _ hb (hcover i hi), hby2 _ hb (hcover i hi)]
          by_cases hif : i < ph'.p_filesz
          · rw [if_neg (by omega), if_pos ⟨by omega, by omega⟩, if_pos hif,
              Nat.add_sub_cancel_left]
          · rw [if_pos ⟨by omega, by omega⟩, if_neg hif]
        · exact h10 ph' hin hty' i hi
/-- Program headers that are not loadable are skipped. -/
theorem load_segments_filter (e : Nat) (bytes : Nat → Nat) :
    ∀ (phs : List Proghdr) (st : Kernel),
      load_segments e bytes (phs.filter (fun ph => decide (ph.p_type = ELF_PROG_LOAD))) st =
        load_segments e bytes phs st := by
  intro phs
  induction phs with
  | nil => intro st; rfl
  | cons ph rest ih =>
    intro st
    by_cases hty : ph.p_type = ELF_PROG_LOAD
    · rw [List.filter_cons_of_pos (by simpa using hty), load_segments_load e bytes ph _ st hty,
        load_segments_load e bytes ph rest st hty]
      cases region_alloc st e ph.p_va ph.p_memsz with
      | none => rfl
      | some st1 =>
        simp only
        cases (st1.envs e).env_pml4e with
        | none => rfl
        | some root =>
          simp only
          cases memcpy_user st1 root ph.p_va (fun i => bytes (ph.p_offset + i)) ph.p_filesz with
          | none => rfl
          | some st2 =>
            simp only
            cases memset_user st2 root ((ph.p_va + ph.p_filesz) % 2 ^ 64) 0
                ((ph.p_memsz + 2 ^ 64 - ph.p_filesz) % 2 ^ 64) with
            | none => rfl
            | some st3 => exact ih st3
    · rw [List.filter_cons_of_neg (by simpa using hty), load_segments_skip e bytes ph rest st hty]
      exact ih st

theorem mem_load_pages {phs : List Proghdr} {ph : Proghdr} {a : Nat} (hph : ph ∈ phs)
    (hty : ph.p_type = ELF_PROG_LOAD) (ha : a ∈ region_pages ph.p_va ph.p_memsz) :
    a ∈ load_pages phs := by
  unfold load_pages
  rw [List.mem_flatMap]
  exact ⟨ph, hph, by rw [if_pos hty]; exact ha⟩

theorem dataPages_nil (st : Kernel) (root : Nat) (l : List Nat)
    (lab : Nat → Option (List Nat)) : DataPages st root l lab [] :=
  ⟨(fun _ h => by cases h), (fun _ h => by cases h), (fun _ _ _ _ _ h => by cases h)⟩

/-- C27, amended. `load_icode(e, binary)` for an environment whose tables
form a tree, when every loadable segment has `p_filesz <= p_memsz` and ends
at or below `KERNBASE`, the pages of the loadable segments and the page of
the initial stack at `USTACKTOP - PGSIZE` are distinct pages that map
nothing, and the free list holds four frames for each of them. A binary
whose magic is not `ELF_MAGIC` panics, before any page is mapped. Otherwise
`load_icode` returns, and then: the bytes `[p_va, p_va + p_filesz)` of each
loadable segment read, in the address space of `e`, as the bytes
`binary[p_offset ..]` and the bytes up to `p_va + p_memsz` read as zero;
program headers of other types are skipped (the result is that of the binary
without them) and no page other than those of the loadable segments and of
the stack changes its mapping; one page is mapped at `USTACKTOP - PGSIZE`,
writable by the user; the saved `rip` of `e` is `e_entry`, and nothing else
of the environment table changes. -/
theorem load_icode_segments (st : Kernel) (l : List Nat) (lab : Nat → Option (List Nat))
    (e root : Nat) (binary : Elf)
    (hl : PageList st l) (hnp : st.npages ≤ 2 ^ 52) (hfb : ∀ f, f ∈ l → f < st.npages)
    (ht : TableTree st l root lab) (hroot : (st.envs e).env_pml4e = some root)
    (hseg : ∀ ph, ph ∈ binary.phdrs → ph.p_type = ELF_PROG_LOAD →
      ph.p_filesz ≤ ph.p_memsz ∧ ph.p_va + ph.p_memsz ≤ KERNBASE)
    (hnd : (load_pages binary.phdrs ++ [USTACKTOP - PGSIZE]).Nodup)
    (hun : ∀ a, a ∈ load_pages binary.phdrs ++ [USTACKTOP - PGSIZE] →
      page_lookup st root a = some none)
    (hfree : 4 * (load_pages binary.phdrs).length + 4 ≤ l.length) :
    (binary.e_magic ≠ ELF_MAGIC → load_icode st e binary = none) ∧
    (binary.e_magic = ELF_MAGIC →
      ∃ st', load_icode st e binary = some st' ∧
        (∀ ph, ph ∈ binary.phdrs → ph.p_type = ELF_PROG_LOAD → ∀ i, i < ph.p_memsz →
          load_byte st' root (ph.p_va + i) =
            some (if i < ph.p_filesz then binary.bytes (ph.p_offset + i) % 256 else 0)) ∧
        load_icode st e { binary with
          phdrs := binary.phdrs.filter (fun ph => decide (ph.p_type = ELF_PROG_LOAD)) } =
          some st' ∧
        (∀ va', va' < KERNBASE →
          ROUNDDOWN va' PGSIZE ∉ load_pages binary.phdrs ++ [USTACKTOP - PGSIZE] →
          page_lookup st' root va' = page_lookup st root va') ∧
        (∃ f pt, page_lookup st' root (USTACKTOP - PGSIZE) =
            some (some (f, (pt, PTX (USTACKTOP - PGSIZE)))) ∧
          st'.mem pt (PTX (USTACKTOP - PGSIZE)) &&& 0xFFF = PTE_U ||| PTE_W ||| PTE_P) ∧
        (st'.envs e).env_tf.tf_rip = binary.e_entry ∧
        st'.envs e = { st.envs e with
          env_tf := { (st.envs e).env_tf with tf_rip := binary.e_entry } } ∧
        ∀ i, i ≠ e → st'.envs i = st.envs i) := by
  constructor
  · intro hm
    unfold load_icode
    rw [if_pos hm]
  intro hm
  have hstack : region_pages (USTACKTOP - PGSIZE) PGSIZE = [USTACKTOP - PGSIZE] := by decide
  have hsa : (USTACKTOP - PGSIZE) % PGSIZE = 0 := by decide
  have hsk : USTACKTOP - PGSIZE < KERNBASE := by decide
  have hsnot : USTACKTOP - PGSIZE ∉ load_pages binary.phdrs := by
    intro hc
    exact (List.nodup_append.mp hnd).2.2 hc (List.mem_singleton_self _)
  obtain ⟨s1, l1, lab1, h1, hl1, ht1, hsub1, hE1, hlen1, hd1, _, hlk1, hby1⟩ :=
    @load_segments_spec e root binary.bytes binary.phdrs st l lab [] 4 hl hnp hfb ht hroot
      (dataPages_nil st root l lab) hseg
      (by rw [List.nil_append]; exact (List.nodup_append.mp hnd).1)
      (fun a ha => hun a (List.mem_append_left _ ha)) hfree
  rw [List.nil_append] at hd1
  obtain ⟨s2, hs2⟩ : ∃ s2 : Kernel, s1.setEnv e { s1.envs e with
      env_tf := { (s1.envs e).env_tf with tf_rip := binary.e_entry } } = s2 := ⟨_, rfl⟩
  have hmem2 : s2.mem = s1.mem := by rw [← hs2]; rfl
  have hn2 : s2.npages = s1.npages := by rw [← hs2]; rfl
  have hlk2 : ∀ va', page_lookup s2 root va' = page_lookup s1 root va' :=
    fun va' => page_lookup_congr hn2 root va' (fun c _ => by rw [hmem2])
  have hl2 : PageList s2 l1 := by
    rw [← hs2]
    exact pageList_congr rfl rfl hl1
  have ht2 : TableTree s2 l1 root lab1 :=
    tableTree_congr ht1 hn2 (fun t q j _ _ => by rw [hmem2]) ht1.notfree
  have hd2 : DataPages s2 root l1 lab1 (load_pages binary.phdrs) := by
    refine ⟨hd1.user, ?_, ?_⟩
    · intro a ha
      rw [hlk2]
      exact hd1.mapped a ha
    · intro a a' f s s' ha ha' g1 g2
      rw [hlk2] at g1 g2
      exact hd1.inj a a' f s s' ha ha' g1 g2
  have henv2 : s2.envs e = { st.envs e with
      env_tf := { (st.envs e).env_tf with tf_rip := binary.e_entry } } := by
    rw [← hs2]
    simp only [Kernel.setEnv, Function.update_same, hE1.envs]
  have henvo2 : ∀ i, i ≠ e → s2.envs i = st.envs i := by
    intro i hi
    rw [← hs2]
    simp only [Kernel.setEnv, Function.update_noteq hi, hE1.envs]
  have hroot2 : (s2.envs e).env_pml4e = some root := by
    rw [henv2]
    exact hroot
  obtain ⟨st', l', lab', h3, _, _, _, hE3, _, _, hby3, hlk3, hmap3⟩ :=
    @region_alloc_data s2 l1 root lab1 (load_pages binary.phdrs) e (USTACKTOP - PGSIZE) PGSIZE 0
      hl2 (by rw [hn2, hE1.npages]; exact hnp)
      (fun f hf => by rw [hn2, hE1.npages]; exact hfb f (hsub1 f hf)) ht2 hroot2 hd2
      (by decide)
      (fun a ha => by
        rw [hstack, List.mem_singleton] at ha
        rw [ha, hlk2, hlk1 _ hsk (by rw [rounddown_of_aligned hsa]; exact hsnot)]
        exact hun _ (List.mem_append_right _ (List.mem_singleton_self _)))
      (by rw [hstack]; simp only [List.length_singleton]; omega)
  have hrun : load_icode st e binary = some st' := by
    unfold load_icode
    rw [if_neg (not_not.mpr hm), hroot]
    simp only [h1]
    rw [hs2]
    exact h3
  refine ⟨st', hrun, ?_, ?_, ?_, ?_, ?_, ?_, ?_⟩
  · intro ph hph hty i hi
    have hb := (hseg ph hph hty).2
    have hp : ROUNDDOWN (ph.p_va + i) PGSIZE ∈ load_pages binary.phdrs :=
      mem_load_pages hph hty (region_pages_cover hb (ph.p_va + i) (by omega) (by omega))
    have hlb : load_byte s2 root (ph.p_va + i) = load_byte s1 root (ph.p_va + i) := by
      unfold load_byte frame_byte
      rw [hlk2, hmem2]
    rw [hby3 _ (by omega) hp, hlb]
    exact hby1 ph hph hty i hi
  · rw [← hrun]
    unfold load_icode
    simp only [load_segments_filter]
  · intro va' hva' hnot
    rw [hlk3 va' hva' (by rw [hstack]; exact fun hc => hnot (List.mem_append_right _ hc)), hlk2]
    exact hlk1 va' hva' (fun hc => hnot (List.mem_append_left _ hc))
  · exact hmap3 _ (by rw [hstack]; exact List.mem_singleton_self _)
  · rw [hE3.envs, henv2]
  · rw [hE3.envs, henv2]
  · intro i hi
    rw [hE3.envs]
    exact henvo2 i hi
/-- Counterexample to C27 as stated. The binary `stack_binary` has the ELF
magic and one loadable segment, of one byte (`p_filesz = p_memsz = 1`), at
`USTACKTOP - PGSIZE`. On `forking`, for environment 0, the loop over the
segments stores the byte `0xAB` of the file there; the `region_alloc` of the
initial stack that follows maps another frame at that page, and after
`load_icode` the byte reads 0. -/
theorem load_icode_stack_counterexample :
    stack_binary.e_magic = ELF_MAGIC ∧
    stack_binary.phdrs = [⟨ELF_PROG_LOAD, 0x1000, USTACKTOP - PGSIZE, 1, 1⟩] ∧
    stack_binary.bytes 0x1000 = 0xAB ∧
    (load_segments 0 stack_binary.bytes stack_binary.phdrs forking).bind
      (fun s => load_byte s 2 (USTACKTOP - PGSIZE)) = some 0xAB ∧
    (load_icode forking 0 stack_binary).bind
      (fun s => load_byte s 2 (USTACKTOP - PGSIZE)) = some 0 := by
  decide

/-- Witness for C27 on `forking`, environment 0, with `hello_binary`: entry
point `0x800020`, a loadable segment of `memsz = 8192`, `filesz = 4096` at
`0x800000`, and a segment of another type at `0x400000`. -/
theorem load_icode_segments_witness :
    hello_binary.e_magic = ELF_MAGIC ∧
    load_pages hello_binary.phdrs = [0x800000, 0x801000] ∧
    ∃ st', load_icode forking 0 hello_binary = some st' ∧
      (∀ i, i < 4096 → load_byte st' 2 (0x800000 + i) = some ((0x1000 + i + 1) % 256 % 256)) ∧
      (∀ i, 4096 ≤ i → i < 8192 → load_byte st' 2 (0x800000 + i) = some 0) ∧
      page_lookup st' 2 0x400000 = some none ∧
      (∃ f pt, page_lookup st' 2 (USTACKTOP - PGSIZE) =
          some (some (f, (pt, PTX (USTACKTOP - PGSIZE)))) ∧
        st'.mem pt (PTX (USTACKTOP - PGSIZE)) &&& 0xFFF = PTE_U ||| PTE_W ||| PTE_P) ∧
      (st'.envs 0).env_tf.tf_rip = 0x800020 := by
  have hp : load_pages hello_binary.phdrs = [0x800000, 0x801000] := by decide
  obtain ⟨st', hrun, hbytes, _, hoth, hstack, hrip, _, _⟩ :=
    (load_icode_segments forking forking_free forking_parent_tables 0 2 hello_binary
      forking_pageList (by decide) (by decide) forking_tree_parent (by decide) (by decide)
      (by rw [hp]; decide) (by rw [hp]; decide) (by rw [hp]; decide)).2 (by decide)
  have hseg : (⟨ELF_PROG_LOAD, 0x1000, 0x800000, 4096, 8192⟩ : Proghdr) ∈ hello_binary.phdrs := by
    decide
  refine ⟨by decide, hp, st', hrun, ?_, ?_, ?_, hstack, hrip⟩
  · intro i hi
    have := hbytes _ hseg rfl i (by show i < 8192; omega)
    simp only [if_pos hi] at this
    exact this
  · intro i h1 h2
    have := hbytes _ hseg rfl i h2
    simp only [if_neg (show ¬ i < 4096 by omega)] at this
    exact this
  · rw [hoth 0x400000 (by decide) (by rw [hp]; decide)]
    decide
theorem freed_running_trace_ok : freed_running_trace.map (fun r => r.1) = some 0 := by decide

theorem freed_running_cur : curenv freed_running 1 = some 1 := by decide

theorem freed_running_id : (freed_running.envs 1).env_id = 0x1001 := by decide

theorem freed_running_status : (freed_running.envs 1).env_status = ENV_FREE := by decide

theorem freed_running_head : freed_running.env_free_list = some 1 := by decide

theorem freed_running_freeListInv : FreeListInv 1 freed_running := by
  have hlink : (freed_running.envs 1).env_link = none := by decide
  refine ⟨[1], ⟨freed_running_head, hlink⟩, by decide, fun i => ?_⟩
  constructor
  · intro hi
    rw [List.mem_singleton] at hi
    subst hi
    exact ⟨by decide, freed_running_status⟩
  · rintro ⟨hi, hs⟩
    have hi2 : i < 2 := hi
    interval_cases i
    · exact absurd hs (by decide)
    · exact List.mem_singleton_self 1

/-- C7, evaluated at the failing input. `two_running` satisfies the
environment free-list invariant. Environment 0 on CPU 0 marks its child,
environment 1, which CPU 1 is running, `ENV_NOT_RUNNABLE` and destroys it;
both calls return 0, and as the child is no longer `ENV_RUNNING`,
`env_destroy` frees it at once: it is `ENV_FREE`, at the head of
`env_free_list` and still the current environment of CPU 1, and the invariant
holds. The child then calls `sys_env_set_status(0, ENV_RUNNABLE)` on CPU 1:
the call returns 0 and leaves environment 1 `ENV_RUNNABLE` at the head of
`env_free_list`, so the invariant is broken by a `sys_env_set_status`. -/
theorem env_free_list_invariant_broken :
    FreeListInv 1 two_running ∧
    (sys_env_set_status 1 two_running 0 0x1001 ENV_NOT_RUNNABLE).map (fun r => r.1) = some 0 ∧
    freed_running_trace.map (fun r => r.1) = some 0 ∧
    FreeListInv 1 freed_running ∧
    curenv freed_running 1 = some 1 ∧
    (freed_running.envs 1).env_status = ENV_FREE ∧
    freed_running.env_free_list = some 1 ∧
    sys_env_set_status 1 freed_running 1 0 ENV_RUNNABLE = some (0, freed_runnable) ∧
    (freed_runnable.envs 1).env_status = ENV_RUNNABLE ∧
    freed_runnable.env_free_list = some 1 ∧
    ¬ FreeListInv 1 freed_runnable := by
  have h1 : (freed_runnable.envs 1).env_status = ENV_RUNNABLE := by decide
  have h2 : freed_runnable.env_free_list = some 1 := by decide
  refine ⟨two_running_freeListInv, by decide, freed_running_trace_ok, freed_running_freeListInv,
    freed_running_cur, freed_running_status, freed_running_head,
    option_pair_eq _ freed_running (by decide), h1, h2, fun hinv => ?_⟩
  have := (freeListInv_head hinv h2).2
  rw [h1] at this
  exact absurd this (by decide)

theorem freed_forked_eq : sys_exofork 1 freed_running 1 = some (0x2001, freed_forked) := by
  obtain ⟨st1, h⟩ := env_alloc_succeeds 1 freed_running 0x1001 1 4 5 1 freed_running_head
    (by decide) (by decide) (by decide) (by decide) (by norm_num) (by decide) (by decide)
    (by decide) (by decide) (by decide) (by decide)
  have hid := freed_running_id
  have hcur := freed_running_cur
  have hrun : ∃ s, sys_exofork 1 freed_running 1 = some (0x2001, s) := by
    obtain ⟨r, s, hs⟩ := sys_exofork_returns hcur (hid.symm ▸ h)
    rcases sys_exofork_cases hs with ⟨hneg, pid, store, ha⟩ |
      ⟨pid, e, c, s1, ha, hc, hpid, _, _, _, _, _, _, _, _, hr⟩
    · exfalso
      rcases env_alloc_cases ha with ⟨hn, _⟩ | ⟨e, he, hv, hr, _⟩ | ⟨e, s1, _, _, hr, _⟩
      · rw [freed_running_head] at hn
        cases hn
      · rcases env_alloc_cases h with ⟨hn, _⟩ | ⟨_, _, _, hr0, _⟩ | ⟨e1, s1, he1, hv1, _⟩
        · rw [freed_running_head] at hn
          cases hn
        · exact absurd hr0 (by decide)
        · rw [he] at he1
          cases he1
          rw [hv] at hv1
          cases hv1
          exact absurd hr (by decide)
      · rw [hr] at hneg
        exact absurd hneg (by decide)
    · rw [hcur] at hc
      cases hc
      rw [hpid, hid, h] at ha
      cases ha
      have hid1 : (st1.envs 1).env_id = 0x2001 := by
        rw [(env_alloc_success h).2.2.2.2.2]
        show next_env_id 1 (freed_running.envs 1).env_id 1 = 0x2001
        rw [hid]
        decide
      rw [hid1] at hr
      refine ⟨s, ?_⟩
      rw [hs, hr]
      rfl
  obtain ⟨s, hs⟩ := hrun
  simp [freed_forked, hs]
/-- C12, evaluated at the failing input. In `freed_running`, the state after
environment 0 marked its running child `ENV_NOT_RUNNABLE` and destroyed it,
environment 1 (id `0x1001`) is free, at the head of `env_free_list`, and
still the current environment of CPU 1. Its `sys_exofork` on CPU 1 returns
`0x2001`, a positive id whose slot is the caller's own: `env_alloc` has
handed the caller its own record, which now has the id `0x2001`, the parent
id `0x1001` and the status `ENV_NOT_RUNNABLE`. The caller's record is not
unchanged, no child was created, and no environment of the table has the id
`0x1001` that the record names as its parent. -/
theorem sys_exofork_allocates_caller :
    freed_running_trace.map (fun r => r.1) = some 0 ∧
    curenv freed_running 1 = some 1 ∧
    (freed_running.envs 1).env_id = 0x1001 ∧
    (freed_running.envs 1).env_status = ENV_FREE ∧
    freed_running.env_free_list = some 1 ∧
    sys_exofork 1 freed_running 1 = some (0x2001, freed_forked) ∧
    ENVX 1 0x2001 = 1 ∧
    curenv freed_forked 1 = some 1 ∧
    (freed_forked.envs 1).env_id = 0x2001 ∧
    (freed_forked.envs 1).env_parent_id = 0x1001 ∧
    (freed_forked.envs 1).env_status = ENV_NOT_RUNNABLE ∧
    freed_forked.envs 1 ≠ freed_running.envs 1 ∧
    ∀ i, i < NENV 1 → (freed_forked.envs i).env_id ≠ 0x1001 := by
  have hid := freed_running_id
  have hcur := freed_running_cur
  have hhead := freed_running_head
  rcases sys_exofork_cases freed_forked_eq with ⟨hneg, _⟩ |
    ⟨pid, e, c, st1, ha, hc, hpid, _, hcpu, hoth, hid', _, hpar, hstat, _, _⟩
  · exact absurd hneg (by decide)
  · obtain ⟨_, hh, _, hcpu1, hoth1, hrec⟩ := env_alloc_success ha
    rw [hhead] at hh
    cases hh
    rw [hcur] at hc
    cases hc
    have hid1 : (st1.envs 1).env_id = 0x2001 := by
      rw [hrec]
      show next_env_id 1 (freed_running.envs 1).env_id 1 = 0x2001
      rw [hid]
      decide
    have hpar1 : (st1.envs 1).env_parent_id = 0x1001 := by
      rw [hrec]
      show pid = 0x1001
      rw [hpid, hid]
    have hnew : (freed_forked.envs 1).env_id = 0x2001 := by rw [hid', hid1]
    refine ⟨freed_running_trace_ok, hcur, hid, freed_running_status, hhead, freed_forked_eq,
      by decide, ?_, hnew, ?_,
      hstat, ?_, ?_⟩
    · have e : ∀ a b : Kernel, a.cpu_env = b.cpu_env → curenv a 1 = curenv b 1 :=
        fun a b h => by unfold curenv; rw [h]
      exact (e _ _ (hcpu.trans hcpu1)).trans hcur
    · rw [hpar, hpar1]
    · intro heq
      rw [heq, hid] at hnew
      exact absurd hnew (by decide)
    · intro i hi
      have hi2 : i < 2 := hi
      interval_cases i
      · rw [hoth 0 (by decide), hoth1 0 (by decide)]
        decide
      · rw [hnew]
        decide

end JOS
